import Mathlib

/-! Red-black tree of the repository (`src/RedBlackTree.h`): the member functions over an
explicit memory, the tree a state holds, and what the member functions do to it.

Part 1: definitions. -/

namespace RBT

/-- An address.  `0` is `nullptr`. -/
abbrev Ptr := Nat

/-- The source's `enum Color { RED, BLACK }`. -/
inductive Color where
  | RED
  | BLACK
deriving DecidableEq

/-- The source's `struct Node`: `data` (key and mapped value), the three links, the color. -/
structure Node (K V : Type) where
  key : K
  val : V
  parent : Ptr
  left : Ptr
  right : Ptr
  color : Color
deriving DecidableEq

/-- What ends a run that C++ leaves undefined, or that exceeds the loop bound. -/
inductive Fault where
  | null_deref
  | dangling
  | fuel
deriving DecidableEq

/-- Result of a member function: a value or a fault. -/
abbrev Res (α : Type) := Except Fault α

/-- The members `_root`, `_nil`, `_tree_size` of the class, the memory they point
into, and the next address `new` hands out (`brk`).  `_comp` is passed to the
functions that compare keys. -/
structure RedBlackTree (K V : Type) where
  mem : Ptr → Option (Node K V)
  root : Ptr
  nil : Ptr
  tree_size : Nat
  brk : Ptr

/-- The source's `class Iterator`: the members `_node`, `_nil`, `_root`. -/
structure Iterator where
  node : Ptr
  nil : Ptr
  root : Ptr
deriving DecidableEq

namespace RedBlackTree

variable {K V : Type}

/-- Reading `*p`. -/
def load (t : RedBlackTree K V) (p : Ptr) : Res (Node K V) :=
  if p = 0 then .error .null_deref
  else match t.mem p with
    | some n => .ok n
    | none => .error .dangling

/-- Overwriting the node at `p`. -/
def store (t : RedBlackTree K V) (p : Ptr) (n : Node K V) : RedBlackTree K V :=
  { t with mem := Function.update t.mem p (some n) }

/-- Reads `p->parent`. -/
def parent_of (t : RedBlackTree K V) (p : Ptr) : Res Ptr := do
  let n ← t.load p
  pure n.parent

/-- Reads `p->left`. -/
def left_of (t : RedBlackTree K V) (p : Ptr) : Res Ptr := do
  let n ← t.load p
  pure n.left

/-- Reads `p->right`. -/
def right_of (t : RedBlackTree K V) (p : Ptr) : Res Ptr := do
  let n ← t.load p
  pure n.right

/-- Reads `p->color`. -/
def color_of (t : RedBlackTree K V) (p : Ptr) : Res Color := do
  let n ← t.load p
  pure n.color

/-- Reads `p->data.first`. -/
def key_of (t : RedBlackTree K V) (p : Ptr) : Res K := do
  let n ← t.load p
  pure n.key

/-- The assignment `p->parent = q`. -/
def set_parent (t : RedBlackTree K V) (p q : Ptr) : Res (RedBlackTree K V) := do
  let n ← t.load p
  pure (t.store p { n with parent := q })

/-- The assignment `p->left = q`. -/
def set_left (t : RedBlackTree K V) (p q : Ptr) : Res (RedBlackTree K V) := do
  let n ← t.load p
  pure (t.store p { n with left := q })

/-- The assignment `p->right = q`. -/
def set_right (t : RedBlackTree K V) (p q : Ptr) : Res (RedBlackTree K V) := do
  let n ← t.load p
  pure (t.store p { n with right := q })

/-- The assignment `p->color = c`. -/
def set_color (t : RedBlackTree K V) (p : Ptr) (c : Color) : Res (RedBlackTree K V) := do
  let n ← t.load p
  pure (t.store p { n with color := c })

/-- The statement `delete p`. -/
def free (t : RedBlackTree K V) (p : Ptr) : Res (RedBlackTree K V) := do
  let _ ← t.load p
  pure { t with mem := Function.update t.mem p none }

/-- The source's `RedBlackTree()`: allocates the sentinel, BLACK, its three links `nullptr`,
and makes it the root. -/
def empty [Inhabited K] [Inhabited V] : RedBlackTree K V :=
  { mem := Function.update (fun _ => none) 1 (some ⟨default, default, 0, 0, 0, .BLACK⟩),
    root := 1, nil := 1, tree_size := 0, brk := 2 }

/-- The source's `create_node(key, value)` with its default arguments `color = RED`,
`parent = nullptr`: a new node whose two child links are the sentinel. -/
def create_node (t : RedBlackTree K V) (key : K) (value : V) : RedBlackTree K V × Ptr :=
  ({ t with mem := Function.update t.mem t.brk (some ⟨key, value, 0, t.nil, t.nil, .RED⟩),
            brk := t.brk + 1 }, t.brk)

/-- The source's `size()`. -/
def size (t : RedBlackTree K V) : Nat := t.tree_size

/-- The source's `empty()` of the class: `_tree_size == 0`. -/
def is_empty (t : RedBlackTree K V) : Bool := t.tree_size == 0

/-- The source's `end()`. -/
def end_it (t : RedBlackTree K V) : Iterator := ⟨t.nil, t.nil, t.root⟩

/-- The source's `minimum(x)` of the tree: `while (x != _nil && x->left != _nil) x = x->left`. -/
def minimum (t : RedBlackTree K V) : Nat → Ptr → Res Ptr
  | 0, _ => .error .fuel
  | fuel + 1, x =>
    if x = t.nil then pure x
    else do
      let xl ← t.left_of x
      if xl = t.nil then pure x else minimum t fuel xl

/-- The source's `find_helper(key)`, the loop started at `current`. -/
def find_loop (comp : K → K → Bool) (t : RedBlackTree K V) (key : K) : Nat → Ptr → Res Ptr
  | 0, _ => .error .fuel
  | fuel + 1, current =>
    if current = t.nil then pure t.nil
    else do
      let n ← t.load current
      if comp key n.key then find_loop comp t key fuel n.left
      else if comp n.key key then find_loop comp t key fuel n.right
      else pure current

/-- The source's `find_helper(key)`. -/
def find_helper (comp : K → K → Bool) (fuel : Nat) (t : RedBlackTree K V) (key : K) : Res Ptr :=
  find_loop comp t key fuel t.root

/-- The source's `find(key)`. -/
def find (comp : K → K → Bool) (fuel : Nat) (t : RedBlackTree K V) (key : K) : Res Iterator := do
  let result ← find_helper comp fuel t key
  if result ≠ t.nil then pure ⟨result, t.nil, t.root⟩ else pure t.end_it

/-- The source's `contains(key)`. -/
def contains (comp : K → K → Bool) (fuel : Nat) (t : RedBlackTree K V) (key : K) : Res Bool := do
  let result ← find_helper comp fuel t key
  pure (decide (result ≠ t.nil))

/-- The source's `Iterator::operator*`: the pair stored in `_node`. -/
def deref (t : RedBlackTree K V) (it : Iterator) : Res (K × V) := do
  let n ← t.load it.node
  pure (n.key, n.val)

/-- The source's `rotate_left(x)`. -/
def rotate_left (t : RedBlackTree K V) (x : Ptr) : Res (RedBlackTree K V) := do
  let y ← t.right_of x
  let yl ← t.left_of y
  let t ← t.set_right x yl
  let yl ← t.left_of y
  let t ← if yl ≠ t.nil then t.set_parent yl x else pure t
  let xp ← t.parent_of x
  let t ← t.set_parent y xp
  let xp ← t.parent_of x
  let t ← if xp = t.nil then pure { t with root := y }
    else do
      let xpl ← t.left_of xp
      if x = xpl then t.set_left xp y else t.set_right xp y
  let t ← t.set_left y x
  t.set_parent x y

/-- The source's `rotate_right(x)`. -/
def rotate_right (t : RedBlackTree K V) (x : Ptr) : Res (RedBlackTree K V) := do
  let y ← t.left_of x
  let yr ← t.right_of y
  let t ← t.set_left x yr
  let yr ← t.right_of y
  let t ← if yr ≠ t.nil then t.set_parent yr x else pure t
  let xp ← t.parent_of x
  let t ← t.set_parent y xp
  let xp ← t.parent_of x
  let t ← if xp = t.nil then pure { t with root := y }
    else do
      let xpr ← t.right_of xp
      if x = xpr then t.set_right xp y else t.set_left xp y
  let t ← t.set_right y x
  t.set_parent x y

/-- The last statement of `insert_fix`: `_root->color = BLACK`. -/
def insert_fix_exit (t : RedBlackTree K V) : Res (RedBlackTree K V) :=
  t.set_color t.root .BLACK

/-- The three statements that end the uncle-BLACK branch of `insert_fix` when the
parent is a left child: `z->parent->color = BLACK; z->parent->parent->color = RED;
rotate_right(z->parent->parent)`. -/
def insert_fix_outer_l (t : RedBlackTree K V) (z : Ptr) : Res (RedBlackTree K V) := do
  let zp ← t.parent_of z
  let t ← t.set_color zp .BLACK
  let zp ← t.parent_of z
  let zpp ← t.parent_of zp
  let t ← t.set_color zpp .RED
  let zp ← t.parent_of z
  let zpp ← t.parent_of zp
  t.rotate_right zpp

/-- The mirror image of `insert_fix_outer_l`, ending in `rotate_left`. -/
def insert_fix_outer_r (t : RedBlackTree K V) (z : Ptr) : Res (RedBlackTree K V) := do
  let zp ← t.parent_of z
  let t ← t.set_color zp .BLACK
  let zp ← t.parent_of z
  let zpp ← t.parent_of zp
  let t ← t.set_color zpp .RED
  let zp ← t.parent_of z
  let zpp ← t.parent_of zp
  t.rotate_left zpp

/-- The uncle-RED branch of `insert_fix` with uncle `y`: `z->parent->color = BLACK;
y->color = BLACK; z->parent->parent->color = RED; z = z->parent->parent`.
Returns the new tree and the new `z`. -/
def insert_fix_recolor (t : RedBlackTree K V) (z y : Ptr) : Res (RedBlackTree K V × Ptr) := do
  let zp ← t.parent_of z
  let t ← t.set_color zp .BLACK
  let t ← t.set_color y .BLACK
  let zp ← t.parent_of z
  let zpp ← t.parent_of zp
  let t ← t.set_color zpp .RED
  let zp ← t.parent_of z
  let zpp ← t.parent_of zp
  pure (t, zpp)

/-- The source's `insert_fix(z)`: one unit of fuel per evaluation of the loop condition
`z->parent && z->parent->color == RED`. -/
def insert_fix : Nat → RedBlackTree K V → Ptr → Res (RedBlackTree K V)
  | 0, _, _ => .error .fuel
  | fuel + 1, t, z => do
    let zp ← t.parent_of z
    if zp = 0 then t.insert_fix_exit
    else do
      let cp ← t.color_of zp
      if cp ≠ .RED then t.insert_fix_exit
      else do
        let zpp ← t.parent_of zp
        let zppl ← t.left_of zpp
        if zp = zppl then do
          let y ← t.right_of zpp
          let cy ← t.color_of y
          if cy = .RED then do
            let (t, z) ← t.insert_fix_recolor z y
            insert_fix fuel t z
          else do
            let zpr ← t.right_of zp
            if z = zpr then do
              let t ← t.rotate_left zp
              let t ← t.insert_fix_outer_l zp
              insert_fix fuel t zp
            else do
              let t ← t.insert_fix_outer_l z
              insert_fix fuel t z
        else do
          let y ← t.left_of zpp
          let cy ← t.color_of y
          if cy = .RED then do
            let (t, z) ← t.insert_fix_recolor z y
            insert_fix fuel t z
          else do
            let zpl ← t.left_of zp
            if z = zpl then do
              let t ← t.rotate_right zp
              let t ← t.insert_fix_outer_r zp
              insert_fix fuel t zp
            else do
              let t ← t.insert_fix_outer_r z
              insert_fix fuel t z

/-- The descent of `insert` for the key `zkey` of the new node: returns `(y, x, dup)`,
where `dup` says that the loop left through the `!AllowDuplicates` branch at `x`. -/
def insert_loop (comp : K → K → Bool) (dup : Bool) (t : RedBlackTree K V) (zkey : K) :
    Nat → Ptr → Ptr → Res (Ptr × Ptr × Bool)
  | 0, _, _ => .error .fuel
  | fuel + 1, y, x =>
    if x = t.nil then pure (y, x, false)
    else do
      let n ← t.load x
      if comp zkey n.key then insert_loop comp dup t zkey fuel x n.left
      else if comp n.key zkey then insert_loop comp dup t zkey fuel x n.right
      else if !dup then pure (x, x, true)
      else insert_loop comp dup t zkey fuel x n.right

/-- The statements of `insert` that hang the new node `z` under `y`:
`z->parent = y; if (y == _nil) _root = z; else if (_comp(z->data.first, y->data.first))
y->left = z; else y->right = z`. -/
def insert_link (comp : K → K → Bool) (t : RedBlackTree K V) (z y : Ptr) :
    Res (RedBlackTree K V) := do
  let t ← t.set_parent z y
  if y = t.nil then pure { t with root := z }
  else do
    let zk ← t.key_of z
    let yk ← t.key_of y
    if comp zk yk then t.set_left y z else t.set_right y z

/-- The source's `insert(val)`.  The iterator it returns is `iterator(z, _nil)`, whose `_root`
is the default argument `nullptr`. -/
def insert (comp : K → K → Bool) (dup : Bool) (fuel : Nat) (t : RedBlackTree K V) (val : K × V) :
    Res (RedBlackTree K V × Iterator × Bool) := do
  let (t, z) := t.create_node val.1 val.2
  let zkey ← t.key_of z
  let (y, x, found) ← insert_loop comp dup t zkey fuel t.nil t.root
  if found then do
    let t ← t.free z
    pure (t, ⟨x, t.nil, 0⟩, false)
  else do
    let t ← t.insert_link comp z y
    let t ← insert_fix fuel t z
    pure ({ t with tree_size := t.tree_size + 1 }, ⟨z, t.nil, 0⟩, true)

/-- The source's `transplant(u, v)`. -/
def transplant (t : RedBlackTree K V) (u v : Ptr) : Res (RedBlackTree K V) := do
  let up ← t.parent_of u
  let t ← if up = t.nil then pure { t with root := v }
    else do
      let upl ← t.left_of up
      if u = upl then t.set_left up v else t.set_right up v
  let up ← t.parent_of u
  t.set_parent v up

/-- The test `w->left->color == BLACK && w->right->color == BLACK` of `erase_fix`
(`a` is `left`, `b` is `right`) and its mirror image; `&&` reads the second color only
when the first is BLACK. -/
def both_black (t : RedBlackTree K V) (a b : Ptr) : Res Bool := do
  let ca ← t.color_of a
  if ca = .BLACK then do
    let cb ← t.color_of b
    pure (decide (cb = .BLACK))
  else pure false

/-- The end of the `else` branch of `erase_fix` when `x` is a left child:
`w->color = x->parent->color; x->parent->color = BLACK; w->right->color = BLACK;
rotate_left(x->parent)`. -/
def erase_fix_far_l (t : RedBlackTree K V) (x w : Ptr) : Res (RedBlackTree K V) := do
  let xp ← t.parent_of x
  let cxp ← t.color_of xp
  let t ← t.set_color w cxp
  let xp ← t.parent_of x
  let t ← t.set_color xp .BLACK
  let wr ← t.right_of w
  let t ← t.set_color wr .BLACK
  let xp ← t.parent_of x
  t.rotate_left xp

/-- The mirror image of `erase_fix_far_l`. -/
def erase_fix_far_r (t : RedBlackTree K V) (x w : Ptr) : Res (RedBlackTree K V) := do
  let xp ← t.parent_of x
  let cxp ← t.color_of xp
  let t ← t.set_color w cxp
  let xp ← t.parent_of x
  let t ← t.set_color xp .BLACK
  let wl ← t.left_of w
  let t ← t.set_color wl .BLACK
  let xp ← t.parent_of x
  t.rotate_right xp

/-- The body of `if (w->color == RED)` of `erase_fix` when `x` is a left child:
`w->color = BLACK; x->parent->color = RED; rotate_left(x->parent); w = x->parent->right`.
Returns the tree and the new `w`. -/
def erase_fix_red_l (t : RedBlackTree K V) (x w : Ptr) : Res (RedBlackTree K V × Ptr) := do
  let t ← t.set_color w .BLACK
  let xp ← t.parent_of x
  let t ← t.set_color xp .RED
  let xp ← t.parent_of x
  let t ← t.rotate_left xp
  let xp ← t.parent_of x
  let w ← t.right_of xp
  pure (t, w)

/-- The mirror image of `erase_fix_red_l`. -/
def erase_fix_red_r (t : RedBlackTree K V) (x w : Ptr) : Res (RedBlackTree K V × Ptr) := do
  let t ← t.set_color w .BLACK
  let xp ← t.parent_of x
  let t ← t.set_color xp .RED
  let xp ← t.parent_of x
  let t ← t.rotate_right xp
  let xp ← t.parent_of x
  let w ← t.left_of xp
  pure (t, w)

/-- The body of `if (w->right->color == BLACK)` of `erase_fix` when `x` is a left child:
`w->left->color = BLACK; w->color = RED; rotate_right(w); w = x->parent->right`.
Returns the tree and the new `w`. -/
def erase_fix_near_l (t : RedBlackTree K V) (x w : Ptr) : Res (RedBlackTree K V × Ptr) := do
  let wl ← t.left_of w
  let t ← t.set_color wl .BLACK
  let t ← t.set_color w .RED
  let t ← t.rotate_right w
  let xp ← t.parent_of x
  let w ← t.right_of xp
  pure (t, w)

/-- The mirror image of `erase_fix_near_l`. -/
def erase_fix_near_r (t : RedBlackTree K V) (x w : Ptr) : Res (RedBlackTree K V × Ptr) := do
  let wr ← t.right_of w
  let t ← t.set_color wr .BLACK
  let t ← t.set_color w .RED
  let t ← t.rotate_left w
  let xp ← t.parent_of x
  let w ← t.left_of xp
  pure (t, w)

/-- The branch `else` of the test on the colors of the children of `w` in `erase_fix`, when
`x` is a left child; the loop goes on with `x = _root`. -/
def erase_fix_else_l (t : RedBlackTree K V) (x w : Ptr) : Res (RedBlackTree K V) := do
  let wr ← t.right_of w
  let cwr ← t.color_of wr
  let (t, w) ← if cwr = .BLACK then t.erase_fix_near_l x w else pure (t, w)
  t.erase_fix_far_l x w

/-- The mirror image of `erase_fix_else_l`. -/
def erase_fix_else_r (t : RedBlackTree K V) (x w : Ptr) : Res (RedBlackTree K V) := do
  let wl ← t.left_of w
  let cwl ← t.color_of wl
  let (t, w) ← if cwl = .BLACK then t.erase_fix_near_r x w else pure (t, w)
  t.erase_fix_far_r x w

/-- The source's `erase_fix(x)`: one unit of fuel per evaluation of the loop condition
`x != _root && x->color == BLACK`. -/
def erase_fix : Nat → RedBlackTree K V → Ptr → Res (RedBlackTree K V)
  | 0, _, _ => .error .fuel
  | fuel + 1, t, x =>
    if x = t.root then t.set_color x .BLACK
    else do
      let cx ← t.color_of x
      if cx ≠ .BLACK then t.set_color x .BLACK
      else do
        let xp ← t.parent_of x
        let xpl ← t.left_of xp
        if x = xpl then do
          let w ← t.right_of xp
          let cw ← t.color_of w
          let (t, w) ← if cw = .RED then t.erase_fix_red_l x w else pure (t, w)
          let wl ← t.left_of w
          let wr ← t.right_of w
          let bb ← t.both_black wl wr
          if bb then do
            let t ← t.set_color w .RED
            let xp ← t.parent_of x
            erase_fix fuel t xp
          else do
            let t ← t.erase_fix_else_l x w
            erase_fix fuel t t.root
        else do
          let w ← t.left_of xp
          let cw ← t.color_of w
          let (t, w) ← if cw = .RED then t.erase_fix_red_r x w else pure (t, w)
          let wr ← t.right_of w
          let wl ← t.left_of w
          let bb ← t.both_black wr wl
          if bb then do
            let t ← t.set_color w .RED
            let xp ← t.parent_of x
            erase_fix fuel t xp
          else do
            let t ← t.erase_fix_else_r x w
            erase_fix fuel t t.root

/-- The statements `y->right = z->right; y->right->parent = y` of `delete_node`. -/
def delete_hang (t : RedBlackTree K V) (z y : Ptr) : Res (RedBlackTree K V) := do
  let zr ← t.right_of z
  let t ← t.set_right y zr
  let yr ← t.right_of y
  t.set_parent yr y

/-- The statements `transplant(z, y); y->left = z->left; y->left->parent = y;
y->color = z->color` of `delete_node`. -/
def delete_attach (t : RedBlackTree K V) (z y : Ptr) : Res (RedBlackTree K V) := do
  let t ← t.transplant z y
  let zl ← t.left_of z
  let t ← t.set_left y zl
  let yl ← t.left_of y
  let t ← t.set_parent yl y
  let cz ← t.color_of z
  t.set_color y cz

/-- The `if`/`else if`/`else` of `delete_node(z)` that takes `z` out of the tree:
returns the tree, `x` and `original_color`. -/
def delete_splice (fuel : Nat) (t : RedBlackTree K V) (z : Ptr) :
    Res (RedBlackTree K V × Ptr × Color) := do
  let original_color ← t.color_of z
  let zl ← t.left_of z
  if zl = t.nil then do
    let x ← t.right_of z
    let t ← t.transplant z x
    pure (t, x, original_color)
  else do
    let zr ← t.right_of z
    if zr = t.nil then do
      let x ← t.left_of z
      let t ← t.transplant z x
      pure (t, x, original_color)
    else do
      let y ← t.minimum fuel zr
      let original_color ← t.color_of y
      let x ← t.right_of y
      let yp ← t.parent_of y
      let t ← if yp = z then t.set_parent x y
        else do
          let yr ← t.right_of y
          let t ← t.transplant y yr
          t.delete_hang z y
      let t ← t.delete_attach z y
      pure (t, x, original_color)

/-- The source's `delete_node(z)`. -/
def delete_node (fuel : Nat) (t : RedBlackTree K V) (z : Ptr) : Res (RedBlackTree K V) := do
  let (t, x, original_color) ← t.delete_splice fuel z
  let t ← t.free z
  if original_color = .BLACK then erase_fix fuel t x else pure t

/-- The source's `erase(key)`. -/
def erase (comp : K → K → Bool) (fuel : Nat) (t : RedBlackTree K V) (key : K) :
    Res (RedBlackTree K V × Bool) := do
  let z ← find_helper comp fuel t key
  if z = t.nil then pure (t, false)
  else do
    let t ← t.delete_node fuel z
    pure ({ t with tree_size := t.tree_size - 1 }, true)

/-- The source's `inorder_helper(node, visit)` with the visitor of `inorder()`, which appends the
pair to the result. -/
def inorder_helper (t : RedBlackTree K V) : Nat → Ptr → Res (List (K × V))
  | 0, _ => .error .fuel
  | fuel + 1, node =>
    if node = t.nil then pure []
    else do
      let n ← t.load node
      let ls ← inorder_helper t fuel n.left
      let rs ← inorder_helper t fuel n.right
      pure (ls ++ (n.key, n.val) :: rs)

/-- The source's `inorder()`. -/
def inorder (fuel : Nat) (t : RedBlackTree K V) : Res (List (K × V)) :=
  t.inorder_helper fuel t.root

end RedBlackTree

variable {K V : Type}

/-- A binary tree of nodes with their addresses, colors, keys and values. -/
inductive Tree (K V : Type) where
  | leaf
  | node (p : Ptr) (c : Color) (l : Tree K V) (k : K) (v : V) (r : Tree K V)

namespace Tree

/-- Address of the root node; the sentinel for the empty tree. -/
def ptr (nil : Ptr) : Tree K V → Ptr
  | leaf => nil
  | node p _ _ _ _ _ => p

/-- Color of the root node; BLACK for the empty tree (the sentinel). -/
def color : Tree K V → Color
  | leaf => .BLACK
  | node _ c _ _ _ _ => c

/-- Addresses of the nodes, in in-order. -/
def addrs : Tree K V → List Ptr
  | leaf => []
  | node p _ l _ _ r => l.addrs ++ p :: r.addrs

/-- Key/value pairs, in in-order. -/
def toList : Tree K V → List (K × V)
  | leaf => []
  | node _ _ l k v r => l.toList ++ (k, v) :: r.toList

/-- Number of nodes on the longest path from the root down. -/
def height : Tree K V → Nat
  | leaf => 0
  | node _ _ l _ _ r => 1 + max l.height r.height

/-- Number of nodes. -/
def count : Tree K V → Nat
  | leaf => 0
  | node _ _ l _ _ r => l.count + 1 + r.count

/-- The tree with its root colored BLACK. -/
def blacken : Tree K V → Tree K V
  | leaf => leaf
  | node p _ l k v r => node p .BLACK l k v r

end Tree

/-- Memory `mem` holds the tree, the parent link of its root being `par`. -/
def Rep (mem : Ptr → Option (Node K V)) (nil : Ptr) : Ptr → Tree K V → Prop
  | _, .leaf => True
  | par, .node p c l k v r =>
    p ≠ 0 ∧ p ≠ nil ∧ mem p = some ⟨k, v, par, l.ptr nil, r.ptr nil, c⟩ ∧
      Rep mem nil p l ∧ Rep mem nil p r

/-- A node with a hole for one child. -/
inductive Frame (K V : Type) where
  | left (p : Ptr) (c : Color) (k : K) (v : V) (r : Tree K V)
  | right (p : Ptr) (c : Color) (l : Tree K V) (k : K) (v : V)

namespace Frame

/-- Puts a tree into the hole. -/
def plug : Frame K V → Tree K V → Tree K V
  | left p c k v r, t => .node p c t k v r
  | right p c l k v, t => .node p c l k v t

/-- Address of the node of the frame. -/
def ptr : Frame K V → Ptr
  | left p _ _ _ _ => p
  | right p _ _ _ _ => p

/-- Color of the node of the frame. -/
def color : Frame K V → Color
  | left _ c _ _ _ => c
  | right _ c _ _ _ => c

/-- The child that is not the hole. -/
def sib : Frame K V → Tree K V
  | left _ _ _ _ r => r
  | right _ _ l _ _ => l

/-- The node of the frame as memory holds it, with parent link `par` and the hole
pointing to `h`. -/
def cell (nil par h : Ptr) : Frame K V → Node K V
  | left _ c k v r => ⟨k, v, par, h, r.ptr nil, c⟩
  | right _ c l k v => ⟨k, v, par, l.ptr nil, h, c⟩

/-- Addresses of the frame that come before the hole in in-order. -/
def addrsL : Frame K V → List Ptr
  | left _ _ _ _ _ => []
  | right p _ l _ _ => l.addrs ++ [p]

/-- Addresses of the frame that come after the hole in in-order. -/
def addrsR : Frame K V → List Ptr
  | left p _ _ _ r => p :: r.addrs
  | right _ _ _ _ _ => []

/-- Pairs of the frame that come before the hole in in-order. -/
def listL : Frame K V → List (K × V)
  | left _ _ _ _ _ => []
  | right _ _ l k v => l.toList ++ [(k, v)]

/-- Pairs of the frame that come after the hole in in-order. -/
def listR : Frame K V → List (K × V)
  | left _ _ k v r => (k, v) :: r.toList
  | right _ _ _ _ _ => []

end Frame

/-- The way from a subtree up to the root: the frame of the parent first. -/
abbrev Path (K V : Type) := List (Frame K V)

/-- The whole tree: the subtree put back under the frames above it. -/
def fill : Path K V → Tree K V → Tree K V
  | [], t => t
  | f :: fs, t => fill fs (f.plug t)

/-- Address of the parent of the hole; the sentinel when there is none. -/
def parentPtr (nil : Ptr) : Path K V → Ptr
  | [] => nil
  | f :: _ => f.ptr

namespace Path

/-- Addresses on the path that come before the hole in in-order. -/
def addrsL : Path K V → List Ptr
  | [] => []
  | f :: fs => addrsL fs ++ f.addrsL

/-- Addresses on the path that come after the hole in in-order. -/
def addrsR : Path K V → List Ptr
  | [] => []
  | f :: fs => f.addrsR ++ addrsR fs

/-- Pairs on the path that come before the hole in in-order. -/
def listL : Path K V → List (K × V)
  | [] => []
  | f :: fs => listL fs ++ f.listL

/-- Pairs on the path that come after the hole in in-order. -/
def listR : Path K V → List (K × V)
  | [] => []
  | f :: fs => f.listR ++ listR fs

end Path

/-- Memory holds the frames of a path whose outermost node has parent link `par0`
and whose hole points to `h`. -/
def RepP (mem : Ptr → Option (Node K V)) (nil par0 : Ptr) : Path K V → Ptr → Prop
  | [], _ => True
  | f :: fs, h =>
    f.ptr ≠ 0 ∧ f.ptr ≠ nil ∧
      mem f.ptr = some (f.cell nil (parentPtr par0 fs) h) ∧
      Rep mem nil f.ptr f.sib ∧ RepP mem nil par0 fs f.ptr

/-- The state `s` is the tree `T`: `_root` points to its root, whose parent link is
the sentinel; every node lies at its own address with the links of `T`; the sentinel
is allocated and is none of the nodes; `new` hands out unused addresses. -/
structure IsTree (s : RedBlackTree K V) (T : Tree K V) : Prop where
  root_eq : s.root = T.ptr s.nil
  rep : Rep s.mem s.nil s.nil T
  nodup : T.addrs.Nodup
  nil_ne : s.nil ≠ 0
  nil_live : ∃ n, s.mem s.nil = some n
  unused : ∀ p, s.brk ≤ p → s.mem p = none
  brk_ne : s.brk ≠ 0

/-- Invariant 1 of the data model, read from memory: the sentinel is BLACK. -/
def SentinelBlack (s : RedBlackTree K V) : Prop := s.color_of s.nil = .ok .BLACK

namespace Path

/-- All addresses on a path: the nodes of its frames and of their other children. -/
def addrs (path : Path K V) : List Ptr := path.addrsL ++ path.addrsR

end Path

/-- What a state keeps when a member function rearranges nodes: the sentinel, the
element count and the allocator. -/
structure Keeps (s s' : RedBlackTree K V) : Prop where
  nil_eq : s'.nil = s.nil
  size_eq : s'.tree_size = s.tree_size
  brk_eq : s'.brk = s.brk

namespace RedBlackTree

/-- Reading `*p` from a memory. -/
def loadM (mem : Ptr → Option (Node K V)) (p : Ptr) : Res (Node K V) :=
  if p = 0 then .error .null_deref
  else match mem p with
    | some n => .ok n
    | none => .error .dangling

end RedBlackTree

namespace Tree

/-- The tree with its root node recolored. -/
def setColor (c : Color) : Tree K V → Tree K V
  | leaf => leaf
  | node p _ l k v r => node p c l k v r

end Tree

namespace Frame

/-- The frame with its node recolored. -/
def setColor (c : Color) : Frame K V → Frame K V
  | left p _ k v r => left p c k v r
  | right p _ l k v => right p c l k v

/-- The frame with its other child replaced. -/
def setSib (t : Tree K V) : Frame K V → Frame K V
  | left p c k v _ => left p c k v t
  | right p c _ k v => right p c t k v

end Frame

/-- Color of the root of a tree with the given path to the root; BLACK when the path
is empty. -/
def rootColor (path : Path K V) : Color := (fill path .leaf).color

/-- The descent of `insert` (and, with `dup = false`, of `find_helper`) for `key`:
where it ends, as a path and the subtree there. -/
def ins_path (comp : K → K → Bool) (dup : Bool) (key : K) : Path K V → Tree K V → Path K V × Tree K V
  | path, .leaf => (path, .leaf)
  | path, .node p c l k v r =>
    if comp key k then ins_path comp dup key (Frame.left p c k v r :: path) l
    else if comp k key then ins_path comp dup key (Frame.right p c l k v :: path) r
    else if !dup then (path, .node p c l k v r)
    else ins_path comp dup key (Frame.right p c l k v :: path) r

/-- The loop of `insert_fix` on the subtree `z` under `path`: the whole tree when the
loop ends. -/
def insert_fix_z : Path K V → Tree K V → Option (Tree K V)
  | [], z => some z
  | [f], z => if f.color = .BLACK then some (f.plug z) else none
  | fP :: fG :: rest, z =>
    if fP.color = .BLACK then some (fill (fP :: fG :: rest) z)
    else if fG.sib.color = .RED then
      insert_fix_z rest
        (((fG.setSib (fG.sib.setColor .BLACK)).setColor .RED).plug ((fP.setColor .BLACK).plug z))
    else
      match fG, fP, z with
      | .left G _ kg vg U, .left P _ kp vp b, z =>
        some (fill rest (.node P .BLACK z kp vp (.node G .RED b kg vg U)))
      | .left G _ kg vg U, .right P cp a kp vp, .node Z _ zl kz vz zr =>
        some (fill rest (.node Z .BLACK (.node P cp a kp vp zl) kz vz (.node G .RED zr kg vg U)))
      | .right G _ U kg vg, .right P _ a kp vp, z =>
        some (fill rest (.node P .BLACK (.node G .RED U kg vg a) kp vp z))
      | .right G _ U kg vg, .left P cp kp vp b, .node Z _ zl kz vz zr =>
        some (fill rest (.node Z .BLACK (.node G .RED U kg vg zl) kz vz (.node P cp zr kp vp b)))
      | _, _, .leaf => none

/-- Tree-level `insert`: the new tree and whether a node was added. -/
def insert_t (comp : K → K → Bool) (dup : Bool) (z : Ptr) (key : K) (val : V) (T : Tree K V) :
    Option (Tree K V × Bool) :=
  match ins_path comp dup key [] T with
  | (_, .node _ _ _ _ _ _) => some (T, false)
  | (path, .leaf) =>
    (insert_fix_z path (.node z .RED .leaf key val .leaf)).map fun T' => (T'.setColor .BLACK, true)

/-- The end of an iteration of `erase_fix` whose sibling `w` has a RED child, `x` being
the left child of `P`: the subtree that takes the place of `P`. -/
def erase_far_l (P : Ptr) (cp : Color) (x : Tree K V) (kp : K) (vp : V) :
    Tree K V → Option (Tree K V)
  | .node W _ wl wk wv wr =>
    if wr.color = .BLACK then
      match wl with
      | .node WL _ a k' v' b =>
        some (.node WL cp (.node P .BLACK x kp vp a) k' v' (.node W .BLACK b wk wv wr))
      | .leaf => none
    else some (.node W cp (.node P .BLACK x kp vp wl) wk wv (wr.setColor .BLACK))
  | .leaf => none

/-- The mirror image of `erase_far_l`: `x` is the right child of `P`. -/
def erase_far_r (P : Ptr) (cp : Color) (x : Tree K V) (kp : K) (vp : V) :
    Tree K V → Option (Tree K V)
  | .node W _ wl wk wv wr =>
    if wl.color = .BLACK then
      match wr with
      | .node WR _ a k' v' b =>
        some (.node WR cp (.node W .BLACK wl wk wv a) k' v' (.node P .BLACK b kp vp x))
      | .leaf => none
    else some (.node W cp (wl.setColor .BLACK) wk wv (.node P .BLACK wr kp vp x))
  | .leaf => none

/-- The loop of `erase_fix` on the subtree `x` under `path`, with the final
`x->color = BLACK`: the whole tree at the end. -/
def erase_fix_z : Path K V → Tree K V → Option (Tree K V)
  | [], x => some (x.setColor .BLACK)
  | f :: rest, x =>
    if x.color = .RED then some (fill (f :: rest) (x.setColor .BLACK))
    else
      match f with
      | .left P cp kp vp w =>
        match w with
        | .leaf => none
        | .node W .RED wl wk wv wr =>
          match wl with
          | .leaf => none
          | .node W2 c2 al ak av ar =>
            if al.color = .BLACK ∧ ar.color = .BLACK then
              some (fill rest (.node W .BLACK
                (.node P .BLACK x kp vp (.node W2 .RED al ak av ar)) wk wv wr))
            else
              (erase_far_l P .RED x kp vp (.node W2 c2 al ak av ar)).map fun t =>
                (fill rest (.node W .BLACK t wk wv wr)).setColor .BLACK
        | .node W .BLACK wl wk wv wr =>
          if wl.color = .BLACK ∧ wr.color = .BLACK then
            erase_fix_z rest (.node P cp x kp vp (.node W .RED wl wk wv wr))
          else
            (erase_far_l P cp x kp vp (.node W .BLACK wl wk wv wr)).map fun t =>
              (fill rest t).setColor .BLACK
      | .right P cp w kp vp =>
        match w with
        | .leaf => none
        | .node W .RED wl wk wv wr =>
          match wr with
          | .leaf => none
          | .node W2 c2 al ak av ar =>
            if ar.color = .BLACK ∧ al.color = .BLACK then
              some (fill rest (.node W .BLACK wl wk wv
                (.node P .BLACK (.node W2 .RED al ak av ar) kp vp x)))
            else
              (erase_far_r P .RED x kp vp (.node W2 c2 al ak av ar)).map fun t =>
                (fill rest (.node W .BLACK wl wk wv t)).setColor .BLACK
        | .node W .BLACK wl wk wv wr =>
          if wr.color = .BLACK ∧ wl.color = .BLACK then
            erase_fix_z rest (.node P cp (.node W .RED wl wk wv wr) kp vp x)
          else
            (erase_far_r P cp x kp vp (.node W .BLACK wl wk wv wr)).map fun t =>
              (fill rest t).setColor .BLACK

/-- The descent of `minimum`: the path to the leftmost node, and that node with its
subtree. -/
def min_path : Path K V → Tree K V → Path K V × Tree K V
  | path, .node p c (.node lp lc ll lk lv lr) k v r =>
    min_path (Frame.left p c k v r :: path) (.node lp lc ll lk lv lr)
  | path, t => (path, t)

/-- The structural part of `delete_node(z)`, for `z` the root of the subtree
`node z c l k v r` under `path`: the path to `x`, the subtree at `x`, and
`original_color`. -/
def delete_z (path : Path K V) (c : Color) (l r : Tree K V) : Path K V × Tree K V × Color :=
  match l, r with
  | .leaf, r => (path, r, c)
  | l, .leaf => (path, l, c)
  | l, r =>
    match min_path [] r with
    | (ypath, .node Y cy _ ky vy yr) => (ypath ++ Frame.right Y c l ky vy :: path, yr, cy)
    | (_, .leaf) => (path, .leaf, c)

/-- Tree-level `delete_node(z)`. -/
def delete_t (path : Path K V) (c : Color) (l r : Tree K V) : Option (Tree K V) :=
  match delete_z path c l r with
  | (path', x, .BLACK) => erase_fix_z path' x
  | (path', x, .RED) => some (fill path' x)

/-- Tree-level `erase`: the new tree and whether a node was removed. -/
def erase_t (comp : K → K → Bool) (key : K) (T : Tree K V) : Option (Tree K V × Bool) :=
  match ins_path comp false key [] T with
  | (_, .leaf) => some (T, false)
  | (path, .node _ c l _ _ r) => (delete_t path c l r).map fun T' => (T', true)

open RedBlackTree

/-- What the descent of `insert` returns for the place where it ends. -/
def loop_result (nil : Ptr) : Path K V × Tree K V → Ptr × Ptr × Bool
  | (path, .leaf) => (parentPtr nil path, nil, false)
  | (_, .node p _ _ _ _ _) => (p, p, true)

/-- What a state keeps when a member function rearranges nodes without writing to the
sentinel. -/
structure KeepsN (s s' : RedBlackTree K V) : Prop where
  keeps : Keeps s s'
  sent : s'.mem s.nil = s.mem s.nil

/-- A frame lies on the way of the descent for `key`: left child taken where `key` is
ordered before the key of the node, right child otherwise. -/
def DirOK (comp : K → K → Bool) (key : K) : Frame K V → Prop
  | .left _ _ k _ _ => comp key k = true
  | .right _ _ _ k _ => comp key k = false

/-- What a state keeps when a member function may write to the sentinel's links. -/
structure KeepsC (s s' : RedBlackTree K V) : Prop where
  keeps : Keeps s s'
  sent : SentinelBlack s → SentinelBlack s'
  links : ∀ n, s.mem s.nil = some n →
    ∃ n', s'.mem s.nil = some n' ∧ n'.left = n.left ∧ n'.right = n.right

namespace Tree

/-- Address, key and value of the nodes, in in-order. -/
def nodes : Tree K V → List (Ptr × K × V)
  | leaf => []
  | node p _ l k v r => l.nodes ++ (p, k, v) :: r.nodes

end Tree

namespace Frame

/-- Nodes of the frame that come before the hole in in-order. -/
def nodesL : Frame K V → List (Ptr × K × V)
  | left _ _ _ _ _ => []
  | right p _ l k v => l.nodes ++ [(p, k, v)]

/-- Nodes of the frame that come after the hole in in-order. -/
def nodesR : Frame K V → List (Ptr × K × V)
  | left p _ k v r => (p, k, v) :: r.nodes
  | right _ _ _ _ _ => []

end Frame

namespace Path

/-- Nodes on the path that come before the hole in in-order. -/
def nodesL : Path K V → List (Ptr × K × V)
  | [] => []
  | f :: fs => nodesL fs ++ f.nodesL

/-- Nodes on the path that come after the hole in in-order. -/
def nodesR : Path K V → List (Ptr × K × V)
  | [] => []
  | f :: fs => f.nodesR ++ nodesR fs

end Path

namespace Tree

/-- Number of BLACK nodes on the leftmost path from the root down to the sentinel. -/
def bh : Tree K V → Nat
  | leaf => 0
  | node _ c l _ _ _ => l.bh + (if c = .BLACK then 1 else 0)

/-- Black-height consistency: at every node, the two subtrees have the same number of
BLACK nodes on their paths down to the sentinel. -/
def bhOK : Tree K V → Prop
  | leaf => True
  | node _ _ l _ _ r => l.bhOK ∧ r.bhOK ∧ l.bh = r.bh

/-- No RED node has a RED child. -/
def noRR : Tree K V → Prop
  | leaf => True
  | node _ c l _ _ r => l.noRR ∧ r.noRR ∧ (c = .RED → l.color = .BLACK ∧ r.color = .BLACK)

/-- Black-height consistency can be computed. -/
instance decBhOK : (t : Tree K V) → Decidable t.bhOK
  | leaf => isTrue trivial
  | node _ _ l _ _ r =>
    have := decBhOK l
    have := decBhOK r
    inferInstanceAs (Decidable (l.bhOK ∧ r.bhOK ∧ l.bh = r.bh))

/-- The absence of a RED node with a RED child can be computed. -/
instance decNoRR : (t : Tree K V) → Decidable t.noRR
  | leaf => isTrue trivial
  | node _ c l _ _ r =>
    have := decNoRR l
    have := decNoRR r
    inferInstanceAs (Decidable (l.noRR ∧ r.noRR ∧ (c = .RED → l.color = .BLACK ∧ r.color = .BLACK)))

/-- Number of BLACK nodes on each path from the root down to the sentinel, the paths
taken from left to right. -/
def pathBlacks : Tree K V → List Nat
  | leaf => [0]
  | node _ c l _ _ r => (l.pathBlacks ++ r.pathBlacks).map (· + (if c = .BLACK then 1 else 0))

end Tree

/-- Color of the node above the hole; BLACK when there is none. -/
def headColor : Path K V → Color
  | [] => .BLACK
  | f :: _ => f.color

/-- Black-height consistency of what lies around the hole, for a subtree of black height
`n` in the hole. -/
def PathBH : Path K V → Nat → Prop
  | [], _ => True
  | f :: rest, n =>
    f.sib.bhOK ∧ f.sib.bh = n ∧ PathBH rest (n + (if f.color = .BLACK then 1 else 0))

/-- No RED node with a RED child in what lies around the hole. -/
def PathRR : Path K V → Prop
  | [] => True
  | f :: rest =>
    f.sib.noRR ∧ (f.color = .RED → f.sib.color = .BLACK ∧ headColor rest = .BLACK) ∧ PathRR rest

/-- Two keys are equivalent: neither is ordered before the other. -/
def KeyEquiv (comp : K → K → Bool) (a b : K) : Prop := comp a b = false ∧ comp b a = false

instance (comp : K → K → Bool) (a b : K) : Decidable (KeyEquiv comp a b) :=
  inferInstanceAs (Decidable (_ ∧ _))

/-- The ordering function is a strict weak ordering, as the `Compare` parameter of the
class has to be. -/
structure StrictWeak (comp : K → K → Bool) : Prop where
  irrefl : ∀ a, comp a a = false
  trans : ∀ a b c, comp a b = true → comp b c = true → comp a c = true
  equiv_trans : ∀ a b c, KeyEquiv comp a b → KeyEquiv comp b c → KeyEquiv comp a c

/-- The keys of a list of nodes are strictly increasing. -/
def Increasing (comp : K → K → Bool) (l : List (Ptr × K × V)) : Prop :=
  l.Pairwise fun a b => comp a.2.1 b.2.1 = true

/-- The keys of a list of nodes are sorted: no key is ordered before an earlier one. -/
def Sorted (comp : K → K → Bool) (l : List (Ptr × K × V)) : Prop :=
  l.Pairwise fun a b => comp b.2.1 a.2.1 = false

instance (comp : K → K → Bool) (l : List (Ptr × K × V)) : Decidable (Increasing comp l) :=
  List.instDecidablePairwise l

instance (comp : K → K → Bool) (l : List (Ptr × K × V)) : Decidable (Sorted comp l) :=
  List.instDecidablePairwise l

/-- The choice `insert` and `find_helper` made at the node of the frame, in
no-duplicates mode: left when `key` is ordered before the key of the node, right when
the key of the node is ordered before `key`. -/
def Dir (comp : K → K → Bool) (key : K) : Frame K V → Prop
  | .left _ _ k _ _ => comp key k = true
  | .right _ _ _ k _ => comp k key = true

/-- Tree-level `find_helper`: the node where the descent for `key` ends, when it is one. -/
def find_t (comp : K → K → Bool) (key : K) (T : Tree K V) : Option (Ptr × K × V) :=
  match (ins_path comp false key [] T).2 with
  | .leaf => none
  | .node p _ _ k v _ => some (p, k, v)

/-- The state of a tree object as the member functions keep it: the memory holds a tree
that satisfies the red-black invariants, and `_tree_size` is the number of its nodes. -/
structure Valid (s : RedBlackTree K V) (T : Tree K V) : Prop where
  tree : IsTree s T
  sentinel : SentinelBlack s
  root : T.color = .BLACK
  noRR : T.noRR
  bhOK : T.bhOK
  size : s.tree_size = T.count

/-- A call of `insert` or of `erase`. -/
inductive Op (K V : Type) where
  | insert (k : K) (v : V)
  | erase (k : K)

/-- The calls of `ops`, made one after the other on `t` in no-duplicates mode: the tree
at the end, with the number of calls of `insert` and of `erase` that returned true. -/
def run (comp : K → K → Bool) (fuel : Nat) :
    List (Op K V) → RedBlackTree K V → Res (RedBlackTree K V × Nat × Nat)
  | [], t => pure (t, 0, 0)
  | .insert k v :: ops, t => do
    let (t, _, b) ← insert comp false fuel t (k, v)
    let (t, i, e) ← run comp fuel ops t
    pure (t, i + b.toNat, e)
  | .erase k :: ops, t => do
    let (t, b) ← erase comp fuel t k
    let (t, i, e) ← run comp fuel ops t
    pure (t, i, e + b.toNat)

/-- The value `find(key)` leads to: `find(key)->second`, and nothing when
`find(key) == end()`. -/
def lookup (comp : K → K → Bool) (fuel : Nat) (t : RedBlackTree K V) (key : K) :
    Res (Option V) := do
  let it ← find comp fuel t key
  if it.node = t.nil then pure none
  else do
    let kv ← t.deref it
    pure (some kv.2)

/-- The ordering function `std::less` on the natural numbers. -/
def ltNat (a b : Nat) : Bool := decide (a < b)

/-- A tree with the one pair `(5, 0)`, as `insert((5, 0))` leaves it on the empty tree:
the sentinel at address 1, the root, BLACK, at address 2. -/
def oneNode : RedBlackTree Nat Nat :=
  { mem := fun p => if p = 1 then some ⟨0, 0, 0, 0, 0, .BLACK⟩
      else if p = 2 then some ⟨5, 0, 1, 1, 1, .BLACK⟩ else none,
    root := 2, nil := 1, tree_size := 1, brk := 3 }

/-- The tree that `oneNode` holds. -/
def oneNodeTree : Tree Nat Nat := .node 2 .BLACK .leaf 5 0 .leaf

/-- A tree whose root is RED: the pair `(5, 0)` alone, the sentinel BLACK. -/
def redRoot : RedBlackTree Nat Nat :=
  { mem := fun p => if p = 1 then some ⟨0, 0, 0, 0, 0, .BLACK⟩
      else if p = 2 then some ⟨5, 0, 1, 1, 1, .RED⟩ else none,
    root := 2, nil := 1, tree_size := 1, brk := 3 }

/-- The tree that `redRoot` holds. -/
def redRootTree : Tree Nat Nat := .node 2 .RED .leaf 5 0 .leaf

/-- A tree that is not a search tree: the root holds `(5, 0)` and its left child
`(7, 0)`. -/
def unsorted : RedBlackTree Nat Nat :=
  { mem := fun p => if p = 1 then some ⟨0, 0, 0, 0, 0, .BLACK⟩
      else if p = 2 then some ⟨5, 0, 1, 3, 1, .BLACK⟩
      else if p = 3 then some ⟨7, 0, 2, 1, 1, .RED⟩ else none,
    root := 2, nil := 1, tree_size := 2, brk := 4 }

/-- The tree that `unsorted` holds. -/
def unsortedTree : Tree Nat Nat := .node 2 .BLACK (.node 3 .RED .leaf 7 0 .leaf) 5 0 .leaf

/-- A search tree whose black heights differ: the root holds `(2, 0)`, its left child, BLACK,
holds `(1, 0)`, and it has no right child. -/
def lopsided : RedBlackTree Nat Nat :=
  { mem := fun p => if p = 1 then some ⟨0, 0, 0, 0, 0, .BLACK⟩
      else if p = 2 then some ⟨2, 0, 1, 3, 1, .BLACK⟩
      else if p = 3 then some ⟨1, 0, 2, 1, 1, .BLACK⟩ else none,
    root := 2, nil := 1, tree_size := 2, brk := 4 }

/-- The tree that `lopsided` holds. -/
def lopsidedTree : Tree Nat Nat := .node 2 .BLACK (.node 3 .BLACK .leaf 1 0 .leaf) 2 0 .leaf

/-- The members `_root`, `_nil`, `_tree_size` of a second object of the class, whose nodes lie
in the same memory as those of the first. -/
structure Members where
  root : Ptr
  nil : Ptr
  tree_size : Nat
deriving DecidableEq

/-- The standard library's `std::reverse_iterator<iterator>`: the member `current`. -/
structure ReverseIterator where
  current : Iterator
deriving DecidableEq

namespace RedBlackTree

variable {K V : Type}

/-- The members of the object. -/
def members (t : RedBlackTree K V) : Members := ⟨t.root, t.nil, t.tree_size⟩

/-- The object with members `o`, in the memory of `t`. -/
def view (t : RedBlackTree K V) (o : Members) : RedBlackTree K V :=
  { t with root := o.root, nil := o.nil, tree_size := o.tree_size }

/-- The recursive lambda `dfs` of `height()`. -/
def height_dfs (t : RedBlackTree K V) : Nat → Ptr → Res Nat
  | 0, _ => .error .fuel
  | fuel + 1, node =>
    if node = t.nil then pure 0
    else do
      let l ← t.left_of node
      let lh ← height_dfs t fuel l
      let r ← t.right_of node
      let rh ← height_dfs t fuel r
      pure (1 + max lh rh)

/-- The source's `height()`. -/
def height (fuel : Nat) (t : RedBlackTree K V) : Res Nat :=
  t.height_dfs fuel t.root

/-- The source's `maximum(x)` of the tree: `while (x != _nil && x->right != _nil) x = x->right`. -/
def maximum (t : RedBlackTree K V) : Nat → Ptr → Res Ptr
  | 0, _ => .error .fuel
  | fuel + 1, x =>
    if x = t.nil then pure x
    else do
      let xr ← t.right_of x
      if xr = t.nil then pure x else maximum t fuel xr

/-- The source's `begin()`: `iterator(minimum(_root), _nil, _root)`. -/
def begin_it (fuel : Nat) (t : RedBlackTree K V) : Res Iterator := do
  let m ← t.minimum fuel t.root
  pure ⟨m, t.nil, t.root⟩

/-- The loop of `lower_bound(key)`, at `current` with `result`. -/
def lower_bound_loop (comp : K → K → Bool) (t : RedBlackTree K V) (key : K) :
    Nat → Ptr → Ptr → Res Ptr
  | 0, _, _ => .error .fuel
  | fuel + 1, current, result =>
    if current = t.nil then pure result
    else do
      let n ← t.load current
      if !comp n.key key then lower_bound_loop comp t key fuel n.left current
      else lower_bound_loop comp t key fuel n.right result

/-- The source's `lower_bound(key)`. -/
def lower_bound (comp : K → K → Bool) (fuel : Nat) (t : RedBlackTree K V) (key : K) :
    Res Iterator := do
  let result ← lower_bound_loop comp t key fuel t.root t.nil
  pure ⟨result, t.nil, t.root⟩

/-- The loop of `upper_bound(key)`, at `current` with `result`. -/
def upper_bound_loop (comp : K → K → Bool) (t : RedBlackTree K V) (key : K) :
    Nat → Ptr → Ptr → Res Ptr
  | 0, _, _ => .error .fuel
  | fuel + 1, current, result =>
    if current = t.nil then pure result
    else do
      let n ← t.load current
      if comp key n.key then upper_bound_loop comp t key fuel n.left current
      else upper_bound_loop comp t key fuel n.right result

/-- The source's `upper_bound(key)`. -/
def upper_bound (comp : K → K → Bool) (fuel : Nat) (t : RedBlackTree K V) (key : K) :
    Res Iterator := do
  let result ← upper_bound_loop comp t key fuel t.root t.nil
  pure ⟨result, t.nil, t.root⟩

/-- The source's `equal_range(key)`: `{ lower_bound(key), upper_bound(key) }`. -/
def equal_range (comp : K → K → Bool) (fuel : Nat) (t : RedBlackTree K V) (key : K) :
    Res (Iterator × Iterator) := do
  let first ← lower_bound comp fuel t key
  let second ← upper_bound comp fuel t key
  pure (first, second)

end RedBlackTree

namespace Iterator

variable {K V : Type}

/-- The source's `Iterator::minimum(x)`: `while (x->left != _nil) x = x->left`. -/
def minimum (it : Iterator) (t : RedBlackTree K V) : Nat → Ptr → Res Ptr
  | 0, _ => .error .fuel
  | fuel + 1, x => do
    let xl ← t.left_of x
    if xl ≠ it.nil then minimum it t fuel xl else pure x

/-- The source's `Iterator::maximum(x)`: `while (x->right != _nil) x = x->right`. -/
def maximum (it : Iterator) (t : RedBlackTree K V) : Nat → Ptr → Res Ptr
  | 0, _ => .error .fuel
  | fuel + 1, x => do
    let xr ← t.right_of x
    if xr ≠ it.nil then maximum it t fuel xr else pure x

/-- The loop `while (y != nullptr && x == y->right) { x = y; y = y->parent; }` of
`successor`: the `y` it ends with. -/
def climb_right (t : RedBlackTree K V) : Nat → Ptr → Ptr → Res Ptr
  | 0, _, _ => .error .fuel
  | fuel + 1, x, y =>
    if y = 0 then pure y
    else do
      let yr ← t.right_of y
      if x = yr then do
        let yp ← t.parent_of y
        climb_right t fuel y yp
      else pure y

/-- The loop `while (y != nullptr && x == y->left) { x = y; y = y->parent; }` of
`predecessor`: the `y` it ends with. -/
def climb_left (t : RedBlackTree K V) : Nat → Ptr → Ptr → Res Ptr
  | 0, _, _ => .error .fuel
  | fuel + 1, x, y =>
    if y = 0 then pure y
    else do
      let yl ← t.left_of y
      if x = yl then do
        let yp ← t.parent_of y
        climb_left t fuel y yp
      else pure y

/-- The source's `Iterator::successor(x)`. -/
def successor (it : Iterator) (t : RedBlackTree K V) (fuel : Nat) (x : Ptr) : Res Ptr := do
  let xr ← t.right_of x
  if xr ≠ it.nil then it.minimum t fuel xr
  else do
    let y ← t.parent_of x
    let y ← climb_right t fuel x y
    pure (if y ≠ 0 then y else it.nil)

/-- The source's `Iterator::predecessor(x)`. -/
def predecessor (it : Iterator) (t : RedBlackTree K V) (fuel : Nat) (x : Ptr) : Res Ptr := do
  let xl ← t.left_of x
  if xl ≠ it.nil then it.maximum t fuel xl
  else do
    let y ← t.parent_of x
    let y ← climb_left t fuel x y
    pure (if y ≠ 0 then y else it.nil)

/-- The source's `Iterator::operator++()`: `_node = successor(_node)`. -/
def incr (it : Iterator) (t : RedBlackTree K V) (fuel : Nat) : Res Iterator := do
  let n ← it.successor t fuel it.node
  pure { it with node := n }

/-- The source's `Iterator::operator--()`: `maximum(_root)` when `_node == _nil`, and
`predecessor(_node)` otherwise. -/
def decr (it : Iterator) (t : RedBlackTree K V) (fuel : Nat) : Res Iterator := do
  let n ← if it.node = it.nil then it.maximum t fuel it.root
    else it.predecessor t fuel it.node
  pure { it with node := n }

/-- The source's `Iterator::operator==`: `_node == other._node`. -/
def eq (it other : Iterator) : Bool := decide (it.node = other.node)

/-- The source's `Iterator::operator!=`: `_node != other._node`. -/
def ne (it other : Iterator) : Bool := decide (it.node ≠ other.node)

end Iterator

namespace ReverseIterator

variable {K V : Type}

/-- The adaptor's `operator*`: `Iterator tmp = current; return *--tmp;`. -/
def deref (r : ReverseIterator) (t : RedBlackTree K V) (fuel : Nat) : Res (K × V) := do
  let tmp ← r.current.decr t fuel
  t.deref tmp

/-- The adaptor's `operator++`: `--current`. -/
def incr (r : ReverseIterator) (t : RedBlackTree K V) (fuel : Nat) : Res ReverseIterator := do
  let c ← r.current.decr t fuel
  pure ⟨c⟩

/-- The adaptor's `operator!=`: `current != other.current`. -/
def ne (r other : ReverseIterator) : Bool := r.current.ne other.current

end ReverseIterator

namespace RedBlackTree

variable {K V : Type}

/-- The source's `rbegin()`: `reverse_iterator(end())`. -/
def rbegin (t : RedBlackTree K V) : ReverseIterator := ⟨t.end_it⟩

/-- The source's `rend()`: `reverse_iterator(begin())`. -/
def rend (fuel : Nat) (t : RedBlackTree K V) : Res ReverseIterator := do
  let b ← t.begin_it fuel
  pure ⟨b⟩

/-- The loop `for (; it != last; ++it) out.push_back(*it)`: the pairs it visits. -/
def visit_range (t : RedBlackTree K V) : Nat → Iterator → Iterator → Res (List (K × V))
  | 0, _, _ => .error .fuel
  | fuel + 1, it, last =>
    if it.ne last then do
      let kv ← t.deref it
      let it ← it.incr t fuel
      let rest ← visit_range t fuel it last
      pure (kv :: rest)
    else pure []

/-- Forward iteration: `for (auto it = begin(); it != end(); ++it) out.push_back(*it)`. -/
def iterate (fuel : Nat) (t : RedBlackTree K V) : Res (List (K × V)) := do
  let b ← t.begin_it fuel
  t.visit_range fuel b t.end_it

/-- The loop `for (; rit != rlast; ++rit) out.push_back(*rit)` over reverse iterators. -/
def visit_reverse (t : RedBlackTree K V) : Nat → ReverseIterator → ReverseIterator →
    Res (List (K × V))
  | 0, _, _ => .error .fuel
  | fuel + 1, rit, rlast =>
    if rit.ne rlast then do
      let kv ← rit.deref t fuel
      let rit ← rit.incr t fuel
      let rest ← visit_reverse t fuel rit rlast
      pure (kv :: rest)
    else pure []

/-- Reverse iteration: `for (auto rit = rbegin(); rit != rend(); ++rit) out.push_back(*rit)`. -/
def iterate_reverse (fuel : Nat) (t : RedBlackTree K V) : Res (List (K × V)) := do
  let e ← t.rend fuel
  t.visit_reverse fuel t.rbegin e

/-- The source's `clear_helper(node)`. -/
def clear_helper : Nat → RedBlackTree K V → Ptr → Res (RedBlackTree K V)
  | 0, _, _ => .error .fuel
  | fuel + 1, t, node =>
    if node = t.nil then pure t
    else do
      let l ← t.left_of node
      let t ← clear_helper fuel t l
      let r ← t.right_of node
      let t ← clear_helper fuel t r
      t.free node

/-- The source's `clear()`. -/
def clear (fuel : Nat) (t : RedBlackTree K V) : Res (RedBlackTree K V) := do
  let t ← clear_helper fuel t t.root
  pure { t with root := t.nil, tree_size := 0 }

/-- The statements `new Node()`, `color = BLACK`, `left = right = parent = nullptr` that make a
sentinel in the memory of `t`: the memory with the sentinel, and its address. -/
def new_sentinel [Inhabited K] [Inhabited V] (t : RedBlackTree K V) : RedBlackTree K V × Ptr :=
  ({ t with mem := Function.update t.mem t.brk (some ⟨default, default, 0, 0, 0, .BLACK⟩),
            brk := t.brk + 1 }, t.brk)

/-- The source's `RedBlackTree()` for an object made while the memory holds `t`. -/
def construct [Inhabited K] [Inhabited V] (t : RedBlackTree K V) : RedBlackTree K V :=
  let (m, n) := t.new_sentinel
  { m with root := n, nil := n, tree_size := 0 }

/-- The source's `copy_helper(node, source_nil)`. -/
def copy_helper (comp : K → K → Bool) (dup : Bool) :
    Nat → RedBlackTree K V → Ptr → Ptr → Res (RedBlackTree K V)
  | 0, _, _, _ => .error .fuel
  | fuel + 1, t, node, source_nil =>
    if node = source_nil then pure t
    else do
      let n ← t.load node
      let (t, _, _) ← insert comp dup fuel t (n.key, n.val)
      let l ← t.left_of node
      let t ← copy_helper comp dup fuel t l source_nil
      let r ← t.right_of node
      copy_helper comp dup fuel t r source_nil

/-- The source's `RedBlackTree(const RedBlackTree& other)`: the new object, in the memory
that holds `other`. -/
def copy_construct [Inhabited K] [Inhabited V] (comp : K → K → Bool) (dup : Bool) (fuel : Nat)
    (other : RedBlackTree K V) : Res (RedBlackTree K V) :=
  copy_helper comp dup fuel other.construct other.root other.nil

/-- The source's `operator=(const RedBlackTree& other)`; `same` is the value of
`this == &other`. -/
def copy_assign (comp : K → K → Bool) (dup : Bool) (fuel : Nat) (t : RedBlackTree K V)
    (other : Members) (same : Bool) : Res (RedBlackTree K V) :=
  if same then pure t
  else do
    let t ← t.clear fuel
    copy_helper comp dup fuel t other.root other.nil

/-- The source's `RedBlackTree(RedBlackTree&& other)`: the new object, and the members
`other` is left with. -/
def move_construct [Inhabited K] [Inhabited V] (other : RedBlackTree K V) :
    RedBlackTree K V × Members :=
  let (m, n) := other.new_sentinel
  (m, ⟨n, n, 0⟩)

/-- The source's `operator=(RedBlackTree&& other)`; `same` is the value of `this == &other`.
Returns the object and the members `other` is left with. -/
def move_assign [Inhabited K] [Inhabited V] (fuel : Nat) (t : RedBlackTree K V)
    (other : Members) (same : Bool) : Res (RedBlackTree K V × Members) :=
  if same then pure (t, other)
  else do
    let t ← t.clear fuel
    let t ← t.free t.nil
    let (m, n) := (t.view other).new_sentinel
    pure (m, ⟨n, n, 0⟩)

/-- The loop `for (; it1 != end1; ++it1, ++it2) if (*it1 != *it2) return false;` of
`operator==`, with the `return true` that follows it.  The iterators `it1` walk the object
`t` and the iterators `it2` the object `u`, which lies in the same memory. -/
def eq_loop [DecidableEq K] [DecidableEq V] (t u : RedBlackTree K V) :
    Nat → Iterator → Iterator → Iterator → Res Bool
  | 0, _, _, _ => .error .fuel
  | fuel + 1, it1, it2, end1 =>
    if it1.ne end1 then do
      let a ← t.deref it1
      let b ← u.deref it2
      if a ≠ b then pure false
      else do
        let it1 ← it1.incr t fuel
        let it2 ← it2.incr u fuel
        eq_loop t u fuel it1 it2 end1
    else pure true

/-- The source's `operator==(other)`; `same` is the value of `this == &other`. -/
def operator_eq [DecidableEq K] [DecidableEq V] (fuel : Nat) (t : RedBlackTree K V)
    (other : Members) (same : Bool) : Res Bool :=
  if same then pure true
  else if t.size ≠ (t.view other).size then pure false
  else do
    let it1 ← t.begin_it fuel
    let it2 ← (t.view other).begin_it fuel
    let end1 := t.end_it
    eq_loop t (t.view other) fuel it1 it2 end1

/-- The source's `operator!=(other)`: `!(*this == other)`. -/
def operator_ne [DecidableEq K] [DecidableEq V] (fuel : Nat) (t : RedBlackTree K V)
    (other : Members) (same : Bool) : Res Bool := do
  let r ← operator_eq fuel t other same
  pure (!r)

end RedBlackTree

/-- The sentinel as the constructors leave its child links: `left` and `right` are
`nullptr`. -/
def SentinelLinks {K V : Type} (s : RedBlackTree K V) : Prop :=
  s.left_of s.nil = .ok 0 ∧ s.right_of s.nil = .ok 0

/-- Address of the first node of a list of nodes; the sentinel when there is none. -/
def nextPtr (nil : Ptr) : List (Ptr × K × V) → Ptr
  | [] => nil
  | x :: _ => x.1

/-- Address of the last node of a list of nodes; the sentinel when there is none. -/
def prevPtr (nil : Ptr) (l : List (Ptr × K × V)) : Ptr := nextPtr nil l.reverse

/-- Tree-level `lower_bound`: the descent from a subtree with `result` so far. -/
def lower_t (comp : K → K → Bool) (key : K) : Tree K V → Ptr → Ptr
  | .leaf, result => result
  | .node p _ l k _ r, result =>
    if !comp k key then lower_t comp key l p else lower_t comp key r result

/-- Tree-level `upper_bound`: the descent from a subtree with `result` so far. -/
def upper_t (comp : K → K → Bool) (key : K) : Tree K V → Ptr → Ptr
  | .leaf, result => result
  | .node p _ l k _ r, result =>
    if comp key k then upper_t comp key l p else upper_t comp key r result

/-- Two objects in one memory that hold the same pairs in trees of different shape: the
first, with sentinel 1, holds `(2, 0)` at the root and `(1, 0)` to its left; the second,
with sentinel 4, holds `(1, 0)` at the root and `(2, 0)` to its right. -/
def twoShapes : RedBlackTree Nat Nat :=
  { mem := fun p => if p = 1 then some ⟨0, 0, 0, 0, 0, .BLACK⟩
      else if p = 2 then some ⟨2, 0, 1, 3, 1, .BLACK⟩
      else if p = 3 then some ⟨1, 0, 2, 1, 1, .RED⟩
      else if p = 4 then some ⟨0, 0, 0, 0, 0, .BLACK⟩
      else if p = 5 then some ⟨1, 0, 4, 4, 6, .BLACK⟩
      else if p = 6 then some ⟨2, 0, 5, 4, 4, .RED⟩ else none,
    root := 2, nil := 1, tree_size := 2, brk := 7 }

/-- The members of the second object of `twoShapes`. -/
def twoShapesOther : Members := ⟨5, 4, 2⟩

/-- The tree of the first object of `twoShapes`. -/
def twoShapesTree : Tree Nat Nat := .node 2 .BLACK (.node 3 .RED .leaf 1 0 .leaf) 2 0 .leaf

/-- The tree of the second object of `twoShapes`. -/
def twoShapesOtherTree : Tree Nat Nat :=
  .node 5 .BLACK .leaf 1 0 (.node 6 .RED .leaf 2 0 .leaf)

/-- The state with the cells `E` of other objects in its memory, where it has none of its
own. -/
def RedBlackTree.ext (E : Ptr → Option (Node K V)) (s : RedBlackTree K V) : RedBlackTree K V :=
  { s with mem := fun p => match s.mem p with
      | some n => some n
      | none => E p }

/-- The cells `E` are none of the state's: they lie neither where the state has a cell nor
where `new` puts the next ones. -/
def Disj (E : Ptr → Option (Node K V)) (s : RedBlackTree K V) : Prop :=
  ∀ p, (s.mem p ≠ none ∨ s.brk ≤ p) → E p = none

/-- The state `S` is `s` with the cells `E` added, which are none of its own. -/
def RS (E : Ptr → Option (Node K V)) (s S : RedBlackTree K V) : Prop :=
  S = s.ext E ∧ Disj E s

/-- The run `M` returns what the run `m` returns, up to `R`, when `m` returns. -/
def Lift {α β : Type} (R : α → β → Prop) (m : Res α) (M : Res β) : Prop :=
  ∀ a, m = .ok a → ∃ b, M = .ok b ∧ R a b

variable {E : Ptr → Option (Node K V)} {s S : RedBlackTree K V}

/-- Result and state of a run: the states related, the results equal. -/
def RSP (E : Ptr → Option (Node K V)) {α : Type} (a b : RedBlackTree K V × α) : Prop :=
  RS E a.1 b.1 ∧ a.2 = b.2

/-- The state with the cells of its tree and its sentinel only. -/
def RedBlackTree.own (S : RedBlackTree K V) (T : Tree K V) : RedBlackTree K V :=
  { S with mem := fun p => if p ∈ T.addrs ∨ p = S.nil then S.mem p else none }

/-- The cells of a memory that belong neither to the tree nor to the sentinel. -/
def RedBlackTree.others (S : RedBlackTree K V) (T : Tree K V) : Ptr → Option (Node K V) :=
  fun p => if p ∈ T.addrs ∨ p = S.nil then none else S.mem p

/-- What a move leaves.  The destination `d` has the members `src` and holds the tree `T`
under them.  The members `o` left to the source are those of an empty tree with a sentinel
of its own: size 0, `begin() == end()`, `inorder()` empty; and `insert((k, v))` into it does
what it does into `empty`, and leaves the destination as it was. -/
def MovedFrom [Inhabited K] [Inhabited V] (comp : K → K → Bool) (fuel : Nat) (T : Tree K V)
    (k : K) (v : V) (src : Members) (d : RedBlackTree K V) (o : Members) : Prop :=
  d.members = src ∧ d.size = src.tree_size ∧ IsTree d T ∧ d.inorder fuel = .ok T.toList ∧
  o.nil ≠ src.nil ∧ o.root = o.nil ∧
  IsTree (d.view o) .leaf ∧ SentinelBlack (d.view o) ∧ SentinelLinks (d.view o) ∧
  (d.view o).size = 0 ∧ (d.view o).is_empty = true ∧
  (∃ b, (d.view o).begin_it fuel = .ok b ∧ b.eq (d.view o).end_it = true) ∧
  (d.view o).inorder fuel = .ok [] ∧
  ∃ s' it f itf, insert comp false fuel (d.view o) (k, v) = .ok (s', it, true) ∧
    insert comp false fuel empty (k, v) = .ok (f, itf, true) ∧
    s'.size = 1 ∧ f.size = 1 ∧
    s'.inorder fuel = .ok [(k, v)] ∧ f.inorder fuel = .ok [(k, v)] ∧
    s'.deref it = .ok (k, v) ∧ f.deref itf = .ok (k, v) ∧
    (s'.view d.members).size = src.tree_size ∧
    (s'.view d.members).inorder fuel = .ok T.toList

/-- The source's `struct EmptyStruct {}`, the mapped type of the tree of a `Set`; its
`operator==` is constantly true. -/
structure EmptyStruct where
deriving DecidableEq, Inhabited

namespace RedBlackTree

variable {K V : Type}

/-- The source's `preorder_helper(node, visit)` with the visitor of `preorder()`, which
appends the pair to the result. -/
def preorder_helper (t : RedBlackTree K V) : Nat → Ptr → Res (List (K × V))
  | 0, _ => .error .fuel
  | fuel + 1, node =>
    if node = t.nil then pure []
    else do
      let n ← t.load node
      let ls ← preorder_helper t fuel n.left
      let rs ← preorder_helper t fuel n.right
      pure ((n.key, n.val) :: ls ++ rs)

/-- The source's `preorder()`. -/
def preorder (fuel : Nat) (t : RedBlackTree K V) : Res (List (K × V)) :=
  t.preorder_helper fuel t.root

/-- The source's `postorder_helper(node, visit)` with the visitor of `postorder()`. -/
def postorder_helper (t : RedBlackTree K V) : Nat → Ptr → Res (List (K × V))
  | 0, _ => .error .fuel
  | fuel + 1, node =>
    if node = t.nil then pure []
    else do
      let n ← t.load node
      let ls ← postorder_helper t fuel n.left
      let rs ← postorder_helper t fuel n.right
      pure (ls ++ rs ++ [(n.key, n.val)])

/-- The source's `postorder()`. -/
def postorder (fuel : Nat) (t : RedBlackTree K V) : Res (List (K × V)) :=
  t.postorder_helper fuel t.root

/-- The loop `while (!q.empty())` of `levelorder(visit)` with the visitor of
`levelorder()`; the queue `q` is a list, `front()` its head and `push` adds at the end. -/
def levelorder_loop (t : RedBlackTree K V) : Nat → List Ptr → Res (List (K × V))
  | 0, _ => .error .fuel
  | _ + 1, [] => pure []
  | fuel + 1, node :: q => do
    let n ← t.load node
    let q := if n.left ≠ t.nil then q ++ [n.left] else q
    let q := if n.right ≠ t.nil then q ++ [n.right] else q
    let rest ← levelorder_loop t fuel q
    pure ((n.key, n.val) :: rest)

/-- The source's `levelorder()`. -/
def levelorder (fuel : Nat) (t : RedBlackTree K V) : Res (List (K × V)) :=
  if t.root = t.nil then pure [] else t.levelorder_loop fuel [t.root]

/-- The source's `insert(const Key& key)` of a tree whose mapped type is `EmptyStruct`:
`insert(std::make_pair(key, EmptyStruct{}))`. -/
def insert_key (comp : K → K → Bool) (dup : Bool) (fuel : Nat) (t : RedBlackTree K EmptyStruct)
    (key : K) : Res (RedBlackTree K EmptyStruct × Iterator × Bool) :=
  insert comp dup fuel t (key, ⟨⟩)

/-- The loop `for (const auto& key : init) insert(key);`. -/
def insert_keys (comp : K → K → Bool) (dup : Bool) (fuel : Nat) :
    List K → RedBlackTree K EmptyStruct → Res (RedBlackTree K EmptyStruct)
  | [], t => pure t
  | key :: init, t => do
    let (t, _, _) ← insert_key comp dup fuel t key
    insert_keys comp dup fuel init t

/-- The source's `RedBlackTree(std::initializer_list<key_type> init)`, for an object made
while the memory holds `t`: `RedBlackTree()`, then the loop. -/
def construct_keys [Inhabited K] (comp : K → K → Bool) (dup : Bool) (fuel : Nat)
    (t : RedBlackTree K EmptyStruct) (init : List K) : Res (RedBlackTree K EmptyStruct) :=
  insert_keys comp dup fuel init t.construct

end RedBlackTree

namespace Set

open RedBlackTree

variable {K : Type}

/-- The source's `Set::insert(key)`: `_tree.insert(key)`. -/
def insert (comp : K → K → Bool) (fuel : Nat) (t : RedBlackTree K EmptyStruct) (key : K) :
    Res (RedBlackTree K EmptyStruct × Iterator × Bool) :=
  insert_key comp false fuel t key

/-- The source's `Set::size()`: `_tree.size()`. -/
def size (t : RedBlackTree K EmptyStruct) : Nat := t.size

/-- The source's `Set::contains(key)`: `_tree.contains(key)`. -/
def contains (comp : K → K → Bool) (fuel : Nat) (t : RedBlackTree K EmptyStruct) (key : K) :
    Res Bool :=
  RedBlackTree.contains comp fuel t key

/-- The source's `Set::erase(const Key& key)`: `_tree.erase(key) ? 1 : 0`. -/
def erase (comp : K → K → Bool) (fuel : Nat) (t : RedBlackTree K EmptyStruct) (key : K) :
    Res (RedBlackTree K EmptyStruct × Nat) := do
  let (t, b) ← RedBlackTree.erase comp fuel t key
  pure (t, if b then 1 else 0)

/-- The source's `Set::erase(iterator pos)`: `if (pos != end()) _tree.erase(pos->first);`. -/
def erase_at (comp : K → K → Bool) (fuel : Nat) (t : RedBlackTree K EmptyStruct)
    (pos : Iterator) : Res (RedBlackTree K EmptyStruct) :=
  if pos.ne t.end_it then do
    let kv ← t.deref pos
    let (t, _) ← RedBlackTree.erase comp fuel t kv.1
    pure t
  else pure t

/-- The source's `Set(std::initializer_list<Key> init)`: `_tree(init)`. -/
def construct_list [Inhabited K] (comp : K → K → Bool) (fuel : Nat)
    (t : RedBlackTree K EmptyStruct) (init : List K) : Res (RedBlackTree K EmptyStruct) :=
  construct_keys comp false fuel t init

/-- The loop `for (; first != last; ++first) _tree.insert(*first);` over a range that
yields the keys of `range`. -/
def insert_range (comp : K → K → Bool) (fuel : Nat) :
    List K → RedBlackTree K EmptyStruct → Res (RedBlackTree K EmptyStruct)
  | [], t => pure t
  | key :: range, t => do
    let (t, _, _) ← insert_key comp false fuel t key
    insert_range comp fuel range t

/-- The source's `Set(InputIt first, InputIt last)`: the member `_tree` is made by
`RedBlackTree()`, then the loop runs. -/
def construct_range [Inhabited K] (comp : K → K → Bool) (fuel : Nat)
    (t : RedBlackTree K EmptyStruct) (range : List K) : Res (RedBlackTree K EmptyStruct) :=
  insert_range comp fuel range t.construct

/-- The algorithm `std::equal(first1, last1, first2)` of the C++ library, which the
source calls: `for (; first1 != last1; ++first1, ++first2) if (!(*first1 == *first2))
return false; return true;`.  The iterators `first1` walk the object `t` and the iterators
`first2` the object `u`, which lies in the same memory. -/
def std_equal [DecidableEq K] (t u : RedBlackTree K EmptyStruct) :
    Nat → Iterator → Iterator → Iterator → Res Bool
  | 0, _, _, _ => .error .fuel
  | fuel + 1, first1, last1, first2 =>
    if first1.ne last1 then do
      let a ← t.deref first1
      let b ← u.deref first2
      if ¬(a = b) then pure false
      else do
        let first1 ← first1.incr t fuel
        let first2 ← first2.incr u fuel
        std_equal t u fuel first1 last1 first2
    else pure true

/-- The source's `operator==(lhs, rhs)` of `Set`; `lhs` is the object `t` and `rhs` the
object with members `rhs` in the same memory. -/
def operator_eq [DecidableEq K] (fuel : Nat) (t : RedBlackTree K EmptyStruct)
    (rhs : Members) : Res Bool :=
  if size t ≠ size (t.view rhs) then pure false
  else do
    let first1 ← t.begin_it fuel
    let first2 ← (t.view rhs).begin_it fuel
    std_equal t (t.view rhs) fuel first1 t.end_it first2

/-- The source's `operator!=(lhs, rhs)` of `Set`: `!(lhs == rhs)`. -/
def operator_ne [DecidableEq K] (fuel : Nat) (t : RedBlackTree K EmptyStruct)
    (rhs : Members) : Res Bool := do
  let r ← operator_eq fuel t rhs
  pure (!r)

end Set

namespace Tree

/-- Address, key and value of the nodes, in pre-order. -/
def preNodes : Tree K V → List (Ptr × K × V)
  | leaf => []
  | node p _ l k v r => (p, k, v) :: l.preNodes ++ r.preNodes

/-- Address, key and value of the nodes, in post-order. -/
def postNodes : Tree K V → List (Ptr × K × V)
  | leaf => []
  | node p _ l k v r => l.postNodes ++ r.postNodes ++ [(p, k, v)]

/-- The nodes in in-order, each with its depth; the root of the tree is at depth `d`. -/
def nodesAt (d : Nat) : Tree K V → List (Nat × Ptr × K × V)
  | leaf => []
  | node p _ l k v r => l.nodesAt (d + 1) ++ (d, p, k, v) :: r.nodesAt (d + 1)

/-- What `levelorder` pushes for a child at depth `d`: the child, unless it is the
sentinel. -/
def kid (d : Nat) : Tree K V → List (Nat × Tree K V)
  | leaf => []
  | node p c l k v r => [(d, node p c l k v r)]

end Tree

/-- The loop of `levelorder` on a queue of subtrees, each with its depth: the nodes in the
order of the visits, each with its depth. -/
def bfs : Nat → List (Nat × Tree K V) → List (Nat × Ptr × K × V)
  | 0, _ => []
  | _ + 1, [] => []
  | fuel + 1, (_, .leaf) :: q => bfs fuel q
  | fuel + 1, (d, .node p _ l k v r) :: q =>
    (d, p, k, v) :: bfs fuel (q ++ l.kid (d + 1) ++ r.kid (d + 1))

/-- The nodes of the subtrees of a queue, each with its depth. -/
def queueNodes : List (Nat × Tree K V) → List (Nat × Ptr × K × V)
  | [] => []
  | e :: q => e.2.nodesAt e.1 ++ queueNodes q

/-- The number of nodes of the subtrees of a queue. -/
def queueCount : List (Nat × Tree K V) → Nat
  | [] => 0
  | e :: q => e.2.count + queueCount q

/-- The choice `insert` made at the node of the frame, in allow-duplicates mode: left
when `key` is ordered before the key of the node, right otherwise. -/
def DirDup (comp : K → K → Bool) (key : K) : Frame K V → Prop
  | .left _ _ k _ _ => comp key k = true
  | .right _ _ _ k _ => comp key k = false

namespace Tree

/-- Address and color of the nodes, in in-order. -/
def colors : Tree K V → List (Ptr × Color)
  | leaf => []
  | node p c l _ _ r => l.colors ++ (p, c) :: r.colors

end Tree

/-- The calls of `ops`, made one after the other on `t` in allow-duplicates mode: the
tree at the end, with the number of calls of `insert` and of `erase` that returned
true. -/
def run_dup (comp : K → K → Bool) (fuel : Nat) :
    List (Op K V) → RedBlackTree K V → Res (RedBlackTree K V × Nat × Nat)
  | [], t => pure (t, 0, 0)
  | .insert k v :: ops, t => do
    let (t, _, b) ← insert comp true fuel t (k, v)
    let (t, i, e) ← run_dup comp fuel ops t
    pure (t, i + b.toNat, e)
  | .erase k :: ops, t => do
    let (t, b) ← erase comp fuel t k
    let (t, i, e) ← run_dup comp fuel ops t
    pure (t, i, e + b.toNat)

/-- Parent-link consistency of a state whose tree has the nodes `nodes`: the parent of the
root is the sentinel, and every child of a node that is not the sentinel has that node
for its parent. -/
def ParentLinks (s : RedBlackTree K V) (nodes : List Ptr) : Prop :=
  s.parent_of s.root = .ok s.nil ∧
    ∀ n ∈ nodes, ∀ c, (s.left_of n = .ok c ∨ s.right_of n = .ok c) → c ≠ s.nil →
      s.parent_of c = .ok n

/-- A red-black tree with three pairs: the root, BLACK, holds `(10, 0)`, and its children,
both RED, hold `(5, 0)` and `(15, 0)`.  An `insert` of a new key makes `insert_fix` recolor
the three nodes and go up to the root. -/
def redKids : RedBlackTree Nat Nat :=
  { mem := fun p => if p = 1 then some ⟨0, 0, 0, 0, 0, .BLACK⟩
      else if p = 2 then some ⟨10, 0, 1, 3, 4, .BLACK⟩
      else if p = 3 then some ⟨5, 0, 2, 1, 1, .RED⟩
      else if p = 4 then some ⟨15, 0, 2, 1, 1, .RED⟩ else none,
    root := 2, nil := 1, tree_size := 3, brk := 5 }

/-- The tree that `redKids` holds. -/
def redKidsTree : Tree Nat Nat :=
  .node 2 .BLACK (.node 3 .RED .leaf 5 0 .leaf) 10 0 (.node 4 .RED .leaf 15 0 .leaf)

/-- Six calls of `insert`, with the keys 10, 5, 20, 15, 17, 16.  In no-duplicates mode they
leave the key 10 in the root, BLACK, with 5 to its left and, to its right, 17, RED, over
15 and 20, both BLACK, and 16, RED, to the right of 15: the successor of the root, 15, is
not its right child and has a right child. -/
def sixKeys : List (Op Nat Nat) :=
  [.insert 10 0, .insert 5 0, .insert 20 0, .insert 15 0, .insert 17 0, .insert 16 0]

/-- Four calls of `insert`, three of them with the key 10. -/
def threeTens : List (Op Nat Nat) :=
  [.insert 10 0, .insert 5 0, .insert 10 1, .insert 10 2]

end RBT

/-! Part 2: theorems. -/

namespace RBT

variable {K V : Type}

@[simp]
theorem Tree.ptr_leaf (nil : Ptr) : (Tree.leaf : Tree K V).ptr nil = nil := rfl

@[simp]
theorem Tree.ptr_node (nil p : Ptr) (c : Color) (l : Tree K V) (k : K) (v : V)
    (r : Tree K V) : (Tree.node p c l k v r).ptr nil = p := rfl

@[simp]
theorem Tree.color_leaf : (Tree.leaf : Tree K V).color = .BLACK := rfl

@[simp]
theorem Tree.color_node (p : Ptr) (c : Color) (l : Tree K V) (k : K) (v : V)
    (r : Tree K V) : (Tree.node p c l k v r).color = c := rfl

@[simp]
theorem Tree.addrs_leaf : (Tree.leaf : Tree K V).addrs = [] := rfl

@[simp]
theorem Tree.addrs_node (p : Ptr) (c : Color) (l : Tree K V) (k : K) (v : V)
    (r : Tree K V) : (Tree.node p c l k v r).addrs = l.addrs ++ p :: r.addrs := rfl

@[simp]
theorem Tree.toList_leaf : (Tree.leaf : Tree K V).toList = [] := rfl

@[simp]
theorem Tree.toList_node (p : Ptr) (c : Color) (l : Tree K V) (k : K) (v : V)
    (r : Tree K V) : (Tree.node p c l k v r).toList = l.toList ++ (k, v) :: r.toList := rfl

@[simp]
theorem Tree.height_leaf : (Tree.leaf : Tree K V).height = 0 := rfl

@[simp]
theorem Tree.height_node (p : Ptr) (c : Color) (l : Tree K V) (k : K) (v : V)
    (r : Tree K V) : (Tree.node p c l k v r).height = 1 + max l.height r.height := rfl

@[simp]
theorem Tree.count_leaf : (Tree.leaf : Tree K V).count = 0 := rfl

@[simp]
theorem Tree.count_node (p : Ptr) (c : Color) (l : Tree K V) (k : K) (v : V)
    (r : Tree K V) : (Tree.node p c l k v r).count = l.count + 1 + r.count := rfl

@[simp]
theorem Rep_leaf (mem : Ptr → Option (Node K V)) (nil par : Ptr) :
    Rep mem nil par .leaf = True := rfl

@[simp]
theorem Rep_node (mem : Ptr → Option (Node K V)) (nil par p : Ptr) (c : Color)
    (l : Tree K V) (k : K) (v : V) (r : Tree K V) :
    Rep mem nil par (.node p c l k v r) =
      (p ≠ 0 ∧ p ≠ nil ∧ mem p = some ⟨k, v, par, l.ptr nil, r.ptr nil, c⟩ ∧
        Rep mem nil p l ∧ Rep mem nil p r) := rfl

@[simp]
theorem fill_nil (t : Tree K V) : fill [] t = t := rfl

@[simp]
theorem fill_cons (f : Frame K V) (fs : Path K V) (t : Tree K V) :
    fill (f :: fs) t = fill fs (f.plug t) := rfl

@[simp]
theorem plug_left (p : Ptr) (c : Color) (k : K) (v : V) (r t : Tree K V) :
    (Frame.left p c k v r).plug t = .node p c t k v r := rfl

@[simp]
theorem plug_right (p : Ptr) (c : Color) (l : Tree K V) (k : K) (v : V) (t : Tree K V) :
    (Frame.right p c l k v).plug t = .node p c l k v t := rfl

@[simp]
theorem parentPtr_nil (nil : Ptr) : parentPtr nil ([] : Path K V) = nil := rfl

@[simp]
theorem parentPtr_cons (nil : Ptr) (f : Frame K V) (fs : Path K V) :
    parentPtr nil (f :: fs) = f.ptr := rfl

@[simp]
theorem Frame.ptr_left (p : Ptr) (c : Color) (k : K) (v : V) (r : Tree K V) :
    (Frame.left p c k v r).ptr = p := rfl

@[simp]
theorem Frame.ptr_right (p : Ptr) (c : Color) (l : Tree K V) (k : K) (v : V) :
    (Frame.right p c l k v).ptr = p := rfl

@[simp]
theorem Frame.color_left (p : Ptr) (c : Color) (k : K) (v : V) (r : Tree K V) :
    (Frame.left p c k v r).color = c := rfl

@[simp]
theorem Frame.color_right (p : Ptr) (c : Color) (l : Tree K V) (k : K) (v : V) :
    (Frame.right p c l k v).color = c := rfl

@[simp]
theorem Frame.ptr_plug (nil : Ptr) (f : Frame K V) (t : Tree K V) :
    (f.plug t).ptr nil = f.ptr := by cases f <;> rfl

theorem fill_append (p q : Path K V) (t : Tree K V) : fill (p ++ q) t = fill q (fill p t) := by
  induction p generalizing t with
  | nil => rfl
  | cons f fs ih => simp [ih]

theorem addrs_plug (f : Frame K V) (t : Tree K V) :
    (f.plug t).addrs = f.addrsL ++ t.addrs ++ f.addrsR := by
  cases f <;> simp [Frame.addrsL, Frame.addrsR]

theorem toList_plug (f : Frame K V) (t : Tree K V) :
    (f.plug t).toList = f.listL ++ t.toList ++ f.listR := by
  cases f <;> simp [Frame.listL, Frame.listR]

theorem addrs_fill (path : Path K V) (t : Tree K V) :
    (fill path t).addrs = path.addrsL ++ t.addrs ++ path.addrsR := by
  induction path generalizing t with
  | nil => simp [Path.addrsL, Path.addrsR]
  | cons f fs ih => simp [ih, addrs_plug, Path.addrsL, Path.addrsR]

theorem toList_fill (path : Path K V) (t : Tree K V) :
    (fill path t).toList = path.listL ++ t.toList ++ path.listR := by
  induction path generalizing t with
  | nil => simp [Path.listL, Path.listR]
  | cons f fs ih => simp [ih, toList_plug, Path.listL, Path.listR]

theorem ptr_fill_cons (nil : Ptr) (f : Frame K V) (fs : Path K V) (t t' : Tree K V) :
    (fill (f :: fs) t).ptr nil = (fill (f :: fs) t').ptr nil := by
  induction fs generalizing f t t' with
  | nil => simp
  | cons g gs ih => simpa using ih g (f.plug t) (f.plug t')

theorem count_fill_congr (path : Path K V) (t t' : Tree K V) (h : t.count = t'.count) :
    (fill path t).count = (fill path t').count := by
  induction path generalizing t t' with
  | nil => simpa using h
  | cons f fs ih => apply ih; cases f <;> simp [h]

/-- The frame rule for `Rep`: it depends on the memory at the addresses of the tree only. -/
theorem Rep_congr {mem mem' : Ptr → Option (Node K V)} {nil par : Ptr} {t : Tree K V}
    (heq : ∀ q ∈ t.addrs, mem' q = mem q) (h : Rep mem nil par t) : Rep mem' nil par t := by
  induction t generalizing par with
  | leaf => trivial
  | node p c l k v r ihl ihr =>
    simp only [Rep_node] at h ⊢
    obtain ⟨h0, h1, h2, h3, h4⟩ := h
    refine ⟨h0, h1, ?_, ihl (fun q hq => heq q (by simp [hq])) h3,
      ihr (fun q hq => heq q (by simp [hq])) h4⟩
    rw [heq p (by simp), h2]

/-- Changing the parent link of the root of a tree in memory. -/
theorem Rep_reparent {mem : Ptr → Option (Node K V)} {nil par par' : Ptr} {p : Ptr} {c : Color}
    {l : Tree K V} {k : K} {v : V} {r : Tree K V} (h : Rep mem nil par (.node p c l k v r))
    (hl : p ∉ l.addrs) (hr : p ∉ r.addrs) :
    Rep (Function.update mem p (some ⟨k, v, par', l.ptr nil, r.ptr nil, c⟩)) nil par'
      (.node p c l k v r) := by
  simp only [Rep_node] at h ⊢
  obtain ⟨h0, h1, _, h3, h4⟩ := h
  refine ⟨h0, h1, by simp, Rep_congr ?_ h3, Rep_congr ?_ h4⟩
  · intro q hq
    have : q ≠ p := fun e => hl (e ▸ hq)
    simp [Function.update_noteq this]
  · intro q hq
    have : q ≠ p := fun e => hr (e ▸ hq)
    simp [Function.update_noteq this]

theorem Rep.nil_not_mem {mem : Ptr → Option (Node K V)} {nil par : Ptr} {t : Tree K V}
    (h : Rep mem nil par t) : nil ∉ t.addrs := by
  induction t generalizing par with
  | leaf => simp
  | node p c l k v r ihl ihr =>
    simp only [Rep_node] at h
    obtain ⟨_, h1, _, h3, h4⟩ := h
    simp only [Tree.addrs_node, List.mem_append, List.mem_cons, not_or]
    exact ⟨ihl h3, fun e => h1 e.symm, ihr h4⟩

theorem Rep.zero_not_mem {mem : Ptr → Option (Node K V)} {nil par : Ptr} {t : Tree K V}
    (h : Rep mem nil par t) : 0 ∉ t.addrs := by
  induction t generalizing par with
  | leaf => simp
  | node p c l k v r ihl ihr =>
    simp only [Rep_node] at h
    obtain ⟨h0, _, _, h3, h4⟩ := h
    simp only [Tree.addrs_node, List.mem_append, List.mem_cons, not_or]
    exact ⟨ihl h3, fun e => h0 e.symm, ihr h4⟩

theorem Rep.mem_some {mem : Ptr → Option (Node K V)} {nil par : Ptr} {t : Tree K V}
    (h : Rep mem nil par t) {q : Ptr} (hq : q ∈ t.addrs) : ∃ n, mem q = some n := by
  induction t generalizing par with
  | leaf => simp at hq
  | node p c l k v r ihl ihr =>
    simp only [Rep_node] at h
    obtain ⟨_, _, h2, h3, h4⟩ := h
    simp only [Tree.addrs_node, List.mem_append, List.mem_cons] at hq
    rcases hq with hq | hq | hq
    · exact ihl h3 hq
    · exact ⟨_, hq ▸ h2⟩
    · exact ihr h4 hq

/-- The relation `Rep` of a subtree under a path, taken apart: the frames and the subtree. -/
theorem Rep_fill {mem : Ptr → Option (Node K V)} {nil par0 : Ptr} (path : Path K V)
    (t : Tree K V) :
    Rep mem nil par0 (fill path t) ↔
      RepP mem nil par0 path (t.ptr nil) ∧
        Rep mem nil (parentPtr par0 path) t := by
  induction path generalizing t with
  | nil => simp [RepP]
  | cons f fs ih =>
    rw [fill_cons, ih]
    cases f <;> simp [RepP, Frame.cell, Frame.sib] <;> tauto

namespace Path

theorem mem_addrs_cons {q : Ptr} {f : Frame K V} {fs : Path K V} :
    q ∈ addrs (f :: fs) ↔ q = f.ptr ∨ q ∈ f.sib.addrs ∨ q ∈ addrs fs := by
  cases f <;> simp [addrs, addrsL, addrsR, Frame.addrsL, Frame.addrsR, Frame.sib] <;> tauto

theorem addrs_cons_perm (f : Frame K V) (fs : Path K V) :
    (addrs (f :: fs)).Perm (f.ptr :: (f.sib.addrs ++ addrs fs)) := by
  rw [List.perm_iff_count]
  intro a
  cases f <;>
    simp [addrs, addrsL, addrsR, Frame.addrsL, Frame.addrsR, Frame.sib, List.count_append,
      List.count_cons] <;> omega

theorem nodup_addrs_cons {f : Frame K V} {fs : Path K V} (h : (addrs (f :: fs)).Nodup) :
    f.ptr ∉ f.sib.addrs ∧ f.ptr ∉ addrs fs := by
  rw [(addrs_cons_perm f fs).nodup_iff, List.nodup_cons, List.mem_append, not_or] at h
  exact h.1

end Path

theorem nodup_fill_iff (path : Path K V) (t : Tree K V) :
    (fill path t).addrs.Nodup ↔
      t.addrs.Nodup ∧ path.addrs.Nodup ∧ ∀ q ∈ t.addrs, q ∉ path.addrs := by
  rw [addrs_fill]
  simp only [Path.addrs, List.nodup_append, List.Disjoint, List.mem_append]
  constructor
  · rintro ⟨⟨h1, h2, h3⟩, h4, h5⟩
    refine ⟨h2, ⟨h1, h4, fun q hq hq' => h5 (Or.inl hq) hq'⟩, fun q hq hq' => ?_⟩
    rcases hq' with hq' | hq'
    · exact h3 hq' hq
    · exact h5 (Or.inr hq) hq'
  · rintro ⟨h1, ⟨h2, h3, h4⟩, h5⟩
    refine ⟨⟨h2, h1, fun q hq hq' => h5 q hq' (Or.inl hq)⟩, h3, fun q hq hq' => ?_⟩
    rcases hq with hq | hq
    · exact h4 hq hq'
    · exact h5 q hq (Or.inr hq')

theorem RepP_congr {mem mem' : Ptr → Option (Node K V)} {nil par0 : Ptr} {path : Path K V}
    {h : Ptr} (heq : ∀ q ∈ path.addrs, mem' q = mem q) (hp : RepP mem nil par0 path h) :
    RepP mem' nil par0 path h := by
  induction path generalizing h with
  | nil => trivial
  | cons f fs ih =>
    obtain ⟨h0, h1, h2, h3, h4⟩ := hp
    refine ⟨h0, h1, ?_, Rep_congr (fun q hq => heq q ?_) h3, ih (fun q hq => heq q ?_) h4⟩
    · rw [heq _ (Path.mem_addrs_cons.2 (Or.inl rfl)), h2]
    · exact Path.mem_addrs_cons.2 (Or.inr (Or.inl hq))
    · exact Path.mem_addrs_cons.2 (Or.inr (Or.inr hq))

theorem RepP.nil_not_mem_path {mem : Ptr → Option (Node K V)} {nil par0 : Ptr} {path : Path K V}
    {h : Ptr} (hp : RepP mem nil par0 path h) : nil ∉ path.addrs := by
  induction path generalizing h with
  | nil => simp [Path.addrs, Path.addrsL, Path.addrsR]
  | cons f fs ih =>
    obtain ⟨_, h1, _, h3, h4⟩ := hp
    rw [Path.mem_addrs_cons]
    rintro (e | e | e)
    · exact h1 e.symm
    · exact h3.nil_not_mem e
    · exact ih h4 e

theorem RepP.mem_some_path {mem : Ptr → Option (Node K V)} {nil par0 : Ptr} {path : Path K V}
    {h : Ptr} (hp : RepP mem nil par0 path h) {q : Ptr} (hq : q ∈ path.addrs) :
    ∃ n, mem q = some n := by
  induction path generalizing h with
  | nil => simp [Path.addrs, Path.addrsL, Path.addrsR] at hq
  | cons f fs ih =>
    obtain ⟨_, _, h2, h3, h4⟩ := hp
    rcases Path.mem_addrs_cons.1 hq with e | e | e
    · exact ⟨_, e ▸ h2⟩
    · exact h3.mem_some e
    · exact ih h4 e

theorem Keeps.refl (s : RedBlackTree K V) : Keeps s s := ⟨rfl, rfl, rfl⟩

theorem Keeps.trans {s s' s'' : RedBlackTree K V} (h : Keeps s s') (h' : Keeps s' s'') :
    Keeps s s'' :=
  ⟨h'.nil_eq.trans h.nil_eq, h'.size_eq.trans h.size_eq, h'.brk_eq.trans h.brk_eq⟩

/-- Replacing the subtree under a path: what has to hold of the new memory for the
state to be the tree with the new subtree. -/
theorem IsTree.replace {s s' : RedBlackTree K V} {path : Path K V} {t t' : Tree K V}
    (h : IsTree s (fill path t)) (hnil : s'.nil = s.nil)
    (hframe : ∀ q, q ∉ t.addrs → q ≠ parentPtr s.nil path → q ≠ s.nil → s.brk ≤ q ∨ q ∈ path.addrs →
      s'.mem q = s.mem q)
    (hlive : ∃ n, s'.mem s.nil = some n)
    (hlink : match path with
      | [] => s'.root = t'.ptr s.nil
      | f :: fs => s'.root = s.root ∧
          s'.mem f.ptr = some (f.cell s.nil (parentPtr s.nil fs) (t'.ptr s.nil)))
    (hrep : Rep s'.mem s.nil (parentPtr s.nil path) t')
    (hsub : ∀ q ∈ t'.addrs, q ∉ path.addrs) (hnd : t'.addrs.Nodup)
    (hbrk : s.brk ≤ s'.brk) (hun : ∀ q ∈ t.addrs, s'.brk ≤ q → s'.mem q = none) :
    IsTree s' (fill path t') := by
  obtain ⟨hroot, hr, hn, hnz, hlv, hunused, hb⟩ := h
  rw [nodup_fill_iff] at hn
  obtain ⟨hn1, hn2, hn3⟩ := hn
  rw [Rep_fill] at hr
  obtain ⟨hrp, hrt⟩ := hr
  have hnilp : s.nil ∉ path.addrs := hrp.nil_not_mem_path
  refine ⟨?_, ?_, ?_, hnil ▸ hnz, hnil ▸ hlive, ?_, ?_⟩
  · rw [hnil]
    cases path with
    | nil => simpa using hlink
    | cons f fs => rw [hlink.1, hroot]; exact ptr_fill_cons _ _ _ _ _
  · rw [hnil, Rep_fill]
    refine ⟨?_, hrep⟩
    cases path with
    | nil => trivial
    | cons f fs =>
      obtain ⟨h0, h1, h2, h3, h4⟩ := hrp
      have hfp : f.ptr ∈ Path.addrs (f :: fs) := Path.mem_addrs_cons.2 (Or.inl rfl)
      have hndf : ∀ q, q ∈ f.sib.addrs ∨ q ∈ Path.addrs fs → q ≠ f.ptr := by
        intro q hq e
        subst e
        have := Path.nodup_addrs_cons hn2
        tauto
      refine ⟨h0, h1, hlink.2, Rep_congr (fun q hq => ?_) h3, RepP_congr (fun q hq => ?_) h4⟩
      · have hq' : q ∈ Path.addrs (f :: fs) := Path.mem_addrs_cons.2 (Or.inr (Or.inl hq))
        exact hframe q (fun e => hn3 q e hq') (hndf q (Or.inl hq))
          (fun e => hnilp (e ▸ hq')) (Or.inr hq')
      · have hq' : q ∈ Path.addrs (f :: fs) := Path.mem_addrs_cons.2 (Or.inr (Or.inr hq))
        exact hframe q (fun e => hn3 q e hq') (hndf q (Or.inr hq))
          (fun e => hnilp (e ▸ hq')) (Or.inr hq')
  · rw [nodup_fill_iff]
    exact ⟨hnd, hn2, hsub⟩
  · intro p hp
    by_cases hpt : p ∈ t.addrs
    · exact hun p hpt hp
    · have hp' : s.brk ≤ p := le_trans hbrk hp
      have hm := hunused p hp'
      rw [hframe p hpt ?_ ?_ (Or.inl hp'), hm]
      · intro e
        cases path with
        | nil =>
          obtain ⟨n, hn⟩ := hlv
          simp only [parentPtr_nil] at e
          rw [e, hn] at hm
          cases hm
        | cons f fs =>
          simp only [parentPtr_cons] at e
          obtain ⟨_, _, h2, _, _⟩ := hrp
          rw [e, h2] at hm
          cases hm
      · intro e
        obtain ⟨n, hn⟩ := hlv
        rw [e, hn] at hm
        cases hm
  · intro e
    rw [e] at hbrk
    exact hb (Nat.le_zero.1 hbrk)

@[simp]
theorem bind_ok {α β : Type} (a : α) (f : α → Res β) :
    (Except.ok a >>= f) = f a := rfl

@[simp]
theorem bind_error {α β : Type} (e : Fault) (f : α → Res β) :
    ((Except.error e : Res α) >>= f) = Except.error e := rfl

@[simp]
theorem pure_eq_ok {α : Type} (a : α) : (pure a : Res α) = Except.ok a := rfl

namespace RedBlackTree

@[simp]
theorem store_nil (s : RedBlackTree K V) (p : Ptr) (n : Node K V) :
    (s.store p n).nil = s.nil := rfl

@[simp]
theorem store_root (s : RedBlackTree K V) (p : Ptr) (n : Node K V) :
    (s.store p n).root = s.root := rfl

@[simp]
theorem store_brk (s : RedBlackTree K V) (p : Ptr) (n : Node K V) :
    (s.store p n).brk = s.brk := rfl

@[simp]
theorem store_size (s : RedBlackTree K V) (p : Ptr) (n : Node K V) :
    (s.store p n).tree_size = s.tree_size := rfl

@[simp]
theorem store_mem (s : RedBlackTree K V) (p : Ptr) (n : Node K V) :
    (s.store p n).mem = Function.update s.mem p (some n) := rfl

theorem load_of_mem {s : RedBlackTree K V} {p : Ptr} {n : Node K V} (h0 : p ≠ 0)
    (h : s.mem p = some n) : s.load p = .ok n := by
  simp [load, h0, h]

theorem mem_of_load {s : RedBlackTree K V} {p : Ptr} {n : Node K V} (h : s.load p = .ok n) :
    p ≠ 0 ∧ s.mem p = some n := by
  unfold load at h
  split at h
  · cases h
  · rename_i h0
    split at h
    · rename_i m hm; cases h; exact ⟨h0, hm⟩
    · cases h

theorem load_eq_loadM (s : RedBlackTree K V) (p : Ptr) : s.load p = loadM s.mem p := rfl

theorem loadM_of_mem {mem : Ptr → Option (Node K V)} {p : Ptr} {n : Node K V} (h0 : p ≠ 0)
    (h : mem p = some n) : loadM mem p = .ok n := by
  simp [loadM, h0, h]

@[simp]
theorem loadM_update_same (mem : Ptr → Option (Node K V)) {p : Ptr} (n : Node K V)
    (h0 : p ≠ 0) : loadM (Function.update mem p (some n)) p = .ok n := by
  simp [loadM, h0]

@[simp]
theorem loadM_update_ne (mem : Ptr → Option (Node K V)) {p q : Ptr}
    (n : Option (Node K V)) (h : q ≠ p) : loadM (Function.update mem p n) q = loadM mem q := by
  simp [loadM, Function.update_noteq h]

@[simp]
theorem loadM_update_ne' (mem : Ptr → Option (Node K V)) {p q : Ptr}
    (n : Option (Node K V)) (h : p ≠ q) : loadM (Function.update mem p n) q = loadM mem q :=
  loadM_update_ne mem n h.symm

theorem upd_ne (mem : Ptr → Option (Node K V)) {p q : Ptr} (n : Option (Node K V))
    (h : q ≠ p) : Function.update mem p n q = mem q := Function.update_noteq h n mem

theorem upd_ne' (mem : Ptr → Option (Node K V)) {p q : Ptr} (n : Option (Node K V))
    (h : p ≠ q) : Function.update mem p n q = mem q := Function.update_noteq h.symm n mem

end RedBlackTree

open RedBlackTree

theorem Tree.ptr_ne {nil x : Ptr} {t : Tree K V} (h1 : x ≠ nil) (h2 : x ∉ t.addrs) :
    t.ptr nil ≠ x := by
  cases t with
  | leaf => exact fun e => h1 e.symm
  | node p c l k v r =>
    intro e
    simp only [Tree.ptr_node] at e
    subst e
    simp at h2

namespace IsTree

variable {s : RedBlackTree K V}

theorem mem_focus (path : Path K V) (p : Ptr) (c : Color) (l : Tree K V) (k : K) (v : V)
    (r : Tree K V) (h : IsTree s (fill path (.node p c l k v r))) :
    p ≠ 0 ∧ p ≠ s.nil ∧
      s.mem p = some ⟨k, v, parentPtr s.nil path, l.ptr s.nil, r.ptr s.nil, c⟩ := by
  have := ((Rep_fill path _).1 h.rep).2
  simp only [Rep_node] at this
  exact ⟨this.1, this.2.1, this.2.2.1⟩

theorem load_focus (path : Path K V) (p : Ptr) (c : Color) (l : Tree K V) (k : K) (v : V)
    (r : Tree K V) (h : IsTree s (fill path (.node p c l k v r))) :
    s.load p = .ok ⟨k, v, parentPtr s.nil path, l.ptr s.nil, r.ptr s.nil, c⟩ := by
  obtain ⟨h0, _, h2⟩ := h.mem_focus path p c l k v r
  exact load_of_mem h0 h2

theorem load_nil (h : IsTree s T) : ∃ n, s.load s.nil = .ok n := by
  obtain ⟨n, hn⟩ := h.nil_live
  exact ⟨n, load_of_mem h.nil_ne hn⟩

theorem lt_brk (h : IsTree s T) {q : Ptr} (hq : q ∈ T.addrs) : q < s.brk := by
  by_contra hlt
  obtain ⟨n, hn⟩ := h.rep.mem_some hq
  rw [h.unused q (not_lt.1 hlt)] at hn
  cases hn

theorem nil_lt_brk (h : IsTree s T) : s.nil < s.brk := by
  by_contra hlt
  obtain ⟨n, hn⟩ := h.nil_live
  rw [h.unused _ (not_lt.1 hlt)] at hn
  cases hn

/-- Replacing the subtree under a path by one with the same root address, writing only
to nodes of the subtree. -/
theorem replace_same {s' : RedBlackTree K V} {path : Path K V} {t t' : Tree K V}
    (h : IsTree s (fill path t)) (hnil : s'.nil = s.nil) (hroot : s'.root = s.root)
    (hbrk : s'.brk = s.brk)
    (hframe : ∀ q, q ∉ t.addrs → s'.mem q = s.mem q)
    (hptr : t'.ptr s.nil = t.ptr s.nil)
    (hrep : Rep s'.mem s.nil (parentPtr s.nil path) t')
    (hsub : ∀ q ∈ t'.addrs, q ∈ t.addrs) (hnd : t'.addrs.Nodup) :
    IsTree s' (fill path t') := by
  have hn := (nodup_fill_iff path t).1 h.nodup
  have hnilt : s.nil ∉ t.addrs := ((Rep_fill path t).1 h.rep).2.nil_not_mem
  refine h.replace hnil (fun q hq _ _ _ => hframe q hq) ?_ ?_ hrep
    (fun q hq => hn.2.2 q (hsub q hq)) hnd (le_of_eq hbrk.symm) ?_
  · rw [hframe _ hnilt]; exact h.nil_live
  · cases path with
    | nil =>
      simp only
      rw [hroot, hptr]
      exact h.root_eq
    | cons f fs =>
      simp only
      refine ⟨hroot, ?_⟩
      have hrp := ((Rep_fill (f :: fs) t).1 h.rep).1
      obtain ⟨_, _, h2, _, _⟩ := hrp
      rw [hframe, hptr, h2]
      intro e
      exact hn.2.2 _ e (Path.mem_addrs_cons.2 (Or.inl rfl))
  · intro q hq hle
    have : q < s.brk := h.lt_brk (by rw [addrs_fill]; simp [hq])
    rw [hbrk] at hle
    exact absurd hle (not_le.2 this)

theorem set_color_focus (path : Path K V) (p : Ptr) (c : Color) (l : Tree K V) (k : K) (v : V)
    (r : Tree K V) (c' : Color) (h : IsTree s (fill path (.node p c l k v r))) :
    ∃ s', s.set_color p c' = .ok s' ∧ IsTree s' (fill path (.node p c' l k v r)) ∧
      Keeps s s' ∧ s'.root = s.root ∧ s'.mem s.nil = s.mem s.nil := by
  obtain ⟨h0, h1, h2⟩ := h.mem_focus path p c l k v r
  have hl := h.load_focus path p c l k v r
  have hn := ((nodup_fill_iff path _).1 h.nodup).1
  have hr := ((Rep_fill path _).1 h.rep).2
  simp only [Rep_node] at hr
  simp only [Tree.addrs_node, List.nodup_append, List.nodup_cons, List.Disjoint,
    List.mem_cons] at hn
  have hpl : p ∉ l.addrs := fun e => hn.2.2 e (Or.inl rfl)
  refine ⟨s.store p ⟨k, v, parentPtr s.nil path, l.ptr s.nil, r.ptr s.nil, c'⟩,
    by simp [set_color, hl], ?_, ⟨rfl, rfl, rfl⟩, rfl, ?_⟩
  · refine h.replace_same rfl rfl rfl ?_ rfl ?_ (fun q hq => hq) ?_
    · intro q hq
      have : q ≠ p := fun e => hq (by simp [e])
      simp [Function.update_noteq this]
    · simp only [Rep_node, store_mem, store_nil, Function.update_same]
      refine ⟨h0, h1, trivial, Rep_congr ?_ hr.2.2.2.1, Rep_congr ?_ hr.2.2.2.2⟩
      · intro q hq
        have : q ≠ p := fun e => hpl (e ▸ hq)
        simp [Function.update_noteq this]
      · intro q hq
        have : q ≠ p := fun e => hn.2.1.1 (e ▸ hq)
        simp [Function.update_noteq this]
    · simpa [List.nodup_append, List.Disjoint] using hn
  · simp [Function.update_noteq (Ne.symm h1)]

theorem head_cell (f : Frame K V) (fs : Path K V) (t : Tree K V)
    (h : IsTree s (fill (f :: fs) t)) :
    f.ptr ≠ 0 ∧ f.ptr ≠ s.nil ∧ f.ptr ∉ t.addrs ∧
      s.mem f.ptr = some (f.cell s.nil (parentPtr s.nil fs) (t.ptr s.nil)) := by
  obtain ⟨h0, h1, h2, _, _⟩ := ((Rep_fill (f :: fs) t).1 h.rep).1
  have hn := (nodup_fill_iff (f :: fs) t).1 h.nodup
  exact ⟨h0, h1, fun e => hn.2.2 _ e (Path.mem_addrs_cons.2 (Or.inl rfl)), h2⟩

theorem parentPtr_not_mem (path : Path K V) (t : Tree K V) (h : IsTree s (fill path t)) :
    parentPtr s.nil path ∉ t.addrs := by
  cases path with
  | nil => exact ((Rep_fill [] t).1 h.rep).2.nil_not_mem
  | cons f fs => exact (h.head_cell f fs t).2.2.1

/-- The memory after `rotate_left(x)` holds the rotated tree, given what it holds at the
nodes the rotation writes to. -/
theorem rotate_left_finish {s' : RedBlackTree K V} (path : Path K V) (x : Ptr) (c : Color)
    (a : Tree K V) (k : K) (v : V) (y : Ptr) (cy : Color) (b : Tree K V) (ky : K) (vy : V)
    (g : Tree K V) (h : IsTree s (fill path (.node x c a k v (.node y cy b ky vy g))))
    (hnil : s'.nil = s.nil) (hbrk : s'.brk = s.brk)
    (hframe : ∀ q, q ≠ x → q ≠ y → q ≠ b.ptr s.nil → q ≠ parentPtr s.nil path →
      s'.mem q = s.mem q)
    (hsent : s'.mem s.nil = s.mem s.nil)
    (hcx : s'.mem x = some ⟨k, v, y, a.ptr s.nil, b.ptr s.nil, c⟩)
    (hcy : s'.mem y = some ⟨ky, vy, parentPtr s.nil path, x, g.ptr s.nil, cy⟩)
    (hcb : ∀ B cb bl bk bv br, b = .node B cb bl bk bv br →
      s'.mem B = some ⟨bk, bv, x, bl.ptr s.nil, br.ptr s.nil, cb⟩)
    (hlink : match path with
      | [] => s'.root = y
      | f :: fs => s'.root = s.root ∧
          s'.mem f.ptr = some (f.cell s.nil (parentPtr s.nil fs) y)) :
    IsTree s' (fill path (.node y cy (.node x c a k v b) ky vy g)) := by
  have hr := ((Rep_fill path _).1 h.rep).2
  have hn := ((nodup_fill_iff path _).1 h.nodup)
  have hP := h.parentPtr_not_mem path _
  have hlt : ∀ q ∈ (Tree.node x c a k v (.node y cy b ky vy g)).addrs, q < s.brk :=
    fun q hq => h.lt_brk (by rw [addrs_fill]; simp only [List.mem_append]; tauto)
  have hnl := hr.nil_not_mem
  obtain ⟨hn1, hn2, hn3⟩ := hn
  have hn3o := hn3
  have hn1o := hn1
  have erot : (Tree.node y cy (.node x c a k v b) ky vy g).addrs =
      (Tree.node x c a k v (.node y cy b ky vy g)).addrs := by simp
  cases b with
  | leaf =>
    simp only [Rep_node, Tree.ptr_node, Tree.ptr_leaf, Rep_leaf] at hr hframe hcx
    obtain ⟨hx0, hxn, hxm, hra, hy0, hyn, hym, -, hrg⟩ := hr
    simp only [Tree.addrs_node, Tree.addrs_leaf, List.nil_append, List.nodup_append,
      List.nodup_cons, List.mem_append, List.mem_cons, List.Disjoint, not_or, or_imp, forall_and,
      imp_false, List.forall_mem_ne', forall_eq] at hn1 hn3 hP hnl
    casesm* _ ∧ _
    refine h.replace hnil ?_ ?_ ?_ ?_ ?_ ?_ (le_of_eq hbrk.symm) ?_
    · intro q hq hqP hqn _
      simp only [Tree.addrs_node, Tree.addrs_leaf, List.nil_append, List.mem_append,
        List.mem_cons, not_or] at hq
      exact hframe q hq.2.1 hq.2.2.1 hqn hqP
    · rw [hsent]; exact h.nil_live
    · cases path with
      | nil => simpa using hlink
      | cons f fs => simpa using hlink
    · simp only [Rep_node, Tree.ptr_node, Tree.ptr_leaf, Rep_leaf]
      refine ⟨hy0, hyn, hcy, ⟨hx0, hxn, hcx, Rep_congr ?_ hra, trivial⟩, Rep_congr ?_ hrg⟩
      · intro q hq
        refine hframe q ?_ ?_ ?_ ?_ <;> (rintro rfl; contradiction)
      · intro q hq
        refine hframe q ?_ ?_ ?_ ?_ <;> (rintro rfl; contradiction)
    · intro q hq
      rw [erot] at hq
      exact hn3o q hq
    · rw [erot]; exact hn1o
    · intro q hq hle
      rw [hbrk] at hle
      exact absurd hle (not_le.2 (hlt q hq))
  | node B cb bl bk bv br =>
    simp only [Rep_node, Tree.ptr_node, Tree.ptr_leaf, Rep_leaf] at hr hframe hcx
    obtain ⟨hx0, hxn, hxm, hra, hy0, hyn, hym, ⟨hB0, hBn, hBm, hrbl, hrbr⟩, hrg⟩ := hr
    simp only [Tree.addrs_node, Tree.addrs_leaf, List.nil_append, List.nodup_append,
      List.nodup_cons, List.mem_append, List.mem_cons, List.Disjoint, not_or, or_imp, forall_and,
      imp_false, List.forall_mem_ne', forall_eq] at hn1 hn3 hP hnl
    casesm* _ ∧ _
    refine h.replace hnil ?_ ?_ ?_ ?_ ?_ ?_ (le_of_eq hbrk.symm) ?_
    · intro q hq hqP hqn _
      simp only [Tree.addrs_node, Tree.addrs_leaf, List.nil_append, List.mem_append,
        List.mem_cons, not_or] at hq
      exact hframe q (by tauto) (by tauto) (by tauto) hqP
    · rw [hsent]; exact h.nil_live
    · cases path with
      | nil => simpa using hlink
      | cons f fs => simpa using hlink
    · simp only [Rep_node, Tree.ptr_node, Tree.ptr_leaf, Rep_leaf]
      refine ⟨hy0, hyn, hcy, ⟨hx0, hxn, hcx, Rep_congr ?_ hra, hB0, hBn, hcb _ _ _ _ _ _ rfl,
        Rep_congr ?_ hrbl, Rep_congr ?_ hrbr⟩, Rep_congr ?_ hrg⟩
      · intro q hq
        refine hframe q ?_ ?_ ?_ ?_ <;> (rintro rfl; contradiction)
      · intro q hq
        refine hframe q ?_ ?_ ?_ ?_ <;> (rintro rfl; contradiction)
      · intro q hq
        refine hframe q ?_ ?_ ?_ ?_ <;> (rintro rfl; contradiction)
      · intro q hq
        refine hframe q ?_ ?_ ?_ ?_ <;> (rintro rfl; contradiction)
    · intro q hq
      rw [erot] at hq
      exact hn3o q hq
    · rw [erot]; exact hn1o
    · intro q hq hle
      rw [hbrk] at hle
      exact absurd hle (not_le.2 (hlt q hq))

/-- What memory holds at the parent of the subtree under a path. -/
theorem parent_facts (path : Path K V) (t : Tree K V) (h : IsTree s (fill path t)) :
    ∀ f fs, path = f :: fs →
      f.ptr ≠ 0 ∧ f.ptr ≠ s.nil ∧
        loadM s.mem f.ptr = .ok (f.cell s.nil (parentPtr s.nil fs) (t.ptr s.nil)) ∧
        ∀ q ∈ t.addrs, q ≠ f.ptr ∧ q ≠ f.sib.ptr s.nil := by
  intro f fs e
  subst e
  obtain ⟨h0, h1, h2, h3⟩ := h.head_cell f fs t
  have hn := (nodup_fill_iff (f :: fs) t).1 h.nodup
  have hnl := ((Rep_fill (f :: fs) t).1 h.rep).2.nil_not_mem
  refine ⟨h0, h1, loadM_of_mem h0 h3, fun q hq => ⟨fun e => h2 (e ▸ hq), fun e => ?_⟩⟩
  have hq' := hn.2.2 q hq
  rw [Path.mem_addrs_cons] at hq'
  refine Tree.ptr_ne ?_ (fun e' => hq' (Or.inr (Or.inl e'))) e.symm
  rintro rfl
  exact hnl hq

theorem rotate_left_focus (path : Path K V) (x : Ptr) (c : Color) (a : Tree K V) (k : K) (v : V)
    (y : Ptr) (cy : Color) (b : Tree K V) (ky : K) (vy : V) (g : Tree K V)
    (h : IsTree s (fill path (.node x c a k v (.node y cy b ky vy g)))) :
    ∃ s', s.rotate_left x = .ok s' ∧
      IsTree s' (fill path (.node y cy (.node x c a k v b) ky vy g)) ∧
      Keeps s s' ∧ s'.mem s.nil = s.mem s.nil := by
  have hx := h.load_focus path x c a k v (.node y cy b ky vy g)
  have hr := ((Rep_fill path _).1 h.rep).2
  have hn := ((nodup_fill_iff path _).1 h.nodup).1
  have hP := h.parentPtr_not_mem path _
  have hnl := hr.nil_not_mem
  have hpf := h.parent_facts path _
  simp only [Rep_node, Tree.ptr_node, load_eq_loadM] at hr hx
  obtain ⟨hx0, hxn, hxm, hra, hy0, hyn, hym, hrb, hrg⟩ := hr
  have hy := loadM_of_mem hy0 hym
  have hxy : x ≠ y := by
    simp only [Tree.addrs_node, List.nodup_append, List.nodup_cons, List.mem_append,
      List.mem_cons, not_or] at hn
    exact hn.2.1.1.2.1
  have hbx : b.ptr s.nil ≠ x := by
    refine Tree.ptr_ne hxn ?_
    simp only [Tree.addrs_node, List.nodup_append, List.nodup_cons, List.mem_append,
      List.mem_cons, not_or] at hn
    exact hn.2.1.1.1
  have hby : b.ptr s.nil ≠ y := by
    refine Tree.ptr_ne hyn ?_
    simp only [Tree.addrs_node, List.nodup_append, List.nodup_cons, List.mem_append,
      List.mem_cons, not_or, List.Disjoint, or_imp, forall_and, imp_false,
      List.forall_mem_ne', forall_eq] at hn
    exact hn.2.1.2.2.2.1
  have hb : b.ptr s.nil ≠ s.nil →
      ∃ nb, b.ptr s.nil ≠ 0 ∧ loadM s.mem (b.ptr s.nil) = .ok nb ∧
        ∀ B cb bl bk bv br, b = .node B cb bl bk bv br →
          nb = ⟨bk, bv, y, bl.ptr s.nil, br.ptr s.nil, cb⟩ := by
    intro hne
    cases b with
    | leaf => exact absurd rfl hne
    | node B cb bl bk bv br =>
      simp only [Rep_node] at hrb
      refine ⟨_, hrb.1, loadM_of_mem hrb.1 hrb.2.2.1, ?_⟩
      intro B' cb' bl' bk' bv' br' e
      cases e
      rfl
  have hbl : ∀ B cb bl bk bv br, b = .node B cb bl bk bv br → b.ptr s.nil ≠ s.nil := by
    intro B cb bl bk bv br e
    subst e
    simp only [Rep_node] at hrb
    exact hrb.2.1
  have hPx : parentPtr s.nil path ≠ x := by
    intro e; apply hP; rw [e]; simp
  have hPy : parentPtr s.nil path ≠ y := by
    intro e; apply hP; rw [e]; simp
  have hPb : b.ptr s.nil ≠ s.nil → parentPtr s.nil path ≠ b.ptr s.nil := by
    intro hne e
    apply hP; rw [e]
    cases b with
    | leaf => exact absurd rfl hne
    | node B cb bl bk bv br => simp
  by_cases hbn : b.ptr s.nil = s.nil
  · rcases path with _ | ⟨f, fs⟩
    · simp only [parentPtr_nil] at hx
      apply Exists.intro
      refine ⟨?_, ?_, ?_, ?_⟩
      · simp only [rotate_left, right_of, left_of, parent_of, set_right, set_parent,
          set_left, load_eq_loadM, store, bind_ok, pure_eq_ok, hx, hy, hxy, hxy.symm, hx0, hy0,
          hbn, loadM_update_same, loadM_update_ne, loadM_update_ne', ne_eq, not_false_eq_true, not_true_eq_false,
          if_true, if_false]
        rfl
      · refine h.rotate_left_finish [] x c a k v y cy b ky vy g rfl rfl ?_ ?_ ?_ ?_ ?_ ?_
        · intro q h1 h2 h3 h4
          simp only [upd_ne, ne_eq, h1, h2, not_false_eq_true]
        · simp only [upd_ne, upd_ne', ne_eq, hxn, hyn, not_false_eq_true]
        · simp only [Function.update_same, hbn]
        · simp only [upd_ne, upd_ne', ne_eq, hxy, not_false_eq_true, Function.update_same,
            parentPtr_nil]
        · intro B cb bl bk bv br e; exact absurd hbn (hbl _ _ _ _ _ _ e)
        · rfl
      · exact ⟨rfl, rfl, rfl⟩
      · simp only [upd_ne, upd_ne', ne_eq, hxn, hyn, not_false_eq_true]
    · obtain ⟨hP0, hPn, hPl, hPd⟩ := hpf f fs rfl
      have hxs : x ≠ f.sib.ptr s.nil := (hPd x (by simp)).2
      simp only [parentPtr_cons] at hx hPx hPy
      cases f <;>
      · simp only [Frame.ptr_left, Frame.ptr_right, Frame.cell, Frame.sib, Tree.ptr_node]
          at hx hPx hPy hP0 hPn hPl hxs
        apply Exists.intro
        refine ⟨?_, ?_, ?_, ?_⟩
        · simp only [rotate_left, right_of, left_of, parent_of, set_right, set_parent,
            set_left, load_eq_loadM, store, bind_ok, pure_eq_ok, hx, hy, hxy, hxy.symm, hx0, hy0,
            hbn, loadM_update_same, loadM_update_ne, loadM_update_ne', ne_eq, not_false_eq_true,
            not_true_eq_false, if_true, if_false, hPx, hPy, hP0, hPn, hPl, hxs]
          rfl
        · refine h.rotate_left_finish _ x c a k v y cy b ky vy g rfl rfl ?_ ?_ ?_ ?_ ?_ ?_
          · intro q h1 h2 h3 h4
            simp only [parentPtr_cons, Frame.ptr_left, Frame.ptr_right] at h4
            simp only [upd_ne, ne_eq, h1, h2, h4, not_false_eq_true]
          · simp only [upd_ne, upd_ne', ne_eq, hxn, hyn, hPn, not_false_eq_true]
          · simp only [Function.update_same, hbn]
          · simp only [upd_ne, upd_ne', ne_eq, hxy, not_false_eq_true, Function.update_same,
              parentPtr_cons, Frame.ptr_left, Frame.ptr_right]
          · intro B cb bl bk bv br e; exact absurd hbn (hbl _ _ _ _ _ _ e)
          · simp only [upd_ne, upd_ne', ne_eq, hPx, hPy, not_false_eq_true,
              Function.update_same, Frame.cell, Frame.ptr_left, Frame.ptr_right, and_self]
        · exact ⟨rfl, rfl, rfl⟩
        · simp only [upd_ne, upd_ne', ne_eq, hxn, hyn, hPn, not_false_eq_true]
  · obtain ⟨nb, hb0, hbl', hbe⟩ := hb hbn
    have hPb' := hPb hbn
    rcases path with _ | ⟨f, fs⟩
    · simp only [parentPtr_nil] at hx hPb'
      apply Exists.intro
      refine ⟨?_, ?_, ?_, ?_⟩
      · simp only [rotate_left, right_of, left_of, parent_of, set_right, set_parent,
          set_left, load_eq_loadM, store, bind_ok, pure_eq_ok, hx, hy, hxy, hxy.symm, hx0, hy0,
          hbn, loadM_update_same, loadM_update_ne, loadM_update_ne', ne_eq, not_false_eq_true,
          not_true_eq_false, if_true, if_false, hbx, hby, hbl', hb0]
        rfl
      · refine h.rotate_left_finish [] x c a k v y cy b ky vy g rfl rfl ?_ ?_ ?_ ?_ ?_ ?_
        · intro q h1 h2 h3 h4
          simp only [upd_ne, ne_eq, h1, h2, h3, not_false_eq_true]
        · simp only [upd_ne, upd_ne', ne_eq, hxn, hyn, hbn, not_false_eq_true]
        · simp only [Function.update_same]
        · simp only [upd_ne, upd_ne', ne_eq, hxy, not_false_eq_true, Function.update_same,
            parentPtr_nil]
        · intro B cb bl bk bv br e
          rw [hbe _ _ _ _ _ _ e]
          subst e
          simp only [Tree.ptr_node] at hbx hby
          simp only [upd_ne, upd_ne', ne_eq, hbx, hby, not_false_eq_true, Function.update_same,
            Tree.ptr_node]
        · rfl
      · exact ⟨rfl, rfl, rfl⟩
      · simp only [upd_ne, upd_ne', ne_eq, hxn, hyn, hbn, not_false_eq_true]
    · obtain ⟨hP0, hPn, hPl, hPd⟩ := hpf f fs rfl
      have hxs : x ≠ f.sib.ptr s.nil := (hPd x (by simp)).2
      simp only [parentPtr_cons] at hx hPx hPy hPb'
      cases f <;>
      · simp only [Frame.ptr_left, Frame.ptr_right, Frame.cell, Frame.sib, Tree.ptr_node]
          at hx hPx hPy hP0 hPn hPl hxs hPb'
        apply Exists.intro
        refine ⟨?_, ?_, ?_, ?_⟩
        · simp only [rotate_left, right_of, left_of, parent_of, set_right, set_parent,
            set_left, load_eq_loadM, store, bind_ok, pure_eq_ok, hx, hy, hxy, hxy.symm, hx0, hy0,
            hbn, loadM_update_same, loadM_update_ne, loadM_update_ne', ne_eq, not_false_eq_true,
            not_true_eq_false, if_true, if_false, hPx, hPy, hP0, hPn, hPl, hxs, hbx, hby, hbl',
            hb0, hPb']
          rfl
        · refine h.rotate_left_finish _ x c a k v y cy b ky vy g rfl rfl ?_ ?_ ?_ ?_ ?_ ?_
          · intro q h1 h2 h3 h4
            simp only [parentPtr_cons, Frame.ptr_left, Frame.ptr_right] at h4
            simp only [upd_ne, ne_eq, h1, h2, h3, h4, not_false_eq_true]
          · simp only [upd_ne, upd_ne', ne_eq, hxn, hyn, hPn, hbn, not_false_eq_true]
          · simp only [Function.update_same]
          · simp only [upd_ne, upd_ne', ne_eq, hxy, not_false_eq_true, Function.update_same,
              parentPtr_cons, Frame.ptr_left, Frame.ptr_right]
          · intro B cb bl bk bv br e
            rw [hbe _ _ _ _ _ _ e]
            subst e
            simp only [Tree.ptr_node] at hbx hby hPb'
            simp only [upd_ne, upd_ne', ne_eq, hbx, hby, hPb', not_false_eq_true,
              Function.update_same, Tree.ptr_node]
          · simp only [upd_ne, upd_ne', ne_eq, hPx, hPy, not_false_eq_true,
              Function.update_same, Frame.cell, Frame.ptr_left, Frame.ptr_right, and_self]
        · exact ⟨rfl, rfl, rfl⟩
        · simp only [upd_ne, upd_ne', ne_eq, hxn, hyn, hPn, hbn, not_false_eq_true]

/-- The memory after `rotate_right(x)` holds the rotated tree, given what it holds at the
nodes the rotation writes to. -/
theorem rotate_right_finish {s' : RedBlackTree K V} (path : Path K V) (x : Ptr) (c : Color)
    (a : Tree K V) (k : K) (v : V) (y : Ptr) (cy : Color) (b : Tree K V) (ky : K) (vy : V)
    (g : Tree K V) (h : IsTree s (fill path (.node x c (.node y cy a ky vy b) k v g)))
    (hnil : s'.nil = s.nil) (hbrk : s'.brk = s.brk)
    (hframe : ∀ q, q ≠ x → q ≠ y → q ≠ b.ptr s.nil → q ≠ parentPtr s.nil path →
      s'.mem q = s.mem q)
    (hsent : s'.mem s.nil = s.mem s.nil)
    (hcx : s'.mem x = some ⟨k, v, y, b.ptr s.nil, g.ptr s.nil, c⟩)
    (hcy : s'.mem y = some ⟨ky, vy, parentPtr s.nil path, a.ptr s.nil, x, cy⟩)
    (hcb : ∀ B cb bl bk bv br, b = .node B cb bl bk bv br →
      s'.mem B = some ⟨bk, bv, x, bl.ptr s.nil, br.ptr s.nil, cb⟩)
    (hlink : match path with
      | [] => s'.root = y
      | f :: fs => s'.root = s.root ∧
          s'.mem f.ptr = some (f.cell s.nil (parentPtr s.nil fs) y)) :
    IsTree s' (fill path (.node y cy a ky vy (.node x c b k v g))) := by
  have hr := ((Rep_fill path _).1 h.rep).2
  have hn := ((nodup_fill_iff path _).1 h.nodup)
  have hP := h.parentPtr_not_mem path _
  have hlt : ∀ q ∈ (Tree.node x c (.node y cy a ky vy b) k v g).addrs, q < s.brk :=
    fun q hq => h.lt_brk (by rw [addrs_fill]; simp only [List.mem_append]; tauto)
  have hnl := hr.nil_not_mem
  obtain ⟨hn1, hn2, hn3⟩ := hn
  have hn3o := hn3
  have hn1o := hn1
  have erot : (Tree.node y cy a ky vy (.node x c b k v g)).addrs =
      (Tree.node x c (.node y cy a ky vy b) k v g).addrs := by simp
  cases b with
  | leaf =>
    simp only [Rep_node, Tree.ptr_node, Tree.ptr_leaf, Rep_leaf] at hr hframe hcx
    obtain ⟨hx0, hxn, hxm, ⟨hy0, hyn, hym, hra, -⟩, hrg⟩ := hr
    simp only [Tree.addrs_node, Tree.addrs_leaf, List.nil_append, List.nodup_append,
      List.nodup_cons, List.mem_append, List.mem_cons, List.Disjoint, not_or, or_imp, forall_and,
      imp_false, List.forall_mem_ne', forall_eq] at hn1 hn3 hP hnl
    casesm* _ ∧ _
    refine h.replace hnil ?_ ?_ ?_ ?_ ?_ ?_ (le_of_eq hbrk.symm) ?_
    · intro q hq hqP hqn _
      simp only [Tree.addrs_node, Tree.addrs_leaf, List.nil_append, List.mem_append,
        List.mem_cons, not_or] at hq
      casesm* _ ∧ _
      exact hframe q (by assumption) (by assumption) hqn hqP
    · rw [hsent]; exact h.nil_live
    · cases path with
      | nil => simpa using hlink
      | cons f fs => simpa using hlink
    · simp only [Rep_node, Tree.ptr_node, Tree.ptr_leaf, Rep_leaf]
      refine ⟨hy0, hyn, hcy, Rep_congr ?_ hra, hx0, hxn, hcx, trivial, Rep_congr ?_ hrg⟩
      · intro q hq
        refine hframe q ?_ ?_ ?_ ?_ <;> (rintro rfl; contradiction)
      · intro q hq
        refine hframe q ?_ ?_ ?_ ?_ <;> (rintro rfl; contradiction)
    · intro q hq
      rw [erot] at hq
      exact hn3o q hq
    · rw [erot]; exact hn1o
    · intro q hq hle
      rw [hbrk] at hle
      exact absurd hle (not_le.2 (hlt q hq))
  | node B cb bl bk bv br =>
    simp only [Rep_node, Tree.ptr_node, Tree.ptr_leaf, Rep_leaf] at hr hframe hcx
    obtain ⟨hx0, hxn, hxm, ⟨hy0, hyn, hym, hra, hB0, hBn, hBm, hrbl, hrbr⟩, hrg⟩ := hr
    simp only [Tree.addrs_node, Tree.addrs_leaf, List.nil_append, List.nodup_append,
      List.nodup_cons, List.mem_append, List.mem_cons, List.Disjoint, not_or, or_imp, forall_and,
      imp_false, List.forall_mem_ne', forall_eq] at hn1 hn3 hP hnl
    casesm* _ ∧ _
    refine h.replace hnil ?_ ?_ ?_ ?_ ?_ ?_ (le_of_eq hbrk.symm) ?_
    · intro q hq hqP hqn _
      simp only [Tree.addrs_node, Tree.addrs_leaf, List.nil_append, List.mem_append,
        List.mem_cons, not_or] at hq
      exact hframe q (by tauto) (by tauto) (by tauto) hqP
    · rw [hsent]; exact h.nil_live
    · cases path with
      | nil => simpa using hlink
      | cons f fs => simpa using hlink
    · simp only [Rep_node, Tree.ptr_node, Tree.ptr_leaf, Rep_leaf]
      refine ⟨hy0, hyn, hcy, Rep_congr ?_ hra, hx0, hxn, hcx, ⟨hB0, hBn, hcb _ _ _ _ _ _ rfl,
        Rep_congr ?_ hrbl, Rep_congr ?_ hrbr⟩, Rep_congr ?_ hrg⟩
      · intro q hq
        refine hframe q ?_ ?_ ?_ ?_ <;> (rintro rfl; contradiction)
      · intro q hq
        refine hframe q ?_ ?_ ?_ ?_ <;> (rintro rfl; contradiction)
      · intro q hq
        refine hframe q ?_ ?_ ?_ ?_ <;> (rintro rfl; contradiction)
      · intro q hq
        refine hframe q ?_ ?_ ?_ ?_ <;> (rintro rfl; contradiction)
    · intro q hq
      rw [erot] at hq
      exact hn3o q hq
    · rw [erot]; exact hn1o
    · intro q hq hle
      rw [hbrk] at hle
      exact absurd hle (not_le.2 (hlt q hq))

theorem rotate_right_focus (path : Path K V) (x : Ptr) (c : Color) (a : Tree K V) (k : K) (v : V)
    (y : Ptr) (cy : Color) (b : Tree K V) (ky : K) (vy : V) (g : Tree K V)
    (h : IsTree s (fill path (.node x c (.node y cy a ky vy b) k v g))) :
    ∃ s', s.rotate_right x = .ok s' ∧
      IsTree s' (fill path (.node y cy a ky vy (.node x c b k v g))) ∧
      Keeps s s' ∧ s'.mem s.nil = s.mem s.nil := by
  have hx := h.load_focus path x c (.node y cy a ky vy b) k v g
  have hr := ((Rep_fill path _).1 h.rep).2
  have hn := ((nodup_fill_iff path _).1 h.nodup).1
  have hP := h.parentPtr_not_mem path _
  have hnl := hr.nil_not_mem
  have hpf := h.parent_facts path _
  simp only [Rep_node, Tree.ptr_node, load_eq_loadM] at hr hx
  obtain ⟨hx0, hxn, hxm, ⟨hy0, hyn, hym, hra, hrb⟩, hrg⟩ := hr
  have hy := loadM_of_mem hy0 hym
  have hxy : x ≠ y := by
    simp only [Tree.addrs_node, List.nodup_append, List.nodup_cons, List.mem_append,
      List.mem_cons, not_or, List.Disjoint, or_imp, forall_and, imp_false,
      List.forall_mem_ne', forall_eq] at hn
    casesm* _ ∧ _
    first | assumption | exact Ne.symm (by assumption)
  have hbx : b.ptr s.nil ≠ x := by
    refine Tree.ptr_ne hxn ?_
    simp only [Tree.addrs_node, List.nodup_append, List.nodup_cons, List.mem_append,
      List.mem_cons, not_or, List.Disjoint, or_imp, forall_and, imp_false,
      List.forall_mem_ne', forall_eq] at hn
    casesm* _ ∧ _
    assumption
  have hby : b.ptr s.nil ≠ y := by
    refine Tree.ptr_ne hyn ?_
    simp only [Tree.addrs_node, List.nodup_append, List.nodup_cons, List.mem_append,
      List.mem_cons, not_or, List.Disjoint, or_imp, forall_and, imp_false,
      List.forall_mem_ne', forall_eq] at hn
    casesm* _ ∧ _
    assumption
  have hb : b.ptr s.nil ≠ s.nil →
      ∃ nb, b.ptr s.nil ≠ 0 ∧ loadM s.mem (b.ptr s.nil) = .ok nb ∧
        ∀ B cb bl bk bv br, b = .node B cb bl bk bv br →
          nb = ⟨bk, bv, y, bl.ptr s.nil, br.ptr s.nil, cb⟩ := by
    intro hne
    cases b with
    | leaf => exact absurd rfl hne
    | node B cb bl bk bv br =>
      simp only [Rep_node] at hrb
      refine ⟨_, hrb.1, loadM_of_mem hrb.1 hrb.2.2.1, ?_⟩
      intro B' cb' bl' bk' bv' br' e
      cases e
      rfl
  have hbl : ∀ B cb bl bk bv br, b = .node B cb bl bk bv br → b.ptr s.nil ≠ s.nil := by
    intro B cb bl bk bv br e
    subst e
    simp only [Rep_node] at hrb
    exact hrb.2.1
  have hPx : parentPtr s.nil path ≠ x := by
    intro e; apply hP; rw [e]; simp
  have hPy : parentPtr s.nil path ≠ y := by
    intro e; apply hP; rw [e]; simp
  have hPb : b.ptr s.nil ≠ s.nil → parentPtr s.nil path ≠ b.ptr s.nil := by
    intro hne e
    apply hP; rw [e]
    cases b with
    | leaf => exact absurd rfl hne
    | node B cb bl bk bv br => simp
  by_cases hbn : b.ptr s.nil = s.nil
  · rcases path with _ | ⟨f, fs⟩
    · simp only [parentPtr_nil] at hx
      apply Exists.intro
      refine ⟨?_, ?_, ?_, ?_⟩
      · simp only [rotate_right, right_of, left_of, parent_of, set_left, set_parent,
          set_right, load_eq_loadM, store, bind_ok, pure_eq_ok, hx, hy, hxy, hxy.symm, hx0, hy0,
          hbn, loadM_update_same, loadM_update_ne, loadM_update_ne', ne_eq, not_false_eq_true, not_true_eq_false,
          if_true, if_false]
        rfl
      · refine h.rotate_right_finish [] x c a k v y cy b ky vy g rfl rfl ?_ ?_ ?_ ?_ ?_ ?_
        · intro q h1 h2 h3 h4
          simp only [upd_ne, ne_eq, h1, h2, not_false_eq_true]
        · simp only [upd_ne, upd_ne', ne_eq, hxn, hyn, not_false_eq_true]
        · simp only [Function.update_same, hbn]
        · simp only [upd_ne, upd_ne', ne_eq, hxy, not_false_eq_true, Function.update_same,
            parentPtr_nil]
        · intro B cb bl bk bv br e; exact absurd hbn (hbl _ _ _ _ _ _ e)
        · rfl
      · exact ⟨rfl, rfl, rfl⟩
      · simp only [upd_ne, upd_ne', ne_eq, hxn, hyn, not_false_eq_true]
    · obtain ⟨hP0, hPn, hPl, hPd⟩ := hpf f fs rfl
      have hxs : x ≠ f.sib.ptr s.nil := (hPd x (by simp)).2
      simp only [parentPtr_cons] at hx hPx hPy
      cases f <;>
      · simp only [Frame.ptr_left, Frame.ptr_right, Frame.cell, Frame.sib, Tree.ptr_node]
          at hx hPx hPy hP0 hPn hPl hxs
        apply Exists.intro
        refine ⟨?_, ?_, ?_, ?_⟩
        · simp only [rotate_right, right_of, left_of, parent_of, set_left, set_parent,
            set_right, load_eq_loadM, store, bind_ok, pure_eq_ok, hx, hy, hxy, hxy.symm, hx0, hy0,
            hbn, loadM_update_same, loadM_update_ne, loadM_update_ne', ne_eq, not_false_eq_true,
            not_true_eq_false, if_true, if_false, hPx, hPy, hP0, hPn, hPl, hxs]
          rfl
        · refine h.rotate_right_finish _ x c a k v y cy b ky vy g rfl rfl ?_ ?_ ?_ ?_ ?_ ?_
          · intro q h1 h2 h3 h4
            simp only [parentPtr_cons, Frame.ptr_left, Frame.ptr_right] at h4
            simp only [upd_ne, ne_eq, h1, h2, h4, not_false_eq_true]
          · simp only [upd_ne, upd_ne', ne_eq, hxn, hyn, hPn, not_false_eq_true]
          · simp only [Function.update_same, hbn]
          · simp only [upd_ne, upd_ne', ne_eq, hxy, not_false_eq_true, Function.update_same,
              parentPtr_cons, Frame.ptr_left, Frame.ptr_right]
          · intro B cb bl bk bv br e; exact absurd hbn (hbl _ _ _ _ _ _ e)
          · simp only [upd_ne, upd_ne', ne_eq, hPx, hPy, not_false_eq_true,
              Function.update_same, Frame.cell, Frame.ptr_left, Frame.ptr_right, and_self]
        · exact ⟨rfl, rfl, rfl⟩
        · simp only [upd_ne, upd_ne', ne_eq, hxn, hyn, hPn, not_false_eq_true]
  · obtain ⟨nb, hb0, hbl', hbe⟩ := hb hbn
    have hPb' := hPb hbn
    rcases path with _ | ⟨f, fs⟩
    · simp only [parentPtr_nil] at hx hPb'
      apply Exists.intro
      refine ⟨?_, ?_, ?_, ?_⟩
      · simp only [rotate_right, right_of, left_of, parent_of, set_left, set_parent,
          set_right, load_eq_loadM, store, bind_ok, pure_eq_ok, hx, hy, hxy, hxy.symm, hx0, hy0,
          hbn, loadM_update_same, loadM_update_ne, loadM_update_ne', ne_eq, not_false_eq_true,
          not_true_eq_false, if_true, if_false, hbx, hby, hbl', hb0]
        rfl
      · refine h.rotate_right_finish [] x c a k v y cy b ky vy g rfl rfl ?_ ?_ ?_ ?_ ?_ ?_
        · intro q h1 h2 h3 h4
          simp only [upd_ne, ne_eq, h1, h2, h3, not_false_eq_true]
        · simp only [upd_ne, upd_ne', ne_eq, hxn, hyn, hbn, not_false_eq_true]
        · simp only [Function.update_same]
        · simp only [upd_ne, upd_ne', ne_eq, hxy, not_false_eq_true, Function.update_same,
            parentPtr_nil]
        · intro B cb bl bk bv br e
          rw [hbe _ _ _ _ _ _ e]
          subst e
          simp only [Tree.ptr_node] at hbx hby
          simp only [upd_ne, upd_ne', ne_eq, hbx, hby, not_false_eq_true, Function.update_same,
            Tree.ptr_node]
        · rfl
      · exact ⟨rfl, rfl, rfl⟩
      · simp only [upd_ne, upd_ne', ne_eq, hxn, hyn, hbn, not_false_eq_true]
    · obtain ⟨hP0, hPn, hPl, hPd⟩ := hpf f fs rfl
      have hxs : x ≠ f.sib.ptr s.nil := (hPd x (by simp)).2
      simp only [parentPtr_cons] at hx hPx hPy hPb'
      cases f <;>
      · simp only [Frame.ptr_left, Frame.ptr_right, Frame.cell, Frame.sib, Tree.ptr_node]
          at hx hPx hPy hP0 hPn hPl hxs hPb'
        apply Exists.intro
        refine ⟨?_, ?_, ?_, ?_⟩
        · simp only [rotate_right, right_of, left_of, parent_of, set_left, set_parent,
            set_right, load_eq_loadM, store, bind_ok, pure_eq_ok, hx, hy, hxy, hxy.symm, hx0, hy0,
            hbn, loadM_update_same, loadM_update_ne, loadM_update_ne', ne_eq, not_false_eq_true,
            not_true_eq_false, if_true, if_false, hPx, hPy, hP0, hPn, hPl, hxs, hbx, hby, hbl',
            hb0, hPb']
          rfl
        · refine h.rotate_right_finish _ x c a k v y cy b ky vy g rfl rfl ?_ ?_ ?_ ?_ ?_ ?_
          · intro q h1 h2 h3 h4
            simp only [parentPtr_cons, Frame.ptr_left, Frame.ptr_right] at h4
            simp only [upd_ne, ne_eq, h1, h2, h3, h4, not_false_eq_true]
          · simp only [upd_ne, upd_ne', ne_eq, hxn, hyn, hPn, hbn, not_false_eq_true]
          · simp only [Function.update_same]
          · simp only [upd_ne, upd_ne', ne_eq, hxy, not_false_eq_true, Function.update_same,
              parentPtr_cons, Frame.ptr_left, Frame.ptr_right]
          · intro B cb bl bk bv br e
            rw [hbe _ _ _ _ _ _ e]
            subst e
            simp only [Tree.ptr_node] at hbx hby hPb'
            simp only [upd_ne, upd_ne', ne_eq, hbx, hby, hPb', not_false_eq_true,
              Function.update_same, Tree.ptr_node]
          · simp only [upd_ne, upd_ne', ne_eq, hPx, hPy, not_false_eq_true,
              Function.update_same, Frame.cell, Frame.ptr_left, Frame.ptr_right, and_self]
        · exact ⟨rfl, rfl, rfl⟩
        · simp only [upd_ne, upd_ne', ne_eq, hxn, hyn, hPn, hbn, not_false_eq_true]

end IsTree

theorem fill_ins_path (comp : K → K → Bool) (dup : Bool) (key : K) (path : Path K V)
    (t : Tree K V) :
    fill (ins_path comp dup key path t).1 (ins_path comp dup key path t).2 = fill path t := by
  induction t generalizing path with
  | leaf => rfl
  | node p c l k v r ihl ihr =>
    unfold ins_path
    split_ifs
    · rw [ihl]; rfl
    · rw [ihr]; rfl
    · rfl
    · rw [ihr]; rfl

theorem length_ins_path (comp : K → K → Bool) (dup : Bool) (key : K) (path : Path K V)
    (t : Tree K V) :
    (ins_path comp dup key path t).1.length + (ins_path comp dup key path t).2.height ≤
      path.length + t.height := by
  induction t generalizing path with
  | leaf => simp [ins_path]
  | node p c l k v r ihl ihr =>
    unfold ins_path
    split_ifs
    · have := ihl (Frame.left p c k v r :: path)
      simp only [List.length_cons, Tree.height_node] at this ⊢
      omega
    · have := ihr (Frame.right p c l k v :: path)
      simp only [List.length_cons, Tree.height_node] at this ⊢
      omega
    · simp
    · have := ihr (Frame.right p c l k v :: path)
      simp only [List.length_cons, Tree.height_node] at this ⊢
      omega

theorem insert_loop_sim (comp : K → K → Bool) (dup : Bool) (s : RedBlackTree K V) (key : K)
    (t : Tree K V) : ∀ (path : Path K V) (fuel : Nat),
    Rep s.mem s.nil (parentPtr s.nil path) t → t.height < fuel →
    insert_loop comp dup s key fuel (parentPtr s.nil path) (t.ptr s.nil) =
      .ok (loop_result s.nil (ins_path comp dup key path t)) := by
  induction t with
  | leaf =>
    intro path fuel _ hf
    obtain ⟨n, rfl⟩ : ∃ n, fuel = n + 1 := ⟨fuel - 1, by omega⟩
    simp [insert_loop, ins_path, loop_result]
  | node p c l k v r ihl ihr =>
    intro path fuel hr hf
    obtain ⟨n, rfl⟩ : ∃ n, fuel = n + 1 := ⟨fuel - 1, by omega⟩
    simp only [Rep_node] at hr
    obtain ⟨h0, h1, h2, h3, h4⟩ := hr
    have hl := load_of_mem h0 h2
    simp only [Tree.height_node] at hf
    have el := ihl (Frame.left p c k v r :: path) n h3 (by omega)
    have er := ihr (Frame.right p c l k v :: path) n h4 (by omega)
    simp only [parentPtr_cons, Frame.ptr_left, Frame.ptr_right] at el er
    simp only [insert_loop, Tree.ptr_node, h1, if_false, hl, bind_ok, ins_path]
    split_ifs
    · exact el
    · exact er
    · rfl
    · exact er

theorem find_loop_sim (comp : K → K → Bool) (s : RedBlackTree K V) (key : K)
    (t : Tree K V) : ∀ (par : Ptr) (path : Path K V) (fuel : Nat),
    Rep s.mem s.nil par t → t.height < fuel →
    find_loop comp s key fuel (t.ptr s.nil) =
      .ok ((ins_path comp false key path t).2.ptr s.nil) := by
  induction t with
  | leaf =>
    intro par path fuel _ hf
    obtain ⟨n, rfl⟩ : ∃ n, fuel = n + 1 := ⟨fuel - 1, by omega⟩
    simp [find_loop, ins_path]
  | node p c l k v r ihl ihr =>
    intro par path fuel hr hf
    obtain ⟨n, rfl⟩ : ∃ n, fuel = n + 1 := ⟨fuel - 1, by omega⟩
    simp only [Rep_node] at hr
    obtain ⟨h0, h1, h2, h3, h4⟩ := hr
    have hl := load_of_mem h0 h2
    simp only [Tree.height_node] at hf
    have el := ihl p (Frame.left p c k v r :: path) n h3 (by omega)
    have er := ihr p (Frame.right p c l k v :: path) n h4 (by omega)
    simp only [find_loop, Tree.ptr_node, h1, if_false, hl, bind_ok, ins_path, Bool.not_false,
      if_true]
    split_ifs
    · exact el
    · exact er
    · rfl

theorem inorder_helper_sim (s : RedBlackTree K V) (t : Tree K V) : ∀ (par : Ptr) (fuel : Nat),
    Rep s.mem s.nil par t → t.height < fuel →
    inorder_helper s fuel (t.ptr s.nil) = .ok t.toList := by
  induction t with
  | leaf =>
    intro par fuel _ hf
    obtain ⟨n, rfl⟩ : ∃ n, fuel = n + 1 := ⟨fuel - 1, by omega⟩
    simp [inorder_helper]
  | node p c l k v r ihl ihr =>
    intro par fuel hr hf
    obtain ⟨n, rfl⟩ : ∃ n, fuel = n + 1 := ⟨fuel - 1, by omega⟩
    simp only [Rep_node] at hr
    obtain ⟨h0, h1, h2, h3, h4⟩ := hr
    have hl := load_of_mem h0 h2
    simp only [Tree.height_node] at hf
    simp only [inorder_helper, Tree.ptr_node, h1, if_false, hl, bind_ok,
      ihl p n h3 (by omega), ihr p n h4 (by omega), pure_eq_ok, Tree.toList_node]

theorem fill_min_path (path : Path K V) (t : Tree K V) :
    fill (min_path path t).1 (min_path path t).2 = fill path t := by
  induction t generalizing path with
  | leaf => rfl
  | node p c l k v r ihl _ =>
    cases l with
    | leaf => rfl
    | node lp lc ll lk lv lr =>
      rw [min_path, ihl]
      rfl

theorem min_path_append (path : Path K V) (t : Tree K V) :
    (min_path path t).1 = (min_path [] t).1 ++ path ∧ (min_path path t).2 = (min_path [] t).2 := by
  induction t generalizing path with
  | leaf => simp [min_path]
  | node p c l k v r ihl _ =>
    cases l with
    | leaf => simp [min_path]
    | node lp lc ll lk lv lr =>
      rw [min_path, min_path]
      have h1 := ihl (Frame.left p c k v r :: path)
      have h2 := ihl [Frame.left p c k v r]
      rw [h1.1, h1.2, h2.1, h2.2]
      simp

theorem min_path_node (path : Path K V) (p : Ptr) (c : Color) (l : Tree K V) (k : K) (v : V)
    (r : Tree K V) :
    ∃ Y cy ky vy yr, (min_path path (.node p c l k v r)).2 = .node Y cy .leaf ky vy yr := by
  induction l generalizing path p c k v r with
  | leaf => exact ⟨p, c, k, v, r, rfl⟩
  | node lp lc ll lk lv lr ihl _ =>
    rw [min_path]
    exact ihl _ lp lc lk lv lr

theorem minimum_sim (s : RedBlackTree K V) (t : Tree K V) : ∀ (par : Ptr) (path : Path K V)
    (fuel : Nat), Rep s.mem s.nil par t → t.height < fuel →
    minimum s fuel (t.ptr s.nil) = .ok ((min_path path t).2.ptr s.nil) := by
  induction t with
  | leaf =>
    intro par path fuel _ hf
    obtain ⟨n, rfl⟩ : ∃ n, fuel = n + 1 := ⟨fuel - 1, by omega⟩
    simp [minimum, min_path]
  | node p c l k v r ihl _ =>
    intro par path fuel hr hf
    obtain ⟨n, rfl⟩ : ∃ n, fuel = n + 1 := ⟨fuel - 1, by omega⟩
    simp only [Rep_node] at hr
    obtain ⟨h0, h1, h2, h3, h4⟩ := hr
    have hl := load_of_mem h0 h2
    simp only [Tree.height_node] at hf
    cases l with
    | leaf =>
      simp [minimum, h1, left_of, hl, min_path]
    | node lp lc ll lk lv lr =>
      have hlp : lp ≠ s.nil := by
        simp only [Rep_node] at h3
        exact h3.2.1
      have := ihl p (Frame.left p c k v r :: path) n h3 (by omega)
      simp only [Tree.ptr_node] at this
      simp only [minimum, Tree.ptr_node, h1, if_false, left_of, hl, bind_ok, pure_eq_ok, hlp,
        min_path, this]

@[simp]
theorem Tree.setColor_node (c' : Color) (p : Ptr) (c : Color) (l : Tree K V) (k : K)
    (v : V) (r : Tree K V) : (Tree.node p c l k v r).setColor c' = .node p c' l k v r := rfl

@[simp]
theorem Tree.setColor_leaf (c' : Color) : (Tree.leaf : Tree K V).setColor c' = .leaf :=
  rfl

@[simp]
theorem Tree.ptr_setColor (nil : Ptr) (c : Color) (t : Tree K V) :
    (t.setColor c).ptr nil = t.ptr nil := by cases t <;> rfl

@[simp]
theorem Tree.toList_setColor (c : Color) (t : Tree K V) :
    (t.setColor c).toList = t.toList := by cases t <;> rfl

@[simp]
theorem Tree.count_setColor (c : Color) (t : Tree K V) :
    (t.setColor c).count = t.count := by cases t <;> rfl

@[simp]
theorem Tree.addrs_setColor (c : Color) (t : Tree K V) :
    (t.setColor c).addrs = t.addrs := by cases t <;> rfl

theorem fill_node (path : Path K V) (p : Ptr) (c : Color) (l : Tree K V) (k : K) (v : V)
    (r : Tree K V) : ∃ p' c' l' k' v' r', fill path (.node p c l k v r) = .node p' c' l' k' v' r' := by
  induction path generalizing p c l k v r with
  | nil => exact ⟨_, _, _, _, _, _, rfl⟩
  | cons f fs ih =>
    cases f with
    | left p1 c1 k1 v1 r1 => exact ih p1 c1 _ k1 v1 r1
    | right p1 c1 l1 k1 v1 => exact ih p1 c1 l1 k1 v1 _

theorem KeepsN.reflN (s : RedBlackTree K V) : KeepsN s s := ⟨Keeps.refl s, rfl⟩

theorem KeepsN.transN {s s' s'' : RedBlackTree K V} (h : KeepsN s s') (h' : KeepsN s' s'') :
    KeepsN s s'' := by
  refine ⟨h.keeps.trans h'.keeps, ?_⟩
  have := h'.sent
  rw [h.keeps.nil_eq] at this
  rw [this, h.sent]

theorem KeepsN.sentinel {s s' : RedBlackTree K V} (h : KeepsN s s') (hs : SentinelBlack s) :
    SentinelBlack s' := by
  unfold SentinelBlack color_of load at *
  rw [h.keeps.nil_eq, h.sent]
  exact hs

namespace IsTree

variable {s : RedBlackTree K V}

theorem load_frame (f : Frame K V) (rest : Path K V) (t : Tree K V)
    (h : IsTree s (fill (f :: rest) t)) :
    s.load f.ptr = .ok (f.cell s.nil (parentPtr s.nil rest) (t.ptr s.nil)) := by
  obtain ⟨h0, _, _, h3⟩ := h.head_cell f rest t
  exact load_of_mem h0 h3

theorem parent_of_focus (path : Path K V) (p : Ptr) (c : Color) (l : Tree K V) (k : K) (v : V)
    (r : Tree K V) (h : IsTree s (fill path (.node p c l k v r))) :
    s.parent_of p = .ok (parentPtr s.nil path) := by
  simp [parent_of, h.load_focus path p c l k v r]

theorem left_of_focus (path : Path K V) (p : Ptr) (c : Color) (l : Tree K V) (k : K) (v : V)
    (r : Tree K V) (h : IsTree s (fill path (.node p c l k v r))) :
    s.left_of p = .ok (l.ptr s.nil) := by
  simp [left_of, h.load_focus path p c l k v r]

theorem right_of_focus (path : Path K V) (p : Ptr) (c : Color) (l : Tree K V) (k : K) (v : V)
    (r : Tree K V) (h : IsTree s (fill path (.node p c l k v r))) :
    s.right_of p = .ok (r.ptr s.nil) := by
  simp [right_of, h.load_focus path p c l k v r]

theorem color_of_focus (path : Path K V) (p : Ptr) (c : Color) (l : Tree K V) (k : K) (v : V)
    (r : Tree K V) (h : IsTree s (fill path (.node p c l k v r))) :
    s.color_of p = .ok c := by
  simp [color_of, h.load_focus path p c l k v r]

theorem key_of_focus (path : Path K V) (p : Ptr) (c : Color) (l : Tree K V) (k : K) (v : V)
    (r : Tree K V) (h : IsTree s (fill path (.node p c l k v r))) :
    s.key_of p = .ok k := by
  simp [key_of, h.load_focus path p c l k v r]

theorem parent_of_frame (f : Frame K V) (rest : Path K V) (t : Tree K V)
    (h : IsTree s (fill (f :: rest) t)) : s.parent_of f.ptr = .ok (parentPtr s.nil rest) := by
  have := h.load_frame _ rest t
  cases f <;> simp only [Frame.ptr_left, Frame.ptr_right, Frame.cell] at this ⊢ <;>
    simp [parent_of, this]

theorem color_of_frame (f : Frame K V) (rest : Path K V) (t : Tree K V)
    (h : IsTree s (fill (f :: rest) t)) : s.color_of f.ptr = .ok f.color := by
  have := h.load_frame _ rest t
  cases f <;> simp only [Frame.ptr_left, Frame.ptr_right, Frame.cell, Frame.color_left,
    Frame.color_right] at this ⊢ <;> simp [color_of, this]

theorem set_color_node (path : Path K V) (p : Ptr) (c : Color) (l : Tree K V) (k : K) (v : V)
    (r : Tree K V) (c' : Color) (h : IsTree s (fill path (.node p c l k v r))) :
    ∃ s', s.set_color p c' = .ok s' ∧ IsTree s' (fill path (.node p c' l k v r)) ∧
      KeepsN s s' ∧ s'.root = s.root := by
  obtain ⟨s', e, h', k', r', m⟩ := h.set_color_focus path p c l k v r c'
  exact ⟨s', e, h', ⟨k', m⟩, r'⟩

theorem set_color_frame (f : Frame K V) (rest : Path K V) (t : Tree K V) (c' : Color)
    (h : IsTree s (fill (f :: rest) t)) :
    ∃ s', s.set_color f.ptr c' = .ok s' ∧ IsTree s' (fill (f.setColor c' :: rest) t) ∧
      KeepsN s s' ∧ s'.root = s.root := by
  cases f with
  | left p c k v r => exact h.set_color_node rest p c t k v r c'
  | right p c l k v => exact h.set_color_node rest p c l k v t c'

theorem set_color_sib (f : Frame K V) (rest : Path K V) (t : Tree K V) (c' : Color)
    (u : Ptr) (cu : Color) (ul : Tree K V) (uk : K) (uv : V) (ur : Tree K V)
    (hu : f.sib = .node u cu ul uk uv ur) (h : IsTree s (fill (f :: rest) t)) :
    ∃ s', s.set_color u c' = .ok s' ∧
      IsTree s' (fill (f.setSib (.node u c' ul uk uv ur) :: rest) t) ∧
      KeepsN s s' ∧ s'.root = s.root := by
  cases f with
  | left p c k v r =>
    simp only [Frame.sib] at hu
    subst hu
    exact h.set_color_node (Frame.right p c t k v :: rest) u cu ul uk uv ur c'
  | right p c l k v =>
    simp only [Frame.sib] at hu
    subst hu
    exact h.set_color_node (Frame.left p c k v t :: rest) u cu ul uk uv ur c'

theorem rotate_left_node (path : Path K V) (x : Ptr) (c : Color) (a : Tree K V) (k : K) (v : V)
    (y : Ptr) (cy : Color) (b : Tree K V) (ky : K) (vy : V) (g : Tree K V)
    (h : IsTree s (fill path (.node x c a k v (.node y cy b ky vy g)))) :
    ∃ s', s.rotate_left x = .ok s' ∧
      IsTree s' (fill path (.node y cy (.node x c a k v b) ky vy g)) ∧ KeepsN s s' := by
  obtain ⟨s', e, h', k', m⟩ := h.rotate_left_focus path x c a k v y cy b ky vy g
  exact ⟨s', e, h', ⟨k', m⟩⟩

theorem rotate_right_node (path : Path K V) (x : Ptr) (c : Color) (a : Tree K V) (k : K) (v : V)
    (y : Ptr) (cy : Color) (b : Tree K V) (ky : K) (vy : V) (g : Tree K V)
    (h : IsTree s (fill path (.node x c (.node y cy a ky vy b) k v g))) :
    ∃ s', s.rotate_right x = .ok s' ∧
      IsTree s' (fill path (.node y cy a ky vy (.node x c b k v g))) ∧ KeepsN s s' := by
  obtain ⟨s', e, h', k', m⟩ := h.rotate_right_focus path x c a k v y cy b ky vy g
  exact ⟨s', e, h', ⟨k', m⟩⟩

theorem color_of_sib (f : Frame K V) (rest : Path K V) (t : Tree K V)
    (hs : SentinelBlack s) (h : IsTree s (fill (f :: rest) t)) :
    s.color_of (f.sib.ptr s.nil) = .ok f.sib.color := by
  cases hf : f.sib with
  | leaf => exact hs
  | node u cu ul uk uv ur =>
    cases f with
    | left p c k v r =>
      simp only [Frame.sib] at hf
      subst hf
      have := h.load_focus (Frame.right p c t k v :: rest) u cu ul uk uv ur
      simp [color_of, this]
    | right p c l k v =>
      simp only [Frame.sib] at hf
      subst hf
      have := h.load_focus (Frame.left p c k v t :: rest) u cu ul uk uv ur
      simp [color_of, this]

/-- The last statement of `insert_fix`. -/
theorem insert_fix_exit_sim (p : Ptr) (c : Color) (l : Tree K V) (k : K) (v : V) (r : Tree K V)
    (h : IsTree s (.node p c l k v r)) :
    ∃ s', s.insert_fix_exit = .ok s' ∧ IsTree s' ((Tree.node p c l k v r).setColor .BLACK) ∧
      KeepsN s s' := by
  obtain ⟨s', e, h', k', _⟩ := h.set_color_node [] p c l k v r .BLACK
  have hr : s.root = p := h.root_eq
  exact ⟨s', by rw [insert_fix_exit, hr, e], h', k'⟩

/-- The uncle-RED branch of `insert_fix`. -/
theorem insert_fix_recolor_sim (fP fG : Frame K V) (rest : Path K V) (z : Ptr) (cz : Color)
    (zl : Tree K V) (zk : K) (zv : V) (zr : Tree K V) (u : Ptr) (cu : Color) (ul : Tree K V)
    (uk : K) (uv : V) (ur : Tree K V) (hu : fG.sib = .node u cu ul uk uv ur)
    (h : IsTree s (fill (fP :: fG :: rest) (.node z cz zl zk zv zr))) :
    ∃ s', s.insert_fix_recolor z u = .ok (s', fG.ptr) ∧
      IsTree s' (fill rest (((fG.setSib (.node u .BLACK ul uk uv ur)).setColor .RED).plug
        ((fP.setColor .BLACK).plug (.node z cz zl zk zv zr)))) ∧
      KeepsN s s' := by
  have hz := h.parent_of_focus (fP :: fG :: rest) z cz zl zk zv zr
  obtain ⟨s1, e1, h1, k1, _⟩ := h.set_color_frame fP (fG :: rest) _ .BLACK
  have h1' : IsTree s1 (fill (fG :: rest) ((fP.setColor .BLACK).plug (.node z cz zl zk zv zr))) :=
    h1
  obtain ⟨s2, e2, h2, k2, _⟩ := h1'.set_color_sib fG rest _ .BLACK u cu ul uk uv ur hu
  have h2' : IsTree s2 (fill ((fP.setColor .BLACK) :: (fG.setSib (.node u .BLACK ul uk uv ur)) ::
      rest) (.node z cz zl zk zv zr)) := h2
  have hz2 := h2'.parent_of_focus _ z cz zl zk zv zr
  have hP2 := h2'.parent_of_frame _ _ _
  obtain ⟨s3, e3, h3, k3, _⟩ := h2.set_color_frame _ rest _ .RED
  have h3' : IsTree s3 (fill ((fP.setColor .BLACK) ::
      ((fG.setSib (.node u .BLACK ul uk uv ur)).setColor .RED) :: rest)
      (.node z cz zl zk zv zr)) := h3
  have hz3 := h3'.parent_of_focus _ z cz zl zk zv zr
  have hP3 := h3'.parent_of_frame _ _ _
  have ePtr : (fP.setColor .BLACK).ptr = fP.ptr := by cases fP <;> rfl
  have ePtrG : (fG.setSib (.node u .BLACK ul uk uv ur)).ptr = fG.ptr := by cases fG <;> rfl
  have ePtrG' : ((fG.setSib (.node u .BLACK ul uk uv ur)).setColor .RED).ptr = fG.ptr := by
    cases fG <;> rfl
  simp only [parentPtr_cons, ePtr, ePtrG, ePtrG'] at hz hz2 hP2 hz3 hP3 e3
  refine ⟨s3, ?_, h3, k1.transN (k2.transN k3)⟩
  simp only [insert_fix_recolor, hz, bind_ok, pure_eq_ok, e1, e2, hz2, hP2, e3, hz3, hP3]

theorem insert_fix_exit_any (path : Path K V) (z : Ptr) (cz : Color) (zl : Tree K V) (zk : K)
    (zv : V) (zr : Tree K V) (h : IsTree s (fill path (.node z cz zl zk zv zr))) :
    ∃ s', s.insert_fix_exit = .ok s' ∧
      IsTree s' ((fill path (.node z cz zl zk zv zr)).setColor .BLACK) ∧ KeepsN s s' := by
  obtain ⟨p, c, l, k, v, r, e⟩ := fill_node path z cz zl zk zv zr
  rw [e] at h ⊢
  exact h.insert_fix_exit_sim p c l k v r

/-- The end of the uncle-BLACK branch, parent a left child, `z` a left child. -/
theorem insert_fix_outer_l_sim (rest : Path K V) (z : Ptr) (cz : Color) (zl : Tree K V) (zk : K)
    (zv : V) (zr : Tree K V) (P : Ptr) (cp : Color) (kp : K) (vp : V) (b : Tree K V) (G : Ptr)
    (cg : Color) (kg : K) (vg : V) (U : Tree K V)
    (h : IsTree s (fill (Frame.left P cp kp vp b :: Frame.left G cg kg vg U :: rest)
      (.node z cz zl zk zv zr))) :
    ∃ s', s.insert_fix_outer_l z = .ok s' ∧
      IsTree s' (fill rest (.node P .BLACK (.node z cz zl zk zv zr) kp vp
        (.node G .RED b kg vg U))) ∧ KeepsN s s' := by
  have hz := h.parent_of_focus _ z cz zl zk zv zr
  obtain ⟨s1, e1, h1, k1, _⟩ := h.set_color_frame _ _ _ .BLACK
  have h1' : IsTree s1 (fill (Frame.left P .BLACK kp vp b :: Frame.left G cg kg vg U :: rest)
      (.node z cz zl zk zv zr)) := h1
  have hz1 := h1'.parent_of_focus _ z cz zl zk zv zr
  have hP1 := h1'.parent_of_frame _ _ _
  have h1'' : IsTree s1 (fill (Frame.left G cg kg vg U :: rest)
      (.node P .BLACK (.node z cz zl zk zv zr) kp vp b)) := h1
  obtain ⟨s2, e2, h2, k2, _⟩ := h1''.set_color_frame _ _ _ .RED
  have h2' : IsTree s2 (fill (Frame.left P .BLACK kp vp b :: Frame.left G .RED kg vg U :: rest)
      (.node z cz zl zk zv zr)) := h2
  have hz2 := h2'.parent_of_focus _ z cz zl zk zv zr
  have hP2 := h2'.parent_of_frame _ _ _
  have h2'' : IsTree s2 (fill rest (.node G .RED (.node P .BLACK (.node z cz zl zk zv zr) kp vp b)
      kg vg U)) := h2
  obtain ⟨s3, e3, h3, k3⟩ := h2''.rotate_right_node rest G .RED _ kg vg P .BLACK b kp vp U
  simp only [parentPtr_cons, Frame.ptr_left] at hz hz1 hP1 hz2 hP2 e1 e2
  refine ⟨s3, ?_, h3, k1.transN (k2.transN k3)⟩
  simp only [insert_fix_outer_l, hz, bind_ok, e1, hz1, hP1, e2, hz2, hP2, e3]

/-- The end of the uncle-BLACK branch, parent a right child, `z` a right child. -/
theorem insert_fix_outer_r_sim (rest : Path K V) (z : Ptr) (cz : Color) (zl : Tree K V) (zk : K)
    (zv : V) (zr : Tree K V) (P : Ptr) (cp : Color) (a : Tree K V) (kp : K) (vp : V) (G : Ptr)
    (cg : Color) (U : Tree K V) (kg : K) (vg : V)
    (h : IsTree s (fill (Frame.right P cp a kp vp :: Frame.right G cg U kg vg :: rest)
      (.node z cz zl zk zv zr))) :
    ∃ s', s.insert_fix_outer_r z = .ok s' ∧
      IsTree s' (fill rest (.node P .BLACK (.node G .RED U kg vg a) kp vp
        (.node z cz zl zk zv zr))) ∧ KeepsN s s' := by
  have hz := h.parent_of_focus _ z cz zl zk zv zr
  obtain ⟨s1, e1, h1, k1, _⟩ := h.set_color_frame _ _ _ .BLACK
  have h1' : IsTree s1 (fill (Frame.right P .BLACK a kp vp :: Frame.right G cg U kg vg :: rest)
      (.node z cz zl zk zv zr)) := h1
  have hz1 := h1'.parent_of_focus _ z cz zl zk zv zr
  have hP1 := h1'.parent_of_frame _ _ _
  have h1'' : IsTree s1 (fill (Frame.right G cg U kg vg :: rest)
      (.node P .BLACK a kp vp (.node z cz zl zk zv zr))) := h1
  obtain ⟨s2, e2, h2, k2, _⟩ := h1''.set_color_frame _ _ _ .RED
  have h2' : IsTree s2 (fill (Frame.right P .BLACK a kp vp :: Frame.right G .RED U kg vg :: rest)
      (.node z cz zl zk zv zr)) := h2
  have hz2 := h2'.parent_of_focus _ z cz zl zk zv zr
  have hP2 := h2'.parent_of_frame _ _ _
  have h2'' : IsTree s2 (fill rest (.node G .RED U kg vg
      (.node P .BLACK a kp vp (.node z cz zl zk zv zr)))) := h2
  obtain ⟨s3, e3, h3, k3⟩ := h2''.rotate_left_node rest G .RED U kg vg P .BLACK a kp vp _
  simp only [parentPtr_cons, Frame.ptr_right] at hz hz1 hP1 hz2 hP2 e1 e2
  refine ⟨s3, ?_, h3, k1.transN (k2.transN k3)⟩
  simp only [insert_fix_outer_r, hz, bind_ok, e1, hz1, hP1, e2, hz2, hP2, e3]

end IsTree

theorem insert_fix_z_black (f : Frame K V) (rest : Path K V) (z : Tree K V)
    (hf : f.color = .BLACK) : insert_fix_z (f :: rest) z = some (fill (f :: rest) z) := by
  cases rest with
  | nil => simp [insert_fix_z, hf]
  | cons g gs => simp [insert_fix_z, hf]

theorem color_ne_red {c : Color} : c ≠ .RED ↔ c = .BLACK := by
  cases c <;> simp

namespace IsTree

/-- The source's `insert_fix(z)` follows `insert_fix_z` and ends with the root BLACK. -/
theorem insert_fix_sim : ∀ (fuel : Nat) (path : Path K V) (z : Ptr) (cz : Color)
    (zl : Tree K V) (zk : K) (zv : V) (zr : Tree K V) (s : RedBlackTree K V) (T' : Tree K V),
    IsTree s (fill path (.node z cz zl zk zv zr)) → SentinelBlack s →
    insert_fix_z path (.node z cz zl zk zv zr) = some T' → path.length < fuel →
    ∃ s', insert_fix fuel s z = .ok s' ∧ IsTree s' (T'.setColor .BLACK) ∧ KeepsN s s' := by
  intro fuel
  induction fuel with
  | zero => intro path z cz zl zk zv zr s T' _ _ _ hlen; omega
  | succ n ih =>
    intro path z cz zl zk zv zr s T' h hs hz hlen
    have hpz := h.parent_of_focus path z cz zl zk zv zr
    have hn0 := h.nil_ne
    unfold SentinelBlack at hs
    match path, h, hz, hlen, hpz with
    | [], h, hz, hlen, hpz =>
      simp only [insert_fix_z, Option.some.injEq] at hz
      subst hz
      obtain ⟨s', e, h', k'⟩ := h.insert_fix_exit_any [] z cz zl zk zv zr
      refine ⟨s', ?_, h', k'⟩
      simp only [insert_fix, hpz, parentPtr_nil, bind_ok, hn0, if_false, hs, ne_eq,
        reduceCtorEq, not_false_eq_true, if_true, e]
    | [f], h, hz, hlen, hpz =>
      have hf0 := (h.head_cell f [] _).1
      have hcf := h.color_of_frame f [] _
      by_cases hfc : f.color = .BLACK
      · simp only [insert_fix_z, hfc, if_true, Option.some.injEq] at hz
        subst hz
        obtain ⟨s', e, h', k'⟩ := h.insert_fix_exit_any [f] z cz zl zk zv zr
        refine ⟨s', ?_, h', k'⟩
        simp only [insert_fix, hpz, parentPtr_cons, bind_ok, hf0, if_false, hcf, hfc, ne_eq,
          reduceCtorEq, not_false_eq_true, if_true, e]
      · simp [insert_fix_z, hfc] at hz
    | fP :: fG :: rest, h, hz, hlen, hpz =>
      have hP0 := (h.head_cell fP _ _).1
      have hcP := h.color_of_frame fP _ _
      by_cases hfc : fP.color = .BLACK
      · rw [insert_fix_z_black _ _ _ hfc] at hz
        simp only [Option.some.injEq] at hz
        subst hz
        obtain ⟨s', e, h', k'⟩ := h.insert_fix_exit_any (fP :: fG :: rest) z cz zl zk zv zr
        refine ⟨s', ?_, h', k'⟩
        simp only [insert_fix, hpz, parentPtr_cons, bind_ok, hP0, if_false, hcP, hfc, ne_eq,
          reduceCtorEq, not_false_eq_true, if_true, e]
      · have hred : fP.color = .RED := by
          cases hc : fP.color
          · rfl
          · exact absurd hc hfc
        have hpP := h.parent_of_frame fP (fG :: rest) _
        have hG : IsTree s (fill (fG :: rest) (fP.plug (.node z cz zl zk zv zr))) := h
        have hcU := hG.color_of_sib fG rest _ hs
        have hPne : fP.ptr ≠ fG.sib.ptr s.nil := by
          have := (hG.parent_facts _ _ fG rest rfl).2.2.2 fP.ptr
            (by cases fP <;> simp)
          exact this.2
        have hzne : z ≠ fP.sib.ptr s.nil := by
          have := (h.parent_facts _ _ fP (fG :: rest) rfl).2.2.2 z (by simp)
          exact this.2
        simp only [insert_fix_z, hfc, if_false] at hz
        simp only [parentPtr_cons] at hpz hpP
        cases fG with
        | left G cg kg vg U =>
          have hGl : s.left_of G = .ok fP.ptr := by
            have := hG.left_of_focus rest G cg _ kg vg U
            simpa using this
          have hGr : s.right_of G = .ok (U.ptr s.nil) := hG.right_of_focus rest G cg _ kg vg U
          simp only [Frame.sib, Frame.ptr_left] at hcU hPne hpP hz
          by_cases hUc : U.color = .RED
          · cases U with
            | leaf => simp at hUc
            | node u cu ul uk uv ur =>
              simp only [Tree.color_node] at hUc
              subst hUc
              simp only [Tree.color_node, if_true, Tree.setColor_node, Frame.setSib,
                Frame.setColor, plug_left] at hz
              obtain ⟨s1, e1, h1, k1⟩ := h.insert_fix_recolor_sim fP (Frame.left G cg kg vg _) rest
                z cz zl zk zv zr u .RED ul uk uv ur rfl
              have h1' : IsTree s1 (fill rest (.node G .RED ((fP.setColor .BLACK).plug
                  (.node z cz zl zk zv zr)) kg vg (.node u .BLACK ul uk uv ur))) := h1
              obtain ⟨s2, e2, h2, k2⟩ := ih rest G .RED _ kg vg _ s1 T' h1' (k1.sentinel hs) hz
                (by simp only [List.length_cons] at hlen; omega)
              refine ⟨s2, ?_, h2, k1.transN k2⟩
              simp only [Tree.ptr_node, Tree.color_node] at hPne hGr hcU
              simp only [insert_fix, hpz, bind_ok, hP0, if_false, hcP, hred, ne_eq,
                not_true_eq_false, hpP, hGl, if_true, hGr, Tree.ptr_node, hcU, Tree.color_node,
                e1, Frame.ptr_left, e2]
          · have hUb : U.color = .BLACK := color_ne_red.1 hUc
            simp only [hUb, reduceCtorEq, if_false] at hz
            cases fP with
            | left P cp kp vp b =>
              simp only [Option.some.injEq] at hz
              subst hz
              have hPr : s.right_of P = .ok (b.ptr s.nil) :=
                hG.right_of_focus (Frame.left G cg kg vg U :: rest) P cp _ kp vp b
              simp only [Frame.sib, Frame.ptr_left, Frame.color_left] at hzne hpz hpP hcP hred hP0 hGl
              obtain ⟨s1, e1, h1, k1⟩ := h.insert_fix_outer_l_sim rest z cz zl zk zv zr P cp kp vp b
                G cg kg vg U
              have h1' : IsTree s1 (fill (Frame.left P .BLACK kp vp (.node G .RED b kg vg U) :: rest)
                  (.node z cz zl zk zv zr)) := h1
              obtain ⟨s2, e2, h2, k2⟩ := ih _ z cz zl zk zv zr s1 _ h1' (k1.sentinel hs)
                (insert_fix_z_black _ _ _ rfl) (by simp only [List.length_cons] at hlen ⊢; omega)
              refine ⟨s2, ?_, h2, k1.transN k2⟩
              simp only [insert_fix, hpz, bind_ok, hP0, if_false, hcP, hred, ne_eq,
                not_true_eq_false, hpP, hGl, if_true, hGr, hcU, hUb, reduceCtorEq, hPr, hzne,
                e1, e2]
            | right P cp a kp vp =>
              simp only [Option.some.injEq] at hz
              subst hz
              have hPr : s.right_of P = .ok z :=
                hG.right_of_focus (Frame.left G cg kg vg U :: rest) P cp a kp vp _
              simp only [Frame.sib, Frame.ptr_right, Frame.color_right] at hzne hpz hpP hcP hred hP0 hGl
              have hP : IsTree s (fill (Frame.left G cg kg vg U :: rest)
                  (.node P cp a kp vp (.node z cz zl zk zv zr))) := h
              obtain ⟨s1, e1, h1, k1⟩ := hP.rotate_left_node _ P cp a kp vp z cz zl zk zv zr
              have h1' : IsTree s1 (fill (Frame.left z cz zk zv zr :: Frame.left G cg kg vg U :: rest)
                  (.node P cp a kp vp zl)) := h1
              obtain ⟨s2, e2, h2, k2⟩ := h1'.insert_fix_outer_l_sim rest P cp a kp vp zl z cz zk zv
                zr G cg kg vg U
              have h2' : IsTree s2 (fill (Frame.left z .BLACK zk zv (.node G .RED zr kg vg U) :: rest)
                  (.node P cp a kp vp zl)) := h2
              obtain ⟨s3, e3, h3, k3⟩ := ih _ P cp a kp vp zl s2 _ h2'
                ((k1.transN k2).sentinel hs) (insert_fix_z_black _ _ _ rfl)
                (by simp only [List.length_cons] at hlen ⊢; omega)
              refine ⟨s3, ?_, h3, k1.transN (k2.transN k3)⟩
              simp only [insert_fix, hpz, bind_ok, hP0, if_false, hcP, hred, ne_eq,
                not_true_eq_false, hpP, hGl, if_true, hGr, hcU, hUb, reduceCtorEq, hPr,
                e1, e2, e3]
        | right G cg U kg vg =>
          have hGl : s.left_of G = .ok (U.ptr s.nil) := hG.left_of_focus rest G cg U kg vg _
          simp only [Frame.sib, Frame.ptr_right] at hcU hPne hpP hz
          by_cases hUc : U.color = .RED
          · cases U with
            | leaf => simp at hUc
            | node u cu ul uk uv ur =>
              simp only [Tree.color_node] at hUc
              subst hUc
              simp only [Tree.color_node, if_true, Tree.setColor_node, Frame.setSib,
                Frame.setColor, plug_right] at hz
              obtain ⟨s1, e1, h1, k1⟩ := h.insert_fix_recolor_sim fP (Frame.right G cg _ kg vg) rest
                z cz zl zk zv zr u .RED ul uk uv ur rfl
              have h1' : IsTree s1 (fill rest (.node G .RED (.node u .BLACK ul uk uv ur) kg vg
                  ((fP.setColor .BLACK).plug (.node z cz zl zk zv zr)))) := h1
              obtain ⟨s2, e2, h2, k2⟩ := ih rest G .RED _ kg vg _ s1 T' h1' (k1.sentinel hs) hz
                (by simp only [List.length_cons] at hlen; omega)
              refine ⟨s2, ?_, h2, k1.transN k2⟩
              simp only [Tree.ptr_node, Tree.color_node] at hPne hGl hcU
              simp only [insert_fix, hpz, bind_ok, hP0, if_false, hcP, hred, ne_eq,
                not_true_eq_false, hpP, hGl, hPne, Tree.ptr_node, hcU, Tree.color_node, if_true,
                e1, Frame.ptr_right, e2]
          · have hUb : U.color = .BLACK := color_ne_red.1 hUc
            simp only [hUb, reduceCtorEq, if_false] at hz
            cases fP with
            | right P cp a kp vp =>
              simp only [Option.some.injEq] at hz
              subst hz
              have hPl : s.left_of P = .ok (a.ptr s.nil) :=
                hG.left_of_focus (Frame.right G cg U kg vg :: rest) P cp a kp vp _
              simp only [Frame.sib, Frame.ptr_right, Frame.color_right] at hzne hpz hpP hcP hred hP0 hPne
              obtain ⟨s1, e1, h1, k1⟩ := h.insert_fix_outer_r_sim rest z cz zl zk zv zr P cp a kp vp
                G cg U kg vg
              have h1' : IsTree s1 (fill (Frame.right P .BLACK (.node G .RED U kg vg a) kp vp :: rest)
                  (.node z cz zl zk zv zr)) := h1
              obtain ⟨s2, e2, h2, k2⟩ := ih _ z cz zl zk zv zr s1 _ h1' (k1.sentinel hs)
                (insert_fix_z_black _ _ _ rfl) (by simp only [List.length_cons] at hlen ⊢; omega)
              refine ⟨s2, ?_, h2, k1.transN k2⟩
              simp only [insert_fix, hpz, bind_ok, hP0, if_false, hcP, hred, ne_eq,
                not_true_eq_false, hpP, hGl, hPne, hcU, hUb, reduceCtorEq, hPl, hzne,
                e1, e2]
            | left P cp kp vp b =>
              simp only [Option.some.injEq] at hz
              subst hz
              have hPl : s.left_of P = .ok z :=
                hG.left_of_focus (Frame.right G cg U kg vg :: rest) P cp _ kp vp b
              simp only [Frame.sib, Frame.ptr_left, Frame.color_left] at hzne hpz hpP hcP hred hP0 hPne
              have hP : IsTree s (fill (Frame.right G cg U kg vg :: rest)
                  (.node P cp (.node z cz zl zk zv zr) kp vp b)) := h
              obtain ⟨s1, e1, h1, k1⟩ := hP.rotate_right_node _ P cp zl kp vp z cz zr zk zv b
              have h1' : IsTree s1 (fill (Frame.right z cz zl zk zv :: Frame.right G cg U kg vg :: rest)
                  (.node P cp zr kp vp b)) := h1
              obtain ⟨s2, e2, h2, k2⟩ := h1'.insert_fix_outer_r_sim rest P cp zr kp vp b z cz zl zk
                zv G cg U kg vg
              have h2' : IsTree s2 (fill (Frame.right z .BLACK (.node G .RED U kg vg zl) zk zv :: rest)
                  (.node P cp zr kp vp b)) := h2
              obtain ⟨s3, e3, h3, k3⟩ := ih _ P cp zr kp vp b s2 _ h2'
                ((k1.transN k2).sentinel hs) (insert_fix_z_black _ _ _ rfl)
                (by simp only [List.length_cons] at hlen ⊢; omega)
              refine ⟨s3, ?_, h3, k1.transN (k2.transN k3)⟩
              simp only [insert_fix, hpz, bind_ok, hP0, if_false, hcP, hred, ne_eq,
                not_true_eq_false, hpP, hGl, hPne, hcU, hUb, reduceCtorEq, hPl,
                if_true, e1, e2, e3]

end IsTree

theorem ins_path_dir (comp : K → K → Bool) (dup : Bool) (key : K) (t : Tree K V) :
    ∀ (path : Path K V), (∀ f ∈ path, DirOK comp key f) →
      ∀ f ∈ (ins_path comp dup key path t).1, DirOK comp key f := by
  induction t with
  | leaf => intro path hp; simpa [ins_path] using hp
  | node p c l k v r ihl ihr =>
    intro path hp
    unfold ins_path
    split_ifs with h1 h2 h3
    · apply ihl
      intro f hf
      rcases List.mem_cons.1 hf with rfl | hf
      · exact h1
      · exact hp f hf
    · apply ihr
      intro f hf
      rcases List.mem_cons.1 hf with rfl | hf
      · simpa [DirOK] using h1
      · exact hp f hf
    · exact hp
    · apply ihr
      intro f hf
      rcases List.mem_cons.1 hf with rfl | hf
      · simpa [DirOK] using h1
      · exact hp f hf

namespace IsTree

variable {s : RedBlackTree K V}

/-- The tree is not touched by `create_node`. -/
theorem create_node (k : K) (v : V) (h : IsTree s T) :
    IsTree (s.create_node k v).1 T ∧ s.brk ∉ T.addrs ∧ s.brk ≠ s.nil := by
  have hz : s.brk ∉ T.addrs := fun e => absurd (h.lt_brk e) (lt_irrefl _)
  have hzn : s.brk ≠ s.nil := fun e => absurd h.nil_lt_brk (by rw [e]; exact lt_irrefl _)
  refine ⟨⟨h.root_eq, Rep_congr ?_ h.rep, h.nodup, h.nil_ne, ?_, ?_, ?_⟩, hz, hzn⟩
  · intro q hq
    have : q ≠ s.brk := fun e => hz (e ▸ hq)
    simp [RedBlackTree.create_node, Function.update_noteq this]
  · obtain ⟨n, hn⟩ := h.nil_live
    refine ⟨n, ?_⟩
    simp [RedBlackTree.create_node, Function.update_noteq (Ne.symm hzn), hn]
  · intro p hp
    change s.brk + 1 ≤ p at hp
    change Function.update s.mem s.brk _ p = none
    have : p ≠ s.brk := by unfold Ptr at *; omega
    rw [Function.update_noteq this]
    exact h.unused p (by unfold Ptr at *; omega)
  · simp [RedBlackTree.create_node]

/-- The element count is no part of the tree. -/
theorem set_size (n : Nat) (h : IsTree s T) : IsTree { s with tree_size := n } T :=
  ⟨h.root_eq, h.rep, h.nodup, h.nil_ne, h.nil_live, h.unused, h.brk_ne⟩

/-- Hanging the new node `z` under the place where the descent ended. -/
theorem link_sim (comp : K → K → Bool) (path : Path K V) (k : K) (v : V) (z : Ptr)
    (hdir : ∀ f ∈ path, DirOK comp k f)
    (hz : s.mem z = some ⟨k, v, 0, s.nil, s.nil, .RED⟩) (hz0 : z ≠ 0) (hzn : z ≠ s.nil)
    (hzp : z ∉ (fill path (.leaf : Tree K V)).addrs) (hzb : z < s.brk)
    (h : IsTree s (fill path .leaf)) :
    ∃ s', s.insert_link comp z (parentPtr s.nil path) = .ok s' ∧
      IsTree s' (fill path (.node z .RED .leaf k v .leaf)) ∧ KeepsN s s' := by
  have hzl := load_of_mem hz0 hz
  rw [addrs_fill] at hzp
  simp only [Tree.addrs_leaf, List.append_nil, List.mem_append, not_or] at hzp
  have hzp' : z ∉ path.addrs := by
    simp only [Path.addrs, List.mem_append, not_or]; exact hzp
  obtain ⟨nn, hnn⟩ := h.nil_live
  rcases path with _ | ⟨f, rest⟩
  · apply Exists.intro
    refine ⟨?_, ?_, ?_⟩
    · simp only [insert_link, set_parent, hzl, bind_ok, pure_eq_ok, parentPtr_nil, store_nil, if_true]
      rfl
    · refine h.replace rfl ?_ ?_ ?_ ?_ ?_ ?_ (le_refl _) ?_
      · intro q _ _ _ hq
        have : q ≠ z := by
          rintro rfl
          rcases hq with hq | hq
          · exact absurd hzb (not_lt.2 hq)
          · exact hzp' hq
        simp [upd_ne, this]
      · exact ⟨nn, by simp [upd_ne', hzn, hnn]⟩
      · rfl
      · simp only [Rep_node, Rep_leaf, Tree.ptr_leaf, store_mem, Function.update_same,
          parentPtr_nil, and_true]
        exact ⟨hz0, hzn⟩
      · intro q hq
        simp only [Tree.addrs_node, Tree.addrs_leaf, List.nil_append, List.mem_singleton] at hq
        subst hq
        exact hzp'
      · simp
      · intro q hq; simp at hq
    · exact ⟨⟨rfl, rfl, rfl⟩, by simp [upd_ne', hzn]⟩
  · obtain ⟨hf0, hfn, -, hfm⟩ := h.head_cell f rest .leaf
    have hfl := loadM_of_mem hf0 hfm
    have hzl' := loadM_of_mem hz0 hz
    have hzf : z ≠ f.ptr := by
      intro e
      apply hzp'
      rw [e]
      exact Path.mem_addrs_cons.2 (Or.inl rfl)
    have hd := hdir f (List.mem_cons_self _ _)
    have hfin : ∀ s' : RedBlackTree K V,
        s' = (s.store z ⟨k, v, f.ptr, s.nil, s.nil, .RED⟩).store f.ptr
          (f.cell s.nil (parentPtr s.nil rest) z) →
        IsTree s' (fill (f :: rest) (.node z .RED .leaf k v .leaf)) ∧ KeepsN s s' := by
      intro s' es
      subst es
      refine ⟨?_, ⟨rfl, rfl, rfl⟩, by simp [upd_ne', hzn, hfn]⟩
      refine h.replace rfl ?_ ?_ ?_ ?_ ?_ ?_ (le_refl _) ?_
      · intro q _ hqf _ hq
        have : q ≠ z := by
          rintro rfl
          rcases hq with hq | hq
          · exact absurd hzb (not_lt.2 hq)
          · exact hzp' hq
        simp only [parentPtr_cons] at hqf
        simp [upd_ne, this, hqf]
      · exact ⟨nn, by simp [upd_ne', hzn, hfn, hnn]⟩
      · exact ⟨rfl, by simp⟩
      · simp only [Rep_node, Rep_leaf, Tree.ptr_leaf, store_mem, parentPtr_cons, and_true,
          store_nil]
        refine ⟨hz0, hzn, ?_⟩
        rw [upd_ne _ _ hzf, Function.update_same]
      · intro q hq
        simp only [Tree.addrs_node, Tree.addrs_leaf, List.nil_append, List.mem_singleton] at hq
        subst hq
        exact hzp'
      · simp
      · intro q hq; simp at hq
    cases f with
    | left P cp kp vp r =>
      simp only [DirOK] at hd
      simp only [Frame.ptr_left, Frame.cell] at hfl hzf hfn hfin
      refine ⟨_, ?_, hfin _ rfl⟩
      simp only [insert_link, set_parent, hzl', bind_ok, pure_eq_ok, parentPtr_cons, Frame.ptr_left,
        store_nil, hfn, if_false, key_of, load_eq_loadM, store_mem, loadM_update_same, hz0,
        ne_eq, not_false_eq_true, loadM_update_ne', hzf, hfl, hd, if_true,
        set_left]
    | right P cp l kp vp =>
      simp only [DirOK] at hd
      simp only [Frame.ptr_right, Frame.cell] at hfl hzf hfn hfin
      refine ⟨_, ?_, hfin _ rfl⟩
      simp only [insert_link, set_parent, hzl', bind_ok, pure_eq_ok, parentPtr_cons, Frame.ptr_right,
        store_nil, hfn, if_false, key_of, load_eq_loadM, store_mem, loadM_update_same, hz0,
        ne_eq, not_false_eq_true, loadM_update_ne', hzf, hfl, hd,
        set_right, Bool.false_eq_true]

theorem length_ins_path_le (comp : K → K → Bool) (dup : Bool) (key : K) (T : Tree K V) :
    (ins_path comp dup key [] T).1.length ≤ T.height := by
  have := length_ins_path comp dup key [] T
  simp only [List.length_nil, zero_add] at this
  omega

/-- The source's `insert` of a key the descent finds: nothing but the allocator changes. -/
theorem insert_sim_dup (comp : K → K → Bool) (dup : Bool) (fuel : Nat) (k : K) (v : V)
    (T : Tree K V) (path : Path K V) (p : Ptr) (c : Color) (l : Tree K V) (k' : K) (v' : V)
    (r : Tree K V) (h : IsTree s T) (hf : T.height < fuel)
    (hp : ins_path comp dup k [] T = (path, .node p c l k' v' r)) :
    insert comp dup fuel s (k, v) = .ok ({ s with brk := s.brk + 1 }, ⟨p, s.nil, 0⟩, false) := by
  obtain ⟨h1, hz, hzn⟩ := h.create_node k v
  obtain ⟨s1, hs1⟩ : ∃ s1, s1 = (s.create_node k v).1 := ⟨_, rfl⟩
  have hc : s.create_node k v = (s1, s.brk) := by rw [hs1]; rfl
  rw [← hs1] at h1
  have hz0 : s.brk ≠ 0 := h.brk_ne
  have hm : s1.mem s.brk = some ⟨k, v, 0, s.nil, s.nil, .RED⟩ := by
    rw [hs1]; simp [RedBlackTree.create_node]
  have hnil : s1.nil = s.nil := by rw [hs1]; rfl
  have hl := load_of_mem hz0 hm
  have hloop := insert_loop_sim comp dup s1 k T [] fuel h1.rep hf
  rw [parentPtr_nil, ← h1.root_eq, hp] at hloop
  simp only [RedBlackTree.insert, hc, key_of, hl, bind_ok, pure_eq_ok, hloop, loop_result, if_true, free]
  have : Function.update s1.mem s.brk none = s.mem := by
    rw [hs1]
    simp only [RedBlackTree.create_node, Function.update_idem]
    rw [← h.unused s.brk (le_refl _), Function.update_eq_self]
  rw [this, hs1]
  rfl

/-- The source's `insert` of a key the descent does not find. -/
theorem insert_sim_new (comp : K → K → Bool) (dup : Bool) (fuel : Nat) (k : K) (v : V)
    (T : Tree K V) (path : Path K V) (T' : Tree K V) (h : IsTree s T) (hs : SentinelBlack s)
    (hf : T.height < fuel) (hp : ins_path comp dup k [] T = (path, .leaf))
    (hfix : insert_fix_z path (.node s.brk .RED .leaf k v .leaf) = some T') :
    ∃ s', insert comp dup fuel s (k, v) = .ok (s', ⟨s.brk, s.nil, 0⟩, true) ∧
      IsTree s' (T'.setColor .BLACK) ∧ SentinelBlack s' ∧ s'.nil = s.nil ∧
      s'.tree_size = s.tree_size + 1 ∧ s'.brk = s.brk + 1 := by
  obtain ⟨h1, hz, hzn⟩ := h.create_node k v
  obtain ⟨s1, hs1⟩ : ∃ s1, s1 = (s.create_node k v).1 := ⟨_, rfl⟩
  have hc : s.create_node k v = (s1, s.brk) := by rw [hs1]; rfl
  rw [← hs1] at h1
  have hz0 : s.brk ≠ 0 := h.brk_ne
  have hm : s1.mem s.brk = some ⟨k, v, 0, s.nil, s.nil, .RED⟩ := by
    rw [hs1]; simp [RedBlackTree.create_node]
  have hnil : s1.nil = s.nil := by rw [hs1]; rfl
  have hbrk : s1.brk = s.brk + 1 := by rw [hs1]; rfl
  have hsz : s1.tree_size = s.tree_size := by rw [hs1]; rfl
  have hs1b : SentinelBlack s1 := by
    unfold SentinelBlack color_of load at *
    rw [hnil, hs1]
    simp only [RedBlackTree.create_node, Function.update_noteq (Ne.symm hzn)]
    exact hs
  have hl := load_of_mem hz0 hm
  have hloop := insert_loop_sim comp dup s1 k T [] fuel h1.rep hf
  rw [parentPtr_nil, ← h1.root_eq, hp] at hloop
  have hfill := fill_ins_path comp dup k [] T
  rw [hp] at hfill
  simp only [fill_nil] at hfill
  have hlen := length_ins_path_le comp dup k T
  rw [hp] at hlen
  have hdir := ins_path_dir comp dup k T [] (by simp)
  rw [hp] at hdir
  have h1' : IsTree s1 (fill path .leaf) := by rw [hfill]; exact h1
  rw [← hnil] at hm hzn
  obtain ⟨s2, e2, h2, k2⟩ := h1'.link_sim comp path k v s.brk hdir hm hz0 hzn
    (by rw [hfill]; exact hz) (by rw [hbrk]; exact Nat.lt_succ_self _)
  obtain ⟨s3, e3, h3, k3⟩ := insert_fix_sim fuel path s.brk .RED .leaf k v .leaf s2 T' h2
    (k2.sentinel hs1b) hfix (by simp only at hlen; omega)
  have k23 := k2.transN k3
  refine ⟨{ s3 with tree_size := s3.tree_size + 1 }, ?_, h3.set_size _, ?_, ?_, ?_, ?_⟩
  · simp only [RedBlackTree.insert, hc, key_of, hl, bind_ok, pure_eq_ok, hloop, loop_result,
      Bool.false_eq_true, if_false, e2, e3]
    rw [k23.keeps.nil_eq, hnil]
  · have := k23.sentinel hs1b
    unfold SentinelBlack color_of load at *
    exact this
  · exact k23.keeps.nil_eq.trans hnil
  · show s3.tree_size + 1 = s.tree_size + 1
    rw [k23.keeps.size_eq, hsz]
  · exact k23.keeps.brk_eq.trans hbrk

end IsTree

theorem KeepsC.reflC (s : RedBlackTree K V) : KeepsC s s :=
  ⟨Keeps.refl s, id, fun n h => ⟨n, h, rfl, rfl⟩⟩

theorem KeepsC.transC {s s' s'' : RedBlackTree K V} (h : KeepsC s s') (h' : KeepsC s' s'') :
    KeepsC s s'' := by
  refine ⟨h.keeps.trans h'.keeps, fun hs => h'.sent (h.sent hs), fun n hn => ?_⟩
  obtain ⟨n1, h1, e1, e2⟩ := h.links n hn
  rw [← h.keeps.nil_eq] at h1
  obtain ⟨n2, h2, e3, e4⟩ := h'.links n1 h1
  rw [h.keeps.nil_eq] at h2
  exact ⟨n2, h2, e3.trans e1, e4.trans e2⟩

theorem KeepsN.toC {s s' : RedBlackTree K V} (h : KeepsN s s') : KeepsC s s' :=
  ⟨h.keeps, h.sentinel, fun n hn => ⟨n, h.sent.trans hn, rfl, rfl⟩⟩

/-- A state that differs at the sentinel in the parent link at most keeps its color and its
child links. -/
theorem KeepsC.of_parent {s s' : RedBlackTree K V} {nn : Node K V} (hk : Keeps s s')
    (hn0 : s.nil ≠ 0) (hnn : s.mem s.nil = some nn)
    (h : (∃ p, s'.mem s.nil = some { nn with parent := p }) ∨ s'.mem s.nil = s.mem s.nil) :
    KeepsC s s' := by
  refine ⟨hk, fun hs => ?_, fun n hn => ?_⟩
  · unfold SentinelBlack color_of load at *
    rw [hk.nil_eq]
    simp only [hn0, if_false, hnn] at hs ⊢
    rcases h with ⟨p, hp⟩ | hp
    · rw [hp]; exact hs
    · rw [hp, hnn]; exact hs
  · rw [hnn] at hn
    cases hn
    rcases h with ⟨p, hp⟩ | hp
    · exact ⟨_, hp, rfl, rfl⟩
    · exact ⟨_, hp.trans hnn, rfl, rfl⟩

namespace IsTree

variable {s : RedBlackTree K V}

/-- The memory after `transplant(u, t)` holds the tree with `t` in the place of `u`,
given what it holds at the nodes the function writes to. -/
theorem transplant_finish {s' : RedBlackTree K V} (path : Path K V) (u : Ptr) (c : Color)
    (l : Tree K V) (k : K) (v : V) (r t : Tree K V)
    (h : IsTree s (fill path (.node u c l k v r))) (ht : t = l ∨ t = r)
    (hnil : s'.nil = s.nil) (hbrk : s'.brk = s.brk)
    (hframe : ∀ q, q ≠ t.ptr s.nil → q ≠ parentPtr s.nil path → s'.mem q = s.mem q)
    (hlive : ∃ n, s'.mem s.nil = some n)
    (hct : ∀ T ct tl tk tv tr, t = .node T ct tl tk tv tr →
      s'.mem T = some ⟨tk, tv, parentPtr s.nil path, tl.ptr s.nil, tr.ptr s.nil, ct⟩)
    (hlink : match path with
      | [] => s'.root = t.ptr s.nil
      | f :: fs => s'.root = s.root ∧
          s'.mem f.ptr = some (f.cell s.nil (parentPtr s.nil fs) (t.ptr s.nil))) :
    IsTree s' (fill path t) := by
  have hr := ((Rep_fill path _).1 h.rep).2
  have hn := ((nodup_fill_iff path _).1 h.nodup)
  have hP := h.parentPtr_not_mem path _
  have hlt : ∀ q ∈ (Tree.node u c l k v r).addrs, q < s.brk :=
    fun q hq => h.lt_brk (by rw [addrs_fill]; simp only [List.mem_append]; tauto)
  have hsubs : ∀ q ∈ t.addrs, q ∈ (Tree.node u c l k v r).addrs := by
    intro q hq
    rcases ht with rfl | rfl <;> simp [hq]
  simp only [Rep_node] at hr
  have hrt : Rep s.mem s.nil u t := by
    rcases ht with rfl | rfl
    · exact hr.2.2.2.1
    · exact hr.2.2.2.2
  have hndt : t.addrs.Nodup := by
    have := hn.1
    simp only [Tree.addrs_node, List.nodup_append, List.nodup_cons] at this
    rcases ht with rfl | rfl
    · exact this.1
    · exact this.2.1.2
  refine h.replace hnil ?_ hlive ?_ ?_ ?_ hndt (le_of_eq hbrk.symm) ?_
  · intro q hq hqP hqn _
    refine hframe q ?_ hqP
    cases t with
    | leaf => exact hqn
    | node T ct tl tk tv tr =>
      rintro rfl
      exact hq (hsubs _ (by simp))
  · cases path with
    | nil => simpa using hlink
    | cons f fs => simpa using hlink
  · cases t with
    | leaf => trivial
    | node T ct tl tk tv tr =>
      simp only [Rep_node] at hrt ⊢
      have hnt := hndt
      simp only [Tree.addrs_node, List.nodup_append, List.nodup_cons, List.mem_append,
        List.mem_cons, List.Disjoint, not_or, or_imp, forall_and, imp_false,
        List.forall_mem_ne', forall_eq] at hnt
      refine ⟨hrt.1, hrt.2.1, hct _ _ _ _ _ _ rfl, Rep_congr ?_ hrt.2.2.2.1,
        Rep_congr ?_ hrt.2.2.2.2⟩
      · intro q hq
        refine hframe q ?_ ?_
        · rintro rfl; exact hnt.2.2.1 hq
        · rintro rfl; exact hP (hsubs _ (by simp [hq]))
      · intro q hq
        refine hframe q ?_ ?_
        · rintro rfl; exact hnt.2.1.1 hq
        · rintro rfl; exact hP (hsubs _ (by simp [hq]))
  · intro q hq
    exact hn.2.2 q (hsubs q hq)
  · intro q hq hle
    rw [hbrk] at hle
    exact absurd hle (not_le.2 (hlt q hq))

theorem color_of_eq_loadM (s : RedBlackTree K V) (p : Ptr) :
    s.color_of p = (loadM s.mem p >>= fun n => pure n.color) := rfl

/-- The source's `transplant(u, t)` for a child `t` of `u`. -/
theorem transplant_sim (path : Path K V) (u : Ptr) (c : Color) (l : Tree K V) (k : K) (v : V)
    (r t : Tree K V) (h : IsTree s (fill path (.node u c l k v r))) (ht : t = l ∨ t = r) :
    ∃ s', s.transplant u (t.ptr s.nil) = .ok s' ∧ IsTree s' (fill path t) ∧
      s'.parent_of (t.ptr s.nil) = .ok (parentPtr s.nil path) ∧
      (∀ q, q ≠ t.ptr s.nil → q ≠ parentPtr s.nil path → s'.mem q = s.mem q) ∧
      KeepsC s s' := by
  have hu := h.load_focus path u c l k v r
  have hr := ((Rep_fill path _).1 h.rep).2
  have hP := h.parentPtr_not_mem path _
  have hpf := h.parent_facts path _
  have hnl := hr.nil_not_mem
  obtain ⟨nn, hnn⟩ := h.nil_live
  have hn0 := h.nil_ne
  simp only [Rep_node, load_eq_loadM] at hr hu
  obtain ⟨hu0, hun, -, hrl, hrr⟩ := hr
  have hrt : Rep s.mem s.nil u t := by
    rcases ht with rfl | rfl
    · exact hrl
    · exact hrr
  have hsubs : ∀ q ∈ t.addrs, q ∈ (Tree.node u c l k v r).addrs := by
    intro q hq
    rcases ht with rfl | rfl <;> simp [hq]
  have htl : ∃ nt, t.ptr s.nil ≠ 0 ∧ loadM s.mem (t.ptr s.nil) = .ok nt ∧
      (∀ T ct tl tk tv tr, t = .node T ct tl tk tv tr →
        nt = ⟨tk, tv, u, tl.ptr s.nil, tr.ptr s.nil, ct⟩) ∧
      (t.ptr s.nil = s.nil → nt = nn) := by
    cases t with
    | leaf =>
      refine ⟨nn, hn0, loadM_of_mem hn0 hnn, ?_, fun _ => rfl⟩
      intro T ct tl tk tv tr e; cases e
    | node T ct tl tk tv tr =>
      simp only [Rep_node] at hrt
      refine ⟨_, hrt.1, loadM_of_mem hrt.1 hrt.2.2.1, ?_, fun e => absurd e hrt.2.1⟩
      intro T' ct' tl' tk' tv' tr' e; cases e; rfl
  obtain ⟨nt, ht0, hlt, hnt, hntn⟩ := htl
  have htP : t.ptr s.nil ≠ parentPtr s.nil path ∨ path = [] := by
    cases path with
    | nil => exact Or.inr rfl
    | cons f fs =>
      left
      obtain ⟨_, hfn, _, hfd⟩ := hpf f fs rfl
      cases t with
      | leaf => exact fun e => hfn e.symm
      | node T ct tl tk tv tr => exact (hfd T (hsubs T (by simp))).1
  have htu : t.ptr s.nil ≠ u := by
    refine Tree.ptr_ne hun ?_
    have hn := ((nodup_fill_iff path _).1 h.nodup).1
    simp only [Tree.addrs_node, List.nodup_append, List.nodup_cons, List.mem_append,
      List.mem_cons, List.Disjoint, not_or, or_imp, forall_and, imp_false,
      List.forall_mem_ne', forall_eq] at hn
    rcases ht with rfl | rfl
    · exact hn.2.2.1
    · exact hn.2.1.1
  have hsent : ∀ s' : RedBlackTree K V, Keeps s s' →
      (t.ptr s.nil = s.nil → ∃ p, s'.mem s.nil = some { nn with parent := p }) →
      (t.ptr s.nil ≠ s.nil → s'.mem s.nil = s.mem s.nil) → KeepsC s s' := by
    intro s' e1 e2 e3
    refine KeepsC.of_parent e1 hn0 hnn ?_
    by_cases e : t.ptr s.nil = s.nil
    · exact Or.inl (e2 e)
    · exact Or.inr (e3 e)
  rcases path with _ | ⟨f, fs⟩
  · simp only [parentPtr_nil] at hu ⊢
    apply Exists.intro
    refine ⟨?_, ?_, ?_, ?_, ?_⟩
    · simp only [transplant, parent_of, left_of, set_left, set_right, set_parent,
        load_eq_loadM, store, bind_ok, pure_eq_ok, hu, if_true, hlt]
      rfl
    · refine h.transplant_finish [] u c l k v r t ht rfl rfl ?_ ?_ ?_ ?_
      · intro q h1 _
        simp only [upd_ne, ne_eq, h1, not_false_eq_true]
      · by_cases e : t.ptr s.nil = s.nil
        · rw [e]; simp only [Function.update_same]; exact ⟨_, rfl⟩
        · exact ⟨nn, by simp only [upd_ne', ne_eq, e, not_false_eq_true, hnn]⟩
      · intro T ct tl tk tv tr e
        rw [hnt _ _ _ _ _ _ e]
        subst e
        simp only [Tree.ptr_node, Function.update_same, parentPtr_nil]
      · rfl
    · simp only [parent_of, load_eq_loadM, loadM_update_same, ht0, ne_eq, not_false_eq_true,
        bind_ok, pure_eq_ok]
    · intro q h1 _
      simp only [upd_ne, ne_eq, h1, not_false_eq_true]
    · refine hsent _ ⟨rfl, rfl, rfl⟩ ?_ ?_
      · intro e
        rw [e, hntn e]
        exact ⟨_, by simp only [Function.update_same]; rfl⟩
      · intro e
        simp only [upd_ne', ne_eq, e, not_false_eq_true]
  · obtain ⟨hP0, hPn, hPl, hPd⟩ := hpf f fs rfl
    have hus : u ≠ f.sib.ptr s.nil := (hPd u (by simp)).2
    have huP : u ≠ f.ptr := (hPd u (by simp)).1
    have htP' : t.ptr s.nil ≠ f.ptr := by
      rcases htP with e | e
      · exact e
      · cases e
    simp only [parentPtr_cons] at hu ⊢
    cases f <;>
    · simp only [Frame.ptr_left, Frame.ptr_right, Frame.cell, Frame.sib, Tree.ptr_node]
        at hu hP0 hPn hPl hus huP htP' ⊢
      apply Exists.intro
      refine ⟨?_, ?_, ?_, ?_, ?_⟩
      · simp only [transplant, parent_of, left_of, set_left, set_right, set_parent,
          load_eq_loadM, store, bind_ok, pure_eq_ok, hu, if_true, hlt, hPn, if_false, hPl,
          hus, loadM_update_ne, loadM_update_ne', ne_eq, not_false_eq_true, huP, htP']
        rfl
      · refine h.transplant_finish _ u c l k v r t ht rfl rfl ?_ ?_ ?_ ?_
        · intro q h1 h2
          simp only [parentPtr_cons, Frame.ptr_left, Frame.ptr_right] at h2
          simp only [upd_ne, ne_eq, h1, h2, not_false_eq_true]
        · by_cases e : t.ptr s.nil = s.nil
          · rw [e]; simp only [Function.update_same]; exact ⟨_, rfl⟩
          · exact ⟨nn, by simp only [upd_ne', ne_eq, e, hPn, not_false_eq_true, hnn]⟩
        · intro T ct tl tk tv tr e
          rw [hnt _ _ _ _ _ _ e]
          subst e
          simp only [Tree.ptr_node, Function.update_same, parentPtr_cons, Frame.ptr_left,
            Frame.ptr_right]
        · simp only [upd_ne', ne_eq, htP', not_false_eq_true, Function.update_same,
            Frame.cell, Frame.ptr_left, Frame.ptr_right, and_self]
      · simp only [parent_of, load_eq_loadM, loadM_update_same, ht0, ne_eq, not_false_eq_true,
          bind_ok, pure_eq_ok]
      · intro q h1 h2
        simp only [upd_ne, ne_eq, h1, h2, not_false_eq_true]
      · refine hsent _ ⟨rfl, rfl, rfl⟩ ?_ ?_
        · intro e
          rw [e, hntn e]
          exact ⟨_, by simp only [Function.update_same]; rfl⟩
        · intro e
          simp only [upd_ne', ne_eq, e, hPn, not_false_eq_true]

end IsTree

/-- The relation `Rep` of a node whose parent link was rewritten, its subtrees untouched. -/
theorem Rep_node_of {mem mem' : Ptr → Option (Node K V)} {nil par par' p : Ptr} {c : Color}
    {l : Tree K V} {k : K} {v : V} {r : Tree K V} (h : Rep mem nil par (.node p c l k v r))
    (hc : mem' p = some ⟨k, v, par', l.ptr nil, r.ptr nil, c⟩)
    (hl : ∀ q ∈ l.addrs, mem' q = mem q) (hr : ∀ q ∈ r.addrs, mem' q = mem q) :
    Rep mem' nil par' (.node p c l k v r) := by
  simp only [Rep_node] at h ⊢
  exact ⟨h.1, h.2.1, hc, Rep_congr hl h.2.2.2.1, Rep_congr hr h.2.2.2.2⟩

namespace IsTree

variable {s : RedBlackTree K V}

/-- The memory after `y` was put in the place of `z`, both children of `z` being nodes
that now hang under `y`: it holds the tree with `y` for `z`. -/
theorem attach_finish {s' : RedBlackTree K V} (path : Path K V) (z : Ptr) (c : Color) (k : K)
    (v : V) (L : Ptr) (cl : Color) (ll : Tree K V) (lk : K) (lv : V) (lr : Tree K V) (R : Ptr)
    (cr : Color) (rl : Tree K V) (rk : K) (rv : V) (rr : Tree K V) (Y : Ptr) (ky : K) (vy : V)
    (h : IsTree s (fill path (.node z c (.node L cl ll lk lv lr) k v (.node R cr rl rk rv rr))))
    (hY0 : Y ≠ 0) (hYn : Y ≠ s.nil) (hYb : Y < s.brk)
    (hYt : Y ∉ (fill path (.node z c (.node L cl ll lk lv lr) k v
      (.node R cr rl rk rv rr))).addrs)
    (hnil : s'.nil = s.nil) (hbrk : s'.brk = s.brk)
    (hframe : ∀ q, q ≠ Y → q ≠ L → q ≠ R → q ≠ parentPtr s.nil path → s'.mem q = s.mem q)
    (hsent : s'.mem s.nil = s.mem s.nil)
    (hcY : s'.mem Y = some ⟨ky, vy, parentPtr s.nil path, L, R, c⟩)
    (hcL : s'.mem L = some ⟨lk, lv, Y, ll.ptr s.nil, lr.ptr s.nil, cl⟩)
    (hcR : s'.mem R = some ⟨rk, rv, Y, rl.ptr s.nil, rr.ptr s.nil, cr⟩)
    (hlink : match path with
      | [] => s'.root = Y
      | f :: fs => s'.root = s.root ∧
          s'.mem f.ptr = some (f.cell s.nil (parentPtr s.nil fs) Y)) :
    IsTree s' (fill path (.node Y c (.node L cl ll lk lv lr) ky vy (.node R cr rl rk rv rr))) := by
  have hr := ((Rep_fill path _).1 h.rep).2
  have hn := ((nodup_fill_iff path _).1 h.nodup)
  have hP := h.parentPtr_not_mem path _
  have hlt : ∀ q ∈ (Tree.node z c (.node L cl ll lk lv lr) k v (.node R cr rl rk rv rr)).addrs,
      q < s.brk :=
    fun q hq => h.lt_brk (by rw [addrs_fill]; simp only [List.mem_append]; tauto)
  rw [addrs_fill] at hYt
  obtain ⟨hn1, hn2, hn3⟩ := hn
  have hYp : Y ∉ path.addrs := by
    simp only [Path.addrs, List.mem_append, not_or] at hYt ⊢
    exact ⟨hYt.1.1, hYt.2⟩
  have hYt' : Y ∉ (Tree.node z c (.node L cl ll lk lv lr) k v (.node R cr rl rk rv rr)).addrs := by
    simp only [List.mem_append, not_or] at hYt
    exact hYt.1.2
  simp only [Rep_node] at hr
  obtain ⟨hz0, hzn, hzm, hrl, hrr⟩ := hr
  have hn1o := hn1
  have hYt'o := hYt'
  simp only [Tree.addrs_node, List.nodup_append, List.nodup_cons, List.mem_append, List.mem_cons,
    List.Disjoint, not_or, or_imp, forall_and, imp_false, List.forall_mem_ne', forall_eq]
    at hn1 hP hYt'
  refine h.replace hnil ?_ ?_ ?_ ?_ ?_ ?_ (le_of_eq hbrk.symm) ?_
  · intro q hq hqP hqn hq'
    simp only [Tree.addrs_node, List.mem_append, List.mem_cons, not_or] at hq
    refine hframe q ?_ (by tauto) (by tauto) hqP
    rintro rfl
    rcases hq' with hq' | hq'
    · exact absurd hYb (not_lt.2 hq')
    · exact hYp hq'
  · rw [hsent]; exact h.nil_live
  · cases path with
    | nil => simpa using hlink
    | cons f fs => simpa using hlink
  · simp only [Rep_node, Tree.ptr_node]
    casesm* _ ∧ _
    refine ⟨hY0, hYn, hcY, ⟨by assumption, by assumption, hcL, Rep_congr ?_ (by assumption),
      Rep_congr ?_ (by assumption)⟩, by assumption, by assumption, hcR,
      Rep_congr ?_ (by assumption), Rep_congr ?_ (by assumption)⟩ <;>
    · intro q hq
      refine hframe q ?_ ?_ ?_ ?_ <;> (rintro rfl; contradiction)
  · intro q hq
    simp only [Tree.addrs_node, List.mem_append, List.mem_cons] at hq
    rcases hq with (hq | rfl | hq) | rfl | hq | rfl | hq
    · exact hn3 q (by simp [hq])
    · exact hn3 q (by simp)
    · exact hn3 q (by simp [hq])
    · exact hYp
    · exact hn3 q (by simp [hq])
    · exact hn3 q (by simp)
    · exact hn3 q (by simp [hq])
  · have hn1' := hn1o
    rw [Tree.addrs_node, List.nodup_middle, List.nodup_cons] at hn1' ⊢
    refine ⟨?_, hn1'.2⟩
    rw [Tree.addrs_node] at hYt'o
    simp only [List.mem_append, List.mem_cons, not_or] at hYt'o ⊢
    exact ⟨hYt'o.1, hYt'o.2.2⟩
  · intro q hq hle
    rw [hbrk] at hle
    exact absurd hle (not_le.2 (hlt q hq))

/-- The source's `y->right = z->right; y->right->parent = y; transplant(z, y); y->left = z->left;
y->left->parent = y; y->color = z->color` for a node `y` outside the tree. -/
theorem attach_deep_sim (path : Path K V) (z : Ptr) (c : Color) (k : K)
    (v : V) (L : Ptr) (cl : Color) (ll : Tree K V) (lk : K) (lv : V) (lr : Tree K V) (R : Ptr)
    (cr : Color) (rl : Tree K V) (rk : K) (rv : V) (rr : Tree K V) (Y : Ptr) (ny : Node K V)
    (h : IsTree s (fill path (.node z c (.node L cl ll lk lv lr) k v (.node R cr rl rk rv rr))))
    (hY0 : Y ≠ 0) (hYn : Y ≠ s.nil) (hYm : s.mem Y = some ny)
    (hYt : Y ∉ (fill path (.node z c (.node L cl ll lk lv lr) k v
      (.node R cr rl rk rv rr))).addrs) :
    ∃ s1 s', s.delete_hang z Y = .ok s1 ∧ s1.delete_attach z Y = .ok s' ∧
      IsTree s' (fill path (.node Y c (.node L cl ll lk lv lr) ny.key ny.val
        (.node R cr rl rk rv rr))) ∧
      s'.mem z = s.mem z ∧ KeepsN s s' := by
  have hz := h.load_focus path z c _ k v _
  have hr := ((Rep_fill path _).1 h.rep).2
  have hn := ((nodup_fill_iff path _).1 h.nodup).1
  have hP := h.parentPtr_not_mem path _
  have hpf := h.parent_facts path _
  have hYb : Y < s.brk := by
    by_contra hlt
    rw [h.unused Y (not_lt.1 hlt)] at hYm
    cases hYm
  have hYt' := hYt
  rw [addrs_fill] at hYt'
  have hYp : Y ∉ path.addrs := by
    simp only [Path.addrs, List.mem_append, not_or] at hYt' ⊢
    exact ⟨hYt'.1.1, hYt'.2⟩
  have hYs : Y ∉ (Tree.node z c (.node L cl ll lk lv lr) k v (.node R cr rl rk rv rr)).addrs := by
    simp only [List.mem_append, not_or] at hYt'
    exact hYt'.1.2
  simp only [Rep_node, Tree.ptr_node, load_eq_loadM] at hr hz
  obtain ⟨hz0, hzn, hzm, ⟨hL0, hLn, hLm, -, -⟩, hR0, hRn, hRm, -, -⟩ := hr
  have hLl := loadM_of_mem hL0 hLm
  have hRl := loadM_of_mem hR0 hRm
  have hYl := loadM_of_mem hY0 hYm
  simp only [Tree.addrs_node, List.nodup_append, List.nodup_cons, List.mem_append, List.mem_cons,
    List.Disjoint, not_or, or_imp, forall_and, imp_false, List.forall_mem_ne', forall_eq]
    at hn hP hYs
  have hzL : z ≠ L := by
    casesm* _ ∧ _; exact Ne.symm (by assumption)
  have hzR : z ≠ R := by
    casesm* _ ∧ _; assumption
  have hLR : L ≠ R := by
    casesm* _ ∧ _; assumption
  have hYz : Y ≠ z := by
    casesm* _ ∧ _; assumption
  have hYL : Y ≠ L := by
    casesm* _ ∧ _; assumption
  have hYR : Y ≠ R := by
    casesm* _ ∧ _; assumption
  have hPz : parentPtr s.nil path ≠ z := by
    casesm* _ ∧ _; assumption
  have hPL : parentPtr s.nil path ≠ L := by
    casesm* _ ∧ _; assumption
  have hPR : parentPtr s.nil path ≠ R := by
    casesm* _ ∧ _; assumption
  rcases path with _ | ⟨f, fs⟩
  · simp only [parentPtr_nil] at hz hPz hPL hPR
    apply Exists.intro
    apply Exists.intro
    refine ⟨?_, ?_, ?_, ?_, ?_⟩
    · simp only [delete_hang, right_of, set_right, set_parent, load_eq_loadM, store, bind_ok,
        pure_eq_ok, hz, hYl, loadM_update_same, hY0, ne_eq, not_false_eq_true, loadM_update_ne,
        loadM_update_ne', hYR, hRl]
      rfl
    · simp only [delete_attach, transplant, parent_of, left_of, color_of, set_left, set_right,
        set_parent, set_color, load_eq_loadM, store, bind_ok, pure_eq_ok, hz, hYl, hRl, hLl,
        loadM_update_same, loadM_update_ne, loadM_update_ne', hY0, hL0, hR0, ne_eq,
        not_false_eq_true, hzL, hzR, hLR, hYz, hYL, hYR, if_true]
      rfl
    · refine h.attach_finish [] z c k v L cl ll lk lv lr R cr rl rk rv rr Y ny.key ny.val hY0 hYn
        hYb hYt rfl rfl ?_ ?_ ?_ ?_ ?_ ?_
      · intro q h1 h2 h3 _
        simp only [upd_ne, ne_eq, h1, h2, h3, not_false_eq_true]
      · simp only [upd_ne', ne_eq, hYn, hLn, hRn, not_false_eq_true]
      · simp only [Function.update_same, parentPtr_nil]
      · simp only [upd_ne', upd_ne, ne_eq, hYL, not_false_eq_true, Function.update_same]
      · simp only [upd_ne', upd_ne, ne_eq, hYR, hLR, not_false_eq_true, Function.update_same]
      · rfl
    · simp only [upd_ne, ne_eq, hzL, hzR, hYz.symm, not_false_eq_true]
    · exact ⟨⟨rfl, rfl, rfl⟩, by simp only [upd_ne', ne_eq, hYn, hLn, hRn, not_false_eq_true]⟩
  · obtain ⟨hP0, hPn, hPl, hPd⟩ := hpf f fs rfl
    have hzs : z ≠ f.sib.ptr s.nil := (hPd z (by simp)).2
    have hYP : Y ≠ f.ptr := by
      intro e
      apply hYp
      rw [e]
      exact Path.mem_addrs_cons.2 (Or.inl rfl)
    simp only [parentPtr_cons] at hz hPz hPL hPR
    cases f <;>
    · simp only [Frame.ptr_left, Frame.ptr_right, Frame.cell, Frame.sib, Tree.ptr_node]
        at hz hPz hPL hPR hP0 hPn hPl hzs hYP
      apply Exists.intro
      apply Exists.intro
      refine ⟨?_, ?_, ?_, ?_, ?_⟩
      · simp only [delete_hang, right_of, set_right, set_parent, load_eq_loadM, store, bind_ok,
          pure_eq_ok, hz, hYl, loadM_update_same, hY0, ne_eq, not_false_eq_true,
          loadM_update_ne, loadM_update_ne', hYR, hRl]
        rfl
      · simp only [delete_attach, transplant, parent_of, left_of, color_of, set_left,
          set_right, set_parent, set_color, load_eq_loadM, store, bind_ok, pure_eq_ok, hz, hYl,
          hRl, hLl, loadM_update_same, loadM_update_ne, loadM_update_ne', hY0, hL0, hR0, hP0,
          ne_eq, not_false_eq_true, hzL, hzR, hLR, hYz, hYL, hYR, hPz, hPL, hPR, hYP, hPn, hPl,
          hzs, if_true, if_false]
        rfl
      · refine h.attach_finish _ z c k v L cl ll lk lv lr R cr rl rk rv rr Y ny.key ny.val hY0 hYn
          hYb hYt rfl rfl ?_ ?_ ?_ ?_ ?_ ?_
        · intro q h1 h2 h3 h4
          simp only [parentPtr_cons, Frame.ptr_left, Frame.ptr_right] at h4
          simp only [upd_ne, ne_eq, h1, h2, h3, h4, not_false_eq_true]
        · simp only [upd_ne', ne_eq, hYn, hLn, hRn, hPn, not_false_eq_true]
        · simp only [Function.update_same, parentPtr_cons, Frame.ptr_left, Frame.ptr_right]
        · simp only [upd_ne', upd_ne, ne_eq, hYL, not_false_eq_true, Function.update_same]
        · simp only [upd_ne', upd_ne, ne_eq, hYR, hLR, hPR, not_false_eq_true,
            Function.update_same]
        · simp only [upd_ne', upd_ne, ne_eq, hYP, hPL, not_false_eq_true,
            Function.update_same, Frame.cell, Frame.ptr_left, Frame.ptr_right, and_self]
      · simp only [upd_ne, ne_eq, hzL, hzR, hYz.symm, hPz.symm, not_false_eq_true]
      · exact ⟨⟨rfl, rfl, rfl⟩,
          by simp only [upd_ne', ne_eq, hYn, hLn, hRn, hPn, not_false_eq_true]⟩

/-- The memory after the right child `y` of `z`, which has no left child, was put in
the place of `z`: it holds the tree with `y` for `z`. -/
theorem attach_direct_finish {s' : RedBlackTree K V} (path : Path K V) (z : Ptr) (c : Color)
    (k : K) (v : V) (L : Ptr) (cl : Color) (ll : Tree K V) (lk : K) (lv : V) (lr : Tree K V)
    (Y : Ptr) (cy : Color) (ky : K) (vy : V) (yr : Tree K V)
    (h : IsTree s (fill path (.node z c (.node L cl ll lk lv lr) k v
      (.node Y cy .leaf ky vy yr))))
    (hnil : s'.nil = s.nil) (hbrk : s'.brk = s.brk)
    (hframe : ∀ q, q ≠ Y → q ≠ L → q ≠ yr.ptr s.nil → q ≠ parentPtr s.nil path →
      s'.mem q = s.mem q)
    (hlive : ∃ n, s'.mem s.nil = some n)
    (hcY : s'.mem Y = some ⟨ky, vy, parentPtr s.nil path, L, yr.ptr s.nil, c⟩)
    (hcL : s'.mem L = some ⟨lk, lv, Y, ll.ptr s.nil, lr.ptr s.nil, cl⟩)
    (hcX : ∀ X cx xl xk xv xr, yr = .node X cx xl xk xv xr →
      s'.mem X = some ⟨xk, xv, Y, xl.ptr s.nil, xr.ptr s.nil, cx⟩)
    (hlink : match path with
      | [] => s'.root = Y
      | f :: fs => s'.root = s.root ∧
          s'.mem f.ptr = some (f.cell s.nil (parentPtr s.nil fs) Y)) :
    IsTree s' (fill path (.node Y c (.node L cl ll lk lv lr) ky vy yr)) := by
  have hr := ((Rep_fill path _).1 h.rep).2
  have hn := ((nodup_fill_iff path _).1 h.nodup)
  have hP := h.parentPtr_not_mem path _
  have hlt : ∀ q ∈ (Tree.node z c (.node L cl ll lk lv lr) k v (.node Y cy .leaf ky vy yr)).addrs,
      q < s.brk :=
    fun q hq => h.lt_brk (by rw [addrs_fill]; simp only [List.mem_append]; tauto)
  have hnl := hr.nil_not_mem
  obtain ⟨hn1, hn2, hn3⟩ := hn
  have hn1o := hn1
  simp only [Rep_node, Rep_leaf, true_and] at hr
  obtain ⟨hz0, hzn, hzm, ⟨hL0, hLn, hLm, hrll, hrlr⟩, hY0, hYn, hYm, hryr⟩ := hr
  have hsubs : ∀ q ∈ (Tree.node Y c (.node L cl ll lk lv lr) ky vy yr).addrs,
      q ∈ (Tree.node z c (.node L cl ll lk lv lr) k v (.node Y cy .leaf ky vy yr)).addrs := by
    intro q hq
    simp only [Tree.addrs_node, Tree.addrs_leaf, List.nil_append, List.mem_append,
      List.mem_cons] at hq ⊢
    tauto
  refine h.replace hnil ?_ hlive ?_ ?_ ?_ ?_ (le_of_eq hbrk.symm) ?_
  · intro q hq hqP hqn _
    simp only [Tree.addrs_node, Tree.addrs_leaf, List.nil_append, List.mem_append,
      List.mem_cons, not_or] at hq
    refine hframe q (by tauto) (by tauto) ?_ hqP
    cases yr with
    | leaf => exact hqn
    | node X cx xl xk xv xr =>
      simp only [Tree.addrs_node, List.mem_append, List.mem_cons, not_or] at hq
      simp only [Tree.ptr_node]
      tauto
  · cases path with
    | nil => simpa using hlink
    | cons f fs => simpa using hlink
  · simp only [Tree.addrs_node, Tree.addrs_leaf, List.nil_append, List.nodup_append,
      List.nodup_cons, List.mem_append, List.mem_cons, List.Disjoint, not_or, or_imp, forall_and,
      imp_false, List.forall_mem_ne', forall_eq] at hn1 hP hnl
    simp only [Rep_node, Tree.ptr_node]
    refine ⟨hY0, hYn, hcY, ⟨hL0, hLn, hcL, Rep_congr ?_ hrll, Rep_congr ?_ hrlr⟩, ?_⟩
    · intro q hq
      casesm* _ ∧ _
      refine hframe q ?_ ?_ (Ne.symm (Tree.ptr_ne ?_ ?_)) ?_ <;> first
        | (rintro rfl; contradiction)
        | (intro hq'; have := ‹∀ x ∈ ll.addrs, x ∉ yr.addrs› q hq; contradiction)
    · intro q hq
      casesm* _ ∧ _
      refine hframe q ?_ ?_ (Ne.symm (Tree.ptr_ne ?_ ?_)) ?_ <;> first
        | (rintro rfl; contradiction)
        | (intro hq'; have := ‹∀ x ∈ lr.addrs, x ∉ yr.addrs› q hq; contradiction)
    · cases yr with
      | leaf => trivial
      | node X cx xl xk xv xr =>
        simp only [Tree.addrs_node, Tree.ptr_node, List.mem_append, List.mem_cons, not_or,
          List.nodup_append, List.nodup_cons, List.Disjoint, or_imp, forall_and, imp_false,
          List.forall_mem_ne', forall_eq] at hn1 hP hnl hframe
        refine Rep_node_of hryr (hcX _ _ _ _ _ _ rfl) ?_ ?_ <;>
        · intro q hq
          casesm* _ ∧ _
          refine hframe q ?_ ?_ ?_ ?_ <;> (rintro rfl; contradiction)
  · intro q hq
    exact hn3 q (hsubs q hq)
  · rw [Tree.addrs_node, List.nodup_middle, List.nodup_cons] at hn1o ⊢
    simp only [Tree.addrs_node, Tree.addrs_leaf, List.nil_append] at hn1o
    have h2 := hn1o.2
    rw [List.nodup_middle, List.nodup_cons] at h2
    exact h2
  · intro q hq hle
    rw [hbrk] at hle
    exact absurd hle (not_le.2 (hlt q hq))

/-- The source's `x->parent = y; transplant(z, y); y->left = z->left; y->left->parent = y;
y->color = z->color` for `y` the right child of `z`. -/
theorem attach_direct_sim (path : Path K V) (z : Ptr) (c : Color)
    (k : K) (v : V) (L : Ptr) (cl : Color) (ll : Tree K V) (lk : K) (lv : V) (lr : Tree K V)
    (Y : Ptr) (cy : Color) (ky : K) (vy : V) (yr : Tree K V)
    (h : IsTree s (fill path (.node z c (.node L cl ll lk lv lr) k v
      (.node Y cy .leaf ky vy yr)))) :
    ∃ s1 s', s.set_parent (yr.ptr s.nil) Y = .ok s1 ∧ s1.delete_attach z Y = .ok s' ∧
      IsTree s' (fill path (.node Y c (.node L cl ll lk lv lr) ky vy yr)) ∧
      s'.parent_of (yr.ptr s.nil) = .ok Y ∧
      s'.mem z = s.mem z ∧ KeepsC s s' := by
  have hz := h.load_focus path z c _ k v _
  have hr := ((Rep_fill path _).1 h.rep).2
  have hn := ((nodup_fill_iff path _).1 h.nodup).1
  have hP := h.parentPtr_not_mem path _
  have hpf := h.parent_facts path _
  have hnl := hr.nil_not_mem
  obtain ⟨nn, hnn⟩ := h.nil_live
  have hn0 := h.nil_ne
  simp only [Rep_node, Rep_leaf, true_and, Tree.ptr_node, Tree.ptr_leaf, load_eq_loadM] at hr hz
  obtain ⟨hz0, hzn, hzm, ⟨hL0, hLn, hLm, -, -⟩, hY0, hYn, hYm, hryr⟩ := hr
  have hLl := loadM_of_mem hL0 hLm
  have hYl := loadM_of_mem hY0 hYm
  simp only [Tree.addrs_node, Tree.addrs_leaf, List.nil_append, List.nodup_append,
    List.nodup_cons, List.mem_append, List.mem_cons,
    List.Disjoint, not_or, or_imp, forall_and, imp_false, List.forall_mem_ne', forall_eq]
    at hn hP hnl
  have hzL : z ≠ L := by casesm* _ ∧ _; exact fun e => ‹¬L = z› e.symm
  have hzY : z ≠ Y := by casesm* _ ∧ _; assumption
  have hLY : L ≠ Y := by casesm* _ ∧ _; assumption
  have hPz : parentPtr s.nil path ≠ z := by casesm* _ ∧ _; assumption
  have hPL : parentPtr s.nil path ≠ L := by casesm* _ ∧ _; assumption
  have hPY : parentPtr s.nil path ≠ Y := by casesm* _ ∧ _; assumption
  have hxz : yr.ptr s.nil ≠ z := by
    refine Tree.ptr_ne hzn ?_; casesm* _ ∧ _; assumption
  have hxY : yr.ptr s.nil ≠ Y := by
    refine Tree.ptr_ne hYn ?_; casesm* _ ∧ _; assumption
  have hxL : yr.ptr s.nil ≠ L := by
    refine Tree.ptr_ne hLn ?_; casesm* _ ∧ _; assumption
  have hxl : ∃ nx, yr.ptr s.nil ≠ 0 ∧ loadM s.mem (yr.ptr s.nil) = .ok nx ∧
      (∀ X cx xl xk xv xr, yr = .node X cx xl xk xv xr →
        nx = ⟨xk, xv, Y, xl.ptr s.nil, xr.ptr s.nil, cx⟩) ∧
      (yr.ptr s.nil = s.nil → nx = nn) := by
    cases yr with
    | leaf =>
      refine ⟨nn, hn0, loadM_of_mem hn0 hnn, ?_, fun _ => rfl⟩
      intro X cx xl xk xv xr e; cases e
    | node X cx xl xk xv xr =>
      simp only [Rep_node] at hryr
      refine ⟨_, hryr.1, loadM_of_mem hryr.1 hryr.2.2.1, ?_, fun e => absurd e hryr.2.1⟩
      intro X' cx' xl' xk' xv' xr' e; cases e; rfl
  obtain ⟨nx, hx0, hxl, hnx, hnxn⟩ := hxl
  have hsent : ∀ s' : RedBlackTree K V, Keeps s s' →
      (yr.ptr s.nil = s.nil → ∃ p, s'.mem s.nil = some { nn with parent := p }) →
      (yr.ptr s.nil ≠ s.nil → s'.mem s.nil = s.mem s.nil) → KeepsC s s' := by
    intro s' e1 e2 e3
    refine KeepsC.of_parent e1 hn0 hnn ?_
    by_cases e : yr.ptr s.nil = s.nil
    · exact Or.inl (e2 e)
    · exact Or.inr (e3 e)
  rcases path with _ | ⟨f, fs⟩
  · simp only [parentPtr_nil] at hz hPz hPL hPY
    apply Exists.intro
    apply Exists.intro
    refine ⟨?_, ?_, ?_, ?_, ?_, ?_⟩
    · simp only [set_parent, load_eq_loadM, store, bind_ok, pure_eq_ok, hxl]
      rfl
    · simp only [delete_attach, transplant, parent_of, left_of, color_of, set_left, set_right,
        set_parent, set_color, load_eq_loadM, store, bind_ok, pure_eq_ok, hz, hYl, hLl,
        loadM_update_same, loadM_update_ne, loadM_update_ne', hY0, hL0, hx0, ne_eq,
        not_false_eq_true, hzL, hzY, hLY, hxz, hxY, hxL, if_true]
      rfl
    · refine h.attach_direct_finish [] z c k v L cl ll lk lv lr Y cy ky vy yr rfl rfl
        ?_ ?_ ?_ ?_ ?_ ?_
      · intro q h1 h2 h3 _
        simp only [upd_ne, ne_eq, h1, h2, h3, not_false_eq_true]
      · by_cases e : yr.ptr s.nil = s.nil
        · simp only [upd_ne', ne_eq, hYn, hLn, not_false_eq_true]
          rw [e]; simp only [Function.update_same]; exact ⟨_, rfl⟩
        · exact ⟨nn, by simp only [upd_ne', ne_eq, hYn, hLn, e, not_false_eq_true, hnn]⟩
      · simp only [Function.update_same, parentPtr_nil]
      · simp only [upd_ne', upd_ne, ne_eq, hLY, not_false_eq_true, Function.update_same]
      · intro X cx xl xk xv xr e
        rw [hnx _ _ _ _ _ _ e]
        subst e
        simp only [Tree.ptr_node] at hxY hxL
        simp only [upd_ne', upd_ne, ne_eq, hxY, hxL, not_false_eq_true, Function.update_same,
          Tree.ptr_node]
      · rfl
    · simp only [parent_of, load_eq_loadM, loadM_update_ne, loadM_update_ne', ne_eq, hxY, hxL,
        not_false_eq_true, loadM_update_same, hx0, bind_ok, pure_eq_ok]
    · simp only [upd_ne, upd_ne', ne_eq, hzL, hzY, hxz, not_false_eq_true]
    · refine hsent _ ⟨rfl, rfl, rfl⟩ ?_ ?_
      · intro e
        rw [hnxn e]
        simp only [upd_ne', ne_eq, hYn, hLn, not_false_eq_true]
        rw [e]
        exact ⟨_, by simp only [Function.update_same]; rfl⟩
      · intro e
        simp only [upd_ne', ne_eq, e, hYn, hLn, not_false_eq_true]
  · obtain ⟨hP0, hPn, hPl, hPd⟩ := hpf f fs rfl
    have hzs : z ≠ f.sib.ptr s.nil := (hPd z (by simp)).2
    have hxP : yr.ptr s.nil ≠ f.ptr := by
      cases yr with
      | leaf => exact fun e => hPn e.symm
      | node X cx xl xk xv xr => exact (hPd X (by simp)).1
    simp only [parentPtr_cons] at hz hPz hPL hPY
    cases f <;>
    · simp only [Frame.ptr_left, Frame.ptr_right, Frame.cell, Frame.sib, Tree.ptr_node]
        at hz hPz hPL hPY hP0 hPn hPl hzs hxP
      apply Exists.intro
      apply Exists.intro
      refine ⟨?_, ?_, ?_, ?_, ?_, ?_⟩
      · simp only [set_parent, load_eq_loadM, store, bind_ok, pure_eq_ok, hxl]
        rfl
      · simp only [delete_attach, transplant, parent_of, left_of, color_of, set_left,
          set_right, set_parent, set_color, load_eq_loadM, store, bind_ok, pure_eq_ok, hz, hYl,
          hLl, loadM_update_same, loadM_update_ne, loadM_update_ne', hY0, hL0, hx0, hP0, ne_eq,
          not_false_eq_true, hzL, hzY, hLY, hxz, hxY, hxL, hPz, hPL, hPY, hxP, hPn, hPl, hzs,
          if_true, if_false]
        rfl
      · refine h.attach_direct_finish _ z c k v L cl ll lk lv lr Y cy ky vy yr rfl rfl
          ?_ ?_ ?_ ?_ ?_ ?_
        · intro q h1 h2 h3 h4
          simp only [parentPtr_cons, Frame.ptr_left, Frame.ptr_right] at h4
          simp only [upd_ne, ne_eq, h1, h2, h3, h4, not_false_eq_true]
        · by_cases e : yr.ptr s.nil = s.nil
          · simp only [upd_ne', ne_eq, hYn, hLn, hPn, not_false_eq_true]
            rw [e]; simp only [Function.update_same]; exact ⟨_, rfl⟩
          · exact ⟨nn, by simp only [upd_ne', ne_eq, hYn, hLn, hPn, e, not_false_eq_true, hnn]⟩
        · simp only [Function.update_same, parentPtr_cons, Frame.ptr_left, Frame.ptr_right]
        · simp only [upd_ne', upd_ne, ne_eq, hLY, not_false_eq_true, Function.update_same]
        · intro X cx xl xk xv xr e
          rw [hnx _ _ _ _ _ _ e]
          subst e
          simp only [Tree.ptr_node] at hxY hxL hxP
          simp only [upd_ne', upd_ne, ne_eq, hxY, hxL, hxP, not_false_eq_true,
            Function.update_same, Tree.ptr_node]
        · simp only [upd_ne', upd_ne, ne_eq, hPY, hPL, not_false_eq_true,
            Function.update_same, Frame.cell, Frame.ptr_left, Frame.ptr_right, and_self]
      · simp only [parent_of, load_eq_loadM, loadM_update_ne, loadM_update_ne', ne_eq, hxY,
          hxL, hxP, not_false_eq_true, loadM_update_same, hx0, bind_ok, pure_eq_ok]
      · simp only [upd_ne, upd_ne', ne_eq, hzL, hzY, hxz, hPz, not_false_eq_true]
      · refine hsent _ ⟨rfl, rfl, rfl⟩ ?_ ?_
        · intro e
          rw [hnxn e]
          simp only [upd_ne', ne_eq, hYn, hLn, hPn, not_false_eq_true]
          rw [e]
          exact ⟨_, by simp only [Function.update_same]; rfl⟩
        · intro e
          simp only [upd_ne', ne_eq, e, hYn, hLn, hPn, not_false_eq_true]

/-- The source's `x->parent` one step later: the sentinel keeps the link it was given, a node has the
link of the tree. -/
theorem parent_of_hole {s' : RedBlackTree K V} (P : Ptr) (f' : Frame K V) (rest' : Path K V)
    (x : Tree K V) (h' : IsTree s' (fill (f' :: rest') x)) (k : KeepsN s s') (hf : f'.ptr = P)
    (hx : s.parent_of (x.ptr s.nil) = .ok P) :
    s'.parent_of (x.ptr s.nil) = .ok P := by
  cases x with
  | leaf =>
    simp only [Tree.ptr_leaf, parent_of, load] at hx ⊢
    rw [k.sent]
    exact hx
  | node p c l k v r =>
    have := h'.parent_of_focus (f' :: rest') p c l k v r
    simpa [hf] using this

/-- Color read at the root of a subtree, the sentinel included. -/
theorem color_of_hole (path : Path K V) (x : Tree K V) (hs : SentinelBlack s)
    (h : IsTree s (fill path x)) : s.color_of (x.ptr s.nil) = .ok x.color := by
  cases x with
  | leaf => exact hs
  | node p c l k v r => exact h.color_of_focus path p c l k v r

theorem erase_fix_red_l_sim (rest : Path K V) (x : Tree K V) (P : Ptr) (cp : Color) (kp : K)
    (vp : V) (W : Ptr) (cw : Color) (wl : Tree K V) (wk : K) (wv : V) (wr : Tree K V)
    (h : IsTree s (fill (Frame.left P cp kp vp (.node W cw wl wk wv wr) :: rest) x))
    (hx : s.parent_of (x.ptr s.nil) = .ok P) :
    ∃ s', s.erase_fix_red_l (x.ptr s.nil) W = .ok (s', wl.ptr s.nil) ∧
      IsTree s' (fill (Frame.left P .RED kp vp wl :: Frame.left W .BLACK wk wv wr :: rest) x) ∧
      KeepsN s s' := by
  obtain ⟨s1, e1, h1, k1, _⟩ := h.set_color_sib (Frame.left P cp kp vp (.node W cw wl wk wv wr))
    rest x .BLACK W cw wl wk wv wr rfl
  have h1' : IsTree s1 (fill (Frame.left P cp kp vp (.node W .BLACK wl wk wv wr) :: rest) x) := h1
  have hx1 := parent_of_hole P _ _ x h1' k1 rfl hx
  obtain ⟨s2, e2, h2, k2, _⟩ := h1'.set_color_frame _ rest x .RED
  have h2' : IsTree s2 (fill rest (.node P .RED x kp vp (.node W .BLACK wl wk wv wr))) := h2
  have hx2 := parent_of_hole P _ _ x h2 (k1.transN k2) rfl hx
  obtain ⟨s3, e3, h3, k3⟩ := h2'.rotate_left_node rest P .RED x kp vp W .BLACK wl wk wv wr
  have h3' : IsTree s3 (fill (Frame.left P .RED kp vp wl :: Frame.left W .BLACK wk wv wr :: rest)
      x) := h3
  have hx3 := parent_of_hole P _ _ x h3' (k1.transN (k2.transN k3)) rfl hx
  have hr3 := h3.right_of_focus (Frame.left W .BLACK wk wv wr :: rest) P .RED x kp vp wl
  have en : s3.nil = s.nil := (k1.transN (k2.transN k3)).keeps.nil_eq
  simp only [Frame.ptr_left, en] at e2 hr3
  refine ⟨s3, ?_, h3', k1.transN (k2.transN k3)⟩
  simp only [erase_fix_red_l, bind_ok, pure_eq_ok, e1, hx1, e2, hx2, e3, hx3, hr3]

theorem erase_fix_red_r_sim (rest : Path K V) (x : Tree K V) (P : Ptr) (cp : Color) (kp : K)
    (vp : V) (W : Ptr) (cw : Color) (wl : Tree K V) (wk : K) (wv : V) (wr : Tree K V)
    (h : IsTree s (fill (Frame.right P cp (.node W cw wl wk wv wr) kp vp :: rest) x))
    (hx : s.parent_of (x.ptr s.nil) = .ok P) :
    ∃ s', s.erase_fix_red_r (x.ptr s.nil) W = .ok (s', wr.ptr s.nil) ∧
      IsTree s' (fill (Frame.right P .RED wr kp vp :: Frame.right W .BLACK wl wk wv :: rest)
        x) ∧ KeepsN s s' := by
  obtain ⟨s1, e1, h1, k1, _⟩ := h.set_color_sib (Frame.right P cp (.node W cw wl wk wv wr) kp vp)
    rest x .BLACK W cw wl wk wv wr rfl
  have h1' : IsTree s1 (fill (Frame.right P cp (.node W .BLACK wl wk wv wr) kp vp :: rest) x) :=
    h1
  have hx1 := parent_of_hole P _ _ x h1' k1 rfl hx
  obtain ⟨s2, e2, h2, k2, _⟩ := h1'.set_color_frame _ rest x .RED
  have h2' : IsTree s2 (fill rest (.node P .RED (.node W .BLACK wl wk wv wr) kp vp x)) := h2
  have hx2 := parent_of_hole P _ _ x h2 (k1.transN k2) rfl hx
  obtain ⟨s3, e3, h3, k3⟩ := h2'.rotate_right_node rest P .RED wl kp vp W .BLACK wr wk wv x
  have h3' : IsTree s3 (fill (Frame.right P .RED wr kp vp :: Frame.right W .BLACK wl wk wv ::
      rest) x) := h3
  have hx3 := parent_of_hole P _ _ x h3' (k1.transN (k2.transN k3)) rfl hx
  have hr3 := h3.left_of_focus (Frame.right W .BLACK wl wk wv :: rest) P .RED wr kp vp x
  have en : s3.nil = s.nil := (k1.transN (k2.transN k3)).keeps.nil_eq
  simp only [Frame.ptr_right, en] at e2 hr3
  refine ⟨s3, ?_, h3', k1.transN (k2.transN k3)⟩
  simp only [erase_fix_red_r, bind_ok, pure_eq_ok, e1, hx1, e2, hx2, e3, hx3, hr3]

theorem erase_fix_near_l_sim (rest : Path K V) (x : Tree K V) (P : Ptr) (cp : Color) (kp : K)
    (vp : V) (W : Ptr) (cw : Color) (WL : Ptr) (cl : Color) (a : Tree K V) (k' : K) (v' : V)
    (b : Tree K V) (wk : K) (wv : V) (wr : Tree K V)
    (h : IsTree s (fill (Frame.left P cp kp vp (.node W cw (.node WL cl a k' v' b) wk wv wr) ::
      rest) x))
    (hx : s.parent_of (x.ptr s.nil) = .ok P) :
    ∃ s', s.erase_fix_near_l (x.ptr s.nil) W = .ok (s', WL) ∧
      IsTree s' (fill (Frame.left P cp kp vp (.node WL .BLACK a k' v' (.node W .RED b wk wv wr)) ::
        rest) x) ∧ KeepsN s s' := by
  have hl := h.left_of_focus (Frame.right P cp x kp vp :: rest) W cw (.node WL cl a k' v' b)
    wk wv wr
  obtain ⟨s1, e1, h1, k1, _⟩ := h.set_color_node
    (Frame.left W cw wk wv wr :: Frame.right P cp x kp vp :: rest) WL cl a k' v' b .BLACK
  obtain ⟨s2, e2, h2, k2, _⟩ := h1.set_color_node
    (Frame.right P cp x kp vp :: rest) W cw (.node WL .BLACK a k' v' b) wk wv wr .RED
  obtain ⟨s3, e3, h3, k3⟩ := h2.rotate_right_node (Frame.right P cp x kp vp :: rest)
    W .RED a wk wv WL .BLACK b k' v' wr
  have h3' : IsTree s3 (fill (Frame.left P cp kp vp
      (.node WL .BLACK a k' v' (.node W .RED b wk wv wr)) :: rest) x) := h3
  have hx3 := parent_of_hole P _ _ x h3' (k1.transN (k2.transN k3)) rfl hx
  have hr3 := h3.right_of_focus rest P cp x kp vp
    (.node WL .BLACK a k' v' (.node W .RED b wk wv wr))
  simp only [Tree.ptr_node] at hl hr3
  refine ⟨s3, ?_, h3', k1.transN (k2.transN k3)⟩
  simp only [erase_fix_near_l, bind_ok, pure_eq_ok, hl, e1, e2, e3, hx3, hr3]

theorem erase_fix_near_r_sim (rest : Path K V) (x : Tree K V) (P : Ptr) (cp : Color) (kp : K)
    (vp : V) (W : Ptr) (cw : Color) (wl : Tree K V) (wk : K) (wv : V) (WR : Ptr) (cr : Color)
    (a : Tree K V) (k' : K) (v' : V) (b : Tree K V)
    (h : IsTree s (fill (Frame.right P cp (.node W cw wl wk wv (.node WR cr a k' v' b)) kp vp ::
      rest) x))
    (hx : s.parent_of (x.ptr s.nil) = .ok P) :
    ∃ s', s.erase_fix_near_r (x.ptr s.nil) W = .ok (s', WR) ∧
      IsTree s' (fill (Frame.right P cp (.node WR .BLACK (.node W .RED wl wk wv a) k' v' b)
        kp vp :: rest) x) ∧ KeepsN s s' := by
  have hl := h.right_of_focus (Frame.left P cp kp vp x :: rest) W cw wl wk wv
    (.node WR cr a k' v' b)
  obtain ⟨s1, e1, h1, k1, _⟩ := h.set_color_node
    (Frame.right W cw wl wk wv :: Frame.left P cp kp vp x :: rest) WR cr a k' v' b .BLACK
  obtain ⟨s2, e2, h2, k2, _⟩ := h1.set_color_node
    (Frame.left P cp kp vp x :: rest) W cw wl wk wv (.node WR .BLACK a k' v' b) .RED
  obtain ⟨s3, e3, h3, k3⟩ := h2.rotate_left_node (Frame.left P cp kp vp x :: rest)
    W .RED wl wk wv WR .BLACK a k' v' b
  have h3' : IsTree s3 (fill (Frame.right P cp
      (.node WR .BLACK (.node W .RED wl wk wv a) k' v' b) kp vp :: rest) x) := h3
  have hx3 := parent_of_hole P _ _ x h3' (k1.transN (k2.transN k3)) rfl hx
  have hr3 := h3.left_of_focus rest P cp
    (.node WR .BLACK (.node W .RED wl wk wv a) k' v' b) kp vp x
  simp only [Tree.ptr_node] at hl hr3
  refine ⟨s3, ?_, h3', k1.transN (k2.transN k3)⟩
  simp only [erase_fix_near_r, bind_ok, pure_eq_ok, hl, e1, e2, e3, hx3, hr3]

theorem erase_fix_far_l_sim (rest : Path K V) (x : Tree K V) (P : Ptr) (cp : Color) (kp : K)
    (vp : V) (W : Ptr) (cw : Color) (wl : Tree K V) (wk : K) (wv : V) (WR : Ptr) (cr : Color)
    (a : Tree K V) (k' : K) (v' : V) (b : Tree K V)
    (h : IsTree s (fill (Frame.left P cp kp vp (.node W cw wl wk wv (.node WR cr a k' v' b)) ::
      rest) x))
    (hx : s.parent_of (x.ptr s.nil) = .ok P) :
    ∃ s', s.erase_fix_far_l (x.ptr s.nil) W = .ok s' ∧
      IsTree s' (fill rest (.node W cp (.node P .BLACK x kp vp wl) wk wv
        (.node WR .BLACK a k' v' b))) ∧ KeepsN s s' := by
  have hc := h.color_of_frame _ rest x
  obtain ⟨s1, e1, h1, k1, _⟩ := h.set_color_sib
    (Frame.left P cp kp vp (.node W cw wl wk wv (.node WR cr a k' v' b))) rest x cp
    W cw wl wk wv (.node WR cr a k' v' b) rfl
  have h1' : IsTree s1 (fill (Frame.left P cp kp vp (.node W cp wl wk wv (.node WR cr a k' v' b))
      :: rest) x) := h1
  have hx1 := parent_of_hole P _ _ x h1' k1 rfl hx
  obtain ⟨s2, e2, h2, k2, _⟩ := h1'.set_color_frame _ rest x .BLACK
  have h2' : IsTree s2 (fill (Frame.left P .BLACK kp vp
      (.node W cp wl wk wv (.node WR cr a k' v' b)) :: rest) x) := h2
  have hx2 := parent_of_hole P _ _ x h2' (k1.transN k2) rfl hx
  have hr2 := h2.right_of_focus (Frame.right P .BLACK x kp vp :: rest) W cp wl wk wv
    (.node WR cr a k' v' b)
  obtain ⟨s3, e3, h3, k3, _⟩ := h2.set_color_node
    (Frame.right W cp wl wk wv :: Frame.right P .BLACK x kp vp :: rest) WR cr a k' v' b .BLACK
  have h3' : IsTree s3 (fill (Frame.left P .BLACK kp vp
      (.node W cp wl wk wv (.node WR .BLACK a k' v' b)) :: rest) x) := h3
  have hx3 := parent_of_hole P _ _ x h3' (k1.transN (k2.transN k3)) rfl hx
  obtain ⟨s4, e4, h4, k4⟩ := h3.rotate_left_node rest P .BLACK x kp vp W cp wl wk wv
    (.node WR .BLACK a k' v' b)
  simp only [Tree.ptr_node, Frame.ptr_left, Frame.color_left] at hc e2 hr2
  refine ⟨s4, ?_, h4, k1.transN (k2.transN (k3.transN k4))⟩
  simp only [erase_fix_far_l, bind_ok, pure_eq_ok, hx, hc, e1, hx1, e2, hx2, hr2, e3, hx3, e4]

theorem erase_fix_far_r_sim (rest : Path K V) (x : Tree K V) (P : Ptr) (cp : Color) (kp : K)
    (vp : V) (W : Ptr) (cw : Color) (WL : Ptr) (cl : Color) (a : Tree K V) (k' : K) (v' : V)
    (b : Tree K V) (wk : K) (wv : V) (wr : Tree K V)
    (h : IsTree s (fill (Frame.right P cp (.node W cw (.node WL cl a k' v' b) wk wv wr) kp vp ::
      rest) x))
    (hx : s.parent_of (x.ptr s.nil) = .ok P) :
    ∃ s', s.erase_fix_far_r (x.ptr s.nil) W = .ok s' ∧
      IsTree s' (fill rest (.node W cp (.node WL .BLACK a k' v' b) wk wv
        (.node P .BLACK wr kp vp x))) ∧ KeepsN s s' := by
  have hc := h.color_of_frame _ rest x
  obtain ⟨s1, e1, h1, k1, _⟩ := h.set_color_sib
    (Frame.right P cp (.node W cw (.node WL cl a k' v' b) wk wv wr) kp vp) rest x cp
    W cw (.node WL cl a k' v' b) wk wv wr rfl
  have h1' : IsTree s1 (fill (Frame.right P cp (.node W cp (.node WL cl a k' v' b) wk wv wr)
      kp vp :: rest) x) := h1
  have hx1 := parent_of_hole P _ _ x h1' k1 rfl hx
  obtain ⟨s2, e2, h2, k2, _⟩ := h1'.set_color_frame _ rest x .BLACK
  have h2' : IsTree s2 (fill (Frame.right P .BLACK
      (.node W cp (.node WL cl a k' v' b) wk wv wr) kp vp :: rest) x) := h2
  have hx2 := parent_of_hole P _ _ x h2' (k1.transN k2) rfl hx
  have hr2 := h2.left_of_focus (Frame.left P .BLACK kp vp x :: rest) W cp
    (.node WL cl a k' v' b) wk wv wr
  obtain ⟨s3, e3, h3, k3, _⟩ := h2.set_color_node
    (Frame.left W cp wk wv wr :: Frame.left P .BLACK kp vp x :: rest) WL cl a k' v' b .BLACK
  have h3' : IsTree s3 (fill (Frame.right P .BLACK
      (.node W cp (.node WL .BLACK a k' v' b) wk wv wr) kp vp :: rest) x) := h3
  have hx3 := parent_of_hole P _ _ x h3' (k1.transN (k2.transN k3)) rfl hx
  obtain ⟨s4, e4, h4, k4⟩ := h3.rotate_right_node rest P .BLACK (.node WL .BLACK a k' v' b)
    kp vp W cp wr wk wv x
  simp only [Tree.ptr_node, Frame.ptr_right, Frame.color_right] at hc e2 hr2
  refine ⟨s4, ?_, h4, k1.transN (k2.transN (k3.transN k4))⟩
  simp only [erase_fix_far_r, bind_ok, pure_eq_ok, hx, hc, e1, hx1, e2, hx2, hr2, e3, hx3, e4]

theorem erase_fix_else_l_sim (rest : Path K V) (x : Tree K V) (P : Ptr) (cp : Color) (kp : K)
    (vp : V) (W : Ptr) (cw : Color) (wl : Tree K V) (wk : K) (wv : V) (wr t : Tree K V)
    (h : IsTree s (fill (Frame.left P cp kp vp (.node W cw wl wk wv wr) :: rest) x))
    (hs : SentinelBlack s) (hx : s.parent_of (x.ptr s.nil) = .ok P)
    (ht : erase_far_l P cp x kp vp (.node W cw wl wk wv wr) = some t) :
    ∃ s', s.erase_fix_else_l (x.ptr s.nil) W = .ok s' ∧ IsTree s' (fill rest t) ∧
      KeepsN s s' := by
  have hr := h.right_of_focus (Frame.right P cp x kp vp :: rest) W cw wl wk wv wr
  have hc := color_of_hole (Frame.right W cw wl wk wv :: Frame.right P cp x kp vp :: rest) wr hs h
  by_cases hb : wr.color = .BLACK
  · cases wl with
    | leaf => simp [erase_far_l, hb] at ht
    | node WL cl a k' v' b =>
      simp only [erase_far_l, hb, if_true, Option.some.injEq] at ht
      subst ht
      obtain ⟨s1, e1, h1, k1⟩ := h.erase_fix_near_l_sim rest x P cp kp vp W cw WL cl a k' v' b
        wk wv wr hx
      have hx1 := parent_of_hole P _ _ x h1 k1 rfl hx
      rw [← k1.keeps.nil_eq] at hx1
      obtain ⟨s2, e2, h2, k2⟩ := h1.erase_fix_far_l_sim rest x P cp kp vp WL .BLACK a k' v'
        W .RED b wk wv wr hx1
      rw [k1.keeps.nil_eq] at e2
      refine ⟨s2, ?_, h2, k1.transN k2⟩
      simp only [erase_fix_else_l, bind_ok, pure_eq_ok, hr, hc, hb, if_true, e1, e2]
  · cases wr with
    | leaf => exact absurd rfl hb
    | node WR cr a k' v' b =>
      simp only [erase_far_l, hb, if_false, Option.some.injEq, Tree.setColor] at ht
      subst ht
      obtain ⟨s2, e2, h2, k2⟩ := h.erase_fix_far_l_sim rest x P cp kp vp W cw wl wk wv
        WR cr a k' v' b hx
      refine ⟨s2, ?_, h2, k2⟩
      simp only [erase_fix_else_l, bind_ok, pure_eq_ok, hr, hc, hb, if_false, e2]

theorem erase_fix_else_r_sim (rest : Path K V) (x : Tree K V) (P : Ptr) (cp : Color) (kp : K)
    (vp : V) (W : Ptr) (cw : Color) (wl : Tree K V) (wk : K) (wv : V) (wr t : Tree K V)
    (h : IsTree s (fill (Frame.right P cp (.node W cw wl wk wv wr) kp vp :: rest) x))
    (hs : SentinelBlack s) (hx : s.parent_of (x.ptr s.nil) = .ok P)
    (ht : erase_far_r P cp x kp vp (.node W cw wl wk wv wr) = some t) :
    ∃ s', s.erase_fix_else_r (x.ptr s.nil) W = .ok s' ∧ IsTree s' (fill rest t) ∧
      KeepsN s s' := by
  have hr := h.left_of_focus (Frame.left P cp kp vp x :: rest) W cw wl wk wv wr
  have hc := color_of_hole (Frame.left W cw wk wv wr :: Frame.left P cp kp vp x :: rest) wl hs h
  by_cases hb : wl.color = .BLACK
  · cases wr with
    | leaf => simp [erase_far_r, hb] at ht
    | node WR cr a k' v' b =>
      simp only [erase_far_r, hb, if_true, Option.some.injEq] at ht
      subst ht
      obtain ⟨s1, e1, h1, k1⟩ := h.erase_fix_near_r_sim rest x P cp kp vp W cw wl wk wv
        WR cr a k' v' b hx
      have hx1 := parent_of_hole P _ _ x h1 k1 rfl hx
      rw [← k1.keeps.nil_eq] at hx1
      obtain ⟨s2, e2, h2, k2⟩ := h1.erase_fix_far_r_sim rest x P cp kp vp WR .BLACK
        W .RED wl wk wv a k' v' b hx1
      rw [k1.keeps.nil_eq] at e2
      refine ⟨s2, ?_, h2, k1.transN k2⟩
      simp only [erase_fix_else_r, bind_ok, pure_eq_ok, hr, hc, hb, if_true, e1, e2]
  · cases wl with
    | leaf => exact absurd rfl hb
    | node WL cl a k' v' b =>
      simp only [erase_far_r, hb, if_false, Option.some.injEq, Tree.setColor] at ht
      subst ht
      obtain ⟨s2, e2, h2, k2⟩ := h.erase_fix_far_r_sim rest x P cp kp vp W cw WL cl a k' v' b
        wk wv wr hx
      refine ⟨s2, ?_, h2, k2⟩
      simp only [erase_fix_else_r, bind_ok, pure_eq_ok, hr, hc, hb, if_false, e2]

end IsTree

theorem root_mem_path (nil : Ptr) : ∀ (fs : Path K V) (f : Frame K V) (t : Tree K V),
    (fill (f :: fs) t).ptr nil ∈ Path.addrs (f :: fs) := by
  intro fs
  induction fs with
  | nil =>
    intro f t
    rw [Path.mem_addrs_cons]
    left
    cases f <;> rfl
  | cons g gs ih =>
    intro f t
    rw [Path.mem_addrs_cons]
    right; right
    exact ih g (f.plug t)

theorem both_black_eq {s : RedBlackTree K V} {a b : Ptr} {ca cb : Color}
    (ha : s.color_of a = .ok ca) (hb : s.color_of b = .ok cb) :
    s.both_black a b = .ok (decide (ca = .BLACK ∧ cb = .BLACK)) := by
  cases ca <;> cases cb <;> simp [both_black, ha, hb, bind_ok, pure_eq_ok]

namespace IsTree

variable {s : RedBlackTree K V}

theorem hole_ne_root (f : Frame K V) (rest : Path K V) (x : Tree K V)
    (h : IsTree s (fill (f :: rest) x)) : x.ptr s.nil ≠ s.root := by
  have hm := root_mem_path s.nil rest f x
  rw [← h.root_eq] at hm
  have hn := ((nodup_fill_iff (f :: rest) x).1 h.nodup).2.2
  have hnl := h.rep.nil_not_mem
  rw [addrs_fill] at hnl
  cases x with
  | leaf =>
    intro e
    simp only [Tree.ptr_leaf] at e
    rw [← e] at hm
    exact hnl (by
      simp only [Path.addrs, List.mem_append] at hm
      simp only [List.mem_append]
      tauto)
  | node p c l k v r =>
    intro e
    simp only [Tree.ptr_node] at e
    rw [← e] at hm
    exact hn p (by simp) hm

theorem hole_ne_sib (f : Frame K V) (rest : Path K V) (x : Tree K V) (W : Ptr) (cw : Color)
    (wl : Tree K V) (wk : K) (wv : V) (wr : Tree K V) (hf : f.sib = .node W cw wl wk wv wr)
    (h : IsTree s (fill (f :: rest) x)) : x.ptr s.nil ≠ W := by
  have hn := ((nodup_fill_iff (f :: rest) x).1 h.nodup).2.2
  have hnl := h.rep.nil_not_mem
  rw [addrs_fill] at hnl
  have hW : W ∈ Path.addrs (f :: rest) := by
    rw [Path.mem_addrs_cons, hf]
    right; left
    simp
  cases x with
  | leaf =>
    intro e
    simp only [Tree.ptr_leaf] at e
    rw [← e] at hW
    exact hnl (by
      simp only [Path.addrs, List.mem_append] at hW
      simp only [List.mem_append]
      tauto)
  | node p c l k v r =>
    intro e
    simp only [Tree.ptr_node] at e
    rw [← e] at hW
    exact hn p (by simp) hW

/-- The source's `x->color = BLACK` on a sentinel that is BLACK already changes nothing. -/
theorem set_color_sentinel {T : Tree K V} (h : IsTree s T) (hs : SentinelBlack s) :
    s.set_color s.nil .BLACK = .ok s := by
  obtain ⟨n, hn⟩ := h.nil_live
  have hl := load_of_mem h.nil_ne hn
  unfold SentinelBlack at hs
  simp only [color_of, hl, bind_ok, pure_eq_ok, Except.ok.injEq] at hs
  simp only [set_color, hl, bind_ok, pure_eq_ok, store, Except.ok.injEq]
  have e : ({ n with color := .BLACK } : Node K V) = n := by
    cases n; simp only [Node.mk.injEq, true_and] at hs ⊢; exact hs.symm
  rw [e, ← hn, Function.update_eq_self]

/-- The loop of `erase_fix` ends at once when `x` is the root. -/
theorem erase_fix_root {T : Tree K V} (h : IsTree s T) (hs : SentinelBlack s) (fuel : Nat) :
    ∃ s', erase_fix (fuel + 1) s s.root = .ok s' ∧ IsTree s' (T.setColor .BLACK) ∧
      KeepsC s s' := by
  cases T with
  | leaf =>
    have e : s.root = s.nil := h.root_eq
    refine ⟨s, ?_, h, KeepsC.reflC s⟩
    simp only [erase_fix, if_true]
    rw [e]
    exact h.set_color_sentinel hs
  | node p c l k v r =>
    obtain ⟨s', e', h', k'⟩ := h.insert_fix_exit_sim p c l k v r
    refine ⟨s', ?_, h', k'.toC⟩
    simp only [erase_fix, if_true]
    exact e'

/-- The loop of `erase_fix` ends at once when `x` is RED. -/
theorem erase_fix_red (f : Frame K V) (rest : Path K V) (p : Ptr) (l : Tree K V) (k : K)
    (v : V) (r : Tree K V) (h : IsTree s (fill (f :: rest) (.node p .RED l k v r)))
    (fuel : Nat) :
    ∃ s', erase_fix (fuel + 1) s p = .ok s' ∧
      IsTree s' (fill (f :: rest) (.node p .BLACK l k v r)) ∧ KeepsC s s' := by
  have hr := h.hole_ne_root f rest _
  have hc := h.color_of_focus (f :: rest) p .RED l k v r
  obtain ⟨s', e', h', k', _⟩ := h.set_color_node (f :: rest) p .RED l k v r .BLACK
  simp only [Tree.ptr_node] at hr
  refine ⟨s', ?_, h', k'.toC⟩
  simp only [erase_fix, hr, if_false, hc, bind_ok, ne_eq, not_false_eq_true, if_true, e',
    reduceCtorEq]

theorem erase_fix_root_pos {T : Tree K V} (h : IsTree s T) (hs : SentinelBlack s) {fuel : Nat}
    (hf : 0 < fuel) :
    ∃ s', erase_fix fuel s s.root = .ok s' ∧ IsTree s' (T.setColor .BLACK) ∧ KeepsC s s' := by
  obtain ⟨m, rfl⟩ := Nat.exists_eq_succ_of_ne_zero hf.ne'
  exact h.erase_fix_root hs m

theorem erase_fix_red_pos (f : Frame K V) (rest : Path K V) (p : Ptr) (l : Tree K V) (k : K)
    (v : V) (r : Tree K V) (h : IsTree s (fill (f :: rest) (.node p .RED l k v r)))
    {fuel : Nat} (hf : 0 < fuel) :
    ∃ s', erase_fix fuel s p = .ok s' ∧
      IsTree s' (fill (f :: rest) (.node p .BLACK l k v r)) ∧ KeepsC s s' := by
  obtain ⟨m, rfl⟩ := Nat.exists_eq_succ_of_ne_zero hf.ne'
  exact h.erase_fix_red f rest p l k v r m

end IsTree

/-- The loop of `erase_fix(x)` and the final `x->color = BLACK`, for `x` the root of
the subtree under `path`: when the tree-level function gives a tree, the source returns
and its memory holds that tree. -/
theorem erase_fix_sim : ∀ (fuel : Nat) (path : Path K V) (x : Tree K V)
    (s : RedBlackTree K V) (T' : Tree K V), IsTree s (fill path x) → SentinelBlack s →
    (∀ f rest, path = f :: rest → s.parent_of (x.ptr s.nil) = .ok f.ptr) →
    erase_fix_z path x = some T' → path.length < fuel →
    ∃ s', erase_fix fuel s (x.ptr s.nil) = .ok s' ∧ IsTree s' T' ∧ KeepsC s s' := by
  intro fuel
  induction fuel with
  | zero => intro path x s T' _ _ _ _ hf; exact absurd hf (Nat.not_lt_zero _)
  | succ n ih =>
    intro path x s T' h hs hxp hz hf
    cases path with
    | nil =>
      simp only [erase_fix_z, Option.some.injEq] at hz
      subst hz
      have := h.erase_fix_root hs n
      rw [h.root_eq] at this
      exact this
    | cons f rest =>
      have hxP := hxp f rest rfl
      have hroot := h.hole_ne_root f rest x
      have hcx := IsTree.color_of_hole (f :: rest) x hs h
      have hn : 0 < n := by simp only [List.length_cons] at hf; omega
      by_cases hred : x.color = .RED
      · cases x with
        | leaf => cases hred
        | node p c l k v r =>
          simp only [Tree.color_node] at hred
          subst hred
          simp only [erase_fix_z, Tree.color_node, if_true, Option.some.injEq,
            Tree.setColor] at hz
          subst hz
          exact h.erase_fix_red f rest p l k v r n
      · have hblack : x.color = .BLACK := color_ne_red.1 hred
        cases f with
        | left P cp kp vp w =>
          cases w with
          | leaf => simp [erase_fix_z, hred] at hz
          | node W cw wl wk wv wr =>
            have hl := h.left_of_focus rest P cp x kp vp (.node W cw wl wk wv wr)
            have hr := h.right_of_focus rest P cp x kp vp (.node W cw wl wk wv wr)
            have hcw := h.color_of_focus (Frame.right P cp x kp vp :: rest) W cw wl wk wv wr
            simp only [Frame.ptr_left, Tree.ptr_node] at hxP hr
            cases cw with
            | RED =>
              cases wl with
              | leaf => simp [erase_fix_z, hred] at hz
              | node W2 c2 al ak av ar =>
                obtain ⟨s1, e1, h1, k1⟩ := h.erase_fix_red_l_sim rest x P cp kp vp W .RED
                  (.node W2 c2 al ak av ar) wk wv wr hxP
                have hs1 := k1.sentinel hs
                have en1 : s1.nil = s.nil := k1.keeps.nil_eq
                have hx1 := IsTree.parent_of_hole P _ _ x h1 k1 rfl hxP
                have hl1 := h1.left_of_focus (Frame.right P .RED x kp vp ::
                  Frame.left W .BLACK wk wv wr :: rest) W2 c2 al ak av ar
                have hr1 := h1.right_of_focus (Frame.right P .RED x kp vp ::
                  Frame.left W .BLACK wk wv wr :: rest) W2 c2 al ak av ar
                have hca := IsTree.color_of_hole (Frame.left W2 c2 ak av ar ::
                  Frame.right P .RED x kp vp :: Frame.left W .BLACK wk wv wr :: rest) al hs1 h1
                have hcb := IsTree.color_of_hole (Frame.right W2 c2 al ak av ::
                  Frame.right P .RED x kp vp :: Frame.left W .BLACK wk wv wr :: rest) ar hs1 h1
                have hbb := both_black_eq hca hcb
                simp only [Tree.ptr_node] at e1
                by_cases hb : al.color = .BLACK ∧ ar.color = .BLACK
                · simp only [erase_fix_z, hred, if_false, hb, and_self, if_true,
                    Option.some.injEq] at hz
                  subst hz
                  obtain ⟨s2, e2, h2, k2, _⟩ := h1.set_color_sib
                    (Frame.left P .RED kp vp (.node W2 c2 al ak av ar))
                    (Frame.left W .BLACK wk wv wr :: rest) x .RED W2 c2 al ak av ar rfl
                  have hx2 := IsTree.parent_of_hole P _ _ x h2 (k1.transN k2) rfl hxP
                  have h2' : IsTree s2 (fill (Frame.left W .BLACK wk wv wr :: rest)
                      (.node P .RED x kp vp (.node W2 .RED al ak av ar))) := h2
                  obtain ⟨s3, e3, h3, k3⟩ := h2'.erase_fix_red_pos _ rest P x kp vp _ hn
                  refine ⟨s3, ?_, h3, k1.toC.transC (k2.toC.transC k3)⟩
                  simp only [erase_fix, hroot, if_false, hcx, hblack, bind_ok, ne_eq,
                    not_true_eq_false, hxP, hl, if_true, hr, hcw, e1, hl1, hr1, hbb, hb,
                    and_self, decide_True, e2, hx2, e3]
                · simp only [erase_fix_z, hred, if_false, hb, Option.map_eq_some'] at hz
                  obtain ⟨t, ht, rfl⟩ := hz
                  rw [← en1] at hx1
                  obtain ⟨s2, e2, h2, k2⟩ := h1.erase_fix_else_l_sim
                    (Frame.left W .BLACK wk wv wr :: rest) x P .RED kp vp W2 c2 al ak av ar t
                    hs1 hx1 ht
                  have h2' : IsTree s2 (fill rest (.node W .BLACK t wk wv wr)) := h2
                  obtain ⟨s3, e3, h3, k3⟩ := h2'.erase_fix_root_pos (k2.sentinel hs1) hn
                  rw [en1] at e2
                  refine ⟨s3, ?_, h3, k1.toC.transC (k2.toC.transC k3)⟩
                  simp only [erase_fix, hroot, if_false, hcx, hblack, bind_ok, ne_eq,
                    not_true_eq_false, hxP, hl, if_true, hr, hcw, e1, hl1, hr1, hbb, hb,
                    decide_False, e2, e3, Bool.false_eq_true]
            | BLACK =>
              have hl1 := h.left_of_focus (Frame.right P cp x kp vp :: rest) W .BLACK wl wk wv wr
              have hr1 := h.right_of_focus (Frame.right P cp x kp vp :: rest) W .BLACK wl wk wv wr
              have hca := IsTree.color_of_hole (Frame.left W .BLACK wk wv wr ::
                Frame.right P cp x kp vp :: rest) wl hs h
              have hcb := IsTree.color_of_hole (Frame.right W .BLACK wl wk wv ::
                Frame.right P cp x kp vp :: rest) wr hs h
              have hbb := both_black_eq hca hcb
              by_cases hb : wl.color = .BLACK ∧ wr.color = .BLACK
              · simp only [erase_fix_z, hred, if_false, hb, and_self, if_true] at hz
                obtain ⟨s1, e1, h1, k1, _⟩ := h.set_color_sib
                  (Frame.left P cp kp vp (.node W .BLACK wl wk wv wr)) rest x .RED
                  W .BLACK wl wk wv wr rfl
                have hx1 := IsTree.parent_of_hole P _ _ x h1 k1 rfl hxP
                have h1' : IsTree s1 (fill rest (.node P cp x kp vp (.node W .RED wl wk wv wr))) :=
                  h1
                obtain ⟨s2, e2, h2, k2⟩ := ih rest _ s1 T' h1' (k1.sentinel hs)
                  (fun f' rest' e => by
                    subst e
                    exact h1'.parent_of_focus _ P cp x kp vp _) hz
                  (by simp only [List.length_cons] at hf; omega)
                simp only [Tree.ptr_node] at e2
                refine ⟨s2, ?_, h2, k1.toC.transC k2⟩
                simp only [erase_fix, hroot, if_false, hcx, hblack, bind_ok, ne_eq,
                  not_true_eq_false, hxP, hl, if_true, hr, hcw, hl1, hr1, hbb, hb,
                  and_self, decide_True, e1, hx1, e2, reduceCtorEq, pure_eq_ok]
              · simp only [erase_fix_z, hred, if_false, hb, Option.map_eq_some'] at hz
                obtain ⟨t, ht, rfl⟩ := hz
                obtain ⟨s2, e2, h2, k2⟩ := h.erase_fix_else_l_sim rest x P cp kp vp
                  W .BLACK wl wk wv wr t hs hxP ht
                obtain ⟨s3, e3, h3, k3⟩ := h2.erase_fix_root_pos (k2.sentinel hs) hn
                refine ⟨s3, ?_, h3, k2.toC.transC k3⟩
                simp only [erase_fix, hroot, if_false, hcx, hblack, bind_ok, ne_eq,
                  not_true_eq_false, hxP, hl, if_true, hr, hcw, hl1, hr1, hbb, hb,
                  decide_False, e2, e3, Bool.false_eq_true, reduceCtorEq, pure_eq_ok]
        | right P cp w kp vp =>
          cases w with
          | leaf => simp [erase_fix_z, hred] at hz
          | node W cw wl wk wv wr =>
            have hl := h.left_of_focus rest P cp (.node W cw wl wk wv wr) kp vp x
            have hne := h.hole_ne_sib (Frame.right P cp (.node W cw wl wk wv wr) kp vp) rest x
              W cw wl wk wv wr rfl
            have hcw := h.color_of_focus (Frame.left P cp kp vp x :: rest) W cw wl wk wv wr
            simp only [Frame.ptr_right, Tree.ptr_node] at hxP hl
            cases cw with
            | RED =>
              cases wr with
              | leaf => simp [erase_fix_z, hred] at hz
              | node W2 c2 al ak av ar =>
                obtain ⟨s1, e1, h1, k1⟩ := h.erase_fix_red_r_sim rest x P cp kp vp W .RED
                  wl wk wv (.node W2 c2 al ak av ar) hxP
                have hs1 := k1.sentinel hs
                have en1 : s1.nil = s.nil := k1.keeps.nil_eq
                have hx1 := IsTree.parent_of_hole P _ _ x h1 k1 rfl hxP
                have hl1 := h1.left_of_focus (Frame.left P .RED kp vp x ::
                  Frame.right W .BLACK wl wk wv :: rest) W2 c2 al ak av ar
                have hr1 := h1.right_of_focus (Frame.left P .RED kp vp x ::
                  Frame.right W .BLACK wl wk wv :: rest) W2 c2 al ak av ar
                have hca := IsTree.color_of_hole (Frame.left W2 c2 ak av ar ::
                  Frame.left P .RED kp vp x :: Frame.right W .BLACK wl wk wv :: rest) al hs1 h1
                have hcb := IsTree.color_of_hole (Frame.right W2 c2 al ak av ::
                  Frame.left P .RED kp vp x :: Frame.right W .BLACK wl wk wv :: rest) ar hs1 h1
                have hbb := both_black_eq hcb hca
                simp only [Tree.ptr_node] at e1
                by_cases hb : ar.color = .BLACK ∧ al.color = .BLACK
                · simp only [erase_fix_z, hred, if_false, hb, and_self, if_true,
                    Option.some.injEq] at hz
                  subst hz
                  obtain ⟨s2, e2, h2, k2, _⟩ := h1.set_color_sib
                    (Frame.right P .RED (.node W2 c2 al ak av ar) kp vp)
                    (Frame.right W .BLACK wl wk wv :: rest) x .RED W2 c2 al ak av ar rfl
                  have hx2 := IsTree.parent_of_hole P _ _ x h2 (k1.transN k2) rfl hxP
                  have h2' : IsTree s2 (fill (Frame.right W .BLACK wl wk wv :: rest)
                      (.node P .RED (.node W2 .RED al ak av ar) kp vp x)) := h2
                  obtain ⟨s3, e3, h3, k3⟩ := h2'.erase_fix_red_pos _ rest P _ kp vp x hn
                  refine ⟨s3, ?_, h3, k1.toC.transC (k2.toC.transC k3)⟩
                  simp only [erase_fix, hroot, if_false, hcx, hblack, bind_ok, ne_eq,
                    not_true_eq_false, hxP, hl, if_true, hne, hcw, e1, hl1, hr1, hbb, hb,
                    and_self, decide_True, e2, hx2, e3]
                · simp only [erase_fix_z, hred, if_false, hb, Option.map_eq_some'] at hz
                  obtain ⟨t, ht, rfl⟩ := hz
                  rw [← en1] at hx1
                  obtain ⟨s2, e2, h2, k2⟩ := h1.erase_fix_else_r_sim
                    (Frame.right W .BLACK wl wk wv :: rest) x P .RED kp vp W2 c2 al ak av ar t
                    hs1 hx1 ht
                  have h2' : IsTree s2 (fill rest (.node W .BLACK wl wk wv t)) := h2
                  obtain ⟨s3, e3, h3, k3⟩ := h2'.erase_fix_root_pos (k2.sentinel hs1) hn
                  rw [en1] at e2
                  refine ⟨s3, ?_, h3, k1.toC.transC (k2.toC.transC k3)⟩
                  simp only [erase_fix, hroot, if_false, hcx, hblack, bind_ok, ne_eq,
                    not_true_eq_false, hxP, hl, if_true, hne, hcw, e1, hl1, hr1, hbb, hb,
                    decide_False, e2, e3, Bool.false_eq_true]
            | BLACK =>
              have hl1 := h.left_of_focus (Frame.left P cp kp vp x :: rest) W .BLACK wl wk wv wr
              have hr1 := h.right_of_focus (Frame.left P cp kp vp x :: rest) W .BLACK wl wk wv wr
              have hca := IsTree.color_of_hole (Frame.left W .BLACK wk wv wr ::
                Frame.left P cp kp vp x :: rest) wl hs h
              have hcb := IsTree.color_of_hole (Frame.right W .BLACK wl wk wv ::
                Frame.left P cp kp vp x :: rest) wr hs h
              have hbb := both_black_eq hcb hca
              by_cases hb : wr.color = .BLACK ∧ wl.color = .BLACK
              · simp only [erase_fix_z, hred, if_false, hb, and_self, if_true] at hz
                obtain ⟨s1, e1, h1, k1, _⟩ := h.set_color_sib
                  (Frame.right P cp (.node W .BLACK wl wk wv wr) kp vp) rest x .RED
                  W .BLACK wl wk wv wr rfl
                have hx1 := IsTree.parent_of_hole P _ _ x h1 k1 rfl hxP
                have h1' : IsTree s1 (fill rest (.node P cp (.node W .RED wl wk wv wr) kp vp x)) :=
                  h1
                obtain ⟨s2, e2, h2, k2⟩ := ih rest _ s1 T' h1' (k1.sentinel hs)
                  (fun f' rest' e => by
                    subst e
                    exact h1'.parent_of_focus _ P cp _ kp vp x) hz
                  (by simp only [List.length_cons] at hf; omega)
                simp only [Tree.ptr_node] at e2
                refine ⟨s2, ?_, h2, k1.toC.transC k2⟩
                simp only [erase_fix, hroot, if_false, hcx, hblack, bind_ok, ne_eq,
                  not_true_eq_false, hxP, hl, if_true, hne, hcw, hl1, hr1, hbb, hb,
                  and_self, decide_True, e1, hx1, e2, reduceCtorEq, pure_eq_ok]
              · simp only [erase_fix_z, hred, if_false, hb, Option.map_eq_some'] at hz
                obtain ⟨t, ht, rfl⟩ := hz
                obtain ⟨s2, e2, h2, k2⟩ := h.erase_fix_else_r_sim rest x P cp kp vp
                  W .BLACK wl wk wv wr t hs hxP ht
                obtain ⟨s3, e3, h3, k3⟩ := h2.erase_fix_root_pos (k2.sentinel hs) hn
                refine ⟨s3, ?_, h3, k2.toC.transC k3⟩
                simp only [erase_fix, hroot, if_false, hcx, hblack, bind_ok, ne_eq,
                  not_true_eq_false, hxP, hl, if_true, hne, hcw, hl1, hr1, hbb, hb,
                  decide_False, e2, e3, Bool.false_eq_true, reduceCtorEq, pure_eq_ok]

/-- The path of `minimum` holds left links only: nothing on it comes before the hole. -/
theorem min_path_left (t : Tree K V) : ∀ path : Path K V,
    ((min_path path t).1).addrsL = path.addrsL ∧ ((min_path path t).1).listL = path.listL := by
  induction t with
  | leaf => intro path; exact ⟨rfl, rfl⟩
  | node p c l k v r ihl _ =>
    intro path
    cases l with
    | leaf => exact ⟨rfl, rfl⟩
    | node lp lc ll lk lv lr =>
      rw [min_path]
      have := ihl (Frame.left p c k v r :: path)
      rw [this.1, this.2]
      simp [Path.addrsL, Path.listL, Frame.addrsL, Frame.listL]

/-- The two-children case of `delete_z`: the successor `Y`, the path to it inside the right
subtree, and what `delete_z` returns. -/
theorem delete_z_two (path : Path K V) (c : Color) (L : Ptr) (cl : Color) (ll : Tree K V) (lk : K)
    (lv : V) (lr : Tree K V) (R : Ptr) (cr : Color) (rl : Tree K V) (rk : K) (rv : V)
    (rr : Tree K V) :
    ∃ ypath Y cy ky vy yr, min_path [] (.node R cr rl rk rv rr) = (ypath, .node Y cy .leaf ky vy yr) ∧
      Tree.node R cr rl rk rv rr = fill ypath (.node Y cy .leaf ky vy yr) ∧
      ypath.addrsL = [] ∧ ypath.listL = [] ∧
      delete_z path c (.node L cl ll lk lv lr) (.node R cr rl rk rv rr) =
        (ypath ++ Frame.right Y c (.node L cl ll lk lv lr) ky vy :: path, yr, cy) := by
  obtain ⟨Y, cy, ky, vy, yr, e⟩ := min_path_node [] R cr rl rk rv rr
  have hf := fill_min_path [] (.node R cr rl rk rv rr)
  have hl := min_path_left (.node R cr rl rk rv rr) []
  generalize hm : min_path [] (.node R cr rl rk rv rr) = m at e hf hl
  obtain ⟨ypath, y⟩ := m
  simp only at e hf hl
  subst e
  refine ⟨ypath, Y, cy, ky, vy, yr, rfl, by simpa using hf.symm, hl.1, hl.2, ?_⟩
  simp only [delete_z, hm]

theorem delete_z_addrs (path : Path K V) (c : Color) (l r : Tree K V) :
    (fill (delete_z path c l r).1 (delete_z path c l r).2.1).addrs =
      path.addrsL ++ l.addrs ++ r.addrs ++ path.addrsR := by
  cases l with
  | leaf => simp [delete_z, addrs_fill]
  | node L cl ll lk lv lr =>
    cases r with
    | leaf => simp [delete_z, addrs_fill]
    | node R cr rl rk rv rr =>
      obtain ⟨ypath, Y, cy, ky, vy, yr, -, e, h1, -, hd⟩ :=
        delete_z_two path c L cl ll lk lv lr R cr rl rk rv rr
      rw [hd, e]
      simp [addrs_fill, fill_append, h1, Frame.addrsL, Frame.addrsR, Path.addrsL, Path.addrsR]

theorem delete_z_toList (path : Path K V) (c : Color) (l r : Tree K V) :
    (fill (delete_z path c l r).1 (delete_z path c l r).2.1).toList =
      path.listL ++ l.toList ++ r.toList ++ path.listR := by
  cases l with
  | leaf => simp [delete_z, toList_fill]
  | node L cl ll lk lv lr =>
    cases r with
    | leaf => simp [delete_z, toList_fill]
    | node R cr rl rk rv rr =>
      obtain ⟨ypath, Y, cy, ky, vy, yr, -, e, -, h1, hd⟩ :=
        delete_z_two path c L cl ll lk lv lr R cr rl rk rv rr
      rw [hd, e]
      simp [toList_fill, fill_append, h1, Frame.listL, Frame.listR, Path.listL, Path.listR]

theorem fill_cons_node (f : Frame K V) (fs : Path K V) (t : Tree K V) :
    ∃ p c l k v r, fill (f :: fs) t = .node p c l k v r := by
  cases f with
  | left p c k v r => exact fill_node fs p c t k v r
  | right p c l k v => exact fill_node fs p c l k v t

theorem mem_addrs_fill_of_path {q : Ptr} {path : Path K V} (t : Tree K V)
    (h : q ∈ path.addrs) : q ∈ (fill path t).addrs := by
  rw [addrs_fill]
  simp only [Path.addrs, List.mem_append] at h ⊢
  tauto

theorem mem_addrs_fill_of_mem {q : Ptr} (path : Path K V) {t : Tree K V}
    (h : q ∈ t.addrs) : q ∈ (fill path t).addrs := by
  rw [addrs_fill]
  simp only [List.mem_append]
  tauto

theorem not_mem_addrs_fill {q : Ptr} {path : Path K V} {t : Tree K V}
    (h1 : q ∉ path.addrs) (h2 : q ∉ t.addrs) : q ∉ (fill path t).addrs := by
  rw [addrs_fill]
  simp only [Path.addrs, List.mem_append] at h1 ⊢
  tauto

namespace IsTree

variable {s : RedBlackTree K V}

theorem ne_nil_of_mem {T : Tree K V} (h : IsTree s T) {q : Ptr} (hq : q ∈ T.addrs) :
    q ≠ s.nil := fun e => h.rep.nil_not_mem (e ▸ hq)

theorem ne_zero_of_mem {T : Tree K V} (h : IsTree s T) {q : Ptr} (hq : q ∈ T.addrs) :
    q ≠ 0 := fun e => h.rep.zero_not_mem (e ▸ hq)

/-- The statement `delete z` for a node that is no longer in the tree. -/
theorem free_sim {T : Tree K V} (h : IsTree s T) (z : Ptr) (n : Node K V) (hz : z ∉ T.addrs)
    (h0 : z ≠ 0) (hn : z ≠ s.nil) (hm : s.mem z = some n) :
    ∃ s', s.free z = .ok s' ∧ IsTree s' T ∧ KeepsN s s' ∧ s'.root = s.root ∧
      ∀ q, q ≠ z → s'.mem q = s.mem q := by
  refine ⟨{ s with mem := Function.update s.mem z none }, ?_, ?_, ⟨⟨rfl, rfl, rfl⟩, ?_⟩, rfl, ?_⟩
  · simp only [free, load_of_mem h0 hm, bind_ok, pure_eq_ok]
  · refine ⟨h.root_eq, Rep_congr ?_ h.rep, h.nodup, h.nil_ne, ?_, ?_, h.brk_ne⟩
    · intro q hq
      exact upd_ne _ _ (fun e => hz (e ▸ hq))
    · obtain ⟨nn, hnn⟩ := h.nil_live
      exact ⟨nn, by rw [← hnn]; exact upd_ne' _ _ hn⟩
    · intro p hp
      by_cases e : p = z
      · subst e; simp only [Function.update_same]
      · rw [← h.unused p hp]; exact upd_ne _ _ e
  · exact upd_ne' _ _ hn
  · intro q hq
    exact upd_ne _ _ hq

theorem focus_ne (path : Path K V) (z : Ptr) (c : Color) (l : Tree K V) (k : K) (v : V)
    (r : Tree K V) (h : IsTree s (fill path (.node z c l k v r))) :
    z ≠ l.ptr s.nil ∧ z ≠ r.ptr s.nil ∧ z ≠ parentPtr s.nil path ∧ z ∉ l.addrs ∧ z ∉ r.addrs := by
  have hn := ((nodup_fill_iff path _).1 h.nodup).1
  have hP := h.parentPtr_not_mem path _
  have hz := (h.mem_focus path z c l k v r).2.1
  simp only [Tree.addrs_node, List.nodup_append, List.nodup_cons, List.mem_append,
    List.mem_cons, List.Disjoint, not_or, or_imp, forall_and, imp_false, List.forall_mem_ne',
    forall_eq] at hn hP
  have h1 : z ∉ l.addrs := by casesm* _ ∧ _; assumption
  have h2 : z ∉ r.addrs := by casesm* _ ∧ _; assumption
  refine ⟨(Tree.ptr_ne hz h1).symm, (Tree.ptr_ne hz h2).symm, ?_, h1, h2⟩
  casesm* _ ∧ _
  exact fun e => ‹¬parentPtr s.nil path = z› e.symm

/-- The `if`/`else if`/`else` of `delete_node(z)`: it returns, with `x` and
`original_color` as `delete_z` gives them, and the memory holds the tree without `z`. -/
theorem delete_splice_sim (path : Path K V) (z : Ptr) (c : Color) (l : Tree K V) (k : K) (v : V)
    (r : Tree K V) (h : IsTree s (fill path (.node z c l k v r))) {fuel : Nat}
    (hf : r.height < fuel) :
    ∃ s', s.delete_splice fuel z =
        .ok (s', (delete_z path c l r).2.1.ptr s.nil, (delete_z path c l r).2.2) ∧
      IsTree s' (fill (delete_z path c l r).1 (delete_z path c l r).2.1) ∧
      (∀ f rest, (delete_z path c l r).1 = f :: rest →
        s'.parent_of ((delete_z path c l r).2.1.ptr s.nil) = .ok f.ptr) ∧
      s'.mem z = s.mem z ∧ KeepsC s s' := by
  have hc := h.color_of_focus path z c l k v r
  have hl := h.left_of_focus path z c l k v r
  have hr := h.right_of_focus path z c l k v r
  obtain ⟨hzl, hzr, hzP, hzla, hzra⟩ := h.focus_ne path z c l k v r
  cases l with
  | leaf =>
    obtain ⟨s', e1, h1, hp1, hfr, k1⟩ := h.transplant_sim path z c .leaf k v r r (Or.inr rfl)
    have ed : delete_z path c .leaf r = (path, r, c) := by cases r <;> rfl
    rw [ed]
    refine ⟨s', ?_, h1, ?_, hfr z hzr hzP, k1⟩
    · simp only [delete_splice, hc, hl, Tree.ptr_leaf, if_true, hr, e1, bind_ok, pure_eq_ok]
    · intro f rest e
      subst e
      exact hp1
  | node L cl ll lk lv lr =>
    have hLn : L ≠ s.nil := by
      have := ((Rep_fill path _).1 h.rep).2
      simp only [Rep_node] at this
      exact this.2.2.2.1.2.1
    simp only [Tree.ptr_node] at hl
    cases r with
    | leaf =>
      obtain ⟨s', e1, h1, hp1, hfr, k1⟩ := h.transplant_sim path z c (.node L cl ll lk lv lr) k v
        .leaf (.node L cl ll lk lv lr) (Or.inl rfl)
      have ed : delete_z path c (.node L cl ll lk lv lr) .leaf =
        (path, .node L cl ll lk lv lr, c) := rfl
      rw [ed]
      refine ⟨s', ?_, h1, ?_, hfr z hzl hzP, k1⟩
      · simp only [Tree.ptr_node] at e1
        simp only [delete_splice, hc, hl, hLn, if_false, hr, Tree.ptr_leaf, if_true, e1,
          bind_ok, pure_eq_ok, Tree.ptr_node]
      · intro f rest e
        subst e
        exact hp1
    | node R cr rl rk rv rr =>
      have hRn : R ≠ s.nil := by
        have := ((Rep_fill path _).1 h.rep).2
        simp only [Rep_node] at this
        exact this.2.2.2.2.2.1
      have hRep : Rep s.mem s.nil z (.node R cr rl rk rv rr) := by
        have := ((Rep_fill path _).1 h.rep).2
        rw [Rep_node] at this
        exact this.2.2.2.2
      simp only [Tree.ptr_node] at hr
      obtain ⟨ypath, Y, cy, ky, vy, yr, hm, er, -, -, hd⟩ :=
        delete_z_two path c L cl ll lk lv lr R cr rl rk rv rr
      rw [hd]
      have hmin := minimum_sim s (.node R cr rl rk rv rr) z [] fuel hRep hf
      rw [hm] at hmin
      simp only [Tree.ptr_node] at hmin
      cases ypath with
      | nil =>
        simp only [fill_nil, Tree.node.injEq] at er
        obtain ⟨rfl, rfl, rfl, rfl, rfl, rfl⟩ := er
        obtain ⟨s1, s', e1, e2, h', hp', hz', k'⟩ :=
          h.attach_direct_sim path z c k v L cl ll lk lv lr R cr rk rv rr
        have hcY := h.color_of_focus (Frame.right z c _ k v :: path) R cr .leaf rk rv rr
        have hrY := h.right_of_focus (Frame.right z c _ k v :: path) R cr .leaf rk rv rr
        have hpY := h.parent_of_focus (Frame.right z c _ k v :: path) R cr .leaf rk rv rr
        simp only [parentPtr_cons, Frame.ptr_right] at hpY
        refine ⟨s', ?_, h', ?_, hz', k'⟩
        · simp only [delete_splice, hc, hl, hLn, if_false, hr, hRn, hmin, hcY, hrY, hpY,
            if_true, e1, e2, bind_ok, pure_eq_ok]
        · intro f rest e
          simp only [List.nil_append, List.cons.injEq] at e
          obtain ⟨rfl, rfl⟩ := e
          exact hp'
      | cons f fs =>
        have h' : IsTree s (fill ((f :: fs) ++ Frame.right z c (.node L cl ll lk lv lr) k v ::
            path) (.node Y cy .leaf ky vy yr)) := by
          rw [fill_append, ← er]
          exact h
        have hcY := h'.color_of_focus _ Y cy .leaf ky vy yr
        have hrY := h'.right_of_focus _ Y cy .leaf ky vy yr
        have hpY := h'.parent_of_focus _ Y cy .leaf ky vy yr
        obtain ⟨hY0, hYn, hYm⟩ := h'.mem_focus _ Y cy .leaf ky vy yr
        obtain ⟨-, hYyr, hYP, -, hYyra⟩ := h'.focus_ne _ Y cy .leaf ky vy yr
        simp only [List.cons_append, parentPtr_cons] at hpY hYP hYm
        have hfr : f.ptr ∈ (Tree.node R cr rl rk rv rr).addrs := by
          rw [er]
          exact mem_addrs_fill_of_path _ (Path.mem_addrs_cons.2 (Or.inl rfl))
        have hfz : f.ptr ≠ z := fun e => hzra (e ▸ hfr)
        have hyrz : z ≠ yr.ptr s.nil := by
          refine (Tree.ptr_ne (h.mem_focus path z c _ k v _).2.1 ?_).symm
          intro hq
          apply hzra
          rw [er]
          exact mem_addrs_fill_of_mem _ (by simp [hq])
        obtain ⟨s1, e1, h1, hp1, hfr1, k1⟩ := h'.transplant_sim _ Y cy .leaf ky vy yr yr (Or.inr rfl)
        have en1 : s1.nil = s.nil := k1.keeps.nil_eq
        have h1' : IsTree s1 (fill path (.node z c (.node L cl ll lk lv lr) k v
            (fill (f :: fs) yr))) := by
          rw [fill_append] at h1
          exact h1
        obtain ⟨R', cr', rl', rk', rv', rr', eR⟩ := fill_cons_node f fs yr
        rw [eR] at h1'
        have hYm1 := (hfr1 Y hYyr hYP).trans hYm
        have hYt : Y ∉ (fill path (.node z c (.node L cl ll lk lv lr) k v
            (.node R' cr' rl' rk' rv' rr'))).addrs := by
          rw [← eR]
          have : fill path (.node z c (.node L cl ll lk lv lr) k v (fill (f :: fs) yr)) =
              fill ((f :: fs) ++ Frame.right z c (.node L cl ll lk lv lr) k v :: path) yr := by
            rw [fill_append]; rfl
          rw [this]
          exact not_mem_addrs_fill
            (((nodup_fill_iff _ _).1 h'.nodup).2.2 Y (by simp)) hYyra
        obtain ⟨s2, s3, e2, e3, h3, hz3, k3⟩ := h1'.attach_deep_sim path z c k v L cl ll lk lv lr
          R' cr' rl' rk' rv' rr' Y _ hY0 (en1 ▸ hYn) hYm1 hYt
        have h3' : IsTree s3 (fill ((f :: fs) ++ Frame.right Y c (.node L cl ll lk lv lr) ky vy ::
            path) yr) := by
          rw [fill_append, eR]
          exact h3
        simp only [List.cons_append, parentPtr_cons] at hp1
        rw [← en1] at hp1
        have hp3 := parent_of_hole f.ptr f _ yr h3' k3 rfl hp1
        rw [en1] at hp3
        refine ⟨s3, ?_, h3', ?_, hz3.trans (hfr1 z hyrz hfz.symm), k1.transC k3.toC⟩
        · simp only [delete_splice, hc, hl, hLn, if_false, hr, hRn, hmin, hcY, hrY, hpY,
            hfz, e1, e2, e3, bind_ok, pure_eq_ok]
        · intro f' rest e
          simp only [List.cons_append, List.cons.injEq] at e
          obtain ⟨rfl, rfl⟩ := e
          exact hp3

end IsTree

theorem height_fill (path : Path K V) : ∀ t : Tree K V,
    path.length + t.height ≤ (fill path t).height := by
  induction path with
  | nil => intro t; simp
  | cons f fs ih =>
    intro t
    have := ih (f.plug t)
    have h2 : t.height + 1 ≤ (f.plug t).height := by
      cases f <;> simp only [Frame.plug, Tree.height_node] <;> omega
    simp only [List.length_cons, fill_cons]
    omega

theorem length_delete_z (path : Path K V) (z : Ptr) (c : Color) (l : Tree K V) (k : K) (v : V)
    (r : Tree K V) :
    (delete_z path c l r).1.length < (fill path (.node z c l k v r)).height := by
  have h0 := height_fill path (.node z c l k v r)
  cases l with
  | leaf =>
    have ed : delete_z path c .leaf r = (path, r, c) := by cases r <;> rfl
    rw [ed]
    simp only [Tree.height_node] at h0
    show path.length < _
    omega
  | node L cl ll lk lv lr =>
    cases r with
    | leaf =>
      have ed : delete_z path c (.node L cl ll lk lv lr) .leaf =
        (path, .node L cl ll lk lv lr, c) := rfl
      rw [ed]
      simp only [Tree.height_node] at h0
      show path.length < _
      omega
    | node R cr rl rk rv rr =>
      obtain ⟨ypath, Y, cy, ky, vy, yr, -, er, -, -, hd⟩ :=
        delete_z_two path c L cl ll lk lv lr R cr rl rk rv rr
      rw [hd, er]
      have h1 := height_fill (ypath ++ Frame.right z c (.node L cl ll lk lv lr) k v :: path)
        (.node Y cy .leaf ky vy yr)
      rw [fill_append] at h1
      simp only [List.length_append, List.length_cons, Tree.height_node, fill_cons,
        Frame.plug] at h1 ⊢
      omega

theorem delete_z_not_mem (path : Path K V) (z : Ptr) (c : Color) (l : Tree K V) (k : K) (v : V)
    (r : Tree K V) (h : (fill path (.node z c l k v r)).addrs.Nodup) :
    z ∉ (fill (delete_z path c l r).1 (delete_z path c l r).2.1).addrs := by
  rw [delete_z_addrs]
  rw [addrs_fill] at h
  simp only [Tree.addrs_node, List.nodup_append, List.nodup_cons, List.mem_append,
    List.mem_cons, List.Disjoint, not_or, or_imp, forall_and, imp_false, List.forall_mem_ne',
    forall_eq] at h ⊢
  casesm* _ ∧ _
  refine ⟨⟨⟨?_, ?_⟩, ?_⟩, ?_⟩ <;> assumption

namespace IsTree

variable {s : RedBlackTree K V}

/-- The source's `delete_node(z)`: when the tree-level function gives a tree, the source returns and
its memory holds that tree. -/
theorem delete_node_sim (path : Path K V) (z : Ptr) (c : Color) (l : Tree K V) (k : K) (v : V)
    (r T' : Tree K V) (h : IsTree s (fill path (.node z c l k v r))) (hs : SentinelBlack s)
    (ht : delete_t path c l r = some T') {fuel : Nat}
    (hf : (fill path (.node z c l k v r)).height < fuel) :
    ∃ s', s.delete_node fuel z = .ok s' ∧ IsTree s' T' ∧ KeepsC s s' := by
  have hh := height_fill path (.node z c l k v r)
  have hlen := length_delete_z path z c l k v r
  have hnm := delete_z_not_mem path z c l k v r h.nodup
  obtain ⟨hz0, hzn, hzm⟩ := h.mem_focus path z c l k v r
  obtain ⟨s1, e1, h1, hp1, hm1, k1⟩ := h.delete_splice_sim path z c l k v r
    (show r.height < fuel by simp only [Tree.height_node] at hh; omega)
  have en1 : s1.nil = s.nil := k1.keeps.nil_eq
  obtain ⟨s2, e2, h2, k2, -, hfr2⟩ := h1.free_sim z _ hnm hz0 (en1 ▸ hzn) (hm1.trans hzm)
  have hs2 := k2.sentinel (k1.sent hs)
  have en2 : s2.nil = s.nil := k2.keeps.nil_eq.trans en1
  unfold delete_t at ht
  generalize delete_z path c l r = d at ht e1 h1 hp1 hnm hlen h2
  obtain ⟨path', x, oc⟩ := d
  simp only at hlen hnm e1 h1 hp1 h2 ht
  have hxz : x.ptr s.nil ≠ z := by
    refine Tree.ptr_ne hzn ?_
    intro hq
    exact hnm (mem_addrs_fill_of_mem _ hq)
  cases oc with
  | RED =>
    simp only [Option.some.injEq] at ht
    subst ht
    refine ⟨s2, ?_, h2, k1.transC k2.toC⟩
    simp only [delete_node, e1, e2, bind_ok, pure_eq_ok, if_false, reduceCtorEq]
  | BLACK =>
    simp only at ht
    obtain ⟨s3, e3, h3, k3⟩ := erase_fix_sim fuel path' x s2 T' h2 hs2
      (fun f rest e => by
        have := hp1 f rest e
        rw [en2]
        simp only [parent_of, load] at this ⊢
        rw [hfr2 _ hxz]
        exact this) ht (by omega)
    rw [en2] at e3
    refine ⟨s3, ?_, h3, k1.transC (k2.toC.transC k3)⟩
    simp only [delete_node, e1, e2, bind_ok, pure_eq_ok, if_true, e3]

/-- The source's `find_helper(key)` returns the node where the descent for `key` ends. -/
theorem find_helper_sim (comp : K → K → Bool) (key : K) {T : Tree K V} (h : IsTree s T)
    {fuel : Nat} (hf : T.height < fuel) :
    find_helper comp fuel s key = .ok ((ins_path comp false key [] T).2.ptr s.nil) := by
  have := find_loop_sim comp s key T s.nil [] fuel h.rep hf
  rw [← h.root_eq] at this
  exact this

/-- The source's `erase(key)`: when the tree-level function gives a tree, the source returns and its
memory holds that tree; a key that is not found leaves the state as it is. -/
theorem erase_sim (comp : K → K → Bool) (key : K) {T T' : Tree K V} {b : Bool}
    (h : IsTree s T) (hs : SentinelBlack s) (ht : erase_t comp key T = some (T', b))
    {fuel : Nat} (hf : T.height < fuel) :
    ∃ s', s.erase comp fuel key = .ok (s', b) ∧ IsTree s' T' ∧ SentinelBlack s' ∧
      s'.nil = s.nil ∧ s'.brk = s.brk ∧ s'.tree_size = s.tree_size - b.toNat ∧
      (b = false → s' = s) := by
  have hfind := h.find_helper_sim comp key hf
  have hfill := fill_ins_path comp false key [] T
  unfold erase_t at ht
  generalize ins_path comp false key [] T = d at ht hfind hfill
  obtain ⟨path, t⟩ := d
  cases t with
  | leaf =>
    simp only [Option.some.injEq, Prod.mk.injEq] at ht
    obtain ⟨rfl, rfl⟩ := ht
    refine ⟨s, ?_, h, hs, rfl, rfl, rfl, fun _ => rfl⟩
    simp only [erase, hfind, Tree.ptr_leaf, bind_ok, if_true, pure_eq_ok]
  | node p c l k v r =>
    simp only [Option.map_eq_some', Prod.mk.injEq] at ht
    obtain ⟨T1, ht1, rfl, rfl⟩ := ht
    simp only [fill_nil] at hfill
    rw [← hfill] at h hf
    obtain ⟨-, hpn, -⟩ := h.mem_focus path p c l k v r
    obtain ⟨s', e', h', k'⟩ := h.delete_node_sim path p c l k v r T1 hs ht1 hf
    refine ⟨{ s' with tree_size := s'.tree_size - 1 }, ?_, ?_, ?_, k'.keeps.nil_eq,
      k'.keeps.brk_eq, ?_, fun e => by cases e⟩
    · simp only [erase, hfind, Tree.ptr_node, bind_ok, hpn, if_false, e', pure_eq_ok]
    · exact h'.set_size _
    · exact k'.sent hs
    · simp only [Bool.toNat_true, k'.keeps.size_eq]

end IsTree

@[simp]
theorem Tree.nodes_leaf : (Tree.leaf : Tree K V).nodes = [] := rfl

@[simp]
theorem Tree.nodes_node (p : Ptr) (c : Color) (l : Tree K V) (k : K) (v : V)
    (r : Tree K V) : (Tree.node p c l k v r).nodes = l.nodes ++ (p, k, v) :: r.nodes := rfl

@[simp]
theorem Tree.nodes_setColor (c : Color) (t : Tree K V) : (t.setColor c).nodes = t.nodes := by
  cases t <;> rfl

theorem Tree.toList_eq_map (t : Tree K V) : t.toList = t.nodes.map Prod.snd := by
  induction t with
  | leaf => rfl
  | node p c l k v r ihl ihr => simp [ihl, ihr]

theorem Tree.addrs_eq_map (t : Tree K V) : t.addrs = t.nodes.map Prod.fst := by
  induction t with
  | leaf => rfl
  | node p c l k v r ihl ihr => simp [ihl, ihr]

theorem Tree.count_eq_length (t : Tree K V) : t.count = t.nodes.length := by
  induction t with
  | leaf => rfl
  | node p c l k v r ihl ihr => simp [ihl, ihr]; omega

theorem nodes_plug (f : Frame K V) (t : Tree K V) :
    (f.plug t).nodes = f.nodesL ++ t.nodes ++ f.nodesR := by
  cases f <;> simp [Frame.nodesL, Frame.nodesR]

theorem nodes_fill (path : Path K V) (t : Tree K V) :
    (fill path t).nodes = path.nodesL ++ t.nodes ++ path.nodesR := by
  induction path generalizing t with
  | nil => simp [Path.nodesL, Path.nodesR]
  | cons f fs ih => simp [ih, nodes_plug, Path.nodesL, Path.nodesR]

theorem nodes_fill_congr (path : Path K V) {t t' : Tree K V} (h : t.nodes = t'.nodes) :
    (fill path t).nodes = (fill path t').nodes := by
  rw [nodes_fill, nodes_fill, h]

@[simp]
theorem Frame.nodesL_setColor (c : Color) (f : Frame K V) :
    (f.setColor c).nodesL = f.nodesL := by cases f <;> rfl

@[simp]
theorem Frame.nodesR_setColor (c : Color) (f : Frame K V) :
    (f.setColor c).nodesR = f.nodesR := by cases f <;> rfl

theorem nodes_plug_recolor (fG fP : Frame K V) (z : Tree K V) :
    (((fG.setSib (fG.sib.setColor .BLACK)).setColor .RED).plug
      ((fP.setColor .BLACK).plug z)).nodes = (fG.plug (fP.plug z)).nodes := by
  cases fG <;> cases fP <;> simp [Frame.setSib, Frame.setColor, Frame.sib]

/-- The rotations and recolorings of `insert_fix` keep the in-order sequence. -/
theorem insert_fix_z_nodes (path : Path K V) (z T' : Tree K V)
    (h : insert_fix_z path z = some T') : T'.nodes = (fill path z).nodes := by
  induction path, z using insert_fix_z.induct generalizing T' with
  | case1 z => simp only [insert_fix_z, Option.some.injEq] at h; subst h; rfl
  | case2 f z hf => simp only [insert_fix_z, hf, if_true, Option.some.injEq] at h; subst h; rfl
  | case3 f z hf => simp [insert_fix_z, hf] at h
  | case4 fP fG rest z hf =>
    simp only [insert_fix_z, hf, if_true, Option.some.injEq] at h; subst h; rfl
  | case5 fP fG rest z hf hu ih =>
    simp only [insert_fix_z, hf, if_false, hu, if_true] at h
    rw [ih T' h]
    exact nodes_fill_congr rest (nodes_plug_recolor fG fP z)
  | case6 rest G c kg vg U P cp kp vp b z hf hu =>
    simp only [insert_fix_z, hf, if_false, hu, Option.some.injEq] at h
    subst h
    exact nodes_fill_congr rest (by simp)
  | case7 rest G c kg vg U P cp a kp vp Z cz zl kz vz zr hf hu =>
    simp only [insert_fix_z, hf, if_false, hu, Option.some.injEq] at h
    subst h
    exact nodes_fill_congr rest (by simp)
  | case8 rest G c U kg vg P cp a kp vp z hf hu =>
    simp only [insert_fix_z, hf, if_false, hu, Option.some.injEq] at h
    subst h
    exact nodes_fill_congr rest (by simp)
  | case9 rest G c U kg vg P cp kp vp b Z cz zl kz vz zr hf hu =>
    simp only [insert_fix_z, hf, if_false, hu, Option.some.injEq] at h
    subst h
    exact nodes_fill_congr rest (by simp)
  | case10 fP fG rest hf hu h1 h2 =>
    cases fG <;> cases fP
    · exact (h1 _ _ _ _ _ _ _ _ _ _ rfl rfl).elim
    · simp_all [insert_fix_z]
    · simp_all [insert_fix_z]
    · exact (h2 _ _ _ _ _ _ _ _ _ _ rfl rfl).elim

theorem erase_far_l_nodes (P : Ptr) (cp : Color) (x : Tree K V) (kp : K) (vp : V)
    (w t : Tree K V) (h : erase_far_l P cp x kp vp w = some t) :
    t.nodes = (Tree.node P cp x kp vp w).nodes := by
  unfold erase_far_l at h
  split at h
  · split at h
    · split at h
      · simp only [Option.some.injEq] at h; subst h; simp
      · cases h
    · simp only [Option.some.injEq] at h; subst h; simp
  · cases h

theorem erase_far_r_nodes (P : Ptr) (cp : Color) (x : Tree K V) (kp : K) (vp : V)
    (w t : Tree K V) (h : erase_far_r P cp x kp vp w = some t) :
    t.nodes = (Tree.node P cp w kp vp x).nodes := by
  unfold erase_far_r at h
  split at h
  · split at h
    · split at h
      · simp only [Option.some.injEq] at h; subst h; simp
      · cases h
    · simp only [Option.some.injEq] at h; subst h; simp
  · cases h

/-- The rotations and recolorings of `erase_fix` keep the in-order sequence. -/
theorem erase_fix_z_nodes (path : Path K V) : ∀ (x T' : Tree K V),
    erase_fix_z path x = some T' → T'.nodes = (fill path x).nodes := by
  induction path with
  | nil =>
    intro x T' h
    simp only [erase_fix_z, Option.some.injEq] at h
    subst h
    simp
  | cons f rest ih =>
    intro x T' h
    rw [erase_fix_z.eq_def] at h
    simp only at h
    split at h
    · simp only [Option.some.injEq] at h
      subst h
      exact nodes_fill_congr (f :: rest) (by simp)
    · split at h
      · split at h
        · cases h
        · split at h
          · cases h
          · split at h
            · simp only [Option.some.injEq] at h
              subst h
              exact nodes_fill_congr rest (by simp)
            · simp only [Option.map_eq_some'] at h
              obtain ⟨t, ht, rfl⟩ := h
              rw [Tree.nodes_setColor]
              have := erase_far_l_nodes _ _ _ _ _ _ _ ht
              exact nodes_fill_congr rest (by simp [this])
        · split at h
          · rw [ih _ _ h]
            exact nodes_fill_congr rest (by simp)
          · simp only [Option.map_eq_some'] at h
            obtain ⟨t, ht, rfl⟩ := h
            rw [Tree.nodes_setColor]
            have := erase_far_l_nodes _ _ _ _ _ _ _ ht
            exact nodes_fill_congr rest (by simp [this])
      · split at h
        · cases h
        · split at h
          · cases h
          · split at h
            · simp only [Option.some.injEq] at h
              subst h
              exact nodes_fill_congr rest (by simp)
            · simp only [Option.map_eq_some'] at h
              obtain ⟨t, ht, rfl⟩ := h
              rw [Tree.nodes_setColor]
              have := erase_far_r_nodes _ _ _ _ _ _ _ ht
              exact nodes_fill_congr rest (by simp [this])
        · split at h
          · rw [ih _ _ h]
            exact nodes_fill_congr rest (by simp)
          · simp only [Option.map_eq_some'] at h
            obtain ⟨t, ht, rfl⟩ := h
            rw [Tree.nodes_setColor]
            have := erase_far_r_nodes _ _ _ _ _ _ _ ht
            exact nodes_fill_congr rest (by simp [this])

theorem min_path_nodesL (t : Tree K V) : ∀ path : Path K V,
    ((min_path path t).1).nodesL = path.nodesL := by
  induction t with
  | leaf => intro path; rfl
  | node p c l k v r ihl _ =>
    intro path
    cases l with
    | leaf => rfl
    | node lp lc ll lk lv lr =>
      rw [min_path, ihl (Frame.left p c k v r :: path)]
      simp [Path.nodesL, Frame.nodesL]

/-- Taking `z` out of the tree takes its entry out of the in-order sequence. -/
theorem delete_z_nodes (path : Path K V) (c : Color) (l r : Tree K V) :
    (fill (delete_z path c l r).1 (delete_z path c l r).2.1).nodes =
      path.nodesL ++ l.nodes ++ r.nodes ++ path.nodesR := by
  cases l with
  | leaf => simp [delete_z, nodes_fill]
  | node L cl ll lk lv lr =>
    cases r with
    | leaf => simp [delete_z, nodes_fill]
    | node R cr rl rk rv rr =>
      obtain ⟨ypath, Y, cy, ky, vy, yr, hm, e, -, -, hd⟩ :=
        delete_z_two path c L cl ll lk lv lr R cr rl rk rv rr
      have h1 := min_path_nodesL (.node R cr rl rk rv rr) []
      rw [hm] at h1
      rw [hd, e]
      simp only [Path.nodesL] at h1
      simp [nodes_fill, fill_append, h1, Frame.nodesL, Frame.nodesR, Path.nodesL, Path.nodesR]

theorem delete_t_nodes (path : Path K V) (c : Color) (l r T' : Tree K V)
    (h : delete_t path c l r = some T') :
    T'.nodes = path.nodesL ++ l.nodes ++ r.nodes ++ path.nodesR := by
  rw [← delete_z_nodes path c l r]
  unfold delete_t at h
  generalize delete_z path c l r = d at h
  obtain ⟨path', x, oc⟩ := d
  cases oc with
  | RED => simp only [Option.some.injEq] at h; subst h; rfl
  | BLACK => exact erase_fix_z_nodes path' x T' h

@[simp]
theorem Tree.bh_leaf : (Tree.leaf : Tree K V).bh = 0 := rfl

@[simp]
theorem Tree.bh_node (p : Ptr) (c : Color) (l : Tree K V) (k : K) (v : V)
    (r : Tree K V) : (Tree.node p c l k v r).bh = l.bh + (if c = .BLACK then 1 else 0) := rfl

@[simp]
theorem Tree.bhOK_leaf : (Tree.leaf : Tree K V).bhOK = True := rfl

@[simp]
theorem Tree.bhOK_node (p : Ptr) (c : Color) (l : Tree K V) (k : K) (v : V)
    (r : Tree K V) : (Tree.node p c l k v r).bhOK = (l.bhOK ∧ r.bhOK ∧ l.bh = r.bh) := rfl

@[simp]
theorem Tree.noRR_leaf : (Tree.leaf : Tree K V).noRR = True := rfl

@[simp]
theorem Tree.noRR_node (p : Ptr) (c : Color) (l : Tree K V) (k : K) (v : V)
    (r : Tree K V) : (Tree.node p c l k v r).noRR =
      (l.noRR ∧ r.noRR ∧ (c = .RED → l.color = .BLACK ∧ r.color = .BLACK)) := rfl

@[simp]
theorem headColor_nil : headColor ([] : Path K V) = .BLACK := rfl

@[simp]
theorem headColor_cons (f : Frame K V) (fs : Path K V) :
    headColor (f :: fs) = f.color := rfl

@[simp]
theorem PathBH_nil (n : Nat) : PathBH ([] : Path K V) n = True := rfl

@[simp]
theorem PathBH_cons (f : Frame K V) (rest : Path K V) (n : Nat) :
    PathBH (f :: rest) n = (f.sib.bhOK ∧ f.sib.bh = n ∧
      PathBH rest (n + (if f.color = .BLACK then 1 else 0))) := rfl

@[simp]
theorem PathRR_nil : PathRR ([] : Path K V) = True := rfl

@[simp]
theorem PathRR_cons (f : Frame K V) (rest : Path K V) :
    PathRR (f :: rest) = (f.sib.noRR ∧
      (f.color = .RED → f.sib.color = .BLACK ∧ headColor rest = .BLACK) ∧ PathRR rest) := rfl

@[simp]
theorem Frame.sib_left (p : Ptr) (c : Color) (k : K) (v : V) (r : Tree K V) :
    (Frame.left p c k v r).sib = r := rfl

@[simp]
theorem Frame.sib_right (p : Ptr) (c : Color) (l : Tree K V) (k : K) (v : V) :
    (Frame.right p c l k v).sib = l := rfl

theorem color_cases (c : Color) : c = .RED ∨ c = .BLACK := by cases c <;> simp

@[simp]
theorem color_ne_black {c : Color} : ¬c = .BLACK ↔ c = .RED := by cases c <;> simp

@[simp]
theorem color_ne_red' {c : Color} : ¬c = .RED ↔ c = .BLACK := by cases c <;> simp

theorem bhOK_plug (f : Frame K V) (t : Tree K V) :
    (f.plug t).bhOK ↔ t.bhOK ∧ f.sib.bhOK ∧ f.sib.bh = t.bh := by
  cases f <;> simp <;> tauto

theorem bh_plug (f : Frame K V) (t : Tree K V) (h : f.sib.bh = t.bh) :
    (f.plug t).bh = t.bh + (if f.color = .BLACK then 1 else 0) := by
  cases f <;> simp at h ⊢
  rw [h]

theorem bhOK_fill (path : Path K V) : ∀ t : Tree K V,
    (fill path t).bhOK ↔ t.bhOK ∧ PathBH path t.bh := by
  induction path with
  | nil => intro t; simp
  | cons f rest ih =>
    intro t
    rw [fill_cons, ih, bhOK_plug, PathBH_cons]
    constructor
    · rintro ⟨⟨h1, h2, h3⟩, h4⟩
      rw [bh_plug f t h3] at h4
      exact ⟨h1, h2, h3, h4⟩
    · rintro ⟨h1, h2, h3, h4⟩
      rw [bh_plug f t h3]
      exact ⟨⟨h1, h2, h3⟩, h4⟩

theorem noRR_plug (f : Frame K V) (t : Tree K V) :
    (f.plug t).noRR ↔ t.noRR ∧ f.sib.noRR ∧
      (f.color = .RED → f.sib.color = .BLACK ∧ t.color = .BLACK) := by
  cases f <;> simp <;> tauto

@[simp]
theorem color_plug (f : Frame K V) (t : Tree K V) : (f.plug t).color = f.color := by
  cases f <;> rfl

theorem noRR_fill (path : Path K V) : ∀ t : Tree K V,
    (fill path t).noRR ↔ t.noRR ∧ PathRR path ∧ (headColor path = .RED → t.color = .BLACK) := by
  induction path with
  | nil => intro t; simp
  | cons f rest ih =>
    intro t
    rw [fill_cons, ih, noRR_plug, PathRR_cons, color_plug, headColor_cons]
    cases f.color <;> cases headColor rest <;> simp <;> tauto

theorem color_fill_cons (f : Frame K V) (fs : Path K V) (t : Tree K V) :
    (fill (f :: fs) t).color = rootColor (f :: fs) := by
  unfold rootColor
  induction fs generalizing f t with
  | nil => simp
  | cons g gs ih =>
    rw [fill_cons, ih g (f.plug t)]
    exact (ih g (f.plug .leaf)).symm

theorem rootColor_cons_cons (f g : Frame K V) (fs : Path K V) :
    rootColor (f :: g :: fs) = rootColor (g :: fs) := by
  unfold rootColor
  rw [fill_cons, color_fill_cons, rootColor]

@[simp]
theorem Tree.bh_setColor_red_black (t : Tree K V) (h : t.color = .BLACK) :
    (t.setColor .BLACK).bh = t.bh := by
  cases t with
  | leaf => rfl
  | node p c l k v r => simp at h; subst h; rfl

theorem Tree.bhOK_setColor (c : Color) (t : Tree K V) : (t.setColor c).bhOK ↔ t.bhOK := by
  cases t <;> simp [Tree.setColor]

theorem Tree.noRR_setColor_black (t : Tree K V) (h : (t.setColor .RED).noRR ∨ t.noRR) :
    (t.setColor .BLACK).noRR := by
  cases t with
  | leaf => trivial
  | node p c l k v r =>
    simp only [Tree.setColor, Tree.noRR_node] at h ⊢
    rcases h with h | h <;> exact ⟨h.1, h.2.1, fun e => by cases e⟩

@[simp]
theorem Tree.color_setColor_black (t : Tree K V) : (t.setColor .BLACK).color = .BLACK := by
  cases t <;> rfl

theorem Tree.bh_setColor_black_of_red (t : Tree K V) (h : t.color = .RED) :
    (t.setColor .BLACK).bh = t.bh + 1 := by
  cases t with
  | leaf => simp at h
  | node p c l k v r => simp at h; subst h; simp [Tree.setColor]

theorem Tree.bh_mem_pathBlacks (t : Tree K V) : t.bh ∈ t.pathBlacks := by
  induction t with
  | leaf => simp [Tree.pathBlacks]
  | node p c l k v r ihl _ =>
    simp only [Tree.pathBlacks, Tree.bh_node, List.mem_map, List.mem_append]
    exact ⟨l.bh, Or.inl ihl, rfl⟩

/-- Black-height consistency says that every path from the root down to the sentinel
passes the same number of BLACK nodes (and so does every path from any other node). -/
theorem Tree.bhOK_iff_pathBlacks (t : Tree K V) : t.bhOK ↔ ∀ n ∈ t.pathBlacks, n = t.bh := by
  induction t with
  | leaf => simp [Tree.pathBlacks]
  | node p c l k v r ihl ihr =>
    simp only [Tree.bhOK_node, Tree.pathBlacks, Tree.bh_node, List.mem_map, List.mem_append,
      forall_exists_index, and_imp]
    constructor
    · rintro ⟨h1, h2, h3⟩ n m hm rfl
      rcases hm with hm | hm
      · rw [ihl.1 h1 m hm]
      · rw [ihr.1 h2 m hm, h3]
    · intro h
      have hl : ∀ m ∈ l.pathBlacks, m = l.bh := by
        intro m hm
        have := h _ m (Or.inl hm) rfl
        omega
      have hr : ∀ m ∈ r.pathBlacks, m = l.bh := by
        intro m hm
        have := h _ m (Or.inr hm) rfl
        omega
      have e : l.bh = r.bh := (hr _ r.bh_mem_pathBlacks).symm
      exact ⟨ihl.2 hl, ihr.2 (fun m hm => e ▸ hr m hm), e⟩

/-- The loop of `insert_fix` restores the invariants: started at a RED node `z` that is the
only place where a RED node may have a RED parent, it ends with a tree that satisfies
them once its root is BLACK. -/
theorem insert_fix_z_rb (path : Path K V) (z T' : Tree K V)
    (h : insert_fix_z path z = some T') (hc : z.color = .RED) (hz : z.noRR) (hb : z.bhOK)
    (hpb : PathBH path z.bh) (hpr : PathRR path) :
    T'.bhOK ∧ (T'.setColor .BLACK).noRR := by
  induction path, z using insert_fix_z.induct generalizing T' with
  | case1 z =>
    simp only [insert_fix_z, Option.some.injEq] at h
    subst h
    exact ⟨hb, Tree.noRR_setColor_black _ (Or.inr hz)⟩
  | case2 f z hf =>
    simp only [insert_fix_z, hf, if_true, Option.some.injEq] at h
    subst h
    have h1 : (fill [f] z).bhOK := (bhOK_fill [f] z).2 ⟨hb, hpb⟩
    have h2 : (fill [f] z).noRR := (noRR_fill [f] z).2 ⟨hz, hpr, by simp [hf]⟩
    exact ⟨h1, Tree.noRR_setColor_black _ (Or.inr h2)⟩
  | case3 f z hf => simp [insert_fix_z, hf] at h
  | case4 fP fG rest z hf =>
    simp only [insert_fix_z, hf, if_true, Option.some.injEq] at h
    subst h
    have h1 := (bhOK_fill (fP :: fG :: rest) z).2 ⟨hb, hpb⟩
    have h2 := (noRR_fill (fP :: fG :: rest) z).2 ⟨hz, hpr, by simp [hf]⟩
    exact ⟨h1, Tree.noRR_setColor_black _ (Or.inr h2)⟩
  | case5 fP fG rest z hf hu ih =>
    simp only [insert_fix_z, hf, if_false, hu, if_true] at h
    simp only [color_ne_black] at hf
    simp only [PathBH_cons, PathRR_cons, hf, headColor_cons, forall_true_left,
      reduceCtorEq, if_false, Nat.add_zero] at hpb hpr
    obtain ⟨hsb, hsh, hgb, hgh, hrb⟩ := hpb
    obtain ⟨hsr, ⟨hsc, hgc⟩, hgr, -, hrr⟩ := hpr
    simp only [hgc, if_true] at hrb
    refine ih T' h ?_ ?_ ?_ ?_ hrr
    · cases fG <;> rfl
    · cases fG <;> cases fP <;>
        simp_all [Frame.setSib, Frame.setColor, Tree.noRR_setColor_black]
    · cases fG <;> cases fP <;>
        simp_all [Frame.setSib, Frame.setColor, Tree.bhOK_setColor,
          Tree.bh_setColor_black_of_red]
    · cases fG <;> cases fP <;>
        simp_all [Frame.setSib, Frame.setColor, Tree.bhOK_setColor,
          Tree.bh_setColor_black_of_red]
  | case6 rest G c kg vg U P cp kp vp b z hf hu =>
    simp only [insert_fix_z, hf, if_false, hu, Option.some.injEq] at h
    subst h
    simp only [Frame.color_left, Frame.color_right, Frame.sib_left, Frame.sib_right,
      color_ne_black, color_ne_red'] at hf hu
    simp only [PathBH_cons, PathRR_cons, hf, headColor_cons, forall_true_left,
      reduceCtorEq, if_false, Nat.add_zero, Frame.color_left, Frame.color_right,
      Frame.sib_left, Frame.sib_right] at hpb hpr
    obtain ⟨hsb, hsh, hgb, hgh, hrb⟩ := hpb
    obtain ⟨hsr, ⟨hsc, hgc⟩, hgr, -, hrr⟩ := hpr
    simp only [hgc, if_true] at hrb
    refine ⟨(bhOK_fill rest _).2 ?_, Tree.noRR_setColor_black _ (Or.inr ((noRR_fill rest _).2 ?_))⟩
    · simp_all
    · simp_all
  | case7 rest G c kg vg U P cp a kp vp Z cz zl kz vz zr hf hu =>
    simp only [insert_fix_z, hf, if_false, hu, Option.some.injEq] at h
    subst h
    simp only [Frame.color_left, Frame.color_right, Frame.sib_left, Frame.sib_right,
      color_ne_black, color_ne_red'] at hf hu
    simp only [PathBH_cons, PathRR_cons, hf, headColor_cons, forall_true_left,
      reduceCtorEq, if_false, Nat.add_zero, Frame.color_left, Frame.color_right,
      Frame.sib_left, Frame.sib_right] at hpb hpr
    obtain ⟨hsb, hsh, hgb, hgh, hrb⟩ := hpb
    obtain ⟨hsr, ⟨hsc, hgc⟩, hgr, -, hrr⟩ := hpr
    simp only [hgc, if_true] at hrb
    refine ⟨(bhOK_fill rest _).2 ?_, Tree.noRR_setColor_black _ (Or.inr ((noRR_fill rest _).2 ?_))⟩
    · simp_all
    · simp_all
  | case8 rest G c U kg vg P cp a kp vp z hf hu =>
    simp only [insert_fix_z, hf, if_false, hu, Option.some.injEq] at h
    subst h
    simp only [Frame.color_left, Frame.color_right, Frame.sib_left, Frame.sib_right,
      color_ne_black, color_ne_red'] at hf hu
    simp only [PathBH_cons, PathRR_cons, hf, headColor_cons, forall_true_left,
      reduceCtorEq, if_false, Nat.add_zero, Frame.color_left, Frame.color_right,
      Frame.sib_left, Frame.sib_right] at hpb hpr
    obtain ⟨hsb, hsh, hgb, hgh, hrb⟩ := hpb
    obtain ⟨hsr, ⟨hsc, hgc⟩, hgr, -, hrr⟩ := hpr
    simp only [hgc, if_true] at hrb
    refine ⟨(bhOK_fill rest _).2 ?_, Tree.noRR_setColor_black _ (Or.inr ((noRR_fill rest _).2 ?_))⟩
    · simp_all
    · simp_all
  | case9 rest G c U kg vg P cp kp vp b Z cz zl kz vz zr hf hu =>
    simp only [insert_fix_z, hf, if_false, hu, Option.some.injEq] at h
    subst h
    simp only [Frame.color_left, Frame.color_right, Frame.sib_left, Frame.sib_right,
      color_ne_black, color_ne_red'] at hf hu
    simp only [PathBH_cons, PathRR_cons, hf, headColor_cons, forall_true_left,
      reduceCtorEq, if_false, Nat.add_zero, Frame.color_left, Frame.color_right,
      Frame.sib_left, Frame.sib_right] at hpb hpr
    obtain ⟨hsb, hsh, hgb, hgh, hrb⟩ := hpb
    obtain ⟨hsr, ⟨hsc, hgc⟩, hgr, -, hrr⟩ := hpr
    simp only [hgc, if_true] at hrb
    refine ⟨(bhOK_fill rest _).2 ?_, Tree.noRR_setColor_black _ (Or.inr ((noRR_fill rest _).2 ?_))⟩
    · simp_all
    · simp_all
  | case10 fP fG rest hf hu h1 h2 => simp at hc

/-- With a BLACK root, the loop of `insert_fix` never follows a link that is not there. -/
theorem insert_fix_z_isSome (path : Path K V) (z : Tree K V) (hz : z ≠ .leaf)
    (hroot : path ≠ [] → rootColor path = .BLACK) : ∃ T', insert_fix_z path z = some T' := by
  induction path, z using insert_fix_z.induct with
  | case1 z => exact ⟨_, rfl⟩
  | case2 f z hf => exact ⟨_, by simp only [insert_fix_z, hf, if_true]; rfl⟩
  | case3 f z hf =>
    have := hroot (by simp)
    simp only [rootColor, fill_cons, fill_nil, color_plug] at this
    exact absurd this hf
  | case4 fP fG rest z hf => exact ⟨_, by simp only [insert_fix_z, hf, if_true]; rfl⟩
  | case5 fP fG rest z hf hu ih =>
    simp only [insert_fix_z, hf, if_false, hu, if_true]
    refine ih ?_ ?_
    · cases fG <;> simp [Frame.setSib, Frame.setColor]
    · intro hne
      have := hroot (by simp)
      rw [rootColor_cons_cons] at this
      cases rest with
      | nil => exact absurd rfl hne
      | cons g gs => rw [rootColor_cons_cons] at this; exact this
  | case6 rest G c kg vg U P cp kp vp b z hf hu =>
    exact ⟨_, by simp only [insert_fix_z, hf, if_false, hu]; rfl⟩
  | case7 rest G c kg vg U P cp a kp vp Z cz zl kz vz zr hf hu =>
    exact ⟨_, by simp only [insert_fix_z, hf, if_false, hu]; rfl⟩
  | case8 rest G c U kg vg P cp a kp vp z hf hu =>
    exact ⟨_, by simp only [insert_fix_z, hf, if_false, hu]; rfl⟩
  | case9 rest G c U kg vg P cp kp vp b Z cz zl kz vz zr hf hu =>
    exact ⟨_, by simp only [insert_fix_z, hf, if_false, hu]; rfl⟩
  | case10 fP fG rest hf hu h1 h2 => exact absurd rfl hz

/-- What `insert_t` returns when the descent ends at a node: the tree as it was. -/
theorem insert_t_found (comp : K → K → Bool) (dup : Bool) (z : Ptr) (key : K) (val : V)
    (T : Tree K V) (path : Path K V) (p : Ptr) (c : Color) (l : Tree K V) (k : K) (v : V)
    (r : Tree K V) (hp : ins_path comp dup key [] T = (path, .node p c l k v r)) :
    insert_t comp dup z key val T = some (T, false) := by
  simp only [insert_t, hp]

/-- What `insert_t` returns when the descent ends at the sentinel. -/
theorem insert_t_new (comp : K → K → Bool) (dup : Bool) (z : Ptr) (key : K) (val : V)
    (T : Tree K V) (path : Path K V) (hp : ins_path comp dup key [] T = (path, .leaf)) :
    insert_t comp dup z key val T =
      (insert_fix_z path (.node z .RED .leaf key val .leaf)).map
        fun T' => (T'.setColor .BLACK, true) := by
  simp only [insert_t, hp]

/-- With a BLACK root, `insert` never follows a link that is not there. -/
theorem insert_t_isSome (comp : K → K → Bool) (dup : Bool) (z : Ptr) (key : K) (val : V)
    (T : Tree K V) (hT : T.color = .BLACK) :
    ∃ T' b, insert_t comp dup z key val T = some (T', b) := by
  have hfill := fill_ins_path comp dup key [] T
  generalize hp : ins_path comp dup key [] T = d at hfill
  obtain ⟨path, t⟩ := d
  cases t with
  | node p c l k v r => exact ⟨T, false, insert_t_found comp dup z key val T path p c l k v r hp⟩
  | leaf =>
    obtain ⟨T', hT'⟩ := insert_fix_z_isSome path (.node z .RED .leaf key val .leaf)
      (by simp) (fun _ => by
        simp only [fill_nil] at hfill
        rw [rootColor, hfill, hT])
    exact ⟨T'.setColor .BLACK, true, by rw [insert_t_new comp dup z key val T path hp, hT']; rfl⟩

/-- The tree-level `insert` keeps the red-black invariants. -/
theorem insert_t_rb (comp : K → K → Bool) (dup : Bool) (z : Ptr) (key : K) (val : V)
    (T T' : Tree K V) (b : Bool) (h : insert_t comp dup z key val T = some (T', b))
    (hc : T.color = .BLACK) (hr : T.noRR) (hb : T.bhOK) :
    T'.color = .BLACK ∧ T'.noRR ∧ T'.bhOK := by
  have hfill := fill_ins_path comp dup key [] T
  generalize hp : ins_path comp dup key [] T = d at hfill
  obtain ⟨path, t⟩ := d
  cases t with
  | node p c l k v r =>
    rw [insert_t_found comp dup z key val T path p c l k v r hp] at h
    simp only [Option.some.injEq, Prod.mk.injEq] at h
    obtain ⟨rfl, -⟩ := h
    exact ⟨hc, hr, hb⟩
  | leaf =>
    rw [insert_t_new comp dup z key val T path hp] at h
    simp only [Option.map_eq_some', Prod.mk.injEq] at h
    obtain ⟨T1, h1, rfl, -⟩ := h
    simp only [fill_nil] at hfill
    rw [← hfill] at hr hb
    have hr' := (noRR_fill path .leaf).1 hr
    have hb' := (bhOK_fill path .leaf).1 hb
    obtain ⟨h2, h3⟩ := insert_fix_z_rb path _ T1 h1 rfl (by simp) (by simp) hb'.2 hr'.2.1
    exact ⟨Tree.color_setColor_black _, h3, (Tree.bhOK_setColor _ _).2 h2⟩

/-- The tree-level `insert` adds one entry to the in-order sequence, at the place where
the descent ended. -/
theorem insert_t_nodes (comp : K → K → Bool) (dup : Bool) (z : Ptr) (key : K) (val : V)
    (T T' : Tree K V) (path : Path K V) (hp : ins_path comp dup key [] T = (path, .leaf))
    (h : insert_t comp dup z key val T = some (T', true)) :
    T.nodes = path.nodesL ++ path.nodesR ∧
      T'.nodes = path.nodesL ++ (z, key, val) :: path.nodesR := by
  have hfill := fill_ins_path comp dup key [] T
  rw [hp] at hfill
  simp only [fill_nil] at hfill
  rw [insert_t_new comp dup z key val T path hp] at h
  simp only [Option.map_eq_some', Prod.mk.injEq, and_true] at h
  obtain ⟨T1, h1, rfl⟩ := h
  constructor
  · rw [← hfill, nodes_fill]; simp
  · rw [Tree.nodes_setColor, insert_fix_z_nodes path _ T1 h1, nodes_fill]; simp

theorem Tree.color_eq_red_node {t : Tree K V} (h : t.color = .RED) :
    ∃ p l k v r, t = .node p .RED l k v r := by
  cases t with
  | leaf => simp at h
  | node p c l k v r => simp at h; subst h; exact ⟨p, l, k, v, r, rfl⟩

/-- The end of an iteration of `erase_fix` whose sibling has a RED child: the subtree
it builds has the black height that was missing and no RED node with a RED child. -/
theorem erase_far_l_rb (P : Ptr) (cp : Color) (x : Tree K V) (kp : K) (vp : V) (W : Ptr)
    (wl : Tree K V) (wk : K) (wv : V) (wr : Tree K V) (hx : x.noRR) (hxb : x.bhOK)
    (hw : wl.noRR ∧ wr.noRR) (hwb : wl.bhOK ∧ wr.bhOK ∧ wl.bh = wr.bh) (hbh : wl.bh = x.bh)
    (hnb : ¬(wl.color = .BLACK ∧ wr.color = .BLACK)) :
    ∃ t, erase_far_l P cp x kp vp (.node W .BLACK wl wk wv wr) = some t ∧ t.noRR ∧ t.bhOK ∧
      t.bh = x.bh + 1 + (if cp = .BLACK then 1 else 0) ∧ t.color = cp := by
  by_cases hr : wr.color = .BLACK
  · have hl : wl.color = .RED := by
      rcases color_cases wl.color with h | h
      · exact h
      · exact absurd ⟨h, hr⟩ hnb
    obtain ⟨WL, a, k', v', b, rfl⟩ := Tree.color_eq_red_node hl
    refine ⟨_, by simp only [erase_far_l, hr, if_true]; rfl, ?_⟩
    simp_all
  · have hr' : wr.color = .RED := color_ne_black.1 hr
    obtain ⟨WR, a, k', v', b, rfl⟩ := Tree.color_eq_red_node hr'
    refine ⟨_, by simp only [erase_far_l, hr, if_false]; rfl, ?_⟩
    simp_all [Tree.setColor]

theorem erase_far_r_rb (P : Ptr) (cp : Color) (x : Tree K V) (kp : K) (vp : V) (W : Ptr)
    (wl : Tree K V) (wk : K) (wv : V) (wr : Tree K V) (hx : x.noRR) (hxb : x.bhOK)
    (hw : wl.noRR ∧ wr.noRR) (hwb : wl.bhOK ∧ wr.bhOK ∧ wl.bh = wr.bh) (hbh : wl.bh = x.bh)
    (hnb : ¬(wr.color = .BLACK ∧ wl.color = .BLACK)) :
    ∃ t, erase_far_r P cp x kp vp (.node W .BLACK wl wk wv wr) = some t ∧ t.noRR ∧ t.bhOK ∧
      t.bh = x.bh + 1 + (if cp = .BLACK then 1 else 0) ∧ t.color = cp := by
  by_cases hl : wl.color = .BLACK
  · have hr : wr.color = .RED := by
      rcases color_cases wr.color with h | h
      · exact h
      · exact absurd ⟨h, hl⟩ hnb
    obtain ⟨WR, a, k', v', b, rfl⟩ := Tree.color_eq_red_node hr
    refine ⟨_, by simp only [erase_far_r, hl, if_true]; rfl, ?_⟩
    simp_all
  · have hl' : wl.color = .RED := color_ne_black.1 hl
    obtain ⟨WL, a, k', v', b, rfl⟩ := Tree.color_eq_red_node hl'
    refine ⟨_, by simp only [erase_far_r, hl, if_false]; rfl, ?_⟩
    simp_all [Tree.setColor]

theorem color_fill_black (path : Path K V) (t : Tree K V)
    (hroot : path ≠ [] → rootColor path = .BLACK) (ht : t.color = .BLACK) :
    (fill path t).color = .BLACK := by
  cases path with
  | nil => exact ht
  | cons f fs => rw [color_fill_cons]; exact hroot (by simp)

theorem rootColor_tail (f : Frame K V) (rest : Path K V)
    (hroot : f :: rest ≠ [] → rootColor (f :: rest) = .BLACK) :
    rest ≠ [] → rootColor rest = .BLACK := by
  intro hne
  cases rest with
  | nil => exact absurd rfl hne
  | cons g gs =>
    have := hroot (by simp)
    rw [rootColor_cons_cons] at this
    exact this

theorem Tree.noRR_of_setColor_black {t : Tree K V} (h : (t.setColor .BLACK).noRR)
    (hc : t.color = .BLACK) : t.noRR := by
  cases t with
  | leaf => trivial
  | node p c l k v r => simp at hc; subst hc; exact h

/-- The loop of `erase_fix` restores the invariants: started at a subtree `x` that is one
BLACK node short, in a tree that otherwise satisfies them, it never follows a link that
is not there and ends with a tree that satisfies them. -/
theorem erase_fix_z_rb (path : Path K V) : ∀ (x : Tree K V), (x.setColor .BLACK).noRR →
    x.bhOK → PathBH path (x.bh + 1) → PathRR path →
    (path ≠ [] → rootColor path = .BLACK) →
    ∃ T', erase_fix_z path x = some T' ∧ T'.color = .BLACK ∧ T'.noRR ∧ T'.bhOK := by
  induction path with
  | nil =>
    intro x hx hxb _ _ _
    exact ⟨x.setColor .BLACK, rfl, Tree.color_setColor_black _, hx, (Tree.bhOK_setColor _ _).2 hxb⟩
  | cons f rest ih =>
    intro x hx hxb hpb hpr hroot
    have hroot' := rootColor_tail f rest hroot
    by_cases hred : x.color = .RED
    · refine ⟨fill (f :: rest) (x.setColor .BLACK), ?_, ?_, ?_, ?_⟩
      · rw [erase_fix_z.eq_def]
        simp only [hred, if_true]
      · exact color_fill_black _ _ hroot (Tree.color_setColor_black _)
      · exact (noRR_fill _ _).2 ⟨hx, hpr, fun _ => Tree.color_setColor_black _⟩
      · refine (bhOK_fill _ _).2 ⟨(Tree.bhOK_setColor _ _).2 hxb, ?_⟩
        rw [Tree.bh_setColor_black_of_red _ hred]
        exact hpb
    · have hblack : x.color = .BLACK := color_ne_red'.1 hred
      have hxr := Tree.noRR_of_setColor_black hx hblack
      cases f with
      | left P cp kp vp w =>
        simp only [PathBH_cons, PathRR_cons, Frame.sib_left, Frame.color_left] at hpb hpr
        obtain ⟨hwb, hwh, hrb⟩ := hpb
        obtain ⟨hwr, hcw, hrr⟩ := hpr
        cases w with
        | leaf => simp at hwh
        | node W cw wl wk wv wr =>
          cases cw with
          | RED =>
            have hcp : cp = .BLACK := by
              rcases color_cases cp with e | e
              · exact absurd (hcw e).1 (by simp)
              · exact e
            subst hcp
            simp only [Tree.bh_node, if_true, if_false, reduceCtorEq, Nat.add_zero,
              Tree.bhOK_node, Tree.noRR_node, forall_true_left] at hwh hwb hwr hrb
            cases wl with
            | leaf => simp at hwh
            | node W2 c2 al ak av ar =>
              obtain ⟨hw2r, hwrr, hc2, hcwr⟩ := hwr
              simp only [Tree.color_node] at hc2
              subst hc2
              simp only [Tree.bh_node, if_true, Nat.add_right_cancel_iff, Tree.bhOK_node,
                Tree.noRR_node] at hwh hwb hw2r
              by_cases hb : al.color = .BLACK ∧ ar.color = .BLACK
              · refine ⟨fill rest (.node W .BLACK (.node P .BLACK x kp vp
                  (.node W2 .RED al ak av ar)) wk wv wr), ?_, color_fill_black rest _ hroot' rfl,
                  (noRR_fill rest _).2 ⟨?_, hrr, fun _ => rfl⟩, (bhOK_fill rest _).2 ⟨?_, ?_⟩⟩
                · rw [erase_fix_z.eq_def]
                  simp only [hred, if_false, hb, and_self, if_true]
                · simp_all
                · simp_all
                  omega
                · have e : (Tree.node W .BLACK (.node P .BLACK x kp vp
                      (.node W2 .RED al ak av ar)) wk wv wr).bh = x.bh + 1 + 1 := by
                    simp only [Tree.bh_node, if_true]
                  rw [e]; exact hrb
              · obtain ⟨t, ht, ht1, ht2, ht3, ht4⟩ := erase_far_l_rb P .RED x kp vp W2 al ak av ar
                  hxr hxb ⟨hw2r.1, hw2r.2.1⟩ hwb.1 hwh hb
                refine ⟨(fill rest (.node W .BLACK t wk wv wr)).setColor .BLACK, ?_,
                  Tree.color_setColor_black _, ?_, ?_⟩
                · rw [erase_fix_z.eq_def]
                  simp only [hred, if_false, hb, ht, Option.map_some']
                · refine Tree.noRR_setColor_black _ (Or.inr ((noRR_fill _ _).2
                    ⟨?_, hrr, fun _ => rfl⟩))
                  simp_all
                · refine (Tree.bhOK_setColor _ _).2 ((bhOK_fill _ _).2 ⟨?_, ?_⟩)
                  · simp_all
                    omega
                  · have e : (Tree.node W .BLACK t wk wv wr).bh = x.bh + 1 + 1 := by
                      simp only [Tree.bh_node, if_true, ht3, if_false, reduceCtorEq]
                    rw [e]; exact hrb
          | BLACK =>
            simp only [Tree.bh_node, if_true, Nat.add_right_cancel_iff, Tree.bhOK_node,
              Tree.noRR_node] at hwh hwb hwr
            by_cases hb : wl.color = .BLACK ∧ wr.color = .BLACK
            · obtain ⟨T', h1, h2⟩ := ih (.node P cp x kp vp (.node W .RED wl wk wv wr))
                (by simp_all [Tree.setColor]) (by simp_all)
                (by
                  have e : (Tree.node P cp x kp vp (.node W .RED wl wk wv wr)).bh + 1 =
                      x.bh + 1 + (if cp = .BLACK then 1 else 0) := by
                    simp only [Tree.bh_node]; omega
                  rw [e]; exact hrb) hrr hroot'
              refine ⟨T', ?_, h2⟩
              rw [erase_fix_z.eq_def]
              simp only [hred, if_false, hb, and_self, if_true]
              exact h1
            · obtain ⟨t, ht, ht1, ht2, ht3, ht4⟩ := erase_far_l_rb P cp x kp vp W wl wk wv wr
                hxr hxb ⟨hwr.1, hwr.2.1⟩ hwb hwh hb
              refine ⟨(fill rest t).setColor .BLACK, ?_, Tree.color_setColor_black _, ?_, ?_⟩
              · rw [erase_fix_z.eq_def]
                simp only [hred, if_false, hb, ht, Option.map_some']
              · refine Tree.noRR_setColor_black _ (Or.inr ((noRR_fill _ _).2 ⟨ht1, hrr, ?_⟩))
                intro hh
                rw [ht4]
                rcases color_cases cp with e | e
                · exact absurd (hcw e).2 (by rw [hh]; simp)
                · exact e
              · refine (Tree.bhOK_setColor _ _).2 ((bhOK_fill _ _).2 ⟨ht2, ?_⟩)
                rw [ht3]
                exact hrb
      | right P cp w kp vp =>
        simp only [PathBH_cons, PathRR_cons, Frame.sib_right, Frame.color_right] at hpb hpr
        obtain ⟨hwb, hwh, hrb⟩ := hpb
        obtain ⟨hwr, hcw, hrr⟩ := hpr
        cases w with
        | leaf => simp at hwh
        | node W cw wl wk wv wr =>
          cases cw with
          | RED =>
            have hcp : cp = .BLACK := by
              rcases color_cases cp with e | e
              · exact absurd (hcw e).1 (by simp)
              · exact e
            subst hcp
            simp only [Tree.bh_node, if_true, if_false, reduceCtorEq, Nat.add_zero,
              Tree.bhOK_node, Tree.noRR_node, forall_true_left] at hwh hwb hwr hrb
            cases wr with
            | leaf =>
              obtain ⟨-, -, e⟩ := hwb
              simp at e
              omega
            | node W2 c2 al ak av ar =>
              obtain ⟨hwlr, hw2r, hcwl, hc2⟩ := hwr
              simp only [Tree.color_node] at hc2
              subst hc2
              simp only [Tree.bh_node, if_true, Tree.bhOK_node, Tree.noRR_node] at hwb hw2r
              have hal : al.bh = x.bh := by omega
              by_cases hb : ar.color = .BLACK ∧ al.color = .BLACK
              · refine ⟨fill rest (.node W .BLACK wl wk wv (.node P .BLACK
                  (.node W2 .RED al ak av ar) kp vp x)), ?_, color_fill_black rest _ hroot' rfl,
                  (noRR_fill rest _).2 ⟨?_, hrr, fun _ => rfl⟩, (bhOK_fill rest _).2 ⟨?_, ?_⟩⟩
                · rw [erase_fix_z.eq_def]
                  simp only [hred, if_false, hb, and_self, if_true]
                · simp_all
                · simp_all
                · have e : (Tree.node W .BLACK wl wk wv (.node P .BLACK
                      (.node W2 .RED al ak av ar) kp vp x)).bh = x.bh + 1 + 1 := by
                    simp only [Tree.bh_node, if_true, hwh]
                  rw [e]; exact hrb
              · obtain ⟨t, ht, ht1, ht2, ht3, ht4⟩ := erase_far_r_rb P .RED x kp vp W2 al ak av ar
                  hxr hxb ⟨hw2r.1, hw2r.2.1⟩ hwb.2.1 hal hb
                refine ⟨(fill rest (.node W .BLACK wl wk wv t)).setColor .BLACK, ?_,
                  Tree.color_setColor_black _, ?_, ?_⟩
                · rw [erase_fix_z.eq_def]
                  simp only [hred, if_false, hb, ht, Option.map_some']
                · refine Tree.noRR_setColor_black _ (Or.inr ((noRR_fill _ _).2
                    ⟨?_, hrr, fun _ => rfl⟩))
                  simp_all
                · refine (Tree.bhOK_setColor _ _).2 ((bhOK_fill _ _).2 ⟨?_, ?_⟩)
                  · simp_all
                  · have e : (Tree.node W .BLACK wl wk wv t).bh = x.bh + 1 + 1 := by
                      simp only [Tree.bh_node, if_true, hwh]
                    rw [e]; exact hrb
          | BLACK =>
            simp only [Tree.bh_node, if_true, Nat.add_right_cancel_iff, Tree.bhOK_node,
              Tree.noRR_node] at hwh hwb hwr
            by_cases hb : wr.color = .BLACK ∧ wl.color = .BLACK
            · obtain ⟨T', h1, h2⟩ := ih (.node P cp (.node W .RED wl wk wv wr) kp vp x)
                (by simp_all [Tree.setColor]) (by simp_all)
                (by
                  have e : (Tree.node P cp (.node W .RED wl wk wv wr) kp vp x).bh + 1 =
                      x.bh + 1 + (if cp = .BLACK then 1 else 0) := by
                    simp only [Tree.bh_node, if_false, reduceCtorEq]; omega
                  rw [e]; exact hrb) hrr hroot'
              refine ⟨T', ?_, h2⟩
              rw [erase_fix_z.eq_def]
              simp only [hred, if_false, hb, and_self, if_true]
              exact h1
            · obtain ⟨t, ht, ht1, ht2, ht3, ht4⟩ := erase_far_r_rb P cp x kp vp W wl wk wv wr
                hxr hxb ⟨hwr.1, hwr.2.1⟩ hwb hwh hb
              refine ⟨(fill rest t).setColor .BLACK, ?_, Tree.color_setColor_black _, ?_, ?_⟩
              · rw [erase_fix_z.eq_def]
                simp only [hred, if_false, hb, ht, Option.map_some']
              · refine Tree.noRR_setColor_black _ (Or.inr ((noRR_fill _ _).2 ⟨ht1, hrr, ?_⟩))
                intro hh
                rw [ht4]
                rcases color_cases cp with e | e
                · exact absurd (hcw e).2 (by rw [hh]; simp)
                · exact e
              · refine (Tree.bhOK_setColor _ _).2 ((bhOK_fill _ _).2 ⟨ht2, ?_⟩)
                rw [ht3]
                exact hrb

theorem PathBH_congr (p : Path K V) (f f' : Frame K V) (q : Path K V)
    (hc : f.color = f'.color) (hs : f.sib = f'.sib) :
    ∀ n, PathBH (p ++ f :: q) n ↔ PathBH (p ++ f' :: q) n := by
  induction p with
  | nil => intro n; simp [hc, hs]
  | cons g gs ih => intro n; simp [ih]

theorem headColor_congr (p : Path K V) (f f' : Frame K V) (q : Path K V)
    (hc : f.color = f'.color) : headColor (p ++ f :: q) = headColor (p ++ f' :: q) := by
  cases p with
  | nil => simpa using hc
  | cons g gs => rfl

theorem PathRR_congr (p : Path K V) (f f' : Frame K V) (q : Path K V)
    (hc : f.color = f'.color) (hs : f.sib = f'.sib) :
    PathRR (p ++ f :: q) ↔ PathRR (p ++ f' :: q) := by
  induction p with
  | nil => simp [hc, hs]
  | cons g gs ih => simp [ih, headColor_congr gs f f' q hc]

theorem rootColor_congr (p : Path K V) (f f' : Frame K V) (q : Path K V)
    (hc : f.color = f'.color) : rootColor (p ++ f :: q) = rootColor (p ++ f' :: q) := by
  unfold rootColor
  rw [fill_append, fill_append]
  cases q with
  | nil => simp [hc]
  | cons g gs =>
    rw [color_fill_cons, color_fill_cons, rootColor_cons_cons, rootColor_cons_cons]

/-- What is left to do after a node with at most one child has been taken out: `x` took
its place and `oc` was its color. -/
theorem splice_rb (path : Path K V) (x : Tree K V) (oc : Color) (hx : x.noRR) (hxb : x.bhOK)
    (hpr : PathRR path) (hpb : PathBH path (x.bh + (if oc = .BLACK then 1 else 0)))
    (hroot : path ≠ [] → rootColor path = .BLACK)
    (hcol : oc = .RED → x.color = .BLACK ∧ path ≠ []) :
    ∃ T', (match (path, x, oc) with
        | (path', x, .BLACK) => erase_fix_z path' x
        | (path', x, .RED) => some (fill path' x)) = some T' ∧
      T'.color = .BLACK ∧ T'.noRR ∧ T'.bhOK := by
  cases oc with
  | RED =>
    obtain ⟨h1, h2⟩ := hcol rfl
    refine ⟨fill path x, rfl, ?_, (noRR_fill _ _).2 ⟨hx, hpr, fun _ => h1⟩,
      (bhOK_fill _ _).2 ⟨hxb, by simpa using hpb⟩⟩
    cases path with
    | nil => exact absurd rfl h2
    | cons f fs => rw [color_fill_cons]; exact hroot h2
  | BLACK =>
    exact erase_fix_z_rb path x (Tree.noRR_setColor_black _ (Or.inr hx)) hxb
      (by simpa using hpb) hpr hroot

/-- The tree-level `delete_node` never follows a link that is not there and keeps the
red-black invariants. -/
theorem delete_t_rb (path : Path K V) (z : Ptr) (c : Color) (l : Tree K V) (k : K) (v : V)
    (r : Tree K V) (hc : (fill path (.node z c l k v r)).color = .BLACK)
    (hr : (fill path (.node z c l k v r)).noRR) (hb : (fill path (.node z c l k v r)).bhOK) :
    ∃ T', delete_t path c l r = some T' ∧ T'.color = .BLACK ∧ T'.noRR ∧ T'.bhOK := by
  unfold delete_t
  cases l with
  | leaf =>
    have ed : delete_z path c .leaf r = (path, r, c) := by cases r <;> rfl
    rw [ed]
    obtain ⟨h1, h2, h3⟩ := (noRR_fill _ _).1 hr
    obtain ⟨h4, h5⟩ := (bhOK_fill _ _).1 hb
    simp only [Tree.noRR_node, Tree.bhOK_node, Tree.bh_node, Tree.bh_leaf, Tree.color_node,
      Tree.color_leaf, true_and, Nat.zero_add] at h1 h3 h4 h5
    refine splice_rb path r c h1.2.1 h4.2.1 h2
      (by rw [← h4.2.2, Nat.zero_add]; exact h5) ?_ ?_
    · intro hne
      cases path with
      | nil => exact absurd rfl hne
      | cons f fs => rw [← color_fill_cons]; exact hc
    · intro e
      subst e
      refine ⟨h1.2.2 rfl, ?_⟩
      rintro rfl
      simp at hc
  | node L cl ll lk lv lr =>
    cases r with
    | leaf =>
      have ed : delete_z path c (.node L cl ll lk lv lr) .leaf =
        (path, .node L cl ll lk lv lr, c) := rfl
      rw [ed]
      obtain ⟨h1, h2, h3⟩ := (noRR_fill _ _).1 hr
      obtain ⟨h4, h5⟩ := (bhOK_fill _ _).1 hb
      rw [Tree.noRR_node] at h1
      rw [Tree.bhOK_node] at h4
      rw [Tree.bh_node] at h5
      refine splice_rb path _ c h1.1 h4.1 h2 h5 ?_ ?_
      · intro hne
        cases path with
        | nil => exact absurd rfl hne
        | cons f fs => rw [← color_fill_cons]; exact hc
      · intro e
        subst e
        refine ⟨(h1.2.2 rfl).1, ?_⟩
        rintro rfl
        simp at hc
    | node R cr rl rk rv rr =>
      obtain ⟨ypath, Y, cy, ky, vy, yr, -, er, -, -, hd⟩ :=
        delete_z_two path c L cl ll lk lv lr R cr rl rk rv rr
      rw [hd]
      rw [er] at hc hr hb
      have e0 : fill path (.node z c (.node L cl ll lk lv lr) k v
          (fill ypath (.node Y cy .leaf ky vy yr))) =
          fill (ypath ++ Frame.right z c (.node L cl ll lk lv lr) k v :: path)
            (.node Y cy .leaf ky vy yr) := by
        rw [fill_append]; rfl
      rw [e0] at hc hr hb
      obtain ⟨h1, h2, h3⟩ := (noRR_fill _ _).1 hr
      obtain ⟨h4, h5⟩ := (bhOK_fill _ _).1 hb
      simp only [Tree.noRR_node, Tree.bhOK_node, Tree.bh_node, Tree.bh_leaf, Tree.color_node,
        Tree.color_leaf, true_and, Nat.zero_add] at h1 h3 h4 h5
      have hne : ∀ f : Frame K V, ypath ++ f :: path ≠ [] := by
        intro f; simp
      refine splice_rb _ yr cy h1.2.1 h4.2.1
        ((PathRR_congr ypath (Frame.right z c (.node L cl ll lk lv lr) k v)
          (Frame.right Y c (.node L cl ll lk lv lr) ky vy) path rfl rfl).1 h2)
        ((PathBH_congr ypath (Frame.right z c (.node L cl ll lk lv lr) k v)
          (Frame.right Y c (.node L cl ll lk lv lr) ky vy) path rfl rfl _).1
          (by rw [← h4.2.2, Nat.zero_add]; exact h5)) ?_ ?_
      · intro _
        rw [rootColor_congr ypath (Frame.right Y c (.node L cl ll lk lv lr) ky vy)
          (Frame.right z c (.node L cl ll lk lv lr) k v) path rfl]
        obtain ⟨f, fs, e⟩ : ∃ f fs, ypath ++ Frame.right z c (.node L cl ll lk lv lr) k v ::
            path = f :: fs := by
          cases ypath with
          | nil => exact ⟨_, _, rfl⟩
          | cons g gs => exact ⟨_, _, rfl⟩
        rw [e] at hc ⊢
        rw [← color_fill_cons]; exact hc
      · intro e
        subst e
        exact ⟨h1.2.2 rfl, hne _⟩

/-- The tree-level `erase` never follows a link that is not there and keeps the red-black
invariants. -/
theorem erase_t_rb (comp : K → K → Bool) (key : K) (T : Tree K V) (hc : T.color = .BLACK)
    (hr : T.noRR) (hb : T.bhOK) :
    ∃ T' b, erase_t comp key T = some (T', b) ∧ T'.color = .BLACK ∧ T'.noRR ∧ T'.bhOK := by
  have hfill := fill_ins_path comp false key [] T
  unfold erase_t
  generalize ins_path comp false key [] T = d at hfill
  obtain ⟨path, t⟩ := d
  cases t with
  | leaf => exact ⟨T, false, rfl, hc, hr, hb⟩
  | node p c l k v r =>
    simp only [fill_nil] at hfill
    rw [← hfill] at hc hr hb
    obtain ⟨T', h1, h2⟩ := delete_t_rb path p c l k v r hc hr hb
    exact ⟨T', true, by simp only [h1, Option.map_some'], h2⟩

namespace StrictWeak

variable {comp : K → K → Bool}

theorem asymm (h : StrictWeak comp) {a b : K} (hab : comp a b = true) : comp b a = false := by
  cases hba : comp b a with
  | false => rfl
  | true =>
    have := h.trans a b a hab hba
    rw [h.irrefl] at this
    cases this

theorem neg_trans (h : StrictWeak comp) {a b : K} (hab : comp a b = true) (c : K) :
    comp a c = true ∨ comp c b = true := by
  cases hac : comp a c with
  | true => exact Or.inl rfl
  | false =>
    cases hcb : comp c b with
    | true => exact Or.inr rfl
    | false =>
      exfalso
      have hca : comp c a = false := by
        cases hca : comp c a with
        | false => rfl
        | true => rw [h.trans c a b hca hab] at hcb; cases hcb
      have hbc : comp b c = false := by
        cases hbc : comp b c with
        | false => rfl
        | true => rw [h.trans a b c hab hbc] at hac; cases hac
      have := (h.equiv_trans a c b ⟨hac, hca⟩ ⟨hcb, hbc⟩).1
      rw [hab] at this
      cases this

theorem lt_of_le_of_lt (h : StrictWeak comp) {a b c : K} (hab : comp b a = false)
    (hbc : comp b c = true) : comp a c = true := by
  rcases h.neg_trans hbc a with h1 | h1
  · rw [hab] at h1; cases h1
  · exact h1

theorem lt_of_lt_of_le (h : StrictWeak comp) {a b c : K} (hab : comp a b = true)
    (hbc : comp c b = false) : comp a c = true := by
  rcases h.neg_trans hab c with h1 | h1
  · exact h1
  · rw [hbc] at h1; cases h1

theorem equiv_refl (h : StrictWeak comp) (a : K) : KeyEquiv comp a a := ⟨h.irrefl a, h.irrefl a⟩

theorem equiv_symm {a b : K} (hab : KeyEquiv comp a b) : KeyEquiv comp b a := ⟨hab.2, hab.1⟩

end StrictWeak

theorem Increasing.sorted {comp : K → K → Bool} (h : StrictWeak comp)
    {l : List (Ptr × K × V)} (hl : Increasing comp l) : Sorted comp l :=
  List.Pairwise.imp (fun hab => h.asymm hab) hl

theorem ins_path_Dir (comp : K → K → Bool) (key : K) (t : Tree K V) :
    ∀ (path : Path K V), (∀ f ∈ path, Dir comp key f) →
      ∀ f ∈ (ins_path comp false key path t).1, Dir comp key f := by
  induction t with
  | leaf => intro path h; exact h
  | node p c l k v r ihl ihr =>
    intro path h
    unfold ins_path
    split_ifs with h1 h2
    · exact ihl _ (by
        intro f hf
        rcases List.mem_cons.1 hf with rfl | hf
        · exact h1
        · exact h f hf)
    · exact ihr _ (by
        intro f hf
        rcases List.mem_cons.1 hf with rfl | hf
        · exact h2
        · exact h f hf)
    · exact h
    · rename_i h3
      simp at h3

theorem ins_path_equiv (comp : K → K → Bool) (key : K) (t : Tree K V) :
    ∀ (path : Path K V) (p : Ptr) (c : Color) (l : Tree K V) (k : K) (v : V) (r : Tree K V),
      (ins_path comp false key path t).2 = .node p c l k v r → KeyEquiv comp key k := by
  induction t with
  | leaf => intro path p c l k v r h; cases h
  | node p' c' l' k' v' r' ihl ihr =>
    intro path p c l k v r h
    unfold ins_path at h
    split_ifs at h with h1 h2 h3
    · exact ihl _ _ _ _ _ _ _ h
    · exact ihr _ _ _ _ _ _ _ h
    · cases h
      exact ⟨by simpa using h1, by simpa using h2⟩
    · simp at h3

/-- In a sorted tree, whatever comes before the place where the descent for `key` is has a
key ordered before `key`, and whatever comes after has a key that `key` is ordered
before. -/
theorem path_bounds {comp : K → K → Bool} (hsw : StrictWeak comp) (key : K) :
    ∀ (path : Path K V) (t : Tree K V), (∀ f ∈ path, Dir comp key f) →
      Sorted comp (fill path t).nodes →
      (∀ e ∈ path.nodesL, comp e.2.1 key = true) ∧ (∀ e ∈ path.nodesR, comp key e.2.1 = true) := by
  intro path
  induction path with
  | nil => intro t _ _; exact ⟨fun e he => (by cases he), fun e he => (by cases he)⟩
  | cons f fs ih =>
    intro t hd hs
    obtain ⟨ih1, ih2⟩ := ih (f.plug t) (fun g hg => hd g (List.mem_cons_of_mem _ hg)) hs
    have hf := hd f (List.mem_cons_self _ _)
    rw [fill_cons, nodes_fill, nodes_plug] at hs
    unfold Sorted at hs
    cases f with
    | left p c k v r =>
      simp only [Dir] at hf
      have e1 : Path.nodesL fs ++ ((Frame.left p c k v r).nodesL ++ t.nodes ++
          (Frame.left p c k v r).nodesR) ++ Path.nodesR fs =
          (Path.nodesL fs ++ t.nodes ++ [(p, k, v)]) ++ (r.nodes ++ Path.nodesR fs) := by
        simp [Frame.nodesL, Frame.nodesR]
      rw [e1] at hs
      have h1 := (List.pairwise_append.1 hs).2.2
      simp only [Path.nodesL, Path.nodesR, Frame.nodesL, Frame.nodesR, List.append_nil,
        List.mem_append, List.mem_cons]
      refine ⟨ih1, ?_⟩
      rintro e ((rfl | he) | he)
      · exact hf
      · exact hsw.lt_of_lt_of_le hf (h1 (p, k, v) (by simp) e (by simp [he]))
      · exact ih2 e he
    | right p c l k v =>
      simp only [Dir] at hf
      have e1 : Path.nodesL fs ++ ((Frame.right p c l k v).nodesL ++ t.nodes ++
          (Frame.right p c l k v).nodesR) ++ Path.nodesR fs =
          (Path.nodesL fs ++ l.nodes) ++ ((p, k, v) :: (t.nodes ++ Path.nodesR fs)) := by
        simp [Frame.nodesL, Frame.nodesR]
      rw [e1] at hs
      have h1 := (List.pairwise_append.1 hs).2.2
      simp only [Path.nodesL, Path.nodesR, Frame.nodesL, Frame.nodesR, List.nil_append,
        List.mem_append, List.mem_cons, List.mem_singleton, List.not_mem_nil, or_false]
      refine ⟨?_, ih2⟩
      rintro e (he | he | rfl)
      · exact ih1 e he
      · exact hsw.lt_of_le_of_lt (h1 e (by simp [he]) (p, k, v) (by simp)) hf
      · exact hf

theorem find_t_mem (comp : K → K → Bool) (key : K) (T : Tree K V) (e : Ptr × K × V)
    (h : find_t comp key T = some e) : e ∈ T.nodes ∧ KeyEquiv comp key e.2.1 := by
  have hfill := fill_ins_path comp false key [] T
  have heq := ins_path_equiv comp key T []
  unfold find_t at h
  generalize ins_path comp false key [] T = d at h hfill heq
  obtain ⟨path, t⟩ := d
  cases t with
  | leaf => cases h
  | node p c l k v r =>
    simp only [Option.some.injEq] at h
    subst h
    simp only [fill_nil] at hfill
    refine ⟨?_, heq p c l k v r rfl⟩
    rw [← hfill, nodes_fill]
    simp

theorem find_t_none {comp : K → K → Bool} (hsw : StrictWeak comp) (key : K) (T : Tree K V)
    (hs : Sorted comp T.nodes) (h : find_t comp key T = none) :
    ∀ e ∈ T.nodes, ¬KeyEquiv comp key e.2.1 := by
  have hfill := fill_ins_path comp false key [] T
  have hdir := ins_path_Dir comp key T [] (fun f hf => by cases hf)
  unfold find_t at h
  generalize ins_path comp false key [] T = d at h hfill hdir
  obtain ⟨path, t⟩ := d
  cases t with
  | node p c l k v r => cases h
  | leaf =>
    simp only [fill_nil] at hfill
    rw [← hfill] at hs ⊢
    obtain ⟨h1, h2⟩ := path_bounds hsw key path .leaf hdir hs
    intro e he
    rw [nodes_fill] at he
    simp only [Tree.nodes_leaf, List.append_nil, List.mem_append] at he
    rintro ⟨h3, h4⟩
    rcases he with he | he
    · rw [h1 e he] at h4; cases h4
    · rw [h2 e he] at h3; cases h3

theorem Increasing.unique {comp : K → K → Bool}
    {l : List (Ptr × K × V)} (hl : Increasing comp l) {a b : Ptr × K × V} (ha : a ∈ l)
    (hb : b ∈ l) (hab : KeyEquiv comp a.2.1 b.2.1) : a = b := by
  by_contra hne
  have hsym : Symmetric fun a b : Ptr × K × V => comp a.2.1 b.2.1 = true ∨ comp b.2.1 a.2.1 = true :=
    fun _ _ h => h.symm
  have := (List.Pairwise.imp (fun h => Or.inl h) hl : l.Pairwise _).forall hsym ha hb hne
  rcases this with h | h
  · rw [hab.1] at h; cases h
  · rw [hab.2] at h; cases h

/-- In a tree with strictly increasing keys, `find_helper` returns the one entry of the
in-order sequence whose key is equivalent to `key`. -/
theorem find_t_eq_find {comp : K → K → Bool} (hsw : StrictWeak comp) (key : K) (T : Tree K V)
    (hs : Increasing comp T.nodes) :
    find_t comp key T = T.nodes.find? fun e => decide (KeyEquiv comp key e.2.1) := by
  cases h : find_t comp key T with
  | none =>
    symm
    rw [List.find?_eq_none]
    intro e he
    simpa using find_t_none hsw key T (hs.sorted hsw) h e he
  | some e =>
    obtain ⟨h1, h2⟩ := find_t_mem comp key T e h
    symm
    cases h3 : T.nodes.find? fun e => decide (KeyEquiv comp key e.2.1) with
    | none =>
      rw [List.find?_eq_none] at h3
      exact absurd (by simpa using h2) (h3 e h1)
    | some e' =>
      have h4 := List.find?_some h3
      have h5 := List.mem_of_find?_eq_some h3
      simp only [decide_eq_true_eq] at h4
      rw [hs.unique h5 h1 (hsw.equiv_trans _ _ _ (StrictWeak.equiv_symm h4) h2)]

theorem Increasing.insert_mid {comp : K → K → Bool} {L R : List (Ptr × K × V)}
    (h : Increasing comp (L ++ R)) (x : Ptr × K × V)
    (hL : ∀ e ∈ L, comp e.2.1 x.2.1 = true) (hR : ∀ e ∈ R, comp x.2.1 e.2.1 = true) :
    Increasing comp (L ++ x :: R) := by
  unfold Increasing at *
  rw [List.pairwise_append] at h ⊢
  refine ⟨h.1, List.pairwise_cons.2 ⟨hR, h.2.1⟩, ?_⟩
  intro a ha b hb
  rcases List.mem_cons.1 hb with rfl | hb
  · exact hL a ha
  · exact h.2.2 a ha b hb

theorem Increasing.erase_mid {comp : K → K → Bool} {L R : List (Ptr × K × V)} {x : Ptr × K × V}
    (h : Increasing comp (L ++ x :: R)) : Increasing comp (L ++ R) :=
  List.Pairwise.sublist (List.Sublist.append_left (List.sublist_cons_self x R) L) h

theorem Tree.height_le_count (t : Tree K V) : t.height ≤ t.count := by
  induction t with
  | leaf => simp
  | node p c l k v r ihl ihr => simp only [Tree.height_node, Tree.count_node]; omega

namespace IsTree

variable {s : RedBlackTree K V} {T : Tree K V}

/-- The source's `inorder()` returns the pairs of the tree in in-order. -/
theorem inorder_sim (h : IsTree s T) {fuel : Nat} (hf : T.height < fuel) :
    s.inorder fuel = .ok T.toList := by
  have := inorder_helper_sim s T s.nil fuel h.rep hf
  rw [← h.root_eq] at this
  exact this

/-- The source's `find(key)` returns an iterator to the node `find_t` gives, or `end()`. -/
theorem find_sim (comp : K → K → Bool) (key : K) (h : IsTree s T) {fuel : Nat}
    (hf : T.height < fuel) :
    find comp fuel s key = .ok (match find_t comp key T with
      | some e => ⟨e.1, s.nil, s.root⟩
      | none => s.end_it) := by
  have hfind := h.find_helper_sim comp key hf
  have hfill := fill_ins_path comp false key [] T
  unfold find_t
  generalize ins_path comp false key [] T = d at hfind hfill
  obtain ⟨path, t⟩ := d
  cases t with
  | leaf => simp only [find, hfind, Tree.ptr_leaf, bind_ok, ne_eq, not_true_eq_false, if_false,
      pure_eq_ok]
  | node p c l k v r =>
    simp only [fill_nil] at hfill
    rw [← hfill] at h
    have := (h.mem_focus path p c l k v r).2.1
    simp only [find, hfind, Tree.ptr_node, bind_ok, ne_eq, this, not_false_eq_true, if_true,
      pure_eq_ok]

/-- The source's `contains(key)` says whether `find_t` gives a node. -/
theorem contains_sim (comp : K → K → Bool) (key : K) (h : IsTree s T) {fuel : Nat}
    (hf : T.height < fuel) :
    contains comp fuel s key = .ok (find_t comp key T).isSome := by
  have hfind := h.find_helper_sim comp key hf
  have hfill := fill_ins_path comp false key [] T
  unfold find_t
  generalize ins_path comp false key [] T = d at hfind hfill
  obtain ⟨path, t⟩ := d
  cases t with
  | leaf => simp [contains, hfind, bind_ok, pure_eq_ok]
  | node p c l k v r =>
    simp only [fill_nil] at hfill
    rw [← hfill] at h
    have := (h.mem_focus path p c l k v r).2.1
    simp [contains, hfind, bind_ok, pure_eq_ok, this]

/-- Dereferencing an iterator to a node of the tree gives the pair stored there. -/
theorem deref_sim (h : IsTree s T) (e : Ptr × K × V) (he : e ∈ T.nodes) (a b : Ptr) :
    s.deref ⟨e.1, a, b⟩ = .ok e.2 := by
  have key : ∀ (t : Tree K V) (par : Ptr), Rep s.mem s.nil par t → e ∈ t.nodes →
      s.deref ⟨e.1, a, b⟩ = .ok e.2 := by
    intro t
    induction t with
    | leaf => intro par _ he; cases he
    | node p c l k v r ihl ihr =>
      intro par hr he
      simp only [Rep_node] at hr
      simp only [Tree.nodes_node, List.mem_append, List.mem_cons] at he
      rcases he with he | rfl | he
      · exact ihl p hr.2.2.2.1 he
      · simp only [deref, load_of_mem hr.1 hr.2.2.1, bind_ok, pure_eq_ok]
      · exact ihr p hr.2.2.2.2 he
  exact key T s.nil h.rep he

end IsTree

/-- The tree-level `insert` in no-duplicates mode, when it adds a node: the descent found
no node, and the new entry is where the descent ended. -/
theorem insert_t_true (comp : K → K → Bool) (z : Ptr) (key : K) (val : V) (T T' : Tree K V)
    (h : insert_t comp false z key val T = some (T', true)) :
    find_t comp key T = none ∧ ∃ path, (∀ f ∈ path, Dir comp key f) ∧ fill path .leaf = T ∧
      T.nodes = path.nodesL ++ path.nodesR ∧
      T'.nodes = path.nodesL ++ (z, key, val) :: path.nodesR := by
  have hfill := fill_ins_path comp false key [] T
  have hdir := ins_path_Dir comp key T [] (fun f hf => by cases hf)
  have hft : find_t comp key T = match (ins_path comp false key [] T).2 with
    | .leaf => none
    | .node p _ _ k v _ => some (p, k, v) := rfl
  generalize hp : ins_path comp false key [] T = d at hfill hdir hft
  obtain ⟨path, t⟩ := d
  cases t with
  | node p c l k v r =>
    rw [insert_t_found comp false z key val T path p c l k v r hp] at h
    simp at h
  | leaf =>
    exact ⟨hft, path, hdir, hfill, insert_t_nodes comp false z key val T T' path hp h⟩

/-- The tree-level `insert` in no-duplicates mode, when it adds no node: the descent found
one, and the tree is as it was. -/
theorem insert_t_false (comp : K → K → Bool) (z : Ptr) (key : K) (val : V) (T T' : Tree K V)
    (h : insert_t comp false z key val T = some (T', false)) :
    T' = T ∧ ∃ e, find_t comp key T = some e := by
  have hft : find_t comp key T = match (ins_path comp false key [] T).2 with
    | .leaf => none
    | .node p _ _ k v _ => some (p, k, v) := rfl
  generalize hp : ins_path comp false key [] T = d at hft
  obtain ⟨path, t⟩ := d
  cases t with
  | node p c l k v r =>
    rw [insert_t_found comp false z key val T path p c l k v r hp] at h
    simp only [Option.some.injEq, Prod.mk.injEq, and_true] at h
    exact ⟨h.symm, _, hft⟩
  | leaf =>
    rw [insert_t_new comp false z key val T path hp] at h
    simp at h

/-- The tree-level `erase`, when it removes a node: the node is the one the descent
found, and its entry is taken out of the in-order sequence. -/
theorem erase_t_true (comp : K → K → Bool) (key : K) (T T' : Tree K V)
    (h : erase_t comp key T = some (T', true)) :
    ∃ A B e, find_t comp key T = some e ∧ T.nodes = A ++ e :: B ∧ T'.nodes = A ++ B := by
  have hfill := fill_ins_path comp false key [] T
  have hft : find_t comp key T = match (ins_path comp false key [] T).2 with
    | .leaf => none
    | .node p _ _ k v _ => some (p, k, v) := rfl
  unfold erase_t at h
  generalize ins_path comp false key [] T = d at hfill hft h
  obtain ⟨path, t⟩ := d
  cases t with
  | leaf => simp at h
  | node p c l k v r =>
    simp only [Option.map_eq_some', Prod.mk.injEq, and_true] at h
    obtain ⟨T1, h1, rfl⟩ := h
    refine ⟨path.nodesL ++ l.nodes, r.nodes ++ path.nodesR, (p, k, v), hft, ?_, ?_⟩
    · simp only [fill_nil] at hfill
      rw [← hfill, nodes_fill]
      simp
    · rw [delete_t_nodes path c l r T1 h1]
      simp

/-- The tree-level `erase`, when it removes no node: the descent found none, and the tree
is as it was. -/
theorem erase_t_false (comp : K → K → Bool) (key : K) (T T' : Tree K V)
    (h : erase_t comp key T = some (T', false)) : T' = T ∧ find_t comp key T = none := by
  have hft : find_t comp key T = match (ins_path comp false key [] T).2 with
    | .leaf => none
    | .node p _ _ k v _ => some (p, k, v) := rfl
  unfold erase_t at h
  generalize ins_path comp false key [] T = d at hft h
  obtain ⟨path, t⟩ := d
  cases t with
  | leaf =>
    simp only [Option.some.injEq, Prod.mk.injEq, and_true] at h
    exact ⟨h.symm, hft⟩
  | node p c l k v r => simp at h

/-- The tree-level `insert` in no-duplicates mode keeps the keys strictly increasing. -/
theorem insert_t_incr {comp : K → K → Bool} (hsw : StrictWeak comp) (z : Ptr) (key : K)
    (val : V) (T T' : Tree K V) (b : Bool) (h : insert_t comp false z key val T = some (T', b))
    (hi : Increasing comp T.nodes) : Increasing comp T'.nodes := by
  cases b with
  | false =>
    obtain ⟨rfl, -⟩ := insert_t_false comp z key val T T' h
    exact hi
  | true =>
    obtain ⟨-, path, hd, hfill, hn, hn'⟩ := insert_t_true comp z key val T T' h
    rw [hn']
    have hs' : Sorted comp (fill path (.leaf : Tree K V)).nodes := by
      rw [hfill]; exact hi.sorted hsw
    obtain ⟨hL, hR⟩ := path_bounds hsw key path .leaf hd hs'
    exact Increasing.insert_mid (hn ▸ hi) _ hL hR

/-- The tree-level `erase` keeps the keys strictly increasing. -/
theorem erase_t_incr {comp : K → K → Bool} (key : K) (T T' : Tree K V) (b : Bool)
    (h : erase_t comp key T = some (T', b)) (hi : Increasing comp T.nodes) :
    Increasing comp T'.nodes := by
  cases b with
  | false =>
    obtain ⟨rfl, -⟩ := erase_t_false comp key T T' h
    exact hi
  | true =>
    obtain ⟨A, B, e, -, hn, hn'⟩ := erase_t_true comp key T T' h
    rw [hn']
    exact Increasing.erase_mid (hn ▸ hi)

/-- The tree-level `insert` adds one node when it returns true and none otherwise. -/
theorem insert_t_count (comp : K → K → Bool) (z : Ptr) (key : K) (val : V) (T T' : Tree K V)
    (b : Bool) (h : insert_t comp false z key val T = some (T', b)) :
    T'.count = T.count + b.toNat := by
  cases b with
  | false =>
    obtain ⟨rfl, -⟩ := insert_t_false comp z key val T T' h
    rfl
  | true =>
    obtain ⟨-, path, -, -, hn, hn'⟩ := insert_t_true comp z key val T T' h
    rw [Tree.count_eq_length, Tree.count_eq_length, hn, hn']
    simp
    omega

/-- The tree-level `erase` removes one node when it returns true and none otherwise. -/
theorem erase_t_count (comp : K → K → Bool) (key : K) (T T' : Tree K V) (b : Bool)
    (h : erase_t comp key T = some (T', b)) : T'.count + b.toNat = T.count := by
  cases b with
  | false =>
    obtain ⟨rfl, -⟩ := erase_t_false comp key T T' h
    rfl
  | true =>
    obtain ⟨A, B, e, -, hn, hn'⟩ := erase_t_true comp key T T' h
    rw [Tree.count_eq_length, Tree.count_eq_length, hn, hn']
    simp
    omega

namespace IsTree

variable {s : RedBlackTree K V} {T : Tree K V}

/-- The source's `insert(val)` with a BLACK root and a BLACK sentinel: it returns, and its memory
holds the tree of `insert_t`. -/
theorem insert_spec (comp : K → K → Bool) (dup : Bool) (k : K) (v : V) (h : IsTree s T)
    (hs : SentinelBlack s) (hc : T.color = .BLACK) {fuel : Nat} (hf : T.height < fuel) :
    ∃ s' T' it b, insert comp dup fuel s (k, v) = .ok (s', it, b) ∧
      insert_t comp dup s.brk k v T = some (T', b) ∧ IsTree s' T' ∧ SentinelBlack s' ∧
      s'.nil = s.nil ∧ s'.tree_size = s.tree_size + b.toNat ∧
      (b = true → it.node = s.brk) ∧
      (b = false → s' = { s with brk := s.brk + 1 } ∧
        (dup = false → ∃ e, find_t comp k T = some e ∧ it.node = e.1)) := by
  have hft : find_t comp k T = match (ins_path comp false k [] T).2 with
    | .leaf => none
    | .node p _ _ k v _ => some (p, k, v) := rfl
  generalize hp : ins_path comp dup k [] T = d
  obtain ⟨path, t⟩ := d
  cases t with
  | node p c l k' v' r =>
    have e1 := h.insert_sim_dup comp dup fuel k v T path p c l k' v' r hf hp
    refine ⟨_, T, _, false, e1, insert_t_found comp dup _ k v T path p c l k' v' r hp, ?_, hs,
      rfl, rfl, fun e => (by cases e), fun _ => ⟨rfl, ?_⟩⟩
    · exact ⟨h.root_eq, h.rep, h.nodup, h.nil_ne, h.nil_live,
        fun q hq => h.unused q (by show s.brk ≤ q; exact Nat.le_of_succ_le hq),
        Nat.succ_ne_zero _⟩
    · rintro rfl
      rw [hp] at hft
      exact ⟨_, hft, rfl⟩
  | leaf =>
    obtain ⟨T1, hT1⟩ := insert_fix_z_isSome path (.node s.brk .RED .leaf k v .leaf)
      (by simp) (fun _ => by
        have hfill := fill_ins_path comp dup k [] T
        rw [hp] at hfill
        simp only [fill_nil] at hfill
        rw [rootColor, hfill, hc])
    obtain ⟨s', e1, h1, hs1, hn1, hz1, -⟩ := h.insert_sim_new comp dup fuel k v T path T1 hs hf hp hT1
    refine ⟨s', _, _, true, e1, ?_, h1, hs1, hn1, hz1, fun _ => rfl, fun e => (by cases e)⟩
    rw [insert_t_new comp dup s.brk k v T path hp, hT1]
    rfl

/-- The source's `erase(key)` on a tree that satisfies the red-black invariants: it returns, and its
memory holds the tree of `erase_t`, which satisfies them again. -/
theorem erase_spec (comp : K → K → Bool) (key : K) (h : IsTree s T) (hs : SentinelBlack s)
    (hc : T.color = .BLACK) (hr : T.noRR) (hb : T.bhOK) {fuel : Nat} (hf : T.height < fuel) :
    ∃ s' T' b, erase comp fuel s key = .ok (s', b) ∧ erase_t comp key T = some (T', b) ∧
      IsTree s' T' ∧ SentinelBlack s' ∧ T'.color = .BLACK ∧ T'.noRR ∧ T'.bhOK ∧
      s'.nil = s.nil ∧ s'.tree_size = s.tree_size - b.toNat ∧ (b = false → s' = s) := by
  obtain ⟨T', b, h1, h2, h3, h4⟩ := erase_t_rb comp key T hc hr hb
  obtain ⟨s', e1, h5, h6, h7, -, h8, h9⟩ := h.erase_sim comp key hs h1 hf
  exact ⟨s', T', b, e1, h1, h5, h6, h2, h3, h4, h7, h8, h9⟩

end IsTree

theorem isTree_empty [Inhabited K] [Inhabited V] :
    IsTree (empty : RedBlackTree K V) .leaf := by
  refine ⟨rfl, trivial, List.nodup_nil, (by show (1 : Nat) ≠ 0; omega),
    ⟨⟨default, default, 0, 0, 0, .BLACK⟩, (by simp [empty])⟩, ?_,
    (by show (2 : Nat) ≠ 0; omega)⟩
  intro p hp
  have : p ≠ 1 := by
    intro e
    subst e
    exact absurd hp (by show ¬(2 : Nat) ≤ 1; omega)
  simp [empty, Function.update_noteq this]

theorem sentinelBlack_empty [Inhabited K] [Inhabited V] :
    SentinelBlack (empty : RedBlackTree K V) := by
  simp [SentinelBlack, color_of, load, empty, bind_ok, pure_eq_ok]

namespace Valid

variable {s : RedBlackTree K V} {T : Tree K V}

theorem empty_valid [Inhabited K] [Inhabited V] :
    Valid (RedBlackTree.empty : RedBlackTree K V) .leaf :=
  ⟨isTree_empty, sentinelBlack_empty, rfl, trivial, trivial, rfl⟩

theorem fuel_ok (hv : Valid s T) {fuel : Nat} (hf : s.tree_size < fuel) :
    T.height < fuel := by
  have := T.height_le_count
  have := hv.size
  omega

/-- The source's `insert` keeps the state valid. -/
theorem insert_valid (comp : K → K → Bool) (hv : Valid s T) (k : K) (v : V) {fuel : Nat}
    (hf : s.tree_size < fuel) :
    ∃ s' T' it b, RedBlackTree.insert comp false fuel s (k, v) = .ok (s', it, b) ∧
      insert_t comp false s.brk k v T = some (T', b) ∧ Valid s' T' ∧
      s'.tree_size = s.tree_size + b.toNat ∧ (b = true → it.node = s.brk) ∧
      (b = false → s' = { s with brk := s.brk + 1 } ∧
        ∃ e, find_t comp k T = some e ∧ it.node = e.1) := by
  obtain ⟨s', T', it, b, e1, h1, h2, h3, -, h4, h5, h6⟩ :=
    hv.tree.insert_spec comp false k v hv.sentinel hv.root (hv.fuel_ok hf)
  obtain ⟨h7, h8, h9⟩ := insert_t_rb comp false s.brk k v T T' b h1 hv.root hv.noRR hv.bhOK
  refine ⟨s', T', it, b, e1, h1, ⟨h2, h3, h7, h8, h9, ?_⟩, h4, h5,
    fun e => ⟨(h6 e).1, (h6 e).2 rfl⟩⟩
  rw [h4, hv.size, insert_t_count comp s.brk k v T T' b h1]

/-- The source's `erase` keeps the state valid. -/
theorem erase_valid (comp : K → K → Bool) (hv : Valid s T) (k : K) {fuel : Nat}
    (hf : s.tree_size < fuel) :
    ∃ s' T' b, RedBlackTree.erase comp fuel s k = .ok (s', b) ∧
      erase_t comp k T = some (T', b) ∧ Valid s' T' ∧
      s'.tree_size + b.toNat = s.tree_size ∧ (b = false → s' = s) := by
  obtain ⟨s', T', b, e1, h1, h2, h3, h4, h5, h6, -, h7, h8⟩ :=
    hv.tree.erase_spec comp k hv.sentinel hv.root hv.noRR hv.bhOK (hv.fuel_ok hf)
  have hc := erase_t_count comp k T T' b h1
  have hz := hv.size
  refine ⟨s', T', b, e1, h1, ⟨h2, h3, h4, h5, h6, ?_⟩, ?_, h8⟩
  · rw [h7, hz]; omega
  · rw [h7, hz]; omega

end Valid

/-- A sequence of calls on a valid tree, with fuel for the largest tree on the way:
every call returns, the tree at the end is valid, its size is the size at the start
plus the inserts minus the erases that returned true, and strictly increasing keys stay
strictly increasing. -/
theorem run_valid (comp : K → K → Bool) (fuel : Nat) :
    ∀ (ops : List (Op K V)) (s : RedBlackTree K V) (T : Tree K V), Valid s T →
      s.tree_size + ops.length < fuel →
      ∃ s' T' i e, run comp fuel ops s = .ok (s', i, e) ∧ Valid s' T' ∧
        s'.tree_size + e = s.tree_size + i ∧ i + e ≤ ops.length ∧
        (StrictWeak comp → Increasing comp T.nodes → Increasing comp T'.nodes) := by
  intro ops
  induction ops with
  | nil =>
    intro s T hv _
    exact ⟨s, T, 0, 0, rfl, hv, rfl, Nat.le_refl _, fun _ h => h⟩
  | cons op ops ih =>
    intro s T hv hf
    simp only [List.length_cons] at hf
    cases op with
    | insert k v =>
      obtain ⟨s1, T1, it, b, e1, ht1, hv1, hz1, -, -⟩ := hv.insert_valid comp k v
        (show s.tree_size < fuel by omega)
      have hb : b.toNat ≤ 1 := by cases b <;> simp
      obtain ⟨s2, T2, i, e, e2, hv2, hz2, hle, hi2⟩ := ih s1 T1 hv1 (by omega)
      refine ⟨s2, T2, i + b.toNat, e, ?_, hv2, by omega,
        by simp only [List.length_cons]; omega,
        fun hsw hi => hi2 hsw (insert_t_incr hsw _ k v T T1 b ht1 hi)⟩
      simp only [run, e1, bind_ok, e2, pure_eq_ok]
    | erase k =>
      obtain ⟨s1, T1, b, e1, ht1, hv1, hz1, -⟩ := hv.erase_valid comp k
        (show s.tree_size < fuel by omega)
      have hb : b.toNat ≤ 1 := by cases b <;> simp
      obtain ⟨s2, T2, i, e, e2, hv2, hz2, hle, hi2⟩ := ih s1 T1 hv1 (by omega)
      refine ⟨s2, T2, i, e + b.toNat, ?_, hv2, by omega,
        by simp only [List.length_cons]; omega,
        fun hsw hi => hi2 hsw (erase_t_incr k T T1 b ht1 hi)⟩
      simp only [run, e1, bind_ok, e2, pure_eq_ok]

theorem strictWeak_ltNat : StrictWeak ltNat := by
  refine ⟨fun a => by simp [ltNat], fun a b c => ?_, fun a b c => ?_⟩
  · simp only [ltNat, decide_eq_true_eq]; omega
  · simp only [KeyEquiv, ltNat, decide_eq_false_iff_not]; omega

theorem isTree_oneNode : IsTree oneNode oneNodeTree := by
  refine ⟨rfl, ?_, ?_, ?_, ⟨_, rfl⟩, ?_, ?_⟩
  · simp [oneNodeTree, oneNode]
  · simp [oneNodeTree]
  · simp [oneNode]
  · intro p hp
    have h1 : p ≠ 1 := by rintro rfl; exact absurd hp (by decide)
    have h2 : p ≠ 2 := by rintro rfl; exact absurd hp (by decide)
    simp [oneNode, h1, h2]
  · simp [oneNode]

theorem isTree_redRoot : IsTree redRoot redRootTree := by
  refine ⟨rfl, ?_, ?_, ?_, ⟨_, rfl⟩, ?_, ?_⟩
  · simp [redRootTree, redRoot]
  · simp [redRootTree]
  · simp [redRoot]
  · intro p hp
    have h1 : p ≠ 1 := by rintro rfl; exact absurd hp (by decide)
    have h2 : p ≠ 2 := by rintro rfl; exact absurd hp (by decide)
    simp [redRoot, h1, h2]
  · simp [redRoot]

theorem isTree_unsorted : IsTree unsorted unsortedTree := by
  refine ⟨rfl, ?_, ?_, ?_, ⟨_, rfl⟩, ?_, ?_⟩
  · simp [unsortedTree, unsorted]
  · simp [unsortedTree]
  · simp [unsorted]
  · intro p hp
    have h1 : p ≠ 1 := by rintro rfl; exact absurd hp (by decide)
    have h2 : p ≠ 2 := by rintro rfl; exact absurd hp (by decide)
    have h3 : p ≠ 3 := by rintro rfl; exact absurd hp (by decide)
    simp [unsorted, h1, h2, h3]
  · simp [unsorted]

theorem isTree_lopsided : IsTree lopsided lopsidedTree := by
  refine ⟨rfl, ?_, ?_, ?_, ⟨_, rfl⟩, ?_, ?_⟩
  · simp [lopsidedTree, lopsided]
  · simp [lopsidedTree]
  · simp [lopsided]
  · intro p hp
    have h1 : p ≠ 1 := by rintro rfl; exact absurd hp (by decide)
    have h2 : p ≠ 2 := by rintro rfl; exact absurd hp (by decide)
    have h3 : p ≠ 3 := by rintro rfl; exact absurd hp (by decide)
    simp [lopsided, h1, h2, h3]
  · simp [lopsided]

theorem increasing_toList (comp : K → K → Bool) (T : Tree K V) :
    Increasing comp T.nodes ↔ T.toList.Pairwise fun a b => comp a.1 b.1 = true := by
  rw [Tree.toList_eq_map, List.pairwise_map]
  rfl

theorem sorted_toList (comp : K → K → Bool) (T : Tree K V) :
    Sorted comp T.nodes ↔ T.toList.Pairwise fun a b => comp b.1 a.1 = false := by
  rw [Tree.toList_eq_map, List.pairwise_map]
  rfl

theorem mem_toList_of_mem_nodes {T : Tree K V} {e : Ptr × K × V} (h : e ∈ T.nodes) :
    e.2 ∈ T.toList := by
  rw [Tree.toList_eq_map]
  exact List.mem_map_of_mem _ h

theorem mem_nodes_of_mem_toList {T : Tree K V} {kv : K × V} (h : kv ∈ T.toList) :
    ∃ e ∈ T.nodes, e.2 = kv := by
  rw [Tree.toList_eq_map] at h
  exact List.mem_map.1 h

theorem mem_addrs_of_mem_nodes {T : Tree K V} {e : Ptr × K × V} (h : e ∈ T.nodes) :
    e.1 ∈ T.addrs := by
  rw [Tree.addrs_eq_map]
  exact List.mem_map_of_mem _ h

/-- Looking a key up in a list of nodes: taking out or putting in an entry with a key
that is not equivalent changes nothing. -/
theorem find_skip {comp : K → K → Bool} (hsw : StrictWeak comp) (A B : List (Ptr × K × V))
    (e : Ptr × K × V) (j k : K) (hjk : ¬KeyEquiv comp j k) (hek : KeyEquiv comp k e.2.1) :
    (A ++ e :: B).find? (fun x => decide (KeyEquiv comp j x.2.1)) =
      (A ++ B).find? (fun x => decide (KeyEquiv comp j x.2.1)) := by
  have hne : decide (KeyEquiv comp j e.2.1) = false := by
    rw [decide_eq_false_iff_not]
    intro h
    exact hjk (hsw.equiv_trans _ _ _ h (StrictWeak.equiv_symm hek))
  rw [List.find?_append, List.find?_append, List.find?_cons, hne]

/-- With strictly increasing keys, once the entry with a key equivalent to `k` is taken
out, no key equivalent to `k` is left. -/
theorem Increasing.erase_not_equiv {comp : K → K → Bool} (hsw : StrictWeak comp)
    {A B : List (Ptr × K × V)} {e : Ptr × K × V} (hinc : Increasing comp (A ++ e :: B))
    {k : K} (hek : KeyEquiv comp k e.2.1) : ∀ n ∈ A ++ B, ¬KeyEquiv comp k n.2.1 := by
  intro n hn1 hek'
  have hmem : n ∈ A ++ e :: B := by
    simp only [List.mem_append, List.mem_cons] at hn1 ⊢
    tauto
  have hemem : e ∈ A ++ e :: B := by simp
  have := hinc.unique hmem hemem (hsw.equiv_trans _ _ _ (StrictWeak.equiv_symm hek') hek)
  subst this
  have hnd : (A ++ n :: B).Nodup := by
    refine List.Pairwise.imp ?_ hinc
    intro a b hab e
    subst e
    rw [hsw.irrefl] at hab
    cases hab
  rw [List.nodup_middle, List.nodup_cons] at hnd
  exact hnd.1 hn1

/-- With strictly increasing keys, `find_helper` finds no node exactly when no key of the
tree is equivalent to `key`. -/
theorem find_t_none_iff {comp : K → K → Bool} (hsw : StrictWeak comp) (key : K) (T : Tree K V)
    (hs : Increasing comp T.nodes) :
    find_t comp key T = none ↔ ∀ e ∈ T.nodes, ¬KeyEquiv comp key e.2.1 := by
  constructor
  · exact find_t_none hsw key T (hs.sorted hsw)
  · intro h
    cases hft : find_t comp key T with
    | none => rfl
    | some e =>
      obtain ⟨he, hek⟩ := find_t_mem comp key T e hft
      exact absurd hek (h e he)

/-- With strictly increasing keys, `find_helper` finds the entry whose key is equivalent to
`key`. -/
theorem find_t_of_mem {comp : K → K → Bool} (hsw : StrictWeak comp) (key : K) (T : Tree K V)
    (hs : Increasing comp T.nodes) (e : Ptr × K × V) (he : e ∈ T.nodes)
    (hek : KeyEquiv comp key e.2.1) : find_t comp key T = some e := by
  cases hft : find_t comp key T with
  | none => exact absurd hek ((find_t_none_iff hsw key T hs).1 hft e he)
  | some e' =>
    obtain ⟨he', hek'⟩ := find_t_mem comp key T e' hft
    rw [hs.unique he' he (hsw.equiv_trans _ _ _ (StrictWeak.equiv_symm hek') hek)]

namespace IsTree

variable {s : RedBlackTree K V} {T : Tree K V}

/-- The value `find(key)` leads to is the value of the node `find_t` gives. -/
theorem lookup_sim (comp : K → K → Bool) (key : K) (h : IsTree s T) {fuel : Nat}
    (hf : T.height < fuel) :
    lookup comp fuel s key = .ok ((find_t comp key T).map fun e => e.2.2) := by
  have hfind := h.find_sim comp key hf
  cases hft : find_t comp key T with
  | none =>
    rw [hft] at hfind
    simp only [lookup, hfind, bind_ok, end_it, if_true, pure_eq_ok, Option.map_none']
  | some e =>
    rw [hft] at hfind
    obtain ⟨he, -⟩ := find_t_mem comp key T e hft
    have hne := h.ne_nil_of_mem (mem_addrs_of_mem_nodes he)
    have hd := h.deref_sim e he s.nil s.root
    simp only [lookup, hfind, bind_ok, hne, if_false, hd, pure_eq_ok, Option.map_some']

end IsTree

/-- What `insert` needs of the root: `redRoot`, a state that no sequence of calls on the
class reaches, holds the pair `(5, 0)` alone in a RED root; its in-order key sequence is
strictly increasing and the key 3 is not present, yet `insert((3, 0))` does not return,
whatever the fuel: with enough of it, `insert_fix`
reads `_nil->left`, which is `nullptr`, and dereferences it. -/
theorem insert_red_root_faults :
    IsTree redRoot redRootTree ∧
      (redRootTree.toList.Pairwise fun a b => ltNat a.1 b.1 = true) ∧
      (∀ e ∈ redRootTree.toList, ¬KeyEquiv ltNat 3 e.1) ∧
      (∀ fuel, insert ltNat false (fuel + 2) redRoot (3, 0) = .error .null_deref) ∧
      insert ltNat false 1 redRoot (3, 0) = .error .fuel ∧
      insert ltNat false 0 redRoot (3, 0) = .error .fuel := by
  refine ⟨isTree_redRoot, by simp [redRootTree], ?_, fun fuel => rfl, rfl, rfl⟩
  intro e he
  simp only [redRootTree, Tree.toList_node, Tree.toList_leaf, List.nil_append,
    List.mem_singleton] at he
  subst he
  decide

/-- Lemma for `insert` of a new key in no-duplicates mode: on every state that holds a
tree whose sentinel and root are BLACK and whose in-order key sequence is strictly increasing, and every key `k` with no
equivalent key in the tree, `insert((k, v))` returns the flag true with an iterator to a
node that holds `(k, v)`, and the in-order sequence, `A ++ B` before, is
`A ++ (k, v) :: B` afterwards, where every key of `A` is ordered before `k` and `k` is
ordered before every key of `B`.  The loops run on `fuel`: any amount above the height of
the tree is enough. -/
theorem insert_new_inorder {comp : K → K → Bool} (hsw : StrictWeak comp)
    {s : RedBlackTree K V} {T : Tree K V} (h : IsTree s T) (hs : SentinelBlack s)
    (hc : T.color = .BLACK) (hi : T.toList.Pairwise fun a b => comp a.1 b.1 = true)
    (k : K) (v : V) (hk : ∀ e ∈ T.toList, ¬KeyEquiv comp k e.1) {fuel : Nat}
    (hf : T.height < fuel) :
    ∃ s' T' it A B, insert comp false fuel s (k, v) = .ok (s', it, true) ∧
      s'.deref it = .ok (k, v) ∧ IsTree s' T' ∧ s.inorder fuel = .ok (A ++ B) ∧
      T'.toList = A ++ (k, v) :: B ∧
      (∀ fuel', T'.height < fuel' → s'.inorder fuel' = .ok (A ++ (k, v) :: B)) ∧
      (∀ e ∈ A, comp e.1 k = true) ∧ (∀ e ∈ B, comp k e.1 = true) := by
  obtain ⟨s', T', it, b, e1, h1, h2, -, -, -, h5, -⟩ := h.insert_spec comp false k v hs hc hf
  cases b with
  | false =>
    obtain ⟨-, e, he⟩ := insert_t_false comp s.brk k v T T' h1
    obtain ⟨h6, h7⟩ := find_t_mem comp k T e he
    exact absurd h7 (hk _ (mem_toList_of_mem_nodes h6))
  | true =>
    obtain ⟨-, path, hd, hfill, hn, hn'⟩ := insert_t_true comp s.brk k v T T' h1
    have hsorted : Sorted comp (fill path (.leaf : Tree K V)).nodes := by
      rw [hfill]
      exact ((increasing_toList comp T).2 hi).sorted hsw
    obtain ⟨hL, hR⟩ := path_bounds hsw k path .leaf hd hsorted
    have hT : T.toList = path.nodesL.map Prod.snd ++ path.nodesR.map Prod.snd := by
      rw [Tree.toList_eq_map, hn, List.map_append]
    have hT' : T'.toList = path.nodesL.map Prod.snd ++ (k, v) :: path.nodesR.map Prod.snd := by
      rw [Tree.toList_eq_map, hn', List.map_append, List.map_cons]
    have hit : it = ⟨s.brk, it.nil, it.root⟩ := by
      have := h5 rfl
      cases it
      simp only [Iterator.mk.injEq, and_true] at this ⊢
      exact this
    refine ⟨s', T', it, _, _, e1, ?_, h2, ?_, hT', ?_, ?_, ?_⟩
    · rw [hit]
      exact h2.deref_sim (s.brk, k, v) (by rw [hn']; simp) _ _
    · rw [h.inorder_sim hf, hT]
    · intro fuel' hf'
      rw [h2.inorder_sim hf', hT']
    · intro e he
      obtain ⟨n, hn1, rfl⟩ := List.mem_map.1 he
      exact hL n hn1
    · intro e he
      obtain ⟨n, hn1, rfl⟩ := List.mem_map.1 he
      exact hR n hn1

/-- The lemma `insert_new_inorder` at the tree `oneNode`, which holds `(5, 0)`, and the pair `(3, 1)`. -/
theorem insert_new_inorder_witness :
    ∃ s' T' it A B, insert ltNat false 2 oneNode (3, 1) = .ok (s', it, true) ∧
      s'.deref it = .ok (3, 1) ∧ IsTree s' T' ∧ oneNode.inorder 2 = .ok (A ++ B) ∧
      T'.toList = A ++ (3, 1) :: B ∧
      (∀ fuel', T'.height < fuel' → s'.inorder fuel' = .ok (A ++ (3, 1) :: B)) ∧
      (∀ e ∈ A, ltNat e.1 3 = true) ∧ (∀ e ∈ B, ltNat 3 e.1 = true) :=
  insert_new_inorder strictWeak_ltNat isTree_oneNode rfl rfl (by simp [oneNodeTree]) 3 1
    (by simp [oneNodeTree, KeyEquiv, ltNat]) (by decide)

/-- What `insert` needs of the order: `unsorted`, a state that no sequence of calls on the
class reaches, holds `(7, 0)` in the left child of the root, which holds `(5, 0)`; the key 7 is present, yet
`insert((7, 1))` descends to the right of the root, adds a node and returns the flag
true. -/
theorem insert_present_unsorted_adds :
    IsTree unsorted unsortedTree ∧ (7, 0) ∈ unsortedTree.toList ∧
      (insert ltNat false 3 unsorted (7, 1)).map (fun r => (r.1.size, r.2.1.node, r.2.2)) =
        .ok (3, 4, true) :=
  ⟨isTree_unsorted, by simp [unsortedTree], rfl⟩

/-- Lemma for `insert` of a present key in no-duplicates mode: on every state that holds
a tree whose in-order key sequence is sorted under the ordering function, and every key `k` with an equivalent key in the tree,
`insert((k, v))` returns the flag false with an iterator to a node that holds a pair of
the tree with a key equivalent to `k`, and leaves the root, the sentinel, the size and
every node as they were, so that the memory holds the same tree, with the pairs it
had.  The loops run on `fuel`: any amount above the height of the tree is enough. -/
theorem insert_present_unchanged {comp : K → K → Bool} (hsw : StrictWeak comp)
    {s : RedBlackTree K V} {T : Tree K V} (h : IsTree s T)
    (hi : T.toList.Pairwise fun a b => comp b.1 a.1 = false)
    (k : K) (v : V) (hk : ∃ e ∈ T.toList, KeyEquiv comp k e.1) {fuel : Nat}
    (hf : T.height < fuel) :
    ∃ s' it e, insert comp false fuel s (k, v) = .ok (s', it, false) ∧
      e ∈ T.toList ∧ KeyEquiv comp k e.1 ∧ s'.deref it = .ok e ∧
      s'.mem = s.mem ∧ s'.root = s.root ∧ s'.nil = s.nil ∧ s'.size = s.size ∧
      IsTree s' T ∧ s'.inorder fuel = s.inorder fuel := by
  cases hft : find_t comp k T with
  | none =>
    obtain ⟨e, he, hek⟩ := hk
    obtain ⟨n, hn, rfl⟩ := mem_nodes_of_mem_toList he
    exact absurd hek (find_t_none hsw k T ((sorted_toList comp T).2 hi) hft n hn)
  | some e =>
    obtain ⟨he, hek⟩ := find_t_mem comp k T e hft
    have hfill := fill_ins_path comp false k [] T
    unfold find_t at hft
    generalize hp : ins_path comp false k [] T = d at hft hfill
    obtain ⟨path, t⟩ := d
    cases t with
    | leaf => cases hft
    | node p c l k' v' r =>
      simp only [Option.some.injEq] at hft
      subst hft
      have e1 := h.insert_sim_dup comp false fuel k v T path p c l k' v' r hf hp
      have h' : IsTree { s with brk := s.brk + 1 } T :=
        ⟨h.root_eq, h.rep, h.nodup, h.nil_ne, h.nil_live,
          fun q hq => h.unused q (by show s.brk ≤ q; exact Nat.le_of_succ_le hq),
          Nat.succ_ne_zero _⟩
      refine ⟨_, _, (k', v'), e1, mem_toList_of_mem_nodes he, hek, ?_, rfl, rfl, rfl, rfl, h',
        ?_⟩
      · exact h'.deref_sim (p, k', v') he _ _
      · rw [h'.inorder_sim hf, h.inorder_sim hf]

/-- The lemma `insert_present_unchanged` at the tree `oneNode`, which holds `(5, 0)`, and the pair `(5, 1)`. -/
theorem insert_present_unchanged_witness :
    ∃ s' it e, insert ltNat false 2 oneNode (5, 1) = .ok (s', it, false) ∧
      e ∈ oneNodeTree.toList ∧ KeyEquiv ltNat 5 e.1 ∧ s'.deref it = .ok e ∧
      s'.mem = oneNode.mem ∧ s'.root = oneNode.root ∧ s'.nil = oneNode.nil ∧
      s'.size = oneNode.size ∧ IsTree s' oneNodeTree ∧
      s'.inorder 2 = oneNode.inorder 2 :=
  insert_present_unchanged strictWeak_ltNat isTree_oneNode (by simp [oneNodeTree]) 5 1
    ⟨(5, 0), by simp [oneNodeTree], by decide⟩ (by decide)

/-- What `erase` needs of the black heights: `lopsided`, a state that no sequence of calls
on the class reaches, is a search tree whose black heights differ.  It holds
`(2, 0)` in its root and `(1, 0)` in the left child, both BLACK, with every parent link
in place; the key 1 is present, yet `erase(1)` does not return, whatever the fuel: with
enough of it, `erase_fix` takes the sentinel for the sibling `w` and dereferences
`w->left`, which is `nullptr`. -/
theorem erase_lopsided_faults :
    IsTree lopsided lopsidedTree ∧
      (lopsidedTree.toList.Pairwise fun a b => ltNat a.1 b.1 = true) ∧
      (1, 0) ∈ lopsidedTree.toList ∧
      (∀ fuel, erase ltNat (fuel + 2) lopsided 1 = .error .null_deref) ∧
      erase ltNat 1 lopsided 1 = .error .fuel ∧ erase ltNat 0 lopsided 1 = .error .fuel :=
  ⟨isTree_lopsided, by simp [lopsidedTree, ltNat], by simp [lopsidedTree], fun _ => rfl,
    rfl, rfl⟩

/-- Lemma for `erase` of a present key: on every state that holds a tree that satisfies
the red-black invariants (sentinel BLACK, root BLACK, no RED node with a RED child, equal black height
on all paths) and whose in-order key sequence is strictly increasing, with every parent
link in place, and every key `k` with an equivalent key in the tree, `erase(k)` returns
true, and the in-order sequence, `A ++ e :: B` before with `e` the pair whose key is
equivalent to `k`, is `A ++ B` afterwards, with no key equivalent to `k` left.  The loops
run on `fuel`: any amount above the height of the tree is enough. -/
theorem erase_present_inorder {comp : K → K → Bool} (hsw : StrictWeak comp)
    {s : RedBlackTree K V} {T : Tree K V} (h : IsTree s T) (hs : SentinelBlack s)
    (hc : T.color = .BLACK) (hr : T.noRR) (hb : T.bhOK)
    (hi : T.toList.Pairwise fun a b => comp a.1 b.1 = true)
    (k : K) (hk : ∃ e ∈ T.toList, KeyEquiv comp k e.1) {fuel : Nat} (hf : T.height < fuel) :
    ∃ s' T' A B e, erase comp fuel s k = .ok (s', true) ∧ IsTree s' T' ∧
      KeyEquiv comp k e.1 ∧ s.inorder fuel = .ok (A ++ e :: B) ∧ T'.toList = A ++ B ∧
      (∀ fuel', T'.height < fuel' → s'.inorder fuel' = .ok (A ++ B)) ∧
      ∀ e' ∈ A ++ B, ¬KeyEquiv comp k e'.1 := by
  obtain ⟨s', T', b, e1, h1, h2, -, -, -, -, -, -, -⟩ := h.erase_spec comp k hs hc hr hb hf
  have hinc := (increasing_toList comp T).2 hi
  cases b with
  | false =>
    obtain ⟨-, hft⟩ := erase_t_false comp k T T' h1
    obtain ⟨e, he, hek⟩ := hk
    obtain ⟨n, hn, rfl⟩ := mem_nodes_of_mem_toList he
    exact absurd hek (find_t_none hsw k T (hinc.sorted hsw) hft n hn)
  | true =>
    obtain ⟨A, B, e, hft, hn, hn'⟩ := erase_t_true comp k T T' h1
    obtain ⟨-, hek⟩ := find_t_mem comp k T e hft
    have hT : T.toList = A.map Prod.snd ++ e.2 :: B.map Prod.snd := by
      rw [Tree.toList_eq_map, hn, List.map_append, List.map_cons]
    have hT' : T'.toList = A.map Prod.snd ++ B.map Prod.snd := by
      rw [Tree.toList_eq_map, hn', List.map_append]
    refine ⟨s', T', _, _, e.2, e1, h2, hek, ?_, hT', ?_, ?_⟩
    · rw [h.inorder_sim hf, hT]
    · intro fuel' hf'
      rw [h2.inorder_sim hf', hT']
    · intro e' he' hek'
      rw [← List.map_append] at he'
      obtain ⟨n, hn1, rfl⟩ := List.mem_map.1 he'
      rw [hn] at hinc
      exact hinc.erase_not_equiv hsw hek n hn1 hek'

/-- The lemma `erase_present_inorder` at the tree `oneNode`, which holds `(5, 0)`, and the key 5. -/
theorem erase_present_inorder_witness :
    ∃ s' T' A B e, erase ltNat 2 oneNode 5 = .ok (s', true) ∧ IsTree s' T' ∧
      KeyEquiv ltNat 5 e.1 ∧ oneNode.inorder 2 = .ok (A ++ e :: B) ∧ T'.toList = A ++ B ∧
      (∀ fuel', T'.height < fuel' → s'.inorder fuel' = .ok (A ++ B)) ∧
      ∀ e' ∈ A ++ B, ¬KeyEquiv ltNat 5 e'.1 :=
  erase_present_inorder strictWeak_ltNat isTree_oneNode rfl rfl
    (by simp [oneNodeTree]) (by simp [oneNodeTree]) (by simp [oneNodeTree]) 5
    ⟨(5, 0), by simp [oneNodeTree], by decide⟩ (by decide)

/-- C4: for every tree and every key `k` with no equivalent key in the tree, `erase(k)`
returns false and the state of the tree is the one before the call: memory, root,
sentinel and size are unchanged.  The loop runs on `fuel`: any amount above the height of
the tree is enough. -/
theorem erase_absent_unchanged (comp : K → K → Bool) {s : RedBlackTree K V} {T : Tree K V}
    (h : IsTree s T) (k : K) (hk : ∀ e ∈ T.toList, ¬KeyEquiv comp k e.1) {fuel : Nat}
    (hf : T.height < fuel) : erase comp fuel s k = .ok (s, false) := by
  have hfind := h.find_helper_sim comp k hf
  cases hft : find_t comp k T with
  | some e =>
    obtain ⟨he, hek⟩ := find_t_mem comp k T e hft
    exact absurd hek (hk _ (mem_toList_of_mem_nodes he))
  | none =>
    unfold find_t at hft
    generalize ins_path comp false k [] T = d at hft hfind
    obtain ⟨path, t⟩ := d
    cases t with
    | node p c l k' v' r => cases hft
    | leaf => simp only [erase, hfind, Tree.ptr_leaf, bind_ok, if_true, pure_eq_ok]

/-- C4 at the tree `oneNode`, which holds `(5, 0)`, and the key 7. -/
theorem erase_absent_unchanged_witness : erase ltNat 2 oneNode 7 = .ok (oneNode, false) :=
  erase_absent_unchanged ltNat isTree_oneNode 7 (by simp [oneNodeTree, KeyEquiv, ltNat])
    (by decide)

/-- C5: for every tree whose in-order key sequence is sorted under the ordering function
and every key `k`: `contains(k)` is true iff some pair of `inorder()` has a key equivalent
to `k`; `find(k)` then is an iterator to a node that holds such a pair; and `find(k)` is
`end()` exactly when `contains(k)` is false.  The loops run on `fuel`: any amount above
the height of the tree is enough. -/
theorem find_contains_sorted {comp : K → K → Bool} (hsw : StrictWeak comp)
    {s : RedBlackTree K V} {T : Tree K V} (h : IsTree s T)
    (hi : T.toList.Pairwise fun a b => comp b.1 a.1 = false) (k : K) {fuel : Nat}
    (hf : T.height < fuel) :
    ∃ xs b it, s.inorder fuel = .ok xs ∧ contains comp fuel s k = .ok b ∧
      find comp fuel s k = .ok it ∧ (b = true ↔ ∃ e ∈ xs, KeyEquiv comp k e.1) ∧
      (b = true → ∃ e ∈ xs, KeyEquiv comp k e.1 ∧ s.deref it = .ok e) ∧
      (it = s.end_it ↔ b = false) := by
  refine ⟨T.toList, _, _, h.inorder_sim hf, h.contains_sim comp k hf, h.find_sim comp k hf,
    ?_⟩
  cases hft : find_t comp k T with
  | none =>
    have hnone := find_t_none hsw k T ((sorted_toList comp T).2 hi) hft
    refine ⟨⟨fun e => (by cases e), ?_⟩, fun e => (by cases e), ⟨fun _ => rfl, fun _ => rfl⟩⟩
    rintro ⟨e, he, hek⟩
    obtain ⟨n, hn, rfl⟩ := mem_nodes_of_mem_toList he
    exact absurd hek (hnone n hn)
  | some e =>
    obtain ⟨he, hek⟩ := find_t_mem comp k T e hft
    have hne := h.ne_nil_of_mem (mem_addrs_of_mem_nodes he)
    refine ⟨⟨fun _ => ⟨e.2, mem_toList_of_mem_nodes he, hek⟩, fun _ => rfl⟩,
      fun _ => ⟨e.2, mem_toList_of_mem_nodes he, hek, h.deref_sim e he _ _⟩, ?_⟩
    simp only [Option.isSome_some, end_it, Iterator.mk.injEq, and_true, hne]
    simp

/-- C5 at the tree `oneNode`, which holds `(5, 0)`, and the key 5. -/
theorem find_contains_sorted_witness :
    ∃ xs b it, oneNode.inorder 2 = .ok xs ∧ contains ltNat 2 oneNode 5 = .ok b ∧
      find ltNat 2 oneNode 5 = .ok it ∧ (b = true ↔ ∃ e ∈ xs, KeyEquiv ltNat 5 e.1) ∧
      (b = true → ∃ e ∈ xs, KeyEquiv ltNat 5 e.1 ∧ oneNode.deref it = .ok e) ∧
      (it = oneNode.end_it ↔ b = false) :=
  find_contains_sorted strictWeak_ltNat isTree_oneNode (by simp [oneNodeTree]) 5 (by decide)

/-- Two trees whose in-order sequences give the same entry for `j` answer `contains(j)`
and `find(j)` alike. -/
theorem same_answers {comp : K → K → Bool} (hsw : StrictWeak comp) {s s' : RedBlackTree K V}
    {T T' : Tree K V} (h : IsTree s T) (h' : IsTree s' T') (hi : Increasing comp T.nodes)
    (hi' : Increasing comp T'.nodes) {fuel : Nat} (hf : T.height < fuel)
    (hf' : T'.height < fuel) (j : K)
    (hfind : T'.nodes.find? (fun x => decide (KeyEquiv comp j x.2.1)) =
      T.nodes.find? (fun x => decide (KeyEquiv comp j x.2.1))) :
    (∃ c, contains comp fuel s j = .ok c ∧ contains comp fuel s' j = .ok c) ∧
      ∃ w, lookup comp fuel s j = .ok w ∧ lookup comp fuel s' j = .ok w := by
  have e : find_t comp j T' = find_t comp j T := by
    rw [find_t_eq_find hsw j T hi, find_t_eq_find hsw j T' hi', hfind]
  refine ⟨⟨_, h.contains_sim comp j hf, ?_⟩, ⟨_, h.lookup_sim comp j hf, ?_⟩⟩
  · rw [h'.contains_sim comp j hf', e]
  · rw [h'.lookup_sim comp j hf', e]

/-- A sequence of calls on the empty tree, with fuel for the largest tree on the way:
every call returns, and the tree at the end is valid, with strictly increasing keys. -/
theorem run_empty [Inhabited K] [Inhabited V] (comp : K → K → Bool) (ops : List (Op K V))
    {fuel : Nat} (hf : ops.length < fuel) :
    ∃ s T i e, run comp fuel ops empty = .ok (s, i, e) ∧ Valid s T ∧
      s.tree_size + e = i ∧ i + e ≤ ops.length ∧
      (StrictWeak comp → Increasing comp T.nodes) := by
  obtain ⟨s, T, i, e, h1, h2, h3, h4, h5⟩ := run_valid comp fuel ops empty .leaf Valid.empty_valid
    (by show 0 + ops.length < fuel; omega)
  refine ⟨s, T, i, e, h1, h2, ?_, h4, fun hsw => h5 hsw List.Pairwise.nil⟩
  have : (empty : RedBlackTree K V).tree_size = 0 := rfl
  omega

/-- C6: round trip in no-duplicates mode, for every tree reached from the empty tree by
calls of `insert` and `erase` and all keys `k`, `j` with `j` not equivalent to `k`: after
an `insert((k, v))` that returned true, `find(k)` is not `end()` and leads to `(k, v)`;
after `erase(k)`, `find(k)` is `end()` and `contains(k)` is false; and both calls leave
`contains(j)` and the value `find(j)` leads to as they were.  The tree is the one `run`
reaches with the calls `ops`; the loops run on `fuel`, and any amount above the number
of calls plus one is enough for every call to return. -/
theorem round_trip [Inhabited K] [Inhabited V] {comp : K → K → Bool} (hsw : StrictWeak comp)
    (ops : List (Op K V)) {fuel : Nat} (hf : ops.length + 1 < fuel) :
    ∃ s i e, run comp fuel ops empty = .ok (s, i, e) ∧
      (∀ k v, ∃ s' it b, insert comp false fuel s (k, v) = .ok (s', it, b) ∧
        (b = true → ∃ it', find comp fuel s' k = .ok it' ∧ it' ≠ s'.end_it ∧
          s'.deref it' = .ok (k, v)) ∧
        ∀ j, ¬KeyEquiv comp j k →
          (∃ c, contains comp fuel s j = .ok c ∧ contains comp fuel s' j = .ok c) ∧
          ∃ w, lookup comp fuel s j = .ok w ∧ lookup comp fuel s' j = .ok w) ∧
      (∀ k, ∃ s' b, erase comp fuel s k = .ok (s', b) ∧
        find comp fuel s' k = .ok s'.end_it ∧ contains comp fuel s' k = .ok false ∧
        ∀ j, ¬KeyEquiv comp j k →
          (∃ c, contains comp fuel s j = .ok c ∧ contains comp fuel s' j = .ok c) ∧
          ∃ w, lookup comp fuel s j = .ok w ∧ lookup comp fuel s' j = .ok w) := by
  obtain ⟨s, T, i, e, h1, hv, h3, h4, h5⟩ := run_empty comp ops
    (show ops.length < fuel by omega)
  have hi := h5 hsw
  have hsz : s.tree_size + 1 < fuel := by omega
  have hfT := hv.fuel_ok (show s.tree_size < fuel by omega)
  refine ⟨s, i, e, h1, ?_, ?_⟩
  · intro k v
    obtain ⟨s', T', it, b, e1, ht, hv', hz', -, -⟩ := hv.insert_valid comp k v
      (show s.tree_size < fuel by omega)
    have hb : b.toNat ≤ 1 := by cases b <;> simp
    have hfT' := hv'.fuel_ok (show s'.tree_size < fuel by omega)
    have hi' := insert_t_incr hsw s.brk k v T T' b ht hi
    refine ⟨s', it, b, e1, ?_, ?_⟩
    · rintro rfl
      obtain ⟨-, path, -, -, -, hn'⟩ := insert_t_true comp s.brk k v T T' ht
      have hmem : (s.brk, k, v) ∈ T'.nodes := by rw [hn']; simp
      have hft := find_t_of_mem hsw k T' hi' _ hmem (hsw.equiv_refl k)
      have hfind := hv'.tree.find_sim comp k hfT'
      rw [hft] at hfind
      refine ⟨_, hfind, ?_, hv'.tree.deref_sim _ hmem _ _⟩
      have hne := hv'.tree.ne_nil_of_mem (mem_addrs_of_mem_nodes hmem)
      simp only [end_it, ne_eq, Iterator.mk.injEq, and_true]
      exact hne
    · intro j hjk
      refine same_answers hsw hv.tree hv'.tree hi hi' hfT hfT' j ?_
      cases b with
      | false =>
        obtain ⟨rfl, -⟩ := insert_t_false comp s.brk k v T T' ht
        rfl
      | true =>
        obtain ⟨-, path, -, -, hn, hn'⟩ := insert_t_true comp s.brk k v T T' ht
        rw [hn, hn']
        exact find_skip hsw _ _ (s.brk, k, v) j k hjk (hsw.equiv_refl k)
  · intro k
    obtain ⟨s', T', b, e1, ht, hv', hz', -⟩ := hv.erase_valid comp k
      (show s.tree_size < fuel by omega)
    have hfT' := hv'.fuel_ok (show s'.tree_size < fuel by omega)
    have hi' := erase_t_incr k T T' b ht hi
    have hnone : find_t comp k T' = none := by
      cases b with
      | false =>
        obtain ⟨rfl, h⟩ := erase_t_false comp k T T' ht
        exact h
      | true =>
        obtain ⟨A, B, x, hft, hn, hn'⟩ := erase_t_true comp k T T' ht
        obtain ⟨-, hek⟩ := find_t_mem comp k T x hft
        rw [find_t_none_iff hsw k T' hi', hn']
        rw [hn] at hi
        exact hi.erase_not_equiv hsw hek
    have hfind := hv'.tree.find_sim comp k hfT'
    have hcont := hv'.tree.contains_sim comp k hfT'
    rw [hnone] at hfind hcont
    refine ⟨s', b, e1, hfind, hcont, ?_⟩
    intro j hjk
    refine same_answers hsw hv.tree hv'.tree hi hi' hfT hfT' j ?_
    cases b with
    | false =>
      obtain ⟨rfl, -⟩ := erase_t_false comp k T T' ht
      rfl
    | true =>
      obtain ⟨A, B, x, hft, hn, hn'⟩ := erase_t_true comp k T T' ht
      obtain ⟨-, hek⟩ := find_t_mem comp k T x hft
      rw [hn, hn']
      exact (find_skip hsw A B x j k hjk hek).symm

/-- C6 at the tree reached by inserting 10, 5, 15, 10 again and erasing 5. -/
theorem round_trip_witness :
    ∃ s i e, run ltNat 10 [.insert 10 0, .insert 5 0, .insert 15 0, .insert 10 1, .erase 5]
        (empty : RedBlackTree Nat Nat) = .ok (s, i, e) ∧
      (∀ k v, ∃ s' it b, insert ltNat false 10 s (k, v) = .ok (s', it, b) ∧
        (b = true → ∃ it', find ltNat 10 s' k = .ok it' ∧ it' ≠ s'.end_it ∧
          s'.deref it' = .ok (k, v)) ∧
        ∀ j, ¬KeyEquiv ltNat j k →
          (∃ c, contains ltNat 10 s j = .ok c ∧ contains ltNat 10 s' j = .ok c) ∧
          ∃ w, lookup ltNat 10 s j = .ok w ∧ lookup ltNat 10 s' j = .ok w) ∧
      (∀ k, ∃ s' b, erase ltNat 10 s k = .ok (s', b) ∧
        find ltNat 10 s' k = .ok s'.end_it ∧ contains ltNat 10 s' k = .ok false ∧
        ∀ j, ¬KeyEquiv ltNat j k →
          (∃ c, contains ltNat 10 s j = .ok c ∧ contains ltNat 10 s' j = .ok c) ∧
          ∃ w, lookup ltNat 10 s j = .ok w ∧ lookup ltNat 10 s' j = .ok w) :=
  round_trip strictWeak_ltNat [.insert 10 0, .insert 5 0, .insert 15 0, .insert 10 1, .erase 5]
    (by decide)

/-- C7: `insert` preserves the red-black invariants: for every tree in which the sentinel
is BLACK, the root is BLACK (or the tree is empty), no RED node has a RED child and the
black heights agree at every node, for every pair and in both modes, `insert` returns
and the tree afterwards satisfies the four properties again.  The loops run on `fuel`:
any amount above the height of the tree is enough. -/
theorem insert_preserves_rb (comp : K → K → Bool) (dup : Bool) {s : RedBlackTree K V}
    {T : Tree K V} (h : IsTree s T) (hs : SentinelBlack s) (hc : T.color = .BLACK)
    (hr : T.noRR) (hb : T.bhOK) (k : K) (v : V) {fuel : Nat} (hf : T.height < fuel) :
    ∃ s' T' it b, insert comp dup fuel s (k, v) = .ok (s', it, b) ∧ IsTree s' T' ∧
      SentinelBlack s' ∧ T'.color = .BLACK ∧ T'.noRR ∧ T'.bhOK := by
  obtain ⟨s', T', it, b, e1, h1, h2, h3, -⟩ := h.insert_spec comp dup k v hs hc hf
  obtain ⟨h4, h5, h6⟩ := insert_t_rb comp dup s.brk k v T T' b h1 hc hr hb
  exact ⟨s', T', it, b, e1, h2, h3, h4, h5, h6⟩

/-- C7 at the tree `oneNode`, which holds `(5, 0)`, and the pair `(3, 1)`. -/
theorem insert_preserves_rb_witness :
    ∃ s' T' it b, insert ltNat false 2 oneNode (3, 1) = .ok (s', it, b) ∧ IsTree s' T' ∧
      SentinelBlack s' ∧ T'.color = .BLACK ∧ T'.noRR ∧ T'.bhOK :=
  insert_preserves_rb ltNat false isTree_oneNode rfl rfl (by simp [oneNodeTree])
    (by simp [oneNodeTree]) 3 1 (by decide)

/-- C8: `erase` preserves the red-black invariants: for every tree in which the sentinel
is BLACK, the root is BLACK, no RED node has a RED child and the black heights agree at
every node, and for every key, present or not, `erase` returns and the tree afterwards
satisfies the four properties again.  The loops run on `fuel`: any amount above the
height of the tree is enough. -/
theorem erase_preserves_rb (comp : K → K → Bool) {s : RedBlackTree K V} {T : Tree K V}
    (h : IsTree s T) (hs : SentinelBlack s) (hc : T.color = .BLACK) (hr : T.noRR)
    (hb : T.bhOK) (k : K) {fuel : Nat} (hf : T.height < fuel) :
    ∃ s' T' b, erase comp fuel s k = .ok (s', b) ∧ IsTree s' T' ∧ SentinelBlack s' ∧
      T'.color = .BLACK ∧ T'.noRR ∧ T'.bhOK := by
  obtain ⟨s', T', b, e1, -, h2, h3, h4, h5, h6, -⟩ := h.erase_spec comp k hs hc hr hb hf
  exact ⟨s', T', b, e1, h2, h3, h4, h5, h6⟩

/-- C8 at the tree `oneNode`, which holds `(5, 0)`, and the key 5. -/
theorem erase_preserves_rb_witness :
    ∃ s' T' b, erase ltNat 2 oneNode 5 = .ok (s', b) ∧ IsTree s' T' ∧ SentinelBlack s' ∧
      T'.color = .BLACK ∧ T'.noRR ∧ T'.bhOK :=
  erase_preserves_rb ltNat isTree_oneNode rfl rfl (by simp [oneNodeTree])
    (by simp [oneNodeTree]) 5 (by decide)

/-- C9: in no-duplicates mode, for every tree reached from the empty tree by a sequence
of calls of `insert` and `erase`, the keys of `inorder()` are strictly increasing under
the ordering function: every key is ordered before every later one.  The tree is the one
`run` reaches with the calls `ops`; the loops run on `fuel`, and any amount above the
number of calls is enough for every call to return. -/
theorem inorder_strictly_increasing [Inhabited K] [Inhabited V] {comp : K → K → Bool}
    (hsw : StrictWeak comp) (ops : List (Op K V)) {fuel : Nat} (hf : ops.length < fuel) :
    ∃ s i e xs, run comp fuel ops empty = .ok (s, i, e) ∧ s.inorder fuel = .ok xs ∧
      xs.Pairwise fun a b => comp a.1 b.1 = true := by
  obtain ⟨s, T, i, e, h1, hv, h3, h4, h5⟩ := run_empty comp ops hf
  exact ⟨s, i, e, T.toList, h1, hv.tree.inorder_sim (hv.fuel_ok (by omega)),
    (increasing_toList comp T).1 (h5 hsw)⟩

/-- C9 at the tree reached by inserting 10, 5, 15, 10 again and erasing 5. -/
theorem inorder_strictly_increasing_witness :
    ∃ s i e xs, run ltNat 10 [.insert 10 0, .insert 5 0, .insert 15 0, .insert 10 1, .erase 5]
        (empty : RedBlackTree Nat Nat) = .ok (s, i, e) ∧ s.inorder 10 = .ok xs ∧
      xs.Pairwise fun a b => ltNat a.1 b.1 = true :=
  inorder_strictly_increasing strictWeak_ltNat
    [.insert 10 0, .insert 5 0, .insert 15 0, .insert 10 1, .erase 5] (by decide)

/-- C10: cardinality: for every tree reached from the empty tree by a sequence of calls
of `insert` and `erase`, `size()` is the number of nodes of the tree that hangs from the
root, is the length of `inorder()`, and is the number of inserts that returned true minus
the number of erases that returned true; `empty()` is true iff that number is 0.  The
tree is the one `run` reaches with the calls `ops`; the loops run on `fuel`, and any
amount above the number of calls is enough for every call to return. -/
theorem size_is_cardinality [Inhabited K] [Inhabited V] (comp : K → K → Bool)
    (ops : List (Op K V)) {fuel : Nat} (hf : ops.length < fuel) :
    ∃ s i e T xs, run comp fuel ops empty = .ok (s, i, e) ∧ IsTree s T ∧
      s.size = T.count ∧ s.inorder fuel = .ok xs ∧ s.size = xs.length ∧ e ≤ i ∧
      s.size = i - e ∧ (s.is_empty = true ↔ i - e = 0) := by
  obtain ⟨s, T, i, e, h1, hv, h3, h4, h5⟩ := run_empty comp ops hf
  have hsz : s.size = T.count := hv.size
  have hz : s.size = s.tree_size := rfl
  refine ⟨s, i, e, T, T.toList, h1, hv.tree, hsz, hv.tree.inorder_sim (hv.fuel_ok (by omega)),
    ?_, by omega, by omega, ?_⟩
  · rw [hsz, Tree.count_eq_length, Tree.toList_eq_map, List.length_map]
  · simp only [is_empty, beq_iff_eq]
    omega

/-- C10 at the tree reached by inserting 10, 5, 15, 10 again and erasing 5. -/
theorem size_is_cardinality_witness :
    ∃ s i e T xs, run ltNat 10 [.insert 10 0, .insert 5 0, .insert 15 0, .insert 10 1, .erase 5]
        (empty : RedBlackTree Nat Nat) = .ok (s, i, e) ∧ IsTree s T ∧
      s.size = T.count ∧ s.inorder 10 = .ok xs ∧ s.size = xs.length ∧ e ≤ i ∧
      s.size = i - e ∧ (s.is_empty = true ↔ i - e = 0) :=
  size_is_cardinality ltNat [.insert 10 0, .insert 5 0, .insert 15 0, .insert 10 1, .erase 5]
    (by decide)

/-- The sentinel's child links read from its cell. -/
theorem sentinelLinks_iff {s : RedBlackTree K V} (h0 : s.nil ≠ 0) :
    SentinelLinks s ↔ ∃ n, s.mem s.nil = some n ∧ n.left = 0 ∧ n.right = 0 := by
  unfold SentinelLinks left_of right_of load
  simp only [h0, if_false]
  cases s.mem s.nil with
  | none => simp
  | some n => simp

theorem SentinelLinks.of_cell_eq {s s' : RedBlackTree K V} (hl : SentinelLinks s)
    (hn : s'.nil = s.nil) (hm : s'.mem s.nil = s.mem s.nil) : SentinelLinks s' := by
  unfold SentinelLinks left_of right_of load at *
  rw [hn, hm]
  exact hl

theorem KeepsC.sentinelLinks {s s' : RedBlackTree K V} (k : KeepsC s s') (h0 : s.nil ≠ 0)
    (hl : SentinelLinks s) : SentinelLinks s' := by
  rw [sentinelLinks_iff h0] at hl
  obtain ⟨n, hn, e1, e2⟩ := hl
  obtain ⟨n', hn', e3, e4⟩ := k.links n hn
  rw [sentinelLinks_iff (k.keeps.nil_eq ▸ h0), k.keeps.nil_eq]
  exact ⟨n', hn', e3.trans e1, e4.trans e2⟩

theorem sentinelLinks_empty [Inhabited K] [Inhabited V] :
    SentinelLinks (empty : RedBlackTree K V) := by
  rw [sentinelLinks_iff (by show (1 : Nat) ≠ 0; omega)]
  exact ⟨⟨default, default, 0, 0, 0, .BLACK⟩, by simp [RedBlackTree.empty], rfl, rfl⟩

namespace IsTree

variable {s : RedBlackTree K V} {T : Tree K V}

/-- The source's `insert(val)` does not write to the sentinel. -/
theorem insert_sentinel (comp : K → K → Bool) (dup : Bool) (k : K) (v : V) (h : IsTree s T)
    (hs : SentinelBlack s) (hc : T.color = .BLACK) {fuel : Nat} (hf : T.height < fuel)
    {s' : RedBlackTree K V} {it : Iterator} {b : Bool}
    (he : insert comp dup fuel s (k, v) = .ok (s', it, b)) : s'.mem s.nil = s.mem s.nil := by
  generalize hp : ins_path comp dup k [] T = d
  obtain ⟨path, t⟩ := d
  cases t with
  | node p c l k' v' r =>
    have e1 := h.insert_sim_dup comp dup fuel k v T path p c l k' v' r hf hp
    rw [e1] at he
    cases he
    rfl
  | leaf =>
    obtain ⟨T1, hT1⟩ := insert_fix_z_isSome path (.node s.brk .RED .leaf k v .leaf)
      (by simp) (fun _ => by
        have hfill := fill_ins_path comp dup k [] T
        rw [hp] at hfill
        simp only [fill_nil] at hfill
        rw [rootColor, hfill, hc])
    obtain ⟨h1, hz, hzn⟩ := h.create_node k v
    obtain ⟨s1, hs1⟩ : ∃ s1, s1 = (s.create_node k v).1 := ⟨_, rfl⟩
    have hcn : s.create_node k v = (s1, s.brk) := by rw [hs1]; rfl
    rw [← hs1] at h1
    have hz0 : s.brk ≠ 0 := h.brk_ne
    have hm : s1.mem s.brk = some ⟨k, v, 0, s.nil, s.nil, .RED⟩ := by
      rw [hs1]; simp [RedBlackTree.create_node]
    have hnil : s1.nil = s.nil := by rw [hs1]; rfl
    have hbrk : s1.brk = s.brk + 1 := by rw [hs1]; rfl
    have hs1m : s1.mem s.nil = s.mem s.nil := by
      rw [hs1]
      simp only [RedBlackTree.create_node, Function.update_noteq (Ne.symm hzn)]
    have hs1b : SentinelBlack s1 := by
      unfold SentinelBlack color_of load at *
      rw [hnil, hs1m]
      exact hs
    have hl := load_of_mem hz0 hm
    have hloop := insert_loop_sim comp dup s1 k T [] fuel h1.rep hf
    rw [parentPtr_nil, ← h1.root_eq, hp] at hloop
    have hfill := fill_ins_path comp dup k [] T
    rw [hp] at hfill
    simp only [fill_nil] at hfill
    have hlen := length_ins_path_le comp dup k T
    rw [hp] at hlen
    have hdir := ins_path_dir comp dup k T [] (by simp)
    rw [hp] at hdir
    have h1' : IsTree s1 (fill path .leaf) := by rw [hfill]; exact h1
    rw [← hnil] at hm hzn
    obtain ⟨s2, e2, h2, k2⟩ := h1'.link_sim comp path k v s.brk hdir hm hz0 hzn
      (by rw [hfill]; exact hz) (by rw [hbrk]; exact Nat.lt_succ_self _)
    obtain ⟨s3, e3, h3, k3⟩ := insert_fix_sim fuel path s.brk .RED .leaf k v .leaf s2 T1 h2
      (k2.sentinel hs1b) hT1 (by simp only at hlen; omega)
    have k23 := k2.transN k3
    have e : insert comp dup fuel s (k, v) =
        .ok ({ s3 with tree_size := s3.tree_size + 1 }, ⟨s.brk, s3.nil, 0⟩, true) := by
      simp only [RedBlackTree.insert, hcn, key_of, hl, bind_ok, pure_eq_ok, hloop, loop_result,
        Bool.false_eq_true, if_false, e2, e3]
    rw [e] at he
    cases he
    show s3.mem s.nil = s.mem s.nil
    have := k23.sent
    rw [hnil] at this
    exact this.trans hs1m

/-- The source's `erase(key)` leaves the child links of the sentinel as they are. -/
theorem erase_sentinel (comp : K → K → Bool) (key : K) (h : IsTree s T) (hs : SentinelBlack s)
    (hc : T.color = .BLACK) (hr : T.noRR) (hb : T.bhOK) {fuel : Nat} (hf : T.height < fuel)
    (hl : SentinelLinks s) {s' : RedBlackTree K V} {b : Bool}
    (he : erase comp fuel s key = .ok (s', b)) : SentinelLinks s' := by
  obtain ⟨T', b', ht, -⟩ := erase_t_rb comp key T hc hr hb
  have hfind := h.find_helper_sim comp key hf
  have hfill := fill_ins_path comp false key [] T
  unfold erase_t at ht
  generalize ins_path comp false key [] T = d at ht hfind hfill
  obtain ⟨path, t⟩ := d
  cases t with
  | leaf =>
    have e : erase comp fuel s key = .ok (s, false) := by
      simp only [erase, hfind, Tree.ptr_leaf, bind_ok, if_true, pure_eq_ok]
    rw [e] at he
    cases he
    exact hl
  | node p c l k v r =>
    simp only [Option.map_eq_some', Prod.mk.injEq] at ht
    obtain ⟨T1, ht1, rfl, rfl⟩ := ht
    simp only [fill_nil] at hfill
    rw [← hfill] at h hf
    obtain ⟨-, hpn, -⟩ := h.mem_focus path p c l k v r
    obtain ⟨s1, e', h', k'⟩ := h.delete_node_sim path p c l k v r T1 hs ht1 hf
    have e : erase comp fuel s key = .ok ({ s1 with tree_size := s1.tree_size - 1 }, true) := by
      simp only [erase, hfind, Tree.ptr_node, bind_ok, hpn, if_false, e', pure_eq_ok]
    rw [e] at he
    cases he
    exact k'.sentinelLinks h.nil_ne hl

end IsTree

/-- A sequence of calls on a valid tree leaves the child links of the sentinel `nullptr`. -/
theorem run_links (comp : K → K → Bool) (fuel : Nat) :
    ∀ (ops : List (Op K V)) (s : RedBlackTree K V) (T : Tree K V), Valid s T →
      SentinelLinks s → s.tree_size + ops.length < fuel →
      ∀ s' i e, run comp fuel ops s = .ok (s', i, e) → SentinelLinks s' := by
  intro ops
  induction ops with
  | nil =>
    intro s T _ hl _ s' i e h
    simp only [run, pure_eq_ok, Except.ok.injEq, Prod.mk.injEq] at h
    rw [← h.1]
    exact hl
  | cons op ops ih =>
    intro s T hv hl hf s' i e h
    simp only [List.length_cons] at hf
    cases op with
    | insert k v =>
      obtain ⟨s1, T1, it, b, e1, -, hv1, hz1, -⟩ := hv.insert_valid comp k v
        (show s.tree_size < fuel by omega)
      have hm := hv.tree.insert_sentinel comp false k v hv.sentinel hv.root
        (hv.fuel_ok (show s.tree_size < fuel by omega)) e1
      have hn : s1.nil = s.nil := by
        obtain ⟨s2, T2, it2, b2, e2, -, -, -, hn2, -⟩ := hv.tree.insert_spec comp false k v
          hv.sentinel hv.root (hv.fuel_ok (show s.tree_size < fuel by omega))
        rw [e1] at e2
        cases e2
        exact hn2
      simp only [run, e1, bind_ok] at h
      generalize hr : run comp fuel ops s1 = r at h
      cases r with
      | error x => cases h
      | ok y =>
        obtain ⟨s2, i2, e2⟩ := y
        simp only [bind_ok, pure_eq_ok, Except.ok.injEq, Prod.mk.injEq] at h
        rw [← h.1]
        refine ih s1 T1 hv1 (hl.of_cell_eq hn hm) ?_ s2 i2 e2 hr
        have : b.toNat ≤ 1 := by cases b <;> simp
        omega
    | erase k =>
      obtain ⟨s1, T1, b, e1, -, hv1, hz1, -⟩ := hv.erase_valid comp k
        (show s.tree_size < fuel by omega)
      have hl1 := hv.tree.erase_sentinel comp k hv.sentinel hv.root hv.noRR hv.bhOK
        (hv.fuel_ok (show s.tree_size < fuel by omega)) hl e1
      simp only [run, e1, bind_ok] at h
      generalize hr : run comp fuel ops s1 = r at h
      cases r with
      | error x => cases h
      | ok y =>
        obtain ⟨s2, i2, e2⟩ := y
        simp only [bind_ok, pure_eq_ok, Except.ok.injEq, Prod.mk.injEq] at h
        rw [← h.1]
        exact ih s1 T1 hv1 hl1 (by omega) s2 i2 e2 hr

/-- A sequence of calls on the empty tree, with fuel for the largest tree on the way:
every call returns, and the tree at the end is valid, its sentinel has `nullptr` child
links, and its keys are strictly increasing. -/
theorem run_reach [Inhabited K] [Inhabited V] (comp : K → K → Bool) (ops : List (Op K V))
    {fuel : Nat} (hf : ops.length < fuel) :
    ∃ s T i e, run comp fuel ops empty = .ok (s, i, e) ∧ Valid s T ∧ SentinelLinks s ∧
      s.tree_size ≤ ops.length ∧ (StrictWeak comp → Increasing comp T.nodes) := by
  obtain ⟨s, T, i, e, h1, h2, h3, h4, h5⟩ := run_empty comp ops hf
  refine ⟨s, T, i, e, h1, h2, ?_, by omega, h5⟩
  exact run_links comp fuel ops empty .leaf Valid.empty_valid sentinelLinks_empty
    (by show 0 + ops.length < fuel; omega) s i e h1

/-- The lambda `dfs` of `height()` returns the number of nodes on the longest path down. -/
theorem height_dfs_sim (s : RedBlackTree K V) (t : Tree K V) : ∀ (par : Ptr) (fuel : Nat),
    Rep s.mem s.nil par t → t.height < fuel →
    s.height_dfs fuel (t.ptr s.nil) = .ok t.height := by
  induction t with
  | leaf =>
    intro par fuel _ hf
    obtain ⟨n, rfl⟩ : ∃ n, fuel = n + 1 := ⟨fuel - 1, by omega⟩
    simp [height_dfs]
  | node p c l k v r ihl ihr =>
    intro par fuel hr hf
    obtain ⟨n, rfl⟩ : ∃ n, fuel = n + 1 := ⟨fuel - 1, by omega⟩
    simp only [Rep_node] at hr
    obtain ⟨h0, h1, h2, h3, h4⟩ := hr
    have hl := load_of_mem h0 h2
    simp only [Tree.height_node] at hf
    simp only [height_dfs, Tree.ptr_node, h1, if_false, left_of, right_of, hl, bind_ok,
      ihl p n h3 (by omega), ihr p n h4 (by omega), pure_eq_ok, Tree.height_node]

/-- The source's `height()` on a state that holds a tree. -/
theorem IsTree.height_sim {s : RedBlackTree K V} {T : Tree K V} (h : IsTree s T) {fuel : Nat}
    (hf : T.height < fuel) : s.height fuel = .ok T.height := by
  have := height_dfs_sim s T s.nil fuel h.rep hf
  rw [← h.root_eq] at this
  exact this

/-- A tree with equal black heights has at least `2 ^ bh - 1` nodes. -/
theorem Tree.two_pow_bh_le (t : Tree K V) (hb : t.bhOK) : 2 ^ t.bh ≤ t.count + 1 := by
  induction t with
  | leaf => simp
  | node p c l k v r ihl ihr =>
    simp only [Tree.bhOK_node] at hb
    obtain ⟨h1, h2, h3⟩ := hb
    have e1 := ihl h1
    have e2 := ihr h2
    rw [← h3] at e2
    simp only [Tree.bh_node, Tree.count_node]
    have : 2 ^ (l.bh + if c = Color.BLACK then 1 else 0) ≤ 2 ^ (l.bh + 1) :=
      Nat.pow_le_pow_right (by omega) (by split <;> omega)
    rw [pow_succ] at this
    omega

/-- Without a RED node under a RED node, no path is longer than twice the black height, plus
one under a RED root. -/
theorem Tree.height_le_two_bh (t : Tree K V) (hr : t.noRR) (hb : t.bhOK) :
    t.height ≤ 2 * t.bh + (if t.color = .RED then 1 else 0) := by
  induction t with
  | leaf => simp
  | node p c l k v r ihl ihr =>
    simp only [Tree.bhOK_node] at hb
    simp only [Tree.noRR_node] at hr
    obtain ⟨b1, b2, b3⟩ := hb
    obtain ⟨r1, r2, r3⟩ := hr
    have e1 := ihl r1 b1
    have e2 := ihr r2 b2
    rw [← b3] at e2
    simp only [Tree.bh_node, Tree.height_node, Tree.color_node]
    cases c with
    | RED =>
      obtain ⟨c1, c2⟩ := r3 rfl
      simp only [c1, c2, reduceCtorEq, if_false, if_true, add_zero] at e1 e2 ⊢
      omega
    | BLACK =>
      simp only [reduceCtorEq, if_false, if_true] at e1 e2 ⊢
      have : (if l.color = Color.RED then 1 else 0) ≤ 1 := by split <;> omega
      have : (if r.color = Color.RED then 1 else 0) ≤ 1 := by split <;> omega
      omega

/-- The height bound of a red-black tree with a BLACK root. -/
theorem Tree.height_le_log (t : Tree K V) (hc : t.color = .BLACK) (hr : t.noRR) (hb : t.bhOK) :
    t.height ≤ 2 * Nat.log 2 (t.count + 1) ∧ 2 ^ t.height ≤ (t.count + 1) ^ 2 := by
  have h1 := t.height_le_two_bh hr hb
  have h2 := t.two_pow_bh_le hb
  simp only [hc, reduceCtorEq, if_false, add_zero] at h1
  have h3 : t.bh ≤ Nat.log 2 (t.count + 1) := Nat.le_log_of_pow_le (by omega) h2
  refine ⟨by omega, ?_⟩
  calc 2 ^ t.height ≤ 2 ^ (2 * t.bh) := Nat.pow_le_pow_right (by omega) h1
    _ = (2 ^ t.bh) ^ 2 := by rw [Nat.mul_comm, pow_mul]
    _ ≤ (t.count + 1) ^ 2 := Nat.pow_le_pow_left h2 2

/-- C11: height bound: for every tree reached from the empty tree by a sequence of calls of
`insert` and `erase`, with `n = size()` and `h = height()`, `h ≤ 2·log2(n + 1)` (with the
logarithm rounded down) and `2 ^ h ≤ (n + 1) ^ 2`.  The tree is the one `run` reaches with
the calls `ops`; the loops run on `fuel`, and any amount above the number of calls is enough
for every call to return. -/
theorem height_bound [Inhabited K] [Inhabited V] (comp : K → K → Bool) (ops : List (Op K V))
    {fuel : Nat} (hf : ops.length < fuel) :
    ∃ s i e h, run comp fuel ops empty = .ok (s, i, e) ∧ s.height fuel = .ok h ∧
      h ≤ 2 * Nat.log 2 (s.size + 1) ∧ 2 ^ h ≤ (s.size + 1) ^ 2 := by
  obtain ⟨s, T, i, e, h1, hv, h3, h4, -⟩ := run_empty comp ops hf
  have hb := T.height_le_log hv.root hv.noRR hv.bhOK
  have hz : s.size = T.count := hv.size
  rw [← hz] at hb
  exact ⟨s, i, e, T.height, h1, hv.tree.height_sim (hv.fuel_ok (by omega)), hb.1, hb.2⟩

/-- C11 at the tree reached by inserting 10, 5, 15, 10 again and erasing 5. -/
theorem height_bound_witness :
    ∃ s i e h, run ltNat 10 [.insert 10 0, .insert 5 0, .insert 15 0, .insert 10 1, .erase 5]
        (empty : RedBlackTree Nat Nat) = .ok (s, i, e) ∧ s.height 10 = .ok h ∧
      h ≤ 2 * Nat.log 2 (s.size + 1) ∧ 2 ^ h ≤ (s.size + 1) ^ 2 :=
  height_bound ltNat [.insert 10 0, .insert 5 0, .insert 15 0, .insert 10 1, .erase 5]
    (by decide)

@[simp]
theorem nextPtr_nil (nil : Ptr) : nextPtr nil ([] : List (Ptr × K × V)) = nil := rfl

@[simp]
theorem nextPtr_cons (nil : Ptr) (x : Ptr × K × V) (l : List (Ptr × K × V)) :
    nextPtr nil (x :: l) = x.1 := rfl

theorem nextPtr_append (nil : Ptr) {l : List (Ptr × K × V)} (hl : l ≠ []) (m : List (Ptr × K × V)) :
    nextPtr nil (l ++ m) = nextPtr nil l := by
  cases l with
  | nil => exact absurd rfl hl
  | cons x l => rfl

@[simp]
theorem prevPtr_nil (nil : Ptr) : prevPtr nil ([] : List (Ptr × K × V)) = nil := rfl

@[simp]
theorem prevPtr_concat (nil : Ptr) (x : Ptr × K × V) (l : List (Ptr × K × V)) :
    prevPtr nil (l ++ [x]) = x.1 := by
  simp [prevPtr]

theorem prevPtr_append (nil : Ptr) (l : List (Ptr × K × V)) {m : List (Ptr × K × V)}
    (hm : m ≠ []) : prevPtr nil (l ++ m) = prevPtr nil m := by
  unfold prevPtr
  rw [List.reverse_append]
  exact nextPtr_append nil (by simpa using hm) _

theorem nextPtr_mem (nil : Ptr) {l : List (Ptr × K × V)} (hl : l ≠ []) :
    nextPtr nil l ∈ l.map Prod.fst := by
  cases l with
  | nil => exact absurd rfl hl
  | cons x l => simp

theorem prevPtr_mem (nil : Ptr) {l : List (Ptr × K × V)} (hl : l ≠ []) :
    prevPtr nil l ∈ l.map Prod.fst := by
  have := nextPtr_mem nil (l := l.reverse) (by simpa using hl)
  simpa [prevPtr] using this

theorem nodes_ne_nil (p : Ptr) (c : Color) (l : Tree K V) (k : K) (v : V) (r : Tree K V) :
    (Tree.node p c l k v r).nodes ≠ [] := by
  simp

theorem Path.nodesL_append (p q : Path K V) : Path.nodesL (p ++ q) = Path.nodesL q ++ Path.nodesL p := by
  induction p with
  | nil => simp [Path.nodesL]
  | cons f fs ih => simp [Path.nodesL, ih]

theorem Path.nodesR_append (p q : Path K V) : Path.nodesR (p ++ q) = Path.nodesR p ++ Path.nodesR q := by
  induction p with
  | nil => simp [Path.nodesR]
  | cons f fs ih => simp [Path.nodesR, ih]

/-- Every place of the in-order sequence is a node of the tree: the path to it, and what
comes before and after it. -/
theorem Tree.nodes_split (T : Tree K V) : ∀ (A : List (Ptr × K × V)) (x : Ptr × K × V)
    (B : List (Ptr × K × V)), T.nodes = A ++ x :: B →
    ∃ path c l r, T = fill path (.node x.1 c l x.2.1 x.2.2 r) ∧
      A = Path.nodesL path ++ l.nodes ∧ B = r.nodes ++ Path.nodesR path := by
  induction T with
  | leaf =>
    intro A x B h
    simp at h
  | node q c L k v R ihl ihr =>
    intro A x B h
    simp only [Tree.nodes_node] at h
    rcases List.append_eq_append_iff.1 h with ⟨a', e1, e2⟩ | ⟨c', e1, e2⟩
    · cases a' with
      | nil =>
        simp only [List.nil_append, List.cons.injEq] at e2
        obtain ⟨rfl, rfl⟩ := e2
        exact ⟨[], c, L, R, rfl, by simpa [Path.nodesL] using e1, by simp [Path.nodesR]⟩
      | cons y a'' =>
        simp only [List.cons_append, List.cons.injEq] at e2
        obtain ⟨rfl, e2⟩ := e2
        obtain ⟨path, c1, l1, r1, h1, h2, h3⟩ := ihr a'' x B e2
        refine ⟨path ++ [Frame.right q c L k v], c1, l1, r1, ?_, ?_, ?_⟩
        · rw [fill_append, ← h1]; rfl
        · rw [Path.nodesL_append, e1, h2]
          simp [Path.nodesL, Frame.nodesL]
        · rw [Path.nodesR_append, h3]
          simp [Path.nodesR, Frame.nodesR]
    · cases c' with
      | nil =>
        simp only [List.nil_append, List.cons.injEq, List.append_nil] at e1 e2
        obtain ⟨rfl, rfl⟩ := e2
        exact ⟨[], c, L, R, rfl, by simpa [Path.nodesL] using e1.symm, by simp [Path.nodesR]⟩
      | cons y c'' =>
        simp only [List.cons_append, List.cons.injEq] at e2
        obtain ⟨rfl, e2⟩ := e2
        obtain ⟨path, c1, l1, r1, h1, h2, h3⟩ := ihl A x c'' e1
        refine ⟨path ++ [Frame.left q c k v R], c1, l1, r1, ?_, ?_, ?_⟩
        · rw [fill_append, ← h1]; rfl
        · rw [Path.nodesL_append, h2]
          simp [Path.nodesL, Frame.nodesL]
        · rw [Path.nodesR_append, e2, h3]
          simp [Path.nodesR, Frame.nodesR]

/-- The source's `minimum(x)` of the tree returns the first node in in-order. -/
theorem minimum_next (s : RedBlackTree K V) (t : Tree K V) : ∀ (par : Ptr) (fuel : Nat),
    Rep s.mem s.nil par t → t.height < fuel →
    s.minimum fuel (t.ptr s.nil) = .ok (nextPtr s.nil t.nodes) := by
  induction t with
  | leaf =>
    intro par fuel _ hf
    obtain ⟨n, rfl⟩ : ∃ n, fuel = n + 1 := ⟨fuel - 1, by omega⟩
    simp [RedBlackTree.minimum]
  | node p c l k v r ihl _ =>
    intro par fuel hr hf
    obtain ⟨n, rfl⟩ : ∃ n, fuel = n + 1 := ⟨fuel - 1, by omega⟩
    simp only [Rep_node] at hr
    obtain ⟨h0, h1, h2, h3, h4⟩ := hr
    have hl := load_of_mem h0 h2
    simp only [Tree.height_node] at hf
    cases l with
    | leaf =>
      simp [RedBlackTree.minimum, h1, left_of, hl]
    | node lp lc ll lk lv lr =>
      have hlp : lp ≠ s.nil := by simp only [Rep_node] at h3; exact h3.2.1
      have := ihl p n h3 (by omega)
      simp only [Tree.ptr_node] at this
      simp only [RedBlackTree.minimum, Tree.ptr_node, h1, if_false, left_of, hl, bind_ok,
        pure_eq_ok, hlp, this]
      rw [Tree.nodes_node p, nextPtr_append _ (nodes_ne_nil _ _ _ _ _ _)]

/-- The source's `maximum(x)` of the tree returns the last node in in-order. -/
theorem maximum_prev (s : RedBlackTree K V) (t : Tree K V) : ∀ (par : Ptr) (fuel : Nat),
    Rep s.mem s.nil par t → t.height < fuel →
    s.maximum fuel (t.ptr s.nil) = .ok (prevPtr s.nil t.nodes) := by
  induction t with
  | leaf =>
    intro par fuel _ hf
    obtain ⟨n, rfl⟩ : ∃ n, fuel = n + 1 := ⟨fuel - 1, by omega⟩
    simp [RedBlackTree.maximum]
  | node p c l k v r _ ihr =>
    intro par fuel hr hf
    obtain ⟨n, rfl⟩ : ∃ n, fuel = n + 1 := ⟨fuel - 1, by omega⟩
    simp only [Rep_node] at hr
    obtain ⟨h0, h1, h2, h3, h4⟩ := hr
    have hl := load_of_mem h0 h2
    simp only [Tree.height_node] at hf
    cases r with
    | leaf =>
      simp [RedBlackTree.maximum, h1, right_of, hl]
    | node rp rc rl rk rv rr =>
      have hrp : rp ≠ s.nil := by simp only [Rep_node] at h4; exact h4.2.1
      have := ihr p n h4 (by omega)
      simp only [Tree.ptr_node] at this
      simp only [RedBlackTree.maximum, Tree.ptr_node, h1, if_false, right_of, hl, bind_ok,
        pure_eq_ok, hrp, this]
      rw [Tree.nodes_node p, ← List.singleton_append, ← List.append_assoc,
        prevPtr_append _ _ (nodes_ne_nil _ _ _ _ _ _)]

/-- The source's `Iterator::minimum(x)` on a node returns the first node in in-order below
it. -/
theorem it_minimum_sim (s : RedBlackTree K V) (it : Iterator) (hn : it.nil = s.nil)
    (t : Tree K V) : ∀ (par : Ptr) (fuel : Nat), t ≠ .leaf →
    Rep s.mem s.nil par t → t.height ≤ fuel →
    it.minimum s fuel (t.ptr s.nil) = .ok (nextPtr s.nil t.nodes) := by
  induction t with
  | leaf => intro par fuel h; exact absurd rfl h
  | node p c l k v r ihl _ =>
    intro par fuel _ hr hf
    simp only [Tree.height_node] at hf
    obtain ⟨n, rfl⟩ : ∃ n, fuel = n + 1 := ⟨fuel - 1, by omega⟩
    simp only [Rep_node] at hr
    obtain ⟨h0, h1, h2, h3, h4⟩ := hr
    have hl := load_of_mem h0 h2
    cases l with
    | leaf =>
      simp [Iterator.minimum, left_of, hl, hn]
    | node lp lc ll lk lv lr =>
      have hlp : lp ≠ s.nil := by simp only [Rep_node] at h3; exact h3.2.1
      have := ihl p n (by simp) h3 (by omega)
      simp only [Tree.ptr_node] at this
      simp only [Iterator.minimum, Tree.ptr_node, left_of, hl, bind_ok, pure_eq_ok, hn, ne_eq,
        hlp, not_false_eq_true, if_true, this]
      rw [Tree.nodes_node p, nextPtr_append _ (nodes_ne_nil _ _ _ _ _ _)]

/-- The source's `Iterator::maximum(x)` on a node returns the last node in in-order below
it. -/
theorem it_maximum_sim (s : RedBlackTree K V) (it : Iterator) (hn : it.nil = s.nil)
    (t : Tree K V) : ∀ (par : Ptr) (fuel : Nat), t ≠ .leaf →
    Rep s.mem s.nil par t → t.height ≤ fuel →
    it.maximum s fuel (t.ptr s.nil) = .ok (prevPtr s.nil t.nodes) := by
  induction t with
  | leaf => intro par fuel h; exact absurd rfl h
  | node p c l k v r _ ihr =>
    intro par fuel _ hr hf
    simp only [Tree.height_node] at hf
    obtain ⟨n, rfl⟩ : ∃ n, fuel = n + 1 := ⟨fuel - 1, by omega⟩
    simp only [Rep_node] at hr
    obtain ⟨h0, h1, h2, h3, h4⟩ := hr
    have hl := load_of_mem h0 h2
    cases r with
    | leaf =>
      simp [Iterator.maximum, right_of, hl, hn]
    | node rp rc rl rk rv rr =>
      have hrp : rp ≠ s.nil := by simp only [Rep_node] at h4; exact h4.2.1
      have := ihr p n (by simp) h4 (by omega)
      simp only [Tree.ptr_node] at this
      simp only [Iterator.maximum, Tree.ptr_node, right_of, hl, bind_ok, pure_eq_ok, hn, ne_eq,
        hrp, not_false_eq_true, if_true, this]
      rw [Tree.nodes_node p, ← List.singleton_append, ← List.append_assoc,
        prevPtr_append _ _ (nodes_ne_nil _ _ _ _ _ _)]

namespace IsTree

variable {s : RedBlackTree K V}

theorem nextPtr_ne_zero {T : Tree K V} (h : IsTree s T) {l : List (Ptr × K × V)}
    (hl : ∀ e ∈ l, e.1 ∈ T.addrs) : nextPtr s.nil l ≠ 0 := by
  cases l with
  | nil => exact h.nil_ne
  | cons x l =>
    intro e
    exact h.rep.zero_not_mem (e ▸ hl x (by simp))

theorem nextPtr_ne_nil {T : Tree K V} (h : IsTree s T) (x : Ptr × K × V)
    (l : List (Ptr × K × V)) (hx : x.1 ∈ T.addrs) : nextPtr s.nil (x :: l) ≠ s.nil := by
  intro e
  exact h.rep.nil_not_mem (e ▸ hx)

/-- The loop of `successor` that walks up from the subtree `t`: it ends at the first
node that comes after `t` in in-order, or at the sentinel. -/
theorem climb_right_sim (path : Path K V) : ∀ (t : Tree K V) (fuel : Nat), t ≠ .leaf →
    IsTree s (fill path t) → (Path.nodesR path = [] → s.right_of s.nil = .ok 0) →
    path.length < fuel →
    Iterator.climb_right s fuel (t.ptr s.nil) (parentPtr s.nil path) =
      .ok (nextPtr s.nil (Path.nodesR path)) := by
  induction path with
  | nil =>
    intro t fuel ht h hl hf
    obtain ⟨n, rfl⟩ : ∃ n, fuel = n + 1 := ⟨fuel - 1, by omega⟩
    cases t with
    | leaf => exact absurd rfl ht
    | node p c l k v r =>
      obtain ⟨h0, -, -⟩ := h.mem_focus [] p c l k v r
      simp only [Iterator.climb_right, parentPtr_nil, h.nil_ne, if_false, hl rfl, bind_ok,
        Tree.ptr_node, h0, pure_eq_ok, Path.nodesR, nextPtr_nil]
  | cons f fs ih =>
    intro t fuel ht h hl hf
    simp only [List.length_cons] at hf
    obtain ⟨n, rfl⟩ : ∃ n, fuel = n + 1 := ⟨fuel - 1, by omega⟩
    obtain ⟨hP0, hPn, hPl, hPd⟩ := h.parent_facts (f :: fs) t f fs rfl
    cases t with
    | leaf => exact absurd rfl ht
    | node p c l k v r =>
      have hne := (hPd p (by simp)).2
      cases f with
      | left P cP kP vP rP =>
        simp only [Frame.sib, Frame.ptr_left, Frame.cell, Tree.ptr_node] at hne hP0 hPl ⊢
        simp only [Iterator.climb_right, parentPtr_cons, Frame.ptr_left, hP0, if_false,
          right_of, load_eq_loadM, hPl, bind_ok, pure_eq_ok, hne, Path.nodesR, Frame.nodesR,
          List.cons_append, nextPtr_cons]
      | right P cP lP kP vP =>
        simp only [Frame.ptr_right, Frame.cell, Tree.ptr_node] at hP0 hPl ⊢
        have := ih (.node P cP lP kP vP (.node p c l k v r)) n (by simp) h
          (fun e => hl (by simpa [Path.nodesR, Frame.nodesR] using e)) (by omega)
        simp only [Tree.ptr_node] at this
        simp only [Iterator.climb_right, parentPtr_cons, Frame.ptr_right, hP0, if_false,
          right_of, parent_of, load_eq_loadM, hPl, bind_ok, pure_eq_ok, if_true, this,
          Path.nodesR, Frame.nodesR, List.nil_append]

/-- The loop of `predecessor` that walks up from the subtree `t`: it ends at the last
node that comes before `t` in in-order, or at the sentinel. -/
theorem climb_left_sim (path : Path K V) : ∀ (t : Tree K V) (fuel : Nat), t ≠ .leaf →
    IsTree s (fill path t) → (Path.nodesL path = [] → s.left_of s.nil = .ok 0) →
    path.length < fuel →
    Iterator.climb_left s fuel (t.ptr s.nil) (parentPtr s.nil path) =
      .ok (prevPtr s.nil (Path.nodesL path)) := by
  induction path with
  | nil =>
    intro t fuel ht h hl hf
    obtain ⟨n, rfl⟩ : ∃ n, fuel = n + 1 := ⟨fuel - 1, by omega⟩
    cases t with
    | leaf => exact absurd rfl ht
    | node p c l k v r =>
      obtain ⟨h0, -, -⟩ := h.mem_focus [] p c l k v r
      simp only [Iterator.climb_left, parentPtr_nil, h.nil_ne, if_false, hl rfl, bind_ok,
        Tree.ptr_node, h0, pure_eq_ok, Path.nodesL, prevPtr_nil]
  | cons f fs ih =>
    intro t fuel ht h hl hf
    simp only [List.length_cons] at hf
    obtain ⟨n, rfl⟩ : ∃ n, fuel = n + 1 := ⟨fuel - 1, by omega⟩
    obtain ⟨hP0, hPn, hPl, hPd⟩ := h.parent_facts (f :: fs) t f fs rfl
    cases t with
    | leaf => exact absurd rfl ht
    | node p c l k v r =>
      have hne := (hPd p (by simp)).2
      cases f with
      | right P cP lP kP vP =>
        simp only [Frame.sib, Frame.ptr_right, Frame.cell, Tree.ptr_node] at hne hP0 hPl ⊢
        simp only [Iterator.climb_left, parentPtr_cons, Frame.ptr_right, hP0, if_false,
          left_of, load_eq_loadM, hPl, bind_ok, pure_eq_ok, hne, Path.nodesL, Frame.nodesL]
        rw [← List.append_assoc, prevPtr_concat]
      | left P cP kP vP rP =>
        simp only [Frame.ptr_left, Frame.cell, Tree.ptr_node] at hP0 hPl ⊢
        have := ih (.node P cP (.node p c l k v r) kP vP rP) n (by simp) h
          (fun e => hl (by simpa [Path.nodesL, Frame.nodesL] using e)) (by omega)
        simp only [Tree.ptr_node] at this
        simp only [Iterator.climb_left, parentPtr_cons, Frame.ptr_left, hP0, if_false,
          left_of, parent_of, load_eq_loadM, hPl, bind_ok, pure_eq_ok, if_true, this,
          Path.nodesL, Frame.nodesL, List.append_nil]

theorem mem_addrs_of_nodesR (path : Path K V) (t : Tree K V) :
    ∀ e ∈ Path.nodesR path, e.1 ∈ (fill path t).addrs := by
  intro e he
  rw [Tree.addrs_eq_map, nodes_fill]
  exact List.mem_map_of_mem _ (by simp [he])

theorem mem_addrs_of_nodesL (path : Path K V) (t : Tree K V) :
    ∀ e ∈ Path.nodesL path, e.1 ∈ (fill path t).addrs := by
  intro e he
  rw [Tree.addrs_eq_map, nodes_fill]
  exact List.mem_map_of_mem _ (by simp [he])

/-- The source's `successor(x)` returns the node that comes after `x` in in-order, or the
sentinel when `x` is the last one. -/
theorem successor_sim (path : Path K V) (p : Ptr) (c : Color) (l : Tree K V) (k : K) (v : V)
    (r : Tree K V) (h : IsTree s (fill path (.node p c l k v r))) (it : Iterator)
    (hn : it.nil = s.nil)
    (hl : r.nodes ++ Path.nodesR path = [] → s.right_of s.nil = .ok 0) {fuel : Nat}
    (hf : (fill path (.node p c l k v r)).height ≤ fuel) :
    it.successor s fuel p = .ok (nextPtr s.nil (r.nodes ++ Path.nodesR path)) := by
  have hh := height_fill path (.node p c l k v r)
  simp only [Tree.height_node] at hh
  have hr := h.right_of_focus path p c l k v r
  cases r with
  | leaf =>
    have hc := h.climb_right_sim path (.node p c l k v .leaf) fuel (by simp)
      (fun e => hl (by simpa using e)) (by omega)
    have h0 := h.nextPtr_ne_zero (mem_addrs_of_nodesR path _)
    simp only [Tree.ptr_node] at hc
    simp only [Iterator.successor, hr, Tree.ptr_leaf, bind_ok, hn, ne_eq, not_true_eq_false,
      if_false, h.parent_of_focus path p c l k v .leaf, hc, h0, not_false_eq_true, if_true,
      pure_eq_ok, Tree.nodes_leaf, List.nil_append]
  | node rp rc rl rk rv rr =>
    have hrep := ((Rep_fill path _).1 h.rep).2
    rw [Rep_node] at hrep
    have hrn : rp ≠ s.nil := by
      have := hrep.2.2.2.2
      simp only [Rep_node] at this
      exact this.2.1
    have hm := it_minimum_sim s it hn (.node rp rc rl rk rv rr) p fuel (by simp)
      hrep.2.2.2.2 (by omega)
    simp only [Tree.ptr_node] at hm hr
    simp only [Iterator.successor, hr, bind_ok, hn, ne_eq, hrn, not_false_eq_true, if_true, hm]
    rw [nextPtr_append _ (nodes_ne_nil _ _ _ _ _ _)]

/-- The source's `predecessor(x)` returns the node that comes before `x` in in-order, or
the sentinel when `x` is the first one. -/
theorem predecessor_sim (path : Path K V) (p : Ptr) (c : Color) (l : Tree K V) (k : K) (v : V)
    (r : Tree K V) (h : IsTree s (fill path (.node p c l k v r))) (it : Iterator)
    (hn : it.nil = s.nil)
    (hl : Path.nodesL path ++ l.nodes = [] → s.left_of s.nil = .ok 0) {fuel : Nat}
    (hf : (fill path (.node p c l k v r)).height ≤ fuel) :
    it.predecessor s fuel p = .ok (prevPtr s.nil (Path.nodesL path ++ l.nodes)) := by
  have hh := height_fill path (.node p c l k v r)
  simp only [Tree.height_node] at hh
  have hlf := h.left_of_focus path p c l k v r
  cases l with
  | leaf =>
    have hc := h.climb_left_sim path (.node p c .leaf k v r) fuel (by simp)
      (fun e => hl (by simpa using e)) (by omega)
    have h0 : prevPtr s.nil (Path.nodesL path) ≠ 0 :=
      h.nextPtr_ne_zero (fun e he => mem_addrs_of_nodesL path _ e (by simpa using he))
    simp only [Tree.ptr_node] at hc
    simp only [Iterator.predecessor, hlf, Tree.ptr_leaf, bind_ok, hn, ne_eq, not_true_eq_false,
      if_false, h.parent_of_focus path p c .leaf k v r, hc, h0, not_false_eq_true, if_true,
      pure_eq_ok, Tree.nodes_leaf, List.append_nil]
  | node lp lc ll lk lv lr =>
    have hrep := ((Rep_fill path _).1 h.rep).2
    rw [Rep_node] at hrep
    have hln : lp ≠ s.nil := by
      have := hrep.2.2.2.1
      simp only [Rep_node] at this
      exact this.2.1
    have hm := it_maximum_sim s it hn (.node lp lc ll lk lv lr) p fuel (by simp)
      hrep.2.2.2.1 (by omega)
    simp only [Tree.ptr_node] at hm hlf
    simp only [Iterator.predecessor, hlf, bind_ok, hn, ne_eq, hln, not_false_eq_true, if_true,
      hm]
    rw [prevPtr_append _ _ (nodes_ne_nil _ _ _ _ _ _)]

variable {T : Tree K V}

/-- The source's `operator++` on an iterator to a node: it leads to the next node in
in-order, or to the sentinel after the last one. -/
theorem incr_sim (h : IsTree s T) (A : List (Ptr × K × V)) (x : Ptr × K × V)
    (B : List (Ptr × K × V)) (hT : T.nodes = A ++ x :: B) (nil root : Ptr) (hn : nil = s.nil)
    (hl : B = [] → s.right_of s.nil = .ok 0) {fuel : Nat} (hf : T.height ≤ fuel) :
    Iterator.incr ⟨x.1, nil, root⟩ s fuel = .ok ⟨nextPtr s.nil B, nil, root⟩ := by
  obtain ⟨path, c, l, r, rfl, -, rfl⟩ := T.nodes_split A x B hT
  have := h.successor_sim path x.1 c l x.2.1 x.2.2 r ⟨x.1, nil, root⟩ hn hl hf
  simp only [Iterator.incr, this, bind_ok, pure_eq_ok]

/-- The source's `operator--` on an iterator to a node: it leads to the node before it in
in-order, or to the sentinel before the first one. -/
theorem decr_sim (h : IsTree s T) (A : List (Ptr × K × V)) (x : Ptr × K × V)
    (B : List (Ptr × K × V)) (hT : T.nodes = A ++ x :: B) (nil root : Ptr) (hn : nil = s.nil)
    (hl : A = [] → s.left_of s.nil = .ok 0) {fuel : Nat} (hf : T.height ≤ fuel) :
    Iterator.decr ⟨x.1, nil, root⟩ s fuel = .ok ⟨prevPtr s.nil A, nil, root⟩ := by
  subst hn
  obtain ⟨path, c, l, r, rfl, rfl, -⟩ := T.nodes_split A x B hT
  have := h.predecessor_sim path x.1 c l x.2.1 x.2.2 r ⟨x.1, s.nil, root⟩ rfl hl hf
  have hx : x.1 ≠ s.nil := (h.mem_focus path x.1 c l x.2.1 x.2.2 r).2.1
  simp only [Iterator.decr, hx, if_false, this, bind_ok, pure_eq_ok]

/-- The source's `operator--` on an iterator that identifies end and holds the root of a
tree that is not empty: it leads to the last node in in-order. -/
theorem decr_end_sim (h : IsTree s T) (hT : T ≠ .leaf) {fuel : Nat} (hf : T.height ≤ fuel) :
    Iterator.decr ⟨s.nil, s.nil, s.root⟩ s fuel = .ok ⟨prevPtr s.nil T.nodes, s.nil, s.root⟩ := by
  have := it_maximum_sim s ⟨s.nil, s.nil, s.root⟩ rfl T s.nil fuel hT h.rep hf
  rw [← h.root_eq] at this
  simp only [Iterator.decr, if_true, this, bind_ok, pure_eq_ok]

/-- The source's `begin()` leads to the first node in in-order, or to the sentinel. -/
theorem begin_sim (h : IsTree s T) {fuel : Nat} (hf : T.height < fuel) :
    s.begin_it fuel = .ok ⟨nextPtr s.nil T.nodes, s.nil, s.root⟩ := by
  have := minimum_next s T s.nil fuel h.rep hf
  rw [← h.root_eq] at this
  simp only [begin_it, this, bind_ok, pure_eq_ok]

variable {s : RedBlackTree K V} {T : Tree K V}

theorem nodup_nodes (h : IsTree s T) : (T.nodes.map Prod.fst).Nodup := by
  rw [← Tree.addrs_eq_map]
  exact h.nodup

theorem mem_addrs_of_split (A : List (Ptr × K × V)) (x : Ptr × K × V) (B : List (Ptr × K × V))
    (hT : T.nodes = A ++ x :: B) : x.1 ∈ T.addrs := by
  rw [Tree.addrs_eq_map, hT]
  exact List.mem_map_of_mem _ (by simp)

/-- A node differs from every node that comes after it, and from the sentinel. -/
theorem ne_nextPtr (h : IsTree s T) (A : List (Ptr × K × V)) (x : Ptr × K × V)
    (M C : List (Ptr × K × V)) (hT : T.nodes = A ++ x :: M ++ C) :
    x.1 ≠ nextPtr s.nil C := by
  cases C with
  | nil =>
    intro e
    have hx := mem_addrs_of_split (T := T) A x M (by simpa using hT)
    rw [e] at hx
    exact h.rep.nil_not_mem hx
  | cons y C =>
    have hn := h.nodup_nodes
    rw [hT] at hn
    simp only [List.map_append, List.map_cons, List.append_assoc, List.cons_append,
      List.nodup_append, List.nodup_cons, List.mem_append, List.mem_cons, List.mem_map,
      not_or, List.Disjoint] at hn
    intro e
    exact hn.2.1.1.2.1 e

/-- The loop `for (; it != last; ++it)` from a node to a later one, or to the sentinel:
it visits the nodes in between, in in-order. -/
theorem visit_range_sim (h : IsTree s T) : ∀ (M A C : List (Ptr × K × V)) (fuel : Nat),
    T.nodes = A ++ M ++ C → (C = [] → M ≠ [] → s.right_of s.nil = .ok 0) →
    T.height + M.length < fuel → ∀ root nl rl : Ptr,
    s.visit_range fuel ⟨nextPtr s.nil (M ++ C), s.nil, root⟩ ⟨nextPtr s.nil C, nl, rl⟩ =
      .ok (M.map Prod.snd) := by
  intro M
  induction M with
  | nil =>
    intro A C fuel _ _ hf root nl rl
    obtain ⟨n, rfl⟩ : ∃ n, fuel = n + 1 := ⟨fuel - 1, by omega⟩
    simp [visit_range, Iterator.ne]
  | cons x M ih =>
    intro A C fuel hT hl hf root nl rl
    simp only [List.length_cons] at hf
    obtain ⟨n, rfl⟩ : ∃ n, fuel = n + 1 := ⟨fuel - 1, by omega⟩
    have hT' : T.nodes = A ++ x :: (M ++ C) := by simpa using hT
    have hne := h.ne_nextPtr A x M C (by simpa using hT)
    have hd := h.deref_sim x (by rw [hT']; simp) s.nil root
    have hi := h.incr_sim A x (M ++ C) hT' s.nil root rfl
      (fun e => hl (by simp at e; exact e.2) (by simp)) (show T.height ≤ n by omega)
    have := ih (A ++ [x]) C n (by simpa using hT)
      (fun e1 e2 => hl e1 (by simp)) (by omega) root nl rl
    simp only [visit_range, Iterator.ne, List.cons_append, nextPtr_cons, ne_eq, hne,
      not_false_eq_true, decide_True, if_true, hd, bind_ok, hi, this, pure_eq_ok,
      List.map_cons]

/-- Forward iteration visits the in-order sequence. -/
theorem iterate_sim (h : IsTree s T) (hl : s.right_of s.nil = .ok 0) {fuel : Nat}
    (hf : T.height + T.count < fuel) : s.iterate fuel = .ok T.toList := by
  have hb := h.begin_sim (show T.height < fuel by omega)
  have := h.visit_range_sim T.nodes [] [] fuel (by simp) (fun _ _ => hl)
    (by rw [← Tree.count_eq_length]; exact hf) s.root s.nil s.root
  simp only [List.append_nil, nextPtr_nil] at this
  simp only [iterate, hb, bind_ok, end_it, this, Tree.toList_eq_map]

/-- An earlier node differs from what a later place of the sequence starts with. -/
theorem nextPtr_ne (h : IsTree s T) (A : List (Ptr × K × V)) (a : Ptr × K × V)
    (B : List (Ptr × K × V)) (hT : T.nodes = A ++ [a] ++ B) :
    nextPtr s.nil B ≠ nextPtr s.nil T.nodes := by
  have hn := h.nodup_nodes
  rw [hT] at hn ⊢
  cases A with
  | nil =>
    simp only [List.nil_append, List.singleton_append, nextPtr_cons]
    exact (h.ne_nextPtr [] a [] B (by simpa using hT)).symm
  | cons z A =>
    simp only [List.cons_append, nextPtr_cons]
    exact (h.ne_nextPtr [] z (A ++ [a]) B (by simpa using hT)).symm

/-- The loop `for (; rit != rlast; ++rit)` over reverse iterators, from a place of the
sequence down to `rend()`: it visits what comes before the place, last node first. -/
theorem visit_reverse_sim (h : IsTree s T) : ∀ (A B : List (Ptr × K × V)) (fuel : Nat),
    T.nodes = A ++ B → T.height + A.length < fuel → ∀ nl rl : Ptr,
    s.visit_reverse fuel ⟨⟨nextPtr s.nil B, s.nil, s.root⟩⟩ ⟨⟨nextPtr s.nil T.nodes, nl, rl⟩⟩ =
      .ok (A.map Prod.snd).reverse := by
  intro A
  induction A using List.reverseRecOn with
  | nil =>
    intro B fuel hT hf nl rl
    obtain ⟨n, rfl⟩ : ∃ n, fuel = n + 1 := ⟨fuel - 1, by omega⟩
    simp only [List.nil_append] at hT
    simp [visit_reverse, ReverseIterator.ne, Iterator.ne, hT]
  | append_singleton A a ih =>
    intro B fuel hT hf nl rl
    simp only [List.length_append, List.length_singleton] at hf
    obtain ⟨n, rfl⟩ : ∃ n, fuel = n + 1 := ⟨fuel - 1, by omega⟩
    have hne := h.nextPtr_ne A a B hT
    have hd : Iterator.decr ⟨nextPtr s.nil B, s.nil, s.root⟩ s n = .ok ⟨a.1, s.nil, s.root⟩ := by
      cases B with
      | nil =>
        have hT0 : T ≠ .leaf := by
          rintro rfl
          simp at hT
        have := h.decr_end_sim hT0 (show T.height ≤ n by omega)
        rw [hT] at this
        simpa using this
      | cons x B =>
        have := h.decr_sim (A ++ [a]) x B hT s.nil s.root rfl (fun e => by simp at e)
          (show T.height ≤ n by omega)
        simpa using this
    have hv := h.deref_sim a (by rw [hT]; simp) s.nil s.root
    have := ih (a :: B) n (by simpa using hT) (by omega) nl rl
    simp only [nextPtr_cons] at this
    simp only [visit_reverse, ReverseIterator.ne, Iterator.ne, ne_eq, hne, not_false_eq_true,
      decide_True, if_true, ReverseIterator.deref, hd, bind_ok, hv, ReverseIterator.incr,
      pure_eq_ok, this, List.map_append, List.map_cons, List.map_nil, List.reverse_append,
      List.reverse_cons, List.reverse_nil, List.nil_append, List.singleton_append]

/-- Reverse iteration visits the in-order sequence backwards. -/
theorem iterate_reverse_sim (h : IsTree s T) {fuel : Nat} (hf : T.height + T.count < fuel) :
    s.iterate_reverse fuel = .ok T.toList.reverse := by
  have hb := h.begin_sim (show T.height < fuel by omega)
  have := h.visit_reverse_sim T.nodes [] fuel (by simp)
    (by rw [← Tree.count_eq_length]; exact hf) s.nil s.root
  simp only [nextPtr_nil] at this
  simp only [iterate_reverse, rend, hb, bind_ok, pure_eq_ok, rbegin, end_it, this,
    Tree.toList_eq_map]

end IsTree

theorem lower_bound_loop_sim (comp : K → K → Bool) (s : RedBlackTree K V) (key : K)
    (t : Tree K V) : ∀ (par result : Ptr) (fuel : Nat), Rep s.mem s.nil par t →
    t.height < fuel →
    lower_bound_loop comp s key fuel (t.ptr s.nil) result = .ok (lower_t comp key t result) := by
  induction t with
  | leaf =>
    intro par result fuel _ hf
    obtain ⟨n, rfl⟩ : ∃ n, fuel = n + 1 := ⟨fuel - 1, by omega⟩
    simp [lower_bound_loop, lower_t]
  | node p c l k v r ihl ihr =>
    intro par result fuel hr hf
    obtain ⟨n, rfl⟩ : ∃ n, fuel = n + 1 := ⟨fuel - 1, by omega⟩
    simp only [Rep_node] at hr
    obtain ⟨h0, h1, h2, h3, h4⟩ := hr
    have hl := load_of_mem h0 h2
    simp only [Tree.height_node] at hf
    simp only [lower_bound_loop, Tree.ptr_node, h1, if_false, hl, bind_ok, lower_t]
    split
    · exact ihl p p n h3 (by omega)
    · exact ihr p result n h4 (by omega)

theorem upper_bound_loop_sim (comp : K → K → Bool) (s : RedBlackTree K V) (key : K)
    (t : Tree K V) : ∀ (par result : Ptr) (fuel : Nat), Rep s.mem s.nil par t →
    t.height < fuel →
    upper_bound_loop comp s key fuel (t.ptr s.nil) result = .ok (upper_t comp key t result) := by
  induction t with
  | leaf =>
    intro par result fuel _ hf
    obtain ⟨n, rfl⟩ : ∃ n, fuel = n + 1 := ⟨fuel - 1, by omega⟩
    simp [upper_bound_loop, upper_t]
  | node p c l k v r ihl ihr =>
    intro par result fuel hr hf
    obtain ⟨n, rfl⟩ : ∃ n, fuel = n + 1 := ⟨fuel - 1, by omega⟩
    simp only [Rep_node] at hr
    obtain ⟨h0, h1, h2, h3, h4⟩ := hr
    have hl := load_of_mem h0 h2
    simp only [Tree.height_node] at hf
    simp only [upper_bound_loop, Tree.ptr_node, h1, if_false, hl, bind_ok, upper_t]
    split
    · exact ihl p p n h3 (by omega)
    · exact ihr p result n h4 (by omega)

theorem nextPtr_append_cons (res : Ptr) (B : List (Ptr × K × V)) (x : Ptr × K × V)
    (C : List (Ptr × K × V)) : nextPtr res (B ++ x :: C) = nextPtr x.1 B := by
  cases B <;> rfl

/-- On sorted keys, the descent of `lower_bound` ends at the first node whose key is not
ordered before `key`: the nodes before it are ordered before `key`, the others are not. -/
theorem lower_t_spec {comp : K → K → Bool} (hsw : StrictWeak comp) (key : K) :
    ∀ (t : Tree K V) (result : Ptr), Sorted comp t.nodes →
    ∃ A B, t.nodes = A ++ B ∧ (∀ a ∈ A, comp a.2.1 key = true) ∧
      (∀ b ∈ B, comp b.2.1 key = false) ∧ lower_t comp key t result = nextPtr result B := by
  intro t
  induction t with
  | leaf => intro result _; exact ⟨[], [], rfl, by simp, by simp, rfl⟩
  | node p c l k v r ihl ihr =>
    intro result hs
    simp only [Tree.nodes_node, Sorted] at hs
    obtain ⟨hsl, hsr, hlr⟩ := List.pairwise_append.1 hs
    rw [List.pairwise_cons] at hsr
    cases hk : comp k key with
    | false =>
      obtain ⟨A, B, e, hA, hB, hres⟩ := ihl p hsl
      refine ⟨A, B ++ (p, k, v) :: r.nodes, by simp [e], hA, ?_, ?_⟩
      · intro b hb
        simp only [List.mem_append, List.mem_cons] at hb
        rcases hb with hb | rfl | hb
        · exact hB b hb
        · exact hk
        · cases hbk : comp b.2.1 key with
          | false => rfl
          | true =>
            rcases hsw.neg_trans hbk k with h1 | h1
            · rw [hsr.1 b hb] at h1; cases h1
            · rw [hk] at h1; cases h1
      · simp only [lower_t, hk, Bool.not_false, if_true, hres, nextPtr_append_cons]
    | true =>
      obtain ⟨A, B, e, hA, hB, hres⟩ := ihr result hsr.2
      refine ⟨l.nodes ++ (p, k, v) :: A, B, by simp [e], ?_, hB, ?_⟩
      · intro a ha
        simp only [List.mem_append, List.mem_cons] at ha
        rcases ha with ha | rfl | ha
        · exact hsw.lt_of_le_of_lt (hlr a ha (p, k, v) (by simp)) hk
        · exact hk
        · exact hA a ha
      · simp only [lower_t, hk, Bool.not_true, Bool.false_eq_true, if_false, hres]

/-- On sorted keys, the descent of `upper_bound` ends at the first node whose key is
ordered after `key`: `key` is not ordered before the nodes before it, and is ordered
before the others. -/
theorem upper_t_spec {comp : K → K → Bool} (hsw : StrictWeak comp) (key : K) :
    ∀ (t : Tree K V) (result : Ptr), Sorted comp t.nodes →
    ∃ A B, t.nodes = A ++ B ∧ (∀ a ∈ A, comp key a.2.1 = false) ∧
      (∀ b ∈ B, comp key b.2.1 = true) ∧ upper_t comp key t result = nextPtr result B := by
  intro t
  induction t with
  | leaf => intro result _; exact ⟨[], [], rfl, by simp, by simp, rfl⟩
  | node p c l k v r ihl ihr =>
    intro result hs
    simp only [Tree.nodes_node, Sorted] at hs
    obtain ⟨hsl, hsr, hlr⟩ := List.pairwise_append.1 hs
    rw [List.pairwise_cons] at hsr
    cases hk : comp key k with
    | true =>
      obtain ⟨A, B, e, hA, hB, hres⟩ := ihl p hsl
      refine ⟨A, B ++ (p, k, v) :: r.nodes, by simp [e], hA, ?_, ?_⟩
      · intro b hb
        simp only [List.mem_append, List.mem_cons] at hb
        rcases hb with hb | rfl | hb
        · exact hB b hb
        · exact hk
        · exact hsw.lt_of_lt_of_le hk (hsr.1 b hb)
      · simp only [upper_t, hk, if_true, hres, nextPtr_append_cons]
    | false =>
      obtain ⟨A, B, e, hA, hB, hres⟩ := ihr result hsr.2
      refine ⟨l.nodes ++ (p, k, v) :: A, B, by simp [e], ?_, hB, ?_⟩
      · intro a ha
        simp only [List.mem_append, List.mem_cons] at ha
        rcases ha with ha | rfl | ha
        · cases hka : comp key a.2.1 with
          | false => rfl
          | true =>
            rcases hsw.neg_trans hka k with h1 | h1
            · rw [hk] at h1; cases h1
            · rw [hlr a ha (p, k, v) (by simp)] at h1; cases h1
        · exact hk
        · exact hA a ha
      · simp only [upper_t, hk, Bool.false_eq_true, if_false, hres]

namespace IsTree

variable {s : RedBlackTree K V} {T : Tree K V}

theorem lower_bound_sim (comp : K → K → Bool) (key : K) (h : IsTree s T) {fuel : Nat}
    (hf : T.height < fuel) :
    lower_bound comp fuel s key = .ok ⟨lower_t comp key T s.nil, s.nil, s.root⟩ := by
  have := lower_bound_loop_sim comp s key T s.nil s.nil fuel h.rep hf
  rw [← h.root_eq] at this
  simp only [lower_bound, this, bind_ok, pure_eq_ok]

theorem upper_bound_sim (comp : K → K → Bool) (key : K) (h : IsTree s T) {fuel : Nat}
    (hf : T.height < fuel) :
    upper_bound comp fuel s key = .ok ⟨upper_t comp key T s.nil, s.nil, s.root⟩ := by
  have := upper_bound_loop_sim comp s key T s.nil s.nil fuel h.rep hf
  rw [← h.root_eq] at this
  simp only [upper_bound, this, bind_ok, pure_eq_ok]

/-- An iterator to a place of the sequence is `end()` exactly when nothing comes after
the place. -/
theorem nextPtr_end_iff (h : IsTree s T) (A B : List (Ptr × K × V)) (hT : T.nodes = A ++ B) :
    (⟨nextPtr s.nil B, s.nil, s.root⟩ : Iterator) = s.end_it ↔ B = [] := by
  cases B with
  | nil => simp [end_it]
  | cons x B =>
    have := h.nextPtr_ne_nil x B (mem_addrs_of_split A x B hT)
    simp only [nextPtr_cons] at this
    simp [end_it, this]

end IsTree

theorem IsTree.nextPtr_eq_nil_iff {s : RedBlackTree K V} {T : Tree K V} (h : IsTree s T) :
    nextPtr s.nil T.nodes = s.nil ↔ T.nodes = [] := by
  cases hT : T.nodes with
  | nil => simp
  | cons x B =>
    have := h.nextPtr_ne_nil x B (IsTree.mem_addrs_of_split [] x B hT)
    simp only [nextPtr_cons] at this
    simp [this]

/-- The sentinel of `lopsided` has the child links the constructor gives it. -/
theorem sentinelLinks_lopsided : SentinelLinks lopsided := ⟨rfl, rfl⟩

/-- C12: forward iteration equals in-order traversal.  For every state that holds a tree
with consistent parent links (`IsTree`), with the `nullptr` child links of the sentinel
that the constructors set and with `_tree_size` the number of its nodes: the loop from
`begin()` with `operator++` until `end()` visits exactly `size()` elements and the pairs it
visits are those of `inorder()`, in the same order; `begin()` is `minimum(_root)` and leads
to the first pair of the sequence; and `begin() == end()` iff the tree is empty.  The loops
run on `fuel`: any amount above twice the size is enough. -/
theorem forward_iteration {s : RedBlackTree K V} {T : Tree K V} (h : IsTree s T)
    (hl : SentinelLinks s) (hz : s.size = T.count) {fuel : Nat} (hf : 2 * s.size < fuel) :
    ∃ xs b, s.iterate fuel = .ok xs ∧ s.inorder fuel = .ok xs ∧ xs.length = s.size ∧
      s.begin_it fuel = .ok b ∧ s.minimum fuel s.root = .ok b.node ∧
      (∀ x rest, xs = x :: rest → s.deref b = .ok x) ∧
      (b.eq s.end_it = true ↔ s.is_empty = true) ∧ (b.eq s.end_it = true ↔ xs = []) := by
  have hh := T.height_le_count
  have hc := T.count_eq_length
  have hm := minimum_next s T s.nil fuel h.rep (by omega)
  rw [← h.root_eq] at hm
  refine ⟨T.toList, ⟨nextPtr s.nil T.nodes, s.nil, s.root⟩, h.iterate_sim hl.2 (by omega),
    h.inorder_sim (by omega), ?_, h.begin_sim (by omega), hm, ?_, ?_, ?_⟩
  · rw [Tree.toList_eq_map, List.length_map, hz, hc]
  · intro x rest e
    rw [Tree.toList_eq_map] at e
    cases hT : T.nodes with
    | nil => rw [hT] at e; cases e
    | cons n ns =>
      rw [hT] at e
      simp only [List.map_cons, List.cons.injEq] at e
      rw [← e.1]
      exact h.deref_sim n (by rw [hT]; simp) _ _
  · simp only [Iterator.eq, end_it, decide_eq_true_eq, h.nextPtr_eq_nil_iff, is_empty,
      beq_iff_eq]
    have : s.tree_size = T.count := hz
    rw [this, hc, List.length_eq_zero]
  · simp only [Iterator.eq, end_it, decide_eq_true_eq, h.nextPtr_eq_nil_iff,
      Tree.toList_eq_map, List.map_eq_nil_iff]

/-- C12 at the tree `lopsided`, which holds `(2, 0)` at the root and `(1, 0)` to its left. -/
theorem forward_iteration_witness :
    ∃ xs b, lopsided.iterate 5 = .ok xs ∧ lopsided.inorder 5 = .ok xs ∧
      xs.length = lopsided.size ∧ lopsided.begin_it 5 = .ok b ∧
      lopsided.minimum 5 lopsided.root = .ok b.node ∧
      (∀ x rest, xs = x :: rest → lopsided.deref b = .ok x) ∧
      (b.eq lopsided.end_it = true ↔ lopsided.is_empty = true) ∧
      (b.eq lopsided.end_it = true ↔ xs = []) :=
  forward_iteration isTree_lopsided sentinelLinks_lopsided rfl (by decide)

/-- C16: reverse iteration yields the in-order sequence backwards.  For every state that
holds a tree with consistent parent links (`IsTree`), with `_tree_size` the number of its
nodes: the loop from `rbegin()` with the adaptor's `operator++` until `rend()`, each
dereference decrementing a copy of the base iterator, visits exactly `size()` elements,
and the pairs it visits are those of `inorder()` in reverse order.  The loops run on
`fuel`: any amount above twice the size is enough. -/
theorem reverse_iteration {s : RedBlackTree K V} {T : Tree K V} (h : IsTree s T)
    (hz : s.size = T.count) {fuel : Nat} (hf : 2 * s.size < fuel) :
    ∃ xs ys, s.inorder fuel = .ok xs ∧ s.iterate_reverse fuel = .ok ys ∧ ys = xs.reverse ∧
      ys.length = s.size := by
  have hh := T.height_le_count
  refine ⟨T.toList, T.toList.reverse, h.inorder_sim (by omega),
    h.iterate_reverse_sim (by omega), rfl, ?_⟩
  rw [List.length_reverse, Tree.toList_eq_map, List.length_map, hz, T.count_eq_length]

/-- C16 at the tree `lopsided`, which holds `(2, 0)` at the root and `(1, 0)` to its left. -/
theorem reverse_iteration_witness :
    ∃ xs ys, lopsided.inorder 5 = .ok xs ∧ lopsided.iterate_reverse 5 = .ok ys ∧
      ys = xs.reverse ∧ ys.length = lopsided.size :=
  reverse_iteration isTree_lopsided rfl (by decide)

/-- On a tree that is not empty, decrementing `end()` leads to the last pair of
`inorder()`. -/
theorem IsTree.decr_end_last {s : RedBlackTree K V} {T : Tree K V} (h : IsTree s T)
    (x : K × V) (hx : T.toList.getLast? = some x) {fuel : Nat} (hf : T.height ≤ fuel) :
    ∃ m, s.end_it.decr s fuel = .ok m ∧ s.deref m = .ok x := by
  rw [Tree.toList_eq_map] at hx
  obtain ⟨A, n, hn⟩ : ∃ A n, T.nodes = A ++ [n] := by
    rcases List.eq_nil_or_concat T.nodes with e | ⟨A, n, e⟩
    · rw [e] at hx; cases hx
    · exact ⟨A, n, by simpa using e⟩
  have hT : T ≠ .leaf := by rintro rfl; simp at hn
  rw [hn, List.map_append, List.map_cons, List.map_nil, List.getLast?_concat] at hx
  cases hx
  refine ⟨_, h.decr_end_sim hT hf, ?_⟩
  rw [hn, prevPtr_concat]
  exact h.deref_sim n (by rw [hn]; simp) _ _

/-- C17: on the tree with the one pair `(5, 0)`, the iterator that `insert` returned,
advanced past the last element, identifies end; decrementing it dereferences the null
pointer `_root` that `insert` left in it, with any amount of fuel for the loop, whereas
decrementing `end()`, or the iterators of `begin()` and `find(5)` advanced as far, leads to
`(5, 0)`. -/
theorem decr_after_insert_faults :
    ∃ s it it', insert ltNat false 3 (empty : RedBlackTree Nat Nat) (5, 0) = .ok (s, it, true) ∧
      s.deref it = .ok (5, 0) ∧ it.incr s 3 = .ok it' ∧ it'.eq s.end_it = true ∧
      (∀ fuel, it'.decr s (fuel + 1) = .error .null_deref) ∧
      (∃ m, s.end_it.decr s 3 = .ok m ∧ s.deref m = .ok (5, 0)) ∧
      (∃ b b' m, s.begin_it 3 = .ok b ∧ b.incr s 3 = .ok b' ∧ b'.eq s.end_it = true ∧
        b'.decr s 3 = .ok m ∧ s.deref m = .ok (5, 0)) ∧
      (∃ f f' m, find ltNat 3 s 5 = .ok f ∧ f.incr s 3 = .ok f' ∧ f'.eq s.end_it = true ∧
        f'.decr s 3 = .ok m ∧ s.deref m = .ok (5, 0)) :=
  ⟨_, _, _, rfl, rfl, rfl, rfl, fun _ => rfl, ⟨_, rfl, rfl⟩, ⟨_, _, _, rfl, rfl, rfl, rfl, rfl⟩,
    ⟨_, _, _, rfl, rfl, rfl, rfl, rfl⟩⟩

/-- The tree `lopsided` is sorted. -/
theorem sorted_lopsided : lopsidedTree.toList.Pairwise fun a b => ltNat b.1 a.1 = false := by
  decide

/-- C13: for every state that holds a tree (`IsTree`) whose in-order key sequence is
sorted, with a strict weak ordering, and every key `k`: `lower_bound(k)` returns an
iterator to the first node of the in-order sequence whose key is not ordered before `k`.
The sequence splits into `A`, whose keys are all ordered before `k`, and `B`, whose keys
are not; the iterator leads to the first node of `B`, and is `end()` when `B` is empty,
which is the case iff every key of the tree is ordered before `k`.  The loops run on
`fuel`: any amount above the height of the tree is enough. -/
theorem lower_bound_first {comp : K → K → Bool} (hsw : StrictWeak comp)
    {s : RedBlackTree K V} {T : Tree K V} (h : IsTree s T)
    (hi : T.toList.Pairwise fun a b => comp b.1 a.1 = false) (k : K) {fuel : Nat}
    (hf : T.height < fuel) :
    ∃ it A B, lower_bound comp fuel s k = .ok it ∧ T.nodes = A ++ B ∧
      s.inorder fuel = .ok ((A ++ B).map Prod.snd) ∧
      (∀ a ∈ A, comp a.2.1 k = true) ∧ (∀ b ∈ B, comp b.2.1 k = false) ∧
      it = ⟨nextPtr s.nil B, s.nil, s.root⟩ ∧
      (∀ b rest, B = b :: rest → s.deref it = .ok b.2) ∧
      (it = s.end_it ↔ ∀ e ∈ T.toList, comp e.1 k = true) := by
  obtain ⟨A, B, e, hA, hB, hres⟩ := lower_t_spec hsw k T s.nil ((sorted_toList comp T).2 hi)
  refine ⟨_, A, B, h.lower_bound_sim comp k hf, e, ?_, hA, hB, by rw [hres], ?_, ?_⟩
  · rw [← e, ← Tree.toList_eq_map]
    exact h.inorder_sim hf
  · rintro b rest rfl
    rw [hres]
    exact h.deref_sim b (by rw [e]; simp) _ _
  · rw [hres, h.nextPtr_end_iff A B e, Tree.toList_eq_map, e]
    constructor
    · rintro rfl x hx
      simp only [List.append_nil, List.mem_map] at hx
      obtain ⟨a, ha, rfl⟩ := hx
      exact hA a ha
    · intro hall
      cases B with
      | nil => rfl
      | cons b B =>
        have h1 := hall b.2 (List.mem_map_of_mem _ (by simp))
        rw [hB b (by simp)] at h1
        cases h1

/-- C13 at the tree `lopsided`, which holds the keys 1 and 2, and the key 2. -/
theorem lower_bound_first_witness :
    ∃ it A B, lower_bound ltNat 3 lopsided 2 = .ok it ∧ lopsidedTree.nodes = A ++ B ∧
      lopsided.inorder 3 = .ok ((A ++ B).map Prod.snd) ∧
      (∀ a ∈ A, ltNat a.2.1 2 = true) ∧ (∀ b ∈ B, ltNat b.2.1 2 = false) ∧
      it = ⟨nextPtr lopsided.nil B, lopsided.nil, lopsided.root⟩ ∧
      (∀ b rest, B = b :: rest → lopsided.deref it = .ok b.2) ∧
      (it = lopsided.end_it ↔ ∀ e ∈ lopsidedTree.toList, ltNat e.1 2 = true) :=
  lower_bound_first strictWeak_ltNat isTree_lopsided sorted_lopsided 2 (by decide)

/-- C14: for every state that holds a tree (`IsTree`) whose in-order key sequence is
sorted, with a strict weak ordering, and every key `k`: `upper_bound(k)` returns an
iterator to the first node of the in-order sequence whose key is ordered after `k`.  The
sequence splits into `A`, of whose keys none is ordered after `k`, and `B`, whose keys all
are; the iterator leads to the first node of `B`, and is `end()` when `B` is empty, which
is the case iff no key of the tree is ordered after `k`.  The loops run on `fuel`: any
amount above the height of the tree is enough. -/
theorem upper_bound_first {comp : K → K → Bool} (hsw : StrictWeak comp)
    {s : RedBlackTree K V} {T : Tree K V} (h : IsTree s T)
    (hi : T.toList.Pairwise fun a b => comp b.1 a.1 = false) (k : K) {fuel : Nat}
    (hf : T.height < fuel) :
    ∃ it A B, upper_bound comp fuel s k = .ok it ∧ T.nodes = A ++ B ∧
      s.inorder fuel = .ok ((A ++ B).map Prod.snd) ∧
      (∀ a ∈ A, comp k a.2.1 = false) ∧ (∀ b ∈ B, comp k b.2.1 = true) ∧
      it = ⟨nextPtr s.nil B, s.nil, s.root⟩ ∧
      (∀ b rest, B = b :: rest → s.deref it = .ok b.2) ∧
      (it = s.end_it ↔ ∀ e ∈ T.toList, comp k e.1 = false) := by
  obtain ⟨A, B, e, hA, hB, hres⟩ := upper_t_spec hsw k T s.nil ((sorted_toList comp T).2 hi)
  refine ⟨_, A, B, h.upper_bound_sim comp k hf, e, ?_, hA, hB, by rw [hres], ?_, ?_⟩
  · rw [← e, ← Tree.toList_eq_map]
    exact h.inorder_sim hf
  · rintro b rest rfl
    rw [hres]
    exact h.deref_sim b (by rw [e]; simp) _ _
  · rw [hres, h.nextPtr_end_iff A B e, Tree.toList_eq_map, e]
    constructor
    · rintro rfl x hx
      simp only [List.append_nil, List.mem_map] at hx
      obtain ⟨a, ha, rfl⟩ := hx
      exact hA a ha
    · intro hall
      cases B with
      | nil => rfl
      | cons b B =>
        have h1 := hall b.2 (List.mem_map_of_mem _ (by simp))
        rw [hB b (by simp)] at h1
        cases h1

/-- C14 at the tree `lopsided`, which holds the keys 1 and 2, and the key 1. -/
theorem upper_bound_first_witness :
    ∃ it A B, upper_bound ltNat 3 lopsided 1 = .ok it ∧ lopsidedTree.nodes = A ++ B ∧
      lopsided.inorder 3 = .ok ((A ++ B).map Prod.snd) ∧
      (∀ a ∈ A, ltNat 1 a.2.1 = false) ∧ (∀ b ∈ B, ltNat 1 b.2.1 = true) ∧
      it = ⟨nextPtr lopsided.nil B, lopsided.nil, lopsided.root⟩ ∧
      (∀ b rest, B = b :: rest → lopsided.deref it = .ok b.2) ∧
      (it = lopsided.end_it ↔ ∀ e ∈ lopsidedTree.toList, ltNat 1 e.1 = false) :=
  upper_bound_first strictWeak_ltNat isTree_lopsided sorted_lopsided 1 (by decide)

/-- With strictly increasing keys, the places where `lower_bound` and `upper_bound` end
have at most one node between them, whose key is equivalent to `key`. -/
theorem bounds_split {comp : K → K → Bool} (hsw : StrictWeak comp) (key : K)
    {l A B A' B' : List (Ptr × K × V)} (hi : Increasing comp l) (e1 : l = A ++ B)
    (hA : ∀ a ∈ A, comp a.2.1 key = true) (hB : ∀ b ∈ B, comp b.2.1 key = false)
    (e2 : l = A' ++ B') (hA' : ∀ a ∈ A', comp key a.2.1 = false)
    (hB' : ∀ b ∈ B', comp key b.2.1 = true) :
    ∃ M, B = M ++ B' ∧ A' = A ++ M ∧ M.length ≤ 1 ∧ ∀ m ∈ M, KeyEquiv comp key m.2.1 := by
  rcases List.append_eq_append_iff.1 (e1.symm.trans e2) with ⟨M, h1, h2⟩ | ⟨C, h1, h2⟩
  · have hM : ∀ m ∈ M, KeyEquiv comp key m.2.1 := fun m hm =>
      ⟨hA' m (by rw [h1]; simp [hm]), hB m (by rw [h2]; simp [hm])⟩
    refine ⟨M, h2, h1, ?_, hM⟩
    match M, hM, h2 with
    | [], _, _ => simp
    | [_], _, _ => simp
    | m1 :: m2 :: M, hM, h2 =>
      exfalso
      rw [e1, h2] at hi
      have h12 : comp m1.2.1 m2.2.1 = true := by
        have := (List.pairwise_append.1 hi).2.1
        simp only [List.cons_append, List.pairwise_cons, List.mem_cons, List.mem_append,
          forall_eq_or_imp] at this
        exact this.1.1
      have := hsw.equiv_trans _ _ _ (StrictWeak.equiv_symm (hM m1 (by simp))) (hM m2 (by simp))
      rw [this.1] at h12
      cases h12
  · cases C with
    | nil =>
      simp only [List.append_nil, List.nil_append] at h1 h2
      exact ⟨[], by simp [h2], by simp [h1], by simp, by simp⟩
    | cons c C =>
      exfalso
      have h3 := hA c (by rw [h1]; simp)
      have h4 := hB' c (by rw [h2]; simp)
      rw [hsw.asymm h3] at h4
      cases h4

/-- C15: `equal_range(k)` returns the pair `(lower_bound(k), upper_bound(k))`; in
no-duplicates mode, with a strict weak ordering, for every tree reached from the empty tree
by a sequence of calls of `insert` and `erase`: when `contains(k)`, `first` leads to the
pair whose key is equivalent to `k`, `second` is its successor (`++first == second`), and
the loop over the half-open range from `first` to `second` visits that one pair; when
`contains(k)` is false, `first == second` and the loop visits nothing.  The tree is the one
`run` reaches with the calls `ops`; the loops run on `fuel`, and any amount above the number
of calls plus one is enough. -/
theorem equal_range_reachable [Inhabited K] [Inhabited V] {comp : K → K → Bool}
    (hsw : StrictWeak comp) (ops : List (Op K V)) (k : K) {fuel : Nat}
    (hf : ops.length + 1 < fuel) :
    ∃ s i e first second c, run comp fuel ops empty = .ok (s, i, e) ∧
      equal_range comp fuel s k = .ok (first, second) ∧
      lower_bound comp fuel s k = .ok first ∧ upper_bound comp fuel s k = .ok second ∧
      contains comp fuel s k = .ok c ∧
      (c = true → ∃ kv, s.deref first = .ok kv ∧ KeyEquiv comp k kv.1 ∧
        first.incr s fuel = .ok second ∧ first.eq second = false ∧
        s.visit_range fuel first second = .ok [kv]) ∧
      (c = false → first.eq second = true ∧ s.visit_range fuel first second = .ok []) := by
  obtain ⟨s, T, i, e, h1, hv, hl, hsz, hinc⟩ := run_reach comp ops (show ops.length < fuel by omega)
  have hi := hinc hsw
  have h := hv.tree
  have hh : T.height < fuel := hv.fuel_ok (by omega)
  have hh1 : T.height + 1 < fuel := by
    have := T.height_le_count
    have := hv.size
    omega
  obtain ⟨A, B, e1, hA, hB, hlo⟩ := lower_t_spec hsw k T s.nil (hi.sorted hsw)
  obtain ⟨A', B', e2, hA', hB', hup⟩ := upper_t_spec hsw k T s.nil (hi.sorted hsw)
  obtain ⟨M, rfl, rfl, hlen, hM⟩ := bounds_split hsw k hi e1 hA hB e2 hA' hB'
  have hlb := h.lower_bound_sim comp k hh
  have hub := h.upper_bound_sim comp k hh
  rw [hlo] at hlb
  rw [hup] at hub
  have hT : T.nodes = A ++ M ++ B' := by rw [e1, List.append_assoc]
  have hvis := h.visit_range_sim M A B' fuel hT (fun _ _ => hl.2) (by omega) s.root s.nil s.root
  have hcs := h.contains_sim comp k hh
  refine ⟨s, i, e, _, _, _, h1, ?_, hlb, hub, hcs, ?_, ?_⟩
  · simp only [equal_range, hlb, hub, bind_ok, pure_eq_ok]
  all_goals
    have hM2 : M = [] ∨ ∃ m, M = [m] := by
      cases M with
      | nil => exact Or.inl rfl
      | cons m M =>
        cases M with
        | nil => exact Or.inr ⟨m, rfl⟩
        | cons m' M => simp at hlen
    intro hc
    rcases hM2 with rfl | ⟨m, rfl⟩
  · exfalso
    have : find_t comp k T = none := by
      rw [find_t_none_iff hsw k T hi, e2]
      intro x hx hxe
      simp only [List.append_nil] at hx
      rcases List.mem_append.1 hx with hx | hx
      · have := hA x hx
        rw [hxe.2] at this
        cases this
      · have := hB' x hx
        rw [hxe.1] at this
        cases this
    rw [this] at hc
    cases hc
  · refine ⟨m.2, h.deref_sim m (by rw [hT]; simp) _ _, hM m (by simp), ?_, ?_, hvis⟩
    · exact h.incr_sim A m B' (by simpa using hT) s.nil s.root rfl (fun _ => hl.2)
        (show T.height ≤ fuel by omega)
    · have := h.ne_nextPtr A m [] B' (by simpa using hT)
      simp only [Iterator.eq, List.singleton_append, nextPtr_cons, this, decide_False]
  · exact ⟨by simp [Iterator.eq], hvis⟩
  · exfalso
    have hm : m ∈ T.nodes := by rw [hT]; simp
    have hne : find_t comp k T ≠ none := by
      rw [Ne, find_t_none_iff hsw k T hi]
      intro hall
      exact hall m hm (hM m (by simp))
    cases hft : find_t comp k T with
    | none => exact hne hft
    | some x => rw [hft] at hc; cases hc

/-- C15 at the tree reached by inserting 10, 5, 15, 10 again and erasing 5, and the
key 10. -/
theorem equal_range_reachable_witness :
    ∃ s i e first second c,
      run ltNat 10 [.insert 10 0, .insert 5 0, .insert 15 0, .insert 10 1, .erase 5]
        (empty : RedBlackTree Nat Nat) = .ok (s, i, e) ∧
      equal_range ltNat 10 s 10 = .ok (first, second) ∧
      lower_bound ltNat 10 s 10 = .ok first ∧ upper_bound ltNat 10 s 10 = .ok second ∧
      contains ltNat 10 s 10 = .ok c ∧
      (c = true → ∃ kv, s.deref first = .ok kv ∧ KeyEquiv ltNat 10 kv.1 ∧
        first.incr s 10 = .ok second ∧ first.eq second = false ∧
        s.visit_range 10 first second = .ok [kv]) ∧
      (c = false → first.eq second = true ∧ s.visit_range 10 first second = .ok []) :=
  equal_range_reachable strictWeak_ltNat
    [.insert 10 0, .insert 5 0, .insert 15 0, .insert 10 1, .erase 5] 10 (by decide)

theorem isTree_twoShapes : IsTree twoShapes twoShapesTree := by
  refine ⟨rfl, ?_, ?_, ?_, ⟨_, rfl⟩, ?_, ?_⟩
  · simp [twoShapesTree, twoShapes]
  · simp [twoShapesTree]
  · simp [twoShapes]
  · intro p hp
    have h1 : p ≠ 1 := by rintro rfl; exact absurd hp (by decide)
    have h2 : p ≠ 2 := by rintro rfl; exact absurd hp (by decide)
    have h3 : p ≠ 3 := by rintro rfl; exact absurd hp (by decide)
    have h4 : p ≠ 4 := by rintro rfl; exact absurd hp (by decide)
    have h5 : p ≠ 5 := by rintro rfl; exact absurd hp (by decide)
    have h6 : p ≠ 6 := by rintro rfl; exact absurd hp (by decide)
    simp [twoShapes, h1, h2, h3, h4, h5, h6]
  · simp [twoShapes]

theorem isTree_twoShapesOther : IsTree (twoShapes.view twoShapesOther) twoShapesOtherTree := by
  refine ⟨rfl, ?_, ?_, ?_, ⟨_, rfl⟩, ?_, ?_⟩
  · simp [twoShapesOtherTree, twoShapes, twoShapesOther, view]
  · simp [twoShapesOtherTree]
  · simp [twoShapes, twoShapesOther, view]
  · intro p hp
    have h1 : p ≠ 1 := by rintro rfl; exact absurd hp (by decide)
    have h2 : p ≠ 2 := by rintro rfl; exact absurd hp (by decide)
    have h3 : p ≠ 3 := by rintro rfl; exact absurd hp (by decide)
    have h4 : p ≠ 4 := by rintro rfl; exact absurd hp (by decide)
    have h5 : p ≠ 5 := by rintro rfl; exact absurd hp (by decide)
    have h6 : p ≠ 6 := by rintro rfl; exact absurd hp (by decide)
    simp [twoShapes, view, h1, h2, h3, h4, h5, h6]
  · simp [twoShapes, view]

/-- The loop of `operator==` from two places that have as many nodes after them: it
returns whether the pairs after them are equal, one by one. -/
theorem eq_loop_sim [DecidableEq K] [DecidableEq V] {t u : RedBlackTree K V}
    {Ta Tb : Tree K V} (ha : IsTree t Ta) (hb : IsTree u Tb)
    (hla : t.right_of t.nil = .ok 0) (hlb : u.right_of u.nil = .ok 0) :
    ∀ (B1 A1 B2 A2 : List (Ptr × K × V)) (fuel : Nat), Ta.nodes = A1 ++ B1 →
    Tb.nodes = A2 ++ B2 → B1.length = B2.length → Ta.height + B1.length < fuel →
    Tb.height + B1.length < fuel → ∀ r1 r2 nl rl : Ptr,
    eq_loop t u fuel ⟨nextPtr t.nil B1, t.nil, r1⟩ ⟨nextPtr u.nil B2, u.nil, r2⟩ ⟨t.nil, nl, rl⟩ =
      .ok (decide (B1.map Prod.snd = B2.map Prod.snd)) := by
  intro B1
  induction B1 with
  | nil =>
    intro A1 B2 A2 fuel _ _ hlen hf _ r1 r2 nl rl
    obtain ⟨n, rfl⟩ : ∃ n, fuel = n + 1 := ⟨fuel - 1, by omega⟩
    have : B2 = [] := List.length_eq_zero.1 hlen.symm
    subst this
    simp [eq_loop, Iterator.ne]
  | cons x B1 ih =>
    intro A1 B2 A2 fuel h1 h2 hlen hf1 hf2 r1 r2 nl rl
    simp only [List.length_cons] at hf1 hf2 hlen
    obtain ⟨n, rfl⟩ : ∃ n, fuel = n + 1 := ⟨fuel - 1, by omega⟩
    cases B2 with
    | nil => simp at hlen
    | cons y B2 =>
      simp only [List.length_cons, Nat.add_right_cancel_iff] at hlen
      have hne := ha.nextPtr_ne_nil x B1 (IsTree.mem_addrs_of_split A1 x B1 h1)
      have hd1 := ha.deref_sim x (by rw [h1]; simp) t.nil r1
      have hd2 := hb.deref_sim y (by rw [h2]; simp) u.nil r2
      have hi1 := ha.incr_sim A1 x B1 h1 t.nil r1 rfl (fun _ => hla) (show Ta.height ≤ n by omega)
      have hi2 := hb.incr_sim A2 y B2 h2 u.nil r2 rfl (fun _ => hlb) (show Tb.height ≤ n by omega)
      have := ih (A1 ++ [x]) B2 (A2 ++ [y]) n (by simpa using h1) (by simpa using h2) hlen
        (by omega) (by omega) r1 r2 nl rl
      simp only [nextPtr_cons] at hne
      simp only [eq_loop, Iterator.ne, nextPtr_cons, ne_eq, hne, not_false_eq_true,
        decide_True, if_true, hd1, hd2, bind_ok, hi1, hi2, this, pure_eq_ok, List.map_cons,
        List.cons.injEq]
      by_cases e : x.2 = y.2
      · simp [e]
      · simp [e]

/-- The source's `operator==` on two objects that hold trees: it returns whether the sizes
and the in-order sequences are equal. -/
theorem operator_eq_sim [DecidableEq K] [DecidableEq V] {t : RedBlackTree K V} {o : Members}
    {Ta Tb : Tree K V} (ha : IsTree t Ta) (hb : IsTree (t.view o) Tb)
    (hla : SentinelLinks t) (hlb : SentinelLinks (t.view o)) (hza : t.size = Ta.count)
    (hzb : (t.view o).size = Tb.count) {fuel : Nat} (hfa : 2 * t.size < fuel) :
    t.operator_eq fuel o false =
      .ok (decide (t.size = (t.view o).size ∧ Ta.toList = Tb.toList)) := by
  have h1 := Ta.height_le_count
  have h2 := Tb.height_le_count
  have c1 := Ta.count_eq_length
  have c2 := Tb.count_eq_length
  by_cases hs : t.size = (t.view o).size
  · have hba := ha.begin_sim (show Ta.height < fuel by omega)
    have hbb := hb.begin_sim (show Tb.height < fuel by omega)
    have := eq_loop_sim ha hb hla.2 hlb.2 Ta.nodes [] Tb.nodes [] fuel (by simp) (by simp)
      (by omega) (by omega) (by omega) t.root (t.view o).root t.nil t.root
    simp only [operator_eq, Bool.false_eq_true, if_false, ne_eq, hs, not_true_eq_false, hba,
      hbb, bind_ok, end_it, this, Tree.toList_eq_map, true_and]
  · simp only [operator_eq, Bool.false_eq_true, if_false, ne_eq, hs, not_false_eq_true,
      if_true, pure_eq_ok, false_and, decide_False]

/-- C20: structural equality.  For any two objects `a` and `b` in one memory that hold
trees with consistent parent links (`IsTree`), with the `nullptr` child links of the
sentinel that the constructors set and with `_tree_size` the number of nodes: `a == b` is
true iff `a.size() == b.size()` and `a.inorder()` equals `b.inorder()`, pair by pair; so
the result is the same whatever the colors and the shapes of the two trees are; and
`a != b` is the negation of `a == b`.  `same` is the value of `this == &other`, true only
when `b` is `a`.  The loops run on `fuel`: any amount above twice the sizes is enough. -/
theorem structural_equality [DecidableEq K] [DecidableEq V] {t : RedBlackTree K V}
    {o : Members} {Ta Tb : Tree K V} (same : Bool) (hsame : same = true → o = t.members)
    (ha : IsTree t Ta) (hb : IsTree (t.view o) Tb) (hla : SentinelLinks t)
    (hlb : SentinelLinks (t.view o)) (hza : t.size = Ta.count)
    (hzb : (t.view o).size = Tb.count) {fuel : Nat} (hfa : 2 * t.size < fuel)
    (hfb : 2 * (t.view o).size < fuel) :
    ∃ xs ys r, t.inorder fuel = .ok xs ∧ (t.view o).inorder fuel = .ok ys ∧
      t.operator_eq fuel o same = .ok r ∧
      (r = true ↔ t.size = (t.view o).size ∧ xs = ys) ∧ (r = true ↔ xs = ys) ∧
      t.operator_ne fuel o same = .ok (!r) := by
  have h1 := Ta.height_le_count
  have h2 := Tb.height_le_count
  have hia := ha.inorder_sim (show Ta.height < fuel by omega)
  have hib := hb.inorder_sim (show Tb.height < fuel by omega)
  have hlen : Ta.toList = Tb.toList → t.size = (t.view o).size := by
    intro e
    rw [hza, hzb, Ta.count_eq_length, Tb.count_eq_length, ← List.length_map Ta.nodes Prod.snd,
      ← List.length_map Tb.nodes Prod.snd, ← Tree.toList_eq_map, ← Tree.toList_eq_map, e]
  cases same with
  | false =>
    have he := operator_eq_sim ha hb hla hlb hza hzb hfa
    refine ⟨_, _, _, hia, hib, he, by simp, ?_, ?_⟩
    · simp only [decide_eq_true_eq]
      exact ⟨fun h => h.2, fun h => ⟨hlen h, h⟩⟩
    · simp only [operator_ne, he, bind_ok, pure_eq_ok]
  | true =>
    have e := hsame rfl
    subst e
    have hv : t.view t.members = t := rfl
    rw [hv] at hib
    have hxy : Ta.toList = Tb.toList := Except.ok.inj (hia.symm.trans hib)
    refine ⟨_, _, true, hia, hv ▸ hib, rfl, ?_, ?_, rfl⟩
    · simp only [true_iff]
      exact ⟨rfl, hxy⟩
    · simp only [true_iff]
      exact hxy

/-- C20 at the two objects of `twoShapes`, which hold the pairs `(1, 0)` and `(2, 0)` in
trees of different shape. -/
theorem structural_equality_witness :
    ∃ xs ys r, twoShapes.inorder 5 = .ok xs ∧
      (twoShapes.view twoShapesOther).inorder 5 = .ok ys ∧
      twoShapes.operator_eq 5 twoShapesOther false = .ok r ∧
      (r = true ↔ twoShapes.size = (twoShapes.view twoShapesOther).size ∧ xs = ys) ∧
      (r = true ↔ xs = ys) ∧ twoShapes.operator_ne 5 twoShapesOther false = .ok (!r) :=
  structural_equality false (fun e => by cases e) isTree_twoShapes isTree_twoShapesOther
    ⟨rfl, rfl⟩ ⟨rfl, rfl⟩ rfl rfl (by decide) (by decide)

theorem Lift.pure {α β : Type} {R : α → β → Prop} {a : α} {b : β} (h : R a b) :
    Lift R (Except.ok a) (Except.ok b) := by
  intro x hx
  cases hx
  exact ⟨b, rfl, h⟩

theorem Lift.bind {α β α' β' : Type} {R : α → β → Prop} {R' : α' → β' → Prop} {m : Res α}
    {M : Res β} {f : α → Res α'} {F : β → Res β'} (h : Lift R m M)
    (hf : ∀ a b, R a b → Lift R' (f a) (F b)) : Lift R' (m >>= f) (M >>= F) := by
  intro x hx
  cases hm : m with
  | error e => rw [hm] at hx; cases hx
  | ok a =>
    rw [hm] at hx
    obtain ⟨b, hb, hab⟩ := h a hm
    rw [hb]
    exact hf a b hab x hx

theorem Lift.ite {α β : Type} {R : α → β → Prop} {c : Prop} [Decidable c] {m m' : Res α}
    {M M' : Res β} (h : c → Lift R m M) (h' : ¬c → Lift R m' M') :
    Lift R (if c then m else m') (if c then M else M') := by
  by_cases hc : c
  · simp only [hc, if_true]; exact h hc
  · simp only [hc, if_false]; exact h' hc

theorem Lift.error {α β : Type} {R : α → β → Prop} {e : Fault} {M : Res β} :
    Lift R (Except.error e : Res α) M := by
  intro x hx
  cases hx

variable {E : Ptr → Option (Node K V)} {s S : RedBlackTree K V}

@[simp]
theorem ext_nil (E : Ptr → Option (Node K V)) (s : RedBlackTree K V) :
    (s.ext E).nil = s.nil := rfl

@[simp]
theorem ext_root (E : Ptr → Option (Node K V)) (s : RedBlackTree K V) :
    (s.ext E).root = s.root := rfl

@[simp]
theorem ext_brk (E : Ptr → Option (Node K V)) (s : RedBlackTree K V) :
    (s.ext E).brk = s.brk := rfl

@[simp]
theorem ext_size (E : Ptr → Option (Node K V)) (s : RedBlackTree K V) :
    (s.ext E).tree_size = s.tree_size := rfl

theorem ext_mem_some {p : Ptr} {n : Node K V} (h : s.mem p = some n) :
    (s.ext E).mem p = some n := by
  simp only [RedBlackTree.ext, h]

theorem ext_mem_none {p : Ptr} (h : s.mem p = none) : (s.ext E).mem p = E p := by
  simp only [RedBlackTree.ext, h]

theorem store_ext (E : Ptr → Option (Node K V)) (s : RedBlackTree K V) (p : Ptr)
    (n : Node K V) : (s.store p n).ext E = (s.ext E).store p n := by
  unfold RedBlackTree.ext store
  congr 1
  funext q
  by_cases hq : q = p
  · subst hq; simp
  · simp [Function.update_noteq hq]

theorem RS.load (h : RS E s S) (p : Ptr) : Lift Eq (s.load p) (S.load p) := by
  obtain ⟨rfl, -⟩ := h
  intro n hn
  refine ⟨n, ?_, rfl⟩
  unfold load at hn ⊢
  by_cases hp : p = 0
  · simp [hp] at hn
  · simp only [hp, if_false] at hn ⊢
    cases hm : s.mem p with
    | none => rw [hm] at hn; cases hn
    | some n' =>
      rw [hm] at hn
      rw [ext_mem_some hm]
      exact hn

theorem RS.store (h : RS E s S) {p : Ptr} {n0 : Node K V} (hl : s.load p = .ok n0)
    (n : Node K V) : RS E (s.store p n) (S.store p n) := by
  obtain ⟨rfl, hd⟩ := h
  refine ⟨(store_ext E s p n).symm, ?_⟩
  intro q hq
  by_cases e : q = p
  · subst e
    exact hd q (Or.inl (by rw [(mem_of_load hl).2]; simp))
  · refine hd q ?_
    simpa [store, Function.update_noteq e] using hq

theorem RS.parent_of (h : RS E s S) (p : Ptr) : Lift Eq (s.parent_of p) (S.parent_of p) :=
  Lift.bind (h.load p) (fun _ _ e => e ▸ Lift.pure rfl)

theorem RS.left_of (h : RS E s S) (p : Ptr) : Lift Eq (s.left_of p) (S.left_of p) :=
  Lift.bind (h.load p) (fun _ _ e => e ▸ Lift.pure rfl)

theorem RS.right_of (h : RS E s S) (p : Ptr) : Lift Eq (s.right_of p) (S.right_of p) :=
  Lift.bind (h.load p) (fun _ _ e => e ▸ Lift.pure rfl)

theorem RS.color_of (h : RS E s S) (p : Ptr) : Lift Eq (s.color_of p) (S.color_of p) :=
  Lift.bind (h.load p) (fun _ _ e => e ▸ Lift.pure rfl)

theorem RS.key_of (h : RS E s S) (p : Ptr) : Lift Eq (s.key_of p) (S.key_of p) :=
  Lift.bind (h.load p) (fun _ _ e => e ▸ Lift.pure rfl)

theorem RS.set_parent (h : RS E s S) (p q : Ptr) :
    Lift (RS E) (s.set_parent p q) (S.set_parent p q) := by
  intro a ha
  have := h.load p
  unfold RedBlackTree.set_parent at ha ⊢
  cases hl : s.load p with
  | error e => rw [hl] at ha; cases ha
  | ok n =>
    obtain ⟨_, hb, rfl⟩ := this n hl
    rw [hl] at ha
    cases ha
    exact ⟨_, by rw [hb]; rfl, h.store hl _⟩

theorem RS.set_left (h : RS E s S) (p q : Ptr) :
    Lift (RS E) (s.set_left p q) (S.set_left p q) := by
  intro a ha
  have := h.load p
  unfold RedBlackTree.set_left at ha ⊢
  cases hl : s.load p with
  | error e => rw [hl] at ha; cases ha
  | ok n =>
    obtain ⟨_, hb, rfl⟩ := this n hl
    rw [hl] at ha
    cases ha
    exact ⟨_, by rw [hb]; rfl, h.store hl _⟩

theorem RS.set_right (h : RS E s S) (p q : Ptr) :
    Lift (RS E) (s.set_right p q) (S.set_right p q) := by
  intro a ha
  have := h.load p
  unfold RedBlackTree.set_right at ha ⊢
  cases hl : s.load p with
  | error e => rw [hl] at ha; cases ha
  | ok n =>
    obtain ⟨_, hb, rfl⟩ := this n hl
    rw [hl] at ha
    cases ha
    exact ⟨_, by rw [hb]; rfl, h.store hl _⟩

theorem RS.set_color (h : RS E s S) (p : Ptr) (c : Color) :
    Lift (RS E) (s.set_color p c) (S.set_color p c) := by
  intro a ha
  have := h.load p
  unfold RedBlackTree.set_color at ha ⊢
  cases hl : s.load p with
  | error e => rw [hl] at ha; cases ha
  | ok n =>
    obtain ⟨_, hb, rfl⟩ := this n hl
    rw [hl] at ha
    cases ha
    exact ⟨_, by rw [hb]; rfl, h.store hl _⟩

theorem RS.free (h : RS E s S) (p : Ptr) : Lift (RS E) (s.free p) (S.free p) := by
  intro a ha
  have := h.load p
  unfold RedBlackTree.free at ha ⊢
  cases hl : s.load p with
  | error e => rw [hl] at ha; cases ha
  | ok n =>
    obtain ⟨_, hb, rfl⟩ := this n hl
    rw [hl] at ha
    cases ha
    obtain ⟨rfl, hd⟩ := h
    refine ⟨_, by rw [hb]; rfl, ?_, ?_⟩
    · unfold RedBlackTree.ext
      congr 1
      funext q
      by_cases hq : q = p
      · subst hq
        simp only [Function.update_same]
        exact (hd q (Or.inl (by rw [(mem_of_load hl).2]; simp))).symm
      · simp [Function.update_noteq hq]
    · intro q hq
      by_cases e : q = p
      · subst e
        exact hd q (Or.inl (by rw [(mem_of_load hl).2]; simp))
      · refine hd q ?_
        simpa [Function.update_noteq e] using hq

theorem RS.set_root (h : RS E s S) (y : Ptr) : RS E { s with root := y } { S with root := y } := by
  obtain ⟨rfl, hd⟩ := h
  exact ⟨rfl, hd⟩

theorem RS.set_size_ext (h : RS E s S) (n : Nat) :
    RS E { s with tree_size := n } { S with tree_size := n } := by
  obtain ⟨rfl, hd⟩ := h
  exact ⟨rfl, hd⟩

theorem RS.create_node_ext (h : RS E s S) (k : K) (v : V) :
    RS E (s.create_node k v).1 (S.create_node k v).1 ∧
      (S.create_node k v).2 = (s.create_node k v).2 := by
  obtain ⟨rfl, hd⟩ := h
  refine ⟨⟨?_, ?_⟩, rfl⟩
  · unfold RedBlackTree.create_node RedBlackTree.ext
    simp only
    congr 1
    funext q
    by_cases hq : q = s.brk
    · subst hq; simp
    · simp [Function.update_noteq hq]
  · intro q hq
    simp only [RedBlackTree.create_node] at hq
    by_cases e : q = s.brk
    · exact hd q (Or.inr (le_of_eq e.symm))
    · refine hd q ?_
      rcases hq with hq | hq
      · left; simpa [Function.update_noteq e] using hq
      · right
        exact Nat.le_of_succ_le hq

theorem RS.nil_eq (h : RS E s S) : S.nil = s.nil := by rw [h.1]; rfl

theorem RS.root_eq (h : RS E s S) : S.root = s.root := by rw [h.1]; rfl

theorem RS.size_eq (h : RS E s S) : S.tree_size = s.tree_size := by rw [h.1]; rfl

theorem Disj.rs (hd : Disj E s) : RS E s (s.ext E) := ⟨rfl, hd⟩

theorem rotate_left_ext (hd : Disj E s) (x : Ptr) :
    Lift (RS E) (s.rotate_left x) ((s.ext E).rotate_left x) := by
  unfold RedBlackTree.rotate_left
  refine Lift.bind (hd.rs.right_of x) ?_; rintro y _ rfl
  refine Lift.bind (hd.rs.left_of y) ?_; rintro yl _ rfl
  refine Lift.bind (hd.rs.set_right x yl) ?_; rintro t _ ⟨rfl, hd⟩
  refine Lift.bind (hd.rs.left_of y) ?_; rintro yl _ rfl
  dsimp only
  refine Lift.ite (fun _ => Lift.bind (hd.rs.set_parent yl x) ?_)
    (fun _ => Lift.bind (Lift.pure hd.rs) ?_)
  all_goals
    rintro t _ ⟨rfl, hd⟩
    refine Lift.bind (hd.rs.parent_of x) ?_; rintro xp _ rfl
    refine Lift.bind (hd.rs.set_parent y xp) ?_; rintro t _ ⟨rfl, hd⟩
    refine Lift.bind (hd.rs.parent_of x) ?_; rintro xp _ rfl
    refine Lift.ite (fun _ => Lift.bind (Lift.pure (R := RS E) ⟨rfl, hd⟩) ?_) (fun _ => ?_)
    rotate_left
    · refine Lift.bind (hd.rs.left_of xp) ?_; rintro xpl _ rfl
      refine Lift.ite (fun _ => Lift.bind (hd.rs.set_left xp y) ?_)
        (fun _ => Lift.bind (hd.rs.set_right xp y) ?_)
      all_goals
        rintro t _ ⟨rfl, hd⟩
        refine Lift.bind (hd.rs.set_left y x) ?_; rintro t _ ⟨rfl, hd⟩
        exact hd.rs.set_parent x y
    · rintro t _ ⟨rfl, hd⟩
      refine Lift.bind (hd.rs.set_left y x) ?_; rintro t _ ⟨rfl, hd⟩
      exact hd.rs.set_parent x y

theorem rotate_right_ext (hd : Disj E s) (x : Ptr) :
    Lift (RS E) (s.rotate_right x) ((s.ext E).rotate_right x) := by
  unfold RedBlackTree.rotate_right
  refine Lift.bind (hd.rs.left_of x) ?_; rintro y _ rfl
  refine Lift.bind (hd.rs.right_of y) ?_; rintro yr _ rfl
  refine Lift.bind (hd.rs.set_left x yr) ?_; rintro t _ ⟨rfl, hd⟩
  refine Lift.bind (hd.rs.right_of y) ?_; rintro yr _ rfl
  dsimp only
  refine Lift.ite (fun _ => Lift.bind (hd.rs.set_parent yr x) ?_)
    (fun _ => Lift.bind (Lift.pure hd.rs) ?_)
  all_goals
    rintro t _ ⟨rfl, hd⟩
    refine Lift.bind (hd.rs.parent_of x) ?_; rintro xp _ rfl
    refine Lift.bind (hd.rs.set_parent y xp) ?_; rintro t _ ⟨rfl, hd⟩
    refine Lift.bind (hd.rs.parent_of x) ?_; rintro xp _ rfl
    refine Lift.ite (fun _ => Lift.bind (Lift.pure (R := RS E) ⟨rfl, hd⟩) ?_) (fun _ => ?_)
    rotate_left
    · refine Lift.bind (hd.rs.right_of xp) ?_; rintro xpr _ rfl
      refine Lift.ite (fun _ => Lift.bind (hd.rs.set_right xp y) ?_)
        (fun _ => Lift.bind (hd.rs.set_left xp y) ?_)
      all_goals
        rintro t _ ⟨rfl, hd⟩
        refine Lift.bind (hd.rs.set_right y x) ?_; rintro t _ ⟨rfl, hd⟩
        exact hd.rs.set_parent x y
    · rintro t _ ⟨rfl, hd⟩
      refine Lift.bind (hd.rs.set_right y x) ?_; rintro t _ ⟨rfl, hd⟩
      exact hd.rs.set_parent x y

theorem insert_fix_exit_ext (hd : Disj E s) :
    Lift (RS E) s.insert_fix_exit (s.ext E).insert_fix_exit :=
  hd.rs.set_color _ _

theorem insert_fix_outer_l_ext (hd : Disj E s) (z : Ptr) :
    Lift (RS E) (s.insert_fix_outer_l z) ((s.ext E).insert_fix_outer_l z) := by
  unfold RedBlackTree.insert_fix_outer_l
  refine Lift.bind (hd.rs.parent_of z) ?_; rintro zp _ rfl
  refine Lift.bind (hd.rs.set_color zp _) ?_; rintro t _ ⟨rfl, hd⟩
  refine Lift.bind (hd.rs.parent_of z) ?_; rintro zp _ rfl
  refine Lift.bind (hd.rs.parent_of zp) ?_; rintro zpp _ rfl
  refine Lift.bind (hd.rs.set_color zpp _) ?_; rintro t _ ⟨rfl, hd⟩
  refine Lift.bind (hd.rs.parent_of z) ?_; rintro zp _ rfl
  refine Lift.bind (hd.rs.parent_of zp) ?_; rintro zpp _ rfl
  exact rotate_right_ext hd zpp

theorem insert_fix_outer_r_ext (hd : Disj E s) (z : Ptr) :
    Lift (RS E) (s.insert_fix_outer_r z) ((s.ext E).insert_fix_outer_r z) := by
  unfold RedBlackTree.insert_fix_outer_r
  refine Lift.bind (hd.rs.parent_of z) ?_; rintro zp _ rfl
  refine Lift.bind (hd.rs.set_color zp _) ?_; rintro t _ ⟨rfl, hd⟩
  refine Lift.bind (hd.rs.parent_of z) ?_; rintro zp _ rfl
  refine Lift.bind (hd.rs.parent_of zp) ?_; rintro zpp _ rfl
  refine Lift.bind (hd.rs.set_color zpp _) ?_; rintro t _ ⟨rfl, hd⟩
  refine Lift.bind (hd.rs.parent_of z) ?_; rintro zp _ rfl
  refine Lift.bind (hd.rs.parent_of zp) ?_; rintro zpp _ rfl
  exact rotate_left_ext hd zpp

theorem insert_fix_recolor_ext (hd : Disj E s) (z y : Ptr) :
    Lift (RSP E) (s.insert_fix_recolor z y) ((s.ext E).insert_fix_recolor z y) := by
  unfold RedBlackTree.insert_fix_recolor
  refine Lift.bind (hd.rs.parent_of z) ?_; rintro zp _ rfl
  refine Lift.bind (hd.rs.set_color zp _) ?_; rintro t _ ⟨rfl, hd⟩
  refine Lift.bind (hd.rs.set_color y _) ?_; rintro t _ ⟨rfl, hd⟩
  refine Lift.bind (hd.rs.parent_of z) ?_; rintro zp _ rfl
  refine Lift.bind (hd.rs.parent_of zp) ?_; rintro zpp _ rfl
  refine Lift.bind (hd.rs.set_color zpp _) ?_; rintro t _ ⟨rfl, hd⟩
  refine Lift.bind (hd.rs.parent_of z) ?_; rintro zp _ rfl
  refine Lift.bind (hd.rs.parent_of zp) ?_; rintro zpp _ rfl
  exact Lift.pure ⟨hd.rs, rfl⟩

theorem insert_fix_ext (fuel : Nat) : ∀ (s : RedBlackTree K V) (z : Ptr), Disj E s →
    Lift (RS E) (insert_fix fuel s z) (insert_fix fuel (s.ext E) z) := by
  induction fuel with
  | zero => intro s z _; exact Lift.error
  | succ fuel ih =>
    intro s z hd
    unfold RedBlackTree.insert_fix
    refine Lift.bind (hd.rs.parent_of z) ?_; rintro zp _ rfl
    refine Lift.ite (fun _ => insert_fix_exit_ext hd) (fun _ => ?_)
    refine Lift.bind (hd.rs.color_of zp) ?_; rintro cp _ rfl
    refine Lift.ite (fun _ => insert_fix_exit_ext hd) (fun _ => ?_)
    refine Lift.bind (hd.rs.parent_of zp) ?_; rintro zpp _ rfl
    refine Lift.bind (hd.rs.left_of zpp) ?_; rintro zppl _ rfl
    refine Lift.ite (fun _ => ?_) (fun _ => ?_)
    · refine Lift.bind (hd.rs.right_of zpp) ?_; rintro y _ rfl
      refine Lift.bind (hd.rs.color_of y) ?_; rintro cy _ rfl
      refine Lift.ite (fun _ => ?_) (fun _ => ?_)
      · refine Lift.bind (insert_fix_recolor_ext hd z y) ?_
        rintro ⟨t, z'⟩ ⟨_, _⟩ ⟨⟨rfl, hd⟩, rfl⟩
        exact ih t z' hd
      · refine Lift.bind (hd.rs.right_of zp) ?_; rintro zpr _ rfl
        refine Lift.ite (fun _ => ?_) (fun _ => ?_)
        · refine Lift.bind (rotate_left_ext hd zp) ?_; rintro t _ ⟨rfl, hd⟩
          refine Lift.bind (insert_fix_outer_l_ext hd zp) ?_; rintro t _ ⟨rfl, hd⟩
          exact ih t zp hd
        · refine Lift.bind (insert_fix_outer_l_ext hd z) ?_; rintro t _ ⟨rfl, hd⟩
          exact ih t z hd
    · refine Lift.bind (hd.rs.left_of zpp) ?_; rintro y _ rfl
      refine Lift.bind (hd.rs.color_of y) ?_; rintro cy _ rfl
      refine Lift.ite (fun _ => ?_) (fun _ => ?_)
      · refine Lift.bind (insert_fix_recolor_ext hd z y) ?_
        rintro ⟨t, z'⟩ ⟨_, _⟩ ⟨⟨rfl, hd⟩, rfl⟩
        exact ih t z' hd
      · refine Lift.bind (hd.rs.left_of zp) ?_; rintro zpl _ rfl
        refine Lift.ite (fun _ => ?_) (fun _ => ?_)
        · refine Lift.bind (rotate_right_ext hd zp) ?_; rintro t _ ⟨rfl, hd⟩
          refine Lift.bind (insert_fix_outer_r_ext hd zp) ?_; rintro t _ ⟨rfl, hd⟩
          exact ih t zp hd
        · refine Lift.bind (insert_fix_outer_r_ext hd z) ?_; rintro t _ ⟨rfl, hd⟩
          exact ih t z hd

theorem insert_loop_ext (comp : K → K → Bool) (dup : Bool) (zkey : K) (hd : Disj E s)
    (fuel : Nat) : ∀ y x : Ptr,
    Lift Eq (insert_loop comp dup s zkey fuel y x) (insert_loop comp dup (s.ext E) zkey fuel y x) := by
  induction fuel with
  | zero => intro y x; exact Lift.error
  | succ fuel ih =>
    intro y x
    unfold RedBlackTree.insert_loop
    refine Lift.ite (fun _ => Lift.pure rfl) (fun _ => ?_)
    refine Lift.bind (hd.rs.load x) ?_; rintro n _ rfl
    refine Lift.ite (fun _ => ih _ _) (fun _ => ?_)
    refine Lift.ite (fun _ => ih _ _) (fun _ => ?_)
    exact Lift.ite (fun _ => Lift.pure rfl) (fun _ => ih _ _)

theorem insert_link_ext (comp : K → K → Bool) (hd : Disj E s) (z y : Ptr) :
    Lift (RS E) (s.insert_link comp z y) ((s.ext E).insert_link comp z y) := by
  unfold RedBlackTree.insert_link
  refine Lift.bind (hd.rs.set_parent z y) ?_; rintro t _ ⟨rfl, hd⟩
  refine Lift.ite (fun _ => Lift.pure (R := RS E) ⟨rfl, hd⟩) (fun _ => ?_)
  refine Lift.bind (hd.rs.key_of z) ?_; rintro zk _ rfl
  refine Lift.bind (hd.rs.key_of y) ?_; rintro yk _ rfl
  exact Lift.ite (fun _ => hd.rs.set_left y z) (fun _ => hd.rs.set_right y z)

/-- What `insert(val)` does and returns in a memory that holds other objects too is what it
does and returns in a memory of its own. -/
theorem insert_ext (comp : K → K → Bool) (dup : Bool) (fuel : Nat) (hd : Disj E s)
    (val : K × V) :
    Lift (RSP E) (insert comp dup fuel s val) (insert comp dup fuel (s.ext E) val) := by
  obtain ⟨⟨e, hd1⟩, -⟩ := hd.rs.create_node_ext val.1 val.2
  have hc : (s.ext E).create_node val.1 val.2 =
      ((s.create_node val.1 val.2).1.ext E, s.brk) := Prod.ext e rfl
  have hc0 : s.create_node val.1 val.2 = ((s.create_node val.1 val.2).1, s.brk) := rfl
  unfold RedBlackTree.insert
  rw [hc]
  generalize (s.create_node val.1 val.2).1 = t at hd1 hc0 ⊢
  rw [hc0]
  dsimp only
  clear hc0 hc e hd
  refine Lift.bind (hd1.rs.key_of _) ?_; rintro zkey _ rfl
  refine Lift.bind (insert_loop_ext comp dup zkey hd1 fuel _ _) ?_
  rintro ⟨y, x, found⟩ _ rfl
  dsimp only
  refine Lift.ite (fun _ => ?_) (fun _ => ?_)
  · refine Lift.bind (hd1.rs.free _) ?_; rintro t _ ⟨rfl, hd⟩
    exact Lift.pure ⟨hd.rs, rfl⟩
  · refine Lift.bind (insert_link_ext comp hd1 _ _) ?_; rintro t _ ⟨rfl, hd⟩
    refine Lift.bind (insert_fix_ext fuel t _ hd) ?_; rintro t _ ⟨rfl, hd⟩
    exact Lift.pure ⟨⟨rfl, hd⟩, rfl⟩

namespace IsTree

variable {S : RedBlackTree K V} {T : Tree K V}

theorem own_ext (S : RedBlackTree K V) (T : Tree K V) : (S.own T).ext (S.others T) = S := by
  cases S with
  | mk mem root nil size brk =>
    simp only [RedBlackTree.own, RedBlackTree.others, RedBlackTree.ext, RedBlackTree.mk.injEq,
      and_true]
    funext p
    by_cases hp : p ∈ T.addrs ∨ p = nil
    · simp only [hp, if_true]
      cases mem p <;> rfl
    · simp only [hp, if_false]

theorem disj_own (h : IsTree S T) : Disj (S.others T) (S.own T) := by
  intro p hp
  by_cases hq : p ∈ T.addrs ∨ p = S.nil
  · simp only [RedBlackTree.others, hq, if_true]
  · simp only [RedBlackTree.others, hq, if_false]
    rcases hp with hp | hp
    · simp [RedBlackTree.own, hq] at hp
    · exact h.unused p hp

theorem isTree_own (h : IsTree S T) : IsTree (S.own T) T := by
  refine ⟨h.root_eq, ?_, h.nodup, h.nil_ne, ?_, ?_, h.brk_ne⟩
  · refine Rep_congr (fun q hq => ?_) h.rep
    simp only [RedBlackTree.own, hq, true_or, if_true]
  · obtain ⟨n, hn⟩ := h.nil_live
    exact ⟨n, by simp only [RedBlackTree.own, or_true, if_true]; exact hn⟩
  · intro p hp
    have := h.unused p hp
    simp only [RedBlackTree.own]
    split
    · exact this
    · rfl

theorem sentinelBlack_own (hs : SentinelBlack S) : SentinelBlack (S.own T) := by
  unfold SentinelBlack color_of load at *
  simp only [RedBlackTree.own, or_true, if_true]
  exact hs

/-- The source's `insert(val)` writes to the nodes of its tree and to new cells only: every other cell
of the memory is left as it was. -/
theorem insert_frame (comp : K → K → Bool) (dup : Bool) (k : K) (v : V) (h : IsTree S T)
    (hs : SentinelBlack S) (hc : T.color = .BLACK) {fuel : Nat} (hf : T.height < fuel)
    {S' : RedBlackTree K V} {it : Iterator} {b : Bool}
    (he : insert comp dup fuel S (k, v) = .ok (S', it, b)) :
    ∀ q n, S.mem q = some n → q ∉ T.addrs → q ≠ S.nil → S'.mem q = some n := by
  intro q n hq h1 h2
  obtain ⟨d', T', it', b', e1, -⟩ := h.isTree_own.insert_spec comp dup k v
    (sentinelBlack_own hs) hc hf
  obtain ⟨B, e2, ⟨e3, hd'⟩, -⟩ := insert_ext comp dup fuel h.disj_own (k, v) _ e1
  rw [own_ext, he] at e2
  cases e2
  have hE : S.others T q = some n := by
    simp only [RedBlackTree.others, h1, h2, or_self, if_false, hq]
  have hnone : d'.mem q = none := by
    by_contra hne
    have := hd' q (Or.inl hne)
    rw [hE] at this
    cases this
  simp only at e3
  rw [e3, ext_mem_none hnone, hE]

end IsTree

/-- The source's `clear_helper(node)` frees the nodes of the subtree and nothing else. -/
theorem clear_helper_sim (t : Tree K V) : ∀ (s : RedBlackTree K V) (par : Ptr) (fuel : Nat),
    Rep s.mem s.nil par t → t.addrs.Nodup → t.height < fuel →
    clear_helper fuel s (t.ptr s.nil) =
      .ok { s with mem := fun q => if q ∈ t.addrs then none else s.mem q } := by
  induction t with
  | leaf =>
    intro s par fuel _ _ hf
    obtain ⟨n, rfl⟩ : ∃ n, fuel = n + 1 := ⟨fuel - 1, by omega⟩
    simp [clear_helper]
  | node p c l k v r ihl ihr =>
    intro s par fuel hr hn hf
    obtain ⟨n, rfl⟩ : ∃ n, fuel = n + 1 := ⟨fuel - 1, by omega⟩
    simp only [Rep_node] at hr
    obtain ⟨h0, h1, h2, h3, h4⟩ := hr
    simp only [Tree.height_node] at hf
    simp only [Tree.addrs_node, List.nodup_append, List.nodup_cons, List.mem_append,
      List.mem_cons, List.Disjoint, not_or, or_imp, forall_and, imp_false,
      List.forall_mem_ne', forall_eq] at hn
    obtain ⟨hnl, ⟨hpr, hnr⟩, hpl, hlr⟩ := hn
    have e1 := ihl s p n h3 hnl (by omega)
    obtain ⟨s1, hs1⟩ : ∃ s1 : RedBlackTree K V,
      s1 = { s with mem := fun q => if q ∈ l.addrs then none else s.mem q } := ⟨_, rfl⟩
    rw [← hs1] at e1
    have hm1 : ∀ q, q ∉ l.addrs → s1.mem q = s.mem q := by
      intro q hq; rw [hs1]; simp only [hq, if_false]
    have hn1 : s1.nil = s.nil := by rw [hs1]
    have h4' : Rep s1.mem s1.nil p r := by
      rw [hn1]
      exact Rep_congr (fun q hq => hm1 q (fun hql => hlr q hql hq)) h4
    have e2 := ihr s1 p n h4' hnr (by omega)
    obtain ⟨s2, hs2⟩ : ∃ s2 : RedBlackTree K V,
      s2 = { s1 with mem := fun q => if q ∈ r.addrs then none else s1.mem q } := ⟨_, rfl⟩
    rw [← hs2, hn1] at e2
    have hm2 : ∀ q, q ∉ r.addrs → s2.mem q = s1.mem q := by
      intro q hq; rw [hs2]; simp only [hq, if_false]
    have hl1 : s1.load p = .ok ⟨k, v, par, l.ptr s.nil, r.ptr s.nil, c⟩ :=
      load_of_mem h0 ((hm1 p hpl).trans h2)
    have hl2 : s2.load p = .ok ⟨k, v, par, l.ptr s.nil, r.ptr s.nil, c⟩ :=
      load_of_mem h0 ((hm2 p hpr).trans ((hm1 p hpl).trans h2))
    simp only [clear_helper, Tree.ptr_node, h1, if_false, left_of, load_of_mem h0 h2, bind_ok,
      pure_eq_ok, e1, right_of, hl1, e2, free, hl2, Except.ok.injEq]
    rw [hs2, hs1]
    simp only [RedBlackTree.mk.injEq, and_true]
    funext q
    by_cases hq : q = p
    · subst hq
      simp
    · simp only [Function.update_noteq hq, Tree.addrs_node, List.mem_append, List.mem_cons, hq,
        false_or]
      by_cases hql : q ∈ l.addrs
      · simp [hql]
      · simp [hql]

namespace IsTree

variable {s : RedBlackTree K V} {T : Tree K V}

/-- The source's `clear()`: it returns, frees the nodes of the tree and nothing else, and
leaves the empty tree with the same sentinel. -/
theorem clear_sim (h : IsTree s T) {fuel : Nat} (hf : T.height < fuel) :
    ∃ s', s.clear fuel = .ok s' ∧ IsTree s' .leaf ∧ s'.nil = s.nil ∧ s'.root = s.nil ∧
      s'.tree_size = 0 ∧ s'.brk = s.brk ∧ (∀ q, q ∉ T.addrs → s'.mem q = s.mem q) ∧
      (∀ q, q ∈ T.addrs → s'.mem q = none) := by
  have e := clear_helper_sim T s s.nil fuel h.rep h.nodup hf
  rw [← h.root_eq] at e
  refine ⟨{ s with mem := (fun q => if q ∈ T.addrs then none else s.mem q), root := s.nil,
                   tree_size := 0 }, by simp only [clear, e, bind_ok, pure_eq_ok], ?_, rfl, rfl, rfl, rfl, ?_, ?_⟩
  · refine ⟨rfl, trivial, List.nodup_nil, h.nil_ne, ?_, ?_, h.brk_ne⟩
    · obtain ⟨n, hn⟩ := h.nil_live
      refine ⟨n, ?_⟩
      simp only [h.rep.nil_not_mem, if_false]
      exact hn
    · intro p hp
      simp only
      split
      · rfl
      · exact h.unused p hp
  · intro q hq
    simp only [hq, if_false]
  · intro q hq
    simp only [hq, if_true]

end IsTree

namespace Valid

variable {s : RedBlackTree K V} {T : Tree K V}

/-- One `insert` on a valid tree whose keys are strictly increasing, for a key that is not
in it: the new pair is added, the tree stays valid, and the cells of other objects are
left as they were. -/
theorem insert_step {comp : K → K → Bool} (hsw : StrictWeak comp) (hv : Valid s T)
    (hl : SentinelLinks s) (hi : Increasing comp T.nodes) (k : K) (v : V)
    (hk : ∀ e ∈ T.toList, ¬KeyEquiv comp k e.1) {fuel : Nat} (hf : s.tree_size < fuel) :
    ∃ s' T' it, RedBlackTree.insert comp false fuel s (k, v) = .ok (s', it, true) ∧
      Valid s' T' ∧ SentinelLinks s' ∧ Increasing comp T'.nodes ∧
      T'.toList.Perm ((k, v) :: T.toList) ∧ s'.nil = s.nil ∧
      s'.tree_size = s.tree_size + 1 ∧
      (∀ q n, s.mem q = some n → q ∉ T.addrs → q ≠ s.nil → s'.mem q = some n) ∧
      (∀ q ∈ T'.addrs, q ∈ T.addrs ∨ s.mem q = none) := by
  obtain ⟨s', T', it, b, e1, h1, hv', hz, -⟩ := hv.insert_valid comp k v hf
  have hft := hv.fuel_ok hf
  obtain ⟨s2, T2, it2, b2, e2, -, -, -, hn, -⟩ := hv.tree.insert_spec comp false k v
    hv.sentinel hv.root hft
  rw [e1] at e2
  cases e2
  have hm := hv.tree.insert_sentinel comp false k v hv.sentinel hv.root hft e1
  have hfr := hv.tree.insert_frame comp false k v hv.sentinel hv.root hft e1
  cases b with
  | false =>
    exfalso
    obtain ⟨-, e, he⟩ := insert_t_false comp s.brk k v T T' h1
    obtain ⟨hmem, heq⟩ := find_t_mem comp k T e he
    exact hk e.2 (mem_toList_of_mem_nodes hmem) heq
  | true =>
    obtain ⟨-, path, -, -, hn1, hn2⟩ := insert_t_true comp s.brk k v T T' h1
    refine ⟨s', T', it, e1, hv', hl.of_cell_eq hn hm,
      insert_t_incr hsw s.brk k v T T' true h1 hi, ?_, hn, by simpa using hz, hfr, ?_⟩
    · rw [Tree.toList_eq_map, Tree.toList_eq_map, hn1, hn2]
      simp only [List.map_append, List.map_cons]
      exact List.perm_middle
    · intro q hq
      rw [Tree.addrs_eq_map, hn2] at hq
      simp only [List.map_append, List.map_cons, List.mem_append, List.mem_cons] at hq
      rcases hq with hq | rfl | hq
      · left; rw [Tree.addrs_eq_map, hn1]; simp [hq]
      · right; exact hv.tree.unused _ (le_refl _)
      · left; rw [Tree.addrs_eq_map, hn1]; simp [hq]

end Valid

theorem not_mem_new {S : RedBlackTree K V} {T T' : Tree K V} {q : Ptr} {n : Node K V}
    (hadd : ∀ q ∈ T'.addrs, q ∈ T.addrs ∨ S.mem q = none) (hq : S.mem q = some n)
    (h : q ∉ T.addrs) : q ∉ T'.addrs := by
  intro hq'
  rcases hadd q hq' with h1 | h1
  · exact h h1
  · rw [hq] at h1; cases h1

/-- The source's `copy_helper(node, source_nil)` into a valid tree with strictly increasing
keys, from a subtree of another object whose keys are strictly increasing and not in the
tree: it returns, every pair of the subtree is added, the tree stays valid, and the cells
of other objects are left as they were. -/
theorem copy_helper_sim {comp : K → K → Bool} (hsw : StrictWeak comp) (onil : Ptr)
    (src : Tree K V) : ∀ (S : RedBlackTree K V) (Td : Tree K V) (par : Ptr) (fuel : Nat),
    Valid S Td → SentinelLinks S → Increasing comp Td.nodes → Rep S.mem onil par src →
    (∀ q ∈ src.addrs, q ∉ Td.addrs ∧ q ≠ S.nil) →
    (src.toList.Pairwise fun a b => comp a.1 b.1 = true) →
    (∀ x ∈ src.toList, ∀ e ∈ Td.toList, ¬KeyEquiv comp x.1 e.1) →
    S.tree_size + src.count + src.height < fuel →
    ∃ S' Td', copy_helper comp false fuel S (src.ptr onil) onil = .ok S' ∧ Valid S' Td' ∧
      SentinelLinks S' ∧ Increasing comp Td'.nodes ∧
      Td'.toList.Perm (Td.toList ++ src.toList) ∧ S'.nil = S.nil ∧
      S'.tree_size = S.tree_size + src.count ∧
      (∀ q n, S.mem q = some n → q ∉ Td.addrs → q ≠ S.nil → S'.mem q = some n) ∧
      (∀ q ∈ Td'.addrs, q ∈ Td.addrs ∨ S.mem q = none) := by
  induction src with
  | leaf =>
    intro S Td par fuel hv hl hi _ _ _ _ hf
    obtain ⟨n, rfl⟩ : ∃ n, fuel = n + 1 := ⟨fuel - 1, by omega⟩
    refine ⟨S, Td, ?_, hv, hl, hi, by simp, rfl, rfl, fun q n h _ _ => h,
      fun q hq => Or.inl hq⟩
    simp [copy_helper]
  | node p c l k v r ihl ihr =>
    intro S Td par fuel hv hl hi hrep hdis hsrc hfresh hf
    simp only [Tree.count_node, Tree.height_node] at hf
    obtain ⟨n, rfl⟩ : ∃ n, fuel = n + 1 := ⟨fuel - 1, by omega⟩
    have hrep0 := hrep
    simp only [Rep_node] at hrep
    obtain ⟨h0, h1, h2, h3, h4⟩ := hrep
    simp only [Tree.toList_node] at hsrc hfresh
    obtain ⟨hPl, hPr, hlr⟩ := List.pairwise_append.1 hsrc
    rw [List.pairwise_cons] at hPr
    -- the cells of the subtree are cells of another object
    have hlive : ∀ q ∈ (Tree.node p c l k v r).addrs, ∃ m, S.mem q = some m :=
      fun q hq => hrep0.mem_some hq
    -- insert(node->data)
    obtain ⟨S1, Td1, it, e1, hv1, hl1, hi1, hperm1, hn1, hz1, hfr1, hadd1⟩ :=
      hv.insert_step hsw hl hi k v (fun e he => hfresh (k, v) (by simp) e he)
        (show S.tree_size < n by omega)
    have hm1 : ∀ q ∈ (Tree.node p c l k v r).addrs, S1.mem q = S.mem q := by
      intro q hq
      obtain ⟨m, hm⟩ := hlive q hq
      rw [hm]
      exact hfr1 q m hm (hdis q hq).1 (hdis q hq).2
    have hnot1 : ∀ q ∈ (Tree.node p c l k v r).addrs, q ∉ Td1.addrs ∧ q ≠ S1.nil := by
      intro q hq
      obtain ⟨m, hm⟩ := hlive q hq
      exact ⟨not_mem_new hadd1 hm (hdis q hq).1, hn1 ▸ (hdis q hq).2⟩
    have hrep1 : Rep S1.mem onil par (.node p c l k v r) := Rep_congr hm1 hrep0
    have hrep1' := hrep1
    simp only [Rep_node] at hrep1
    obtain ⟨-, -, g2, g3, g4⟩ := hrep1
    -- copy_helper(node->left, source_nil)
    obtain ⟨S2, Td2, e2, hv2, hl2, hi2, hperm2, hn2, hz2, hfr2, hadd2⟩ :=
      ihl S1 Td1 p n hv1 hl1 hi1 g3 (fun q hq => hnot1 q (by simp [hq])) hPl
        (fun x hx e he => by
          rcases List.mem_cons.1 (hperm1.mem_iff.1 he) with rfl | he
          · intro hxe
            have := hlr x hx (k, v) (by simp)
            rw [hxe.1] at this
            cases this
          · exact hfresh x (by simp [hx]) e he)
        (by omega)
    have hm2 : ∀ q ∈ (Tree.node p c l k v r).addrs, S2.mem q = S1.mem q := by
      intro q hq
      obtain ⟨m, hm⟩ := hrep1'.mem_some hq
      rw [hm]
      exact hfr2 q m hm (hnot1 q hq).1 (hnot1 q hq).2
    have hnot2 : ∀ q ∈ (Tree.node p c l k v r).addrs, q ∉ Td2.addrs ∧ q ≠ S2.nil := by
      intro q hq
      obtain ⟨m, hm⟩ := hrep1'.mem_some hq
      exact ⟨not_mem_new hadd2 hm (hnot1 q hq).1, hn2 ▸ (hnot1 q hq).2⟩
    have hrep2 : Rep S2.mem onil par (.node p c l k v r) := Rep_congr hm2 hrep1'
    have hrep2' := hrep2
    simp only [Rep_node] at hrep2
    obtain ⟨-, -, f2, -, f4⟩ := hrep2
    -- copy_helper(node->right, source_nil)
    obtain ⟨S3, Td3, e3, hv3, hl3, hi3, hperm3, hn3, hz3, hfr3, hadd3⟩ :=
      ihr S2 Td2 p n hv2 hl2 hi2 f4 (fun q hq => hnot2 q (by simp [hq])) hPr.2
        (fun x hx e he => by
          rcases List.mem_append.1 (hperm2.mem_iff.1 he) with he | he
          · rcases List.mem_cons.1 (hperm1.mem_iff.1 he) with rfl | he
            · intro hxe
              have := hPr.1 x hx
              rw [hxe.2] at this
              cases this
            · exact hfresh x (by simp [hx]) e he
          · intro hxe
            have := hlr e he x (by simp [hx])
            rw [hxe.2] at this
            cases this)
        (by omega)
    refine ⟨S3, Td3, ?_, hv3, hl3, hi3, ?_, by rw [hn3, hn2, hn1], ?_, ?_, ?_⟩
    · simp only [copy_helper, Tree.ptr_node, h1, if_false, load_of_mem h0 h2, bind_ok, e1,
        left_of, load_of_mem h0 g2, pure_eq_ok, e2, right_of, load_of_mem h0 f2, e3]
    · refine hperm3.trans ?_
      refine (List.Perm.append_right _ hperm2).trans ?_
      refine (List.Perm.append_right _ (List.Perm.append_right _ hperm1)).trans ?_
      have ea : ((k, v) :: Td.toList ++ l.toList) ++ r.toList =
          (k, v) :: ((Td.toList ++ l.toList) ++ r.toList) := by simp
      have eb : Td.toList ++ (Tree.node p c l k v r).toList =
          (Td.toList ++ l.toList) ++ (k, v) :: r.toList := by simp
      rw [ea, eb]
      exact List.perm_middle.symm
    · rw [hz3, hz2, hz1]
      simp only [Tree.count_node]
      omega
    · intro q m hq hqT hqn
      have a1 := hfr1 q m hq hqT hqn
      have b1 := not_mem_new hadd1 hq hqT
      have a2 := hfr2 q m a1 b1 (hn1 ▸ hqn)
      have b2 := not_mem_new hadd2 a1 b1
      exact hfr3 q m a2 b2 (by rw [hn2, hn1]; exact hqn)
    · intro q hq
      by_contra hcon
      rw [not_or] at hcon
      obtain ⟨hqT, hqm⟩ := hcon
      obtain ⟨m, hm⟩ := Option.ne_none_iff_exists'.1 hqm
      have hqn : q ≠ S.nil := by
        rintro rfl
        have := hv3.tree.rep.nil_not_mem
        rw [hn3, hn2, hn1] at this
        exact this hq
      have a1 := hfr1 q m hm hqT hqn
      have b1 := not_mem_new hadd1 hm hqT
      have a2 := hfr2 q m a1 b1 (hn1 ▸ hqn)
      have b2 := not_mem_new hadd2 a1 b1
      exact not_mem_new hadd3 a2 b2 hq

/-- Two sequences of pairs with strictly increasing keys that hold the same pairs are
equal. -/
theorem eq_of_perm_increasing {comp : K → K → Bool} (hsw : StrictWeak comp)
    {l₁ l₂ : List (K × V)} (hp : l₁.Perm l₂)
    (h₁ : l₁.Pairwise fun a b => comp a.1 b.1 = true)
    (h₂ : l₂.Pairwise fun a b => comp a.1 b.1 = true) : l₁ = l₂ := by
  haveI : IsAntisymm (K × V) (fun a b => comp a.1 b.1 = true) :=
    ⟨fun a b hab hba => by rw [hsw.asymm hab] at hba; cases hba⟩
  exact List.eq_of_perm_of_sorted hp h₁ h₂

/-- The state after `RedBlackTree()` in the memory of `s` holds the empty tree, and the
cells of `s` as they were. -/
theorem construct_facts [Inhabited K] [Inhabited V] {s : RedBlackTree K V} {T : Tree K V}
    (h : IsTree s T) :
    IsTree s.construct .leaf ∧ SentinelBlack s.construct ∧ SentinelLinks s.construct ∧
      s.construct.tree_size = 0 ∧
      ∀ p n, s.mem p = some n → s.construct.mem p = some n ∧ p ≠ s.construct.nil := by
  have hb : ∀ p n, s.mem p = some n → p ≠ s.brk := by
    rintro p n hp rfl
    rw [h.unused _ (le_refl _)] at hp
    cases hp
  have hnil : s.construct.nil = s.brk := rfl
  have hmem : s.construct.mem s.brk = some ⟨default, default, 0, 0, 0, .BLACK⟩ := by
    simp [construct, new_sentinel]
  refine ⟨⟨rfl, trivial, List.nodup_nil, h.brk_ne, ⟨_, hmem⟩, ?_, ?_⟩, ?_, ?_, rfl, ?_⟩
  · intro p hp
    have hp' : s.brk + 1 ≤ p := hp
    have hne : p ≠ s.brk := by
      intro e
      rw [e] at hp'
      exact absurd hp' (Nat.not_succ_le_self _)
    simp only [construct, new_sentinel, Function.update_noteq hne]
    exact h.unused p (Nat.le_of_succ_le hp')
  · exact Nat.succ_ne_zero _
  · simp only [SentinelBlack, color_of, load, hnil, h.brk_ne, if_false, hmem, bind_ok,
      pure_eq_ok]
  · simp only [SentinelLinks, left_of, right_of, load, hnil, h.brk_ne, if_false, hmem, bind_ok,
      pure_eq_ok, and_self]
  · intro p n hp
    refine ⟨?_, hb p n hp⟩
    simp only [construct, new_sentinel, Function.update_noteq (hb p n hp)]
    exact hp

/-- An object whose cells a memory holds as they are is the same tree in that memory. -/
theorem IsTree.view_of_mem {s c : RedBlackTree K V} {Ts Tc : Tree K V} (hs : IsTree s Ts)
    (hc : IsTree c Tc) (hm : ∀ p n, s.mem p = some n → c.mem p = some n) :
    IsTree (c.view s.members) Ts := by
  refine ⟨hs.root_eq, ?_, hs.nodup, hs.nil_ne, ?_, hc.unused, hc.brk_ne⟩
  · refine Rep_congr (fun q hq => ?_) hs.rep
    obtain ⟨m, hm'⟩ := hs.rep.mem_some hq
    show c.mem q = s.mem q
    rw [hm', hm q m hm']
  · obtain ⟨n, hn⟩ := hs.nil_live
    exact ⟨n, hm _ n hn⟩

theorem SentinelLinks.view_of_cells {s c : RedBlackTree K V} {Ts : Tree K V} (hs : IsTree s Ts)
    (hl : SentinelLinks s) (hm : ∀ p n, s.mem p = some n → c.mem p = some n) :
    SentinelLinks (c.view s.members) := by
  rw [sentinelLinks_iff hs.nil_ne] at hl
  obtain ⟨n, hn, e1, e2⟩ := hl
  rw [sentinelLinks_iff (show (c.view s.members).nil ≠ 0 from hs.nil_ne)]
  exact ⟨n, hm _ n hn, e1, e2⟩

/-- The source's `copy_helper(other._root, other._nil)` into an empty tree, from a valid
tree with strictly increasing keys in the same memory. -/
theorem copy_core [DecidableEq K] [DecidableEq V] {comp : K → K → Bool} (hsw : StrictWeak comp)
    {s D : RedBlackTree K V} {Ts : Tree K V} (hvs : Valid s Ts) (hls : SentinelLinks s)
    (his : Increasing comp Ts.nodes) (hD : IsTree D .leaf) (hDb : SentinelBlack D)
    (hDl : SentinelLinks D) (hDz : D.tree_size = 0)
    (hmem : ∀ p n, s.mem p = some n → D.mem p = some n ∧ p ≠ D.nil) {fuel : Nat}
    (hf : 2 * s.tree_size < fuel) :
    ∃ c Tc, copy_helper comp false fuel D s.root s.nil = .ok c ∧ Valid c Tc ∧
      c.size = s.size ∧ c.inorder fuel = .ok Ts.toList ∧
      c.operator_eq fuel s.members false = .ok true ∧
      (c.view s.members).size = s.size ∧ (c.view s.members).inorder fuel = .ok Ts.toList ∧
      (∀ p n, s.mem p = some n → c.mem p = some n) := by
  have hsz := hvs.size
  have hh := Ts.height_le_count
  have hrep : Rep D.mem s.nil s.nil Ts := by
    refine Rep_congr (fun q hq => ?_) hvs.tree.rep
    obtain ⟨m, hm⟩ := hvs.tree.rep.mem_some hq
    rw [hm, (hmem q m hm).1]
  obtain ⟨c, Tc, e, hvc, hlc, hic, hperm, hn, hz, hfr, -⟩ :=
    copy_helper_sim hsw s.nil Ts D .leaf s.nil fuel ⟨hD, hDb, rfl, trivial, trivial, hDz⟩ hDl
      List.Pairwise.nil hrep
      (fun q hq => by
        obtain ⟨m, hm⟩ := hvs.tree.rep.mem_some hq
        exact ⟨by simp, (hmem q m hm).2⟩)
      ((increasing_toList comp Ts).1 his) (fun x _ e he => by simp at he) (by omega)
  rw [← hvs.tree.root_eq] at e
  have hcm : ∀ p n, s.mem p = some n → c.mem p = some n :=
    fun p n hp => hfr p n (hmem p n hp).1 (by simp) (hmem p n hp).2
  have hlist : Tc.toList = Ts.toList :=
    eq_of_perm_increasing hsw (by simpa using hperm) ((increasing_toList comp Tc).1 hic)
      ((increasing_toList comp Ts).1 his)
  have hcz : c.tree_size = s.tree_size := by rw [hz, hDz, hsz]; omega
  have hview := hvs.tree.view_of_mem hvc.tree hcm
  have hvl := SentinelLinks.view_of_cells hvs.tree hls hcm
  have hhc := Tc.height_le_count
  have hcc := hvc.size
  refine ⟨c, Tc, e, hvc, hcz, ?_, ?_, rfl, ?_, hcm⟩
  · rw [← hlist]
    exact hvc.tree.inorder_sim (by omega)
  · have := operator_eq_sim hvc.tree hview hlc hvl hvc.size hsz
      (show 2 * c.size < fuel by show 2 * c.tree_size < fuel; omega)
    rw [this]
    simp only [Except.ok.injEq, decide_eq_true_eq]
    exact ⟨hcz, hlist⟩
  · exact hview.inorder_sim (by omega)

theorem SentinelBlack.of_mem_eq {s s' : RedBlackTree K V} (hs : SentinelBlack s)
    (hn : s'.nil = s.nil) (hm : s'.mem s.nil = s.mem s.nil) : SentinelBlack s' := by
  unfold SentinelBlack color_of load at *
  rw [hn, hm]
  exact hs

/-- C18: copy fidelity in no-duplicates mode, with a strict weak ordering, for every tree
`s` reached from the empty tree by a sequence of calls of `insert` and `erase`.  The copy
`c` is made by copy construction in the memory that holds `s`, or by copy assignment to
any object `d` that holds a tree with a BLACK sentinel in a memory that holds the cells
of `s` too, none of them a node or the sentinel of `d`.  In both cases `c` satisfies the
red-black invariants (`Valid`), has the size and the `inorder()` of `s`, and `c == s` is
true; and `s` is unchanged: its members are not written to, and every cell of its memory
holds what it held, so that its size and its `inorder()` are what they were.  The tree is
the one `run` reaches with the calls `ops`; the loops run on `fuel`, and any amount above
twice the number of calls (and above the height of the tree of `d`) is enough. -/
theorem copy_fidelity [Inhabited K] [Inhabited V] [DecidableEq K] [DecidableEq V]
    {comp : K → K → Bool} (hsw : StrictWeak comp) (ops : List (Op K V)) {fuel : Nat}
    (hf : 2 * ops.length < fuel) :
    ∃ s i e xs, run comp fuel ops empty = .ok (s, i, e) ∧ s.inorder fuel = .ok xs ∧
      (∃ c Tc, copy_construct comp false fuel s = .ok c ∧ Valid c Tc ∧ c.size = s.size ∧
        c.inorder fuel = .ok xs ∧ c.operator_eq fuel s.members false = .ok true ∧
        (c.view s.members).size = s.size ∧ (c.view s.members).inorder fuel = .ok xs ∧
        ∀ p n, s.mem p = some n → c.mem p = some n) ∧
      ∀ (d : RedBlackTree K V) (Td : Tree K V), IsTree d Td → SentinelBlack d →
        SentinelLinks d → Td.height < fuel →
        (∀ p n, s.mem p = some n → d.mem p = some n ∧ p ∉ Td.addrs ∧ p ≠ d.nil) →
        ∃ c Tc, copy_assign comp false fuel d s.members false = .ok c ∧ Valid c Tc ∧
          c.size = s.size ∧ c.inorder fuel = .ok xs ∧
          c.operator_eq fuel s.members false = .ok true ∧
          (c.view s.members).size = s.size ∧ (c.view s.members).inorder fuel = .ok xs ∧
          ∀ p n, s.mem p = some n → c.mem p = some n := by
  obtain ⟨s, T, i, e, h1, hv, hl, hsz, hinc⟩ := run_reach comp ops (show ops.length < fuel by omega)
  have hi := hinc hsw
  have hfs : 2 * s.tree_size < fuel := by omega
  refine ⟨s, i, e, T.toList, h1, hv.tree.inorder_sim (hv.fuel_ok (by omega)), ?_, ?_⟩
  · obtain ⟨c1, c2, c3, c4, c5⟩ := construct_facts hv.tree
    exact copy_core hsw hv hl hi c1 c2 c3 c4 c5 hfs
  · intro d Td hd hdb hdl hdf hmem
    obtain ⟨d1, e1, g1, gn, -, gz, -, gm, -⟩ := hd.clear_sim hdf
    have hnm : d1.mem d.nil = d.mem d.nil := gm _ hd.rep.nil_not_mem
    obtain ⟨c, Tc, e2, rest⟩ := copy_core hsw hv hl hi g1 (hdb.of_mem_eq gn hnm)
      (hdl.of_cell_eq gn hnm) gz
      (fun p n hp => ⟨by rw [gm p (hmem p n hp).2.1]; exact (hmem p n hp).1,
        gn ▸ (hmem p n hp).2.2⟩) hfs
    refine ⟨c, Tc, ?_, rest⟩
    simp only [copy_assign, Bool.false_eq_true, if_false, e1, bind_ok]
    exact e2

/-- C18 at the tree reached by inserting 10, 5, 15, 10 again and erasing 5. -/
theorem copy_fidelity_witness :
    ∃ s i e xs,
      run ltNat 11 [.insert 10 0, .insert 5 0, .insert 15 0, .insert 10 1, .erase 5]
        (empty : RedBlackTree Nat Nat) = .ok (s, i, e) ∧ s.inorder 11 = .ok xs ∧
      (∃ c Tc, copy_construct ltNat false 11 s = .ok c ∧ Valid c Tc ∧ c.size = s.size ∧
        c.inorder 11 = .ok xs ∧ c.operator_eq 11 s.members false = .ok true ∧
        (c.view s.members).size = s.size ∧ (c.view s.members).inorder 11 = .ok xs ∧
        ∀ p n, s.mem p = some n → c.mem p = some n) ∧
      ∀ (d : RedBlackTree Nat Nat) (Td : Tree Nat Nat), IsTree d Td → SentinelBlack d →
        SentinelLinks d → Td.height < 11 →
        (∀ p n, s.mem p = some n → d.mem p = some n ∧ p ∉ Td.addrs ∧ p ≠ d.nil) →
        ∃ c Tc, copy_assign ltNat false 11 d s.members false = .ok c ∧ Valid c Tc ∧
          c.size = s.size ∧ c.inorder 11 = .ok xs ∧
          c.operator_eq 11 s.members false = .ok true ∧
          (c.view s.members).size = s.size ∧ (c.view s.members).inorder 11 = .ok xs ∧
          ∀ p n, s.mem p = some n → c.mem p = some n :=
  copy_fidelity strictWeak_ltNat
    [.insert 10 0, .insert 5 0, .insert 15 0, .insert 10 1, .erase 5] (by decide)

/-- A sentinel made by `new Node()` in a memory whose allocator hands out unused cells: the
object with that sentinel for root holds the empty tree, and no other cell changes. -/
theorem new_sentinel_facts [Inhabited K] [Inhabited V] (u : RedBlackTree K V) (hb : u.brk ≠ 0)
    (hu : ∀ p, u.brk ≤ p → u.mem p = none) :
    IsTree (u.new_sentinel.1.view ⟨u.brk, u.brk, 0⟩) .leaf ∧
      SentinelBlack (u.new_sentinel.1.view ⟨u.brk, u.brk, 0⟩) ∧
      SentinelLinks (u.new_sentinel.1.view ⟨u.brk, u.brk, 0⟩) ∧
      (∀ p, p ≠ u.brk → u.new_sentinel.1.mem p = u.mem p) ∧
      (∀ p, u.new_sentinel.1.brk ≤ p → u.new_sentinel.1.mem p = none) := by
  have hmem : u.new_sentinel.1.mem u.brk = some ⟨default, default, 0, 0, 0, .BLACK⟩ := by
    simp [new_sentinel]
  have hun : ∀ p, u.new_sentinel.1.brk ≤ p → u.new_sentinel.1.mem p = none := by
    intro p hp
    have hp' : u.brk + 1 ≤ p := hp
    have hne : p ≠ u.brk := by
      intro e
      rw [e] at hp'
      exact absurd hp' (Nat.not_succ_le_self _)
    simp only [new_sentinel, Function.update_noteq hne]
    exact hu p (Nat.le_of_succ_le hp')
  refine ⟨⟨rfl, trivial, List.nodup_nil, hb, ⟨_, hmem⟩, hun, Nat.succ_ne_zero _⟩, ?_, ?_, ?_,
    hun⟩
  · simp only [SentinelBlack, color_of, load, view, hb, if_false, hmem, bind_ok, pure_eq_ok]
  · simp only [SentinelLinks, left_of, right_of, load, view, hb, if_false, hmem, bind_ok,
      pure_eq_ok, and_self]
  · intro p hp
    simp only [new_sentinel, Function.update_noteq hp]

namespace IsTree

variable {s : RedBlackTree K V}

/-- The first `insert` into an empty tree with a BLACK sentinel. -/
theorem insert_first (comp : K → K → Bool) (dup : Bool) (h : IsTree s .leaf)
    (hs : SentinelBlack s) (hz : s.tree_size = 0) (k : K) (v : V) {fuel : Nat} (hf : 1 < fuel) :
    ∃ s' it, insert comp dup fuel s (k, v) = .ok (s', it, true) ∧ s'.size = 1 ∧
      s'.inorder fuel = .ok [(k, v)] ∧ s'.deref it = .ok (k, v) ∧
      IsTree s' (.node s.brk .BLACK .leaf k v .leaf) := by
  obtain ⟨s', T', it, b, e1, e2, h', -, -, hsz, hit, -⟩ := h.insert_spec comp dup k v hs rfl
    (show (Tree.leaf : Tree K V).height < fuel by simp; omega)
  have e3 : insert_t comp dup s.brk k v (.leaf : Tree K V) =
      some (.node s.brk .BLACK .leaf k v .leaf, true) := rfl
  rw [e3] at e2
  simp only [Option.some.injEq, Prod.mk.injEq] at e2
  obtain ⟨rfl, rfl⟩ := e2
  refine ⟨s', it, e1, ?_, ?_, ?_, h'⟩
  · show s'.tree_size = 1
    rw [hsz, hz]
    rfl
  · have := h'.inorder_sim (show (Tree.node s.brk .BLACK .leaf k v .leaf).height < fuel by
      simp; omega)
    simpa using this
  · have hn := hit rfl
    obtain ⟨node, nil, root⟩ := it
    simp only at hn
    subst hn
    exact h'.deref_sim (s.brk, k, v) (by simp) _ _

/-- Making a sentinel leaves every tree of the memory as it was. -/
theorem new_sentinel_keeps [Inhabited K] [Inhabited V] {T : Tree K V} (h : IsTree s T) :
    IsTree s.new_sentinel.1 T := by
  obtain ⟨-, -, -, hm, hun⟩ := new_sentinel_facts s h.brk_ne h.unused
  have hlive : ∀ q n, s.mem q = some n → q ≠ s.brk := by
    rintro q n hq rfl
    rw [h.unused _ (le_refl _)] at hq
    cases hq
  refine ⟨h.root_eq, Rep_congr (fun q hq => ?_) h.rep, h.nodup, h.nil_ne, ?_, hun,
    Nat.succ_ne_zero _⟩
  · obtain ⟨n, hn⟩ := h.rep.mem_some hq
    exact hm q (hlive q n hn)
  · obtain ⟨n, hn⟩ := h.nil_live
    refine ⟨n, ?_⟩
    show s.new_sentinel.1.mem s.nil = some n
    rw [hm _ (hlive _ n hn)]
    exact hn

end IsTree

/-- The source's statements that both moves end with (`other._nil = new Node()` … 
`other._tree_size = 0`), run for an object `u` that holds the tree `T`. -/
theorem moved_core [Inhabited K] [Inhabited V] (comp : K → K → Bool) {u : RedBlackTree K V}
    {T : Tree K V} (h : IsTree u T) (k : K) (v : V) {fuel : Nat} (hf : T.height + 1 < fuel) :
    MovedFrom comp fuel T k v u.members u.new_sentinel.1 ⟨u.brk, u.brk, 0⟩ := by
  obtain ⟨hD, hDb, hDl, hm, -⟩ := new_sentinel_facts u h.brk_ne h.unused
  have hd := h.new_sentinel_keeps
  have hnil : u.brk ≠ u.nil := by
    intro e
    obtain ⟨n, hn⟩ := h.nil_live
    rw [← e, h.unused _ (le_refl _)] at hn
    cases hn
  obtain ⟨s', it, e1, z1, i1, d1, h1⟩ := hD.insert_first comp false hDb rfl k v
    (show 1 < fuel by omega)
  obtain ⟨f, itf, e2, z2, i2, d2, -⟩ := (isTree_empty (K := K) (V := V)).insert_first comp
    false sentinelBlack_empty rfl k v (show 1 < fuel by omega)
  have hfr := hD.insert_frame comp false k v hDb rfl (show (Tree.leaf : Tree K V).height < fuel
    by simp; omega) e1
  have hse := hD.insert_sentinel comp false k v hDb rfl
    (show (Tree.leaf : Tree K V).height < fuel by simp; omega) e1
  have hview : IsTree (s'.view u.new_sentinel.1.members) T := by
    refine IsTree.view_of_mem hd h1 (fun p n hp => ?_)
    by_cases e : p = u.brk
    · subst e
      have : s'.mem u.brk = u.new_sentinel.1.mem u.brk := hse
      rw [this]
      exact hp
    · exact hfr p n hp (by simp) e
  refine ⟨rfl, rfl, hd, hd.inorder_sim (by omega), hnil, rfl, hD, hDb, hDl, rfl, rfl, ?_, ?_,
    s', it, f, itf, e1, e2, z1, z2, i1, i2, d1, d2, rfl, hview.inorder_sim (by omega)⟩
  · refine ⟨_, hD.begin_sim (by simp; omega), ?_⟩
    simp [Iterator.eq, end_it, nextPtr]
  · have := hD.inorder_sim (show (Tree.leaf : Tree K V).height < fuel by simp; omega)
    simpa using this

/-- The object with members `o` after `clear(); delete _nil;` of another object of the
memory: its cells are as they were. -/
theorem move_assign_sim [Inhabited K] [Inhabited V] {t : RedBlackTree K V} {o : Members}
    {Tt To : Tree K V} (ht : IsTree t Tt) (ho : IsTree (t.view o) To)
    (hd : ∀ q ∈ o.nil :: To.addrs, q ∉ Tt.addrs ∧ q ≠ t.nil) {fuel : Nat}
    (hft : Tt.height < fuel) :
    ∃ u, t.move_assign fuel o false = .ok (u.new_sentinel.1, ⟨u.brk, u.brk, 0⟩) ∧
      u.members = o ∧ IsTree u To := by
  obtain ⟨t1, e, h1, hn, -, -, hb, hk, hg⟩ := ht.clear_sim hft
  obtain ⟨n, hnl⟩ := h1.nil_live
  have hfree : t1.free t1.nil = .ok { t1 with mem := Function.update t1.mem t1.nil none } := by
    simp only [free, load, h1.nil_ne, if_false, hnl, bind_ok, pure_eq_ok]
  refine ⟨({ t1 with mem := Function.update t1.mem t1.nil none } : RedBlackTree K V).view o,
    ?_, rfl, ?_⟩
  · simp only [move_assign, Bool.false_eq_true, if_false, e, bind_ok, hfree, pure_eq_ok]
    rfl
  · have hmem : ∀ q, q ∉ Tt.addrs → q ≠ t.nil →
        Function.update t1.mem t1.nil none q = t.mem q := by
      intro q h2 h3
      rw [Function.update_noteq (by rw [hn]; exact h3), hk q h2]
    refine ⟨ho.root_eq, Rep_congr (fun q hq => ?_) ho.rep, ho.nodup, ho.nil_ne, ?_, ?_, ?_⟩
    · exact hmem q (hd q (List.mem_cons_of_mem _ hq)).1 (hd q (List.mem_cons_of_mem _ hq)).2
    · obtain ⟨m, hm⟩ := ho.nil_live
      refine ⟨m, ?_⟩
      show Function.update t1.mem t1.nil none o.nil = some m
      rw [hmem _ (hd _ (List.mem_cons_self _ _)).1 (hd _ (List.mem_cons_self _ _)).2]
      exact hm
    · intro p hp
      show Function.update t1.mem t1.nil none p = none
      by_cases e : p = t1.nil
      · rw [e, Function.update_same]
      · rw [Function.update_noteq e]
        exact h1.unused p hp
    · exact h1.brk_ne

/-- C19: move fidelity, for every tree `s` (the object with members `o`, which holds the
tree `To`) and a destination other than `s`.  After move construction from `s`, and after
move assignment from `s` to an object `t` that holds a tree `Tt` of its own in the same
memory, `MovedFrom` holds of the destination `d` and the members left to `s`: `d` took the
members of `s`, so it has the size `s` had, and its `inorder()` is the sequence `To.toList`
that `inorder()` of `s` gave before the move; and `s` is left an empty tree with a BLACK
sentinel of its own: `size()` is 0, `begin() == end()`, `inorder()` is empty, and
`insert((k, v))` into it returns true and gives the one-element tree that it gives on a
tree made by `RedBlackTree()`, while the destination keeps its size and its sequence.  The
loops run on `fuel`, and any amount above the two heights is enough. -/
theorem move_fidelity [Inhabited K] [Inhabited V] (comp : K → K → Bool) {t : RedBlackTree K V}
    {o : Members} {Tt To : Tree K V} (ht : IsTree t Tt) (ho : IsTree (t.view o) To)
    (hd : ∀ q ∈ o.nil :: To.addrs, q ∉ Tt.addrs ∧ q ≠ t.nil) (k : K) (v : V)
    {fuel : Nat} (hft : Tt.height < fuel) (hfo : To.height + 1 < fuel) :
    (t.view o).size = o.tree_size ∧ (t.view o).inorder fuel = .ok To.toList ∧
      (∃ d o', (t.view o).move_construct = (d, o') ∧ MovedFrom comp fuel To k v o d o') ∧
      ∃ d o', t.move_assign fuel o false = .ok (d, o') ∧ MovedFrom comp fuel To k v o d o' := by
  refine ⟨rfl, ho.inorder_sim (by omega), ⟨_, _, rfl, moved_core comp ho k v hfo⟩, ?_⟩
  obtain ⟨u, e, hu, h⟩ := move_assign_sim ht ho hd hft
  refine ⟨_, _, e, ?_⟩
  have := moved_core comp h k v hfo
  rw [hu] at this
  exact this

/-- C19 at the memory `twoShapes`: the object with nodes 5 and 6 is moved from, by move
construction and by move assignment to the object with nodes 2 and 3; 9 is inserted
afterwards. -/
theorem move_fidelity_witness :
    (∀ q ∈ twoShapesOther.nil :: twoShapesOtherTree.addrs,
      q ∉ twoShapesTree.addrs ∧ q ≠ twoShapes.nil) ∧
    (twoShapes.view twoShapesOther).size = twoShapesOther.tree_size ∧
      (twoShapes.view twoShapesOther).inorder 5 = .ok twoShapesOtherTree.toList ∧
      (∃ d o', (twoShapes.view twoShapesOther).move_construct = (d, o') ∧
        MovedFrom ltNat 5 twoShapesOtherTree 9 0 twoShapesOther d o') ∧
      ∃ d o', twoShapes.move_assign 5 twoShapesOther false = .ok (d, o') ∧
        MovedFrom ltNat 5 twoShapesOtherTree 9 0 twoShapesOther d o' :=
  ⟨by decide, move_fidelity ltNat isTree_twoShapes isTree_twoShapesOther (by decide) 9 0
    (by decide) (by decide)⟩

theorem Tree.preNodes_perm (t : Tree K V) : t.preNodes.Perm t.nodes := by
  induction t with
  | leaf => exact List.Perm.refl _
  | node p c l k v r ihl ihr =>
    simp only [Tree.preNodes, Tree.nodes_node]
    refine List.Perm.trans ?_ List.perm_middle.symm
    exact List.Perm.cons _ (List.Perm.append ihl ihr)

theorem Tree.postNodes_perm (t : Tree K V) : t.postNodes.Perm t.nodes := by
  induction t with
  | leaf => exact List.Perm.refl _
  | node p c l k v r ihl ihr =>
    simp only [Tree.postNodes, Tree.nodes_node]
    have h1 : (l.postNodes ++ r.postNodes ++ [(p, k, v)]).Perm
        ((p, k, v) :: (l.postNodes ++ r.postNodes)) := by
      rw [← List.singleton_append]
      exact List.perm_append_comm
    refine h1.trans (List.Perm.trans ?_ List.perm_middle.symm)
    exact List.Perm.cons _ (List.Perm.append ihl ihr)

theorem Tree.nodesAt_map (t : Tree K V) (d : Nat) : (t.nodesAt d).map Prod.snd = t.nodes := by
  induction t generalizing d with
  | leaf => rfl
  | node p c l k v r ihl ihr => simp [Tree.nodesAt, ihl, ihr]

theorem Tree.le_of_mem_nodesAt (t : Tree K V) :
    ∀ (d : Nat) (x : Nat × Ptr × K × V), x ∈ t.nodesAt d → d ≤ x.1 := by
  induction t with
  | leaf => intro d x hx; cases hx
  | node p c l k v r ihl ihr =>
    intro d x hx
    simp only [Tree.nodesAt, List.mem_append, List.mem_cons] at hx
    rcases hx with hx | rfl | hx
    · exact Nat.le_of_succ_le (ihl _ x hx)
    · exact le_refl _
    · exact Nat.le_of_succ_le (ihr _ x hx)

theorem Tree.nodesAt_kid (t : Tree K V) (d : Nat) : queueNodes (t.kid d) = t.nodesAt d := by
  cases t with
  | leaf => rfl
  | node p c l k v r => simp [Tree.kid, queueNodes]

theorem Tree.count_kid (t : Tree K V) (d : Nat) : queueCount (t.kid d) = t.count := by
  cases t with
  | leaf => rfl
  | node p c l k v r => simp [Tree.kid, queueCount]

theorem queueNodes_append (q q' : List (Nat × Tree K V)) :
    queueNodes (q ++ q') = queueNodes q ++ queueNodes q' := by
  induction q with
  | nil => rfl
  | cons e q ih => simp [queueNodes, ih]

theorem queueCount_append (q q' : List (Nat × Tree K V)) :
    queueCount (q ++ q') = queueCount q + queueCount q' := by
  induction q with
  | nil => simp [queueCount]
  | cons e q ih => simp [queueCount, ih]; omega

theorem Tree.kid_ne_leaf (t : Tree K V) (d : Nat) : ∀ e ∈ t.kid d, e.2 ≠ .leaf := by
  cases t with
  | leaf => intro e he; cases he
  | node p c l k v r =>
    intro e he
    simp only [Tree.kid, List.mem_singleton] at he
    subst he
    simp

theorem queue_step_ne_leaf {q : List (Nat × Tree K V)} (hq : ∀ e ∈ q, e.2 ≠ .leaf)
    (l r : Tree K V) (d : Nat) : ∀ e ∈ q ++ l.kid d ++ r.kid d, e.2 ≠ .leaf := by
  intro e he
  simp only [List.mem_append] at he
  rcases he with (he | he) | he
  · exact hq e he
  · exact l.kid_ne_leaf d e he
  · exact r.kid_ne_leaf d e he

/-- With enough fuel the loop of `levelorder` visits the nodes of the subtrees of its
queue, each once. -/
theorem bfs_perm : ∀ (fuel : Nat) (q : List (Nat × Tree K V)), (∀ e ∈ q, e.2 ≠ .leaf) →
    queueCount q < fuel → (bfs fuel q).Perm (queueNodes q) := by
  intro fuel
  induction fuel with
  | zero => intro q _ h; omega
  | succ n ih =>
    intro q hne h
    match q with
    | [] => exact List.Perm.refl _
    | (d, .leaf) :: q => exact absurd rfl (hne _ (List.mem_cons_self _ _))
    | (d, .node p c l k v r) :: q =>
      simp only [bfs, queueNodes, Tree.nodesAt]
      have hq : queueCount (q ++ l.kid (d + 1) ++ r.kid (d + 1)) < n := by
        simp only [queueCount, Tree.count_node] at h
        rw [queueCount_append, queueCount_append, Tree.count_kid, Tree.count_kid]
        omega
      have := ih _ (queue_step_ne_leaf (fun e he => hne e (List.mem_cons_of_mem _ he)) l r _) hq
      rw [queueNodes_append, queueNodes_append, Tree.nodesAt_kid, Tree.nodesAt_kid] at this
      refine (List.Perm.cons _ this).trans ?_
      simp only [List.append_assoc, List.cons_append]
      refine List.Perm.trans ?_ (List.perm_middle.symm)
      refine List.Perm.cons _ ?_
      have e2 : l.nodesAt (d + 1) ++ (r.nodesAt (d + 1) ++ queueNodes q) =
          (l.nodesAt (d + 1) ++ r.nodesAt (d + 1)) ++ queueNodes q := by simp
      rw [e2]
      exact List.perm_append_comm

/-- Every node of the subtrees of a queue is at least as deep as the shallowest root in
the queue. -/
theorem le_of_mem_queueNodes (m : Nat) : ∀ (q : List (Nat × Tree K V)), (∀ e ∈ q, m ≤ e.1) →
    ∀ x ∈ queueNodes q, m ≤ x.1 := by
  intro q
  induction q with
  | nil => intro _ x hx; cases hx
  | cons e q ih =>
    intro h x hx
    simp only [queueNodes, List.mem_append] at hx
    rcases hx with hx | hx
    · exact le_trans (h e (List.mem_cons_self _ _)) (e.2.le_of_mem_nodesAt _ x hx)
    · exact ih (fun e he => h e (List.mem_cons_of_mem _ he)) x hx

/-- The loop of `levelorder` visits the nodes in non-decreasing depth, when the depths in
the queue are non-decreasing and differ by one at most. -/
theorem bfs_depths : ∀ (fuel : Nat) (q : List (Nat × Tree K V)), (∀ e ∈ q, e.2 ≠ .leaf) →
    queueCount q < fuel → (q.map Prod.fst).Pairwise (· ≤ ·) →
    (∀ a ∈ q, ∀ b ∈ q, b.1 ≤ a.1 + 1) →
    ((bfs fuel q).map Prod.fst).Pairwise (· ≤ ·) := by
  intro fuel
  induction fuel with
  | zero => intro q _ h; omega
  | succ n ih =>
    intro q hne h hs hw
    match q with
    | [] => exact List.Pairwise.nil
    | (d, .leaf) :: q => exact absurd rfl (hne _ (List.mem_cons_self _ _))
    | (d, .node p c l k v r) :: q =>
      simp only [bfs, List.map_cons]
      have hne' := queue_step_ne_leaf (fun e he => hne e (List.mem_cons_of_mem _ he)) l r (d + 1)
      have hq : queueCount (q ++ l.kid (d + 1) ++ r.kid (d + 1)) < n := by
        simp only [queueCount, Tree.count_node] at h
        rw [queueCount_append, queueCount_append, Tree.count_kid, Tree.count_kid]
        omega
      simp only [List.map_cons, List.pairwise_cons, List.mem_map, forall_exists_index,
        and_imp] at hs
      obtain ⟨hs1, hs2⟩ := hs
      have hlo : ∀ e ∈ q ++ l.kid (d + 1) ++ r.kid (d + 1), d ≤ e.1 := by
        intro e he
        simp only [List.mem_append] at he
        rcases he with (he | he) | he
        · exact hs1 e.1 e he rfl
        · cases l with
          | leaf => cases he
          | node => simp only [Tree.kid, List.mem_singleton] at he; subst he; exact Nat.le_succ _
        · cases r with
          | leaf => cases he
          | node => simp only [Tree.kid, List.mem_singleton] at he; subst he; exact Nat.le_succ _
      have hhi : ∀ e ∈ q ++ l.kid (d + 1) ++ r.kid (d + 1), e.1 ≤ d + 1 := by
        intro e he
        simp only [List.mem_append] at he
        rcases he with (he | he) | he
        · exact hw _ (List.mem_cons_self _ _) e (List.mem_cons_of_mem _ he)
        · cases l with
          | leaf => cases he
          | node => simp only [Tree.kid, List.mem_singleton] at he; subst he; exact le_refl _
        · cases r with
          | leaf => cases he
          | node => simp only [Tree.kid, List.mem_singleton] at he; subst he; exact le_refl _
      refine List.Pairwise.cons ?_ (ih _ hne' hq ?_ ?_)
      · intro x hx
        obtain ⟨y, hy, rfl⟩ := List.mem_map.1 hx
        exact le_of_mem_queueNodes d _ hlo y ((bfs_perm n _ hne' hq).subset hy)
      · have hk : ∀ (t : Tree K V), ((t.kid (d + 1)).map Prod.fst).Pairwise (· ≤ ·) := by
          intro t
          cases t <;> simp [Tree.kid]
        rw [List.map_append, List.map_append, List.append_assoc]
        refine List.pairwise_append.2 ⟨hs2, ?_, ?_⟩
        · refine List.pairwise_append.2 ⟨hk l, hk r, ?_⟩
          intro a ha b hb
          obtain ⟨x, hx, rfl⟩ := List.mem_map.1 ha
          obtain ⟨y, hy, rfl⟩ := List.mem_map.1 hb
          have h1 := hhi x (by simp [hx])
          have h2 : d + 1 ≤ y.1 := by
            cases r with
            | leaf => cases hy
            | node => simp only [Tree.kid, List.mem_singleton] at hy; subst hy; exact le_refl _
          omega
        · intro a ha b hb
          obtain ⟨x, hx, rfl⟩ := List.mem_map.1 ha
          have h1 := hhi x (by simp [hx])
          have h2 : d + 1 ≤ b := by
            rcases List.mem_append.1 hb with hb | hb
            · obtain ⟨y, hy, rfl⟩ := List.mem_map.1 hb
              cases l with
              | leaf => cases hy
              | node => simp only [Tree.kid, List.mem_singleton] at hy; subst hy; exact le_refl _
            · obtain ⟨y, hy, rfl⟩ := List.mem_map.1 hb
              cases r with
              | leaf => cases hy
              | node => simp only [Tree.kid, List.mem_singleton] at hy; subst hy; exact le_refl _
          omega
      · intro a ha b hb
        have := hlo a ha
        have := hhi b hb
        omega

theorem preorder_helper_sim (s : RedBlackTree K V) (t : Tree K V) : ∀ (par : Ptr) (fuel : Nat),
    Rep s.mem s.nil par t → t.height < fuel →
    preorder_helper s fuel (t.ptr s.nil) = .ok (t.preNodes.map Prod.snd) := by
  induction t with
  | leaf =>
    intro par fuel _ hf
    obtain ⟨n, rfl⟩ : ∃ n, fuel = n + 1 := ⟨fuel - 1, by omega⟩
    simp [preorder_helper, Tree.preNodes]
  | node p c l k v r ihl ihr =>
    intro par fuel hr hf
    obtain ⟨n, rfl⟩ : ∃ n, fuel = n + 1 := ⟨fuel - 1, by omega⟩
    simp only [Rep_node] at hr
    obtain ⟨h0, h1, h2, h3, h4⟩ := hr
    have hl := load_of_mem h0 h2
    simp only [Tree.height_node] at hf
    simp only [preorder_helper, Tree.ptr_node, h1, if_false, hl, bind_ok,
      ihl p n h3 (by omega), ihr p n h4 (by omega), pure_eq_ok, Tree.preNodes, List.map_cons,
      List.map_append, List.cons_append]

theorem postorder_helper_sim (s : RedBlackTree K V) (t : Tree K V) : ∀ (par : Ptr) (fuel : Nat),
    Rep s.mem s.nil par t → t.height < fuel →
    postorder_helper s fuel (t.ptr s.nil) = .ok (t.postNodes.map Prod.snd) := by
  induction t with
  | leaf =>
    intro par fuel _ hf
    obtain ⟨n, rfl⟩ : ∃ n, fuel = n + 1 := ⟨fuel - 1, by omega⟩
    simp [postorder_helper, Tree.postNodes]
  | node p c l k v r ihl ihr =>
    intro par fuel hr hf
    obtain ⟨n, rfl⟩ : ∃ n, fuel = n + 1 := ⟨fuel - 1, by omega⟩
    simp only [Rep_node] at hr
    obtain ⟨h0, h1, h2, h3, h4⟩ := hr
    have hl := load_of_mem h0 h2
    simp only [Tree.height_node] at hf
    simp only [postorder_helper, Tree.ptr_node, h1, if_false, hl, bind_ok,
      ihl p n h3 (by omega), ihr p n h4 (by omega), pure_eq_ok, Tree.postNodes, List.map_cons,
      List.map_append, List.map_nil]

/-- What `levelorder` pushes for a child: its address, unless it is the sentinel. -/
theorem push_kid (s : RedBlackTree K V) (t : Tree K V) (par : Ptr) (d : Nat)
    (h : Rep s.mem s.nil par t) (q : List Ptr) :
    (if t.ptr s.nil ≠ s.nil then q ++ [t.ptr s.nil] else q) =
      q ++ (t.kid d).map fun e => e.2.ptr s.nil := by
  cases t with
  | leaf => simp [Tree.kid]
  | node p c l k v r =>
    simp only [Rep_node] at h
    simp [Tree.kid, h.2.1]

/-- The loop of `levelorder` on a queue of nodes: it returns, and visits what `bfs`
visits. -/
theorem levelorder_loop_sim (s : RedBlackTree K V) : ∀ (fuel : Nat) (q : List (Nat × Tree K V)),
    (∀ e ∈ q, e.2 ≠ .leaf ∧ ∃ par, Rep s.mem s.nil par e.2) → queueCount q < fuel →
    s.levelorder_loop fuel (q.map fun e => e.2.ptr s.nil) =
      .ok ((bfs fuel q).map fun x => x.2.2) := by
  intro fuel
  induction fuel with
  | zero => intro q _ h; omega
  | succ n ih =>
    intro q hq h
    match q with
    | [] => rfl
    | (d, .leaf) :: q => exact absurd rfl (hq _ (List.mem_cons_self _ _)).1
    | (d, .node p c l k v r) :: q =>
      obtain ⟨-, par, hr⟩ := hq _ (List.mem_cons_self _ _)
      simp only [Rep_node] at hr
      obtain ⟨h0, h1, h2, h3, h4⟩ := hr
      have hl := load_of_mem h0 h2
      have hq' : ∀ e ∈ q ++ l.kid (d + 1) ++ r.kid (d + 1),
          e.2 ≠ .leaf ∧ ∃ par, Rep s.mem s.nil par e.2 := by
        intro e he
        simp only [List.mem_append] at he
        rcases he with (he | he) | he
        · exact hq e (List.mem_cons_of_mem _ he)
        · refine ⟨l.kid_ne_leaf _ e he, p, ?_⟩
          cases l with
          | leaf => cases he
          | node => simp only [Tree.kid, List.mem_singleton] at he; subst he; exact h3
        · refine ⟨r.kid_ne_leaf _ e he, p, ?_⟩
          cases r with
          | leaf => cases he
          | node => simp only [Tree.kid, List.mem_singleton] at he; subst he; exact h4
      have hc : queueCount (q ++ l.kid (d + 1) ++ r.kid (d + 1)) < n := by
        simp only [queueCount, Tree.count_node] at h
        rw [queueCount_append, queueCount_append, Tree.count_kid, Tree.count_kid]
        omega
      have := ih _ hq' hc
      simp only [List.map_append] at this
      simp only [List.map_cons, Tree.ptr_node, levelorder_loop, hl, bind_ok,
        push_kid s l p (d + 1) h3, push_kid s r p (d + 1) h4, this, pure_eq_ok, bfs]

namespace IsTree

variable {s : RedBlackTree K V} {T : Tree K V}

/-- The source's `preorder()` on a state that holds a tree. -/
theorem preorder_sim (h : IsTree s T) {fuel : Nat} (hf : T.height < fuel) :
    s.preorder fuel = .ok (T.preNodes.map Prod.snd) := by
  have := preorder_helper_sim s T s.nil fuel h.rep hf
  rw [← h.root_eq] at this
  exact this

/-- The source's `postorder()` on a state that holds a tree. -/
theorem postorder_sim (h : IsTree s T) {fuel : Nat} (hf : T.height < fuel) :
    s.postorder fuel = .ok (T.postNodes.map Prod.snd) := by
  have := postorder_helper_sim s T s.nil fuel h.rep hf
  rw [← h.root_eq] at this
  exact this

/-- The source's `levelorder()` on a state that holds a tree. -/
theorem levelorder_sim (h : IsTree s T) {fuel : Nat} (hf : T.count < fuel) :
    s.levelorder fuel = .ok ((bfs fuel (T.kid 0)).map fun x => x.2.2) := by
  cases T with
  | leaf =>
    obtain ⟨n, rfl⟩ : ∃ n, fuel = n + 1 := ⟨fuel - 1, by omega⟩
    have := h.root_eq
    simp only [Tree.ptr_leaf] at this
    simp [levelorder, this, Tree.kid, bfs]
  | node p c l k v r =>
    have hr := h.rep
    have hroot := h.root_eq
    simp only [Tree.ptr_node] at hroot
    have hne : s.root ≠ s.nil := by
      rw [hroot]
      simp only [Rep_node] at hr
      exact hr.2.1
    have := levelorder_loop_sim s fuel [(0, .node p c l k v r)]
      (by
        intro e he
        simp only [List.mem_singleton] at he
        subst he
        exact ⟨by simp, s.nil, hr⟩)
      (by simpa [queueCount] using hf)
    simp only [List.map_cons, List.map_nil, Tree.ptr_node] at this
    rw [hroot] at hne
    simp only [levelorder, hne, if_false, hroot, this, Tree.kid]

end IsTree

/-- C29: for every state that holds a tree (`IsTree`) with `_tree_size` the number of its
nodes, `preorder()`, `postorder()` and `levelorder()` return, and each visits every node
exactly once: the nodes have distinct addresses, the results `ps`, `qs`, `ls` are the
key/value pairs of lists of nodes `pn`, `qn`, `ln` that are permutations of the nodes of
the tree, so each result has length `size()` and is a permutation of `inorder()`.  For a
non-empty tree the pair stored at `_root` is the first element of `preorder()` and of
`levelorder()` and the last element of `postorder()`.  `ln` carries with every node its
depth in the tree (`Tree.nodesAt`), and the depths along `levelorder()` are
non-decreasing.  The loops run on `fuel`, and any amount above the number of nodes is
enough. -/
theorem traversals_visit_once {s : RedBlackTree K V} {T : Tree K V} (h : IsTree s T)
    (hz : s.size = T.count) {fuel : Nat} (hf : T.count < fuel) :
    ∃ (xs ps qs ls : List (K × V)) (pn qn : List (Ptr × K × V))
      (ln : List (Nat × Ptr × K × V)),
      s.inorder fuel = .ok xs ∧ s.preorder fuel = .ok ps ∧ s.postorder fuel = .ok qs ∧
      s.levelorder fuel = .ok ls ∧
      ps.length = s.size ∧ qs.length = s.size ∧ ls.length = s.size ∧
      ps.Perm xs ∧ qs.Perm xs ∧ ls.Perm xs ∧
      (T.nodes.map Prod.fst).Nodup ∧ xs = T.nodes.map Prod.snd ∧
      ps = pn.map Prod.snd ∧ pn.Perm T.nodes ∧ qs = qn.map Prod.snd ∧ qn.Perm T.nodes ∧
      (ls = ln.map fun x => x.2.2) ∧ ln.Perm (T.nodesAt 0) ∧
      (ln.map Prod.fst).Pairwise (· ≤ ·) ∧
      (s.is_empty = false → ∃ kv, s.deref ⟨s.root, s.nil, s.root⟩ = .ok kv ∧
        ps.head? = some kv ∧ ls.head? = some kv ∧ qs.getLast? = some kv) := by
  have hh := T.height_le_count
  have hlen : T.nodes.length = s.size := by rw [hz, Tree.count_eq_length]
  have hk : queueCount (T.kid 0) < fuel := by rw [Tree.count_kid]; exact hf
  have hperm := bfs_perm fuel (T.kid 0) (T.kid_ne_leaf 0) hk
  rw [Tree.nodesAt_kid] at hperm
  have hlv : ((bfs fuel (T.kid 0)).map fun x => x.2.2).Perm (T.nodes.map Prod.snd) := by
    have := (hperm.map Prod.snd).map Prod.snd
    rw [Tree.nodesAt_map, List.map_map] at this
    exact this
  refine ⟨T.toList, _, _, _, T.preNodes, T.postNodes, bfs fuel (T.kid 0),
    h.inorder_sim (by omega), h.preorder_sim (by omega), h.postorder_sim (by omega),
    h.levelorder_sim hf, ?_, ?_, ?_, ?_, ?_, ?_, ?_, T.toList_eq_map, rfl, T.preNodes_perm,
    rfl, T.postNodes_perm, rfl, hperm, ?_, ?_⟩
  · rw [List.length_map, T.preNodes_perm.length_eq, hlen]
  · rw [List.length_map, T.postNodes_perm.length_eq, hlen]
  · rw [hlv.length_eq, List.length_map, hlen]
  · rw [T.toList_eq_map]
    exact T.preNodes_perm.map _
  · rw [T.toList_eq_map]
    exact T.postNodes_perm.map _
  · rw [T.toList_eq_map]
    exact hlv
  · rw [← Tree.addrs_eq_map]
    exact h.nodup
  · refine bfs_depths fuel (T.kid 0) (T.kid_ne_leaf 0) hk ?_ ?_
    · cases T <;> simp [Tree.kid]
    · cases T with
      | leaf => intro a ha; cases ha
      | node p c l k v r =>
        intro a ha b hb
        simp only [Tree.kid, List.mem_singleton] at ha hb
        subst ha hb
        exact Nat.le_succ _
  · intro he
    cases T with
    | leaf =>
      simp only [is_empty, size, Tree.count_leaf] at he hz
      rw [hz] at he
      cases he
    | node p c l k v r =>
      obtain ⟨n, rfl⟩ : ∃ n, fuel = n + 1 := ⟨fuel - 1, by omega⟩
      have hroot := h.root_eq
      simp only [Tree.ptr_node] at hroot
      refine ⟨(k, v), ?_, ?_, ?_, ?_⟩
      · rw [hroot]
        exact h.deref_sim (p, k, v) (by simp) _ _
      · simp [Tree.preNodes]
      · simp [Tree.kid, bfs]
      · simp [Tree.postNodes]

/-- C29 at the tree `lopsided`, which holds `(2, 0)` at the root and `(1, 0)` to its
left. -/
theorem traversals_visit_once_witness :
    ∃ (xs ps qs ls : List (Nat × Nat)) (pn qn : List (Ptr × Nat × Nat))
      (ln : List (Nat × Ptr × Nat × Nat)),
      lopsided.inorder 3 = .ok xs ∧ lopsided.preorder 3 = .ok ps ∧
      lopsided.postorder 3 = .ok qs ∧ lopsided.levelorder 3 = .ok ls ∧
      ps.length = lopsided.size ∧ qs.length = lopsided.size ∧ ls.length = lopsided.size ∧
      ps.Perm xs ∧ qs.Perm xs ∧ ls.Perm xs ∧
      (lopsidedTree.nodes.map Prod.fst).Nodup ∧ xs = lopsidedTree.nodes.map Prod.snd ∧
      ps = pn.map Prod.snd ∧ pn.Perm lopsidedTree.nodes ∧ qs = qn.map Prod.snd ∧
      qn.Perm lopsidedTree.nodes ∧
      (ls = ln.map fun x => x.2.2) ∧ ln.Perm (lopsidedTree.nodesAt 0) ∧
      (ln.map Prod.fst).Pairwise (· ≤ ·) ∧
      (lopsided.is_empty = false → ∃ kv,
        lopsided.deref ⟨lopsided.root, lopsided.nil, lopsided.root⟩ = .ok kv ∧
        ps.head? = some kv ∧ ls.head? = some kv ∧ qs.getLast? = some kv) :=
  traversals_visit_once isTree_lopsided rfl (by decide)

/-- What the queries return when `_root` is the sentinel: none of them reads a node. -/
theorem root_nil_queries (comp : K → K → Bool) {s : RedBlackTree K V} (hr : s.root = s.nil)
    (k : K) (n : Nat) :
    s.height (n + 1) = .ok 0 ∧ s.minimum (n + 1) s.root = .ok s.nil ∧
      s.begin_it (n + 1) = .ok s.end_it ∧
      find comp (n + 1) s k = .ok s.end_it ∧ lower_bound comp (n + 1) s k = .ok s.end_it ∧
      upper_bound comp (n + 1) s k = .ok s.end_it ∧ contains comp (n + 1) s k = .ok false ∧
      erase comp (n + 1) s k = .ok (s, false) ∧
      s.inorder (n + 1) = .ok [] ∧ s.preorder (n + 1) = .ok [] ∧
      s.postorder (n + 1) = .ok [] ∧ s.levelorder (n + 1) = .ok [] := by
  refine ⟨?_, ?_, ?_, ?_, ?_, ?_, ?_, ?_, ?_, ?_, ?_, ?_⟩
  · simp [height, height_dfs, hr]
  · simp [minimum, hr]
  · simp [begin_it, minimum, hr, end_it]
  · simp [find, find_helper, find_loop, hr]
  · simp [lower_bound, lower_bound_loop, hr, end_it]
  · simp [upper_bound, upper_bound_loop, hr, end_it]
  · simp [contains, find_helper, find_loop, hr]
  · simp [erase, find_helper, find_loop, hr]
  · simp [inorder, inorder_helper, hr]
  · simp [preorder, preorder_helper, hr]
  · simp [postorder, postorder_helper, hr]
  · simp [levelorder, hr]

/-- C25: on the empty tree every query returns, without a fault.  For every state that
holds the tree without nodes (`IsTree s .leaf`: `_root` is the sentinel) with
`_tree_size` 0, as the constructor and `clear()` leave it: `height()` is 0, `size()` is
0, `minimum(_root)` is the sentinel and `begin()` is `end()`; for every key `k`,
`find(k)`, `lower_bound(k)` and `upper_bound(k)` are `end()`, `contains(k)` is false and
`erase(k)` returns false and leaves the state as it is; and `inorder()`, `preorder()`,
`postorder()` and `levelorder()` are empty.  The loops run on `fuel`, and any positive
amount is enough. -/
theorem empty_tree_queries (comp : K → K → Bool) {s : RedBlackTree K V} (h : IsTree s .leaf)
    (hz : s.tree_size = 0) (k : K) {fuel : Nat} (hf : 0 < fuel) :
    s.height fuel = .ok 0 ∧ s.size = 0 ∧ s.minimum fuel s.root = .ok s.nil ∧
      (∃ b, s.begin_it fuel = .ok b ∧ b.eq s.end_it = true) ∧
      find comp fuel s k = .ok s.end_it ∧ lower_bound comp fuel s k = .ok s.end_it ∧
      upper_bound comp fuel s k = .ok s.end_it ∧ contains comp fuel s k = .ok false ∧
      erase comp fuel s k = .ok (s, false) ∧
      s.inorder fuel = .ok [] ∧ s.preorder fuel = .ok [] ∧
      s.postorder fuel = .ok [] ∧ s.levelorder fuel = .ok [] := by
  obtain ⟨n, rfl⟩ : ∃ n, fuel = n + 1 := ⟨fuel - 1, by omega⟩
  obtain ⟨h1, h2, h3, h4, h5, h6, h7, h8, h9, h10, h11, h12⟩ :=
    root_nil_queries comp h.root_eq k n
  exact ⟨h1, hz, h2, ⟨_, h3, by simp [Iterator.eq]⟩, h4, h5, h6, h7, h8, h9, h10, h11, h12⟩

/-- C25 at the tree the constructor makes, and the key 5. -/
theorem empty_tree_queries_witness :
    (empty : RedBlackTree Nat Nat).height 1 = .ok 0 ∧ (empty : RedBlackTree Nat Nat).size = 0 ∧
      (empty : RedBlackTree Nat Nat).minimum 1 (empty : RedBlackTree Nat Nat).root =
        .ok (empty : RedBlackTree Nat Nat).nil ∧
      (∃ b, (empty : RedBlackTree Nat Nat).begin_it 1 = .ok b ∧
        b.eq (empty : RedBlackTree Nat Nat).end_it = true) ∧
      find ltNat 1 (empty : RedBlackTree Nat Nat) 5 = .ok (empty : RedBlackTree Nat Nat).end_it ∧
      lower_bound ltNat 1 (empty : RedBlackTree Nat Nat) 5 =
        .ok (empty : RedBlackTree Nat Nat).end_it ∧
      upper_bound ltNat 1 (empty : RedBlackTree Nat Nat) 5 =
        .ok (empty : RedBlackTree Nat Nat).end_it ∧
      contains ltNat 1 (empty : RedBlackTree Nat Nat) 5 = .ok false ∧
      erase ltNat 1 (empty : RedBlackTree Nat Nat) 5 = .ok (empty, false) ∧
      (empty : RedBlackTree Nat Nat).inorder 1 = .ok [] ∧
      (empty : RedBlackTree Nat Nat).preorder 1 = .ok [] ∧
      (empty : RedBlackTree Nat Nat).postorder 1 = .ok [] ∧
      (empty : RedBlackTree Nat Nat).levelorder 1 = .ok [] :=
  empty_tree_queries ltNat isTree_empty rfl 5 (by decide)

/-- C24: for every state that holds a tree (`IsTree`) with a BLACK sentinel, `clear()`
returns and resets the tree to the empty state: afterwards `size()` is 0, `empty()` is
true, `_root` is the sentinel, `begin()` is `end()`, `inorder()` is empty and
`contains(k)` is false for every `k`.  The sentinel survives: it is the same cell with the
same contents, every node of the tree is freed and no other cell changes.  A following
`insert((k, v))` returns true and gives the tree with the one pair `(k, v)`, as it does on
the tree the constructor makes.  The loops run on `fuel`, and any amount above the height
of the tree, and above 1 for the insert, is enough. -/
theorem clear_resets [Inhabited K] [Inhabited V] (comp : K → K → Bool) (dup : Bool)
    {s : RedBlackTree K V} {T : Tree K V} (h : IsTree s T) (hb : SentinelBlack s) (k : K) (v : V)
    {fuel : Nat} (hf : T.height + 1 < fuel) :
    ∃ c, s.clear fuel = .ok c ∧ c.size = 0 ∧ c.is_empty = true ∧ c.root = c.nil ∧
      (∃ b, c.begin_it fuel = .ok b ∧ b.eq c.end_it = true) ∧ c.inorder fuel = .ok [] ∧
      (∀ j, contains comp fuel c j = .ok false) ∧
      c.nil = s.nil ∧ c.mem s.nil = s.mem s.nil ∧ IsTree c .leaf ∧ SentinelBlack c ∧
      (∀ q, q ∈ T.addrs → c.mem q = none) ∧ (∀ q, q ∉ T.addrs → c.mem q = s.mem q) ∧
      ∃ c' it f itf, insert comp dup fuel c (k, v) = .ok (c', it, true) ∧
        insert comp dup fuel empty (k, v) = .ok (f, itf, true) ∧
        c'.size = 1 ∧ f.size = 1 ∧ c'.inorder fuel = .ok [(k, v)] ∧
        f.inorder fuel = .ok [(k, v)] ∧ c'.deref it = .ok (k, v) ∧
        f.deref itf = .ok (k, v) := by
  obtain ⟨n, rfl⟩ : ∃ n, fuel = n + 1 := ⟨fuel - 1, by omega⟩
  obtain ⟨c, e, hc, hn, hr, hz, -, hk, hg⟩ := h.clear_sim (show T.height < n + 1 by omega)
  have hrn : c.root = c.nil := by rw [hr, hn]
  have hmn : c.mem s.nil = s.mem s.nil := hk _ h.rep.nil_not_mem
  have hcb : SentinelBlack c := hb.of_mem_eq hn hmn
  obtain ⟨c', it, e1, z1, i1, d1, -⟩ := hc.insert_first comp dup hcb hz k v
    (show 1 < n + 1 by omega)
  obtain ⟨f, itf, e2, z2, i2, d2, -⟩ := (isTree_empty (K := K) (V := V)).insert_first comp dup
    sentinelBlack_empty rfl k v (show 1 < n + 1 by omega)
  obtain ⟨-, -, h3, -, -, -, -, -, h9, -⟩ := root_nil_queries comp hrn k n
  refine ⟨c, e, hz, by simp [is_empty, hz], hrn, ⟨_, h3, by simp [Iterator.eq]⟩, h9,
    fun j => (root_nil_queries comp hrn j n).2.2.2.2.2.2.1, hn, hmn, hc, hcb, hg, hk,
    c', it, f, itf, e1, e2, z1, z2, i1, i2, d1, d2⟩

/-- C24 at the tree `oneNode`, which holds `(5, 0)`; `(7, 1)` is inserted afterwards. -/
theorem clear_resets_witness :
    ∃ c, oneNode.clear 3 = .ok c ∧ c.size = 0 ∧ c.is_empty = true ∧ c.root = c.nil ∧
      (∃ b, c.begin_it 3 = .ok b ∧ b.eq c.end_it = true) ∧ c.inorder 3 = .ok [] ∧
      (∀ j, contains ltNat 3 c j = .ok false) ∧
      c.nil = oneNode.nil ∧ c.mem oneNode.nil = oneNode.mem oneNode.nil ∧ IsTree c .leaf ∧
      SentinelBlack c ∧
      (∀ q, q ∈ oneNodeTree.addrs → c.mem q = none) ∧
      (∀ q, q ∉ oneNodeTree.addrs → c.mem q = oneNode.mem q) ∧
      ∃ c' it f itf, insert ltNat false 3 c (7, 1) = .ok (c', it, true) ∧
        insert ltNat false 3 empty (7, 1) = .ok (f, itf, true) ∧
        c'.size = 1 ∧ f.size = 1 ∧ c'.inorder 3 = .ok [(7, 1)] ∧
        f.inorder 3 = .ok [(7, 1)] ∧ c'.deref it = .ok (7, 1) ∧
        f.deref itf = .ok (7, 1) :=
  clear_resets ltNat false isTree_oneNode rfl 7 1 (by decide)

/-- C26, the claim fails: on the tree the constructor makes, `*end()` is no fault but the
pair `(0, 0)` the sentinel holds, and so is `*find(5)`, which is `end()`. -/
theorem deref_end_returns_pair :
    (empty : RedBlackTree Nat Nat).deref (empty : RedBlackTree Nat Nat).end_it = .ok (0, 0) ∧
      ∃ it, find ltNat 1 (empty : RedBlackTree Nat Nat) 5 = .ok it ∧
        it = (empty : RedBlackTree Nat Nat).end_it ∧
        (empty : RedBlackTree Nat Nat).deref it = .ok (0, 0) :=
  ⟨rfl, _, rfl, rfl, rfl⟩

/-- C26 as amended: for every state that holds a tree, dereferencing an iterator that
identifies end reports nothing: `operator*` returns the pair stored in the sentinel, as
it returns the pair of any node; for a sentinel as the constructor makes it that is the
pair of a default key and a default value.  This holds for `end()` and for the result of
a `find(k)` that is `end()`. -/
theorem deref_end_unchecked (comp : K → K → Bool) {s : RedBlackTree K V} {T : Tree K V}
    (h : IsTree s T) (k : K) {fuel : Nat} (hf : T.height < fuel) :
    ∃ n, s.mem s.nil = some n ∧ s.deref s.end_it = .ok (n.key, n.val) ∧
      ∃ it, find comp fuel s k = .ok it ∧
        (it.eq s.end_it = true → s.deref it = .ok (n.key, n.val)) := by
  obtain ⟨n, hn⟩ := h.nil_live
  have hd : ∀ a b, s.deref ⟨s.nil, a, b⟩ = .ok (n.key, n.val) := by
    intro a b
    simp only [deref, load_of_mem h.nil_ne hn, bind_ok, pure_eq_ok]
  refine ⟨n, hn, hd _ _, _, h.find_sim comp k hf, ?_⟩
  intro he
  simp only [Iterator.eq, end_it, decide_eq_true_eq] at he
  split at he <;> simp only at he
  · rw [he]
    exact hd _ _
  · exact hd _ _

/-- C26 as amended, at the tree `oneNode`, which holds `(5, 0)`, and the key 7. -/
theorem deref_end_unchecked_witness :
    ∃ n, oneNode.mem oneNode.nil = some n ∧ oneNode.deref oneNode.end_it = .ok (n.key, n.val) ∧
      ∃ it, find ltNat 2 oneNode 7 = .ok it ∧
        (it.eq oneNode.end_it = true → oneNode.deref it = .ok (n.key, n.val)) :=
  deref_end_unchecked ltNat isTree_oneNode 7 (by decide)

/-- In allow-duplicates mode the descent of `insert` ends at the sentinel. -/
theorem ins_path_dup_leaf (comp : K → K → Bool) (key : K) (t : Tree K V) :
    ∀ (path : Path K V), (ins_path comp true key path t).2 = .leaf := by
  induction t with
  | leaf => intro path; rfl
  | node p c l k v r ihl ihr =>
    intro path
    unfold ins_path
    split_ifs with h1 h2 h3
    · exact ihl _
    · exact ihr _
    · simp at h3
    · exact ihr _

theorem ins_path_DirDup (comp : K → K → Bool) (key : K) (t : Tree K V) :
    ∀ (path : Path K V), (∀ f ∈ path, DirDup comp key f) →
      ∀ f ∈ (ins_path comp true key path t).1, DirDup comp key f := by
  induction t with
  | leaf => intro path h; exact h
  | node p c l k v r ihl ihr =>
    intro path h
    have hr : ∀ f ∈ Frame.right p c l k v :: path, comp key k = false →
        DirDup comp key f := by
      intro f hf h1
      rcases List.mem_cons.1 hf with rfl | hf
      · exact h1
      · exact h f hf
    unfold ins_path
    split_ifs with h1 h2 h3
    · exact ihl _ (by
        intro f hf
        rcases List.mem_cons.1 hf with rfl | hf
        · exact h1
        · exact h f hf)
    · exact ihr _ (fun f hf => hr f hf (by simpa using h1))
    · simp at h3
    · exact ihr _ (fun f hf => hr f hf (by simpa using h1))

/-- In a sorted tree, `key` is ordered before nothing that comes before the place where
the descent of allow-duplicates mode is, and before everything that comes after. -/
theorem path_bounds_dup {comp : K → K → Bool} (hsw : StrictWeak comp) (key : K) :
    ∀ (path : Path K V) (t : Tree K V), (∀ f ∈ path, DirDup comp key f) →
      Sorted comp (fill path t).nodes →
      (∀ e ∈ path.nodesL, comp key e.2.1 = false) ∧
        (∀ e ∈ path.nodesR, comp key e.2.1 = true) := by
  intro path
  induction path with
  | nil => intro t _ _; exact ⟨fun e he => (by cases he), fun e he => (by cases he)⟩
  | cons f fs ih =>
    intro t hd hs
    obtain ⟨ih1, ih2⟩ := ih (f.plug t) (fun g hg => hd g (List.mem_cons_of_mem _ hg)) hs
    have hf := hd f (List.mem_cons_self _ _)
    rw [fill_cons, nodes_fill, nodes_plug] at hs
    unfold Sorted at hs
    cases f with
    | left p c k v r =>
      simp only [DirDup] at hf
      have e1 : Path.nodesL fs ++ ((Frame.left p c k v r).nodesL ++ t.nodes ++
          (Frame.left p c k v r).nodesR) ++ Path.nodesR fs =
          (Path.nodesL fs ++ t.nodes ++ [(p, k, v)]) ++ (r.nodes ++ Path.nodesR fs) := by
        simp [Frame.nodesL, Frame.nodesR]
      rw [e1] at hs
      have h1 := (List.pairwise_append.1 hs).2.2
      simp only [Path.nodesL, Path.nodesR, Frame.nodesL, Frame.nodesR, List.append_nil,
        List.mem_append, List.mem_cons]
      refine ⟨ih1, ?_⟩
      rintro e ((rfl | he) | he)
      · exact hf
      · exact hsw.lt_of_lt_of_le hf (h1 (p, k, v) (by simp) e (by simp [he]))
      · exact ih2 e he
    | right p c l k v =>
      simp only [DirDup] at hf
      have e1 : Path.nodesL fs ++ ((Frame.right p c l k v).nodesL ++ t.nodes ++
          (Frame.right p c l k v).nodesR) ++ Path.nodesR fs =
          (Path.nodesL fs ++ l.nodes) ++ ((p, k, v) :: (t.nodes ++ Path.nodesR fs)) := by
        simp [Frame.nodesL, Frame.nodesR]
      rw [e1] at hs
      have h1 := (List.pairwise_append.1 hs).2.2
      simp only [Path.nodesL, Path.nodesR, Frame.nodesL, Frame.nodesR, List.nil_append,
        List.mem_append, List.mem_cons, List.mem_singleton, List.not_mem_nil, or_false]
      refine ⟨?_, ih2⟩
      rintro e (he | he | rfl)
      · exact ih1 e he
      · have h2 := h1 e (by simp [he]) (p, k, v) (by simp)
        cases hke : comp key e.2.1 with
        | false => rfl
        | true =>
          rcases hsw.neg_trans hke k with h3 | h3
          · rw [hf] at h3; cases h3
          · rw [h2] at h3; cases h3
      · exact hf

/-- What `insert` needs of the root in allow-duplicates mode: `redRoot`, a state that no
sequence of calls on the class reaches, holds the pair `(5, 0)` alone in a RED root, its in-order key sequence is non-decreasing, yet in allow-duplicates mode
`insert((5, 1))` does not return, whatever the fuel: with enough of it, `insert_fix` reads
`_nil->left`, which is `nullptr`, and dereferences it. -/
theorem insert_dup_red_root_faults :
    IsTree redRoot redRootTree ∧ SentinelBlack redRoot ∧
      (redRootTree.toList.Pairwise fun a b => ltNat b.1 a.1 = false) ∧
      (∀ fuel, insert ltNat true (fuel + 2) redRoot (5, 1) = .error .null_deref) ∧
      insert ltNat true 1 redRoot (5, 1) = .error .fuel ∧
      insert ltNat true 0 redRoot (5, 1) = .error .fuel :=
  ⟨isTree_redRoot, rfl, by simp [redRootTree], fun _ => rfl, rfl, rfl⟩

/-- Lemma for `insert` in allow-duplicates mode: on every state that holds a tree whose
sentinel and root are BLACK and whose in-order key sequence is non-decreasing, and every pair `(k, v)`,
`insert((k, v))` returns the flag true with an iterator to a node that holds `(k, v)`,
and `size()` grows by one.  The in-order sequence, `A ++ B` before, is
`A ++ (k, v) :: B` afterwards, where `k` is ordered before no key of `A` and before every
key of `B`: no key of `B` is equivalent to `k`, so the new element comes after every
element with an equivalent key; and the sequence is non-decreasing again.  The loops run
on `fuel`: any amount above the height of the tree is enough. -/
theorem insert_dup_after_equals {comp : K → K → Bool} (hsw : StrictWeak comp)
    {s : RedBlackTree K V} {T : Tree K V} (h : IsTree s T) (hs : SentinelBlack s)
    (hc : T.color = .BLACK) (hi : T.toList.Pairwise fun a b => comp b.1 a.1 = false)
    (k : K) (v : V) {fuel : Nat} (hf : T.height < fuel) :
    ∃ s' T' it A B, insert comp true fuel s (k, v) = .ok (s', it, true) ∧
      s'.size = s.size + 1 ∧ s'.deref it = .ok (k, v) ∧ IsTree s' T' ∧
      s.inorder fuel = .ok (A ++ B) ∧ T'.toList = A ++ (k, v) :: B ∧
      (∀ fuel', T'.height < fuel' → s'.inorder fuel' = .ok (A ++ (k, v) :: B)) ∧
      (∀ e ∈ A, comp k e.1 = false) ∧ (∀ e ∈ B, comp k e.1 = true) ∧
      (∀ e ∈ B, ¬KeyEquiv comp k e.1) ∧
      ((A ++ (k, v) :: B).Pairwise fun a b => comp b.1 a.1 = false) := by
  obtain ⟨s', T', it, b, e1, h1, h2, -, -, h4, h5, -⟩ := h.insert_spec comp true k v hs hc hf
  have hleaf := ins_path_dup_leaf comp k T []
  have hdir := ins_path_DirDup comp k T [] (fun f hf => by cases hf)
  have hfill := fill_ins_path comp true k [] T
  generalize hp : ins_path comp true k [] T = d at hleaf hdir hfill
  obtain ⟨path, t⟩ := d
  simp only at hleaf hdir hfill
  subst hleaf
  have hb : b = true := by
    rw [insert_t_new comp true s.brk k v T path hp] at h1
    simp only [Option.map_eq_some', Prod.mk.injEq] at h1
    obtain ⟨_, _, _, rfl⟩ := h1
    rfl
  subst hb
  obtain ⟨hn, hn'⟩ := insert_t_nodes comp true s.brk k v T T' path hp h1
  simp only [fill_nil] at hfill
  have hsorted : Sorted comp (fill path (.leaf : Tree K V)).nodes := by
    rw [hfill]
    exact (sorted_toList comp T).2 hi
  obtain ⟨hL, hR⟩ := path_bounds_dup hsw k path .leaf hdir hsorted
  have hT : T.toList = path.nodesL.map Prod.snd ++ path.nodesR.map Prod.snd := by
    rw [Tree.toList_eq_map, hn, List.map_append]
  have hT' : T'.toList = path.nodesL.map Prod.snd ++ (k, v) :: path.nodesR.map Prod.snd := by
    rw [Tree.toList_eq_map, hn', List.map_append, List.map_cons]
  have hit : it = ⟨s.brk, it.nil, it.root⟩ := by
    have := h5 rfl
    cases it
    simp only [Iterator.mk.injEq, and_true] at this ⊢
    exact this
  have hA : ∀ e ∈ path.nodesL.map Prod.snd, comp k e.1 = false := by
    intro e he
    obtain ⟨n, hn1, rfl⟩ := List.mem_map.1 he
    exact hL n hn1
  have hB : ∀ e ∈ path.nodesR.map Prod.snd, comp k e.1 = true := by
    intro e he
    obtain ⟨n, hn1, rfl⟩ := List.mem_map.1 he
    exact hR n hn1
  refine ⟨s', T', it, _, _, e1, ?_, ?_, h2, ?_, hT', ?_, hA, hB, ?_, ?_⟩
  · show s'.tree_size = s.tree_size + 1
    rw [h4]
    rfl
  · rw [hit]
    exact h2.deref_sim (s.brk, k, v) (by rw [hn']; simp) _ _
  · rw [h.inorder_sim hf, hT]
  · intro fuel' hf'
    rw [h2.inorder_sim hf', hT']
  · intro e he hke
    have := hB e he
    rw [hke.1] at this
    cases this
  · rw [hT] at hi
    obtain ⟨p1, p2, p3⟩ := List.pairwise_append.1 hi
    refine List.pairwise_append.2 ⟨p1, List.Pairwise.cons ?_ p2, ?_⟩
    · intro e he
      exact hsw.asymm (hB e he)
    · intro a ha e he
      rcases List.mem_cons.1 he with rfl | he
      · exact hA a ha
      · exact p3 a ha e he

/-- The lemma `insert_dup_after_equals` at the tree `oneNode`, which holds `(5, 0)`, and the pair `(5, 1)`. -/
theorem insert_dup_after_equals_witness :
    ∃ s' T' it A B, insert ltNat true 2 oneNode (5, 1) = .ok (s', it, true) ∧
      s'.size = oneNode.size + 1 ∧ s'.deref it = .ok (5, 1) ∧ IsTree s' T' ∧
      oneNode.inorder 2 = .ok (A ++ B) ∧ T'.toList = A ++ (5, 1) :: B ∧
      (∀ fuel', T'.height < fuel' → s'.inorder fuel' = .ok (A ++ (5, 1) :: B)) ∧
      (∀ e ∈ A, ltNat 5 e.1 = false) ∧ (∀ e ∈ B, ltNat 5 e.1 = true) ∧
      (∀ e ∈ B, ¬KeyEquiv ltNat 5 e.1) ∧
      ((A ++ (5, 1) :: B).Pairwise fun a b => ltNat b.1 a.1 = false) :=
  insert_dup_after_equals strictWeak_ltNat isTree_oneNode rfl rfl (by simp [oneNodeTree]) 5 1
    (by decide)

/-- C22, the code at a failing input: in allow-duplicates mode the pairs `(1, 1)`,
`(1, 2)`, `(1, 3)` are inserted into the tree the constructor makes.  The third insert
rotates, so the root holds `(1, 2)` and `inorder()` is `(1, 1), (1, 2), (1, 3)`.  The copy
constructor inserts the pairs in pre-order, `(1, 2)` first, and each equal key goes to the
right of the ones before: `inorder()` of the copy is `(1, 2), (1, 1), (1, 3)`, with the
same size, and `operator==` of the copy and its source is false.  The source is as it
was. -/
theorem copy_dup_not_equal :
    ∃ s1 s2 s c i1 i2 i3,
      insert ltNat true 5 (empty : RedBlackTree Nat Nat) (1, 1) = .ok (s1, i1, true) ∧
      insert ltNat true 5 s1 (1, 2) = .ok (s2, i2, true) ∧
      insert ltNat true 5 s2 (1, 3) = .ok (s, i3, true) ∧
      s.inorder 5 = .ok [(1, 1), (1, 2), (1, 3)] ∧
      s.preorder 5 = .ok [(1, 2), (1, 1), (1, 3)] ∧
      copy_construct ltNat true 5 s = .ok c ∧ c.size = s.size ∧
      c.inorder 5 = .ok [(1, 2), (1, 1), (1, 3)] ∧
      (c.view s.members).inorder 5 = .ok [(1, 1), (1, 2), (1, 3)] ∧
      c.operator_eq 5 s.members false = .ok false ∧
      c.operator_ne 5 s.members false = .ok true :=
  ⟨_, _, _, _, _, _, _, rfl, rfl, rfl, rfl, rfl, rfl, rfl, rfl, rfl, rfl, rfl⟩

/-- C30, the code at a failing input: 1 and 2 are inserted into the tree the constructor
makes, `e = end()` is taken, and 3 is inserted; the fix-up of this insert rotates at the
root, which now holds 2.  `--e` is `maximum` of the root that `e` was made with, the node
that holds 1, whose right child is the sentinel: `*e` is `(1, 0)`.  An iterator made by
`end()` after the insert gives `(3, 0)`, the maximum.  An `end()` of the empty tree has
the sentinel for `_root`: after an insert, `--` on it follows the sentinel's right link,
which is `nullptr`, and dereferences it. -/
theorem stale_end_decrement :
    ∃ s1 s2 s3 i1 i2 i3 m m',
      insert ltNat false 4 (empty : RedBlackTree Nat Nat) (1, 0) = .ok (s1, i1, true) ∧
      insert ltNat false 4 s1 (2, 0) = .ok (s2, i2, true) ∧
      insert ltNat false 4 s2 (3, 0) = .ok (s3, i3, true) ∧
      s3.root ≠ s2.root ∧ s3.inorder 4 = .ok [(1, 0), (2, 0), (3, 0)] ∧
      s2.end_it.decr s3 4 = .ok m ∧ s3.deref m = .ok (1, 0) ∧
      s3.end_it.decr s3 4 = .ok m' ∧ s3.deref m' = .ok (3, 0) ∧
      s2.end_it.eq s3.end_it = true ∧
      (∀ fuel, (empty : RedBlackTree Nat Nat).end_it.decr s1 (fuel + 2) = .error .null_deref) ∧
      ∃ m1, s1.end_it.decr s1 4 = .ok m1 ∧ s1.deref m1 = .ok (1, 0) :=
  ⟨_, _, _, _, _, _, _, _, rfl, rfl, rfl, by decide, rfl, rfl, rfl, rfl, rfl, rfl,
    fun _ => rfl, _, rfl, rfl⟩

namespace Valid

variable {s : RedBlackTree K V} {T : Tree K V}

/-- One `insert` in no-duplicates mode on a valid tree whose keys are strictly increasing:
the tree stays valid, the pair is added when no equivalent key is there and nothing
changes otherwise, and the cells of other objects are left as they were. -/
theorem insert_any {comp : K → K → Bool} (hsw : StrictWeak comp) (hv : Valid s T)
    (hl : SentinelLinks s) (hi : Increasing comp T.nodes) (k : K) (v : V) {fuel : Nat}
    (hf : s.tree_size < fuel) :
    ∃ s' T' it b, RedBlackTree.insert comp false fuel s (k, v) = .ok (s', it, b) ∧
      Valid s' T' ∧ SentinelLinks s' ∧ Increasing comp T'.nodes ∧ s'.nil = s.nil ∧
      s'.tree_size = s.tree_size + b.toNat ∧
      (b = true → (∀ e ∈ T.toList, ¬KeyEquiv comp k e.1) ∧
        T'.toList.Perm ((k, v) :: T.toList)) ∧
      (b = false → (∃ e ∈ T.toList, KeyEquiv comp k e.1) ∧ T' = T) ∧
      (∀ q n, s.mem q = some n → q ∉ T.addrs → q ≠ s.nil → s'.mem q = some n) ∧
      (∀ q ∈ T'.addrs, q ∈ T.addrs ∨ s.mem q = none) := by
  cases hft : find_t comp k T with
  | none =>
    have hk : ∀ e ∈ T.toList, ¬KeyEquiv comp k e.1 := by
      intro e he
      obtain ⟨n, hn, rfl⟩ := mem_nodes_of_mem_toList he
      exact (find_t_none_iff hsw k T hi).1 hft n hn
    obtain ⟨s', T', it, e1, hv', hl', hi', hp, hn, hz, hfr, hadd⟩ :=
      hv.insert_step hsw hl hi k v hk hf
    exact ⟨s', T', it, true, e1, hv', hl', hi', hn, by simpa using hz, fun _ => ⟨hk, hp⟩,
      fun e => (by cases e), hfr, hadd⟩
  | some x =>
    obtain ⟨s', T', it, b, e1, h1, hv', hz, -, h6⟩ := hv.insert_valid comp k v hf
    cases b with
    | true =>
      obtain ⟨h7, -⟩ := insert_t_true comp s.brk k v T T' h1
      rw [hft] at h7
      cases h7
    | false =>
      obtain ⟨hT, -⟩ := insert_t_false comp s.brk k v T T' h1
      obtain ⟨hs', -⟩ := h6 rfl
      obtain ⟨hx, hxk⟩ := find_t_mem comp k T x hft
      rw [hT] at hv'
      subst hs'
      refine ⟨_, T, it, false, e1, hv', hl.of_cell_eq rfl rfl, hi, rfl, by simp,
        fun e => (by cases e), fun _ => ⟨⟨x.2, mem_toList_of_mem_nodes hx, hxk⟩, rfl⟩,
        fun q n h _ _ => h, fun q hq => Or.inl hq⟩

end Valid

/-- The loop `for (const auto& key : init) insert(key);` on a valid tree whose keys are
strictly increasing: it returns, the tree stays valid, its pairs are those it had and
pairs with keys of `init`, every key of `init` has an equivalent key in it, and the cells
of other objects are left as they were.  When the keys of `init` are not equivalent to
one another nor to a key of the tree, each of them is added. -/
theorem insert_keys_sim {comp : K → K → Bool} (hsw : StrictWeak comp) {fuel : Nat} :
    ∀ (init : List K) (S : RedBlackTree K EmptyStruct) (Td : Tree K EmptyStruct),
    Valid S Td → SentinelLinks S → Increasing comp Td.nodes →
    S.tree_size + init.length < fuel →
    ∃ S' Td', insert_keys comp false fuel init S = .ok S' ∧ Valid S' Td' ∧
      SentinelLinks S' ∧ Increasing comp Td'.nodes ∧ S'.nil = S.nil ∧
      S'.tree_size ≤ S.tree_size + init.length ∧
      (∀ x ∈ Td'.toList, x ∈ Td.toList ∨ x.1 ∈ init) ∧
      (∀ x ∈ Td.toList, x ∈ Td'.toList) ∧
      (∀ k ∈ init, ∃ x ∈ Td'.toList, KeyEquiv comp k x.1) ∧
      (init.Pairwise (fun a b => ¬KeyEquiv comp a b) →
        (∀ k ∈ init, ∀ e ∈ Td.toList, ¬KeyEquiv comp k e.1) →
        Td'.toList.Perm (Td.toList ++ init.map fun k => (k, ⟨⟩))) ∧
      (∀ q n, S.mem q = some n → q ∉ Td.addrs → q ≠ S.nil → S'.mem q = some n) ∧
      (∀ q ∈ Td'.addrs, q ∈ Td.addrs ∨ S.mem q = none) := by
  intro init
  induction init with
  | nil =>
    intro S Td hv hl hi _
    exact ⟨S, Td, rfl, hv, hl, hi, rfl, by simp, fun x hx => Or.inl hx, fun x hx => hx,
      fun k hk => (by cases hk), fun _ _ => (by simp), fun q n h _ _ => h,
      fun q hq => Or.inl hq⟩
  | cons key init ih =>
    intro S Td hv hl hi hf
    simp only [List.length_cons] at hf
    obtain ⟨S1, T1, it, b, e1, hv1, hl1, hi1, hn1, hz1, hbt, hbf, hfr1, hadd1⟩ :=
      hv.insert_any hsw hl hi key ⟨⟩ (show S.tree_size < fuel by omega)
    have hb : b.toNat ≤ 1 := by cases b <;> simp
    obtain ⟨S', Td', e2, hv', hl', hi', hn', hz', hsub, hsup, hall, hperm, hfr', hadd'⟩ :=
      ih S1 T1 hv1 hl1 hi1 (by omega)
    have h01 : ∀ x ∈ Td.toList, x ∈ T1.toList := by
      intro x hx
      cases b with
      | true => exact (hbt rfl).2.symm.subset (List.mem_cons_of_mem _ hx)
      | false => rw [(hbf rfl).2]; exact hx
    have h10 : ∀ x ∈ T1.toList, x ∈ Td.toList ∨ x = (key, ⟨⟩) := by
      intro x hx
      cases b with
      | true =>
        rcases List.mem_cons.1 ((hbt rfl).2.subset hx) with h | h
        · exact Or.inr h
        · exact Or.inl h
      | false => rw [(hbf rfl).2] at hx; exact Or.inl hx
    refine ⟨S', Td', ?_, hv', hl', hi', by rw [hn', hn1], ?_, ?_, ?_, ?_, ?_, ?_, ?_⟩
    · simp only [insert_keys, insert_key, e1, bind_ok, e2]
    · simp only [List.length_cons]
      omega
    · intro x hx
      rcases hsub x hx with h | h
      · rcases h10 x h with h | h
        · exact Or.inl h
        · right
          rw [h]
          exact List.mem_cons_self _ _
      · exact Or.inr (List.mem_cons_of_mem _ h)
    · exact fun x hx => hsup x (h01 x hx)
    · intro k hk
      rcases List.mem_cons.1 hk with rfl | hk
      · cases b with
        | true =>
          exact ⟨(k, ⟨⟩), hsup _ ((hbt rfl).2.symm.subset (List.mem_cons_self _ _)),
            hsw.equiv_refl k⟩
        | false =>
          obtain ⟨⟨e, he, hek⟩, -⟩ := hbf rfl
          exact ⟨e, hsup e (h01 e he), hek⟩
      · exact hall k hk
    · intro hpw hfresh
      rw [List.pairwise_cons] at hpw
      have hbt' : b = true := by
        cases b with
        | true => rfl
        | false =>
          obtain ⟨⟨e, he, hek⟩, -⟩ := hbf rfl
          exact absurd hek (hfresh key (List.mem_cons_self _ _) e he)
      have hp1 := (hbt hbt').2
      have hp2 := hperm hpw.2 (by
        intro k hk e he
        rcases h10 e he with h | h
        · exact hfresh k (List.mem_cons_of_mem _ hk) e h
        · rw [h]
          exact fun hke => hpw.1 k hk (StrictWeak.equiv_symm hke))
      refine hp2.trans ?_
      refine (List.Perm.append_right _ hp1).trans ?_
      simp only [List.map_cons, List.cons_append]
      exact List.perm_middle.symm
    · intro q n hq h1 h2
      have := hfr1 q n hq h1 h2
      refine hfr' q n this ?_ (by rw [hn1]; exact h2)
      intro hq1
      rcases hadd1 q hq1 with h | h
      · exact h1 h
      · rw [hq] at h; cases h
    · intro q hq
      rcases hadd' q hq with h | h
      · exact hadd1 q h
      · by_cases hqT : q ∈ Td.addrs
        · exact Or.inl hqT
        · right
          cases hm : S.mem q with
          | none => rfl
          | some n =>
            by_cases hqn : q = S.nil
            · exfalso
              obtain ⟨m, hm1⟩ := hv1.tree.nil_live
              rw [hn1, ← hqn, h] at hm1
              cases hm1
            · rw [hfr1 q n hm hqT hqn] at h
              cases h

variable {K : Type}

/-- The loop of `std::equal` is the loop of `operator==` of the tree. -/
theorem std_equal_eq [DecidableEq K] (t u : RedBlackTree K EmptyStruct) :
    ∀ (fuel : Nat) (first1 last1 first2 : Iterator),
      Set.std_equal t u fuel first1 last1 first2 = eq_loop t u fuel first1 first2 last1 := by
  intro fuel
  induction fuel with
  | zero => intro _ _ _; rfl
  | succ n ih =>
    intro first1 last1 first2
    unfold Set.std_equal eq_loop
    simp only [ih, ne_eq]

/-- The source's `operator==` of `Set` does what `operator==` of the tree does on two
different objects. -/
theorem set_operator_eq_tree [DecidableEq K] (fuel : Nat) (t : RedBlackTree K EmptyStruct)
    (rhs : Members) : Set.operator_eq fuel t rhs = t.operator_eq fuel rhs false := by
  unfold Set.operator_eq RedBlackTree.operator_eq
  simp only [std_equal_eq, Set.size, Bool.false_eq_true, if_false]

/-- The loop of the range constructor is the loop of the list constructor. -/
theorem insert_range_eq (comp : K → K → Bool) (fuel : Nat) :
    ∀ (l : List K) (t : RedBlackTree K EmptyStruct),
      Set.insert_range comp fuel l t = insert_keys comp false fuel l t := by
  intro l
  induction l with
  | nil => intro t; rfl
  | cons k l ih =>
    intro t
    unfold Set.insert_range insert_keys
    simp only [ih]

/-- Both constructors of `Set` from keys do the same. -/
theorem construct_range_eq [Inhabited K] (comp : K → K → Bool) (fuel : Nat)
    (t : RedBlackTree K EmptyStruct) (l : List K) :
    Set.construct_range comp fuel t l = Set.construct_list comp fuel t l := by
  unfold Set.construct_range Set.construct_list construct_keys
  exact insert_range_eq comp fuel l _

/-- The pairs of a `Set` are its keys, each with the one value of `EmptyStruct`. -/
theorem pairs_of_keys (l : List (K × EmptyStruct)) :
    l = (l.map Prod.fst).map fun k => (k, ⟨⟩) := by
  induction l with
  | nil => rfl
  | cons x l ih =>
    obtain ⟨k, e⟩ := x
    cases e
    simp only [List.map_cons, List.cons.injEq, true_and]
    exact ih

/-- The source's `Set(std::initializer_list<Key> init)` in a memory that holds a tree: it
returns a valid tree with `nullptr` sentinel links and strictly increasing keys, whose
keys are keys of `init`, one for every key of `init` up to equivalence; the cells the
memory held are as they were, and none of them is a cell of the new object. -/
theorem construct_list_sim [Inhabited K] {comp : K → K → Bool} (hsw : StrictWeak comp)
    {m : RedBlackTree K EmptyStruct} {Tm : Tree K EmptyStruct} (hm : IsTree m Tm)
    (init : List K) {fuel : Nat} (hf : init.length < fuel) :
    ∃ c Tc, Set.construct_list comp fuel m init = .ok c ∧ Valid c Tc ∧ SentinelLinks c ∧
      Increasing comp Tc.nodes ∧ c.tree_size ≤ init.length ∧
      (∀ x ∈ Tc.toList, x.1 ∈ init) ∧
      (∀ k ∈ init, ∃ x ∈ Tc.toList, KeyEquiv comp k x.1) ∧
      (init.Pairwise (fun a b => ¬KeyEquiv comp a b) →
        Tc.toList.Perm (init.map fun k => (k, ⟨⟩))) ∧
      (∀ p n, m.mem p = some n → c.mem p = some n ∧ p ∉ Tc.addrs ∧ p ≠ c.nil) := by
  obtain ⟨g1, g2, g3, g4, g5⟩ := construct_facts hm
  have hv : Valid m.construct .leaf := ⟨g1, g2, rfl, trivial, trivial, g4⟩
  obtain ⟨c, Tc, e, hv', hl', hi', hn', hz', hsub, -, hall, hperm, hfr, hadd⟩ :=
    insert_keys_sim hsw init m.construct .leaf hv g3 List.Pairwise.nil
      (show m.construct.tree_size + init.length < fuel by rw [g4]; omega)
  refine ⟨c, Tc, e, hv', hl', hi', by rw [g4] at hz'; omega, ?_, hall, ?_, ?_⟩
  · intro x hx
    rcases hsub x hx with h | h
    · cases h
    · exact h
  · intro hpw
    have := hperm hpw (fun k _ e he => by cases he)
    simpa using this
  · intro p n hp
    obtain ⟨h1, h2⟩ := g5 p n hp
    refine ⟨hfr p n h1 (by simp) h2, ?_, by rw [hn']; exact h2⟩
    intro hpT
    rcases hadd p hpT with h | h
    · cases h
    · rw [h1] at h; cases h

/-- C28: a `Set` constructed from an initializer list or from an iterator range that
yields the keys `init`, in a memory that holds a tree, with a strict weak ordering.  Both
constructors return the same object `c`.  Iteration from `begin()` to `end()` yields the
keys `ds` in ascending order (each ordered before the later ones), and so does
`inorder()`.  The keys `ds` are keys of `init`, and every key of `init` has an equivalent
key among them: `ds` holds one key for each of the distinct keys of `init`, and `size()`
is their number.  `contains(k)` is true iff a key equivalent to `k` occurs in `init`.  When
equivalent keys are equal, as with `std::less` on integers, `ds` is `init` without
repetitions, `size()` is the number of different keys of `init` and `contains(k)` is true
iff `k` occurs in `init`.  The loops run on `fuel`, and any amount above twice the length
of `init` is enough. -/
theorem set_from_keys [Inhabited K] [DecidableEq K] {comp : K → K → Bool}
    (hsw : StrictWeak comp) {m : RedBlackTree K EmptyStruct} {Tm : Tree K EmptyStruct}
    (hm : IsTree m Tm) (init : List K) {fuel : Nat} (hf : 2 * init.length < fuel) :
    ∃ (c : RedBlackTree K EmptyStruct) (ds : List K),
      Set.construct_list comp fuel m init = .ok c ∧
      Set.construct_range comp fuel m init = .ok c ∧
      c.iterate fuel = .ok (ds.map fun k => (k, ⟨⟩)) ∧
      c.inorder fuel = .ok (ds.map fun k => (k, ⟨⟩)) ∧
      ds.Pairwise (fun a b => comp a b = true) ∧
      (∀ d ∈ ds, d ∈ init) ∧ (∀ x ∈ init, ∃ d ∈ ds, KeyEquiv comp x d) ∧
      Set.size c = ds.length ∧
      (∀ k, ∃ b, Set.contains comp fuel c k = .ok b ∧
        (b = true ↔ ∃ x ∈ init, KeyEquiv comp k x)) ∧
      ((∀ a b, KeyEquiv comp a b → a = b) →
        ds.Perm init.dedup ∧ Set.size c = init.dedup.length ∧
        ∀ k, Set.contains comp fuel c k = .ok (decide (k ∈ init))) := by
  obtain ⟨c, Tc, e, hv, hl, hi, hz, hsub, hall, -, -⟩ :=
    construct_list_sim hsw hm init (show init.length < fuel by omega)
  have hcount := hv.size
  have hh := Tc.height_le_count
  have hkeys := pairs_of_keys Tc.toList
  have hpw : (Tc.toList.map Prod.fst).Pairwise (fun a b => comp a b = true) := by
    rw [List.pairwise_map]
    exact (increasing_toList comp Tc).1 hi
  have hmem : ∀ d ∈ Tc.toList.map Prod.fst, d ∈ init := by
    intro d hd
    obtain ⟨x, hx, rfl⟩ := List.mem_map.1 hd
    exact hsub x hx
  have hcov : ∀ x ∈ init, ∃ d ∈ Tc.toList.map Prod.fst, KeyEquiv comp x d := by
    intro x hx
    obtain ⟨y, hy, hxy⟩ := hall x hx
    exact ⟨y.1, List.mem_map.2 ⟨y, hy, rfl⟩, hxy⟩
  have hlen : Set.size c = (Tc.toList.map Prod.fst).length := by
    show c.tree_size = _
    rw [hcount, List.length_map, Tree.count_eq_length, Tree.toList_eq_map, List.length_map]
  have hcont : ∀ k, Set.contains comp fuel c k = .ok (find_t comp k Tc).isSome :=
    fun k => hv.tree.contains_sim comp k (by omega)
  have hiff : ∀ k, (find_t comp k Tc).isSome = true ↔ ∃ x ∈ init, KeyEquiv comp k x := by
    intro k
    constructor
    · intro h
      obtain ⟨n, hn⟩ := Option.isSome_iff_exists.1 h
      obtain ⟨h1, h2⟩ := find_t_mem comp k Tc n hn
      exact ⟨n.2.1, hsub _ (mem_toList_of_mem_nodes h1), h2⟩
    · rintro ⟨x, hx, hkx⟩
      obtain ⟨y, hy, hxy⟩ := hall x hx
      obtain ⟨n, hn, rfl⟩ := mem_nodes_of_mem_toList hy
      rw [find_t_of_mem hsw k Tc hi n hn (hsw.equiv_trans _ _ _ hkx hxy)]
      rfl
  refine ⟨c, Tc.toList.map Prod.fst, e, ?_, ?_, ?_, hpw, hmem, hcov, hlen,
    fun k => ⟨_, hcont k, hiff k⟩, ?_⟩
  · rw [construct_range_eq, e]
  · rw [← hkeys]
    exact hv.tree.iterate_sim hl.2 (by omega)
  · rw [← hkeys]
    exact hv.tree.inorder_sim (by omega)
  · intro htot
    have hnd : (Tc.toList.map Prod.fst).Nodup := by
      refine List.Pairwise.imp ?_ hpw
      intro a b hab e
      rw [e, hsw.irrefl] at hab
      cases hab
    have hperm : (Tc.toList.map Prod.fst).Perm init.dedup := by
      rw [List.perm_ext_iff_of_nodup hnd (List.nodup_dedup _)]
      intro a
      rw [List.mem_dedup]
      constructor
      · exact hmem a
      · intro ha
        obtain ⟨d, hd, had⟩ := hcov a ha
        rw [htot a d had]
        exact hd
    refine ⟨hperm, by rw [hlen, hperm.length_eq], ?_⟩
    intro k
    rw [hcont k]
    congr 1
    rw [Bool.eq_iff_iff, hiff k, decide_eq_true_iff]
    constructor
    · rintro ⟨x, hx, hkx⟩
      rw [htot k x hkx]
      exact hx
    · intro hk
      exact ⟨k, hk, hsw.equiv_refl k⟩

/-- C28 at the list 3, 1, 3, 2 and the memory of the tree the constructor makes. -/
theorem set_from_keys_witness :
    ∃ (c : RedBlackTree Nat EmptyStruct) (ds : List Nat),
      Set.construct_list ltNat 9 (empty : RedBlackTree Nat EmptyStruct) [3, 1, 3, 2] = .ok c ∧
      Set.construct_range ltNat 9 (empty : RedBlackTree Nat EmptyStruct) [3, 1, 3, 2] = .ok c ∧
      c.iterate 9 = .ok (ds.map fun k => (k, ⟨⟩)) ∧
      c.inorder 9 = .ok (ds.map fun k => (k, ⟨⟩)) ∧
      ds.Pairwise (fun a b => ltNat a b = true) ∧
      (∀ d ∈ ds, d ∈ [3, 1, 3, 2]) ∧ (∀ x ∈ [3, 1, 3, 2], ∃ d ∈ ds, KeyEquiv ltNat x d) ∧
      Set.size c = ds.length ∧
      (∀ k, ∃ b, Set.contains ltNat 9 c k = .ok b ∧
        (b = true ↔ ∃ x ∈ [3, 1, 3, 2], KeyEquiv ltNat k x)) ∧
      ((∀ a b, KeyEquiv ltNat a b → a = b) →
        ds.Perm [3, 1, 3, 2].dedup ∧ Set.size c = [3, 1, 3, 2].dedup.length ∧
        ∀ k, Set.contains ltNat 9 c k = .ok (decide (k ∈ [3, 1, 3, 2]))) :=
  set_from_keys strictWeak_ltNat isTree_empty [3, 1, 3, 2] (by decide)

/-- C27: `Set::erase(iterator pos)`, for every `Set` reached from the empty one by calls
of `insert` and `erase`, with a strict weak ordering.  For every `pos` that identifies an
element (its node is a node of the tree), `pos != end()`, and the call removes exactly
the element `*pos`: the in-order sequence, `A ++ *pos :: B` before, is `A ++ B`
afterwards, `contains` of its key is false, `size()` is one less, and `contains(j)` is as
it was for every key `j` not equivalent to it.  For `pos == end()` the call changes
nothing.  The `Set` is the one `run` reaches with the calls `ops`; the loops run on
`fuel`, and any amount above the number of calls plus one is enough. -/
theorem set_erase_at [Inhabited K] {comp : K → K → Bool} (hsw : StrictWeak comp)
    (ops : List (Op K EmptyStruct)) {fuel : Nat} (hf : ops.length + 1 < fuel) :
    ∃ s T i e xs, run comp fuel ops empty = .ok (s, i, e) ∧ IsTree s T ∧
      s.inorder fuel = .ok xs ∧
      (∀ pos : Iterator, pos.node ∈ T.addrs →
        ∃ kv s' A B, pos.ne s.end_it = true ∧ s.deref pos = .ok kv ∧
          Set.erase_at comp fuel s pos = .ok s' ∧ xs = A ++ kv :: B ∧
          s'.inorder fuel = .ok (A ++ B) ∧ Set.contains comp fuel s' kv.1 = .ok false ∧
          Set.size s' + 1 = Set.size s ∧
          ∀ j, ¬KeyEquiv comp j kv.1 → ∃ c, Set.contains comp fuel s j = .ok c ∧
            Set.contains comp fuel s' j = .ok c) ∧
      ∀ pos : Iterator, pos.eq s.end_it = true → Set.erase_at comp fuel s pos = .ok s := by
  obtain ⟨s, T, i, e, h1, hv, h3, h4, h5⟩ := run_empty comp ops
    (show ops.length < fuel by omega)
  have hi := h5 hsw
  have hfT := hv.fuel_ok (show s.tree_size < fuel by omega)
  refine ⟨s, T, i, e, T.toList, h1, hv.tree, hv.tree.inorder_sim hfT, ?_, ?_⟩
  · intro pos hpos
    rw [Tree.addrs_eq_map] at hpos
    obtain ⟨x, hx, hxp⟩ := List.mem_map.1 hpos
    have hne := hv.tree.ne_nil_of_mem (mem_addrs_of_mem_nodes hx)
    have hd : s.deref pos = .ok x.2 := by
      have := hv.tree.deref_sim x hx pos.nil pos.root
      rw [hxp] at this
      exact this
    have hpne : pos.ne s.end_it = true := by
      simp only [Iterator.ne, end_it, ← hxp, ne_eq, hne, not_false_eq_true, decide_True]
    obtain ⟨s', T', b, e1, ht, hv', hz', -⟩ := hv.erase_valid comp x.2.1
      (show s.tree_size < fuel by omega)
    have hfT' := hv'.fuel_ok (show s'.tree_size < fuel by omega)
    have hi' := erase_t_incr x.2.1 T T' b ht hi
    have hft := find_t_of_mem hsw x.2.1 T hi x hx (hsw.equiv_refl _)
    cases b with
    | false =>
      obtain ⟨-, h⟩ := erase_t_false comp x.2.1 T T' ht
      rw [hft] at h
      cases h
    | true =>
      obtain ⟨A, B, y, hfy, hn, hn'⟩ := erase_t_true comp x.2.1 T T' ht
      rw [hft] at hfy
      cases hfy
      have hnone : find_t comp x.2.1 T' = none := by
        rw [find_t_none_iff hsw x.2.1 T' hi', hn']
        rw [hn] at hi
        exact hi.erase_not_equiv hsw (hsw.equiv_refl _)
      refine ⟨x.2, s', A.map Prod.snd, B.map Prod.snd, hpne, hd, ?_, ?_, ?_, ?_, ?_, ?_⟩
      · simp only [Set.erase_at, hpne, if_true, hd, bind_ok, e1, pure_eq_ok]
      · rw [Tree.toList_eq_map, hn, List.map_append, List.map_cons]
      · rw [hv'.tree.inorder_sim hfT', Tree.toList_eq_map, hn', List.map_append]
      · have := hv'.tree.contains_sim comp x.2.1 hfT'
        rw [hnone] at this
        exact this
      · show s'.tree_size + 1 = s.tree_size
        simpa using hz'
      · intro j hj
        refine (same_answers hsw hv.tree hv'.tree hi hi' hfT hfT' j ?_).1
        rw [hn, hn']
        exact (find_skip hsw A B x j x.2.1 hj (hsw.equiv_refl _)).symm
  · intro pos hpos
    simp only [Iterator.eq, end_it, decide_eq_true_eq] at hpos
    simp [Set.erase_at, Iterator.ne, end_it, hpos]

/-- C27 at the `Set` reached by inserting 10, 5, 15, 10 again and erasing 5. -/
theorem set_erase_at_witness :
    ∃ s T i e xs, run ltNat 10 [.insert 10 ⟨⟩, .insert 5 ⟨⟩, .insert 15 ⟨⟩, .insert 10 ⟨⟩,
        .erase 5] (empty : RedBlackTree Nat EmptyStruct) = .ok (s, i, e) ∧ IsTree s T ∧
      s.inorder 10 = .ok xs ∧
      (∀ pos : Iterator, pos.node ∈ T.addrs →
        ∃ kv s' A B, pos.ne s.end_it = true ∧ s.deref pos = .ok kv ∧
          Set.erase_at ltNat 10 s pos = .ok s' ∧ xs = A ++ kv :: B ∧
          s'.inorder 10 = .ok (A ++ B) ∧ Set.contains ltNat 10 s' kv.1 = .ok false ∧
          Set.size s' + 1 = Set.size s ∧
          ∀ j, ¬KeyEquiv ltNat j kv.1 → ∃ c, Set.contains ltNat 10 s j = .ok c ∧
            Set.contains ltNat 10 s' j = .ok c) ∧
      ∀ pos : Iterator, pos.eq s.end_it = true → Set.erase_at ltNat 10 s pos = .ok s :=
  set_erase_at strictWeak_ltNat [.insert 10 ⟨⟩, .insert 5 ⟨⟩, .insert 15 ⟨⟩, .insert 10 ⟨⟩,
    .erase 5] (by decide)

/-- The source's `operator==` and `operator!=` of `Set` on two objects that hold trees:
`==` returns whether the in-order sequences are equal. -/
theorem set_eq_sim [DecidableEq K] {t : RedBlackTree K EmptyStruct} {o : Members}
    {Ta Tb : Tree K EmptyStruct} (ha : IsTree t Ta) (hb : IsTree (t.view o) Tb)
    (hla : SentinelLinks t) (hlb : SentinelLinks (t.view o)) (hza : t.size = Ta.count)
    (hzb : (t.view o).size = Tb.count) {fuel : Nat} (hfa : 2 * t.size < fuel) :
    Set.operator_eq fuel t o = .ok (decide (Ta.toList = Tb.toList)) ∧
      Set.operator_ne fuel t o = .ok (!decide (Ta.toList = Tb.toList)) := by
  have he := operator_eq_sim ha hb hla hlb hza hzb hfa
  have hlen : Ta.toList = Tb.toList → t.size = (t.view o).size := by
    intro e
    rw [hza, hzb, Ta.count_eq_length, Tb.count_eq_length, ← List.length_map Ta.nodes Prod.snd,
      ← List.length_map Tb.nodes Prod.snd, ← Tree.toList_eq_map, ← Tree.toList_eq_map, e]
  have h : Set.operator_eq fuel t o = .ok (decide (Ta.toList = Tb.toList)) := by
    rw [set_operator_eq_tree, he]
    congr 1
    rw [Bool.eq_iff_iff]
    simp only [decide_eq_true_eq]
    exact ⟨fun h => h.2, fun h => ⟨hlen h, h⟩⟩
  exact ⟨h, by simp only [Set.operator_ne, h, bind_ok, pure_eq_ok]⟩

/-- C21: equality of `Set`s does not depend on the order of insertion.  `ks` is a list of
distinct keys (no two of them equivalent under the ordering, which is a strict weak
ordering) and `ks'` a permutation of it.  The `Set` `a` is built by inserting the keys of
`ks` in their order, the `Set` `b` by inserting those of `ks'`, in the same memory: both
have the same in-order sequence `xs`, which holds the keys of `ks`, `b == a` and `a == b`
are true and `b != a` is false.  A third `Set` `c` is built from any keys `js`: `c == a` is
true iff the in-order sequences are equal, `c != a` is the negation, and when a key
occurs in one of the two and not in the other, `c == a` is false and `c != a` is true.
The last part says the same of any two `Set`s in one memory that hold trees, with
`nullptr` sentinel links and `_tree_size` the number of nodes.  The loops run on `fuel`,
and any amount above twice the length of the lists is enough. -/
theorem set_eq_any_order [Inhabited K] [DecidableEq K] {comp : K → K → Bool}
    (hsw : StrictWeak comp) {m : RedBlackTree K EmptyStruct} {Tm : Tree K EmptyStruct}
    (hm : IsTree m Tm) (ks ks' js : List K)
    (hd : ks.Pairwise fun a b => ¬KeyEquiv comp a b) (hp : ks'.Perm ks) {fuel : Nat}
    (hf : 2 * ks.length < fuel) (hfj : 2 * js.length < fuel) :
    ∃ (a b c : RedBlackTree K EmptyStruct) (xs ys : List (K × EmptyStruct)),
      Set.construct_range comp fuel m ks = .ok a ∧
      Set.construct_range comp fuel a ks' = .ok b ∧
      Set.construct_range comp fuel b js = .ok c ∧
      a.inorder fuel = .ok xs ∧ b.inorder fuel = .ok xs ∧
      (b.view a.members).inorder fuel = .ok xs ∧ xs.Perm (ks.map fun k => (k, ⟨⟩)) ∧
      Set.operator_eq fuel b a.members = .ok true ∧
      Set.operator_ne fuel b a.members = .ok false ∧
      Set.operator_eq fuel (b.view a.members) b.members = .ok true ∧
      c.inorder fuel = .ok ys ∧ (c.view a.members).inorder fuel = .ok xs ∧
      (∃ r, Set.operator_eq fuel c a.members = .ok r ∧
        Set.operator_ne fuel c a.members = .ok (!r) ∧ (r = true ↔ ys = xs) ∧
        ((∃ k, ¬(k ∈ ys.map Prod.fst ↔ k ∈ xs.map Prod.fst)) → r = false)) ∧
      ∀ (t : RedBlackTree K EmptyStruct) (o : Members) (Ta Tb : Tree K EmptyStruct),
        IsTree t Ta → IsTree (t.view o) Tb → SentinelLinks t → SentinelLinks (t.view o) →
        t.size = Ta.count → (t.view o).size = Tb.count → 2 * t.size < fuel →
        ∃ r, Set.operator_eq fuel t o = .ok r ∧ Set.operator_ne fuel t o = .ok (!r) ∧
          (r = true ↔ Ta.toList = Tb.toList) ∧
          ((∃ k, ¬(k ∈ Ta.toList.map Prod.fst ↔ k ∈ Tb.toList.map Prod.fst)) →
            r = false) := by
  have hgen : ∀ (t : RedBlackTree K EmptyStruct) (o : Members) (Ta Tb : Tree K EmptyStruct),
      IsTree t Ta → IsTree (t.view o) Tb → SentinelLinks t → SentinelLinks (t.view o) →
      t.size = Ta.count → (t.view o).size = Tb.count → 2 * t.size < fuel →
      ∃ r, Set.operator_eq fuel t o = .ok r ∧ Set.operator_ne fuel t o = .ok (!r) ∧
        (r = true ↔ Ta.toList = Tb.toList) ∧
        ((∃ k, ¬(k ∈ Ta.toList.map Prod.fst ↔ k ∈ Tb.toList.map Prod.fst)) →
          r = false) := by
    intro t o Ta Tb ha hb hla hlb hza hzb hfa
    obtain ⟨h1, h2⟩ := set_eq_sim ha hb hla hlb hza hzb hfa
    refine ⟨_, h1, h2, by simp, ?_⟩
    rintro ⟨k, hk⟩
    simp only [decide_eq_false_iff_not]
    intro e
    rw [e] at hk
    exact hk Iff.rfl
  have hlen := hp.length_eq
  have hd' : ks'.Pairwise fun a b => ¬KeyEquiv comp a b :=
    hp.symm.pairwise hd (fun h e => h (StrictWeak.equiv_symm e))
  -- the three Sets
  obtain ⟨a, Ta, ea, hva, hla, hia, hza, -, -, hpa, -⟩ :=
    construct_list_sim hsw hm ks (show ks.length < fuel by omega)
  obtain ⟨b, Tb, eb, hvb, hlb, hib, hzb, -, -, hpb, hfb⟩ :=
    construct_list_sim hsw hva.tree ks' (show ks'.length < fuel by omega)
  obtain ⟨c, Tc, ec, hvc, hlc, hic, hzc, -, -, -, hfc⟩ :=
    construct_list_sim hsw hvb.tree js (show js.length < fuel by omega)
  have hxa := hpa hd
  have hxb : Tb.toList.Perm (ks.map fun k => (k, ⟨⟩)) := (hpb hd').trans (hp.map _)
  have hab : Tb.toList = Ta.toList :=
    eq_of_perm_increasing hsw (hxb.trans hxa.symm) ((increasing_toList comp Tb).1 hib)
      ((increasing_toList comp Ta).1 hia)
  have hha := Ta.height_le_count
  have hhb := Tb.height_le_count
  have hhc := Tc.height_le_count
  have hsa := hva.size
  have hsb := hvb.size
  have hsc := hvc.size
  -- the object `a` in the memories of `b` and of `c`
  have hmb : ∀ p n, a.mem p = some n → b.mem p = some n := fun p n h => (hfb p n h).1
  have hmc : ∀ p n, a.mem p = some n → c.mem p = some n :=
    fun p n h => (hfc p n (hmb p n h)).1
  have hab_t := hva.tree.view_of_mem hvb.tree hmb
  have hab_l := SentinelLinks.view_of_cells hva.tree hla hmb
  have hac_t := hva.tree.view_of_mem hvc.tree hmc
  have hac_l := SentinelLinks.view_of_cells hva.tree hla hmc
  have hvv : (b.view a.members).view b.members = b := rfl
  obtain ⟨q1, q2⟩ := set_eq_sim hvb.tree hab_t hlb hab_l hsb hsa
    (show 2 * b.size < fuel by show 2 * b.tree_size < fuel; omega)
  obtain ⟨q3, -⟩ := set_eq_sim (t := b.view a.members) (o := b.members) hab_t
    (by rw [hvv]; exact hvb.tree) hab_l (by rw [hvv]; exact hlb) hsa (by rw [hvv]; exact hsb)
    (show 2 * (b.view a.members).size < fuel by show 2 * a.tree_size < fuel; omega)
  obtain ⟨r, r1, r2, r3, r4⟩ := hgen c a.members Tc Ta hvc.tree hac_t hlc hac_l hsc hsa
    (show 2 * c.size < fuel by show 2 * c.tree_size < fuel; omega)
  refine ⟨a, b, c, Ta.toList, Tc.toList, ?_, ?_, ?_, hva.tree.inorder_sim (by omega), ?_,
    hab_t.inorder_sim (by omega), hxa, ?_, ?_, ?_, hvc.tree.inorder_sim (by omega),
    hac_t.inorder_sim (by omega), ⟨r, r1, r2, r3, r4⟩, hgen⟩
  · rw [construct_range_eq, ea]
  · rw [construct_range_eq, eb]
  · rw [construct_range_eq, ec]
  · rw [← hab]
    exact hvb.tree.inorder_sim (by omega)
  · rw [q1, hab]
    simp
  · rw [q2, hab]
    simp
  · rw [q3, hab]
    simp

/-- C21 at the lists 1, 2, 3 and 3, 1, 2, with a third `Set` of the keys 4, 5, in the
memory of the tree the constructor makes. -/
theorem set_eq_any_order_witness :
    (([1, 2, 3] : List Nat).Pairwise fun a b => ¬KeyEquiv ltNat a b) ∧
    ([3, 1, 2] : List Nat).Perm [1, 2, 3] ∧
    ∃ (a b c : RedBlackTree Nat EmptyStruct) (xs ys : List (Nat × EmptyStruct)),
      Set.construct_range ltNat 7 (empty : RedBlackTree Nat EmptyStruct) [1, 2, 3] = .ok a ∧
      Set.construct_range ltNat 7 a [3, 1, 2] = .ok b ∧
      Set.construct_range ltNat 7 b [4, 5] = .ok c ∧
      a.inorder 7 = .ok xs ∧ b.inorder 7 = .ok xs ∧
      (b.view a.members).inorder 7 = .ok xs ∧ xs.Perm ([1, 2, 3].map fun k => (k, ⟨⟩)) ∧
      Set.operator_eq 7 b a.members = .ok true ∧
      Set.operator_ne 7 b a.members = .ok false ∧
      Set.operator_eq 7 (b.view a.members) b.members = .ok true ∧
      c.inorder 7 = .ok ys ∧ (c.view a.members).inorder 7 = .ok xs ∧
      (∃ r, Set.operator_eq 7 c a.members = .ok r ∧
        Set.operator_ne 7 c a.members = .ok (!r) ∧ (r = true ↔ ys = xs) ∧
        ((∃ k, ¬(k ∈ ys.map Prod.fst ↔ k ∈ xs.map Prod.fst)) → r = false)) ∧
      ∀ (t : RedBlackTree Nat EmptyStruct) (o : Members) (Ta Tb : Tree Nat EmptyStruct),
        IsTree t Ta → IsTree (t.view o) Tb → SentinelLinks t → SentinelLinks (t.view o) →
        t.size = Ta.count → (t.view o).size = Tb.count → 2 * t.size < 7 →
        ∃ r, Set.operator_eq 7 t o = .ok r ∧ Set.operator_ne 7 t o = .ok (!r) ∧
          (r = true ↔ Ta.toList = Tb.toList) ∧
          ((∃ k, ¬(k ∈ Ta.toList.map Prod.fst ↔ k ∈ Tb.toList.map Prod.fst)) →
            r = false) :=
  ⟨by decide, by decide, set_eq_any_order strictWeak_ltNat isTree_empty [1, 2, 3] [3, 1, 2]
    [4, 5] (by decide) (by decide) (by decide) (by decide)⟩

theorem colors_plug (f : Frame K V) {t t' : Tree K V} (h : t.colors = t'.colors) :
    (f.plug t).colors = (f.plug t').colors := by
  cases f <;> simp [Tree.colors, h]

theorem colors_fill (path : Path K V) : ∀ {t t' : Tree K V}, t.colors = t'.colors →
    (fill path t).colors = (fill path t').colors := by
  induction path with
  | nil => intro t t' h; exact h
  | cons f fs ih => intro t t' h; exact ih (colors_plug f h)

theorem Tree.colors_fst (t : Tree K V) : t.colors.map Prod.fst = t.addrs := by
  induction t with
  | leaf => rfl
  | node p c l k v r ihl ihr => simp [Tree.colors, ihl, ihr]

/-- The memory holds at every node of the tree the color the tree gives it. -/
theorem Rep.color_of_mem {s : RedBlackTree K V} {t : Tree K V} :
    ∀ {par : Ptr}, Rep s.mem s.nil par t → ∀ pc ∈ t.colors, s.color_of pc.1 = .ok pc.2 := by
  induction t with
  | leaf => intro par _ pc h; cases h
  | node p c l k v r ihl ihr =>
    intro par h pc hpc
    simp only [Rep_node] at h
    obtain ⟨h0, h1, h2, h3, h4⟩ := h
    simp only [Tree.colors, List.mem_append, List.mem_cons] at hpc
    rcases hpc with hpc | rfl | hpc
    · exact ihl h3 pc hpc
    · simp only [color_of, load_of_mem h0 h2, bind_ok, pure_eq_ok]
    · exact ihr h4 pc hpc

namespace IsTree

variable {s : RedBlackTree K V} {T : Tree K V}

/-- Two states that hold trees with the same colors at the same addresses give every node
the same color. -/
theorem color_of_eq {s' : RedBlackTree K V} {T' : Tree K V} (h : IsTree s T)
    (h' : IsTree s' T') (hc : T'.colors = T.colors) {p : Ptr}
    (hp : p ∈ T.addrs) : s'.color_of p = s.color_of p := by
  rw [← Tree.colors_fst] at hp
  obtain ⟨pc, hpc, rfl⟩ := List.mem_map.1 hp
  rw [h.rep.color_of_mem pc hpc]
  exact h'.rep.color_of_mem pc (by rw [hc]; exact hpc)

/-- A node of the tree is the root of a subtree under a path. -/
theorem focus_of_mem (_ : IsTree s T) {x : Ptr} (hx : x ∈ T.addrs) :
    ∃ path c l k v r, T = fill path (.node x c l k v r) := by
  rw [Tree.addrs_eq_map] at hx
  obtain ⟨e, he, rfl⟩ := List.mem_map.1 hx
  obtain ⟨A, B, hAB⟩ := List.append_of_mem he
  obtain ⟨path, c, l, r, hT, -, -⟩ := T.nodes_split A e B hAB
  exact ⟨path, c, l, _, _, r, hT⟩

end IsTree

/-- C31: `rotate_left` and `rotate_right` preserve the in-order sequence.  For every
state that holds a tree with consistent parent links (`IsTree`) and every node `x` of it:
when the right child `y` of `x` is not the sentinel, `rotate_left(x)` returns, the memory
holds a tree again, in which `x` is the left child of `y`, `inorder()` gives the sequence
`xs` it gave before, and every node, and the sentinel, has the color it had; likewise for
`rotate_right(x)` when the left child `y` of `x` is not the sentinel, after which `x` is
the right child of `y`.  `inorder()` runs on `fuel`, and any amount above the number of
nodes is enough. -/
theorem rotations_keep_inorder {s : RedBlackTree K V} {T : Tree K V} (h : IsTree s T)
    {x : Ptr} (hx : x ∈ T.addrs) {fuel : Nat} (hf : T.count < fuel) :
    ∃ xs, s.inorder fuel = .ok xs ∧
      (∀ y, s.right_of x = .ok y → y ≠ s.nil →
        ∃ s' T', s.rotate_left x = .ok s' ∧ IsTree s' T' ∧ s'.inorder fuel = .ok xs ∧
          s'.left_of y = .ok x ∧ s'.parent_of x = .ok y ∧ s'.nil = s.nil ∧
          (∀ p ∈ T.addrs, s'.color_of p = s.color_of p) ∧
          s'.color_of s.nil = s.color_of s.nil ∧ T'.addrs.Perm T.addrs) ∧
      (∀ y, s.left_of x = .ok y → y ≠ s.nil →
        ∃ s' T', s.rotate_right x = .ok s' ∧ IsTree s' T' ∧ s'.inorder fuel = .ok xs ∧
          s'.right_of y = .ok x ∧ s'.parent_of x = .ok y ∧ s'.nil = s.nil ∧
          (∀ p ∈ T.addrs, s'.color_of p = s.color_of p) ∧
          s'.color_of s.nil = s.color_of s.nil ∧ T'.addrs.Perm T.addrs) := by
  have hh := T.height_le_count
  obtain ⟨path, c, l, k, v, r, rfl⟩ := h.focus_of_mem hx
  refine ⟨_, h.inorder_sim (by omega), ?_, ?_⟩
  · intro y hy hyn
    rw [h.right_of_focus path x c l k v r] at hy
    cases hy
    cases r with
    | leaf => exact absurd rfl hyn
    | node y cy b ky vy g =>
      obtain ⟨s', e, h', kn⟩ := h.rotate_left_node path x c l k v y cy b ky vy g
      have hcount : (fill path (.node y cy (.node x c l k v b) ky vy g)).count =
          (fill path (.node x c l k v (.node y cy b ky vy g))).count :=
        count_fill_congr path _ _ (by simp only [Tree.count_node]; omega)
      have hh' := (fill path (.node y cy (.node x c l k v b) ky vy g)).height_le_count
      have hcol : (fill path (.node y cy (.node x c l k v b) ky vy g)).colors =
          (fill path (.node x c l k v (.node y cy b ky vy g))).colors :=
        colors_fill path (by simp [Tree.colors])
      refine ⟨s', _, e, h', ?_, ?_, ?_, kn.keeps.nil_eq, fun p hp => h.color_of_eq h' hcol hp,
        ?_, ?_⟩
      · rw [h'.inorder_sim (by omega), toList_fill, toList_fill]
        simp
      · have := h'.left_of_focus path y cy (.node x c l k v b) ky vy g
        simpa using this
      · have := h'.parent_of_focus (Frame.left y cy ky vy g :: path) x c l k v b
        simpa using this
      · unfold color_of load
        rw [kn.sent]
      · rw [Tree.addrs_eq_map, Tree.addrs_eq_map, nodes_fill, nodes_fill]
        simp only [Tree.nodes_node, List.append_assoc, List.cons_append]
        exact List.Perm.refl _
  · intro y hy hyn
    rw [h.left_of_focus path x c l k v r] at hy
    cases hy
    cases l with
    | leaf => exact absurd rfl hyn
    | node y cy a ky vy b =>
      obtain ⟨s', e, h', kn⟩ := h.rotate_right_node path x c a k v y cy b ky vy r
      have hcount : (fill path (.node y cy a ky vy (.node x c b k v r))).count =
          (fill path (.node x c (.node y cy a ky vy b) k v r)).count :=
        count_fill_congr path _ _ (by simp only [Tree.count_node]; omega)
      have hh' := (fill path (.node y cy a ky vy (.node x c b k v r))).height_le_count
      have hcol : (fill path (.node y cy a ky vy (.node x c b k v r))).colors =
          (fill path (.node x c (.node y cy a ky vy b) k v r)).colors :=
        colors_fill path (by simp [Tree.colors])
      refine ⟨s', _, e, h', ?_, ?_, ?_, kn.keeps.nil_eq, fun p hp => h.color_of_eq h' hcol hp,
        ?_, ?_⟩
      · rw [h'.inorder_sim (by omega), toList_fill, toList_fill]
        simp
      · have := h'.right_of_focus path y cy a ky vy (.node x c b k v r)
        simpa using this
      · have := h'.parent_of_focus (Frame.right y cy a ky vy :: path) x c b k v r
        simpa using this
      · unfold color_of load
        rw [kn.sent]
      · rw [Tree.addrs_eq_map, Tree.addrs_eq_map, nodes_fill, nodes_fill]
        simp only [Tree.nodes_node, List.append_assoc, List.cons_append]
        exact List.Perm.refl _

/-- C31 at the tree `lopsided` and its root, the node at address 2, whose left child is
the node at address 3 and whose right child is the sentinel. -/
theorem rotations_keep_inorder_witness :
    ∃ xs, lopsided.inorder 3 = .ok xs ∧
      (∀ y, lopsided.right_of 2 = .ok y → y ≠ lopsided.nil →
        ∃ s' T', lopsided.rotate_left 2 = .ok s' ∧ IsTree s' T' ∧ s'.inorder 3 = .ok xs ∧
          s'.left_of y = .ok 2 ∧ s'.parent_of 2 = .ok y ∧ s'.nil = lopsided.nil ∧
          (∀ p ∈ lopsidedTree.addrs, s'.color_of p = lopsided.color_of p) ∧
          s'.color_of lopsided.nil = lopsided.color_of lopsided.nil ∧
          T'.addrs.Perm lopsidedTree.addrs) ∧
      (∀ y, lopsided.left_of 2 = .ok y → y ≠ lopsided.nil →
        ∃ s' T', lopsided.rotate_right 2 = .ok s' ∧ IsTree s' T' ∧ s'.inorder 3 = .ok xs ∧
          s'.right_of y = .ok 2 ∧ s'.parent_of 2 = .ok y ∧ s'.nil = lopsided.nil ∧
          (∀ p ∈ lopsidedTree.addrs, s'.color_of p = lopsided.color_of p) ∧
          s'.color_of lopsided.nil = lopsided.color_of lopsided.nil ∧
          T'.addrs.Perm lopsidedTree.addrs) :=
  rotations_keep_inorder isTree_lopsided (by decide) (by decide)

/-- C35, the code at a failing input: on the tree the constructor makes, `--` on `end()`
takes the branch `_node == _nil` and calls `Iterator::maximum(_root)` with the sentinel
for `_root`.  Its loop `while (x->right != _nil)` has no test `x != _nil`: it reads the
sentinel's right link, `nullptr`, goes there and dereferences it.  The `maximum` of the
tree, which has the test, returns the sentinel; and the loop from `rbegin()` to `rend()`
visits nothing, as it never decrements. -/
theorem decr_end_empty_faults :
    (empty : RedBlackTree Nat Nat).is_empty = true ∧
      (empty : RedBlackTree Nat Nat).right_of (empty : RedBlackTree Nat Nat).nil = .ok 0 ∧
      (∀ fuel, (empty : RedBlackTree Nat Nat).end_it.decr (empty : RedBlackTree Nat Nat)
        (fuel + 2) = .error .null_deref) ∧
      (empty : RedBlackTree Nat Nat).end_it.decr (empty : RedBlackTree Nat Nat) 1 =
        .error .fuel ∧
      (empty : RedBlackTree Nat Nat).maximum 1 (empty : RedBlackTree Nat Nat).root =
        .ok (empty : RedBlackTree Nat Nat).nil ∧
      (empty : RedBlackTree Nat Nat).iterate_reverse 1 = .ok [] :=
  ⟨rfl, rfl, fun _ => rfl, rfl, rfl, rfl⟩

/-- The tree-level `insert` in allow-duplicates mode on a sorted tree: a node is added,
after everything `key` is not ordered before, and the tree stays sorted. -/
theorem insert_t_dup_sorted {comp : K → K → Bool} (hsw : StrictWeak comp) (z : Ptr) (key : K)
    (val : V) (T T' : Tree K V) (b : Bool) (h : insert_t comp true z key val T = some (T', b))
    (hs : Sorted comp T.nodes) :
    b = true ∧ ∃ A B, T.nodes = A ++ B ∧ T'.nodes = A ++ (z, key, val) :: B ∧
      (∀ e ∈ A, comp key e.2.1 = false) ∧ (∀ e ∈ B, comp key e.2.1 = true) ∧
      Sorted comp T'.nodes := by
  have hleaf := ins_path_dup_leaf comp key T []
  have hdir := ins_path_DirDup comp key T [] (fun f hf => by cases hf)
  have hfill := fill_ins_path comp true key [] T
  generalize hp : ins_path comp true key [] T = d at hleaf hdir hfill
  obtain ⟨path, t⟩ := d
  simp only at hleaf hdir hfill
  subst hleaf
  have hb : b = true := by
    rw [insert_t_new comp true z key val T path hp] at h
    simp only [Option.map_eq_some', Prod.mk.injEq] at h
    obtain ⟨_, _, _, rfl⟩ := h
    rfl
  subst hb
  obtain ⟨hn, hn'⟩ := insert_t_nodes comp true z key val T T' path hp h
  simp only [fill_nil] at hfill
  obtain ⟨hL, hR⟩ := path_bounds_dup hsw key path .leaf hdir (by rw [hfill]; exact hs)
  refine ⟨rfl, _, _, hn, hn', hL, hR, ?_⟩
  rw [hn'] 
  rw [hn] at hs
  obtain ⟨p1, p2, p3⟩ := List.pairwise_append.1 hs
  refine List.pairwise_append.2 ⟨p1, List.Pairwise.cons ?_ p2, ?_⟩
  · intro e he
    exact hsw.asymm (hR e he)
  · intro a ha e he
    rcases List.mem_cons.1 he with rfl | he
    · exact hL a ha
    · exact p3 a ha e he

/-- The tree-level `erase` keeps a sorted tree sorted. -/
theorem erase_t_sorted {comp : K → K → Bool} (key : K) (T T' : Tree K V) (b : Bool)
    (h : erase_t comp key T = some (T', b)) (hs : Sorted comp T.nodes) :
    Sorted comp T'.nodes := by
  cases b with
  | false =>
    obtain ⟨rfl, -⟩ := erase_t_false comp key T T' h
    exact hs
  | true =>
    obtain ⟨A, B, e, -, hn, hn'⟩ := erase_t_true comp key T T' h
    rw [hn'] 
    rw [hn] at hs
    obtain ⟨p1, p2, p3⟩ := List.pairwise_append.1 hs
    exact List.pairwise_append.2 ⟨p1, (List.pairwise_cons.1 p2).2,
      fun a ha e he => p3 a ha e (List.mem_cons_of_mem _ he)⟩

namespace Valid

variable {s : RedBlackTree K V} {T : Tree K V}

/-- The source's `insert` in allow-duplicates mode keeps the state valid, and adds a node. -/
theorem insert_valid_dup (comp : K → K → Bool) (hv : Valid s T) (k : K) (v : V) {fuel : Nat}
    (hf : s.tree_size < fuel) :
    ∃ s' T' it b, RedBlackTree.insert comp true fuel s (k, v) = .ok (s', it, b) ∧
      insert_t comp true s.brk k v T = some (T', b) ∧ Valid s' T' ∧
      s'.tree_size = s.tree_size + b.toNat := by
  obtain ⟨s', T', it, b, e1, h1, h2, h3, -, h4, -, -⟩ :=
    hv.tree.insert_spec comp true k v hv.sentinel hv.root (hv.fuel_ok hf)
  obtain ⟨h7, h8, h9⟩ := insert_t_rb comp true s.brk k v T T' b h1 hv.root hv.noRR hv.bhOK
  refine ⟨s', T', it, b, e1, h1, ⟨h2, h3, h7, h8, h9, ?_⟩, h4⟩
  rw [h4, hv.size]
  have hleaf := ins_path_dup_leaf comp k T []
  generalize hp : ins_path comp true k [] T = d at hleaf
  obtain ⟨path, t⟩ := d
  simp only at hleaf
  subst hleaf
  have hb : b = true := by
    rw [insert_t_new comp true s.brk k v T path hp] at h1
    simp only [Option.map_eq_some', Prod.mk.injEq] at h1
    obtain ⟨_, _, _, rfl⟩ := h1
    rfl
  subst hb
  obtain ⟨hn, hn'⟩ := insert_t_nodes comp true s.brk k v T T' path hp h1
  rw [Tree.count_eq_length, Tree.count_eq_length, hn, hn']
  simp
  omega

end Valid

/-- A sequence of calls in allow-duplicates mode on a valid tree, with fuel for the
largest tree on the way: every call returns, the tree at the end is valid, and a sorted
tree stays sorted. -/
theorem run_dup_valid (comp : K → K → Bool) (fuel : Nat) :
    ∀ (ops : List (Op K V)) (s : RedBlackTree K V) (T : Tree K V), Valid s T →
      s.tree_size + ops.length < fuel →
      ∃ s' T' i e, run_dup comp fuel ops s = .ok (s', i, e) ∧ Valid s' T' ∧
        s'.tree_size ≤ s.tree_size + ops.length ∧
        (StrictWeak comp → Sorted comp T.nodes → Sorted comp T'.nodes) := by
  intro ops
  induction ops with
  | nil =>
    intro s T hv _
    exact ⟨s, T, 0, 0, rfl, hv, by simp, fun _ h => h⟩
  | cons op ops ih =>
    intro s T hv hf
    simp only [List.length_cons] at hf
    cases op with
    | insert k v =>
      obtain ⟨s1, T1, it, b, e1, ht1, hv1, hz1⟩ := hv.insert_valid_dup comp k v
        (show s.tree_size < fuel by omega)
      have hb : b.toNat ≤ 1 := by cases b <;> simp
      obtain ⟨s2, T2, i, e, e2, hv2, hz2, hi2⟩ := ih s1 T1 hv1 (by omega)
      refine ⟨s2, T2, i + b.toNat, e, ?_, hv2, by simp only [List.length_cons]; omega, ?_⟩
      · simp only [run_dup, e1, bind_ok, e2, pure_eq_ok]
      · intro hsw hi
        obtain ⟨-, A, B, -, -, -, -, h⟩ := insert_t_dup_sorted hsw _ k v T T1 b ht1 hi
        exact hi2 hsw h
    | erase k =>
      obtain ⟨s1, T1, b, e1, ht1, hv1, hz1, -⟩ := hv.erase_valid comp k
        (show s.tree_size < fuel by omega)
      obtain ⟨s2, T2, i, e, e2, hv2, hz2, hi2⟩ := ih s1 T1 hv1 (by omega)
      refine ⟨s2, T2, i, e + b.toNat, ?_, hv2, by simp only [List.length_cons]; omega,
        fun hsw hi => hi2 hsw (erase_t_sorted k T T1 b ht1 hi)⟩
      simp only [run_dup, e1, bind_ok, e2, pure_eq_ok]

/-- C36: `erase` in allow-duplicates mode, for every tree reached from the empty tree by
calls of `insert` (in allow-duplicates mode) and `erase` and every key `k` that is
equivalent to the key of a pair of the tree: `erase(k)` returns true and takes exactly
one pair out of the in-order sequence, one whose key is equivalent to `k`; `size()` drops
by one, the number of pairs with a key equivalent to `k` drops by one, the pairs with
other keys are kept in their order, and in the sequence afterwards no key is ordered
before an earlier one.  The tree is the one `run_dup` reaches with the calls `ops`; the
loops run on `fuel`, and any amount above the number of calls is enough for every call
to return. -/
theorem erase_dup_removes_one [Inhabited K] [Inhabited V] {comp : K → K → Bool}
    (hsw : StrictWeak comp) (ops : List (Op K V)) (k : K) {fuel : Nat}
    (hf : ops.length < fuel) {s : RedBlackTree K V} {i e : Nat}
    (hrun : run_dup comp fuel ops empty = .ok (s, i, e)) {xs : List (K × V)}
    (hxs : s.inorder fuel = .ok xs) (hk : ∃ x ∈ xs, KeyEquiv comp k x.1) :
    ∃ s' A x B, erase comp fuel s k = .ok (s', true) ∧ xs = A ++ x :: B ∧
      KeyEquiv comp k x.1 ∧ s'.inorder fuel = .ok (A ++ B) ∧ s'.size + 1 = s.size ∧
      ((A ++ B).filter fun y => decide (KeyEquiv comp k y.1)).length + 1 =
        (xs.filter fun y => decide (KeyEquiv comp k y.1)).length ∧
      ((A ++ B).filter fun y => !decide (KeyEquiv comp k y.1)) =
        (xs.filter fun y => !decide (KeyEquiv comp k y.1)) ∧
      (A ++ B).Pairwise fun a b => comp b.1 a.1 = false := by
  obtain ⟨s1, T, i1, e1, h1, hv, hz, hso⟩ := run_dup_valid comp fuel ops empty .leaf
    Valid.empty_valid (by show 0 + ops.length < fuel; omega)
  have hz0 : (empty : RedBlackTree K V).tree_size = 0 := rfl
  rw [hrun] at h1
  simp only [Except.ok.injEq, Prod.mk.injEq] at h1
  obtain ⟨rfl, rfl, rfl⟩ := h1
  have hsT : Sorted comp T.nodes := hso hsw List.Pairwise.nil
  have hfs : s.tree_size < fuel := by omega
  rw [hv.tree.inorder_sim (hv.fuel_ok hfs)] at hxs
  simp only [Except.ok.injEq] at hxs
  subst hxs
  obtain ⟨s', T', b, e2, ht, hv', hz', -⟩ := hv.erase_valid comp k hfs
  have hb : b = true := by
    cases b with
    | true => rfl
    | false =>
      obtain ⟨-, hnone⟩ := erase_t_false comp k T T' ht
      obtain ⟨x, hx, hkx⟩ := hk
      obtain ⟨n, hn, rfl⟩ := mem_nodes_of_mem_toList hx
      exact absurd hkx (find_t_none hsw k T hsT hnone n hn)
  subst hb
  obtain ⟨A, B, x, hft, hn, hn'⟩ := erase_t_true comp k T T' ht
  obtain ⟨-, hkx⟩ := find_t_mem comp k T x hft
  have hxs : T.toList = A.map (·.2) ++ x.2 :: B.map (·.2) := by
    rw [Tree.toList_eq_map, hn]
    simp
  have hxs' : T'.toList = A.map (·.2) ++ B.map (·.2) := by
    rw [Tree.toList_eq_map, hn']
    simp
  have hso' := (sorted_toList comp T').1 (erase_t_sorted k T T' true ht hsT)
  rw [hxs'] at hso'
  refine ⟨s', A.map (·.2), x.2, B.map (·.2), e2, hxs, hkx, ?_, ?_, ?_, ?_, hso'⟩
  · rw [hv'.tree.inorder_sim (hv'.fuel_ok (by simp at hz'; omega)), hxs']
  · simpa using hz'
  · rw [hxs]
    simp only [List.filter_append, List.filter_cons, hkx, decide_True, if_true,
      List.length_append, List.length_cons]
    omega
  · rw [hxs]
    simp [List.filter_append, List.filter_cons, hkx]

/-- C36 at the tree reached by inserting the keys 10, 5 and 10 again, for `erase(10)`. -/
theorem erase_dup_removes_one_witness :
    ∃ s i e xs, run_dup ltNat 4 [.insert 10 0, .insert 5 0, .insert 10 1]
        (empty : RedBlackTree Nat Nat) = .ok (s, i, e) ∧
      s.inorder 4 = .ok xs ∧ (∃ x ∈ xs, KeyEquiv ltNat 10 x.1) ∧
      ∃ s' A x B, erase ltNat 4 s 10 = .ok (s', true) ∧ xs = A ++ x :: B ∧
        KeyEquiv ltNat 10 x.1 ∧ s'.inorder 4 = .ok (A ++ B) ∧ s'.size + 1 = s.size ∧
        ((A ++ B).filter fun y => decide (KeyEquiv ltNat 10 y.1)).length + 1 =
          (xs.filter fun y => decide (KeyEquiv ltNat 10 y.1)).length ∧
        ((A ++ B).filter fun y => !decide (KeyEquiv ltNat 10 y.1)) =
          (xs.filter fun y => !decide (KeyEquiv ltNat 10 y.1)) ∧
        (A ++ B).Pairwise fun a b => ltNat b.1 a.1 = false := by
  refine ⟨_, _, _, _, rfl, rfl, ⟨(10, 0), by decide, by decide⟩, ?_⟩
  refine erase_dup_removes_one (i := 3) (e := 0) strictWeak_ltNat
    [.insert 10 0, .insert 5 0, .insert 10 1] 10 (by decide) ?_ ?_
    ⟨(10, 0), by decide, by decide⟩
  · rfl
  · rfl

theorem color_of_null (s : RedBlackTree K V) : s.color_of 0 = .error .null_deref := rfl

/-- Where the tree-level loop of `insert_fix` gives no tree, `insert_fix(z)` does not
return: it reads the color of the uncle through the `nullptr` child link of the
sentinel. -/
theorem insert_fix_fault : ∀ (fuel : Nat) (path : Path K V) (z : Ptr) (cz : Color)
    (zl : Tree K V) (zk : K) (zv : V) (zr : Tree K V) (s : RedBlackTree K V),
    IsTree s (fill path (.node z cz zl zk zv zr)) → SentinelBlack s → SentinelLinks s →
    insert_fix_z path (.node z cz zl zk zv zr) = none →
    ∃ e, insert_fix fuel s z = .error e := by
  intro fuel
  induction fuel with
  | zero => intro path z cz zl zk zv zr s _ _ _ _; exact ⟨_, rfl⟩
  | succ n ih =>
    intro path z cz zl zk zv zr s h hs hk hz
    have hpz := h.parent_of_focus path z cz zl zk zv zr
    have hn0 := h.nil_ne
    unfold SentinelBlack at hs
    match path, h, hz, hpz with
    | [], h, hz, hpz => simp [insert_fix_z] at hz
    | [f], h, hz, hpz =>
      have hf0 := (h.head_cell f [] _).1
      have hcf := h.color_of_frame f [] _
      have hpf := h.parent_of_frame f [] _
      by_cases hfc : f.color = .BLACK
      · simp [insert_fix_z, hfc] at hz
      · have hred : f.color = .RED := by
          cases hc : f.color
          · rfl
          · exact absurd hc hfc
        simp only [parentPtr_nil] at hpf
        refine ⟨.null_deref, ?_⟩
        simp only [insert_fix, hpz, parentPtr_cons, bind_ok, hf0, if_false, hcf, hred, ne_eq,
          not_true_eq_false, hpf, hk.1, color_of_null]
        rfl
    | fP :: fG :: rest, h, hz, hpz =>
      have hP0 := (h.head_cell fP _ _).1
      have hcP := h.color_of_frame fP _ _
      by_cases hfc : fP.color = .BLACK
      · rw [insert_fix_z_black _ _ _ hfc] at hz
        cases hz
      · have hred : fP.color = .RED := by
          cases hc : fP.color
          · rfl
          · exact absurd hc hfc
        have hpP := h.parent_of_frame fP (fG :: rest) _
        have hG : IsTree s (fill (fG :: rest) (fP.plug (.node z cz zl zk zv zr))) := h
        have hcU := hG.color_of_sib fG rest _ hs
        have hPne : fP.ptr ≠ fG.sib.ptr s.nil := by
          have := (hG.parent_facts _ _ fG rest rfl).2.2.2 fP.ptr
            (by cases fP <;> simp)
          exact this.2
        simp only [insert_fix_z, hfc, if_false] at hz
        simp only [parentPtr_cons] at hpz hpP
        cases fG with
        | left G cg kg vg U =>
          have hGl : s.left_of G = .ok fP.ptr := by
            have := hG.left_of_focus rest G cg _ kg vg U
            simpa using this
          have hGr : s.right_of G = .ok (U.ptr s.nil) := hG.right_of_focus rest G cg _ kg vg U
          simp only [Frame.sib, Frame.ptr_left] at hcU hPne hpP hz
          by_cases hUc : U.color = .RED
          · cases U with
            | leaf => simp at hUc
            | node u cu ul uk uv ur =>
              simp only [Tree.color_node] at hUc
              subst hUc
              simp only [Tree.color_node, if_true, Tree.setColor_node, Frame.setSib,
                Frame.setColor, plug_left] at hz
              obtain ⟨s1, e1, h1, k1⟩ := h.insert_fix_recolor_sim fP (Frame.left G cg kg vg _) rest
                z cz zl zk zv zr u .RED ul uk uv ur rfl
              have h1' : IsTree s1 (fill rest (.node G .RED ((fP.setColor .BLACK).plug
                  (.node z cz zl zk zv zr)) kg vg (.node u .BLACK ul uk uv ur))) := h1
              obtain ⟨e, e2⟩ := ih rest G .RED _ kg vg _ s1 h1' (k1.sentinel hs)
                (hk.of_cell_eq k1.keeps.nil_eq k1.sent) hz
              refine ⟨e, ?_⟩
              simp only [Tree.ptr_node, Tree.color_node] at hPne hGr hcU
              simp only [insert_fix, hpz, bind_ok, hP0, if_false, hcP, hred, ne_eq,
                not_true_eq_false, hpP, hGl, if_true, hGr, Tree.ptr_node, hcU, Tree.color_node,
                e1, Frame.ptr_left, e2]
          · have hUb : U.color = .BLACK := color_ne_red.1 hUc
            simp only [hUb, reduceCtorEq, if_false] at hz
            cases fP <;> cases hz
        | right G cg U kg vg =>
          have hGl : s.left_of G = .ok (U.ptr s.nil) := hG.left_of_focus rest G cg U kg vg _
          simp only [Frame.sib, Frame.ptr_right] at hcU hPne hpP hz
          by_cases hUc : U.color = .RED
          · cases U with
            | leaf => simp at hUc
            | node u cu ul uk uv ur =>
              simp only [Tree.color_node] at hUc
              subst hUc
              simp only [Tree.color_node, if_true, Tree.setColor_node, Frame.setSib,
                Frame.setColor, plug_right] at hz
              obtain ⟨s1, e1, h1, k1⟩ := h.insert_fix_recolor_sim fP (Frame.right G cg _ kg vg) rest
                z cz zl zk zv zr u .RED ul uk uv ur rfl
              have h1' : IsTree s1 (fill rest (.node G .RED (.node u .BLACK ul uk uv ur) kg vg
                  ((fP.setColor .BLACK).plug (.node z cz zl zk zv zr)))) := h1
              obtain ⟨e, e2⟩ := ih rest G .RED _ kg vg _ s1 h1' (k1.sentinel hs)
                (hk.of_cell_eq k1.keeps.nil_eq k1.sent) hz
              refine ⟨e, ?_⟩
              simp only [Tree.ptr_node, Tree.color_node] at hPne hGl hcU
              simp only [insert_fix, hpz, bind_ok, hP0, if_false, hcP, hred, ne_eq,
                not_true_eq_false, hpP, hGl, hPne, Tree.ptr_node, hcU, Tree.color_node, if_true,
                e1, Frame.ptr_right, e2]
          · have hUb : U.color = .BLACK := color_ne_red.1 hUc
            simp only [hUb, reduceCtorEq, if_false] at hz
            cases fP <;> cases hz

namespace IsTree

variable {s : RedBlackTree K V} {T : Tree K V}

/-- The source's `insert(val)` of a key the descent does not find, on any tree: it returns exactly when
the tree-level loop of `insert_fix` gives a tree; its memory then holds that tree, and
the cell of the sentinel is as it was. -/
theorem insert_new_outcome (comp : K → K → Bool) (dup : Bool) (fuel : Nat) (k : K) (v : V)
    (path : Path K V) (h : IsTree s T) (hs : SentinelBlack s) (hk : SentinelLinks s)
    (hf : T.height < fuel) (hp : ins_path comp dup k [] T = (path, .leaf)) :
    (∀ T1, insert_fix_z path (.node s.brk .RED .leaf k v .leaf) = some T1 →
      ∃ s', insert comp dup fuel s (k, v) = .ok (s', ⟨s.brk, s.nil, 0⟩, true) ∧
        IsTree s' (T1.setColor .BLACK) ∧ s'.nil = s.nil ∧ s'.mem s.nil = s.mem s.nil) ∧
    (insert_fix_z path (.node s.brk .RED .leaf k v .leaf) = none →
      ∃ e, insert comp dup fuel s (k, v) = .error e) := by
  obtain ⟨h1, hz, hzn⟩ := h.create_node k v
  obtain ⟨s1, hs1⟩ : ∃ s1, s1 = (s.create_node k v).1 := ⟨_, rfl⟩
  have hcn : s.create_node k v = (s1, s.brk) := by rw [hs1]; rfl
  rw [← hs1] at h1
  have hz0 : s.brk ≠ 0 := h.brk_ne
  have hm : s1.mem s.brk = some ⟨k, v, 0, s.nil, s.nil, .RED⟩ := by
    rw [hs1]; simp [RedBlackTree.create_node]
  have hnil : s1.nil = s.nil := by rw [hs1]; rfl
  have hbrk : s1.brk = s.brk + 1 := by rw [hs1]; rfl
  have hs1m : s1.mem s.nil = s.mem s.nil := by
    rw [hs1]
    simp only [RedBlackTree.create_node, Function.update_noteq (Ne.symm hzn)]
  have hs1b : SentinelBlack s1 := by
    unfold SentinelBlack color_of load at *
    rw [hnil, hs1m]
    exact hs
  have hs1k : SentinelLinks s1 := hk.of_cell_eq hnil hs1m
  have hl := load_of_mem hz0 hm
  have hloop := insert_loop_sim comp dup s1 k T [] fuel h1.rep hf
  rw [parentPtr_nil, ← h1.root_eq, hp] at hloop
  have hfill := fill_ins_path comp dup k [] T
  rw [hp] at hfill
  simp only [fill_nil] at hfill
  have hlen := length_ins_path_le comp dup k T
  rw [hp] at hlen
  have hdir := ins_path_dir comp dup k T [] (by simp)
  rw [hp] at hdir
  have h1' : IsTree s1 (fill path .leaf) := by rw [hfill]; exact h1
  rw [← hnil] at hm hzn
  obtain ⟨s2, e2, h2, k2⟩ := h1'.link_sim comp path k v s.brk hdir hm hz0 hzn
    (by rw [hfill]; exact hz) (by rw [hbrk]; exact Nat.lt_succ_self _)
  constructor
  · intro T1 hT1
    obtain ⟨s3, e3, h3, k3⟩ := insert_fix_sim fuel path s.brk .RED .leaf k v .leaf s2 T1 h2
      (k2.sentinel hs1b) hT1 (by simp only at hlen; omega)
    have k23 := k2.transN k3
    refine ⟨{ s3 with tree_size := s3.tree_size + 1 }, ?_, h3.set_size _, ?_, ?_⟩
    · simp only [RedBlackTree.insert, hcn, key_of, hl, bind_ok, pure_eq_ok, hloop, loop_result,
        Bool.false_eq_true, if_false, e2, e3]
      rw [k23.keeps.nil_eq, hnil]
    · exact k23.keeps.nil_eq.trans hnil
    · show s3.mem s.nil = s.mem s.nil
      have := k23.sent
      rw [hnil] at this
      exact this.trans hs1m
  · intro hnone
    obtain ⟨e, e3⟩ := insert_fix_fault fuel path s.brk .RED .leaf k v .leaf s2 h2
      (k2.sentinel hs1b) (hs1k.of_cell_eq k2.keeps.nil_eq k2.sent) hnone
    refine ⟨e, ?_⟩
    simp only [RedBlackTree.insert, hcn, key_of, hl, bind_ok, pure_eq_ok, hloop, loop_result,
      Bool.false_eq_true, if_false, e2, e3]
    rfl

/-- The source's `insert(val)` on any tree, red-black or not: when it returns, its memory holds the
tree of `insert_t`, and the cell of the sentinel is as it was. -/
theorem insert_returns (comp : K → K → Bool) (dup : Bool) (k : K) (v : V) (h : IsTree s T)
    (hs : SentinelBlack s) (hk : SentinelLinks s) {fuel : Nat} (hf : T.height < fuel)
    {s' : RedBlackTree K V} {it : Iterator} {b : Bool}
    (he : insert comp dup fuel s (k, v) = .ok (s', it, b)) :
    ∃ T', insert_t comp dup s.brk k v T = some (T', b) ∧ IsTree s' T' ∧ s'.nil = s.nil ∧
      s'.mem s.nil = s.mem s.nil := by
  generalize hp : ins_path comp dup k [] T = d
  obtain ⟨path, t⟩ := d
  cases t with
  | node p c l k' v' r =>
    have e1 := h.insert_sim_dup comp dup fuel k v T path p c l k' v' r hf hp
    rw [e1] at he
    cases he
    refine ⟨T, insert_t_found comp dup _ k v T path p c l k' v' r hp, ?_, rfl, rfl⟩
    exact ⟨h.root_eq, h.rep, h.nodup, h.nil_ne, h.nil_live,
      fun q hq => h.unused q (by show s.brk ≤ q; exact Nat.le_of_succ_le hq),
      Nat.succ_ne_zero _⟩
  | leaf =>
    obtain ⟨hsome, hnone⟩ := h.insert_new_outcome comp dup fuel k v path hs hk hf hp
    cases hfix : insert_fix_z path (.node s.brk .RED .leaf k v .leaf) with
    | none =>
      obtain ⟨e, e1⟩ := hnone hfix
      rw [e1] at he
      cases he
    | some T1 =>
      obtain ⟨s1, e1, h1, hn1, hm1⟩ := hsome T1 hfix
      rw [e1] at he
      cases he
      refine ⟨_, ?_, h1, hn1, hm1⟩
      rw [insert_t_new comp dup s.brk k v T path hp, hfix]
      rfl

end IsTree

theorem both_black_null (s : RedBlackTree K V) (b : Ptr) :
    s.both_black 0 b = .error .null_deref := rfl

/-- With a child of `w` that is not BLACK, the end of an iteration of `erase_fix` finds
the nodes it rotates. -/
theorem erase_far_l_isSome (P : Ptr) (cp : Color) (x : Tree K V) (kp : K) (vp : V) (W : Ptr)
    (cw : Color) (wl : Tree K V) (wk : K) (wv : V) (wr : Tree K V)
    (hb : ¬(wl.color = .BLACK ∧ wr.color = .BLACK)) :
    erase_far_l P cp x kp vp (.node W cw wl wk wv wr) ≠ none := by
  by_cases hr : wr.color = .BLACK
  · cases wl with
    | leaf => exact absurd ⟨rfl, hr⟩ hb
    | node WL c a k' v' b => simp [erase_far_l, hr]
  · simp [erase_far_l, hr]

theorem erase_far_r_isSome (P : Ptr) (cp : Color) (x : Tree K V) (kp : K) (vp : V) (W : Ptr)
    (cw : Color) (wl : Tree K V) (wk : K) (wv : V) (wr : Tree K V)
    (hb : ¬(wr.color = .BLACK ∧ wl.color = .BLACK)) :
    erase_far_r P cp x kp vp (.node W cw wl wk wv wr) ≠ none := by
  by_cases hl : wl.color = .BLACK
  · cases wr with
    | leaf => exact absurd ⟨rfl, hl⟩ hb
    | node WR c a k' v' b => simp [erase_far_r, hl]
  · simp [erase_far_r, hl]

/-- Where the tree-level loop of `erase_fix` gives no tree, `erase_fix(x)` does not
return: the sibling `w` is the sentinel, and the loop reads the color of `w->left`,
which is `nullptr`. -/
theorem erase_fix_fault : ∀ (fuel : Nat) (path : Path K V) (x : Tree K V)
    (s : RedBlackTree K V), IsTree s (fill path x) → SentinelBlack s → SentinelLinks s →
    (∀ f rest, path = f :: rest → s.parent_of (x.ptr s.nil) = .ok f.ptr) →
    erase_fix_z path x = none → ∃ e, erase_fix fuel s (x.ptr s.nil) = .error e := by
  intro fuel
  induction fuel with
  | zero => intro path x s _ _ _ _ _; exact ⟨_, rfl⟩
  | succ n ih =>
    intro path x s h hs hk hxp hz
    have hcn : s.color_of s.nil = .ok .BLACK := hs
    cases path with
    | nil => simp [erase_fix_z] at hz
    | cons f rest =>
      have hxP := hxp f rest rfl
      have hroot := h.hole_ne_root f rest x
      have hcx := IsTree.color_of_hole (f :: rest) x hs h
      by_cases hred : x.color = .RED
      · simp [erase_fix_z, hred] at hz
      · have hblack : x.color = .BLACK := color_ne_red.1 hred
        cases f with
        | left P cp kp vp w =>
          have hl := h.left_of_focus rest P cp x kp vp w
          have hr := h.right_of_focus rest P cp x kp vp w
          simp only [Frame.ptr_left] at hxP
          cases w with
          | leaf =>
            simp only [Tree.ptr_leaf] at hr
            refine ⟨.null_deref, ?_⟩
            simp only [erase_fix, hroot, if_false, hcx, hblack, bind_ok, ne_eq,
              not_true_eq_false, hxP, hl, if_true, hr, hcn, reduceCtorEq, pure_eq_ok, hk.1,
              hk.2, both_black_null]
            rfl
          | node W cw wl wk wv wr =>
            have hcw := h.color_of_focus (Frame.right P cp x kp vp :: rest) W cw wl wk wv wr
            simp only [Tree.ptr_node] at hr
            cases cw with
            | RED =>
              obtain ⟨s1, e1, h1, k1⟩ := h.erase_fix_red_l_sim rest x P cp kp vp W .RED
                wl wk wv wr hxP
              have hk1 := hk.of_cell_eq k1.keeps.nil_eq k1.sent
              have en1 : s1.nil = s.nil := k1.keeps.nil_eq
              rw [SentinelLinks, en1] at hk1
              cases wl with
              | leaf =>
                simp only [Tree.ptr_leaf] at e1
                refine ⟨.null_deref, ?_⟩
                simp only [erase_fix, hroot, if_false, hcx, hblack, bind_ok, ne_eq,
                  not_true_eq_false, hxP, hl, if_true, hr, hcw, e1, hk1.1, hk1.2,
                  both_black_null]
                rfl
              | node W2 c2 al ak av ar =>
                by_cases hb : al.color = .BLACK ∧ ar.color = .BLACK
                · simp [erase_fix_z, hred, hb] at hz
                · simp only [erase_fix_z, hred, if_false, hb, Option.map_eq_none'] at hz
                  exact absurd hz (erase_far_l_isSome _ _ _ _ _ _ _ _ _ _ _ hb)
            | BLACK =>
              have hl1 := h.left_of_focus (Frame.right P cp x kp vp :: rest) W .BLACK wl wk wv wr
              have hr1 := h.right_of_focus (Frame.right P cp x kp vp :: rest) W .BLACK wl wk wv wr
              have hca := IsTree.color_of_hole (Frame.left W .BLACK wk wv wr ::
                Frame.right P cp x kp vp :: rest) wl hs h
              have hcb := IsTree.color_of_hole (Frame.right W .BLACK wl wk wv ::
                Frame.right P cp x kp vp :: rest) wr hs h
              have hbb := both_black_eq hca hcb
              by_cases hb : wl.color = .BLACK ∧ wr.color = .BLACK
              · simp only [erase_fix_z, hred, if_false, hb, and_self, if_true] at hz
                obtain ⟨s1, e1, h1, k1, _⟩ := h.set_color_sib
                  (Frame.left P cp kp vp (.node W .BLACK wl wk wv wr)) rest x .RED
                  W .BLACK wl wk wv wr rfl
                have hx1 := IsTree.parent_of_hole P _ _ x h1 k1 rfl hxP
                have h1' : IsTree s1 (fill rest (.node P cp x kp vp (.node W .RED wl wk wv wr))) :=
                  h1
                obtain ⟨e, e2⟩ := ih rest _ s1 h1' (k1.sentinel hs)
                  (hk.of_cell_eq k1.keeps.nil_eq k1.sent)
                  (fun f' rest' e => by
                    subst e
                    exact h1'.parent_of_focus _ P cp x kp vp _) hz
                simp only [Tree.ptr_node] at e2
                refine ⟨e, ?_⟩
                simp only [erase_fix, hroot, if_false, hcx, hblack, bind_ok, ne_eq,
                  not_true_eq_false, hxP, hl, if_true, hr, hcw, hl1, hr1, hbb, hb,
                  and_self, decide_True, e1, hx1, e2, reduceCtorEq, pure_eq_ok]
              · simp only [erase_fix_z, hred, if_false, hb, Option.map_eq_none'] at hz
                exact absurd hz (erase_far_l_isSome _ _ _ _ _ _ _ _ _ _ _ hb)
        | right P cp w kp vp =>
          have hl := h.left_of_focus rest P cp w kp vp x
          have hr := h.right_of_focus rest P cp w kp vp x
          simp only [Frame.ptr_right] at hxP
          cases w with
          | leaf =>
            simp only [Tree.ptr_leaf] at hl
            refine ⟨.null_deref, ?_⟩
            cases x with
            | leaf =>
              simp only [Tree.ptr_leaf] at hroot hcx hxP hr ⊢
              simp only [erase_fix, hroot, if_false, hcx, hblack, bind_ok, ne_eq,
                not_true_eq_false, hxP, hl, if_true, hr, hcn, reduceCtorEq, pure_eq_ok, hk.1,
                hk.2, both_black_null]
              rfl
            | node p c l k v r =>
              have hpn := (h.mem_focus (Frame.right P cp .leaf kp vp :: rest) p c l k v r).2.1
              simp only [Tree.ptr_node] at hroot hcx hxP hr ⊢
              simp only [erase_fix, hroot, if_false, hcx, hblack, bind_ok, ne_eq,
                not_true_eq_false, hxP, hl, hpn, hcn, reduceCtorEq, pure_eq_ok, hk.1,
                hk.2, both_black_null]
              rfl
          | node W cw wl wk wv wr =>
            have hne := h.hole_ne_sib (Frame.right P cp (.node W cw wl wk wv wr) kp vp) rest x
              W cw wl wk wv wr rfl
            have hcw := h.color_of_focus (Frame.left P cp kp vp x :: rest) W cw wl wk wv wr
            simp only [Tree.ptr_node] at hl
            cases cw with
            | RED =>
              obtain ⟨s1, e1, h1, k1⟩ := h.erase_fix_red_r_sim rest x P cp kp vp W .RED
                wl wk wv wr hxP
              have hk1 := hk.of_cell_eq k1.keeps.nil_eq k1.sent
              have en1 : s1.nil = s.nil := k1.keeps.nil_eq
              rw [SentinelLinks, en1] at hk1
              cases wr with
              | leaf =>
                simp only [Tree.ptr_leaf] at e1
                refine ⟨.null_deref, ?_⟩
                simp only [erase_fix, hroot, if_false, hcx, hblack, bind_ok, ne_eq,
                  not_true_eq_false, hxP, hl, if_true, hne, hcw, e1, hk1.1, hk1.2,
                  both_black_null]
                rfl
              | node W2 c2 al ak av ar =>
                by_cases hb : ar.color = .BLACK ∧ al.color = .BLACK
                · simp [erase_fix_z, hred, hb] at hz
                · simp only [erase_fix_z, hred, if_false, hb, Option.map_eq_none'] at hz
                  exact absurd hz (erase_far_r_isSome _ _ _ _ _ _ _ _ _ _ _ hb)
            | BLACK =>
              have hl1 := h.left_of_focus (Frame.left P cp kp vp x :: rest) W .BLACK wl wk wv wr
              have hr1 := h.right_of_focus (Frame.left P cp kp vp x :: rest) W .BLACK wl wk wv wr
              have hca := IsTree.color_of_hole (Frame.left W .BLACK wk wv wr ::
                Frame.left P cp kp vp x :: rest) wl hs h
              have hcb := IsTree.color_of_hole (Frame.right W .BLACK wl wk wv ::
                Frame.left P cp kp vp x :: rest) wr hs h
              have hbb := both_black_eq hcb hca
              by_cases hb : wr.color = .BLACK ∧ wl.color = .BLACK
              · simp only [erase_fix_z, hred, if_false, hb, and_self, if_true] at hz
                obtain ⟨s1, e1, h1, k1, _⟩ := h.set_color_sib
                  (Frame.right P cp (.node W .BLACK wl wk wv wr) kp vp) rest x .RED
                  W .BLACK wl wk wv wr rfl
                have hx1 := IsTree.parent_of_hole P _ _ x h1 k1 rfl hxP
                have h1' : IsTree s1 (fill rest (.node P cp (.node W .RED wl wk wv wr) kp vp x)) :=
                  h1
                obtain ⟨e, e2⟩ := ih rest _ s1 h1' (k1.sentinel hs)
                  (hk.of_cell_eq k1.keeps.nil_eq k1.sent)
                  (fun f' rest' e => by
                    subst e
                    exact h1'.parent_of_focus _ P cp _ kp vp x) hz
                simp only [Tree.ptr_node] at e2
                refine ⟨e, ?_⟩
                simp only [erase_fix, hroot, if_false, hcx, hblack, bind_ok, ne_eq,
                  not_true_eq_false, hxP, hl, if_true, hne, hcw, hl1, hr1, hbb, hb,
                  and_self, decide_True, e1, hx1, e2, reduceCtorEq, pure_eq_ok]
              · simp only [erase_fix_z, hred, if_false, hb, Option.map_eq_none'] at hz
                exact absurd hz (erase_far_r_isSome _ _ _ _ _ _ _ _ _ _ _ hb)

namespace IsTree

variable {s : RedBlackTree K V}

/-- The source's `delete_node(z)` on any tree: where the tree-level function gives no tree, the call does
not return. -/
theorem delete_node_fault (path : Path K V) (z : Ptr) (c : Color) (l : Tree K V) (k : K) (v : V)
    (r : Tree K V) (h : IsTree s (fill path (.node z c l k v r))) (hs : SentinelBlack s)
    (hk : SentinelLinks s) (ht : delete_t path c l r = none) {fuel : Nat}
    (hf : (fill path (.node z c l k v r)).height < fuel) :
    ∃ e, s.delete_node fuel z = .error e := by
  have hh := height_fill path (.node z c l k v r)
  have hnm := delete_z_not_mem path z c l k v r h.nodup
  obtain ⟨hz0, hzn, hzm⟩ := h.mem_focus path z c l k v r
  obtain ⟨s1, e1, h1, hp1, hm1, k1⟩ := h.delete_splice_sim path z c l k v r
    (show r.height < fuel by simp only [Tree.height_node] at hh; omega)
  have en1 : s1.nil = s.nil := k1.keeps.nil_eq
  obtain ⟨s2, e2, h2, k2, -, hfr2⟩ := h1.free_sim z _ hnm hz0 (en1 ▸ hzn) (hm1.trans hzm)
  have hs2 := k2.sentinel (k1.sent hs)
  have hk2 : SentinelLinks s2 :=
    (k1.sentinelLinks h.nil_ne hk).of_cell_eq k2.keeps.nil_eq k2.sent
  have en2 : s2.nil = s.nil := k2.keeps.nil_eq.trans en1
  unfold delete_t at ht
  generalize delete_z path c l r = d at ht e1 h1 hp1 hnm h2
  obtain ⟨path', x, oc⟩ := d
  simp only at hnm e1 h1 hp1 h2 ht
  have hxz : x.ptr s.nil ≠ z := by
    refine Tree.ptr_ne hzn ?_
    intro hq
    exact hnm (mem_addrs_fill_of_mem _ hq)
  cases oc with
  | RED => cases ht
  | BLACK =>
    simp only at ht
    obtain ⟨e, e3⟩ := erase_fix_fault fuel path' x s2 h2 hs2 hk2
      (fun f rest e => by
        have := hp1 f rest e
        rw [en2]
        simp only [parent_of, load] at this ⊢
        rw [hfr2 _ hxz]
        exact this) ht
    rw [en2] at e3
    refine ⟨e, ?_⟩
    simp only [delete_node, e1, e2, bind_ok, pure_eq_ok, if_true, e3]

/-- The source's `erase(key)` on any tree, red-black or not: when it returns, its memory holds the tree
of `erase_t`, the sentinel is BLACK and its child links are `nullptr` as before. -/
theorem erase_returns (comp : K → K → Bool) (key : K) {T : Tree K V} (h : IsTree s T)
    (hs : SentinelBlack s) (hk : SentinelLinks s) {fuel : Nat} (hf : T.height < fuel)
    {s' : RedBlackTree K V} {b : Bool} (he : erase comp fuel s key = .ok (s', b)) :
    ∃ T', erase_t comp key T = some (T', b) ∧ IsTree s' T' ∧ SentinelBlack s' ∧
      SentinelLinks s' ∧ s'.nil = s.nil ∧ (b = false → s' = s) := by
  have hfind := h.find_helper_sim comp key hf
  have hfill := fill_ins_path comp false key [] T
  unfold erase_t
  generalize ins_path comp false key [] T = d at hfind hfill
  obtain ⟨path, t⟩ := d
  cases t with
  | leaf =>
    have e : erase comp fuel s key = .ok (s, false) := by
      simp only [erase, hfind, Tree.ptr_leaf, bind_ok, if_true, pure_eq_ok]
    rw [e] at he
    cases he
    exact ⟨T, rfl, h, hs, hk, rfl, fun _ => rfl⟩
  | node p c l k v r =>
    simp only [fill_nil] at hfill
    rw [← hfill] at h hf
    obtain ⟨-, hpn, -⟩ := h.mem_focus path p c l k v r
    cases hd : delete_t path c l r with
    | none =>
      obtain ⟨e, e'⟩ := h.delete_node_fault path p c l k v r hs hk hd hf
      have e2 : erase comp fuel s key = .error e := by
        simp only [erase, hfind, Tree.ptr_node, bind_ok, hpn, if_false, e']
        rfl
      rw [e2] at he
      cases he
    | some T1 =>
      obtain ⟨s1, e', h', k'⟩ := h.delete_node_sim path p c l k v r T1 hs hd hf
      have e : erase comp fuel s key = .ok ({ s1 with tree_size := s1.tree_size - 1 }, true) := by
        simp only [erase, hfind, Tree.ptr_node, bind_ok, hpn, if_false, e', pure_eq_ok]
      rw [e] at he
      cases he
      refine ⟨T1, ?_, h'.set_size _, k'.sent hs, k'.sentinelLinks h.nil_ne hk,
        k'.keeps.nil_eq, fun e => by cases e⟩
      simp only [hd, Option.map_some']

/-- The source's `erase(key)` of the only node of a tree leaves the sentinel as the root, with the
sentinel for its parent: `transplant` wrote `_nil->parent = z->parent`. -/
theorem erase_last (comp : K → K → Bool) (key : K) (z : Ptr) (c : Color) (k : K) (v : V)
    (h : IsTree s (.node z c .leaf k v .leaf)) (hs : SentinelBlack s) {fuel : Nat}
    (hf : 1 < fuel) {s' : RedBlackTree K V}
    (he : erase comp fuel s key = .ok (s', true)) :
    s'.root = s'.nil ∧ s'.parent_of s'.nil = .ok s'.nil := by
  have hfind := h.find_helper_sim comp key (show (Tree.node z c .leaf k v .leaf).height < fuel by
    simp only [Tree.height_node, Tree.height_leaf]; omega)
  have h0 : IsTree s (fill [] (.node z c .leaf k v .leaf)) := h
  obtain ⟨hz0, hzn, hzm⟩ := h0.mem_focus [] z c .leaf k v .leaf
  have hc := h0.color_of_focus [] z c .leaf k v .leaf
  have hl := h0.left_of_focus [] z c .leaf k v .leaf
  have hr := h0.right_of_focus [] z c .leaf k v .leaf
  obtain ⟨hzl, hzr, hzP, -, -⟩ := h0.focus_ne [] z c .leaf k v .leaf
  obtain ⟨s1, e1, h1, hp1, hfr, k1⟩ := h0.transplant_sim [] z c .leaf k v .leaf .leaf (Or.inr rfl)
  have en1 : s1.nil = s.nil := k1.keeps.nil_eq
  have h1' : IsTree s1 .leaf := h1
  obtain ⟨s2, e2, h2, k2, hr2, hfr2⟩ := h1'.free_sim z _ (by simp) hz0 (en1 ▸ hzn)
    ((hfr z hzr hzP).trans hzm)
  have en2 : s2.nil = s.nil := k2.keeps.nil_eq.trans en1
  have hs2 := k2.sentinel (k1.sent hs)
  have hroot2 : s2.root = s2.nil := h2.root_eq
  have hp2 : s2.parent_of s2.nil = .ok s2.nil := by
    simp only [Tree.ptr_leaf, parentPtr_nil] at hp1
    rw [en2]
    simp only [parent_of, load] at hp1 ⊢
    rw [hfr2 _ (Ne.symm hzn)]
    exact hp1
  have hfix : ∀ n, erase_fix (n + 1) s2 s.nil = .ok s2 := by
    intro n
    have := h2.set_color_sentinel hs2
    rw [en2] at this hroot2
    simp only [erase_fix, hroot2, if_true, this]
  obtain ⟨n, rfl⟩ := Nat.exists_eq_succ_of_ne_zero (show fuel ≠ 0 by omega)
  have hdel : s.delete_node (n + 1) z = .ok s2 := by
    simp only [Tree.ptr_leaf] at e1 hl hr
    simp only [delete_node, delete_splice, hc, hl, if_true, hr, e1, bind_ok, pure_eq_ok, e2,
      hfix n]
    cases c <;> simp
  cases h1c : comp key k with
  | true =>
    have e : erase comp (n + 1) s key = .ok (s, false) := by
      simp only [ins_path, h1c, if_true, Tree.ptr_leaf] at hfind
      simp only [erase, hfind, bind_ok, if_true, pure_eq_ok]
    rw [e] at he
    cases he
  | false =>
    cases h2c : comp k key with
    | true =>
      have e : erase comp (n + 1) s key = .ok (s, false) := by
        simp only [ins_path, h1c, h2c, if_true, Bool.false_eq_true, if_false,
          Tree.ptr_leaf] at hfind
        simp only [erase, hfind, bind_ok, if_true, pure_eq_ok]
      rw [e] at he
      cases he
    | false =>
      have e : erase comp (n + 1) s key =
          .ok ({ s2 with tree_size := s2.tree_size - 1 }, true) := by
        simp only [ins_path, h1c, h2c, Bool.false_eq_true, if_false, Bool.not_false, if_true,
          Tree.ptr_node] at hfind
        simp only [erase, hfind, bind_ok, hzn, if_false, hdel, pure_eq_ok]
      rw [e] at he
      cases he
      exact ⟨hroot2, hp2⟩

variable {s : RedBlackTree K V} {T : Tree K V}

/-- A child of a node of the tree that is not the sentinel has the node for its parent. -/
theorem child_parent (h : IsTree s T) {n c : Ptr} (hn : n ∈ T.addrs)
    (hc : s.left_of n = .ok c ∨ s.right_of n = .ok c) (hne : c ≠ s.nil) :
    s.parent_of c = .ok n := by
  obtain ⟨path, cn, l, k, v, r, rfl⟩ := h.focus_of_mem hn
  have hl := h.left_of_focus path n cn l k v r
  have hr := h.right_of_focus path n cn l k v r
  rcases hc with hc | hc
  · rw [hl] at hc
    simp only [Except.ok.injEq] at hc
    subst hc
    cases l with
    | leaf => exact absurd rfl hne
    | node lp lc ll lk lv lr =>
      have h' : IsTree s (fill (Frame.left n cn k v r :: path) (.node lp lc ll lk lv lr)) := h
      have := h'.parent_of_focus _ lp lc ll lk lv lr
      simpa using this
  · rw [hr] at hc
    simp only [Except.ok.injEq] at hc
    subst hc
    cases r with
    | leaf => exact absurd rfl hne
    | node rp rc rl rk rv rr =>
      have h' : IsTree s (fill (Frame.right n cn l k v :: path) (.node rp rc rl rk rv rr)) := h
      have := h'.parent_of_focus _ rp rc rl rk rv rr
      simpa using this

/-- The parent of the root of a tree that is not empty is the sentinel. -/
theorem root_parent (h : IsTree s T) (hT : T ≠ .leaf) : s.parent_of s.root = .ok s.nil := by
  cases T with
  | leaf => exact absurd rfl hT
  | node p c l k v r =>
    have h' : IsTree s (fill [] (.node p c l k v r)) := h
    have := h'.parent_of_focus [] p c l k v r
    rw [h.root_eq]
    simpa using this

/-- The parent links of a tree that is not empty are consistent. -/
theorem parentLinks (h : IsTree s T) (hT : T ≠ .leaf) : ParentLinks s T.addrs :=
  ⟨h.root_parent hT, fun _ hn _ hc hne => h.child_parent hn hc hne⟩

end IsTree

/-- The tree-level `insert` never gives the empty tree. -/
theorem insert_t_ne_leaf (comp : K → K → Bool) (dup : Bool) (z : Ptr) (key : K) (val : V)
    (T T' : Tree K V) (b : Bool) (h : insert_t comp dup z key val T = some (T', b)) :
    T' ≠ .leaf := by
  have hfill := fill_ins_path comp dup key [] T
  generalize hp : ins_path comp dup key [] T = d at hfill
  obtain ⟨path, t⟩ := d
  cases t with
  | node p c l k v r =>
    rw [insert_t_found comp dup z key val T path p c l k v r hp] at h
    simp only [Option.some.injEq, Prod.mk.injEq] at h
    obtain ⟨rfl, -⟩ := h
    simp only [fill_nil] at hfill
    intro e
    rw [e] at hfill
    have := congrArg Tree.nodes hfill
    rw [nodes_fill] at this
    simp at this
  | leaf =>
    obtain ⟨-, hn'⟩ := insert_t_nodes comp dup z key val T T' path hp (by
      cases b with
      | true => exact h
      | false =>
        rw [insert_t_new comp dup z key val T path hp] at h
        simp at h)
    intro e
    rw [e] at hn'
    simp at hn'

/-- A tree with one entry in its in-order sequence is a single node. -/
theorem Tree.single_of_nodes {T : Tree K V} {e : Ptr × K × V} (h : T.nodes = [e]) :
    ∃ z c k v, T = .node z c .leaf k v .leaf := by
  cases T with
  | leaf => simp at h
  | node p c l k v r =>
    have hl : l.nodes = [] := by
      cases hl : l.nodes with
      | nil => rfl
      | cons a as =>
        have := congrArg List.length h
        simp [hl] at this
    have hr : r.nodes = [] := by
      cases hr : r.nodes with
      | nil => rfl
      | cons a as =>
        have := congrArg List.length h
        simp [hr] at this
        omega
    have el : l = .leaf := by
      cases l with
      | leaf => rfl
      | node _ _ _ _ _ _ => simp at hl
    have er : r = .leaf := by
      cases r with
      | leaf => rfl
      | node _ _ _ _ _ _ => simp at hr
    subst el er
    exact ⟨p, c, k, v, rfl⟩

/-- C32: parent-link consistency is an invariant of `insert` and `erase`.  For every state
that holds a tree (every node in its cell with the links of the tree, the sentinel BLACK
with `nullptr` child links) in which the parent of the root is the sentinel and every
child of a node that is not the sentinel has that node for its parent: after every call of
`insert` (in either mode) and every call of `erase` that returns, the state holds a tree
again and the same is true of it.  On a tree that is not a red-black tree a call can stop
at a `nullptr` link instead of returning; with the root BLACK `insert` returns, and with
the red-black invariants `erase` returns.  The loops run on `fuel`: any amount above the
height of the tree is enough. -/
theorem parent_links_invariant (comp : K → K → Bool) {s : RedBlackTree K V} {T : Tree K V}
    (h : IsTree s T) (hs : SentinelBlack s) (hk : SentinelLinks s)
    (hp : ParentLinks s T.addrs) {fuel : Nat} (hf : T.height < fuel) :
    (∀ dup k v s' it b, insert comp dup fuel s (k, v) = .ok (s', it, b) →
      ∃ T', IsTree s' T' ∧ ParentLinks s' T'.addrs) ∧
    (∀ key s' b, erase comp fuel s key = .ok (s', b) →
      ∃ T', IsTree s' T' ∧ ParentLinks s' T'.addrs) ∧
    (T.color = .BLACK → ∀ dup k v, ∃ r, insert comp dup fuel s (k, v) = .ok r) ∧
    (T.color = .BLACK → T.noRR → T.bhOK → ∀ key, ∃ r, erase comp fuel s key = .ok r) := by
  refine ⟨?_, ?_, ?_, ?_⟩
  · intro dup k v s' it b he
    obtain ⟨T', ht, h', -, -⟩ := h.insert_returns comp dup k v hs hk hf he
    exact ⟨T', h', h'.parentLinks (insert_t_ne_leaf comp dup _ k v T T' b ht)⟩
  · intro key s' b he
    obtain ⟨T', ht, h', -, -, -, hsame⟩ := h.erase_returns comp key hs hk hf he
    refine ⟨T', h', ?_, fun _ hn _ hc hne => h'.child_parent hn hc hne⟩
    by_cases hT : T' = .leaf
    · cases b with
      | false =>
        rw [hsame rfl]
        exact hp.1
      | true =>
        subst hT
        obtain ⟨A, B, e, -, hn, hn'⟩ := erase_t_true comp key T .leaf ht
        have hAB : A = [] ∧ B = [] := by
          have : A ++ B = [] := by rw [← hn']; rfl
          exact List.append_eq_nil.1 this
        rw [hAB.1, hAB.2] at hn
        obtain ⟨z, c, k, v, rfl⟩ := Tree.single_of_nodes hn
        obtain ⟨e1, e2⟩ := h.erase_last comp key z c k v hs
          (by simp only [Tree.height_node, Tree.height_leaf] at hf; omega) he
        rw [e1]
        exact e2
    · exact h'.root_parent hT
  · intro hc dup k v
    obtain ⟨s', T', it, b, e, -⟩ := h.insert_spec comp dup k v hs hc hf
    exact ⟨_, e⟩
  · intro hc hr hb key
    obtain ⟨s', T', b, e, -⟩ := h.erase_spec comp key hs hc hr hb hf
    exact ⟨_, e⟩

/-- C32 at the tree `oneNode`, which holds `(5, 0)`. -/
theorem parent_links_invariant_witness :
    (∀ dup k v s' it b, insert ltNat dup 2 oneNode (k, v) = .ok (s', it, b) →
      ∃ T', IsTree s' T' ∧ ParentLinks s' T'.addrs) ∧
    (∀ key s' b, erase ltNat 2 oneNode key = .ok (s', b) →
      ∃ T', IsTree s' T' ∧ ParentLinks s' T'.addrs) ∧
    (oneNodeTree.color = .BLACK → ∀ dup k v, ∃ r, insert ltNat dup 2 oneNode (k, v) = .ok r) ∧
    (oneNodeTree.color = .BLACK → oneNodeTree.noRR → oneNodeTree.bhOK →
      ∀ key, ∃ r, erase ltNat 2 oneNode key = .ok r) :=
  parent_links_invariant ltNat isTree_oneNode rfl ⟨rfl, rfl⟩
    (isTree_oneNode.parentLinks (by simp [oneNodeTree])) (by decide)

/-- C33, as stated, fails: `erase` writes the parent link of the sentinel.  In the tree that
`insert((5, 0))` leaves on the empty tree the parent link of the sentinel is `nullptr`;
`erase(5)` calls `transplant(z, _nil)`, whose last statement `v->parent = u->parent` sets
it to the parent of the root, the sentinel itself (address 1). -/
theorem erase_writes_sentinel_parent :
    ∃ s it s', insert ltNat false 2 (empty : RedBlackTree Nat Nat) (5, 0) = .ok (s, it, true) ∧
      s.nil = 1 ∧ s.parent_of s.nil = .ok 0 ∧ erase ltNat 2 s 5 = .ok (s', true) ∧
      s'.nil = 1 ∧ s'.parent_of s'.nil = .ok 1 :=
  ⟨_, _, _, rfl, rfl, rfl, rfl, rfl, rfl⟩

/-- C33, amended: what `insert` and `erase` leave of the sentinel.  For every state that
holds a tree, with the sentinel BLACK and its child links `nullptr`: after every call of
`insert` (in either mode) that returns, the sentinel is the same node and its color,
parent, left and right are as before; after every call of `erase` that returns, the
sentinel is the same node and its color, left and right are as before, and so is its
parent when `erase` returned false.  With the root BLACK `insert` returns, and with the
red-black invariants `erase` returns.  The loops run on `fuel`: any amount above the
height of the tree is enough. -/
theorem sentinel_fields_kept (comp : K → K → Bool) {s : RedBlackTree K V} {T : Tree K V}
    (h : IsTree s T) (hs : SentinelBlack s) (hk : SentinelLinks s) {fuel : Nat}
    (hf : T.height < fuel) :
    (∀ dup k v s' it b, insert comp dup fuel s (k, v) = .ok (s', it, b) →
      s'.nil = s.nil ∧ s'.color_of s'.nil = s.color_of s.nil ∧
        s'.parent_of s'.nil = s.parent_of s.nil ∧ s'.left_of s'.nil = s.left_of s.nil ∧
        s'.right_of s'.nil = s.right_of s.nil) ∧
    (∀ key s' b, erase comp fuel s key = .ok (s', b) →
      s'.nil = s.nil ∧ s'.color_of s'.nil = s.color_of s.nil ∧
        s'.left_of s'.nil = s.left_of s.nil ∧ s'.right_of s'.nil = s.right_of s.nil ∧
        (b = false → s'.parent_of s'.nil = s.parent_of s.nil)) ∧
    (T.color = .BLACK → ∀ dup k v, ∃ r, insert comp dup fuel s (k, v) = .ok r) ∧
    (T.color = .BLACK → T.noRR → T.bhOK → ∀ key, ∃ r, erase comp fuel s key = .ok r) := by
  refine ⟨?_, ?_, ?_, ?_⟩
  · intro dup k v s' it b he
    obtain ⟨T', -, -, hn, hm⟩ := h.insert_returns comp dup k v hs hk hf he
    refine ⟨hn, ?_, ?_, ?_, ?_⟩ <;>
    · simp only [color_of, parent_of, left_of, right_of, load]
      rw [hn, hm]
  · intro key s' b he
    obtain ⟨T', -, -, hs', hk', hn, hsame⟩ := h.erase_returns comp key hs hk hf he
    refine ⟨hn, ?_, ?_, ?_, ?_⟩
    · exact hs'.trans hs.symm
    · exact hk'.1.trans hk.1.symm
    · exact hk'.2.trans hk.2.symm
    · intro e
      rw [hsame e]
  · intro hc dup k v
    obtain ⟨s', T', it, b, e, -⟩ := h.insert_spec comp dup k v hs hc hf
    exact ⟨_, e⟩
  · intro hc hr hb key
    obtain ⟨s', T', b, e, -⟩ := h.erase_spec comp key hs hc hr hb hf
    exact ⟨_, e⟩

/-- C33, amended, at the tree `oneNode`, which holds `(5, 0)`. -/
theorem sentinel_fields_kept_witness :
    (∀ dup k v s' it b, insert ltNat dup 2 oneNode (k, v) = .ok (s', it, b) →
      s'.nil = oneNode.nil ∧ s'.color_of s'.nil = oneNode.color_of oneNode.nil ∧
        s'.parent_of s'.nil = oneNode.parent_of oneNode.nil ∧
        s'.left_of s'.nil = oneNode.left_of oneNode.nil ∧
        s'.right_of s'.nil = oneNode.right_of oneNode.nil) ∧
    (∀ key s' b, erase ltNat 2 oneNode key = .ok (s', b) →
      s'.nil = oneNode.nil ∧ s'.color_of s'.nil = oneNode.color_of oneNode.nil ∧
        s'.left_of s'.nil = oneNode.left_of oneNode.nil ∧
        s'.right_of s'.nil = oneNode.right_of oneNode.nil ∧
        (b = false → s'.parent_of s'.nil = oneNode.parent_of oneNode.nil)) ∧
    (oneNodeTree.color = .BLACK → ∀ dup k v, ∃ r, insert ltNat dup 2 oneNode (k, v) = .ok r) ∧
    (oneNodeTree.color = .BLACK → oneNodeTree.noRR → oneNodeTree.bhOK →
      ∀ key, ∃ r, erase ltNat 2 oneNode key = .ok r) :=
  sentinel_fields_kept ltNat isTree_oneNode rfl ⟨rfl, rfl⟩ (by decide)

theorem isTree_redKids : IsTree redKids redKidsTree := by
  refine ⟨rfl, ?_, ?_, ?_, ⟨_, rfl⟩, ?_, ?_⟩
  · simp [redKidsTree, redKids]
  · simp [redKidsTree]
  · simp [redKids]
  · intro p hp
    have h1 : p ≠ 1 := by rintro rfl; exact absurd hp (by decide)
    have h2 : p ≠ 2 := by rintro rfl; exact absurd hp (by decide)
    have h3 : p ≠ 3 := by rintro rfl; exact absurd hp (by decide)
    have h4 : p ≠ 4 := by rintro rfl; exact absurd hp (by decide)
    simp [redKids, h1, h2, h3, h4]
  · simp [redKids]

namespace IsTree

variable {s : RedBlackTree K V} {T : Tree K V}

/-- The statements of `insert(val)` on a tree with a BLACK root, one after the other: the
descent returns, and when it has not found the key, `insert_fix(z)` is called on the
linked node and returns. -/
theorem insert_steps (comp : K → K → Bool) (dup : Bool) (k : K) (v : V) (h : IsTree s T)
    (hs : SentinelBlack s) (hc : T.color = .BLACK) {fuel : Nat} (hf : T.height < fuel) :
    ∃ y x found, insert_loop comp dup (s.create_node k v).1 k fuel s.nil s.root =
        .ok (y, x, found) ∧
      (found = false → ∃ s1 s2, (s.create_node k v).1.insert_link comp s.brk y = .ok s1 ∧
        insert_fix fuel s1 s.brk = .ok s2 ∧
        insert comp dup fuel s (k, v) =
          .ok ({ s2 with tree_size := s2.tree_size + 1 }, ⟨s.brk, s.nil, 0⟩, true)) := by
  obtain ⟨h1, hz, hzn⟩ := h.create_node k v
  obtain ⟨s1, hs1⟩ : ∃ s1, s1 = (s.create_node k v).1 := ⟨_, rfl⟩
  have hcn : s.create_node k v = (s1, s.brk) := by rw [hs1]; rfl
  rw [← hs1] at h1 ⊢
  have hz0 : s.brk ≠ 0 := h.brk_ne
  have hm : s1.mem s.brk = some ⟨k, v, 0, s.nil, s.nil, .RED⟩ := by
    rw [hs1]; simp [RedBlackTree.create_node]
  have hnil : s1.nil = s.nil := by rw [hs1]; rfl
  have hroot : s1.root = s.root := by rw [hs1]; rfl
  have hbrk : s1.brk = s.brk + 1 := by rw [hs1]; rfl
  have hs1m : s1.mem s.nil = s.mem s.nil := by
    rw [hs1]
    simp only [RedBlackTree.create_node, Function.update_noteq (Ne.symm hzn)]
  have hs1b : SentinelBlack s1 := by
    unfold SentinelBlack color_of load at *
    rw [hnil, hs1m]
    exact hs
  have hl := load_of_mem hz0 hm
  have hloop := insert_loop_sim comp dup s1 k T [] fuel h1.rep hf
  rw [parentPtr_nil, ← h1.root_eq] at hloop
  generalize hp : ins_path comp dup k [] T = d at hloop
  obtain ⟨path, t⟩ := d
  cases t with
  | node p c l k' v' r =>
    refine ⟨p, p, true, ?_, fun e => by cases e⟩
    rw [← hnil, ← hroot]
    exact hloop
  | leaf =>
    refine ⟨parentPtr s.nil path, s.nil, false, ?_, fun _ => ?_⟩
    · have := hloop
      simp only [loop_result] at this
      rw [← hroot]
      rw [hnil] at this
      exact this
    obtain ⟨T1, hT1⟩ := insert_fix_z_isSome path (.node s.brk .RED .leaf k v .leaf)
      (by simp) (fun _ => by
        have hfill := fill_ins_path comp dup k [] T
        rw [hp] at hfill
        simp only [fill_nil] at hfill
        rw [rootColor, hfill, hc])
    have hfill := fill_ins_path comp dup k [] T
    rw [hp] at hfill
    simp only [fill_nil] at hfill
    have hlen := length_ins_path_le comp dup k T
    rw [hp] at hlen
    have hdir := ins_path_dir comp dup k T [] (by simp)
    rw [hp] at hdir
    have h1' : IsTree s1 (fill path .leaf) := by rw [hfill]; exact h1
    rw [← hnil] at hm hzn
    obtain ⟨s2, e2, h2, k2⟩ := h1'.link_sim comp path k v s.brk hdir hm hz0 hzn
      (by rw [hfill]; exact hz) (by rw [hbrk]; exact Nat.lt_succ_self _)
    obtain ⟨s3, e3, h3, k3⟩ := insert_fix_sim fuel path s.brk .RED .leaf k v .leaf s2 T1 h2
      (k2.sentinel hs1b) hT1 (by simp only at hlen; omega)
    have k23 := k2.transN k3
    rw [hnil] at e2
    refine ⟨s2, s3, e2, e3, ?_⟩
    rw [← hnil] at e2
    simp only [RedBlackTree.insert, hcn, key_of, hl, bind_ok, pure_eq_ok, hloop, loop_result,
      Bool.false_eq_true, if_false, e2, e3]
    rw [k23.keeps.nil_eq, hnil]

/-- The statements of `erase(key)` on a red-black tree, one after the other: `find_helper`
returns, and when it has found a node `z`, `delete_node(z)` takes it out of the tree,
deletes it, and the call of `erase_fix(x)`, made when the color of the node that was
removed or moved is BLACK, returns. -/
theorem erase_steps (comp : K → K → Bool) (key : K) (h : IsTree s T) (hs : SentinelBlack s)
    (hc : T.color = .BLACK) (hr : T.noRR) (hb : T.bhOK) {fuel : Nat} (hf : T.height < fuel) :
    ∃ z, find_helper comp fuel s key = .ok z ∧
      (z ≠ s.nil → ∃ s1 x oc s2 s3, s.delete_splice fuel z = .ok (s1, x, oc) ∧
        s1.free z = .ok s2 ∧
        (if oc = .BLACK then erase_fix fuel s2 x else pure s2) = .ok s3 ∧
        erase comp fuel s key = .ok ({ s3 with tree_size := s3.tree_size - 1 }, true)) := by
  obtain ⟨T', b', ht, -⟩ := erase_t_rb comp key T hc hr hb
  have hfind := h.find_helper_sim comp key hf
  have hfill := fill_ins_path comp false key [] T
  unfold erase_t at ht
  generalize ins_path comp false key [] T = d at ht hfind hfill
  obtain ⟨path, t⟩ := d
  refine ⟨_, hfind, ?_⟩
  cases t with
  | leaf => intro e; exact absurd rfl e
  | node p c l k v r =>
    intro _
    simp only [Option.map_eq_some', Prod.mk.injEq] at ht
    obtain ⟨T1, ht1, rfl, rfl⟩ := ht
    simp only [fill_nil] at hfill
    rw [← hfill] at h hf
    have hh := height_fill path (.node p c l k v r)
    have hlen := length_delete_z path p c l k v r
    have hnm := delete_z_not_mem path p c l k v r h.nodup
    obtain ⟨hz0, hzn, hzm⟩ := h.mem_focus path p c l k v r
    obtain ⟨s1, e1, h1, hp1, hm1, k1⟩ := h.delete_splice_sim path p c l k v r
      (show r.height < fuel by simp only [Tree.height_node] at hh; omega)
    have en1 : s1.nil = s.nil := k1.keeps.nil_eq
    obtain ⟨s2, e2, h2, k2, -, hfr2⟩ := h1.free_sim p _ hnm hz0 (en1 ▸ hzn) (hm1.trans hzm)
    have hs2 := k2.sentinel (k1.sent hs)
    have en2 : s2.nil = s.nil := k2.keeps.nil_eq.trans en1
    unfold delete_t at ht1
    generalize delete_z path c l r = d at ht1 e1 h1 hp1 hnm hlen h2
    obtain ⟨path', x, oc⟩ := d
    simp only at hlen hnm e1 h1 hp1 h2 ht1
    have hxz : x.ptr s.nil ≠ p := by
      refine Tree.ptr_ne hzn ?_
      intro hq
      exact hnm (mem_addrs_fill_of_mem _ hq)
    simp only [Tree.ptr_node]
    cases oc with
    | RED =>
      refine ⟨s1, _, .RED, s2, s2, e1, e2, by simp, ?_⟩
      simp only [erase, hfind, Tree.ptr_node, bind_ok, hzn, if_false, delete_node, e1, e2,
        pure_eq_ok, reduceCtorEq]
    | BLACK =>
      simp only at ht1
      obtain ⟨s3, e3, h3, k3⟩ := erase_fix_sim fuel path' x s2 T1 h2 hs2
        (fun f rest e => by
          have := hp1 f rest e
          rw [en2]
          simp only [parent_of, load] at this ⊢
          rw [hfr2 _ hxz]
          exact this) ht1 (by omega)
      rw [en2] at e3
      refine ⟨s1, _, .BLACK, s2, s3, e1, e2, by simp only [if_true]; exact e3, ?_⟩
      simp only [erase, hfind, Tree.ptr_node, bind_ok, hzn, if_false, delete_node, e1, e2,
        pure_eq_ok, if_true, e3]

end IsTree

/-- C34: the loops of `insert_fix` and `erase_fix` end, and follow no link that is not
there.  For every state that holds a tree (parent links consistent) satisfying the
red-black invariants (sentinel BLACK, root BLACK, no RED node with a RED child, equal
black height on every path), with `h` the height of the tree: the call `insert_fix(z)`
that `insert` makes on the node it has linked, and the call `erase_fix(x)` that
`delete_node` makes, return on `h + 1` units of fuel.  The loops use one unit for every
evaluation of their condition, so they make at most `h` iterations; every read and write
through a pointer that is `nullptr` or not allocated stops the call, so every node the
loops go through is a live node or the sentinel.  The other statements of `insert` and
of `erase` are shown with them: the descent, the linking of `z`, the splicing of
`delete_node` and the `delete`. -/
theorem fixup_loops_terminate (comp : K → K → Bool) {s : RedBlackTree K V} {T : Tree K V}
    (h : IsTree s T) (hs : SentinelBlack s) (hc : T.color = .BLACK) (hr : T.noRR)
    (hb : T.bhOK) :
    (∀ dup k v, ∃ y x found,
      insert_loop comp dup (s.create_node k v).1 k (T.height + 1) s.nil s.root =
        .ok (y, x, found) ∧
      (found = false → ∃ s1 s2, (s.create_node k v).1.insert_link comp s.brk y = .ok s1 ∧
        insert_fix (T.height + 1) s1 s.brk = .ok s2 ∧
        insert comp dup (T.height + 1) s (k, v) =
          .ok ({ s2 with tree_size := s2.tree_size + 1 }, ⟨s.brk, s.nil, 0⟩, true))) ∧
    (∀ key, ∃ z, find_helper comp (T.height + 1) s key = .ok z ∧
      (z ≠ s.nil → ∃ s1 x oc s2 s3, s.delete_splice (T.height + 1) z = .ok (s1, x, oc) ∧
        s1.free z = .ok s2 ∧
        (if oc = .BLACK then erase_fix (T.height + 1) s2 x else pure s2) = .ok s3 ∧
        erase comp (T.height + 1) s key =
          .ok ({ s3 with tree_size := s3.tree_size - 1 }, true))) :=
  ⟨fun dup k v => h.insert_steps comp dup k v hs hc (Nat.lt_succ_self _),
    fun key => h.erase_steps comp key hs hc hr hb (Nat.lt_succ_self _)⟩

/-- C34 at the tree `redKids`, of height 2, whose root has two RED children. -/
theorem fixup_loops_terminate_witness :
    (∀ dup k v, ∃ y x found,
      insert_loop ltNat dup (redKids.create_node k v).1 k (redKidsTree.height + 1) redKids.nil
        redKids.root = .ok (y, x, found) ∧
      (found = false → ∃ s1 s2,
        (redKids.create_node k v).1.insert_link ltNat redKids.brk y = .ok s1 ∧
        insert_fix (redKidsTree.height + 1) s1 redKids.brk = .ok s2 ∧
        insert ltNat dup (redKidsTree.height + 1) redKids (k, v) =
          .ok ({ s2 with tree_size := s2.tree_size + 1 }, ⟨redKids.brk, redKids.nil, 0⟩,
            true))) ∧
    (∀ key, ∃ z, find_helper ltNat (redKidsTree.height + 1) redKids key = .ok z ∧
      (z ≠ redKids.nil → ∃ s1 x oc s2 s3,
        redKids.delete_splice (redKidsTree.height + 1) z = .ok (s1, x, oc) ∧
        s1.free z = .ok s2 ∧
        (if oc = .BLACK then erase_fix (redKidsTree.height + 1) s2 x else pure s2) = .ok s3 ∧
        erase ltNat (redKidsTree.height + 1) redKids key =
          .ok ({ s3 with tree_size := s3.tree_size - 1 }, true))) :=
  fixup_loops_terminate ltNat isTree_redKids rfl rfl (by decide) (by decide)

/-- The in-order sequence of the tree that `sixKeys` leaves. -/
theorem inorder_sixKeys :
    (run ltNat 8 sixKeys (empty : RedBlackTree Nat Nat) >>= fun r => r.1.inorder 8).toOption =
      some [(5, 0), (10, 0), (15, 0), (16, 0), (17, 0), (20, 0)] := by
  decide!

/-- The in-order sequence of the tree that `threeTens` leaves in allow-duplicates mode:
pairs with the same key are in the order of their insertion. -/
theorem inorder_threeTens :
    (run_dup ltNat 6 threeTens (empty : RedBlackTree Nat Nat) >>=
      fun r => r.1.inorder 6).toOption = some [(5, 0), (10, 0), (10, 1), (10, 2)] := by
  decide!

/-- The in-order sequence a run leaves, read from the evaluation of the run. -/
theorem inorder_of_toOption {α : Type} {r : Res (RedBlackTree K V × α)}
    {s : RedBlackTree K V} {a : α} {fuel : Nat} {xs ys : List (K × V)}
    (h1 : r = .ok (s, a)) (h2 : s.inorder fuel = .ok xs)
    (h : (r >>= fun r => r.1.inorder fuel).toOption = some ys) : xs = ys := by
  subst h1
  simp only [bind_ok, h2, Except.toOption, Option.some.injEq] at h
  exact h

/-- The trees the class can hold in no-duplicates mode: what `run_empty` gives, with the
in-order sequence and the room the fuel leaves. -/
theorem run_empty_inorder [Inhabited K] [Inhabited V] (comp : K → K → Bool)
    (ops : List (Op K V)) {fuel : Nat} (hf : ops.length < fuel) :
    ∃ s T i e, run comp fuel ops empty = .ok (s, i, e) ∧ Valid s T ∧
      s.inorder fuel = .ok T.toList ∧ T.height < fuel ∧ T.count ≤ ops.length ∧
      (StrictWeak comp → Increasing comp T.nodes) := by
  obtain ⟨s, T, i, e, h1, hv, h3, h4, h5⟩ := run_empty comp ops hf
  have hz := hv.size
  have hfT := hv.fuel_ok (show s.tree_size < fuel by omega)
  exact ⟨s, T, i, e, h1, hv, hv.tree.inorder_sim hfT, hfT, by omega, h5⟩

/-- The trees the class can hold in allow-duplicates mode, with the in-order sequence and
the room the fuel leaves. -/
theorem run_dup_empty [Inhabited K] [Inhabited V] (comp : K → K → Bool)
    (ops : List (Op K V)) {fuel : Nat} (hf : ops.length < fuel) :
    ∃ s T i e, run_dup comp fuel ops empty = .ok (s, i, e) ∧ Valid s T ∧
      s.inorder fuel = .ok T.toList ∧ T.height < fuel ∧ T.count ≤ ops.length ∧
      (StrictWeak comp → Sorted comp T.nodes) := by
  obtain ⟨s, T, i, e, h1, hv, hz, hso⟩ := run_dup_valid comp fuel ops empty .leaf
    Valid.empty_valid (by show 0 + ops.length < fuel; omega)
  have hz0 : (empty : RedBlackTree K V).tree_size = 0 := rfl
  have hsz := hv.size
  have hfT := hv.fuel_ok (show s.tree_size < fuel by omega)
  exact ⟨s, T, i, e, h1, hv, hv.tree.inorder_sim hfT, hfT, by omega,
    fun hsw => hso hsw List.Pairwise.nil⟩

/-- The height of a tree is at most the length of its in-order sequence. -/
theorem Tree.height_le_length (T : Tree K V) : T.height ≤ T.toList.length := by
  have := T.height_le_count
  rw [Tree.count_eq_length] at this
  rw [Tree.toList_eq_map, List.length_map]
  exact this

/-- C1: `insert` of a new key in no-duplicates mode.  For every tree the class can hold,
that is, every tree reached from the empty tree by calls of `insert` and `erase`, the
in-order key sequence `xs` is strictly increasing, and for every key `k` with no
equivalent key in the tree and every value `v`: `insert((k, v))` returns the flag true
with an iterator to a node that holds `(k, v)`, and the in-order sequence, `A ++ B` before,
is `A ++ (k, v) :: B` afterwards, where every key of `A` is ordered before `k` and `k` is
ordered before every key of `B`.  The tree is the one `run` reaches with the calls `ops`;
the loops run on `fuel`, and any amount above the number of calls plus one is enough for
every call to return. -/
theorem insert_new_reachable [Inhabited K] [Inhabited V] {comp : K → K → Bool}
    (hsw : StrictWeak comp) (ops : List (Op K V)) {fuel : Nat} (hf : ops.length + 1 < fuel) :
    ∃ s i e xs, run comp fuel ops empty = .ok (s, i, e) ∧ s.inorder fuel = .ok xs ∧
      (xs.Pairwise fun a b => comp a.1 b.1 = true) ∧
      ∀ k v, (∀ x ∈ xs, ¬KeyEquiv comp k x.1) →
        ∃ s' it A B, insert comp false fuel s (k, v) = .ok (s', it, true) ∧
          s'.deref it = .ok (k, v) ∧ xs = A ++ B ∧
          s'.inorder fuel = .ok (A ++ (k, v) :: B) ∧
          (∀ x ∈ A, comp x.1 k = true) ∧ (∀ x ∈ B, comp k x.1 = true) := by
  obtain ⟨s, T, i, e, h1, hv, h2, hfT, hcnt, hinc⟩ := run_empty_inorder comp ops
    (show ops.length < fuel by omega)
  have hi := (increasing_toList comp T).1 (hinc hsw)
  refine ⟨s, i, e, T.toList, h1, h2, hi, fun k v hk => ?_⟩
  obtain ⟨s', T', it, A, B, e1, hd, -, hin, hT', hin', hA, hB⟩ :=
    insert_new_inorder hsw hv.tree hv.sentinel hv.root hi k v hk hfT
  rw [h2] at hin
  simp only [Except.ok.injEq] at hin
  refine ⟨s', it, A, B, e1, hd, hin, hin' fuel ?_, hA, hB⟩
  have hl := T'.height_le_length
  have hc : T.toList.length = T.count := by
    rw [Tree.count_eq_length, Tree.toList_eq_map, List.length_map]
  rw [hT'] at hl
  rw [hin] at hc
  simp only [List.length_append, List.length_cons] at hl hc
  omega

/-- C1 at the tree that the six calls `sixKeys` leave, and the pair `(12, 1)`: the key 12
is not in the tree. -/
theorem insert_new_reachable_witness :
    ∃ s i e xs, run ltNat 8 sixKeys (empty : RedBlackTree Nat Nat) = .ok (s, i, e) ∧
      s.inorder 8 = .ok xs ∧ xs = [(5, 0), (10, 0), (15, 0), (16, 0), (17, 0), (20, 0)] ∧
      (∀ x ∈ xs, ¬KeyEquiv ltNat 12 x.1) ∧
      ∃ s' it A B, insert ltNat false 8 s (12, 1) = .ok (s', it, true) ∧
        s'.deref it = .ok (12, 1) ∧ xs = A ++ B ∧
        s'.inorder 8 = .ok (A ++ (12, 1) :: B) ∧
        (∀ x ∈ A, ltNat x.1 12 = true) ∧ (∀ x ∈ B, ltNat 12 x.1 = true) := by
  obtain ⟨s, i, e, xs, h1, h2, -, h3⟩ :=
    insert_new_reachable strictWeak_ltNat sixKeys (show sixKeys.length + 1 < 8 by decide)
  have hxs := inorder_of_toOption h1 h2 inorder_sixKeys
  have hk : ∀ x ∈ xs, ¬KeyEquiv ltNat 12 x.1 := by rw [hxs]; decide
  exact ⟨s, i, e, xs, h1, h2, hxs, hk, h3 12 1 hk⟩

/-- C2: `insert` of a present key in no-duplicates mode.  For every tree the class can
hold, that is, every tree reached from the empty tree by calls of `insert` and `erase`,
and every key `k` with an equivalent key in the tree and every value `v`: `insert((k, v))`
returns the flag false with an iterator to a node that holds a pair `x` of the tree with a
key equivalent to `k`, and leaves the root, the sentinel, the size and every node as they
were (the same shape, colors and pairs), so that `inorder()` is the sequence `xs` it was:
the value under `k` is the one of `x`, not `v`.  The tree is the one `run` reaches with
the calls `ops`; the loops run on `fuel`, and any amount above the number of calls is
enough for every call to return. -/
theorem insert_present_reachable [Inhabited K] [Inhabited V] {comp : K → K → Bool}
    (hsw : StrictWeak comp) (ops : List (Op K V)) {fuel : Nat} (hf : ops.length < fuel) :
    ∃ s i e xs, run comp fuel ops empty = .ok (s, i, e) ∧ s.inorder fuel = .ok xs ∧
      ∀ k v, (∃ x ∈ xs, KeyEquiv comp k x.1) →
        ∃ s' it x, insert comp false fuel s (k, v) = .ok (s', it, false) ∧
          x ∈ xs ∧ KeyEquiv comp k x.1 ∧ s'.deref it = .ok x ∧
          s'.mem = s.mem ∧ s'.root = s.root ∧ s'.nil = s.nil ∧ s'.size = s.size ∧
          s'.inorder fuel = .ok xs := by
  obtain ⟨s, T, i, e, h1, hv, h2, hfT, -, hinc⟩ := run_empty_inorder comp ops hf
  have hi := (sorted_toList comp T).1 ((hinc hsw).sorted hsw)
  refine ⟨s, i, e, T.toList, h1, h2, fun k v hk => ?_⟩
  obtain ⟨s', it, x, e1, hx, hkx, hd, hm, hr, hn, hz, -, hin⟩ :=
    insert_present_unchanged hsw hv.tree hi k v hk hfT
  exact ⟨s', it, x, e1, hx, hkx, hd, hm, hr, hn, hz, hin.trans h2⟩

/-- C2 at the tree that the six calls `sixKeys` leave, and the pair `(15, 9)`: the key 15
is in the tree, with the value 0. -/
theorem insert_present_reachable_witness :
    ∃ s i e xs, run ltNat 8 sixKeys (empty : RedBlackTree Nat Nat) = .ok (s, i, e) ∧
      s.inorder 8 = .ok xs ∧ xs = [(5, 0), (10, 0), (15, 0), (16, 0), (17, 0), (20, 0)] ∧
      (∃ x ∈ xs, KeyEquiv ltNat 15 x.1) ∧
      ∃ s' it x, insert ltNat false 8 s (15, 9) = .ok (s', it, false) ∧
        x ∈ xs ∧ KeyEquiv ltNat 15 x.1 ∧ s'.deref it = .ok x ∧
        s'.mem = s.mem ∧ s'.root = s.root ∧ s'.nil = s.nil ∧ s'.size = s.size ∧
        s'.inorder 8 = .ok xs := by
  obtain ⟨s, i, e, xs, h1, h2, h3⟩ :=
    insert_present_reachable strictWeak_ltNat sixKeys (show sixKeys.length < 8 by decide)
  have hxs := inorder_of_toOption h1 h2 inorder_sixKeys
  have hk : ∃ x ∈ xs, KeyEquiv ltNat 15 x.1 := ⟨(15, 0), by rw [hxs]; decide, by decide⟩
  exact ⟨s, i, e, xs, h1, h2, hxs, hk, h3 15 9 hk⟩

/-- C3: `erase` of a present key in no-duplicates mode.  For every tree the class can
hold, that is, every tree reached from the empty tree by calls of `insert` and `erase`
(it is a search tree with every parent link in place), and every key `k` with an
equivalent key in the tree: `erase(k)` returns true, and the in-order sequence,
`A ++ x :: B` before with `x` the pair whose key is equivalent to `k`, is `A ++ B`
afterwards: every other pair is kept, with its value, in the same order, and no key
equivalent to `k` is left.  The node that holds `x` can have no child, one child or two;
the statement is the same for all.  The tree is the one `run` reaches with the calls
`ops`; the loops run on `fuel`, and any amount above the number of calls is enough for
every call to return. -/
theorem erase_present_reachable [Inhabited K] [Inhabited V] {comp : K → K → Bool}
    (hsw : StrictWeak comp) (ops : List (Op K V)) {fuel : Nat} (hf : ops.length < fuel) :
    ∃ s i e xs, run comp fuel ops empty = .ok (s, i, e) ∧ s.inorder fuel = .ok xs ∧
      ∀ k, (∃ x ∈ xs, KeyEquiv comp k x.1) →
        ∃ s' A x B, erase comp fuel s k = .ok (s', true) ∧ xs = A ++ x :: B ∧
          KeyEquiv comp k x.1 ∧ s'.inorder fuel = .ok (A ++ B) ∧
          ∀ y ∈ A ++ B, ¬KeyEquiv comp k y.1 := by
  obtain ⟨s, T, i, e, h1, hv, h2, hfT, hcnt, hinc⟩ := run_empty_inorder comp ops hf
  have hi := (increasing_toList comp T).1 (hinc hsw)
  refine ⟨s, i, e, T.toList, h1, h2, fun k hk => ?_⟩
  obtain ⟨s', T', A, B, x, e1, -, hkx, hin, hT', hin', hno⟩ :=
    erase_present_inorder hsw hv.tree hv.sentinel hv.root hv.noRR hv.bhOK hi k hk hfT
  rw [h2] at hin
  simp only [Except.ok.injEq] at hin
  refine ⟨s', A, x, B, e1, hin, hkx, hin' fuel ?_, hno⟩
  have hl := T'.height_le_length
  have hc : T.toList.length = T.count := by
    rw [Tree.count_eq_length, Tree.toList_eq_map, List.length_map]
  rw [hT'] at hl
  rw [hin] at hc
  simp only [List.length_append, List.length_cons] at hl hc
  omega

/-- C3 at the tree that the six calls `sixKeys` leave, and the key 10: it is in the root,
which has two children, and its successor, 15, is not the right child of the root and has
a right child. -/
theorem erase_present_reachable_witness :
    ∃ s i e xs, run ltNat 8 sixKeys (empty : RedBlackTree Nat Nat) = .ok (s, i, e) ∧
      s.inorder 8 = .ok xs ∧ xs = [(5, 0), (10, 0), (15, 0), (16, 0), (17, 0), (20, 0)] ∧
      (∃ x ∈ xs, KeyEquiv ltNat 10 x.1) ∧
      ∃ s' A x B, erase ltNat 8 s 10 = .ok (s', true) ∧ xs = A ++ x :: B ∧
        KeyEquiv ltNat 10 x.1 ∧ s'.inorder 8 = .ok (A ++ B) ∧
        ∀ y ∈ A ++ B, ¬KeyEquiv ltNat 10 y.1 := by
  obtain ⟨s, i, e, xs, h1, h2, h3⟩ :=
    erase_present_reachable strictWeak_ltNat sixKeys (show sixKeys.length < 8 by decide)
  have hxs := inorder_of_toOption h1 h2 inorder_sixKeys
  have hk : ∃ x ∈ xs, KeyEquiv ltNat 10 x.1 := ⟨(10, 0), by rw [hxs]; decide, by decide⟩
  exact ⟨s, i, e, xs, h1, h2, hxs, hk, h3 10 hk⟩

/-- C23: `insert` in allow-duplicates mode.  For every tree the class can hold in that
mode, that is, every tree reached from the empty tree by calls of `insert` and `erase`,
the in-order key sequence `xs` is non-decreasing, and for every pair `(k, v)`:
`insert((k, v))` returns the flag true with an iterator to a node that holds `(k, v)`,
and `size()` grows by one.  The in-order sequence, `A ++ B` before, is
`A ++ (k, v) :: B` afterwards, where `k` is ordered before no key of `A` and before every
key of `B`: no key of `B` is equivalent to `k`, so the new element comes after every
element with an equivalent key; and the sequence is non-decreasing again.  The tree is
the one `run_dup` reaches with the calls `ops`; the loops run on `fuel`, and any amount
above the number of calls plus one is enough for every call to return. -/
theorem insert_dup_reachable [Inhabited K] [Inhabited V] {comp : K → K → Bool}
    (hsw : StrictWeak comp) (ops : List (Op K V)) {fuel : Nat} (hf : ops.length + 1 < fuel) :
    ∃ s i e xs, run_dup comp fuel ops empty = .ok (s, i, e) ∧ s.inorder fuel = .ok xs ∧
      (xs.Pairwise fun a b => comp b.1 a.1 = false) ∧
      ∀ k v, ∃ s' it A B, insert comp true fuel s (k, v) = .ok (s', it, true) ∧
        s'.size = s.size + 1 ∧ s'.deref it = .ok (k, v) ∧ xs = A ++ B ∧
        s'.inorder fuel = .ok (A ++ (k, v) :: B) ∧
        (∀ x ∈ A, comp k x.1 = false) ∧ (∀ x ∈ B, comp k x.1 = true) ∧
        (∀ x ∈ B, ¬KeyEquiv comp k x.1) ∧
        ((A ++ (k, v) :: B).Pairwise fun a b => comp b.1 a.1 = false) := by
  obtain ⟨s, T, i, e, h1, hv, h2, hfT, hcnt, hso⟩ := run_dup_empty comp ops
    (show ops.length < fuel by omega)
  have hi := (sorted_toList comp T).1 (hso hsw)
  refine ⟨s, i, e, T.toList, h1, h2, hi, fun k v => ?_⟩
  obtain ⟨s', T', it, A, B, e1, hz, hd, -, hin, hT', hin', hA, hB, hBn, hp⟩ :=
    insert_dup_after_equals hsw hv.tree hv.sentinel hv.root hi k v hfT
  rw [h2] at hin
  simp only [Except.ok.injEq] at hin
  refine ⟨s', it, A, B, e1, hz, hd, hin, hin' fuel ?_, hA, hB, hBn, hp⟩
  have hl := T'.height_le_length
  have hc : T.toList.length = T.count := by
    rw [Tree.count_eq_length, Tree.toList_eq_map, List.length_map]
  rw [hT'] at hl
  rw [hin] at hc
  simp only [List.length_append, List.length_cons] at hl hc
  omega

/-- C23 at the tree that the four calls `threeTens` leave, which holds the key 10 three
times, and the pair `(10, 3)`: it comes after the three. -/
theorem insert_dup_reachable_witness :
    ∃ s i e xs, run_dup ltNat 6 threeTens (empty : RedBlackTree Nat Nat) = .ok (s, i, e) ∧
      s.inorder 6 = .ok xs ∧ xs = [(5, 0), (10, 0), (10, 1), (10, 2)] ∧
      ∃ s' it A B, insert ltNat true 6 s (10, 3) = .ok (s', it, true) ∧
        s'.size = s.size + 1 ∧ s'.deref it = .ok (10, 3) ∧ xs = A ++ B ∧
        s'.inorder 6 = .ok (A ++ (10, 3) :: B) ∧
        (∀ x ∈ A, ltNat 10 x.1 = false) ∧ (∀ x ∈ B, ltNat 10 x.1 = true) ∧
        (∀ x ∈ B, ¬KeyEquiv ltNat 10 x.1) ∧
        ((A ++ (10, 3) :: B).Pairwise fun a b => ltNat b.1 a.1 = false) := by
  obtain ⟨s, i, e, xs, h1, h2, -, h3⟩ :=
    insert_dup_reachable strictWeak_ltNat threeTens (show threeTens.length + 1 < 6 by decide)
  have hxs := inorder_of_toOption h1 h2 inorder_threeTens
  exact ⟨s, i, e, xs, h1, h2, hxs, h3 10 3⟩

end RBT
